import Mathlib

/-!
# BusTub: buffer pool manager, LRU replacer and B+ tree index

A shallow embedding of `src/buffer/lru_replacer.cpp`,
`src/buffer/buffer_pool_manager.cpp` and of the B+ tree index under `src/storage`.

* `frame_id_t` and `page_id_t` are C++ `int32_t`; they are only compared and copied,
  so they are modelled by `Int`. `pin_count_` is a C++ `int`, modelled by `Int`.
* `std::list<frame_id_t>` is a `List`, whose head is `begin()` and whose last element
  is `back()`.
* `std::unordered_map` is a finite map whose iteration order is never used by the
  modelled functions; it is modelled by a total function into `Option`/`Bool`.
* Every public function of the buffer pool manager takes `latch_` for its whole body,
  so each call is one atomic state transformer.
-/

namespace bustub

abbrev frame_id_t := Int
abbrev page_id_t := Int

/-- The bytes of a page (`char data_[PAGE_SIZE]`). -/
abbrev PageData := List Nat

def INVALID_PAGE_ID : page_id_t := -1

/-- Modelled from the spec: `PAGE_SIZE` of `common/config.h`, which is not among the
sources; the spec gives "typically 4 KiB". -/
def PAGE_SIZE : Nat := 4096

/-- Pointwise update of a total map: `setAt f a v` is `f` with `a` sent to `v`. -/
def setAt {β : Type} (f : Int → β) (a : Int) (v : β) : Int → β :=
  fun b => if b = a then v else f b

/-! ## LRUReplacer (`src/buffer/lru_replacer.cpp`) -/

/-- State of `LRUReplacer`. `lru` is the `std::list`, `mp` is the key set of the
`unordered_map` from frame id to list iterator (`mp f = true` iff `mp.find(f) != mp.end()`;
the iterator stored for `f` points to the node of `lru` that holds `f`).
`num_pages_` and `max_num_pages_` are `size_t`; every decrement in the source is
made on a positive counter in the states studied here, so no wrap-around occurs. -/
structure LRUReplacer where
  max_num_pages_ : Nat
  num_pages_ : Nat
  lru : List frame_id_t
  mp : frame_id_t → Bool

/-- `LRUReplacer::LRUReplacer(num_pages)`. -/
def LRUReplacer.new (num_pages : Nat) : LRUReplacer :=
  { max_num_pages_ := num_pages, num_pages_ := 0, lru := [], mp := fun _ => false }

/-- `LRUReplacer::Victim`. The result `some id` stands for `true` with `*frame_id = id`
and `none` for `false`. (`lru.back()` on an empty list, which the source would only
reach with `num_pages_ != 0` and an empty list, leaves the state as it is.) -/
def LRUReplacer.Victim (r : LRUReplacer) : LRUReplacer × Option frame_id_t :=
  if r.num_pages_ ≠ 0 then
    match r.lru.getLast? with
    | some id =>
      ({ r with num_pages_ := r.num_pages_ - 1, lru := r.lru.dropLast, mp := setAt r.mp id false },
        some id)
    | none => (r, none)
  else (r, none)

/-- `LRUReplacer::Pin`. -/
def LRUReplacer.Pin (r : LRUReplacer) (frame_id : frame_id_t) : LRUReplacer :=
  if r.mp frame_id then
    { r with lru := r.lru.erase frame_id, num_pages_ := r.num_pages_ - 1,
             mp := setAt r.mp frame_id false }
  else r

/-- `LRUReplacer::Unpin`. -/
def LRUReplacer.Unpin (r : LRUReplacer) (frame_id : frame_id_t) : LRUReplacer :=
  if r.mp frame_id then r
  else
    let r1 := if r.num_pages_ = r.max_num_pages_ then r.Victim.1 else r
    { r1 with lru := frame_id :: r1.lru, mp := setAt r1.mp frame_id true,
              num_pages_ := r1.num_pages_ + 1 }

/-- `LRUReplacer::Size`. -/
def LRUReplacer.Size (r : LRUReplacer) : Nat := r.num_pages_

/-- Calls of the replacer that a client makes between victim selections. -/
inductive LRUCall where
  | Pin (f : frame_id_t)
  | Unpin (f : frame_id_t)

def LRUReplacer.call (r : LRUReplacer) : LRUCall → LRUReplacer
  | .Pin f => r.Pin f
  | .Unpin f => r.Unpin f

/-- `n` successive calls of `Victim`; the list of the frames they return, in call order
(a failed call contributes nothing). -/
def LRUReplacer.Victims : Nat → LRUReplacer → List frame_id_t
  | 0, _ => []
  | n + 1, r =>
    match r.Victim with
    | (r1, some id) => id :: LRUReplacer.Victims n r1
    | (r1, none) => LRUReplacer.Victims n r1

/-- The replacer after `n` successive calls of `Victim`. -/
def LRUReplacer.afterVictims : Nat → LRUReplacer → LRUReplacer
  | 0, r => r
  | n + 1, r => LRUReplacer.afterVictims n r.Victim.1

/-! ### The ordering the spec promises, stated with time stamps -/

/-- Time stamps following the spec's words: `stamp f = some t` when `f` is tracked and
was last inserted by the `t`-th call, an `Unpin f` made while `f` was not tracked. -/
structure Stamps where
  clock : Nat
  stamp : frame_id_t → Option Nat

def Stamps.new : Stamps := { clock := 0, stamp := fun _ => none }

def Stamps.call (s : Stamps) : LRUCall → Stamps
  | .Pin f => { clock := s.clock + 1, stamp := setAt s.stamp f none }
  | .Unpin f =>
    match s.stamp f with
    | some _ => { s with clock := s.clock + 1 }
    | none => { clock := s.clock + 1, stamp := setAt s.stamp f (some (s.clock + 1)) }

/-- Number of tracked frames after each prefix of `cs` never exceeds `K`, counted on the
replacer itself: no `Unpin` of an untracked frame is made with `Size() = K`. -/
def withinCapacity (r : LRUReplacer) : List LRUCall → Bool
  | [] => true
  | .Pin f :: cs => withinCapacity (r.call (.Pin f)) cs
  | .Unpin f :: cs =>
    (r.mp f || decide (r.num_pages_ < r.max_num_pages_)) && withinCapacity (r.call (.Unpin f)) cs

/-- Consistency of the replacer's three fields: the list has no duplicate, the map holds
exactly the frames of the list, and the counter is the length of the list. -/
structure LRUReplacer.WF (r : LRUReplacer) : Prop where
  nodup : r.lru.Nodup
  mp_iff : ∀ f, r.mp f = true ↔ f ∈ r.lru
  size_eq : r.num_pages_ = r.lru.length

/-- Frame `a` was inserted before frame `b` according to the time stamps. -/
def Stamps.before (s : Stamps) (a b : frame_id_t) : Prop :=
  ∃ ta tb, s.stamp a = some ta ∧ s.stamp b = some tb ∧ ta < tb

/-- The replacer and the time stamps after a sequence of `Pin`/`Unpin` calls. -/
def LRUReplacer.calls (r : LRUReplacer) (cs : List LRUCall) : LRUReplacer :=
  cs.foldl LRUReplacer.call r

def Stamps.calls (s : Stamps) (cs : List LRUCall) : Stamps :=
  cs.foldl Stamps.call s

/-- The three calls of the replacer. -/
inductive LRUOp where
  | Victim
  | Pin (f : frame_id_t)
  | Unpin (f : frame_id_t)

/-- The replacer after one call. -/
def LRUReplacer.apply (r : LRUReplacer) : LRUOp → LRUReplacer
  | .Victim => r.Victim.1
  | .Pin f => r.Pin f
  | .Unpin f => r.Unpin f

/-- The replacer after a sequence of calls. -/
def LRUReplacer.applyAll (r : LRUReplacer) (ops : List LRUOp) : LRUReplacer :=
  ops.foldl LRUReplacer.apply r

/-- Insertion times along a run: a call `Unpin f` made on `r` while `f` is not tracked
inserts `f` and stamps it with the time of the call; no other call changes a stamp, so
the stamp of a tracked frame is the time of the call that inserted it. -/
def Stamps.apply (r : LRUReplacer) (s : Stamps) : LRUOp → Stamps
  | .Unpin f =>
    if r.mp f then { s with clock := s.clock + 1 }
    else { clock := s.clock + 1, stamp := setAt s.stamp f (some (s.clock + 1)) }
  | _ => { s with clock := s.clock + 1 }

/-- The insertion times after a sequence of calls made on `r`. -/
def Stamps.applyAll : LRUReplacer → Stamps → List LRUOp → Stamps
  | _, s, [] => s
  | r, s, op :: ops => Stamps.applyAll (r.apply op) (s.apply r op) ops

/-- Link between the replacer and the insertion times: every tracked frame has a stamp
and the list is ordered from the latest insertion to the earliest. -/
structure Dated (r : LRUReplacer) (s : Stamps) : Prop where
  wf : r.WF
  has : ∀ f, r.mp f = true → (s.stamp f).isSome = true
  bound : ∀ f t, s.stamp f = some t → t ≤ s.clock
  order : r.lru.Pairwise (fun a b => s.before b a)

/-! ## BufferPoolManager (`src/buffer/buffer_pool_manager.cpp`) -/

/-- A `Page` object: its bytes and the metadata the buffer pool manager maintains. -/
structure Page where
  data_ : PageData
  page_id_ : page_id_t
  pin_count_ : Int
  is_dirty_ : Bool

/-- `Page::ResetMemory`: all bytes of the page are set to zero. -/
def zeroData : PageData := List.replicate PAGE_SIZE 0

/-- Modelled from the spec: the state of a freshly constructed `Page` (`page.h` is not
among the sources): zeroed bytes, `page_id_` INVALID, `pin_count_` 0, not dirty. -/
def Page.fresh : Page :=
  { data_ := zeroData, page_id_ := INVALID_PAGE_ID, pin_count_ := 0, is_dirty_ := false }

/-- Modelled from the spec: the disk manager, an external collaborator with the four
calls `AllocatePage`, `DeallocatePage`, `ReadPage` and `WritePage` (its source is not
among the sources). `pages_` is the stored content of each page id, `next_page_id` the
monotonic allocator, `deallocated` the ids passed to `DeallocatePage` (latest first),
`num_writes` the number of `WritePage` calls made so far. -/
structure DiskManager where
  next_page_id : page_id_t
  pages_ : page_id_t → PageData
  deallocated : List page_id_t
  num_writes : Nat

/-- Modelled from the spec: `AllocatePage() → page_id`, a fresh id from a monotonic
counter. -/
def DiskManager.AllocatePage (d : DiskManager) : DiskManager × page_id_t :=
  ({ d with next_page_id := d.next_page_id + 1 }, d.next_page_id)

/-- Modelled from the spec: `DeallocatePage(page_id)`. -/
def DiskManager.DeallocatePage (d : DiskManager) (page_id : page_id_t) : DiskManager :=
  { d with deallocated := page_id :: d.deallocated }

/-- Modelled from the spec: `ReadPage(page_id, byte_buffer)`, the stored bytes. -/
def DiskManager.ReadPage (d : DiskManager) (page_id : page_id_t) : PageData :=
  d.pages_ page_id

/-- Modelled from the spec: `WritePage(page_id, byte_buffer)`. -/
def DiskManager.WritePage (d : DiskManager) (page_id : page_id_t) (bytes : PageData) :
    DiskManager :=
  { d with pages_ := setAt d.pages_ page_id bytes, num_writes := d.num_writes + 1 }

/-- State of `BufferPoolManager`: `pages_ f` is `pages_[f]` (meaningful for
`0 ≤ f < pool_size_`), `page_table_ p = some f` iff `page_table_` maps `p` to `f`,
the last element of `free_list_` is `back()`. -/
structure BufferPoolManager where
  pool_size_ : Nat
  pages_ : frame_id_t → Page
  page_table_ : page_id_t → Option frame_id_t
  free_list_ : List frame_id_t
  replacer_ : LRUReplacer
  disk_manager_ : DiskManager

/-- `BufferPoolManager::BufferPoolManager(pool_size, disk_manager, log_manager)`. -/
def BufferPoolManager.new (pool_size : Nat) (disk_manager : DiskManager) :
    BufferPoolManager :=
  { pool_size_ := pool_size
    pages_ := fun _ => Page.fresh
    page_table_ := fun _ => none
    free_list_ := (List.range pool_size).map Int.ofNat
    replacer_ := LRUReplacer.new pool_size
    disk_manager_ := disk_manager }

/-- The `for` loop of `BufferPoolManager::FindFrame`, with `n` iterations left. The
result `some f` stands for `not_found = false` with `*frame_id = f`. -/
def BufferPoolManager.FindFrameLoop : Nat → BufferPoolManager →
    BufferPoolManager × Option frame_id_t
  | 0, s => (s, none)
  | n + 1, s =>
    match s.replacer_.Victim with
    | (r, some f) =>
      if (s.pages_ f).pin_count_ ≤ 0 then
        ({ s with replacer_ := r, page_table_ := setAt s.page_table_ (s.pages_ f).page_id_ none },
          some f)
      else
        BufferPoolManager.FindFrameLoop n { s with replacer_ := r.Unpin f }
    | (r, none) => BufferPoolManager.FindFrameLoop n { s with replacer_ := r }

/-- `BufferPoolManager::FindFrame`. The result `some f` stands for the returned pointer
`&pages_[f]` with `*frame_id = f`, and `none` for `nullptr`. -/
def BufferPoolManager.FindFrame (s : BufferPoolManager) :
    BufferPoolManager × Option frame_id_t :=
  match s.free_list_.getLast? with
  | none => BufferPoolManager.FindFrameLoop s.replacer_.Size s
  | some f => ({ s with free_list_ := s.free_list_.dropLast }, some f)

/-- `BufferPoolManager::FetchPageImpl`. The result `some f` stands for the returned
pointer `&pages_[f]`, and `none` for `nullptr`. -/
def BufferPoolManager.FetchPageImpl (s : BufferPoolManager) (page_id : page_id_t) :
    BufferPoolManager × Option frame_id_t :=
  match s.page_table_ page_id with
  | some f =>
    ({ s with
        pages_ := setAt s.pages_ f { (s.pages_ f) with pin_count_ := (s.pages_ f).pin_count_ + 1 } },
      some f)
  | none =>
    match s.FindFrame with
    | (s1, none) => (s1, none)
    | (s1, some f) =>
      let page := s1.pages_ f
      let disk1 := if page.is_dirty_ then s1.disk_manager_.WritePage page.page_id_ page.data_
        else s1.disk_manager_
      ({ s1 with
          disk_manager_ := disk1
          page_table_ := setAt s1.page_table_ page_id (some f)
          replacer_ := s1.replacer_.Unpin f
          pages_ := setAt s1.pages_ f ⟨disk1.ReadPage page_id, page_id, 1, false⟩ }, some f)

/-- `BufferPoolManager::UnpinPageImpl`. -/
def BufferPoolManager.UnpinPageImpl (s : BufferPoolManager) (page_id : page_id_t)
    (is_dirty : Bool) : BufferPoolManager × Bool :=
  match s.page_table_ page_id with
  | some f =>
    let page := s.pages_ f
    let page1 := if is_dirty then { page with is_dirty_ := true } else page
    ({ s with pages_ := setAt s.pages_ f { page1 with pin_count_ := page1.pin_count_ - 1 } }, true)
  | none => (s, false)

/-- `BufferPoolManager::FlushPageImpl`. -/
def BufferPoolManager.FlushPageImpl (s : BufferPoolManager) (page_id : page_id_t) :
    BufferPoolManager × Bool :=
  match s.page_table_ page_id with
  | some f =>
    let page := { (s.pages_ f) with is_dirty_ := false }
    ({ s with pages_ := setAt s.pages_ f page
              disk_manager_ := s.disk_manager_.WritePage page_id page.data_ }, true)
  | none => (s, false)

/-- `BufferPoolManager::NewPageImpl`. The result is the returned pointer (`some f` for
`&pages_[f]`) together with the allocated page id, which the source stores in
`*page_id` only when a frame was found. -/
def BufferPoolManager.NewPageImpl (s : BufferPoolManager) :
    BufferPoolManager × Option (frame_id_t × page_id_t) :=
  let (disk0, page_id_) := s.disk_manager_.AllocatePage
  let s0 := { s with disk_manager_ := disk0 }
  match s0.FindFrame with
  | (s1, none) => (s1, none)
  | (s1, some f) =>
    let page := s1.pages_ f
    let disk1 := if page.is_dirty_ then s1.disk_manager_.WritePage page.page_id_ page.data_
      else s1.disk_manager_
    ({ s1 with
        disk_manager_ := disk1
        page_table_ := setAt s1.page_table_ page_id_ (some f)
        replacer_ := s1.replacer_.Unpin f
        pages_ := setAt s1.pages_ f ⟨zeroData, page_id_, 1, false⟩ }, some (f, page_id_))

/-- `BufferPoolManager::DeletePageImpl`. -/
def BufferPoolManager.DeletePageImpl (s : BufferPoolManager) (page_id : page_id_t) :
    BufferPoolManager × Bool :=
  match s.page_table_ page_id with
  | none => (s, true)
  | some f =>
    let page := s.pages_ f
    if page.pin_count_ > 0 then (s, false)
    else
      ({ s with
          page_table_ := setAt s.page_table_ page.page_id_ none
          free_list_ := s.free_list_ ++ [f]
          replacer_ := s.replacer_.Pin f
          disk_manager_ := s.disk_manager_.DeallocatePage page.page_id_
          pages_ := setAt s.pages_ f ⟨zeroData, INVALID_PAGE_ID, 0, false⟩ }, true)

/-- A client writing bytes into a resident page through the `Page` pointer it got from
`FetchPage` or `NewPage`. -/
def BufferPoolManager.WriteData (s : BufferPoolManager) (page_id : page_id_t)
    (bytes : PageData) : BufferPoolManager :=
  match s.page_table_ page_id with
  | some f => { s with pages_ := setAt s.pages_ f { (s.pages_ f) with data_ := bytes } }
  | none => s

/-- The calls a client can make on a buffer pool manager. -/
inductive Op where
  | FetchPage (page_id : page_id_t)
  | NewPage
  | UnpinPage (page_id : page_id_t) (is_dirty : Bool)
  | FlushPage (page_id : page_id_t)
  | DeletePage (page_id : page_id_t)
  | WriteData (page_id : page_id_t) (bytes : PageData)

/-- The state after one call. -/
def BufferPoolManager.step (s : BufferPoolManager) : Op → BufferPoolManager
  | .FetchPage p => (s.FetchPageImpl p).1
  | .NewPage => s.NewPageImpl.1
  | .UnpinPage p d => (s.UnpinPageImpl p d).1
  | .FlushPage p => (s.FlushPageImpl p).1
  | .DeletePage p => (s.DeletePageImpl p).1
  | .WriteData p b => s.WriteData p b

/-- The state after a sequence of calls. -/
def BufferPoolManager.run (s : BufferPoolManager) (ops : List Op) : BufferPoolManager :=
  ops.foldl BufferPoolManager.step s

/-- States reachable from a freshly constructed buffer pool manager (any pool size, any
disk) by a sequence of calls each of which satisfies `ok` in the state it is made in. -/
inductive ReachableVia (ok : BufferPoolManager → Op → Prop) : BufferPoolManager → Prop where
  | init (pool_size : Nat) (d : DiskManager) :
      ReachableVia ok (BufferPoolManager.new pool_size d)
  | step (s : BufferPoolManager) (op : Op) :
      ReachableVia ok s → ok s op → ReachableVia ok (s.step op)

/-- States reachable by any sequence of calls with any arguments. -/
def Reachable : BufferPoolManager → Prop := ReachableVia (fun _ _ => True)

/-- A client that asks `FetchPage` only for page ids the disk manager has already
handed out. -/
def Op.allocated (s : BufferPoolManager) : Op → Prop
  | .FetchPage p => p < s.disk_manager_.next_page_id
  | _ => True

/-- States reachable by calls in which `FetchPage` is only asked for allocated ids. -/
def ReachableAllocated : BufferPoolManager → Prop := ReachableVia Op.allocated

/-- A client that calls `UnpinPage` only on pages it has pinned: the page is not
resident or its pin count is positive. -/
def Op.balanced (s : BufferPoolManager) : Op → Prop
  | .UnpinPage p _ => ∀ f, s.page_table_ p = some f → 0 < (s.pages_ f).pin_count_
  | _ => True

/-- States reachable by calls in which `UnpinPage` is only made on pinned pages. -/
def ReachableBalanced : BufferPoolManager → Prop := ReachableVia Op.balanced

/-- Invariant of the buffer pool manager that holds whatever the calls are. -/
structure Inv (s : BufferPoolManager) : Prop where
  wf : s.replacer_.WF
  cap : s.replacer_.max_num_pages_ = s.pool_size_
  free_nodup : s.free_list_.Nodup
  frames : ∀ f, (f ∈ s.free_list_ ∨ f ∈ s.replacer_.lru) ↔ (0 ≤ f ∧ f < s.pool_size_)
  disjoint : ∀ f, f ∈ s.free_list_ → f ∉ s.replacer_.lru
  table : ∀ p f, s.page_table_ p = some f → f ∈ s.replacer_.lru ∧ (s.pages_ f).page_id_ = p
  free_fresh : ∀ f, f ∈ s.free_list_ → s.pages_ f = Page.fresh

/-- The invariant between `FindFrame` and the installation of the new page: frame `f`
has been taken out of the free list or of the replacer, and no key maps to it. -/
structure InvMinus (s : BufferPoolManager) (f : frame_id_t) : Prop where
  wf : s.replacer_.WF
  cap : s.replacer_.max_num_pages_ = s.pool_size_
  free_nodup : s.free_list_.Nodup
  range : 0 ≤ f ∧ f < s.pool_size_
  not_free : f ∉ s.free_list_
  not_lru : f ∉ s.replacer_.lru
  frames : ∀ g, (g ∈ s.free_list_ ∨ g ∈ s.replacer_.lru) ↔ ((0 ≤ g ∧ g < s.pool_size_) ∧ g ≠ f)
  disjoint : ∀ g, g ∈ s.free_list_ → g ∉ s.replacer_.lru
  table : ∀ p g, s.page_table_ p = some g → g ∈ s.replacer_.lru ∧ (s.pages_ g).page_id_ = p
  free_fresh : ∀ g, g ∈ s.free_list_ → s.pages_ g = Page.fresh

/-- What holds in addition when `FetchPage` is only asked for allocated ids: every frame
off the free list is the frame of its own page id, and every key has been allocated. -/
structure InvAlloc (s : BufferPoolManager) : Prop where
  inv : Inv s
  keyed : ∀ f, f ∈ s.replacer_.lru → s.page_table_ (s.pages_ f).page_id_ = some f
  below : ∀ p f, s.page_table_ p = some f → p < s.disk_manager_.next_page_id

/-- The three frame states as the spec words them: on the free list; pinned and not
tracked by the replacer; pin count zero and tracked by the replacer. -/
def onFreeList (s : BufferPoolManager) (f : frame_id_t) : Prop := f ∈ s.free_list_

def pinnedUntracked (s : BufferPoolManager) (f : frame_id_t) : Prop :=
  0 < (s.pages_ f).pin_count_ ∧ s.replacer_.mp f = false

def unpinnedTracked (s : BufferPoolManager) (f : frame_id_t) : Prop :=
  (s.pages_ f).pin_count_ = 0 ∧ s.replacer_.mp f = true

/-- Frame `f` is in exactly one of the three states. -/
def ThreeStates (s : BufferPoolManager) (f : frame_id_t) : Prop :=
  (onFreeList s f ∧ ¬ pinnedUntracked s f ∧ ¬ unpinnedTracked s f) ∨
  (¬ onFreeList s f ∧ pinnedUntracked s f ∧ ¬ unpinnedTracked s f) ∨
  (¬ onFreeList s f ∧ ¬ pinnedUntracked s f ∧ unpinnedTracked s f)

/-- Consistency of the page table with the frames, as the spec words it: each key maps
to a frame holding that page id, no two keys map to the same frame, the page id of every
frame off the free list is a key, and no frame of the free list is a value. -/
def TableConsistent (s : BufferPoolManager) : Prop :=
  (∀ (p : page_id_t) (f : frame_id_t), s.page_table_ p = some f → (s.pages_ f).page_id_ = p) ∧
  (∀ (p q : page_id_t) (f : frame_id_t),
    s.page_table_ p = some f → s.page_table_ q = some f → p = q) ∧
  (∀ f : frame_id_t, 0 ≤ f → f < s.pool_size_ → f ∉ s.free_list_ →
    (s.page_table_ (s.pages_ f).page_id_).isSome = true) ∧
  (∀ (f : frame_id_t) (p : page_id_t), f ∈ s.free_list_ → s.page_table_ p ≠ some f)

/-- The bytes `d` of page `p` are safe: the page id has been allocated; while `p` is
resident its frame holds `d`, and the disk holds `d` too unless the frame is dirty; while
`p` is not resident the disk holds `d`. -/
structure Saved (s : BufferPoolManager) (p : page_id_t) (d : PageData) : Prop where
  alloc : p < s.disk_manager_.next_page_id
  resident : ∀ f : frame_id_t, s.page_table_ p = some f →
    (s.pages_ f).data_ = d ∧ ((s.pages_ f).is_dirty_ = false → s.disk_manager_.pages_ p = d)
  evicted : s.page_table_ p = none → s.disk_manager_.pages_ p = d

/-- Calls that neither delete page `p` nor overwrite its bytes. -/
def Op.spares (p : page_id_t) : Op → Prop
  | .DeletePage q => q ≠ p
  | .WriteData q _ => q ≠ p
  | _ => True

/-- A sequence of calls made from state `s` in which FetchPage is only asked for
allocated page ids and page `p` is neither deleted nor overwritten. -/
def sparingRun (p : page_id_t) (s : BufferPoolManager) : List Op → Prop
  | [] => True
  | op :: ops => op.allocated s ∧ op.spares p ∧ sparingRun p (s.step op) ops

/-- Link between the replacer and the time stamps kept along a run. -/
structure Stamped (r : LRUReplacer) (s : Stamps) : Prop where
  wf : r.WF
  tracked : ∀ f, r.mp f = true ↔ (s.stamp f).isSome = true
  bound : ∀ f t, s.stamp f = some t → t ≤ s.clock
  order : r.lru.Pairwise (fun a b => s.before b a)

/-- The empty disk of a new database file. -/
def DiskManager.empty : DiskManager :=
  { next_page_id := 0, pages_ := fun _ => zeroData, deallocated := [], num_writes := 0 }

/-! ## B+ tree (`src/storage/index/b_plus_tree.cpp`, `src/storage/page/b_plus_tree_leaf_page.cpp`,
`src/storage/page/b_plus_tree_internal_page.cpp`, `src/storage/index/index_iterator.cpp`)

The tree code reaches its nodes through the buffer pool manager and reinterprets the
bytes of a page as a node. Here the buffer pool is abstracted by a page store
`pages : page_id_t → Option BPlusTreePage`: `FetchPage(p)` yields the node stored under
`p`, `NewPage` hands out the next page id with a zeroed page, `DeletePage(p)` drops the
entry. Pin counts, latches and the header page are not modelled, and calls are
sequential. A node pointer of the source is a page id here, and every access goes
through the store, so that two pointers to the same page alias as in the source.
`KeyType` is an integer key compared by its value, `ValueType` (`RID`) an integer.
The number of pairs a page can hold is not modelled: `array` is a list. -/

abbrev KeyType := Int
abbrev ValueType := Int

/-- Ways in which a call does not return normally: a failed `assert`, a read of memory
the source never initialised (a slot at or beyond `size_`, a page that does not exist, a
null pointer), the `throw "out of memory"`, and the exhaustion of the model's fuel. -/
inductive Err where
  | assertFail
  | undefined
  | outOfMemory
  | outOfFuel
deriving DecidableEq

inductive IndexPageType where
  | INVALID_INDEX_PAGE
  | LEAF_PAGE
  | INTERNAL_PAGE
deriving DecidableEq

inductive Operate_Type where
  | OP_READ
  | OP_DELETE
  | OP_INSERT
deriving DecidableEq

/-- A B+ tree page: the header of `BPlusTreePage`, the `next_page_id_` of a leaf page
and the `array` of pairs. The first `size_` slots of the source's array are kept, so
`GetSize()` is the length of `array`; in an internal page the second component of a pair
is a child page id, in a leaf page it is the value. -/
structure BPlusTreePage where
  page_type_ : IndexPageType
  max_size_ : Nat
  parent_page_id_ : page_id_t
  page_id_ : page_id_t
  next_page_id_ : page_id_t
  array : List (KeyType × Int)
deriving DecidableEq

/-- `BPlusTreePage::GetSize`. -/
def BPlusTreePage.GetSize (n : BPlusTreePage) : Nat := n.array.length

/-- Modelled from the spec: `BPlusTreePage::IsLeafPage` (`b_plus_tree_page.cpp` is not
among the sources). -/
def BPlusTreePage.IsLeafPage (n : BPlusTreePage) : Bool :=
  n.page_type_ = IndexPageType.LEAF_PAGE

/-- Modelled from the spec: `BPlusTreePage::IsRootPage`, a page without parent. -/
def BPlusTreePage.IsRootPage (n : BPlusTreePage) : Bool :=
  n.parent_page_id_ = INVALID_PAGE_ID

/-- Modelled from the spec: `BPlusTreePage::GetMinSize`. A non-root leaf holds at least
`ceil((max_size-1)/2)` pairs and a non-root internal page at least `ceil(max_size/2)`;
the root has no such bound: a root leaf is given up when it is empty and an internal root
when it has a single child. -/
def BPlusTreePage.GetMinSize (n : BPlusTreePage) : Nat :=
  if n.IsRootPage then (if n.IsLeafPage then 1 else 2)
  else if n.IsLeafPage then n.max_size_ / 2 else (n.max_size_ + 1) / 2

/-- Modelled from the spec: `BPlusTreePage::IsSafe`. For insert a leaf is safe if
`size < max_size - 1` and an internal page if `size < max_size`; for delete a page is
safe if `size > min_size`. -/
def BPlusTreePage.IsSafe (n : BPlusTreePage) (operate : Operate_Type) : Bool :=
  match operate with
  | .OP_READ => true
  | .OP_INSERT =>
    if n.IsLeafPage then decide (n.GetSize + 1 < n.max_size_) else decide (n.GetSize < n.max_size_)
  | .OP_DELETE => decide (n.GetMinSize < n.GetSize)

/-- A page as `NewPage` returns it: all bytes zero. -/
def BPlusTreePage.zeroed : BPlusTreePage :=
  { page_type_ := IndexPageType.INVALID_INDEX_PAGE, max_size_ := 0, parent_page_id_ := 0,
    page_id_ := 0, next_page_id_ := 0, array := [] }

/-! ### Leaf page -/

/-- `BPlusTreeLeafPage::Init`. -/
def BPlusTreeLeafPage.Init (page_id parent_id : page_id_t) (max_size : Nat) : BPlusTreePage :=
  { page_type_ := IndexPageType.LEAF_PAGE, max_size_ := max_size, parent_page_id_ := parent_id,
    page_id_ := page_id, next_page_id_ := INVALID_PAGE_ID, array := [] }

/-- The `while` loop of `BPlusTreeLeafPage::KeyIndex` with `left` and `right`; the result
is `right + 1`. The interval shrinks in every round, so `size + 1` rounds are enough. -/
def BPlusTreeLeafPage.KeyIndexLoop (array : List (KeyType × Int)) (key : KeyType) :
    Nat → Int → Int → Int
  | 0, _, right => right + 1
  | fuel + 1, left, right =>
    if left ≤ right then
      let mid := (right - left) / 2 + left
      match array.get? mid.toNat with
      | some item =>
        if item.1 ≥ key then BPlusTreeLeafPage.KeyIndexLoop array key fuel left (mid - 1)
        else BPlusTreeLeafPage.KeyIndexLoop array key fuel (mid + 1) right
      | none => right + 1
    else right + 1

/-- `BPlusTreeLeafPage::KeyIndex`: the first index whose key is at least `key`. -/
def BPlusTreeLeafPage.KeyIndex (n : BPlusTreePage) (key : KeyType) : Nat :=
  (BPlusTreeLeafPage.KeyIndexLoop n.array key (n.GetSize + 1) 0 ((n.GetSize : Int) - 1)).toNat

/-- `BPlusTreeLeafPage::KeyAt`, with its `assert`. -/
def BPlusTreeLeafPage.KeyAt (n : BPlusTreePage) (index : Nat) : Except Err KeyType :=
  match n.array.get? index with
  | some item => .ok item.1
  | none => .error .assertFail

/-- `BPlusTreeLeafPage::GetItem`, with its `assert`. -/
def BPlusTreeLeafPage.GetItem (n : BPlusTreePage) (index : Nat) : Except Err (KeyType × Int) :=
  match n.array.get? index with
  | some item => .ok item
  | none => .error .assertFail

/-- `BPlusTreeLeafPage::Insert`: the pair is put at `KeyIndex(key)`; the result is the
page and its new size. -/
def BPlusTreeLeafPage.Insert (n : BPlusTreePage) (key : KeyType) (value : ValueType) :
    BPlusTreePage × Nat :=
  let index := BPlusTreeLeafPage.KeyIndex n key
  let n1 := { n with array := n.array.take index ++ (key, value) :: n.array.drop index }
  (n1, n1.GetSize)

/-- `BPlusTreeLeafPage::MoveHalfTo` with `CopyNFrom`: the result is the donor and the
recipient. -/
def BPlusTreeLeafPage.MoveHalfTo (n recipient : BPlusTreePage) : BPlusTreePage × BPlusTreePage :=
  let size := n.GetSize
  let index := size / 2
  ({ n with next_page_id_ := recipient.page_id_, array := n.array.take index },
   { recipient with array := n.array.drop index })

/-- `BPlusTreeLeafPage::Lookup`. -/
def BPlusTreeLeafPage.Lookup (n : BPlusTreePage) (key : KeyType) : Option ValueType :=
  let index := BPlusTreeLeafPage.KeyIndex n key
  match n.array.get? index with
  | some item => if item.1 = key then some item.2 else none
  | none => none

/-- `BPlusTreeLeafPage::RemoveAndDeleteRecord`: the page and its size afterwards. -/
def BPlusTreeLeafPage.RemoveAndDeleteRecord (n : BPlusTreePage) (key : KeyType) :
    BPlusTreePage × Nat :=
  let index := BPlusTreeLeafPage.KeyIndex n key
  match n.array.get? index with
  | none => (n, n.GetSize)
  | some item =>
    if item.1 = key then
      let n1 := { n with array := n.array.eraseIdx index }
      (n1, n1.GetSize)
    else (n, n.GetSize)

/-- `BPlusTreeLeafPage::MoveAllTo`: the result is the emptied page and the recipient. -/
def BPlusTreeLeafPage.MoveAllTo (n recipient : BPlusTreePage) : BPlusTreePage × BPlusTreePage :=
  ({ n with array := [] },
   { recipient with next_page_id_ := n.next_page_id_, array := recipient.array ++ n.array })

/-! ### Internal page -/

/-- `BPlusTreeInternalPage::Init`. -/
def BPlusTreeInternalPage.Init (n : BPlusTreePage) (page_id parent_id : page_id_t)
    (max_size : Nat) : BPlusTreePage :=
  { n with page_type_ := IndexPageType.INTERNAL_PAGE, max_size_ := max_size,
           parent_page_id_ := parent_id, page_id_ := page_id, array := [] }

/-- `BPlusTreeInternalPage::KeyAt`, with its `assert`. -/
def BPlusTreeInternalPage.KeyAt (n : BPlusTreePage) (index : Int) : Except Err KeyType :=
  if 0 ≤ index then
    match n.array.get? index.toNat with
    | some item => .ok item.1
    | none => .error .assertFail
  else .error .assertFail

/-- `BPlusTreeInternalPage::SetKeyAt`, with its `assert`. -/
def BPlusTreeInternalPage.SetKeyAt (n : BPlusTreePage) (index : Int) (key : KeyType) :
    Except Err BPlusTreePage :=
  if 0 ≤ index then
    match n.array.get? index.toNat with
    | some item => .ok { n with array := n.array.set index.toNat (key, item.2) }
    | none => .error .assertFail
  else .error .assertFail

/-- The `for` loop of `BPlusTreeInternalPage::ValueIndex` from index `i` on. -/
def BPlusTreeInternalPage.ValueIndexFrom (value : Int) : List (KeyType × Int) → Int → Int
  | [], _ => -1
  | item :: rest, i =>
    if item.2 = value then i else BPlusTreeInternalPage.ValueIndexFrom value rest (i + 1)

/-- `BPlusTreeInternalPage::ValueIndex`: the first index holding `value`, or -1. -/
def BPlusTreeInternalPage.ValueIndex (n : BPlusTreePage) (value : Int) : Int :=
  BPlusTreeInternalPage.ValueIndexFrom value n.array 0

/-- `BPlusTreeInternalPage::ValueAt`, with its `assert`. -/
def BPlusTreeInternalPage.ValueAt (n : BPlusTreePage) (index : Int) : Except Err Int :=
  if 0 ≤ index then
    match n.array.get? index.toNat with
    | some item => .ok item.2
    | none => .error .assertFail
  else .error .assertFail

/-- The `while` loop of `BPlusTreeInternalPage::Lookup` with `left` and `right`; the
result is `left`. -/
def BPlusTreeInternalPage.LookupLoop (array : List (KeyType × Int)) (key : KeyType) :
    Nat → Int → Int → Int
  | 0, left, _ => left
  | fuel + 1, left, right =>
    if left ≤ right then
      let mid := (right - left) / 2 + left
      match array.get? mid.toNat with
      | some item =>
        if item.1 ≤ key then BPlusTreeInternalPage.LookupLoop array key fuel (mid + 1) right
        else BPlusTreeInternalPage.LookupLoop array key fuel left (mid - 1)
      | none => left
    else left

/-- `BPlusTreeInternalPage::Lookup`: the child at `left - 1` after the binary search over
the indexes `1 .. size-1`. On a page of size 0 the source reads slot 0, which holds no
entry. -/
def BPlusTreeInternalPage.Lookup (n : BPlusTreePage) (key : KeyType) : Except Err Int :=
  let left := BPlusTreeInternalPage.LookupLoop n.array key (n.GetSize + 1) 1 ((n.GetSize : Int) - 1)
  match n.array.get? (left - 1).toNat with
  | some item => .ok item.2
  | none => .error .undefined

/-- `BPlusTreeInternalPage::PopulateNewRoot`. The key of slot 0 is never written: it
keeps the zero of the new page. -/
def BPlusTreeInternalPage.PopulateNewRoot (n : BPlusTreePage) (old_value : Int)
    (new_key : KeyType) (new_value : Int) : BPlusTreePage :=
  { n with page_type_ := IndexPageType.INTERNAL_PAGE, parent_page_id_ := INVALID_PAGE_ID,
           array := [(0, old_value), (new_key, new_value)] }

/-- `BPlusTreeInternalPage::InsertNodeAfter`: the page and its new size. When
`old_value` is absent `ValueIndex` is -1 and the pair is put at slot 0. -/
def BPlusTreeInternalPage.InsertNodeAfter (n : BPlusTreePage) (old_value : Int)
    (new_key : KeyType) (new_value : Int) : BPlusTreePage × Nat :=
  let index := BPlusTreeInternalPage.ValueIndex n old_value
  let pos := (index + 1).toNat
  let n1 := { n with array := n.array.take pos ++ (new_key, new_value) :: n.array.drop pos }
  (n1, n1.GetSize)

/-- `BPlusTreeInternalPage::Remove`, with its `assert`. -/
def BPlusTreeInternalPage.Remove (n : BPlusTreePage) (index : Int) : Except Err BPlusTreePage :=
  if 0 ≤ index ∧ index < n.GetSize then .ok { n with array := n.array.eraseIdx index.toNat }
  else .error .assertFail

/-- `BPlusTreeInternalPage::RemoveAndReturnOnlyChild`. -/
def BPlusTreeInternalPage.RemoveAndReturnOnlyChild (n : BPlusTreePage) :
    Except Err (BPlusTreePage × Int) :=
  match n.array.head? with
  | some item => .ok ({ n with array := [] }, item.2)
  | none => .error .undefined

/-! ### The tree -/

/-- Modelled from the spec: the part of `Transaction` the tree uses (its source is not
among the sources): the pages latched by the running call and the page ids scheduled
for deletion. -/
structure Transaction where
  page_set : List page_id_t
  deleted_page_set : List page_id_t
deriving DecidableEq

def Transaction.new : Transaction := { page_set := [], deleted_page_set := [] }

/-- State of a `BPlusTree` together with the pages it reaches through the buffer pool
manager. `next_page_id` is the next id `NewPage` hands out. -/
structure BPlusTree where
  root_page_id_ : page_id_t
  leaf_max_size_ : Nat
  internal_max_size_ : Nat
  pages : page_id_t → Option BPlusTreePage
  next_page_id : page_id_t

/-- `BPlusTree::BPlusTree`. Page 0 is the header page, so the first tree page is page 1. -/
def BPlusTree.new (leaf_max_size internal_max_size : Nat) : BPlusTree :=
  { root_page_id_ := INVALID_PAGE_ID, leaf_max_size_ := leaf_max_size,
    internal_max_size_ := internal_max_size, pages := fun _ => none, next_page_id := 1 }

/-- `BPlusTree::IsEmpty`. -/
def BPlusTree.IsEmpty (t : BPlusTree) : Bool := t.root_page_id_ = INVALID_PAGE_ID

/-- `BPlusTree::FetchPage`: the node stored under `page_id`. -/
def BPlusTree.FetchPage (t : BPlusTree) (page_id : page_id_t) : Except Err BPlusTreePage :=
  match t.pages page_id with
  | some n => .ok n
  | none => .error .undefined

/-- Writing a node back through its pointer. -/
def BPlusTree.setPage (t : BPlusTree) (page_id : page_id_t) (n : BPlusTreePage) : BPlusTree :=
  { t with pages := setAt t.pages page_id (some n) }

/-- `buffer_pool_manager_->NewPage`: a zeroed page under the next page id. The model is of
a tree whose buffer pool has a frame for every page asked for and whose pages have room
for their entries: the result `nullptr`, on which `StartNewTree` and `Split` throw
"out of memory" and `InsertIntoParent` fails its `assert`, does not occur in it, and the
array of a page is a list of any length. -/
def BPlusTree.NewPage (t : BPlusTree) : BPlusTree × page_id_t :=
  ({ t with pages := setAt t.pages t.next_page_id (some BPlusTreePage.zeroed),
            next_page_id := t.next_page_id + 1 }, t.next_page_id)

/-- The loop of `BPlusTree::FreePagesInTransaction` over the page set. -/
def BPlusTree.FreePagesLoop (t : BPlusTree) (deleted : List page_id_t) :
    List page_id_t → BPlusTree × List page_id_t
  | [] => (t, deleted)
  | curPid :: rest =>
    if curPid ∈ deleted then
      BPlusTree.FreePagesLoop { t with pages := setAt t.pages curPid none }
        (deleted.filter (fun p => p ≠ curPid)) rest
    else BPlusTree.FreePagesLoop t deleted rest

/-- `BPlusTree::FreePagesInTransaction`. -/
def BPlusTree.FreePagesInTransaction (t : BPlusTree) (is_write : Bool)
    (transaction : Option Transaction) (cur : page_id_t) :
    Except Err (BPlusTree × Option Transaction) :=
  match transaction with
  | none =>
    if !is_write ∧ cur ≥ 0 then
      match t.pages cur with
      | some _ => .ok (t, none)
      | none => .error .undefined
    else .error .assertFail
  | some txn =>
    let (t1, deleted) := BPlusTree.FreePagesLoop t txn.deleted_page_set txn.page_set
    if deleted = [] then .ok (t1, some { page_set := [], deleted_page_set := [] })
    else .error .assertFail

/-- `BPlusTree::CrabingProtocalFetchPage`. -/
def BPlusTree.CrabingProtocalFetchPage (t : BPlusTree) (page_id : page_id_t)
    (operate : Operate_Type) (previous : page_id_t) (transaction : Option Transaction) :
    Except Err (BPlusTree × Option Transaction × BPlusTreePage) := do
  let is_write := operate ≠ Operate_Type.OP_READ
  let tree_page ← t.FetchPage page_id
  let (t1, txn1) ←
    if previous > 0 ∧ (!is_write ∨ tree_page.IsSafe operate) then
      t.FreePagesInTransaction is_write transaction previous
    else .ok (t, transaction)
  let txn2 := match txn1 with
    | some txn => some { txn with page_set := txn.page_set ++ [page_id] }
    | none => none
  let tree_page1 ← t1.FetchPage page_id
  .ok (t1, txn2, tree_page1)

/-- The `for` loop of `BPlusTree::FindLeafPage`; `page` is the node reached, `cur` its
page id. -/
def BPlusTree.FindLeafLoop (key : KeyType) (leftMost : Bool) (operate : Operate_Type) :
    Nat → BPlusTree → Option Transaction → BPlusTreePage → page_id_t →
    Except Err (BPlusTree × Option Transaction × page_id_t)
  | 0, _, _, _, _ => .error .outOfFuel
  | fuel + 1, t, txn, page, cur =>
    if page.IsLeafPage then .ok (t, txn, cur)
    else do
      let next ← if leftMost then BPlusTreeInternalPage.ValueAt page 0
        else BPlusTreeInternalPage.Lookup page key
      let (t1, txn1, page1) ← t.CrabingProtocalFetchPage next operate cur txn
      BPlusTree.FindLeafLoop key leftMost operate fuel t1 txn1 page1 next

/-- Fuel for a walk along the tree: no path is longer than the number of page ids handed
out so far. -/
def BPlusTree.fuel (t : BPlusTree) : Nat := t.next_page_id.toNat + 1

/-- `BPlusTree::FindLeafPage`: the page id of the leaf, `none` for `nullptr`. -/
def BPlusTree.FindLeafPage (t : BPlusTree) (key : KeyType) (leftMost : Bool)
    (operate : Operate_Type) (transaction : Option Transaction) :
    Except Err (BPlusTree × Option Transaction × Option page_id_t) :=
  if t.IsEmpty then .ok (t, transaction, none)
  else do
    let (t1, txn1, page) ← t.CrabingProtocalFetchPage t.root_page_id_ operate (-1) transaction
    let (t2, txn2, leaf) ←
      BPlusTree.FindLeafLoop key leftMost operate t.fuel t1 txn1 page t.root_page_id_
    .ok (t2, txn2, some leaf)

/-- `BPlusTree::GetValue`: the tree afterwards, the returned flag and `*result`. When the
tree is empty `result` is not touched; it is taken to be empty on entry. -/
def BPlusTree.GetValue (t : BPlusTree) (key : KeyType) (transaction : Option Transaction) :
    Except Err (BPlusTree × Bool × List ValueType) := do
  let (t1, txn1, leaf) ← t.FindLeafPage key false Operate_Type.OP_READ transaction
  match leaf with
  | none => .ok (t1, false, [])
  | some leaf_id =>
    let leaf_page ← t1.FetchPage leaf_id
    let res := BPlusTreeLeafPage.Lookup leaf_page key
    let (t2, _) ← t1.FreePagesInTransaction false txn1 leaf_id
    match res with
    | some val => .ok (t2, true, [val])
    | none => .ok (t2, false, [])

/-- `BPlusTree::StartNewTree`. -/
def BPlusTree.StartNewTree (t : BPlusTree) (key : KeyType) (value : ValueType) : BPlusTree :=
  let (t1, root_page_id) := t.NewPage
  let root_page := BPlusTreeLeafPage.Init root_page_id INVALID_PAGE_ID t.leaf_max_size_
  { t1 with root_page_id_ := root_page_id,
            pages := setAt t1.pages root_page_id
              (some (BPlusTreeLeafPage.Insert root_page key value).1) }

/-- `BPlusTree::Split` for a leaf page: the page id of the new sibling. -/
def BPlusTree.SplitLeaf (t : BPlusTree) (txn : Transaction) (node_id : page_id_t) :
    Except Err (BPlusTree × Transaction × page_id_t) := do
  let (t1, page_id) := t.NewPage
  let txn1 := { txn with page_set := txn.page_set ++ [page_id] }
  let node ← t1.FetchPage node_id
  let recipient := BPlusTreeLeafPage.Init page_id node.parent_page_id_ node.max_size_
  let (node1, recipient1) := BPlusTreeLeafPage.MoveHalfTo node recipient
  .ok ((t1.setPage page_id recipient1).setPage node_id node1, txn1, page_id)

/-- The loop of `BPlusTreeInternalPage::CopyNFrom` over the copied children: each gets
the recipient as parent. -/
def BPlusTree.adoptAll (t : BPlusTree) (parent_id : page_id_t) :
    List (KeyType × Int) → Except Err BPlusTree
  | [] => .ok t
  | item :: rest => do
    let page ← t.FetchPage item.2
    BPlusTree.adoptAll (t.setPage item.2 { page with parent_page_id_ := parent_id }) parent_id rest

/-- `BPlusTree::Split` for an internal page, with `BPlusTreeInternalPage::MoveHalfTo` and
`CopyNFrom`: the page id of the new sibling. -/
def BPlusTree.SplitInternal (t : BPlusTree) (txn : Transaction) (node_id : page_id_t) :
    Except Err (BPlusTree × Transaction × page_id_t) := do
  let (t1, page_id) := t.NewPage
  let txn1 := { txn with page_set := txn.page_set ++ [page_id] }
  let node ← t1.FetchPage node_id
  let recipient := BPlusTreeInternalPage.Init BPlusTreePage.zeroed page_id node.parent_page_id_
    node.max_size_
  let size := node.GetSize
  let items := node.array.drop (size / 2)
  let t2 := t1.setPage page_id recipient
  let t3 ← t2.adoptAll page_id items
  let recipient1 ← t3.FetchPage page_id
  let t4 := t3.setPage page_id { recipient1 with array := items }
  let node1 ← t4.FetchPage node_id
  .ok (t4.setPage node_id { node1 with array := node1.array.take (size / 2) }, txn1, page_id)

/-- `BPlusTree::InsertIntoParent`; `fuel` bounds the recursion towards the root. -/
def BPlusTree.InsertIntoParent : Nat → BPlusTree → Transaction → page_id_t → KeyType →
    page_id_t → Except Err (BPlusTree × Transaction)
  | 0, _, _, _, _, _ => .error .outOfFuel
  | fuel + 1, t, txn, old_id, key, new_id => do
    let old_node ← t.FetchPage old_id
    if old_node.IsRootPage then
      let (t1, root_id) := t.NewPage
      let t2 := { t1 with root_page_id_ := root_id }
      let new_root := BPlusTreeInternalPage.PopulateNewRoot
        (BPlusTreeInternalPage.Init BPlusTreePage.zeroed root_id INVALID_PAGE_ID
          t.internal_max_size_) old_id key new_id
      let t3 := t2.setPage root_id new_root
      let old1 ← t3.FetchPage old_id
      let t4 := t3.setPage old_id { old1 with parent_page_id_ := root_id }
      let new1 ← t4.FetchPage new_id
      .ok (t4.setPage new_id { new1 with parent_page_id_ := root_id }, txn)
    else
      let parent_id := old_node.parent_page_id_
      let _ ← t.FetchPage parent_id
      let new_node ← t.FetchPage new_id
      let t1 := t.setPage new_id { new_node with parent_page_id_ := parent_id }
      let parent ← t1.FetchPage parent_id
      let (parent1, size) := BPlusTreeInternalPage.InsertNodeAfter parent old_id key new_id
      let t2 := t1.setPage parent_id parent1
      if size = parent1.max_size_ then
        let (t3, txn1, recipient_id) ← t2.SplitInternal txn parent_id
        let recipient ← t3.FetchPage recipient_id
        let key0 ← BPlusTreeInternalPage.KeyAt recipient 0
        BPlusTree.InsertIntoParent fuel t3 txn1 parent_id key0 recipient_id
      else .ok (t2, txn)

/-- `BPlusTree::InsertIntoLeaf`. -/
def BPlusTree.InsertIntoLeaf (t : BPlusTree) (key : KeyType) (value : ValueType)
    (transaction : Transaction) : Except Err (BPlusTree × Bool) := do
  let (t1, txn1, leaf) ← t.FindLeafPage key false Operate_Type.OP_INSERT (some transaction)
  match leaf, txn1 with
  | some leaf_id, some txn =>
    let leaf_page ← t1.FetchPage leaf_id
    match BPlusTreeLeafPage.Lookup leaf_page key with
    | some _ =>
      let (t2, _) ← t1.FreePagesInTransaction true (some txn) (-1)
      .ok (t2, false)
    | none =>
      let (leaf1, size) := BPlusTreeLeafPage.Insert leaf_page key value
      let t2 := t1.setPage leaf_id leaf1
      if size = t.leaf_max_size_ then
        let (t3, txn2, recipient_id) ← t2.SplitLeaf txn leaf_id
        let recipient ← t3.FetchPage recipient_id
        let key0 ← BPlusTreeLeafPage.KeyAt recipient 0
        let (t4, txn3) ← BPlusTree.InsertIntoParent t3.fuel t3 txn2 leaf_id key0 recipient_id
        let (t5, _) ← t4.FreePagesInTransaction true (some txn3) (-1)
        .ok (t5, true)
      else
        let (t3, _) ← t2.FreePagesInTransaction true (some txn) (-1)
        .ok (t3, true)
  | _, _ => .error .undefined

/-- `BPlusTree::Insert`, called with a transaction whose two sets are empty (with the
default `nullptr` the `assert` of `FreePagesInTransaction` fails). -/
def BPlusTree.Insert (t : BPlusTree) (key : KeyType) (value : ValueType) :
    Except Err (BPlusTree × Bool) :=
  if t.IsEmpty then .ok (t.StartNewTree key value, true)
  else t.InsertIntoLeaf key value Transaction.new

/-- `BPlusTreeLeafPage::MoveFirstToEndOf` with `CopyLastFrom`; `this_id` is the page the
first pair is taken from. -/
def BPlusTree.LeafMoveFirstToEndOf (t : BPlusTree) (this_id recipient_id : page_id_t) :
    Except Err BPlusTree := do
  let this ← t.FetchPage this_id
  match this.array with
  | [] => .error .undefined
  | item :: rest =>
    let recipient ← t.FetchPage recipient_id
    let t1 := t.setPage recipient_id { recipient with array := recipient.array ++ [item] }
    let this1 ← t1.FetchPage this_id
    let t2 := t1.setPage this_id { this1 with array := rest }
    let this2 ← t2.FetchPage this_id
    let parent ← t2.FetchPage this2.parent_page_id_
    match rest with
    | [] => .error .undefined
    | first :: _ =>
      let parent1 ← BPlusTreeInternalPage.SetKeyAt parent
        (BPlusTreeInternalPage.ValueIndex parent this2.page_id_) first.1
      .ok (t2.setPage this2.parent_page_id_ parent1)

/-- `BPlusTreeLeafPage::MoveLastToFrontOf` with `CopyFirstFrom`; `this_id` is the page
the last pair is taken from. -/
def BPlusTree.LeafMoveLastToFrontOf (t : BPlusTree) (this_id recipient_id : page_id_t) :
    Except Err BPlusTree := do
  let this ← t.FetchPage this_id
  match this.array.getLast? with
  | none => .error .undefined
  | some item =>
    let recipient ← t.FetchPage recipient_id
    let t1 := t.setPage recipient_id { recipient with array := item :: recipient.array }
    let this1 ← t1.FetchPage this_id
    let t2 := t1.setPage this_id { this1 with array := this1.array.dropLast }
    let this2 ← t2.FetchPage this_id
    let parent ← t2.FetchPage this2.parent_page_id_
    let recipient1 ← t2.FetchPage recipient_id
    match recipient1.array with
    | [] => .error .undefined
    | first :: _ =>
      let parent1 ← BPlusTreeInternalPage.SetKeyAt parent
        (BPlusTreeInternalPage.ValueIndex parent recipient1.page_id_) first.1
      .ok (t2.setPage this2.parent_page_id_ parent1)

/-- `BPlusTreeInternalPage::MoveAllTo`; `this_id` is the page that is emptied. -/
def BPlusTree.InternalMoveAllTo (t : BPlusTree) (this_id recipient_id : page_id_t)
    (middle_key : KeyType) : Except Err BPlusTree := do
  let _ ← t.FetchPage recipient_id
  let this ← t.FetchPage this_id
  let parent_page ← t.FetchPage this.parent_page_id_
  let parent_page1 ← BPlusTreeInternalPage.Remove parent_page
    (BPlusTreeInternalPage.ValueIndex parent_page this.page_id_)
  let t1 := t.setPage this.parent_page_id_ parent_page1
  let this1 ← t1.FetchPage this_id
  let this2 ← BPlusTreeInternalPage.SetKeyAt this1 0 middle_key
  let t2 := t1.setPage this_id this2
  let recipient ← t2.FetchPage recipient_id
  let t3 ← t2.adoptAll recipient.page_id_ this2.array
  let recipient1 ← t3.FetchPage recipient_id
  let t4 := t3.setPage recipient_id { recipient1 with array := recipient1.array ++ this2.array }
  let this3 ← t4.FetchPage this_id
  let t5 := t4.setPage this_id { this3 with array := [] }
  let recipient2 ← t5.FetchPage recipient_id
  if recipient2.GetSize ≤ this3.max_size_ then .ok t5 else .error .assertFail

/-- `BPlusTreeInternalPage::MoveFirstToEndOf`; `this_id` is the page the first pair is
taken from. -/
def BPlusTree.InternalMoveFirstToEndOf (t : BPlusTree) (this_id recipient_id : page_id_t)
    (middle_key : KeyType) : Except Err BPlusTree := do
  let this ← t.FetchPage this_id
  let parent_page ← t.FetchPage this.parent_page_id_
  let parent_index := BPlusTreeInternalPage.ValueIndex parent_page this.page_id_
  match this.array with
  | first :: second :: _ =>
    let val := first.2
    let parent_page1 ← BPlusTreeInternalPage.SetKeyAt parent_page parent_index second.1
    let t1 := t.setPage this.parent_page_id_ parent_page1
    let recipient ← t1.FetchPage recipient_id
    let child_page ← t1.FetchPage val
    let t2 := t1.setPage val { child_page with parent_page_id_ := recipient.page_id_ }
    let recipient1 ← t2.FetchPage recipient_id
    let t3 := t2.setPage recipient_id
      { recipient1 with array := recipient1.array ++ [(middle_key, val)] }
    let this1 ← t3.FetchPage this_id
    let this2 ← BPlusTreeInternalPage.Remove this1 0
    .ok (t3.setPage this_id this2)
  | _ => .error .undefined

/-- `BPlusTreeInternalPage::MoveLastToFrontOf`; `this_id` is the page the last pair is
taken from. -/
def BPlusTree.InternalMoveLastToFrontOf (t : BPlusTree) (this_id recipient_id : page_id_t)
    (middle_key : KeyType) : Except Err BPlusTree := do
  let this ← t.FetchPage this_id
  let parent_page ← t.FetchPage this.parent_page_id_
  let recipient ← t.FetchPage recipient_id
  let parent_index := BPlusTreeInternalPage.ValueIndex parent_page recipient.page_id_
  match this.array.getLast? with
  | none => .error .undefined
  | some last =>
    let val := last.2
    let parent_page1 ← BPlusTreeInternalPage.SetKeyAt parent_page parent_index last.1
    let t1 := t.setPage this.parent_page_id_ parent_page1
    let child_page ← t1.FetchPage val
    let t2 := t1.setPage val { child_page with parent_page_id_ := recipient.page_id_ }
    let recipient1 ← t2.FetchPage recipient_id
    match recipient1.array with
    | [] => .error .undefined
    | first :: rest =>
      let t3 := t2.setPage recipient_id
        { recipient1 with array := (first.1, val) :: (middle_key, first.2) :: rest }
      let this1 ← t3.FetchPage this_id
      let this2 ← BPlusTreeInternalPage.Remove this1 ((this1.GetSize : Int) - 1)
      .ok (t3.setPage this_id this2)

/-- `BPlusTree::AdjustRoot`: the tree and the returned flag. -/
def BPlusTree.AdjustRoot (t : BPlusTree) (old_root_id : page_id_t) :
    Except Err (BPlusTree × Bool) := do
  let old_root_node ← t.FetchPage old_root_id
  if old_root_node.IsLeafPage then
    .ok ({ t with root_page_id_ := INVALID_PAGE_ID }, true)
  else if old_root_node.GetSize = 1 then
    let (root_page1, child_page_id) ← BPlusTreeInternalPage.RemoveAndReturnOnlyChild old_root_node
    let t1 := { (t.setPage old_root_id root_page1) with root_page_id_ := child_page_id }
    let new_root ← t1.FetchPage child_page_id
    .ok (t1.setPage child_page_id { new_root with parent_page_id_ := INVALID_PAGE_ID }, true)
  else .ok (t, false)

/-- `BPlusTree::FindSibling`: the page id of the sibling and the returned flag, true
when the sibling is the following page. -/
def BPlusTree.FindSibling (t : BPlusTree) (txn : Transaction) (node_id : page_id_t) :
    Except Err (BPlusTree × Transaction × page_id_t × Bool) := do
  let node ← t.FetchPage node_id
  let parent_page ← t.FetchPage node.parent_page_id_
  let index := BPlusTreeInternalPage.ValueIndex parent_page node.page_id_
  let res := decide (index = 0)
  let sibling_index := if index = 0 then index + 1 else index - 1
  let sibling_id ← BPlusTreeInternalPage.ValueAt parent_page sibling_index
  let (t1, txn1, _) ←
    t.CrabingProtocalFetchPage sibling_id Operate_Type.OP_DELETE (-1) (some txn)
  match txn1 with
  | some txn2 => .ok (t1, txn2, sibling_id, res)
  | none => .error .undefined

/-- `BPlusTree::Redistribute`; `leaf` tells which instance of the template it is. -/
def BPlusTree.Redistribute (t : BPlusTree) (leaf : Bool) (neighbor_id node_id : page_id_t)
    (middle_key : KeyType) (is_next_node : Bool) : Except Err BPlusTree :=
  if is_next_node then
    if leaf then t.LeafMoveFirstToEndOf neighbor_id node_id
    else t.InternalMoveFirstToEndOf neighbor_id node_id middle_key
  else
    if leaf then t.LeafMoveLastToFrontOf neighbor_id node_id
    else t.InternalMoveLastToFrontOf neighbor_id node_id middle_key

/-- `BPlusTree::Coalesce`; `leaf` tells which instance of the template it is and `rec` is
the call of `CoalesceOrRedistribute` on the parent. -/
def BPlusTree.Coalesce
    (rec : BPlusTree → Transaction → page_id_t → Except Err (BPlusTree × Transaction × Bool))
    (t : BPlusTree) (txn : Transaction) (leaf : Bool) (neighbor_id node_id parent_id : page_id_t)
    (index : Int) : Except Err (BPlusTree × Transaction × Bool) := do
  let parent ← t.FetchPage parent_id
  let middle_key ← BPlusTreeInternalPage.KeyAt parent index
  let t1 ←
    if leaf then do
      let node ← t.FetchPage node_id
      let neighbor ← t.FetchPage neighbor_id
      let (node1, neighbor1) := BPlusTreeLeafPage.MoveAllTo node neighbor
      pure ((t.setPage neighbor_id neighbor1).setPage node_id node1)
    else t.InternalMoveAllTo node_id neighbor_id middle_key
  let node2 ← t1.FetchPage node_id
  let txn1 := { txn with deleted_page_set := node2.page_id_ :: txn.deleted_page_set }
  let parent1 ← t1.FetchPage parent_id
  let parent2 ← BPlusTreeInternalPage.Remove parent1 index
  let t2 := t1.setPage parent_id parent2
  if parent2.GetSize ≤ parent2.GetMinSize then rec t2 txn1 parent_id
  else .ok (t2, txn1, false)

/-- `BPlusTree::CoalesceOrRedistribute`; `leaf` tells which instance of the template it
is and `fuel` bounds the recursion towards the root. -/
def BPlusTree.CoalesceOrRedistribute : Nat → BPlusTree → Transaction → Bool → page_id_t →
    Except Err (BPlusTree × Transaction × Bool)
  | 0, _, _, _, _ => .error .outOfFuel
  | fuel + 1, t, txn, leaf, node_id => do
    let node ← t.FetchPage node_id
    if node.IsRootPage then
      let (t1, delete_root) ← t.AdjustRoot node_id
      let node1 ← t1.FetchPage node_id
      let txn1 := if delete_root then
          { txn with deleted_page_set := node1.page_id_ :: txn.deleted_page_set }
        else txn
      .ok (t1, txn1, delete_root)
    else
      let (t1, txn1, sibling_id, is_next_node) ← t.FindSibling txn node_id
      let node1 ← t1.FetchPage node_id
      let parent_id := node1.parent_page_id_
      let parent_node ← t1.FetchPage parent_id
      let sibling_node ← t1.FetchPage sibling_id
      if node1.GetSize + sibling_node.GetSize < node1.max_size_ then
        let (n_id, s_id) := if is_next_node then (sibling_id, node_id) else (node_id, sibling_id)
        let n ← t1.FetchPage n_id
        let index := BPlusTreeInternalPage.ValueIndex parent_node n.page_id_
        let (t2, txn2, _) ← BPlusTree.Coalesce
          (fun t' txn' p => BPlusTree.CoalesceOrRedistribute fuel t' txn' false p)
          t1 txn1 leaf s_id n_id parent_id index
        .ok (t2, txn2, true)
      else
        let middle_index :=
          if is_next_node then BPlusTreeInternalPage.ValueIndex parent_node sibling_node.page_id_
          else BPlusTreeInternalPage.ValueIndex parent_node node1.page_id_
        let middle_key ← BPlusTreeInternalPage.KeyAt parent_node middle_index
        let t2 ← t1.Redistribute leaf sibling_id node_id middle_key is_next_node
        .ok (t2, txn1, false)

/-- `BPlusTree::Remove`, called with a transaction whose two sets are empty. -/
def BPlusTree.Remove (t : BPlusTree) (key : KeyType) : Except Err BPlusTree :=
  if t.IsEmpty then .ok t
  else do
    let (t1, txn1, leaf) ← t.FindLeafPage key false Operate_Type.OP_DELETE (some Transaction.new)
    match leaf, txn1 with
    | some leaf_id, some txn =>
      let leaf_page ← t1.FetchPage leaf_id
      let (leaf1, size) := BPlusTreeLeafPage.RemoveAndDeleteRecord leaf_page key
      let t2 := t1.setPage leaf_id leaf1
      if size < leaf1.GetMinSize then
        let (t3, txn2, _) ← BPlusTree.CoalesceOrRedistribute t2.fuel t2 txn true leaf_id
        let (t4, _) ← t3.FreePagesInTransaction true (some txn2) (-1)
        .ok t4
      else
        let (t3, _) ← t2.FreePagesInTransaction true (some txn) (-1)
        .ok t3
    | _, _ => .error .undefined

/-! ### Index iterator -/

/-- State of an `IndexIterator`: `leaf_` is the page id of the leaf (`none` for
`nullptr`) and `index_` the position in it. -/
structure IndexIterator where
  leaf_ : Option page_id_t
  index_ : Nat
deriving DecidableEq

/-- `IndexIterator::isEnd`. -/
def IndexIterator.isEnd (t : BPlusTree) (it : IndexIterator) : Except Err Bool :=
  match it.leaf_ with
  | none => .ok true
  | some leaf_id => do
    let leaf ← t.FetchPage leaf_id
    .ok (decide (it.index_ ≥ leaf.GetSize))

/-- `IndexIterator::operator*`. -/
def IndexIterator.deref (t : BPlusTree) (it : IndexIterator) : Except Err (KeyType × Int) :=
  match it.leaf_ with
  | none => .error .undefined
  | some leaf_id => do
    let leaf ← t.FetchPage leaf_id
    BPlusTreeLeafPage.GetItem leaf it.index_

/-- `IndexIterator::operator++`. -/
def IndexIterator.next (t : BPlusTree) (it : IndexIterator) : Except Err IndexIterator :=
  match it.leaf_ with
  | none => .error .undefined
  | some leaf_id => do
    let leaf ← t.FetchPage leaf_id
    let index := it.index_ + 1
    if index ≥ leaf.GetSize then
      let next_page_id := leaf.next_page_id_
      if next_page_id = INVALID_PAGE_ID then .ok { leaf_ := none, index_ := 0 }
      else
        let _ ← t.FetchPage next_page_id
        .ok { leaf_ := some next_page_id, index_ := 0 }
    else .ok { leaf_ := some leaf_id, index_ := index }

/-- `BPlusTree::begin`. -/
def BPlusTree.begin (t : BPlusTree) : Except Err IndexIterator := do
  let (_, _, leaf) ← t.FindLeafPage 0 true Operate_Type.OP_READ none
  .ok { leaf_ := leaf, index_ := 0 }

/-- `BPlusTree::Begin(key)`. -/
def BPlusTree.Begin (t : BPlusTree) (key : KeyType) : Except Err IndexIterator := do
  let (_, _, leaf) ← t.FindLeafPage key false Operate_Type.OP_READ none
  match leaf with
  | none => .ok { leaf_ := none, index_ := 0 }
  | some leaf_id =>
    let leaf_page ← t.FetchPage leaf_id
    .ok { leaf_ := some leaf_id, index_ := BPlusTreeLeafPage.KeyIndex leaf_page key }

/-- The pairs visited by `while (!it.isEnd()) { visit(*it); ++it; }`, at most `fuel`
of them. -/
def IndexIterator.visit (t : BPlusTree) : Nat → IndexIterator → Except Err (List (KeyType × Int))
  | 0, _ => .error .outOfFuel
  | fuel + 1, it => do
    if (← it.isEnd t) then .ok []
    else
      let item ← it.deref t
      let it1 ← it.next t
      let rest ← IndexIterator.visit t fuel it1
      .ok (item :: rest)

/-- The calls of a client of the tree. -/
inductive TreeOp where
  | Insert (key : KeyType) (value : ValueType)
  | Remove (key : KeyType)
deriving DecidableEq

/-- The tree after one call. -/
def BPlusTree.apply (t : BPlusTree) : TreeOp → Except Err BPlusTree
  | .Insert k v => do let (t1, _) ← t.Insert k v; .ok t1
  | .Remove k => t.Remove k

/-- The tree after a sequence of calls, each of which returns. -/
def BPlusTree.applyAll (t : BPlusTree) : List TreeOp → Except Err BPlusTree
  | [] => .ok t
  | op :: ops => do let t1 ← t.apply op; t1.applyAll ops

/-- The error a call ends with, `none` when it returns. -/
def Err.of {α : Type} : Except Err α → Option Err
  | .ok _ => none
  | .error e => some e

/-- The pairs a client sees when it iterates from `begin()` with `operator++` until
`isEnd()`; `fuel` bounds the number of pairs. -/
def BPlusTree.scan (t : BPlusTree) (fuel : Nat) : Except Err (List (KeyType × Int)) := do
  let it ← t.begin
  IndexIterator.visit t fuel it

/-- The calls `Insert(k, 10 * k)` for the keys of a list, in order. -/
def insertAll (keys : List KeyType) : List TreeOp :=
  keys.map (fun k => TreeOp.Insert k (10 * k))

/-- The tree a sequence of calls leaves; the tree as it was when one of them fails. -/
def BPlusTree.applyAllD (t : BPlusTree) (ops : List TreeOp) : BPlusTree :=
  match t.applyAll ops with
  | .ok t1 => t1
  | .error _ => t

/-- What `GetValue(key)` returns: the flag and the result vector. -/
def BPlusTree.find (t : BPlusTree) (key : KeyType) : Option (Bool × List ValueType) :=
  (t.GetValue key none).toOption.map Prod.snd

/-- Kind, root flag, size and maximal size of a stored page. -/
def BPlusTree.shape (t : BPlusTree) (p : page_id_t) : Option (Bool × Bool × Nat × Nat) :=
  (t.pages p).map (fun n => (n.IsLeafPage, n.IsRootPage, n.GetSize, n.max_size_))

/-! ### Shape of the trees built by `Insert` -/

/-- Size bounds of a page; `isRoot` tells whether the page is the root. The root leaf
holds at least one pair and an internal root at least two children; a page that is not
the root holds at least `max_size / 2` pairs and fewer than `max_size`. -/
def SizeOK (t : BPlusTree) (n : BPlusTreePage) (isRoot : Bool) : Prop :=
  (n.page_type_ = IndexPageType.LEAF_PAGE →
    if isRoot then 1 ≤ n.GetSize ∧ (n.GetSize < t.leaf_max_size_ ∨ t.leaf_max_size_ ≤ 1)
    else 2 ≤ t.leaf_max_size_ ∧ t.leaf_max_size_ / 2 ≤ n.GetSize ∧
      n.GetSize < t.leaf_max_size_) ∧
  (n.page_type_ = IndexPageType.INTERNAL_PAGE →
    if isRoot then 2 ≤ n.GetSize ∧ (n.GetSize < t.internal_max_size_ ∨ t.internal_max_size_ ≤ 2)
    else 2 ≤ t.internal_max_size_ ∧ 1 ≤ n.GetSize ∧ t.internal_max_size_ / 2 ≤ n.GetSize ∧
      n.GetSize < t.internal_max_size_)

/-- How the page `n` stored under `p` is linked to the other pages; `lev` gives the
height of every page above the leaves. -/
structure Linked (t : BPlusTree) (lev : page_id_t → Nat) (p : page_id_t) (n : BPlusTreePage) :
    Prop where
  id_eq : n.page_id_ = p
  kind : n.page_type_ = IndexPageType.LEAF_PAGE ∨ n.page_type_ = IndexPageType.INTERNAL_PAGE
  parent_ok : n.parent_page_id_ ≠ INVALID_PAGE_ID →
    ∃ q, t.pages n.parent_page_id_ = some q ∧ q.page_type_ = IndexPageType.INTERNAL_PAGE ∧
      lev n.parent_page_id_ = lev p + 1
  leaf_lev : n.page_type_ = IndexPageType.LEAF_PAGE → lev p = 0
  leaf_max : n.page_type_ = IndexPageType.LEAF_PAGE → n.max_size_ = t.leaf_max_size_
  int_max : n.page_type_ = IndexPageType.INTERNAL_PAGE → n.max_size_ = t.internal_max_size_
  int_size : n.page_type_ = IndexPageType.INTERNAL_PAGE → 1 ≤ n.GetSize
  children : n.page_type_ = IndexPageType.INTERNAL_PAGE →
    ∀ c ∈ n.array.map Prod.snd, ∃ cn, t.pages c = some cn ∧ lev c + 1 = lev p
  lev_le : lev p ≤ lev t.root_page_id_

/-- Invariant of a non-empty tree built by `Insert` calls. -/
structure TreeInv (t : BPlusTree) (lev : page_id_t → Nat) : Prop where
  root_ne : t.root_page_id_ ≠ INVALID_PAGE_ID
  next_pos : 1 ≤ t.next_page_id
  fresh : ∀ p, t.next_page_id ≤ p → t.pages p = none
  root_stored : ∃ r, t.pages t.root_page_id_ = some r
  height : (lev t.root_page_id_ : Int) + 2 ≤ t.next_page_id
  linked : ∀ p n, t.pages p = some n → Linked t lev p n
  sizes : ∀ p n, t.pages p = some n → SizeOK t n n.IsRootPage
  root_iff : ∀ p n, t.pages p = some n →
    (n.parent_page_id_ = INVALID_PAGE_ID ↔ p = t.root_page_id_)

/-- State in which `InsertIntoParent(old, key, new)` is called: `new` is the page a
split of `old` has just created; it is not yet listed in a parent. -/
structure SplitInv (t : BPlusTree) (lev : page_id_t → Nat) (old new : page_id_t) : Prop where
  root_ne : t.root_page_id_ ≠ INVALID_PAGE_ID
  next_pos : 1 ≤ t.next_page_id
  fresh : ∀ p, t.next_page_id ≤ p → t.pages p = none
  root_stored : ∃ r, t.pages t.root_page_id_ = some r
  height : (lev t.root_page_id_ : Int) + 3 ≤ t.next_page_id
  linked : ∀ p n, t.pages p = some n → Linked t lev p n
  sizes : ∀ p n, t.pages p = some n → p ≠ old → p ≠ new → SizeOK t n n.IsRootPage
  root_iff : ∀ p n, t.pages p = some n → p ≠ new →
    (n.parent_page_id_ = INVALID_PAGE_ID ↔ p = t.root_page_id_)
  old_new : ∃ o n, t.pages old = some o ∧ t.pages new = some n ∧
    n.parent_page_id_ = o.parent_page_id_ ∧ SizeOK t o false ∧ SizeOK t n false
  lev_eq : lev new = lev old
  new_ne : new ≠ t.root_page_id_
  old_ne : old ≠ new

/-- A tree in which nothing has been inserted yet. -/
structure Blank (t : BPlusTree) : Prop where
  root : t.root_page_id_ = INVALID_PAGE_ID
  pages : ∀ p, t.pages p = none
  next_pos : 1 ≤ t.next_page_id

/-- State between `InsertNodeAfter` and the split of the parent: the internal page `P`
holds `internal_max_size` children, every other page is as the invariant wants it. -/
structure Overfull (t : BPlusTree) (lev : page_id_t → Nat) (P : page_id_t) : Prop where
  root_ne : t.root_page_id_ ≠ INVALID_PAGE_ID
  next_pos : 1 ≤ t.next_page_id
  fresh : ∀ p, t.next_page_id ≤ p → t.pages p = none
  root_stored : ∃ r, t.pages t.root_page_id_ = some r
  height : (lev t.root_page_id_ : Int) + 3 ≤ t.next_page_id
  linked : ∀ p n, t.pages p = some n → Linked t lev p n
  sizes : ∀ p n, t.pages p = some n → p ≠ P → SizeOK t n n.IsRootPage
  root_iff : ∀ p n, t.pages p = some n →
    (n.parent_page_id_ = INVALID_PAGE_ID ↔ p = t.root_page_id_)
  full : ∃ pn, t.pages P = some pn ∧ pn.page_type_ = IndexPageType.INTERNAL_PAGE ∧
    pn.GetSize = t.internal_max_size_ ∧ 2 ≤ t.internal_max_size_

/-! ### Key ranges: the invariant behind `GetValue` -/

/-- Labels given to the pages of a tree: `live` tells which pages belong to the tree,
`lev` is the height of a page above the leaves, and `lo`, `hi` bound the keys below a page:
`lo ≤ key < hi`, with `none` for no bound. -/
structure Ghost where
  live : page_id_t → Prop
  lev : page_id_t → Nat
  lo : page_id_t → Option KeyType
  hi : page_id_t → Option KeyType

/-- Order of two bounds; a missing bound is no restriction. -/
def boundLe (a b : Option KeyType) : Prop := ∀ x y, a = some x → b = some y → x ≤ y

/-- The key is not below the lower bound. -/
def aboveLo (a : Option KeyType) (k : KeyType) : Prop := ∀ x, a = some x → x ≤ k

/-- The key is below the upper bound. -/
def belowHi (k : KeyType) (b : Option KeyType) : Prop := ∀ y, b = some y → k < y

/-- The children of an internal page tile the range from `a` to `b`: the first child
starts at `a`, every other child starts at the key stored with it, and a child ends where
the next one starts, the last one at `b`. The key of slot 0 is not looked at. -/
def Tiled (lo hi : page_id_t → Option KeyType) :
    Option KeyType → List (KeyType × Int) → Option KeyType → Prop
  | _, [], _ => True
  | a, [item], b => lo item.2 = a ∧ hi item.2 = b ∧ boundLe a b
  | a, item :: next :: rest, b =>
    lo item.2 = a ∧ hi item.2 = some next.1 ∧ aboveLo a next.1 ∧
      Tiled lo hi (some next.1) (next :: rest) b

/-- What the page `n` stored under the live page id `p` satisfies. `hiC` gives the upper
bounds of the children as the parent sees them and `ex` is a page that its parent does not
list yet (both differ from the labels only between a split and the insertion into the
parent). -/
structure PageOK (t : BPlusTree) (g : Ghost) (hiC : page_id_t → Option KeyType)
    (ex : page_id_t) (p : page_id_t) (n : BPlusTreePage) : Prop where
  id_eq : n.page_id_ = p
  kind : n.page_type_ = IndexPageType.LEAF_PAGE ∨ n.page_type_ = IndexPageType.INTERNAL_PAGE
  lev_le : g.lev p ≤ g.lev t.root_page_id_
  leaf_lev : n.page_type_ = IndexPageType.LEAF_PAGE → g.lev p = 0
  leaf_sorted : n.page_type_ = IndexPageType.LEAF_PAGE →
    n.array.Pairwise (fun x y => x.1 < y.1)
  leaf_range : n.page_type_ = IndexPageType.LEAF_PAGE →
    ∀ x ∈ n.array, aboveLo (g.lo p) x.1 ∧ belowHi x.1 (g.hi p)
  int_size : n.page_type_ = IndexPageType.INTERNAL_PAGE → 1 ≤ n.GetSize
  int_nodup : n.page_type_ = IndexPageType.INTERNAL_PAGE → (n.array.map Prod.snd).Nodup
  int_tiled : n.page_type_ = IndexPageType.INTERNAL_PAGE →
    Tiled g.lo hiC (g.lo p) n.array (g.hi p)
  children : n.page_type_ = IndexPageType.INTERNAL_PAGE → ∀ c ∈ n.array.map Prod.snd,
    g.live c ∧ g.lev c + 1 = g.lev p ∧ ∃ cn, t.pages c = some cn ∧ cn.parent_page_id_ = p
  parent_ok : p ≠ t.root_page_id_ → p ≠ ex → g.live n.parent_page_id_ ∧
    ∃ q, t.pages n.parent_page_id_ = some q ∧ q.page_type_ = IndexPageType.INTERNAL_PAGE ∧
      p ∈ q.array.map Prod.snd
  root_parent : p = t.root_page_id_ → n.parent_page_id_ = INVALID_PAGE_ID

/-- The ordering invariant of a non-empty tree, with the two parameters of `PageOK`; `big`
is an internal page that may hold `max_size` children (the parent between
`InsertNodeAfter` and its split). -/
structure OrdX (t : BPlusTree) (g : Ghost) (hiC : page_id_t → Option KeyType)
    (ex big : page_id_t) : Prop where
  root_live : g.live t.root_page_id_
  fresh : ∀ p, t.next_page_id ≤ p → t.pages p = none
  live_pos : ∀ p, g.live p → 0 < p
  root_lo : g.lo t.root_page_id_ = none
  root_hi : hiC t.root_page_id_ = none
  height : (g.lev t.root_page_id_ : Int) + 2 ≤ t.next_page_id
  pages : ∀ p, g.live p → ∃ n, t.pages p = some n ∧ PageOK t g hiC ex p n
  sizes : ∀ p n, g.live p → t.pages p = some n →
    n.page_type_ = IndexPageType.INTERNAL_PAGE →
    n.max_size_ = t.internal_max_size_ ∧
      (p ≠ t.root_page_id_ → p ≠ big → n.GetSize < n.max_size_)

/-- The ordering invariant of a non-empty tree between two calls. -/
def Ord (t : BPlusTree) (g : Ghost) : Prop := OrdX t g g.hi INVALID_PAGE_ID INVALID_PAGE_ID

/-- State in which `InsertIntoParent(old, key, new)` is called: `new` holds the upper
part of what `old` held and starts at `key`, and the parent of `old` still sees `old`
reach up to where `new` ends. -/
structure SplitOrd (t : BPlusTree) (g : Ghost) (old new : page_id_t) (key : KeyType) :
    Prop where
  ord : OrdX t g (fun q => if q = old then g.hi new else g.hi q) new INVALID_PAGE_ID
  live_old : g.live old
  live_new : g.live new
  ne : old ≠ new
  hi_old : g.hi old = some key
  lo_new : g.lo new = some key
  lev_eq : g.lev new = g.lev old
  parent_eq : ∃ o n, t.pages old = some o ∧ t.pages new = some n ∧
    n.parent_page_id_ = o.parent_page_id_
  unlisted : ∀ p n, g.live p → t.pages p = some n →
    n.page_type_ = IndexPageType.INTERNAL_PAGE → new ∉ n.array.map Prod.snd
  new_ne_root : new ≠ t.root_page_id_
  lo_key : aboveLo (g.lo old) key
  key_hi : boundLe (some key) (g.hi new)
  old_size : ∀ o, t.pages old = some o → o.page_type_ = IndexPageType.INTERNAL_PAGE →
    o.GetSize < o.max_size_

/-- The pages below `S`, `S` included. -/
inductive Below (t : BPlusTree) (S : page_id_t) : page_id_t → Prop where
  | self : Below t S S
  | child (q c : page_id_t) (n : BPlusTreePage) : Below t S q → t.pages q = some n →
      n.page_type_ = IndexPageType.INTERNAL_PAGE → c ∈ n.array.map Prod.snd → Below t S c

/-- The pages reached from `M` by going to the last child again and again, `M` included. -/
inductive OnSpine (t : BPlusTree) (M : page_id_t) : page_id_t → Prop where
  | self : OnSpine t M M
  | last (q : page_id_t) (n : BPlusTreePage) (item : KeyType × Int) : OnSpine t M q →
      t.pages q = some n → n.page_type_ = IndexPageType.INTERNAL_PAGE →
      n.array.getLast? = some item → OnSpine t M item.2

/-- A tree between two calls: empty, or with the ordering invariant for some labels. -/
def Sound (t : BPlusTree) : Prop :=
  1 ≤ t.next_page_id ∧ (∀ p, t.next_page_id ≤ p → t.pages p = none) ∧
  (t.root_page_id_ = INVALID_PAGE_ID ∨ ∃ g, Ord t g)

/-- The page `c` looks to the page above it in the second state as in the first one. -/
structure UpSame (t t1 : BPlusTree) (g g1 : Ghost) (hiC hiC1 : page_id_t → Option KeyType)
    (c : page_id_t) : Prop where
  live : g.live c → g1.live c
  lev : g1.lev c = g.lev c
  lo : g1.lo c = g.lo c
  hiC : hiC1 c = hiC c
  parent : ∀ cn, t.pages c = some cn →
    ∃ cn1, t1.pages c = some cn1 ∧ cn1.parent_page_id_ = cn.parent_page_id_

/-- The internal page `q` lists the page `p` in the second state if it does in the first. -/
structure DownSame (t t1 : BPlusTree) (g g1 : Ghost) (q p : page_id_t) : Prop where
  live : g.live q → g1.live q
  kids : ∀ qn, t.pages q = some qn → qn.page_type_ = IndexPageType.INTERNAL_PAGE →
    p ∈ qn.array.map Prod.snd →
    ∃ qn1, t1.pages q = some qn1 ∧ qn1.page_type_ = IndexPageType.INTERNAL_PAGE ∧
      p ∈ qn1.array.map Prod.snd

/-- A tree at the end of a call, before the pages scheduled for deletion are freed: it is
empty, or the ordering invariant holds for labels under which no scheduled page is live. -/
def Settled (t : BPlusTree) (txn : Transaction) : Prop :=
  1 ≤ t.next_page_id ∧ (∀ p, t.next_page_id ≤ p → t.pages p = none) ∧
  (t.root_page_id_ = INVALID_PAGE_ID ∨
    ∃ g, Ord t g ∧ ∀ d ∈ txn.deleted_page_set, ¬ g.live d)

/-! ### Leaves of a tree, by the chain and by the child pointers -/

/-- The key lists of the leaves met from page `p` on by following `next_page_id_`, at most
`fuel` of them. -/
def BPlusTree.chainFrom (t : BPlusTree) : Nat → page_id_t → List (List KeyType)
  | 0, _ => []
  | fuel + 1, p =>
    if p = INVALID_PAGE_ID then []
    else match t.pages p with
      | none => []
      | some n => n.array.map Prod.fst :: BPlusTree.chainFrom t fuel n.next_page_id_

/-- The key lists of the leaves, followed from the leftmost leaf through `next_page_id_`. -/
def BPlusTree.leafChain (t : BPlusTree) : Except Err (List (List KeyType)) := do
  let (_, _, leaf) ← t.FindLeafPage 0 true Operate_Type.OP_READ none
  match leaf with
  | none => .ok []
  | some p => .ok (t.chainFrom t.fuel p)

/-- The leaves below page `p` from left to right through the child pointers, each with the
number of levels from `p` down to it and its keys; `fuel` bounds the depth. -/
def BPlusTree.leavesBelow (t : BPlusTree) : Nat → page_id_t → List (Nat × List KeyType)
  | 0, _ => []
  | fuel + 1, p =>
    match t.pages p with
    | none => []
    | some n =>
      if n.IsLeafPage then [(1, n.array.map Prod.fst)]
      else (n.array.bind (fun item => BPlusTree.leavesBelow t fuel item.2)).map
        (fun r => (r.1 + 1, r.2))

/-- `Coalesce` up to the point where it would call `CoalesceOrRedistribute` on the parent:
the call on the parent is left out, so the result is the state that call would start
from. -/
def BPlusTree.CoalesceStep (t : BPlusTree) (txn : Transaction) (leaf : Bool)
    (neighbor_id node_id parent_id : page_id_t) (index : Int) :
    Except Err (BPlusTree × Transaction × Bool) :=
  BPlusTree.Coalesce (fun t1 txn1 _ => .ok (t1, txn1, false)) t txn leaf neighbor_id node_id
    parent_id index

/-- The first step of `Remove`: the record is taken out of the leaf. -/
def BPlusTree.removeRecord (t : BPlusTree) (leaf_id : page_id_t) (key : KeyType) : BPlusTree :=
  match t.pages leaf_id with
  | some n => t.setPage leaf_id (BPlusTreeLeafPage.RemoveAndDeleteRecord n key).1
  | none => t

/-- The array of a stored page. -/
def BPlusTree.arrayOf (t : BPlusTree) (p : page_id_t) : Option (List (KeyType × Int)) :=
  (t.pages p).map (fun n => n.array)

/-! ## Lock manager (`src/concurrency/lock_manager.cpp`)

The four lock calls of `LockManager` over an explicit state: the lock table, the
transactions by id, and the calls that are blocked in `cv_.wait`.

* A call runs as one step up to its `cv_.wait`; when the wait predicate holds there the
  call goes on at once, otherwise the calling transaction is recorded in `waiting` and
  the call ends with `Outcome.blocked`. `LockManager.Wake` lets a blocked call go on
  once its predicate holds.
* `throw TransactionAbortException(id, reason)` is `Outcome.abort reason`; a failed
  `BUSTUB_ASSERT` ends the call with `Outcome.assertion` in the state reached.
* `std::list<LockRequest>` is a `List`; the reference returned by `emplace_back` is the
  last request of the transaction in the queue, the iterator found by `std::find_if` its
  first one (other transactions only erase requests of their own).
* `std::unordered_set<RID>` is its membership function `RID → Bool`.
* `concurrency/lock_manager.h`, `concurrency/transaction.h` and `common/rid.h` are not
  among the sources: the types they declare and `IsLockCompatible` are modelled from the
  spec.
* `lock_manager.cpp` names two flags of a lock request: `granted_`, which `LockExclusive`
  and `LockUpgrade` write and which `LockUpgrade`, `Unlock` and `BuildWaitsForGraph`
  read, and `granted`, which `LockShared` writes and which no function of the file
  reads. The model keeps them apart, as the source does.
-/

abbrev txn_id_t := Int

/-- Modelled from the spec: `RID` of `common/rid.h`, which is not among the sources; the
spec gives "`(page_id, slot)`". -/
structure RID where
  page_id_ : page_id_t
  slot_num_ : Nat
  deriving DecidableEq

/-- Pointwise update of a total map on record ids. -/
def setRid {β : Type} (f : RID → β) (a : RID) (v : β) : RID → β :=
  fun b => if b = a then v else f b

/-- Modelled from the spec: `TransactionState` of `concurrency/transaction.h`, which is
not among the sources; the spec gives "`state ∈ {GROWING, SHRINKING, COMMITTED,
ABORTED}`". -/
inductive TransactionState where
  | GROWING
  | SHRINKING
  | COMMITTED
  | ABORTED
  deriving DecidableEq

/-- Modelled from the spec: `IsolationLevel` of `concurrency/transaction.h`, which is not
among the sources; the spec gives "`∈ {READ_UNCOMMITTED, READ_COMMITTED,
REPEATABLE_READ}`". -/
inductive IsolationLevel where
  | READ_UNCOMMITTED
  | READ_COMMITTED
  | REPEATABLE_READ
  deriving DecidableEq

/-- Modelled from the spec: `AbortReason` of `concurrency/transaction.h`, which is not
among the sources; the spec gives the reasons "`{LOCK_ON_SHRINKING,
LOCKSHARED_ON_READ_UNCOMMITTED, UPGRADE_CONFLICT, DEADLOCK}`". -/
inductive AbortReason where
  | LOCK_ON_SHRINKING
  | LOCKSHARED_ON_READ_UNCOMMITTED
  | UPGRADE_CONFLICT
  | DEADLOCK
  deriving DecidableEq

/-- Modelled from the spec: the lock-manager part of `Transaction`
(`concurrency/transaction.h`, which is not among the sources): its state, its isolation
level, its shared-lock set and its exclusive-lock set. `IsSharedLocked(rid)` is
`shared_lock_set_ rid` and `IsExclusiveLocked(rid)` is `exclusive_lock_set_ rid`. The
transaction id is the key under which the transaction is kept in `LockManager.txns`. -/
structure LockManager.Transaction where
  state_ : TransactionState
  isolation_level_ : IsolationLevel
  shared_lock_set_ : RID → Bool
  exclusive_lock_set_ : RID → Bool

/-- Modelled from the spec: `LockManager::LockMode` of `concurrency/lock_manager.h`, which
is not among the sources; the spec gives "`mode ∈ {SHARED, EXCLUSIVE}`". -/
inductive LockManager.LockMode where
  | SHARED
  | EXCLUSIVE
  deriving DecidableEq

/-- Modelled from the spec: `LockManager::LockRequest` of `concurrency/lock_manager.h`,
which is not among the sources; the spec gives "`(txn_id, mode ∈ {SHARED, EXCLUSIVE},
granted: bool)`". The members are the ones `lock_manager.cpp` names: `txn_id_`,
`lock_mode_`, the flag `granted_` and the flag `granted` that `LockShared` writes. A
request is constructed from a transaction id and a mode and is not granted. -/
structure LockManager.LockRequest where
  txn_id_ : txn_id_t
  lock_mode_ : LockManager.LockMode
  granted_ : Bool
  granted : Bool
  deriving DecidableEq

/-- The constructor `LockRequest(txn_id, lock_mode)` used by `emplace_back`: a request
that is not granted. -/
def LockManager.LockRequest.new (txn_id : txn_id_t) (lock_mode : LockManager.LockMode) :
    LockManager.LockRequest :=
  { txn_id_ := txn_id, lock_mode_ := lock_mode, granted_ := false, granted := false }

/-- Modelled from the spec: `LockManager::LockRequestQueue` of
`concurrency/lock_manager.h`, which is not among the sources; the spec gives "an ordered
sequence of lock requests for a single RID, a per-queue latch, a condition variable, and
an `upgrading` flag". The latch and the condition variable have no state of their own in
the model. -/
structure LockManager.LockRequestQueue where
  request_queue_ : List LockManager.LockRequest
  upgrading_ : Bool
  deriving DecidableEq

/-- The lock calls of `LockManager`. -/
inductive LockManager.Call where
  | LockShared (rid : RID)
  | LockExclusive (rid : RID)
  | LockUpgrade (rid : RID)
  | Unlock (rid : RID)
  deriving DecidableEq

/-- How a call ends: it returns a `bool`, it throws `TransactionAbortException` with a
reason, it stays in `cv_.wait`, or a `BUSTUB_ASSERT` fails. -/
inductive LockManager.Outcome where
  | ret (b : Bool)
  | abort (reason : AbortReason)
  | blocked
  | assertion
  deriving DecidableEq

/-- State of `LockManager`: `lock_table_` (a record without an entry has the empty queue
that `lock_table_[rid]` creates), the transactions by id (`txn` of the calls,
`TransactionManager::GetTransaction`), and for each transaction the call in which its
thread is blocked, if any. -/
structure LockManager where
  lock_table_ : RID → LockManager.LockRequestQueue
  txns : txn_id_t → LockManager.Transaction
  waiting : txn_id_t → Option LockManager.Call

/-- A lock manager with an empty lock table, each transaction `GROWING` with empty lock
sets and the isolation level `iso` gives it. -/
def LockManager.new (iso : txn_id_t → IsolationLevel) : LockManager :=
  { lock_table_ := fun _ => { request_queue_ := [], upgrading_ := false }
    txns := fun t =>
      { state_ := TransactionState.GROWING, isolation_level_ := iso t
        shared_lock_set_ := fun _ => false, exclusive_lock_set_ := fun _ => false }
    waiting := fun _ => none }

/-- The transaction `txn` replaced by `t`. -/
def LockManager.setTxn (s : LockManager) (txn : txn_id_t) (t : LockManager.Transaction) :
    LockManager :=
  { s with txns := setAt s.txns txn t }

/-- The queue of `rid` replaced by `q`. -/
def LockManager.setQueue (s : LockManager) (rid : RID) (q : LockManager.LockRequestQueue) :
    LockManager :=
  { s with lock_table_ := setRid s.lock_table_ rid q }

/-- `txn->SetState(state)`. -/
def LockManager.SetState (s : LockManager) (txn : txn_id_t) (state : TransactionState) :
    LockManager :=
  s.setTxn txn { s.txns txn with state_ := state }

/-- `LockManager::AbortTransaction`: sets the state `ABORTED` and throws. -/
def LockManager.AbortTransaction (s : LockManager) (txn : txn_id_t) (abort_reason : AbortReason) :
    LockManager × LockManager.Outcome :=
  (s.SetState txn TransactionState.ABORTED, LockManager.Outcome.abort abort_reason)

/-- Position of the first request of `txn` in a queue (`std::find_if` from `begin()`). -/
def LockManager.findFirst (l : List LockManager.LockRequest) (txn : txn_id_t) : Option Nat :=
  if l.findIdx (fun r => decide (r.txn_id_ = txn)) < l.length then
    some (l.findIdx (fun r => decide (r.txn_id_ = txn)))
  else none

/-- Position of the last request of `txn` in a queue (the request of `emplace_back`). -/
def LockManager.findLast (l : List LockManager.LockRequest) (txn : txn_id_t) : Option Nat :=
  if l.reverse.findIdx (fun r => decide (r.txn_id_ = txn)) < l.length then
    some (l.length - 1 - l.reverse.findIdx (fun r => decide (r.txn_id_ = txn)))
  else none

/-- The request at position `p` with its `granted_` flag set to `b`. -/
def LockManager.setGranted (l : List LockManager.LockRequest) (p : Nat) (b : Bool) :
    List LockManager.LockRequest :=
  match l.get? p with
  | none => l
  | some r => l.set p { r with granted_ := b }

/-- The request at position `p` with its `granted` flag set to `b`: the assignment
`lock_request.granted = true` of `LockShared`, which leaves `granted_` as it is. -/
def LockManager.setGrantedShared (l : List LockManager.LockRequest) (p : Nat) (b : Bool) :
    List LockManager.LockRequest :=
  match l.get? p with
  | none => l
  | some r => l.set p { r with granted := b }

/-- Modelled from the spec: the mode rule of `IsLockCompatible`, "Shared is compatible
with shared only. Exclusive is compatible with nothing." -/
def LockManager.LockMode.compatible : LockManager.LockMode → LockManager.LockMode → Bool
  | LockManager.LockMode.SHARED, LockManager.LockMode.SHARED => true
  | _, _ => false

/-- Modelled from the spec: `LockManager::IsLockCompatible`, declared and defined in
`concurrency/lock_manager.h`, which is not among the sources. The spec: "A request at
position `p` in the queue is compatible iff every earlier, granted request is compatible
with it AND it has no mode conflict with the cumulative set of granted locks earlier in
the queue AND (if the request is itself an upgrade) no earlier not-granted request
exists." With two modes the second condition says the same as the first. `upgrade` tells
whether the request is the one of `LockUpgrade`. A request counts as granted when its
`granted_` flag is set, the flag that `LockUpgrade`, `Unlock` and `BuildWaitsForGraph` of
`lock_manager.cpp` test. -/
def LockManager.IsLockCompatible (q : LockManager.LockRequestQueue) (p : Nat) (upgrade : Bool) :
    Bool :=
  match q.request_queue_.get? p with
  | none => false
  | some r =>
    (q.request_queue_.take p).all fun e =>
      (!e.granted_ || LockManager.LockMode.compatible e.lock_mode_ r.lock_mode_) &&
        (!upgrade || e.granted_)

/-- The predicate of `cv_.wait` in the call `c` of `txn`: the request of the call is
compatible, or the transaction is `ABORTED`. -/
def LockManager.ready (s : LockManager) (txn : txn_id_t) : LockManager.Call → Bool
  | LockManager.Call.LockShared rid =>
    (match LockManager.findLast (s.lock_table_ rid).request_queue_ txn with
      | none => false
      | some p => LockManager.IsLockCompatible (s.lock_table_ rid) p false) ||
    decide ((s.txns txn).state_ = TransactionState.ABORTED)
  | LockManager.Call.LockExclusive rid =>
    (match LockManager.findLast (s.lock_table_ rid).request_queue_ txn with
      | none => false
      | some p => LockManager.IsLockCompatible (s.lock_table_ rid) p false) ||
    decide ((s.txns txn).state_ = TransactionState.ABORTED)
  | LockManager.Call.LockUpgrade rid =>
    (match LockManager.findFirst (s.lock_table_ rid).request_queue_ txn with
      | none => false
      | some p => LockManager.IsLockCompatible (s.lock_table_ rid) p true) ||
    decide ((s.txns txn).state_ = TransactionState.ABORTED)
  | LockManager.Call.Unlock _ => true

/-- The part of the call `c` of `txn` after its `cv_.wait`. -/
def LockManager.afterWait (s : LockManager) (txn : txn_id_t) :
    LockManager.Call → LockManager × LockManager.Outcome
  | LockManager.Call.LockShared rid =>
    if (s.txns txn).state_ = TransactionState.ABORTED then
      s.AbortTransaction txn AbortReason.DEADLOCK
    else
      let q := s.lock_table_ rid
      let s1 := s.setQueue rid
        { q with request_queue_ := match LockManager.findLast q.request_queue_ txn with
                                   | none => q.request_queue_
                                   | some p => LockManager.setGrantedShared q.request_queue_ p true }
      if (s1.txns txn).exclusive_lock_set_ rid then (s1, LockManager.Outcome.ret true)
      else
        (s1.setTxn txn { s1.txns txn with shared_lock_set_ := setRid (s1.txns txn).shared_lock_set_ rid true },
          LockManager.Outcome.ret true)
  | LockManager.Call.LockExclusive rid =>
    if (s.txns txn).state_ = TransactionState.ABORTED then
      s.AbortTransaction txn AbortReason.DEADLOCK
    else
      let q := s.lock_table_ rid
      let s1 := s.setQueue rid
        { q with request_queue_ := match LockManager.findLast q.request_queue_ txn with
                                   | none => q.request_queue_
                                   | some p => LockManager.setGranted q.request_queue_ p true }
      (s1.setTxn txn { s1.txns txn with exclusive_lock_set_ := setRid (s1.txns txn).exclusive_lock_set_ rid true },
        LockManager.Outcome.ret true)
  | LockManager.Call.LockUpgrade rid =>
    if (s.txns txn).state_ = TransactionState.ABORTED then
      s.AbortTransaction txn AbortReason.DEADLOCK
    else
      let q := s.lock_table_ rid
      let s1 := s.setQueue rid
        { request_queue_ := match LockManager.findFirst q.request_queue_ txn with
                            | none => q.request_queue_
                            | some p => LockManager.setGranted q.request_queue_ p true
          upgrading_ := false }
      let s2 := s1.setTxn txn { s1.txns txn with shared_lock_set_ := setRid (s1.txns txn).shared_lock_set_ rid false }
      (s2.setTxn txn { s2.txns txn with exclusive_lock_set_ := setRid (s2.txns txn).exclusive_lock_set_ rid true },
        LockManager.Outcome.ret true)
  | LockManager.Call.Unlock _ => (s, LockManager.Outcome.ret true)

/-- `cv_.wait(latch, pred)` in the call `c` of `txn`: the call goes on when the predicate
holds, otherwise the thread of `txn` is blocked in it. -/
def LockManager.wait (s : LockManager) (txn : txn_id_t) (c : LockManager.Call) :
    LockManager × LockManager.Outcome :=
  if s.ready txn c then s.afterWait txn c
  else ({ s with waiting := setAt s.waiting txn (some c) }, LockManager.Outcome.blocked)

/-- `LockManager::LockShared`. -/
def LockManager.LockShared (s : LockManager) (txn : txn_id_t) (rid : RID) :
    LockManager × LockManager.Outcome :=
  if (s.txns txn).isolation_level_ = IsolationLevel.READ_UNCOMMITTED then
    s.AbortTransaction txn AbortReason.LOCKSHARED_ON_READ_UNCOMMITTED
  else if (s.txns txn).isolation_level_ = IsolationLevel.REPEATABLE_READ ∧
      (s.txns txn).state_ = TransactionState.SHRINKING then
    s.AbortTransaction txn AbortReason.LOCK_ON_SHRINKING
  else if (s.txns txn).shared_lock_set_ rid || (s.txns txn).exclusive_lock_set_ rid then
    (s, LockManager.Outcome.ret true)
  else
    let q := s.lock_table_ rid
    let s1 := s.setQueue rid
      { q with request_queue_ := q.request_queue_ ++ [LockManager.LockRequest.new txn LockManager.LockMode.SHARED] }
    s1.wait txn (LockManager.Call.LockShared rid)

/-- `LockManager::LockExclusive`. -/
def LockManager.LockExclusive (s : LockManager) (txn : txn_id_t) (rid : RID) :
    LockManager × LockManager.Outcome :=
  if (s.txns txn).state_ = TransactionState.SHRINKING then
    s.AbortTransaction txn AbortReason.LOCK_ON_SHRINKING
  else if (s.txns txn).exclusive_lock_set_ rid then
    (s, LockManager.Outcome.ret true)
  else
    let q := s.lock_table_ rid
    let s1 := s.setQueue rid
      { q with request_queue_ := q.request_queue_ ++ [LockManager.LockRequest.new txn LockManager.LockMode.EXCLUSIVE] }
    s1.wait txn (LockManager.Call.LockExclusive rid)

/-- `LockManager::LockUpgrade`. -/
def LockManager.LockUpgrade (s : LockManager) (txn : txn_id_t) (rid : RID) :
    LockManager × LockManager.Outcome :=
  if (s.txns txn).state_ = TransactionState.SHRINKING then
    s.AbortTransaction txn AbortReason.LOCK_ON_SHRINKING
  else if (s.txns txn).exclusive_lock_set_ rid then
    (s, LockManager.Outcome.ret true)
  else if (s.lock_table_ rid).upgrading_ then
    s.AbortTransaction txn AbortReason.UPGRADE_CONFLICT
  else
    let q := s.lock_table_ rid
    let s1 := s.setQueue rid { q with upgrading_ := true }
    match LockManager.findFirst q.request_queue_ txn with
    | none => (s1, LockManager.Outcome.assertion)
    | some p =>
      match q.request_queue_.get? p with
      | none => (s1, LockManager.Outcome.assertion)
      | some r =>
        if r.granted_ = false then (s1, LockManager.Outcome.assertion)
        else if r.lock_mode_ ≠ LockManager.LockMode.SHARED then (s1, LockManager.Outcome.assertion)
        else if (s.txns txn).shared_lock_set_ rid = false then (s1, LockManager.Outcome.assertion)
        else if (s.txns txn).exclusive_lock_set_ rid then (s1, LockManager.Outcome.assertion)
        else
          let s2 := s.setQueue rid
            { request_queue_ := q.request_queue_.set p { r with lock_mode_ := LockManager.LockMode.EXCLUSIVE, granted_ := false }
              upgrading_ := true }
          s2.wait txn (LockManager.Call.LockUpgrade rid)

/-- `LockManager::Unlock`. `notify_all` changes no state of the model: a blocked call goes
on by `LockManager.Wake`. -/
def LockManager.Unlock (s : LockManager) (txn : txn_id_t) (rid : RID) :
    LockManager × LockManager.Outcome :=
  let s1 :=
    if (s.txns txn).isolation_level_ = IsolationLevel.REPEATABLE_READ ∧
        (s.txns txn).state_ = TransactionState.GROWING then
      s.SetState txn TransactionState.SHRINKING
    else s
  let q := s1.lock_table_ rid
  match LockManager.findFirst q.request_queue_ txn with
  | none => (s1, LockManager.Outcome.assertion)
  | some p =>
    let s2 := s1.setQueue rid { q with request_queue_ := q.request_queue_.eraseIdx p }
    let s3 := s2.setTxn txn { s2.txns txn with shared_lock_set_ := setRid (s2.txns txn).shared_lock_set_ rid false }
    (s3.setTxn txn { s3.txns txn with exclusive_lock_set_ := setRid (s3.txns txn).exclusive_lock_set_ rid false },
      LockManager.Outcome.ret true)

/-- The call `c` made for the transaction `txn`. -/
def LockManager.Do (s : LockManager) (txn : txn_id_t) : LockManager.Call →
    LockManager × LockManager.Outcome
  | LockManager.Call.LockShared rid => s.LockShared txn rid
  | LockManager.Call.LockExclusive rid => s.LockExclusive txn rid
  | LockManager.Call.LockUpgrade rid => s.LockUpgrade txn rid
  | LockManager.Call.Unlock rid => s.Unlock txn rid

/-- The blocked call of `txn` is woken: it goes on when its predicate holds, and stays
blocked otherwise. Nothing happens when `txn` has no blocked call. -/
def LockManager.Wake (s : LockManager) (txn : txn_id_t) : LockManager × LockManager.Outcome :=
  match s.waiting txn with
  | none => (s, LockManager.Outcome.blocked)
  | some c =>
    if s.ready txn c then
      LockManager.afterWait { s with waiting := setAt s.waiting txn none } txn c
    else (s, LockManager.Outcome.blocked)

/-- What can happen to a lock manager: a transaction that is not blocked makes a call, a
blocked call is woken, or the deadlock detector (`RunCycleDetection`) marks a transaction
`ABORTED`; which transaction the detector picks is left open, so a run may mark any. -/
inductive LockManager.Event where
  | call (txn : txn_id_t) (c : LockManager.Call)
  | wake (txn : txn_id_t)
  | victim (txn : txn_id_t)

/-- One event. A call of a transaction whose thread is blocked does not happen. -/
def LockManager.step (s : LockManager) : LockManager.Event → LockManager
  | LockManager.Event.call txn c =>
    match s.waiting txn with
    | none => (s.Do txn c).1
    | some _ => s
  | LockManager.Event.wake txn => (s.Wake txn).1
  | LockManager.Event.victim txn => s.SetState txn TransactionState.ABORTED

/-- The events of a list, one after the other. -/
def LockManager.run (s : LockManager) (es : List LockManager.Event) : LockManager :=
  es.foldl LockManager.step s

/-- The three calls that ask for a lock. -/
def LockManager.Call.isLock : LockManager.Call → Bool
  | LockManager.Call.Unlock _ => false
  | _ => true

/-- No transaction is `COMMITTED`, and each has the isolation level `iso` gives it. -/
def LockManager.Started (s : LockManager) (iso : txn_id_t → IsolationLevel) : Prop :=
  ∀ t, (s.txns t).isolation_level_ = iso t ∧ (s.txns t).state_ ≠ TransactionState.COMMITTED

/-- The `REPEATABLE_READ` transaction `T` is past its growing phase and its thread is not
blocked in a call. -/
def LockManager.Shrunk (s : LockManager) (T : txn_id_t) : Prop :=
  (s.txns T).isolation_level_ = IsolationLevel.REPEATABLE_READ ∧
    ((s.txns T).state_ = TransactionState.SHRINKING ∨
      (s.txns T).state_ = TransactionState.ABORTED) ∧
    s.waiting T = none

/-- The record a call is about. -/
def LockManager.Call.rid : LockManager.Call → RID
  | LockManager.Call.LockShared rid => rid
  | LockManager.Call.LockExclusive rid => rid
  | LockManager.Call.LockUpgrade rid => rid
  | LockManager.Call.Unlock rid => rid

/-- The state after the events `pre` on a new lock manager, then the call `Unlock(T, q)`,
then the events `mid`. -/
def LockManager.afterUnlock (iso : txn_id_t → IsolationLevel) (pre : List LockManager.Event)
    (T : txn_id_t) (q : RID) (mid : List LockManager.Event) : LockManager :=
  ((((LockManager.new iso).run pre).Unlock T q).1).run mid

/-! ## Wait-for graph and deadlock detection (`src/concurrency/lock_manager.cpp`)

`waits_for_` is a `std::unordered_map<txn_id_t, std::vector<txn_id_t>>`. The lock calls
never read it, so it is kept in a state of its own, `WaitsFor`, and the functions that work
on it take and return that state.
-/

/-- The map `waits_for_`: its keys, in the order in which the map is iterated, and the
vector stored under a key. What `vec` holds for a transaction that is no key is of no
account. -/
structure WaitsFor where
  keys : List txn_id_t
  vec : txn_id_t → List txn_id_t

/-- The map after `waits_for_.clear()`. -/
def WaitsFor.empty : WaitsFor := { keys := [], vec := fun _ => [] }

/-- The map after `waits_for_[t]` has been evaluated: a missing key is inserted with an
empty vector. -/
def WaitsFor.touch (g : WaitsFor) (t : txn_id_t) : WaitsFor :=
  if t ∈ g.keys then g else { keys := g.keys ++ [t], vec := setAt g.vec t [] }

/-- The graph has the edge from `u` to `w`. -/
def WaitsFor.Edge (g : WaitsFor) (u w : txn_id_t) : Prop := u ∈ g.keys ∧ w ∈ g.vec u

/-- `std::lower_bound(v.begin(), v.end(), x)`: the position of the first element that is
not less than `x`. -/
def lower_bound (v : List txn_id_t) (x : txn_id_t) : Nat :=
  v.findIdx (fun y => decide (x ≤ y))

/-- `LockManager::AddEdge`. -/
def LockManager.AddEdge (g : WaitsFor) (t1 t2 : txn_id_t) : WaitsFor :=
  let g1 := g.touch t1
  let v := g1.vec t1
  let it := lower_bound v t2
  if v.get? it = some t2 then g1
  else { g1 with vec := setAt g1.vec t1 (v.take it ++ t2 :: v.drop it) }

/-- `LockManager::RemoveEdge`: `std::find` gives the first occurrence, which is erased. -/
def LockManager.RemoveEdge (g : WaitsFor) (t1 t2 : txn_id_t) : WaitsFor :=
  let g1 := g.touch t1
  { g1 with vec := setAt g1.vec t1 ((g1.vec t1).erase t2) }

/-- `LockManager::GetEdgeList`. -/
def LockManager.GetEdgeList (g : WaitsFor) : List (txn_id_t × txn_id_t) :=
  g.keys.flatMap (fun t1 => (g.vec t1).map (fun t2 => (t1, t2)))

/-- The calls that change the graph. -/
inductive GraphOp where
  | AddEdge (t1 t2 : txn_id_t)
  | RemoveEdge (t1 t2 : txn_id_t)
  deriving DecidableEq

/-- The graph after one call. -/
def WaitsFor.apply (g : WaitsFor) : GraphOp → WaitsFor
  | GraphOp.AddEdge t1 t2 => LockManager.AddEdge g t1 t2
  | GraphOp.RemoveEdge t1 t2 => LockManager.RemoveEdge g t1 t2

/-- The graph after a sequence of calls. -/
def WaitsFor.applyAll (g : WaitsFor) (ops : List GraphOp) : WaitsFor :=
  ops.foldl WaitsFor.apply g

/-- Whether the pair `(t1, t2)` has been added by a call and not removed by a later one,
given whether it was there before the calls. -/
def edgeAdded (t1 t2 : txn_id_t) : Bool → List GraphOp → Bool
  | b, [] => b
  | b, GraphOp.AddEdge a c :: ops =>
    if a = t1 ∧ c = t2 then edgeAdded t1 t2 true ops else edgeAdded t1 t2 b ops
  | b, GraphOp.RemoveEdge a c :: ops =>
    if a = t1 ∧ c = t2 then edgeAdded t1 t2 false ops else edgeAdded t1 t2 b ops

/-- The list `c` names the vertices of a directed cycle of the relation `E`, in order:
each vertex has an edge to the next one and the last one has an edge to the first. A
single vertex with an edge to itself is a cycle. -/
def IsCycle (E : txn_id_t → txn_id_t → Prop) (c : List txn_id_t) : Prop :=
  List.Chain' E c ∧ ∃ a b, c.getLast? = some a ∧ c.head? = some b ∧ E a b

/-- Modelled from the spec: `LockManager::VisitedType` of `concurrency/lock_manager.h`,
which is not among the sources; the spec gives the colours "`{unvisited, in_stack,
visited}`". A vertex without an entry in `visited` is unvisited. -/
inductive LockManager.VisitedType where
  | IN_STACK
  | VISITED
  deriving DecidableEq

/-- The first loop of `GetYoungestTransactionInCycle`: transactions go from the stack to
`tmp` until the top of `tmp` is `vertex`. `top` and `rest` are `tmp`; popping an empty stack
is undefined. -/
def LockManager.moveUntil (vertex : txn_id_t) :
    txn_id_t → List txn_id_t → List txn_id_t → Except Err (List txn_id_t × List txn_id_t)
  | top, rest, stack =>
    if top = vertex then .ok (top :: rest, stack)
    else
      match stack with
      | [] => .error .undefined
      | x :: stack1 => LockManager.moveUntil vertex x (top :: rest) stack1

/-- `LockManager::GetYoungestTransactionInCycle`: the stack afterwards (its head is the
top) and the returned id. -/
def LockManager.GetYoungestTransactionInCycle (stack : List txn_id_t) (vertex : txn_id_t) :
    Except Err (List txn_id_t × txn_id_t) :=
  match stack with
  | [] => .error .undefined
  | top :: stack1 => do
    let (tmp, stack2) ← LockManager.moveUntil vertex top [] stack1
    let (max_txn_id, stack3) :=
      tmp.foldl (fun (r : txn_id_t × List txn_id_t) x => (max r.1 x, x :: r.2)) (0, stack2)
    .ok (stack3, max_txn_id)

/-- What `HasCycle` and `ProcessDFSTree` work on: the graph, the stack (its head is the
top) and the map `visited`. -/
structure LockManager.Dfs where
  waits_for_ : WaitsFor
  stack : List txn_id_t
  visited : txn_id_t → Option LockManager.VisitedType

/-- The `for` loop of `ProcessDFSTree` over the vector of the top of the stack; `rec` is
the recursive call. The result is `some id` when a cycle has been found, with the id
written to `*txn_id`, and `none` otherwise. -/
def LockManager.ProcessLoop
    (rec : LockManager.Dfs → Except Err (LockManager.Dfs × Option txn_id_t)) :
    List txn_id_t → LockManager.Dfs → Except Err (LockManager.Dfs × Option txn_id_t)
  | [], st => .ok (st, none)
  | v :: rest, st =>
    match st.visited v with
    | some LockManager.VisitedType.IN_STACK => do
      let (stack1, id) ← LockManager.GetYoungestTransactionInCycle st.stack v
      .ok ({ st with stack := stack1 }, some id)
    | none => do
      let (st1, r) ← rec { st with stack := v :: st.stack, visited := setAt st.visited v (some LockManager.VisitedType.IN_STACK) }
      match r with
      | some id => .ok (st1, some id)
      | none => LockManager.ProcessLoop rec rest st1
    | some LockManager.VisitedType.VISITED => LockManager.ProcessLoop rec rest st

/-- `LockManager::ProcessDFSTree`; `fuel` bounds the depth of the recursion. -/
def LockManager.ProcessDFSTree : Nat → LockManager.Dfs →
    Except Err (LockManager.Dfs × Option txn_id_t)
  | 0, _ => .error .outOfFuel
  | fuel + 1, st =>
    match st.stack with
    | [] => .error .undefined
    | top :: _ => do
      let g1 := st.waits_for_.touch top
      let (st1, r) ← LockManager.ProcessLoop (LockManager.ProcessDFSTree fuel) (g1.vec top)
        { st with waits_for_ := g1 }
      match st1.stack with
      | [] => .error .undefined
      | top1 :: stack1 =>
        .ok ({ st1 with visited := setAt st1.visited top1 (some LockManager.VisitedType.VISITED), stack := stack1 }, r)

/-- The `for` loop of `HasCycle` over the sorted vertices. -/
def LockManager.HasCycleLoop (fuel : Nat) : List txn_id_t → WaitsFor →
    (txn_id_t → Option LockManager.VisitedType) → Except Err (WaitsFor × Option txn_id_t)
  | [], g, _ => .ok (g, none)
  | v :: rest, g, visited =>
    if visited v = none then do
      let (st, r) ← LockManager.ProcessDFSTree fuel
        { waits_for_ := g, stack := [v], visited := setAt visited v (some LockManager.VisitedType.IN_STACK) }
      match r with
      | some id => .ok (st.waits_for_, some id)
      | none => LockManager.HasCycleLoop fuel rest st.waits_for_ st.visited
    else LockManager.HasCycleLoop fuel rest g visited

/-- `LockManager::HasCycle`: the graph afterwards and `some id` for `true` with `*txn_id =
id`, `none` for `false`. The depth of the recursion is at most the number of vertices,
which the number of keys plus the number of edges bounds. -/
def LockManager.HasCycle (g : WaitsFor) : Except Err (WaitsFor × Option txn_id_t) :=
  LockManager.HasCycleLoop (g.keys.length + (LockManager.GetEdgeList g).length + 1)
    (g.keys.insertionSort (fun a b => a ≤ b)) g (fun _ => none)

/-- `LockManager::BuildWaitsForGraph`; `rids` lists the keys of `lock_table_` in the order
in which the map is iterated (a record with an empty queue adds nothing). -/
def LockManager.BuildWaitsForGraph (s : LockManager) (rids : List RID) (g : WaitsFor) :
    WaitsFor :=
  rids.foldl (fun g rid =>
    let queue := ((s.lock_table_ rid).request_queue_).filter
      (fun r => decide ((s.txns r.txn_id_).state_ ≠ TransactionState.ABORTED))
    let holdings := (queue.filter (fun r => r.granted_)).map (fun r => r.txn_id_)
    let waitings := (queue.filter (fun r => !r.granted_)).map (fun r => r.txn_id_)
    waitings.foldl (fun g t1 => holdings.foldl (fun g t2 => LockManager.AddEdge g t1 t2) g) g) g

/-- The inner `while (HasCycle(&txn_id))` loop of `RunCycleDetection`: the lock manager and
the graph afterwards, and the transactions that were marked `ABORTED`, in order. -/
def LockManager.DetectLoop : Nat → LockManager → List RID → WaitsFor →
    Except Err (LockManager × WaitsFor × List txn_id_t)
  | 0, _, _, _ => .error .outOfFuel
  | fuel + 1, s, rids, g => do
    let (g1, r) ← LockManager.HasCycle g
    match r with
    | none => .ok (s, g1, [])
    | some txn_id =>
      let s1 := s.SetState txn_id TransactionState.ABORTED
      let g2 := LockManager.BuildWaitsForGraph s1 rids WaitsFor.empty
      let (s2, g3, aborted) ← LockManager.DetectLoop fuel s1 rids g2
      .ok (s2, g3, txn_id :: aborted)

/-- The number of requests in the queues of the records `rids`. -/
def LockManager.requestCount (s : LockManager) (rids : List RID) : Nat :=
  (rids.map (fun rid => (s.lock_table_ rid).request_queue_.length)).sum

/-- One pass of `LockManager::RunCycleDetection` (the body of its outer loop): the graph is
cleared and built, and the loop runs. Every round marks one more transaction of a request
`ABORTED`, so the number of requests plus one bounds the number of rounds. -/
def LockManager.RunCycleDetection (s : LockManager) (rids : List RID) :
    Except Err (LockManager × WaitsFor × List txn_id_t) :=
  LockManager.DetectLoop (s.requestCount rids + 1) s rids
    (LockManager.BuildWaitsForGraph s rids WaitsFor.empty)

/-- The graphs the calls build: no key twice, and every vector strictly increasing. -/
def GraphOK (g : WaitsFor) : Prop :=
  g.keys.Nodup ∧ ∀ t, (g.vec t).Pairwise (fun a b => a < b)

/-- The id `HasCycle` puts out for a cycle of the relation `E`: it is the largest of 0 and
the vertices of a cycle (`GetYoungestTransactionInCycle` starts from `max_txn_id = 0`). -/
def Found (E : txn_id_t → txn_id_t → Prop) (id : txn_id_t) : Prop :=
  ∃ c, IsCycle E c ∧ 0 ≤ id ∧ (∀ x ∈ c, x ≤ id) ∧ (id = 0 ∨ id ∈ c)

/-- Invariant of the depth-first search for the edge relation `E`: the graph has the edges
of `E`; the stack is a path, bottom to top, without repetition; the vertices marked
`IN_STACK` are those on the stack; every edge from a vertex marked `VISITED` leads to a
vertex marked `VISITED` of lower rank, for some ranking (so no cycle runs through the
vertices marked `VISITED`). -/
structure DfsInv (E : txn_id_t → txn_id_t → Prop) (st : LockManager.Dfs) : Prop where
  edges : ∀ u w, st.waits_for_.Edge u w ↔ E u w
  chain : List.Chain' (fun a b => E b a) st.stack
  nodup : st.stack.Nodup
  instack : ∀ v, st.visited v = some LockManager.VisitedType.IN_STACK ↔ v ∈ st.stack
  rank : ∃ rk : txn_id_t → Nat, ∀ u w, st.visited u = some LockManager.VisitedType.VISITED →
    E u w → st.visited w = some LockManager.VisitedType.VISITED ∧ rk w < rk u

/-- The map `visited` only grows: a vertex marked `VISITED` stays so and a vertex with a
mark keeps having one. -/
structure DfsMono (visited visited1 : txn_id_t → Option LockManager.VisitedType) : Prop where
  done : ∀ x, visited x = some LockManager.VisitedType.VISITED →
    visited1 x = some LockManager.VisitedType.VISITED
  seen : ∀ x, visited x ≠ none → visited1 x ≠ none

/-- The number of vertices of `V` without a mark. -/
def unseen (V : Finset txn_id_t) (visited : txn_id_t → Option LockManager.VisitedType) : Nat :=
  (V.filter (fun x => visited x = none)).card

/-- The edges `BuildWaitsForGraph` adds for the lock manager `s` and the records `rids`:
from the transaction of a waiting request to the transaction of a granted request of the
same queue, neither of them `ABORTED`. -/
def LockManager.Waits (s : LockManager) (rids : List RID) (u w : txn_id_t) : Prop :=
  ∃ rid ∈ rids, ∃ r1 ∈ (s.lock_table_ rid).request_queue_,
    ∃ r2 ∈ (s.lock_table_ rid).request_queue_,
      r1.txn_id_ = u ∧ r1.granted_ = false ∧
      (s.txns u).state_ ≠ TransactionState.ABORTED ∧
      r2.txn_id_ = w ∧ r2.granted_ = true ∧
      (s.txns w).state_ ≠ TransactionState.ABORTED

/-- The transactions with a request in a queue of the records `rids` that are not
`ABORTED`. -/
def LockManager.liveTxns (s : LockManager) (rids : List RID) : Finset txn_id_t :=
  ((rids.flatMap (fun rid => (s.lock_table_ rid).request_queue_.map
    (fun r => r.txn_id_))).toFinset).filter
      (fun t => (s.txns t).state_ ≠ TransactionState.ABORTED)

/-! ## Matrices of the primer (`src/include/primer/p0_starter.h`) -/

/-- `RowMatrix<T>`: the numbers of rows and columns and the elements `data_[i][j]`. A
matrix is constructed with its sizes, which are not negative. -/
structure RowMatrix (T : Type) where
  rows : Nat
  cols : Nat
  data_ : Nat → Nat → T

/-- `RowMatrix::GetRows`. -/
def RowMatrix.GetRows {T : Type} (m : RowMatrix T) : Nat := m.rows

/-- `RowMatrix::GetColumns`. -/
def RowMatrix.GetColumns {T : Type} (m : RowMatrix T) : Nat := m.cols

/-- `RowMatrix::GetElem`. -/
def RowMatrix.GetElem {T : Type} (m : RowMatrix T) (i j : Nat) : T := m.data_ i j

/-- `RowMatrix::SetElem`. -/
def RowMatrix.SetElem {T : Type} (m : RowMatrix T) (i j : Nat) (val : T) : RowMatrix T :=
  { m with data_ := fun a b => if a = i ∧ b = j then val else m.data_ a b }

/-- `RowMatrixOperations::MultiplyMatrices`; `none` is `nullptr`. The constructor of
`RowMatrix` does not initialise the elements: `junk` is what the new matrix holds before
the loops fill it. -/
def RowMatrixOperations.MultiplyMatrices {T : Type} [Zero T] [Add T] [Mul T]
    (junk : Nat → Nat → T) (mat1 mat2 : Option (RowMatrix T)) : Option (RowMatrix T) :=
  match mat1, mat2 with
  | some m1, some m2 =>
    if m1.GetColumns ≠ m2.GetRows then none
    else
      let rows := m1.GetRows
      let cols := m2.GetColumns
      let size := m1.GetColumns
      let res : RowMatrix T := { rows := rows, cols := cols, data_ := junk }
      some ((List.range rows).foldl (fun res i =>
        (List.range cols).foldl (fun res j =>
          let sum := (List.range size).foldl
            (fun sum k => sum + m1.GetElem i k * m2.GetElem k j) 0
          res.SetElem i j sum) res) res)
  | _, _ => none

/-! ## Lemmas on the replacer -/

theorem setAt_same {β : Type} (f : Int → β) (a : Int) (v : β) : setAt f a v a = v := by
  simp [setAt]

theorem setAt_other {β : Type} (f : Int → β) (a b : Int) (v : β) (h : b ≠ a) :
    setAt f a v b = f b := by
  simp [setAt, h]

theorem setAt_setAt {β : Type} (f : Int → β) (a : Int) (v w : β) :
    setAt (setAt f a v) a w = setAt f a w := by
  funext b
  by_cases h : b = a <;> simp [setAt, h]

theorem setAt_eq_self {β : Type} (f : Int → β) (a : Int) (v : β) (h : f a = v) :
    setAt f a v = f := by
  funext b
  by_cases hb : b = a
  · subst hb; simp [setAt, h]
  · simp [setAt, hb]

theorem Victim_snoc (r : LRUReplacer) (l : List frame_id_t) (x : frame_id_t)
    (hn : r.num_pages_ = r.lru.length) (hl : r.lru = l ++ [x]) :
    r.Victim = ({ r with num_pages_ := r.num_pages_ - 1, lru := l, mp := setAt r.mp x false },
      some x) := by
  have h0 : r.num_pages_ ≠ 0 := by rw [hn, hl]; simp
  simp [LRUReplacer.Victim, h0, hl]

theorem Victim_nil (r : LRUReplacer) (hn : r.num_pages_ = 0) : r.Victim = (r, none) := by
  simp [LRUReplacer.Victim, hn]

theorem Unpin_fresh (r : LRUReplacer) (f : frame_id_t) (hf : r.mp f = false)
    (hc : r.num_pages_ ≠ r.max_num_pages_) :
    r.Unpin f = { r with lru := f :: r.lru, mp := setAt r.mp f true,
                         num_pages_ := r.num_pages_ + 1 } := by
  simp [LRUReplacer.Unpin, hf, hc]

theorem Unpin_tracked (r : LRUReplacer) (f : frame_id_t) (hf : r.mp f = true) :
    r.Unpin f = r := by
  simp [LRUReplacer.Unpin, hf]

theorem Pin_tracked (r : LRUReplacer) (f : frame_id_t) (hf : r.mp f = true) :
    r.Pin f = { r with lru := r.lru.erase f, num_pages_ := r.num_pages_ - 1,
                       mp := setAt r.mp f false } := by
  simp [LRUReplacer.Pin, hf]

theorem Pin_untracked (r : LRUReplacer) (f : frame_id_t) (hf : r.mp f = false) :
    r.Pin f = r := by
  simp [LRUReplacer.Pin, hf]

theorem WF_new (K : Nat) : (LRUReplacer.new K).WF :=
  ⟨by simp [LRUReplacer.new], by simp [LRUReplacer.new], by simp [LRUReplacer.new]⟩

theorem Victims_all (l : List frame_id_t) : ∀ r : LRUReplacer, r.lru = l.reverse →
    r.num_pages_ = l.length →
    r.Victims l.length = l ∧ (r.afterVictims l.length).Victim.2 = none := by
  induction l with
  | nil =>
    intro r _ hn
    exact ⟨rfl, by simp [LRUReplacer.afterVictims, Victim_nil r (by simpa using hn)]⟩
  | cons x l ih =>
    intro r hl hn
    have hl2 : r.lru = l.reverse ++ [x] := by simpa using hl
    have hv := Victim_snoc r l.reverse x (by rw [hn, hl]; simp) hl2
    have h := ih { r with num_pages_ := r.num_pages_ - 1, lru := l.reverse,
                          mp := setAt r.mp x false } rfl (by simp [hn])
    constructor
    · simp only [List.length_cons, LRUReplacer.Victims, hv]
      rw [h.1]
    · simp only [List.length_cons, LRUReplacer.afterVictims, hv]
      exact h.2

theorem Stamped_new (K : Nat) : Stamped (LRUReplacer.new K) Stamps.new :=
  ⟨WF_new K, by simp [LRUReplacer.new, Stamps.new], by simp [Stamps.new],
    by simp [LRUReplacer.new]⟩

theorem Stamped_Pin (r : LRUReplacer) (s : Stamps) (f : frame_id_t) (h : Stamped r s) :
    Stamped (r.call (.Pin f)) (s.call (.Pin f)) := by
  by_cases hf : r.mp f = true
  · have hmem : ∀ g, g ∈ r.lru.erase f ↔ g ≠ f ∧ g ∈ r.lru := fun g => h.wf.nodup.mem_erase_iff
    simp only [LRUReplacer.call, Pin_tracked r f hf, Stamps.call]
    refine ⟨⟨h.wf.nodup.erase f, ?_, ?_⟩, ?_, ?_, ?_⟩
    · intro g
      rw [hmem]
      by_cases hg : g = f
      · simp [hg, setAt]
      · simp [hg, setAt, h.wf.mp_iff g]
    · have : f ∈ r.lru := (h.wf.mp_iff f).1 hf
      simp [h.wf.size_eq, List.length_erase_of_mem this]
    · intro g
      by_cases hg : g = f
      · simp [hg, setAt]
      · simp [hg, setAt, h.tracked g]
    · intro g t hg
      by_cases hgf : g = f
      · simp [hgf, setAt] at hg
      · simp only [setAt, hgf, if_false] at hg
        exact Nat.le_succ_of_le (h.bound g t hg)
    · refine List.Pairwise.imp_of_mem ?_ (h.order.sublist (List.erase_sublist f r.lru))
      intro a b ha hb hab
      obtain ⟨ta, tb, h1, h2, h3⟩ := hab
      exact ⟨ta, tb, by simp [setAt, ((hmem b).1 hb).1, h1],
        by simp [setAt, ((hmem a).1 ha).1, h2], h3⟩
  · have hf2 : r.mp f = false := by simpa using hf
    have hs : s.stamp f = none := by
      have := (h.tracked f).not.1 hf
      simpa using this
    simp only [LRUReplacer.call, Pin_untracked r f hf2, Stamps.call, setAt_eq_self _ _ _ hs]
    exact ⟨h.wf, h.tracked, fun g t hg => Nat.le_succ_of_le (h.bound g t hg), h.order⟩

theorem Stamped_Unpin (r : LRUReplacer) (s : Stamps) (f : frame_id_t) (h : Stamped r s)
    (hc : r.mp f = true ∨ r.num_pages_ < r.max_num_pages_) :
    Stamped (r.call (.Unpin f)) (s.call (.Unpin f)) := by
  by_cases hf : r.mp f = true
  · obtain ⟨t, ht⟩ := Option.isSome_iff_exists.1 ((h.tracked f).1 hf)
    simp only [LRUReplacer.call, Unpin_tracked r f hf, Stamps.call, ht]
    exact ⟨h.wf, h.tracked, fun g t hg => Nat.le_succ_of_le (h.bound g t hg), h.order⟩
  · have hf2 : r.mp f = false := by simpa using hf
    have hs : s.stamp f = none := by
      have := (h.tracked f).not.1 hf
      simpa using this
    have hlt : r.num_pages_ < r.max_num_pages_ := hc.resolve_left hf
    have hnot : f ∉ r.lru := fun hm => hf ((h.wf.mp_iff f).2 hm)
    simp only [LRUReplacer.call, Unpin_fresh r f hf2 (Nat.ne_of_lt hlt), Stamps.call, hs]
    refine ⟨⟨List.nodup_cons.2 ⟨hnot, h.wf.nodup⟩, ?_, by simp [h.wf.size_eq]⟩, ?_, ?_, ?_⟩
    · intro g
      by_cases hg : g = f
      · simp [hg, setAt]
      · simp [hg, setAt, h.wf.mp_iff g]
    · intro g
      by_cases hg : g = f
      · simp [hg, setAt]
      · simp [hg, setAt, h.tracked g]
    · intro g t hg
      by_cases hgf : g = f
      · subst hgf
        simp only [setAt, if_true, Option.some.injEq] at hg
        exact Nat.le_of_eq hg.symm
      · simp only [setAt, hgf, if_false] at hg
        exact Nat.le_succ_of_le (h.bound g t hg)
    · refine List.pairwise_cons.2 ⟨?_, ?_⟩
      · intro a ha
        have haf : a ≠ f := fun e => hnot (e ▸ ha)
        obtain ⟨ta, hta⟩ := Option.isSome_iff_exists.1 ((h.tracked a).1 ((h.wf.mp_iff a).2 ha))
        exact ⟨ta, s.clock + 1, by simp [setAt, haf, hta], by simp [setAt],
          Nat.lt_succ_of_le (h.bound a ta hta)⟩
      · refine List.Pairwise.imp_of_mem ?_ h.order
        intro a b ha hb hab
        obtain ⟨ta, tb, h1, h2, h3⟩ := hab
        have haf : a ≠ f := fun e => hnot (e ▸ ha)
        have hbf : b ≠ f := fun e => hnot (e ▸ hb)
        exact ⟨ta, tb, by simp [setAt, hbf, h1], by simp [setAt, haf, h2], h3⟩

theorem Stamped_calls (cs : List LRUCall) : ∀ (r : LRUReplacer) (s : Stamps), Stamped r s →
    withinCapacity r cs = true → Stamped (r.calls cs) (s.calls cs) := by
  induction cs with
  | nil => intro r s h _; exact h
  | cons c cs ih =>
    intro r s h hc
    simp only [LRUReplacer.calls, Stamps.calls, List.foldl_cons]
    cases c with
    | Pin f => exact ih _ _ (Stamped_Pin r s f h) (by simpa [withinCapacity] using hc)
    | Unpin f =>
      simp only [withinCapacity, Bool.and_eq_true, Bool.or_eq_true, decide_eq_true_eq] at hc
      exact ih _ _ (Stamped_Unpin r s f h hc.1) hc.2

/-- C10. After any sequence of Pin/Unpin calls that stays within capacity on a new
replacer, `Size()` successive Victim calls return exactly the tracked frames, each once,
oldest insertion stamp first (the stamp of a frame is the time of the last Unpin made
while it was not tracked), and one more Victim call fails; with K=7, Unpin 1..6, Pin 4,
Unpin 4, six Victim calls return 1,2,3,5,6,4. -/
theorem LRUReplacer_victim_order (K : Nat) (cs : List LRUCall)
    (hc : withinCapacity (LRUReplacer.new K) cs = true) :
    (∀ f, ((LRUReplacer.new K).calls cs).mp f = true ↔
        ((Stamps.new.calls cs).stamp f).isSome = true) ∧
    (∀ f, f ∈ ((LRUReplacer.new K).calls cs).Victims ((LRUReplacer.new K).calls cs).Size ↔
        ((Stamps.new.calls cs).stamp f).isSome = true) ∧
    (((LRUReplacer.new K).calls cs).Victims ((LRUReplacer.new K).calls cs).Size).Nodup ∧
    (((LRUReplacer.new K).calls cs).Victims ((LRUReplacer.new K).calls cs).Size).Pairwise
        (Stamps.new.calls cs).before ∧
    ((((LRUReplacer.new K).calls cs).afterVictims
        ((LRUReplacer.new K).calls cs).Size).Victim).2 = none ∧
    ((LRUReplacer.new 7).calls [.Unpin 1, .Unpin 2, .Unpin 3, .Unpin 4, .Unpin 5, .Unpin 6,
        .Pin 4, .Unpin 4]).Victims 6 = [1, 2, 3, 5, 6, 4] := by
  have h := Stamped_calls cs _ _ (Stamped_new K) hc
  generalize (LRUReplacer.new K).calls cs = r at h
  generalize Stamps.new.calls cs = s at h
  have hv := Victims_all r.lru.reverse r (by simp) (by simp [h.wf.size_eq])
  have hsz : r.Size = r.lru.reverse.length := by simp [LRUReplacer.Size, h.wf.size_eq]
  rw [hsz, hv.1]
  refine ⟨h.tracked, ?_, List.nodup_reverse.2 h.wf.nodup, List.pairwise_reverse.2 h.order,
    hv.2, by decide⟩
  intro f
  rw [List.mem_reverse, ← h.wf.mp_iff f]
  exact h.tracked f

theorem LRUReplacer_victim_order_witness :
    withinCapacity (LRUReplacer.new 2) [.Unpin 5, .Unpin 3, .Pin 5, .Unpin 5] = true ∧
    (((LRUReplacer.new 2).calls [.Unpin 5, .Unpin 3, .Pin 5, .Unpin 5]).Victims
      ((LRUReplacer.new 2).calls [.Unpin 5, .Unpin 3, .Pin 5, .Unpin 5]).Size).Pairwise
      (Stamps.new.calls [.Unpin 5, .Unpin 3, .Pin 5, .Unpin 5]).before :=
  ⟨by decide, (LRUReplacer_victim_order 2 [.Unpin 5, .Unpin 3, .Pin 5, .Unpin 5]
    (by decide)).2.2.2.1⟩

/-! ## Lemmas on `FindFrame` -/

/-- What the loop of `FindFrame` needs of the replacer. -/
theorem loop_step_pinned (n : Nat) (s : BufferPoolManager) (l : List frame_id_t)
    (x : frame_id_t) (hn : s.replacer_.num_pages_ = s.replacer_.lru.length)
    (hcap : s.replacer_.num_pages_ ≤ s.replacer_.max_num_pages_)
    (hmp : s.replacer_.mp x = true)
    (hl : s.replacer_.lru = l ++ [x]) (hp : 0 < (s.pages_ x).pin_count_) :
    BufferPoolManager.FindFrameLoop (n + 1) s =
      BufferPoolManager.FindFrameLoop n
        { s with replacer_ := { s.replacer_ with lru := x :: l } } := by
  have h0 : 0 < s.replacer_.num_pages_ := by rw [hn, hl]; simp
  have hp2 : ¬ (s.pages_ x).pin_count_ ≤ 0 := not_le.2 hp
  rw [BufferPoolManager.FindFrameLoop, Victim_snoc s.replacer_ l x hn hl]
  simp only [hp2, if_false]
  rw [Unpin_fresh _ x (by simp [setAt]) (by simp; omega)]
  congr 2
  simp only [setAt_setAt, setAt_eq_self _ _ _ hmp]
  have : s.replacer_.num_pages_ - 1 + 1 = s.replacer_.num_pages_ := by omega
  simp [this]

theorem loop_step_found (n : Nat) (s : BufferPoolManager) (l : List frame_id_t)
    (x : frame_id_t) (hn : s.replacer_.num_pages_ = s.replacer_.lru.length)
    (hl : s.replacer_.lru = l ++ [x]) (hp : (s.pages_ x).pin_count_ ≤ 0) :
    BufferPoolManager.FindFrameLoop (n + 1) s =
      ({ s with
          replacer_ := { s.replacer_ with num_pages_ := s.replacer_.num_pages_ - 1, lru := l,
                                          mp := setAt s.replacer_.mp x false }
          page_table_ := setAt s.page_table_ (s.pages_ x).page_id_ none }, some x) := by
  rw [BufferPoolManager.FindFrameLoop, Victim_snoc s.replacer_ l x hn hl]
  simp only [hp, if_true]

theorem loop_none (c : List frame_id_t) : ∀ (s : BufferPoolManager) (a : List frame_id_t),
    s.replacer_.lru = a ++ c.reverse →
    s.replacer_.num_pages_ = s.replacer_.lru.length →
    s.replacer_.num_pages_ ≤ s.replacer_.max_num_pages_ →
    (∀ x, x ∈ s.replacer_.lru → s.replacer_.mp x = true) →
    (∀ x, x ∈ c → 0 < (s.pages_ x).pin_count_) →
    BufferPoolManager.FindFrameLoop c.length s =
      ({ s with replacer_ := { s.replacer_ with lru := c.reverse ++ a } }, none) := by
  induction c with
  | nil =>
    intro s a hl _ _ _ _
    have : s.replacer_.lru = a := by simpa using hl
    simp [BufferPoolManager.FindFrameLoop, ← this]
  | cons x c ih =>
    intro s a hl hn hcap hmp hp
    have hl2 : s.replacer_.lru = (a ++ c.reverse) ++ [x] := by simp [hl]
    have hx : x ∈ s.replacer_.lru := by rw [hl2]; simp
    rw [List.length_cons, loop_step_pinned c.length s _ x hn hcap (hmp x hx) hl2
      (hp x (List.mem_cons_self x c))]
    have h2 := ih { s with replacer_ := { s.replacer_ with lru := x :: (a ++ c.reverse) } }
      (x :: a) (by simp) (by simp [hn, hl2]; omega) (by simpa [hn, hl2] using hcap)
      (by
        intro y hy
        apply hmp y
        rw [hl2]
        simp only [List.mem_cons, List.mem_append, List.mem_reverse, List.mem_singleton,
          List.not_mem_nil, or_false] at hy ⊢
        tauto)
      (fun y hy => hp y (List.mem_cons_of_mem x hy))
    rw [h2]
    simp [List.reverse_cons]

theorem loop_found (c : List frame_id_t) : ∀ (n : Nat) (s : BufferPoolManager)
    (a : List frame_id_t) (f : frame_id_t),
    s.replacer_.lru = a ++ f :: c.reverse →
    s.replacer_.num_pages_ = s.replacer_.lru.length →
    s.replacer_.num_pages_ ≤ s.replacer_.max_num_pages_ →
    (∀ x, x ∈ s.replacer_.lru → s.replacer_.mp x = true) →
    (∀ x, x ∈ c → 0 < (s.pages_ x).pin_count_) →
    (s.pages_ f).pin_count_ ≤ 0 →
    BufferPoolManager.FindFrameLoop (c.length + 1 + n) s =
      ({ s with
          replacer_ := { s.replacer_ with num_pages_ := s.replacer_.num_pages_ - 1,
                                          lru := c.reverse ++ a,
                                          mp := setAt s.replacer_.mp f false }
          page_table_ := setAt s.page_table_ (s.pages_ f).page_id_ none }, some f) := by
  induction c with
  | nil =>
    intro n s a f hl hn _ _ _ hf
    have hl2 : s.replacer_.lru = a ++ [f] := by simpa using hl
    have : ([] : List frame_id_t).length + 1 + n = n + 1 := by simp; omega
    rw [this, loop_step_found n s a f hn hl2 hf]
    simp
  | cons x c ih =>
    intro n s a f hl hn hcap hmp hp hf
    have hl2 : s.replacer_.lru = (a ++ f :: c.reverse) ++ [x] := by simp [hl]
    have hx : x ∈ s.replacer_.lru := by rw [hl2]; simp
    have : (x :: c).length + 1 + n = (c.length + 1 + n) + 1 := by simp; omega
    rw [this, loop_step_pinned _ s _ x hn hcap (hmp x hx) hl2 (hp x (List.mem_cons_self x c))]
    have h2 := ih n { s with replacer_ := { s.replacer_ with lru := x :: (a ++ f :: c.reverse) } }
      (x :: a) f (by simp) (by simp [hn, hl2]; omega) (by simpa [hn, hl2] using hcap)
      (by
        intro y hy
        apply hmp y
        rw [hl2]
        simp only [List.mem_cons, List.mem_append, List.mem_reverse, List.mem_singleton,
          List.not_mem_nil, or_false] at hy ⊢
        tauto)
      (fun y hy => hp y (List.mem_cons_of_mem x hy)) hf
    rw [h2]
    simp [List.reverse_cons]

theorem last_not (P : frame_id_t → Prop) (l : List frame_id_t) :
    (∀ x, x ∈ l → P x) ∨ ∃ a f b, l = a ++ f :: b ∧ ¬ P f ∧ ∀ x, x ∈ b → P x := by
  induction l with
  | nil => left; simp
  | cons y l ih =>
    rcases ih with h | ⟨a, f, b, hl, hf, hb⟩
    · by_cases hy : P y
      · left
        intro x hx
        rcases List.mem_cons.1 hx with e | hx
        · exact e ▸ hy
        · exact h x hx
      · exact Or.inr ⟨[], y, l, rfl, hy, h⟩
    · exact Or.inr ⟨y :: a, f, b, by simp [hl], hf, hb⟩

theorem length_le_of_range (l : List frame_id_t) (n : Nat) (hd : l.Nodup)
    (hr : ∀ x, x ∈ l → 0 ≤ x ∧ x < n) : l.length ≤ n := by
  have h1 : l.toFinset ⊆ Finset.Ico (0 : Int) n := by
    intro x hx
    have := hr x (List.mem_toFinset.1 hx)
    exact Finset.mem_Ico.2 this
  have h2 := Finset.card_le_card h1
  rw [List.toFinset_card_of_nodup hd, Int.card_Ico] at h2
  simpa using h2

/-- The three ways `FindFrame` can end, given a consistent replacer. -/
theorem FindFrame_cases (s : BufferPoolManager)
    (hn : s.replacer_.num_pages_ = s.replacer_.lru.length)
    (hcap : s.replacer_.num_pages_ ≤ s.replacer_.max_num_pages_)
    (hmp : ∀ x, x ∈ s.replacer_.lru → s.replacer_.mp x = true) :
    (s.FindFrame = (s, none) ∧ s.free_list_ = [] ∧
      ∀ x, x ∈ s.replacer_.lru → 0 < (s.pages_ x).pin_count_) ∨
    (∃ l f, s.free_list_ = l ++ [f] ∧ s.FindFrame = ({ s with free_list_ := l }, some f)) ∨
    (∃ a f b, s.free_list_ = [] ∧ s.replacer_.lru = a ++ f :: b ∧ (s.pages_ f).pin_count_ ≤ 0 ∧
      (∀ x, x ∈ b → 0 < (s.pages_ x).pin_count_) ∧
      s.FindFrame =
        ({ s with
            replacer_ := { s.replacer_ with num_pages_ := s.replacer_.num_pages_ - 1,
                                            lru := b ++ a,
                                            mp := setAt s.replacer_.mp f false }
            page_table_ := setAt s.page_table_ (s.pages_ f).page_id_ none }, some f)) := by
  rcases List.eq_nil_or_concat s.free_list_ with hfl | ⟨l, f, hfl⟩
  · rcases last_not (fun x => 0 < (s.pages_ x).pin_count_) s.replacer_.lru with
      hall | ⟨a, f, b, hl, hf, hb⟩
    · left
      refine ⟨?_, hfl, hall⟩
      have h := loop_none s.replacer_.lru.reverse s [] (by simp) hn hcap hmp
        (fun x hx => hall x (List.mem_reverse.1 hx))
      simp only [BufferPoolManager.FindFrame, hfl, List.getLast?_nil, LRUReplacer.Size, hn]
      rw [List.length_reverse] at h
      rw [h]
      simp
    · right; right
      refine ⟨a, f, b, hfl, hl, not_lt.1 hf, hb, ?_⟩
      have h := loop_found b.reverse a.length s a f (by simpa using hl) hn hcap hmp
        (fun x hx => hb x (List.mem_reverse.1 hx)) (not_lt.1 hf)
      have hlen : s.replacer_.num_pages_ = b.reverse.length + 1 + a.length := by
        rw [hn, hl]; simp; omega
      have hff : s.FindFrame = BufferPoolManager.FindFrameLoop s.replacer_.num_pages_ s := by
        simp [BufferPoolManager.FindFrame, hfl, LRUReplacer.Size]
      rw [hff]
      conv_lhs => rw [hlen]
      rw [h, List.reverse_reverse]
  · right; left
    refine ⟨l, f, by simpa using hfl, ?_⟩
    simp [BufferPoolManager.FindFrame, hfl]

theorem Inv.hn {s : BufferPoolManager} (h : Inv s) :
    s.replacer_.num_pages_ = s.replacer_.lru.length := h.wf.size_eq

theorem Inv.lru_range {s : BufferPoolManager} (h : Inv s) (x : frame_id_t)
    (hx : x ∈ s.replacer_.lru) : 0 ≤ x ∧ x < s.pool_size_ := (h.frames x).1 (Or.inr hx)

theorem Inv.hcap {s : BufferPoolManager} (h : Inv s) :
    s.replacer_.num_pages_ ≤ s.replacer_.max_num_pages_ := by
  rw [h.wf.size_eq, h.cap]
  exact length_le_of_range _ _ h.wf.nodup h.lru_range

theorem Inv.hmp {s : BufferPoolManager} (h : Inv s) (x : frame_id_t)
    (hx : x ∈ s.replacer_.lru) : s.replacer_.mp x = true := (h.wf.mp_iff x).2 hx

theorem InvMinus_of_free (s : BufferPoolManager) (l : List frame_id_t) (f : frame_id_t)
    (h : Inv s) (hfl : s.free_list_ = l ++ [f]) : InvMinus { s with free_list_ := l } f := by
  have hnd : (l ++ [f]).Nodup := hfl ▸ h.free_nodup
  have hfl' : f ∉ l := by
    intro hm
    have := List.nodup_append.1 hnd
    exact this.2.2 hm (List.mem_singleton_self f)
  have hmem : ∀ g, g ∈ s.free_list_ ↔ g ∈ l ∨ g = f := by
    intro g; rw [hfl]; simp
  have hff : f ∈ s.free_list_ := (hmem f).2 (Or.inr rfl)
  refine ⟨h.wf, h.cap, (List.nodup_append.1 hnd).1, (h.frames f).1 (Or.inl hff), hfl',
    h.disjoint f hff, ?_, ?_, h.table, ?_⟩
  · intro g
    constructor
    · rintro (hg | hg)
      · exact ⟨(h.frames g).1 (Or.inl ((hmem g).2 (Or.inl hg))), fun e => hfl' (e ▸ hg)⟩
      · exact ⟨(h.frames g).1 (Or.inr hg), fun e => h.disjoint f hff (e ▸ hg)⟩
    · rintro ⟨hr, hne⟩
      rcases (h.frames g).2 hr with hg | hg
      · rcases (hmem g).1 hg with hg | hg
        · exact Or.inl hg
        · exact absurd hg hne
      · exact Or.inr hg
  · intro g hg
    exact h.disjoint g ((hmem g).2 (Or.inl hg))
  · intro g hg
    exact h.free_fresh g ((hmem g).2 (Or.inl hg))

theorem InvMinus_of_victim (s : BufferPoolManager) (a b : List frame_id_t) (f : frame_id_t)
    (h : Inv s) (hfl : s.free_list_ = []) (hl : s.replacer_.lru = a ++ f :: b) :
    InvMinus { s with
      replacer_ := { s.replacer_ with num_pages_ := s.replacer_.num_pages_ - 1,
                                      lru := b ++ a,
                                      mp := setAt s.replacer_.mp f false }
      page_table_ := setAt s.page_table_ (s.pages_ f).page_id_ none } f := by
  have hperm : (a ++ f :: b).Perm (f :: (b ++ a)) :=
    List.perm_middle.trans (List.Perm.cons f List.perm_append_comm)
  have hnd : (f :: (b ++ a)).Nodup := hperm.nodup_iff.1 (hl ▸ h.wf.nodup)
  have hmem : ∀ g, g ∈ s.replacer_.lru ↔ g = f ∨ g ∈ b ++ a := by
    intro g; rw [hl, hperm.mem_iff]; simp
  have hf : f ∈ s.replacer_.lru := (hmem f).2 (Or.inl rfl)
  have hnot : f ∉ b ++ a := (List.nodup_cons.1 hnd).1
  refine ⟨⟨(List.nodup_cons.1 hnd).2, ?_, ?_⟩, h.cap, h.free_nodup, h.lru_range f hf, ?_, hnot,
    ?_, ?_, ?_, h.free_fresh⟩
  · intro g
    by_cases hg : g = f
    · subst hg
      simp only [setAt_same]
      constructor
      · intro h'; cases h'
      · intro h'; exact absurd h' hnot
    · simp only [setAt_other _ _ _ _ hg, h.wf.mp_iff g, hmem g]
      simp [hg]
  · simp only [h.wf.size_eq, hl]
    simp; omega
  · simp [hfl]
  · intro g
    simp only [hfl, List.not_mem_nil, false_or]
    constructor
    · intro hg
      exact ⟨h.lru_range g ((hmem g).2 (Or.inr hg)), fun e => hnot (e ▸ hg)⟩
    · rintro ⟨hr, hne⟩
      rcases (h.frames g).2 hr with hg | hg
      · simp [hfl] at hg
      · rcases (hmem g).1 hg with e | hg
        · exact absurd e hne
        · exact hg
  · intro g hg
    simp [hfl] at hg
  · intro p g hpg
    by_cases hp : p = (s.pages_ f).page_id_
    · simp [setAt, hp] at hpg
    · simp only [setAt, hp, if_false] at hpg
      have := h.table p g hpg
      refine ⟨?_, this.2⟩
      rcases (hmem g).1 this.1 with e | hg
      · exact absurd (e ▸ this.2).symm hp
      · exact hg

/-! ## The invariant is kept by every call -/

theorem InvMinus.Unpin_eq {s : BufferPoolManager} {f : frame_id_t} (h : InvMinus s f) :
    s.replacer_.Unpin f = { s.replacer_ with lru := f :: s.replacer_.lru,
                                             mp := setAt s.replacer_.mp f true,
                                             num_pages_ := s.replacer_.num_pages_ + 1 } := by
  have hf : s.replacer_.mp f = false := by
    have := (h.wf.mp_iff f).not.2 h.not_lru
    simpa using this
  have hlen : (f :: s.replacer_.lru).length ≤ s.pool_size_ := by
    apply length_le_of_range _ _ (List.nodup_cons.2 ⟨h.not_lru, h.wf.nodup⟩)
    intro x hx
    rcases List.mem_cons.1 hx with e | hx
    · exact e ▸ h.range
    · exact ((h.frames x).1 (Or.inr hx)).1
  have hne : s.replacer_.num_pages_ ≠ s.replacer_.max_num_pages_ := by
    rw [h.wf.size_eq, h.cap]
    simp only [List.length_cons] at hlen
    omega
  exact Unpin_fresh _ f hf hne

theorem Inv_install (s : BufferPoolManager) (f : frame_id_t) (h : InvMinus s f)
    (page_id : page_id_t) (page : Page) (hp : page.page_id_ = page_id) (disk : DiskManager) :
    Inv { s with
      disk_manager_ := disk
      page_table_ := setAt s.page_table_ page_id (some f)
      replacer_ := s.replacer_.Unpin f
      pages_ := setAt s.pages_ f page } := by
  rw [h.Unpin_eq]
  refine ⟨⟨List.nodup_cons.2 ⟨h.not_lru, h.wf.nodup⟩, ?_, by simp [h.wf.size_eq]⟩, h.cap,
    h.free_nodup, ?_, ?_, ?_, ?_⟩
  · intro g
    by_cases hg : g = f
    · simp [hg, setAt]
    · simp [hg, setAt, h.wf.mp_iff g]
  · intro g
    by_cases hg : g = f
    · subst hg
      simp [h.range]
    · have := h.frames g
      simp only [List.mem_cons, hg, false_or]
      rw [this]
      simp [hg]
  · intro g hg
    have hgf : g ≠ f := fun e => h.not_free (e ▸ hg)
    simp only [List.mem_cons, hgf, false_or]
    exact h.disjoint g hg
  · intro p g hpg
    by_cases hpp : p = page_id
    · subst hpp
      simp only [setAt_same, Option.some.injEq] at hpg
      subst hpg
      simp [setAt, hp]
    · simp only [setAt_other _ _ _ _ hpp] at hpg
      have := h.table p g hpg
      have hgf : g ≠ f := fun e => h.not_lru (e ▸ this.1)
      simp only [setAt_other _ _ _ _ hgf]
      exact ⟨List.mem_cons_of_mem _ this.1, this.2⟩
  · intro g hg
    have hgf : g ≠ f := fun e => h.not_free (e ▸ hg)
    simp only [setAt_other _ _ _ _ hgf]
    exact h.free_fresh g hg

theorem Inv_update (s : BufferPoolManager) (f : frame_id_t) (h : Inv s) (page : Page)
    (hf : f ∈ s.replacer_.lru) (hp : page.page_id_ = (s.pages_ f).page_id_) (disk : DiskManager) :
    Inv { s with pages_ := setAt s.pages_ f page, disk_manager_ := disk } := by
  refine ⟨h.wf, h.cap, h.free_nodup, h.frames, h.disjoint, ?_, ?_⟩
  · intro p g hpg
    have := h.table p g hpg
    refine ⟨this.1, ?_⟩
    by_cases hg : g = f
    · subst hg
      simp only [setAt_same, hp]
      exact this.2
    · simp only [setAt_other _ _ _ _ hg]
      exact this.2
  · intro g hg
    have hgf : g ≠ f := fun e => h.disjoint g hg (e ▸ hf)
    simp only [setAt_other _ _ _ _ hgf]
    exact h.free_fresh g hg

theorem Inv_disk (s : BufferPoolManager) (h : Inv s) (disk : DiskManager) :
    Inv { s with disk_manager_ := disk } :=
  ⟨h.wf, h.cap, h.free_nodup, h.frames, h.disjoint, h.table, h.free_fresh⟩

theorem InvMinus_disk (s : BufferPoolManager) (f : frame_id_t) (h : InvMinus s f)
    (disk : DiskManager) : InvMinus { s with disk_manager_ := disk } f :=
  ⟨h.wf, h.cap, h.free_nodup, h.range, h.not_free, h.not_lru, h.frames, h.disjoint, h.table,
    h.free_fresh⟩

theorem FindFrame_InvMinus (s s1 : BufferPoolManager) (f : frame_id_t) (h : Inv s)
    (hff : s.FindFrame = (s1, some f)) : InvMinus s1 f := by
  rcases FindFrame_cases s h.hn h.hcap h.hmp with ⟨h1, _⟩ | ⟨l, g, hfl, h1⟩ |
    ⟨a, g, b, hfl, hl, _, _, h1⟩
  · rw [h1] at hff; cases hff
  · rw [h1] at hff
    cases hff
    exact InvMinus_of_free s l f h hfl
  · rw [h1] at hff
    cases hff
    exact InvMinus_of_victim s a b f h hfl hl

theorem FindFrame_none_eq (s s1 : BufferPoolManager) (h : Inv s)
    (hff : s.FindFrame = (s1, none)) : s1 = s := by
  rcases FindFrame_cases s h.hn h.hcap h.hmp with ⟨h1, _⟩ | ⟨l, g, hfl, h1⟩ |
    ⟨a, g, b, hfl, hl, _, _, h1⟩
  · rw [h1] at hff; cases hff; rfl
  · rw [h1] at hff; cases hff
  · rw [h1] at hff; cases hff

theorem Inv_new (n : Nat) (d : DiskManager) : Inv (BufferPoolManager.new n d) := by
  refine ⟨WF_new n, rfl, ?_, ?_, ?_, ?_, ?_⟩
  · simp only [BufferPoolManager.new]
    exact (List.nodup_range n).map Int.ofNat_injective
  · intro f
    simp only [BufferPoolManager.new, LRUReplacer.new, List.mem_map, List.mem_range,
      List.not_mem_nil, or_false]
    constructor
    · rintro ⟨k, hk, rfl⟩
      exact ⟨Int.ofNat_nonneg k, Int.ofNat_lt.2 hk⟩
    · rintro ⟨h0, h1⟩
      exact ⟨f.toNat, (Int.toNat_lt h0).2 h1, Int.toNat_of_nonneg h0⟩
  · intro f _
    simp [BufferPoolManager.new, LRUReplacer.new]
  · intro p f hpf
    simp [BufferPoolManager.new] at hpf
  · intro f _
    rfl

theorem Inv_Fetch (s : BufferPoolManager) (p : page_id_t) (h : Inv s) :
    Inv (s.FetchPageImpl p).1 := by
  unfold BufferPoolManager.FetchPageImpl
  cases hpt : s.page_table_ p with
  | some f =>
    simp only
    exact Inv_update s f h _ (h.table p f hpt).1 (by rfl) s.disk_manager_
  | none =>
    simp only
    cases hff : s.FindFrame with
    | mk s1 o =>
      cases o with
      | none =>
        simp only
        rw [FindFrame_none_eq s s1 h hff]
        exact h
      | some f =>
        simp only
        exact Inv_install s1 f (FindFrame_InvMinus s s1 f h hff) p _ rfl _

theorem Inv_New (s : BufferPoolManager) (h : Inv s) : Inv s.NewPageImpl.1 := by
  unfold BufferPoolManager.NewPageImpl
  simp only [DiskManager.AllocatePage]
  have h0 := Inv_disk s h { s.disk_manager_ with next_page_id := s.disk_manager_.next_page_id + 1 }
  generalize hs0 : ({ s with disk_manager_ :=
    { s.disk_manager_ with next_page_id := s.disk_manager_.next_page_id + 1 } } :
      BufferPoolManager) = s0 at h0
  cases hff : s0.FindFrame with
  | mk s1 o =>
    cases o with
    | none =>
      simp only
      rw [FindFrame_none_eq s0 s1 h0 hff]
      exact h0
    | some f =>
      simp only
      exact Inv_install s1 f (FindFrame_InvMinus s0 s1 f h0 hff) _ _ rfl _

theorem Inv_Delete (s : BufferPoolManager) (p : page_id_t) (h : Inv s) :
    Inv (s.DeletePageImpl p).1 := by
  unfold BufferPoolManager.DeletePageImpl
  cases hpt : s.page_table_ p with
  | none => exact h
  | some f =>
    simp only
    by_cases hpin : (s.pages_ f).pin_count_ > 0
    · simp only [hpin, if_true]
      exact h
    · simp only [hpin, if_false]
      have hf := (h.table p f hpt).1
      have hpid := (h.table p f hpt).2
      have hmem : ∀ g, g ∈ s.replacer_.lru.erase f ↔ g ≠ f ∧ g ∈ s.replacer_.lru :=
        fun g => h.wf.nodup.mem_erase_iff
      have hnf : f ∉ s.free_list_ := fun hm => h.disjoint f hm hf
      rw [Pin_tracked _ f (h.hmp f hf)]
      refine ⟨⟨h.wf.nodup.erase f, ?_, ?_⟩, h.cap, ?_, ?_, ?_, ?_, ?_⟩
      · intro g
        simp only [hmem]
        by_cases hg : g = f
        · simp [hg, setAt]
        · simp [hg, setAt, h.wf.mp_iff g]
      · simp [h.wf.size_eq, List.length_erase_of_mem hf]
      · exact List.nodup_append.2 ⟨h.free_nodup, List.nodup_singleton f, by
          intro x hx hx2
          rw [List.mem_singleton] at hx2
          exact hnf (hx2 ▸ hx)⟩
      · intro g
        simp only [List.mem_append, List.mem_singleton, hmem]
        rw [← h.frames g]
        by_cases hg : g = f
        · simp [hg, hf]
        · simp [hg]
      · intro g hg
        simp only [hmem]
        rcases List.mem_append.1 hg with hg | hg
        · intro hc
          exact h.disjoint g hg hc.2
        · rw [List.mem_singleton] at hg
          simp [hg]
      · intro q g hqg
        by_cases hq : q = (s.pages_ f).page_id_
        · simp [setAt, hq] at hqg
        · simp only [setAt_other _ _ _ _ hq] at hqg
          have := h.table q g hqg
          have hgf : g ≠ f := fun e => hq (by rw [← this.2, e])
          simp only [setAt_other _ _ _ _ hgf, hmem]
          exact ⟨⟨hgf, this.1⟩, this.2⟩
      · intro g hg
        rcases List.mem_append.1 hg with hg | hg
        · have hgf : g ≠ f := fun e => hnf (e ▸ hg)
          simp only [setAt_other _ _ _ _ hgf]
          exact h.free_fresh g hg
        · rw [List.mem_singleton] at hg
          subst hg
          simp only [setAt_same]
          rfl

theorem Inv_step (s : BufferPoolManager) (op : Op) (h : Inv s) : Inv (s.step op) := by
  cases op with
  | FetchPage p => exact Inv_Fetch s p h
  | NewPage => exact Inv_New s h
  | UnpinPage p d =>
    simp only [BufferPoolManager.step, BufferPoolManager.UnpinPageImpl]
    cases hpt : s.page_table_ p with
    | none => exact h
    | some f =>
      simp only
      have := Inv_update s f h
        { (if d then { (s.pages_ f) with is_dirty_ := true } else s.pages_ f) with
          pin_count_ := (if d then { (s.pages_ f) with is_dirty_ := true } else s.pages_ f).pin_count_ - 1 }
        (h.table p f hpt).1 (by cases d <;> rfl) s.disk_manager_
      exact this
  | FlushPage p =>
    simp only [BufferPoolManager.step, BufferPoolManager.FlushPageImpl]
    cases hpt : s.page_table_ p with
    | none => exact h
    | some f =>
      simp only
      exact Inv_update s f h _ (h.table p f hpt).1 (by rfl) _
  | DeletePage p => exact Inv_Delete s p h
  | WriteData p b =>
    simp only [BufferPoolManager.step, BufferPoolManager.WriteData]
    cases hpt : s.page_table_ p with
    | none => exact h
    | some f =>
      simp only
      exact Inv_update s f h _ (h.table p f hpt).1 (by rfl) s.disk_manager_

theorem Inv_of_reachable (ok : BufferPoolManager → Op → Prop) (s : BufferPoolManager)
    (h : ReachableVia ok s) : Inv s := by
  induction h with
  | init n d => exact Inv_new n d
  | step s op _ _ ih => exact Inv_step s op ih

/-! ## Frame conditions of `FindFrame` -/

theorem FindFrameLoop_frame (n : Nat) : ∀ s : BufferPoolManager,
    (BufferPoolManager.FindFrameLoop n s).1.pages_ = s.pages_ ∧
    (BufferPoolManager.FindFrameLoop n s).1.disk_manager_ = s.disk_manager_ ∧
    (BufferPoolManager.FindFrameLoop n s).1.free_list_ = s.free_list_ ∧
    (BufferPoolManager.FindFrameLoop n s).1.pool_size_ = s.pool_size_ := by
  induction n with
  | zero => intro s; simp [BufferPoolManager.FindFrameLoop]
  | succ n ih =>
    intro s
    rw [BufferPoolManager.FindFrameLoop]
    cases hv : s.replacer_.Victim with
    | mk r o =>
      cases o with
      | none =>
        simp only
        exact ih _
      | some f =>
        simp only
        by_cases hp : (s.pages_ f).pin_count_ ≤ 0
        · simp [hp]
        · simp only [hp, if_false]
          exact ih _

theorem FindFrame_frame (s : BufferPoolManager) :
    s.FindFrame.1.pages_ = s.pages_ ∧ s.FindFrame.1.disk_manager_ = s.disk_manager_ ∧
    s.FindFrame.1.pool_size_ = s.pool_size_ := by
  unfold BufferPoolManager.FindFrame
  cases s.free_list_.getLast? with
  | none =>
    have := FindFrameLoop_frame s.replacer_.Size s
    exact ⟨this.1, this.2.1, this.2.2.2⟩
  | some f => simp

/-! ## Reachable states -/

theorem Reachable_run (ok : BufferPoolManager → Op → Prop) (hok : ∀ s op, ok s op)
    (ops : List Op) : ∀ s, ReachableVia ok s → ReachableVia ok (s.run ops) := by
  induction ops with
  | nil => intro s h; exact h
  | cons op ops ih =>
    intro s h
    exact ih _ (ReachableVia.step s op h (hok s op))

theorem Reachable_of_run (n : Nat) (d : DiskManager) (ops : List Op) :
    Reachable ((BufferPoolManager.new n d).run ops) :=
  Reachable_run _ (fun _ _ => trivial) ops _ (ReachableVia.init n d)

theorem NewPage_none_iff_aux (s : BufferPoolManager) (h : Inv s) :
    s.NewPageImpl.2 = none ↔
      s.free_list_ = [] ∧ ∀ f : frame_id_t, 0 ≤ f → f < s.pool_size_ → 0 < (s.pages_ f).pin_count_ := by
  have h0 := Inv_disk s h { s.disk_manager_ with next_page_id := s.disk_manager_.next_page_id + 1 }
  have key : s.NewPageImpl.2 = none ↔
      ({ s with disk_manager_ :=
        { s.disk_manager_ with next_page_id := s.disk_manager_.next_page_id + 1 } } :
          BufferPoolManager).FindFrame.2 = none := by
    unfold BufferPoolManager.NewPageImpl
    simp only [DiskManager.AllocatePage]
    cases hff : ({ s with disk_manager_ :=
        { s.disk_manager_ with next_page_id := s.disk_manager_.next_page_id + 1 } } :
          BufferPoolManager).FindFrame with
    | mk s1 o => cases o <;> simp
  rw [key]
  rcases FindFrame_cases _ h0.hn h0.hcap h0.hmp with ⟨h1, hfl, hall⟩ | ⟨l, g, hfl, h1⟩ |
    ⟨a, g, b, hfl, hl, hg, _, h1⟩
  · rw [h1]
    simp only [true_iff]
    refine ⟨hfl, ?_⟩
    intro f hf0 hf1
    rcases (h.frames f).2 ⟨hf0, hf1⟩ with hm | hm
    · have hfl' : s.free_list_ = [] := hfl
      simp [hfl'] at hm
    · exact hall f hm
  · rw [h1]
    have hfl' : s.free_list_ = l ++ [g] := hfl
    simp [hfl']
  · rw [h1]
    simp only [false_iff, not_and, not_forall, reduceCtorEq]
    intro _
    have hgm : g ∈ s.replacer_.lru := by
      have hl' : s.replacer_.lru = a ++ g :: b := hl
      rw [hl']; simp
    have hr := h.lru_range g hgm
    exact ⟨g, hr.1, hr.2, not_lt.2 hg⟩

/-- C3. In every reachable state NewPage returns no page exactly when the free list is
empty and every frame has a positive pin count; with pool_size 3, after three NewPage
calls (pages 0, 1, 2) and UnpinPage(0, false), NewPage succeeds with page id 3 and
removes page 0 from the page table, and the next NewPage returns no page. -/
theorem NewPage_none_iff (s : BufferPoolManager) (h : Reachable s) :
    (s.NewPageImpl.2 = none ↔
      s.free_list_ = [] ∧ ∀ f : frame_id_t, 0 ≤ f → f < s.pool_size_ → 0 < (s.pages_ f).pin_count_) ∧
    ((BufferPoolManager.new 3 DiskManager.empty).NewPageImpl.2 = some (2, 0) ∧
     ((BufferPoolManager.new 3 DiskManager.empty).run [.NewPage]).NewPageImpl.2
        = some (1, 1) ∧
     ((BufferPoolManager.new 3 DiskManager.empty).run [.NewPage, .NewPage]).NewPageImpl.2
        = some (0, 2) ∧
     ((BufferPoolManager.new 3 DiskManager.empty).run
        [.NewPage, .NewPage, .NewPage]).page_table_ 0 = some 2 ∧
     ((BufferPoolManager.new 3 DiskManager.empty).run
        [.NewPage, .NewPage, .NewPage, .UnpinPage 0 false]).NewPageImpl.2 = some (2, 3) ∧
     ((BufferPoolManager.new 3 DiskManager.empty).run
        [.NewPage, .NewPage, .NewPage, .UnpinPage 0 false, .NewPage]).page_table_ 0 = none ∧
     ((BufferPoolManager.new 3 DiskManager.empty).run
        [.NewPage, .NewPage, .NewPage, .UnpinPage 0 false, .NewPage]).NewPageImpl.2 = none) :=
  ⟨NewPage_none_iff_aux s (Inv_of_reachable _ s h),
    by decide, by decide, by decide, by decide, by decide, by decide, by decide⟩

theorem NewPage_none_iff_witness :
    Reachable ((BufferPoolManager.new 1 DiskManager.empty).run [.NewPage]) ∧
    (((BufferPoolManager.new 1 DiskManager.empty).run [.NewPage]).NewPageImpl.2 = none ↔
      ((BufferPoolManager.new 1 DiskManager.empty).run [.NewPage]).free_list_ = [] ∧
      ∀ f : frame_id_t, 0 ≤ f →
        f < ((BufferPoolManager.new 1 DiskManager.empty).run [.NewPage]).pool_size_ →
        0 < (((BufferPoolManager.new 1 DiskManager.empty).run [.NewPage]).pages_ f).pin_count_) :=
  ⟨Reachable_of_run 1 DiskManager.empty [.NewPage],
    (NewPage_none_iff _ (Reachable_of_run 1 DiskManager.empty [.NewPage])).1⟩

/-! ## Frame states and pin counts -/

theorem frames_count (s : BufferPoolManager) (h : Inv s) :
    s.free_list_.length + s.replacer_.Size = s.pool_size_ := by
  have hnd : (s.free_list_ ++ s.replacer_.lru).Nodup :=
    List.nodup_append.2 ⟨h.free_nodup, h.wf.nodup, fun x hx hy => h.disjoint x hx hy⟩
  have hset : (s.free_list_ ++ s.replacer_.lru).toFinset = Finset.Ico (0 : Int) s.pool_size_ := by
    ext x
    rw [List.mem_toFinset, List.mem_append, Finset.mem_Ico]
    exact h.frames x
  have hc := List.toFinset_card_of_nodup hnd
  rw [hset, Int.card_Ico] at hc
  simp only [List.length_append] at hc
  simp only [LRUReplacer.Size, h.wf.size_eq]
  omega

/-- C4 (refuted as stated). With pool_size 1, after one NewPage the only frame is off the
free list, has pin count 1 and is tracked by the replacer: it is in none of the three
states of the claim. -/
theorem ThreeStates_fails :
    Reachable ((BufferPoolManager.new 1 DiskManager.empty).run [.NewPage]) ∧
    (0 : frame_id_t) < ((BufferPoolManager.new 1 DiskManager.empty).run [.NewPage]).pool_size_ ∧
    ¬ ThreeStates ((BufferPoolManager.new 1 DiskManager.empty).run [.NewPage]) 0 := by
  refine ⟨Reachable_of_run 1 DiskManager.empty [.NewPage], by decide, ?_⟩
  have h1 : ¬ onFreeList ((BufferPoolManager.new 1 DiskManager.empty).run [.NewPage]) 0 := by
    unfold onFreeList; decide
  have h2 : ¬ pinnedUntracked ((BufferPoolManager.new 1 DiskManager.empty).run [.NewPage]) 0 := by
    unfold pinnedUntracked; decide
  have h3 : ¬ unpinnedTracked ((BufferPoolManager.new 1 DiskManager.empty).run [.NewPage]) 0 := by
    unfold unpinnedTracked; decide
  unfold ThreeStates
  tauto

/-- C4 (amended). In every reachable state each of the pool_size frames is in exactly one
of two states: on the free list, where it is not tracked by the replacer and holds a
fresh page (INVALID id, pin count 0, not dirty); or off the free list and tracked by the
replacer, whatever its pin count. No frame is listed twice and the two lists together
have pool_size entries. -/
theorem frame_two_states (s : BufferPoolManager) (h : Reachable s) (f : frame_id_t)
    (h0 : 0 ≤ f) (h1 : f < s.pool_size_) :
    ((f ∈ s.free_list_ ∧ s.replacer_.mp f = false ∧ f ∉ s.replacer_.lru ∧
        s.pages_ f = Page.fresh) ∨
      (f ∉ s.free_list_ ∧ s.replacer_.mp f = true ∧ f ∈ s.replacer_.lru)) ∧
    s.free_list_.Nodup ∧ s.replacer_.lru.Nodup ∧
    s.free_list_.length + s.replacer_.Size = s.pool_size_ := by
  have hi := Inv_of_reachable _ s h
  refine ⟨?_, hi.free_nodup, hi.wf.nodup, frames_count s hi⟩
  rcases (hi.frames f).2 ⟨h0, h1⟩ with hm | hm
  · left
    have hn := hi.disjoint f hm
    refine ⟨hm, ?_, hn, hi.free_fresh f hm⟩
    have := (hi.wf.mp_iff f).not.2 hn
    simpa using this
  · right
    exact ⟨fun hc => hi.disjoint f hc hm, hi.hmp f hm, hm⟩

theorem frame_two_states_witness :
    Reachable ((BufferPoolManager.new 1 DiskManager.empty).run [.NewPage]) ∧
    ((0 : frame_id_t) ∉ ((BufferPoolManager.new 1 DiskManager.empty).run [.NewPage]).free_list_ ∧
      ((BufferPoolManager.new 1 DiskManager.empty).run [.NewPage]).replacer_.mp 0 = true ∧
      (0 : frame_id_t) ∈ ((BufferPoolManager.new 1 DiskManager.empty).run [.NewPage]).replacer_.lru) :=
  ⟨Reachable_of_run 1 DiskManager.empty [.NewPage],
    ((frame_two_states _ (Reachable_of_run 1 DiskManager.empty [.NewPage]) 0
      (by decide) (by decide)).1.resolve_left (fun hc => absurd hc.1 (by decide)))⟩

/-- C6 (refuted as stated). After NewPage and two UnpinPage calls on the new page its
frame has pin count -1. -/
theorem pin_count_negative :
    Reachable ((BufferPoolManager.new 1 DiskManager.empty).run
      [.NewPage, .UnpinPage 0 false, .UnpinPage 0 false]) ∧
    (((BufferPoolManager.new 1 DiskManager.empty).run
      [.NewPage, .UnpinPage 0 false, .UnpinPage 0 false]).pages_ 0).pin_count_ = -1 :=
  ⟨Reachable_of_run 1 DiskManager.empty _, by decide⟩

theorem pin_nonneg_step (s : BufferPoolManager) (op : Op) (hok : op.balanced s)
    (h : ∀ f : frame_id_t, 0 ≤ (s.pages_ f).pin_count_) :
    ∀ f : frame_id_t, 0 ≤ ((s.step op).pages_ f).pin_count_ := by
  intro g
  cases op with
  | FetchPage p =>
    simp only [BufferPoolManager.step, BufferPoolManager.FetchPageImpl]
    cases hpt : s.page_table_ p with
    | some f =>
      simp only
      by_cases hg : g = f
      · subst hg
        simp only [setAt_same]
        have := h g
        omega
      · simp only [setAt_other _ _ _ _ hg]
        exact h g
    | none =>
      simp only
      have hfr := FindFrame_frame s
      cases hff : s.FindFrame with
      | mk s1 o =>
        rw [hff] at hfr
        cases o with
        | none =>
          simp only
          rw [hfr.1]
          exact h g
        | some f =>
          simp only
          by_cases hg : g = f
          · subst hg
            simp only [setAt_same]
            decide
          · simp only [setAt_other _ _ _ _ hg]
            rw [hfr.1]
            exact h g
  | NewPage =>
    simp only [BufferPoolManager.step, BufferPoolManager.NewPageImpl, DiskManager.AllocatePage]
    have hfr := FindFrame_frame ({ s with disk_manager_ :=
      { s.disk_manager_ with next_page_id := s.disk_manager_.next_page_id + 1 } })
    cases hff : ({ s with disk_manager_ :=
      { s.disk_manager_ with next_page_id := s.disk_manager_.next_page_id + 1 } } :
        BufferPoolManager).FindFrame with
    | mk s1 o =>
      rw [hff] at hfr
      cases o with
      | none =>
        simp only
        rw [hfr.1]
        exact h g
      | some f =>
        simp only
        by_cases hg : g = f
        · subst hg
          simp only [setAt_same]
          decide
        · simp only [setAt_other _ _ _ _ hg]
          rw [hfr.1]
          exact h g
  | UnpinPage p d =>
    simp only [BufferPoolManager.step, BufferPoolManager.UnpinPageImpl]
    cases hpt : s.page_table_ p with
    | none => exact h g
    | some f =>
      simp only
      have hpos : 0 < (s.pages_ f).pin_count_ := hok f hpt
      by_cases hg : g = f
      · subst hg
        simp only [setAt_same]
        cases d
        · simp only [Bool.false_eq_true, if_false]
          omega
        · simp only [if_true]
          omega
      · simp only [setAt_other _ _ _ _ hg]
        exact h g
  | FlushPage p =>
    simp only [BufferPoolManager.step, BufferPoolManager.FlushPageImpl]
    cases hpt : s.page_table_ p with
    | none => exact h g
    | some f =>
      simp only
      by_cases hg : g = f
      · subst hg
        simp only [setAt_same]
        exact h g
      · simp only [setAt_other _ _ _ _ hg]
        exact h g
  | DeletePage p =>
    simp only [BufferPoolManager.step, BufferPoolManager.DeletePageImpl]
    cases hpt : s.page_table_ p with
    | none => exact h g
    | some f =>
      simp only
      by_cases hpin : (s.pages_ f).pin_count_ > 0
      · simp only [hpin, if_true]
        exact h g
      · simp only [hpin, if_false]
        by_cases hg : g = f
        · subst hg
          simp only [setAt_same]
          decide
        · simp only [setAt_other _ _ _ _ hg]
          exact h g
  | WriteData p b =>
    simp only [BufferPoolManager.step, BufferPoolManager.WriteData]
    cases hpt : s.page_table_ p with
    | none => exact h g
    | some f =>
      simp only
      by_cases hg : g = f
      · subst hg
        simp only [setAt_same]
        exact h g
      · simp only [setAt_other _ _ _ _ hg]
        exact h g

/-- C6 (amended). In every state reachable by calls in which UnpinPage is only made on a
page that is not resident or has a positive pin count, the pin count of every frame is
nonnegative. -/
theorem pin_count_nonneg (s : BufferPoolManager) (h : ReachableBalanced s) (f : frame_id_t) :
    0 ≤ (s.pages_ f).pin_count_ := by
  revert f
  induction h with
  | init n d => intro f; exact Int.le_refl 0
  | step s op _ hok ih => exact pin_nonneg_step s op hok ih

theorem pin_count_nonneg_witness :
    ReachableBalanced ((BufferPoolManager.new 1 DiskManager.empty).step .NewPage) ∧
    0 ≤ (((BufferPoolManager.new 1 DiskManager.empty).step .NewPage).pages_ 0).pin_count_ :=
  ⟨ReachableVia.step _ Op.NewPage (ReachableVia.init 1 DiskManager.empty) trivial,
    pin_count_nonneg _
      (ReachableVia.step _ Op.NewPage (ReachableVia.init 1 DiskManager.empty) trivial) 0⟩

/-! ## UnpinPage, DeletePage, FlushPage -/

/-- C7. UnpinPage(p, d) on a resident page returns true, lowers the pin count of its
frame by exactly 1, sets is_dirty to (old is_dirty or d) and changes nothing else (bytes,
page id, other frames, page table, free list, replacer, disk); on a page that is not
resident it returns false and leaves the state unchanged. -/
theorem UnpinPage_effect (s : BufferPoolManager) (p : page_id_t) (d : Bool) :
    (∀ f : frame_id_t, s.page_table_ p = some f →
      (s.UnpinPageImpl p d).2 = true ∧
      ((s.UnpinPageImpl p d).1.pages_ f).pin_count_ = (s.pages_ f).pin_count_ - 1 ∧
      ((s.UnpinPageImpl p d).1.pages_ f).is_dirty_ = ((s.pages_ f).is_dirty_ || d) ∧
      ((s.UnpinPageImpl p d).1.pages_ f).data_ = (s.pages_ f).data_ ∧
      ((s.UnpinPageImpl p d).1.pages_ f).page_id_ = (s.pages_ f).page_id_ ∧
      (∀ g : frame_id_t, g ≠ f → (s.UnpinPageImpl p d).1.pages_ g = s.pages_ g) ∧
      (s.UnpinPageImpl p d).1.page_table_ = s.page_table_ ∧
      (s.UnpinPageImpl p d).1.free_list_ = s.free_list_ ∧
      (s.UnpinPageImpl p d).1.replacer_ = s.replacer_ ∧
      (s.UnpinPageImpl p d).1.disk_manager_ = s.disk_manager_ ∧
      (s.UnpinPageImpl p d).1.pool_size_ = s.pool_size_) ∧
    (s.page_table_ p = none → s.UnpinPageImpl p d = (s, false)) := by
  constructor
  · intro f hf
    simp only [BufferPoolManager.UnpinPageImpl, hf]
    refine ⟨trivial, ?_, ?_, ?_, ?_, ?_, trivial, trivial, trivial, trivial, trivial⟩
    · cases d <;> simp [setAt]
    · cases d <;> simp [setAt]
    · cases d <;> simp [setAt]
    · cases d <;> simp [setAt]
    · intro g hg
      simp [setAt, hg]
  · intro hn
    simp [BufferPoolManager.UnpinPageImpl, hn]

theorem UnpinPage_effect_witness :
    ((BufferPoolManager.new 1 DiskManager.empty).run [.NewPage]).page_table_ 0 = some 0 ∧
    (((BufferPoolManager.new 1 DiskManager.empty).run [.NewPage]).UnpinPageImpl 0 true).2
      = true ∧
    (((((BufferPoolManager.new 1 DiskManager.empty).run [.NewPage]).UnpinPageImpl 0 true).1.pages_
      0).pin_count_ = (((BufferPoolManager.new 1 DiskManager.empty).run [.NewPage]).pages_
      0).pin_count_ - 1) :=
  ⟨by decide,
    ((UnpinPage_effect ((BufferPoolManager.new 1 DiskManager.empty).run [.NewPage]) 0 true).1
      0 (by decide)).1,
    ((UnpinPage_effect ((BufferPoolManager.new 1 DiskManager.empty).run [.NewPage]) 0 true).1
      0 (by decide)).2.1⟩

theorem DeletePage_aux (s : BufferPoolManager) (h : Inv s) (p : page_id_t) (f : frame_id_t)
    (hf : s.page_table_ p = some f) (hpin : (s.pages_ f).pin_count_ ≤ 0) :
    (s.DeletePageImpl p).2 = true ∧
    (s.DeletePageImpl p).1.page_table_ p = none ∧
    (s.DeletePageImpl p).1.pages_ f =
      { data_ := zeroData, page_id_ := INVALID_PAGE_ID, pin_count_ := 0, is_dirty_ := false } ∧
    f ∈ (s.DeletePageImpl p).1.free_list_ ∧
    (s.DeletePageImpl p).1.replacer_.mp f = false ∧
    f ∉ (s.DeletePageImpl p).1.replacer_.lru ∧
    (s.DeletePageImpl p).1.disk_manager_.deallocated = p :: s.disk_manager_.deallocated ∧
    (s.DeletePageImpl p).1.disk_manager_.pages_ = s.disk_manager_.pages_ ∧
    (∀ q : page_id_t, q ≠ p → (s.DeletePageImpl p).1.page_table_ q = s.page_table_ q) ∧
    (∀ g : frame_id_t, g ≠ f → (s.DeletePageImpl p).1.pages_ g = s.pages_ g) := by
  have hpin2 : ¬ (s.pages_ f).pin_count_ > 0 := not_lt.2 hpin
  have hpid : (s.pages_ f).page_id_ = p := (h.table p f hf).2
  have hfm : f ∈ s.replacer_.lru := (h.table p f hf).1
  simp only [BufferPoolManager.DeletePageImpl, hf, hpin2, if_false, hpid,
    Pin_tracked _ f (h.hmp f hfm), DiskManager.DeallocatePage]
  refine ⟨trivial, by simp [setAt], by simp [setAt], by simp, by simp [setAt], ?_, trivial,
    trivial, ?_, ?_⟩
  · intro hc
    exact (h.wf.nodup.mem_erase_iff.1 hc).1 rfl
  · intro q hq
    simp [setAt, hq]
  · intro g hg
    simp [setAt, hg]

/-- C8. In every reachable state, DeletePage(p) on a page that is not resident returns
true and leaves the state unchanged; on a resident page with positive pin count it
returns false and leaves the state unchanged; otherwise it returns true, p is no longer
in the page table, its frame is zeroed with page id INVALID, pin count 0 and not dirty,
the frame is on the free list and not tracked by the replacer, p is passed to
DeallocatePage, and the other frames and mappings are kept. -/
theorem DeletePage_effect (s : BufferPoolManager) (h : Reachable s) (p : page_id_t) :
    (s.page_table_ p = none → s.DeletePageImpl p = (s, true)) ∧
    (∀ f : frame_id_t, s.page_table_ p = some f → 0 < (s.pages_ f).pin_count_ →
      s.DeletePageImpl p = (s, false)) ∧
    (∀ f : frame_id_t, s.page_table_ p = some f → (s.pages_ f).pin_count_ ≤ 0 →
      (s.DeletePageImpl p).2 = true ∧
      (s.DeletePageImpl p).1.page_table_ p = none ∧
      (s.DeletePageImpl p).1.pages_ f =
        { data_ := zeroData, page_id_ := INVALID_PAGE_ID, pin_count_ := 0, is_dirty_ := false } ∧
      f ∈ (s.DeletePageImpl p).1.free_list_ ∧
      (s.DeletePageImpl p).1.replacer_.mp f = false ∧
      f ∉ (s.DeletePageImpl p).1.replacer_.lru ∧
      (s.DeletePageImpl p).1.disk_manager_.deallocated = p :: s.disk_manager_.deallocated ∧
      (s.DeletePageImpl p).1.disk_manager_.pages_ = s.disk_manager_.pages_ ∧
      (∀ q : page_id_t, q ≠ p → (s.DeletePageImpl p).1.page_table_ q = s.page_table_ q) ∧
      (∀ g : frame_id_t, g ≠ f → (s.DeletePageImpl p).1.pages_ g = s.pages_ g)) := by
  refine ⟨?_, ?_, ?_⟩
  · intro hn
    simp [BufferPoolManager.DeletePageImpl, hn]
  · intro f hf hpin
    simp [BufferPoolManager.DeletePageImpl, hf, hpin]
  · intro f hf hpin
    exact DeletePage_aux s (Inv_of_reachable _ s h) p f hf hpin

theorem DeletePage_effect_witness :
    Reachable ((BufferPoolManager.new 1 DiskManager.empty).run
      [.NewPage, .UnpinPage 0 true]) ∧
    ((BufferPoolManager.new 1 DiskManager.empty).run
      [.NewPage, .UnpinPage 0 true]).page_table_ 0 = some 0 ∧
    ((((BufferPoolManager.new 1 DiskManager.empty).run
      [.NewPage, .UnpinPage 0 true]).DeletePageImpl 0).2 = true ∧
     (((BufferPoolManager.new 1 DiskManager.empty).run
      [.NewPage, .UnpinPage 0 true]).DeletePageImpl 0).1.page_table_ 0 = none) :=
  ⟨Reachable_of_run 1 DiskManager.empty _, by decide,
    ((DeletePage_effect _ (Reachable_of_run 1 DiskManager.empty
      [.NewPage, .UnpinPage 0 true]) 0).2.2 0 (by decide) (by decide)).1,
    ((DeletePage_effect _ (Reachable_of_run 1 DiskManager.empty
      [.NewPage, .UnpinPage 0 true]) 0).2.2 0 (by decide) (by decide)).2.1⟩

/-! ## What `FindFrame` returns, and the two functions that use it -/

theorem FindFrame_some_spec (s s1 : BufferPoolManager) (f : frame_id_t) (h : Inv s)
    (hff : s.FindFrame = (s1, some f)) :
    InvMinus s1 f ∧ s1.pages_ = s.pages_ ∧ s1.disk_manager_ = s.disk_manager_ ∧
    s1.pool_size_ = s.pool_size_ ∧ (s.pages_ f).pin_count_ ≤ 0 ∧
    ((f ∈ s.free_list_ ∧ s1.page_table_ = s.page_table_ ∧ (s.pages_ f).is_dirty_ = false) ∨
     (s.free_list_ = [] ∧ f ∈ s.replacer_.lru ∧
      s1.page_table_ = setAt s.page_table_ (s.pages_ f).page_id_ none)) ∧
    (∀ g : frame_id_t, g ∈ s1.replacer_.lru → g ∈ s.replacer_.lru) := by
  rcases FindFrame_cases s h.hn h.hcap h.hmp with ⟨h1, _⟩ | ⟨l, g, hfl, h1⟩ |
    ⟨a, g, b, hfl, hl, hg, _, h1⟩
  · rw [h1] at hff; cases hff
  · rw [h1] at hff
    cases hff
    have hm : f ∈ s.free_list_ := by rw [hfl]; simp
    have hfr := h.free_fresh f hm
    refine ⟨InvMinus_of_free s l f h hfl, rfl, rfl, rfl, ?_, Or.inl ⟨hm, rfl, ?_⟩, fun g hg => hg⟩
    · rw [hfr]; decide
    · rw [hfr]; rfl
  · rw [h1] at hff
    cases hff
    have hm : f ∈ s.replacer_.lru := by rw [hl]; simp
    refine ⟨InvMinus_of_victim s a b f h hfl hl, rfl, rfl, rfl, hg, Or.inr ⟨hfl, hm, rfl⟩, ?_⟩
    intro g hg
    rw [hl]
    simp only [List.mem_append, List.mem_cons] at hg ⊢
    tauto

theorem FindFrame_keyed (s s1 : BufferPoolManager) (f : frame_id_t) (h : InvAlloc s)
    (hff : s.FindFrame = (s1, some f)) :
    (∀ g : frame_id_t, g ∈ s1.replacer_.lru → s1.page_table_ (s1.pages_ g).page_id_ = some g) ∧
    (∀ (q : page_id_t) (g : frame_id_t), s1.page_table_ q = some g →
      q < s1.disk_manager_.next_page_id) ∧
    (∀ q : page_id_t, s.page_table_ q = none → s1.page_table_ q = none) ∧
    (∀ (q : page_id_t) (g : frame_id_t), s.page_table_ q = some g → g ≠ f →
      s1.page_table_ q = some g) := by
  obtain ⟨hm, hpg, hdk, _, _, hcase, hsub⟩ := FindFrame_some_spec s s1 f h.inv hff
  rcases hcase with ⟨_, hpt, _⟩ | ⟨_, hfm, hpt⟩
  · rw [hpt, hpg, hdk]
    exact ⟨fun g hg => h.keyed g (hsub g hg), h.below, fun q hq => hq, fun q g hq _ => hq⟩
  · have hkf := h.keyed f hfm
    rw [hpt, hpg, hdk]
    refine ⟨?_, ?_, ?_, ?_⟩
    · intro g hg
      have hgf : g ≠ f := fun e => hm.not_lru (e ▸ hg)
      have hkg := h.keyed g (hsub g hg)
      have hne : (s.pages_ g).page_id_ ≠ (s.pages_ f).page_id_ := by
        intro e
        rw [e, hkf] at hkg
        exact hgf (Option.some.inj hkg).symm
      simp only [setAt_other _ _ _ _ hne]
      exact hkg
    · intro q g hq
      by_cases hqf : q = (s.pages_ f).page_id_
      · simp [setAt, hqf] at hq
      · simp only [setAt_other _ _ _ _ hqf] at hq
        exact h.below q g hq
    · intro q hq
      by_cases hqf : q = (s.pages_ f).page_id_
      · simp [setAt, hqf]
      · simp only [setAt_other _ _ _ _ hqf]
        exact hq
    · intro q g hq hgf
      have hqf : q ≠ (s.pages_ f).page_id_ := by
        intro e
        rw [e, hkf] at hq
        exact hgf (Option.some.inj hq).symm
      simp only [setAt_other _ _ _ _ hqf]
      exact hq

theorem Fetch_hit_eq (s : BufferPoolManager) (p : page_id_t) (f : frame_id_t)
    (hpt : s.page_table_ p = some f) :
    s.FetchPageImpl p =
      ({ s with
          pages_ := setAt s.pages_ f { (s.pages_ f) with pin_count_ := (s.pages_ f).pin_count_ + 1 } },
        some f) := by
  simp [BufferPoolManager.FetchPageImpl, hpt]

theorem Fetch_miss_none (s s1 : BufferPoolManager) (p : page_id_t)
    (hpt : s.page_table_ p = none) (hff : s.FindFrame = (s1, none)) :
    s.FetchPageImpl p = (s1, none) := by
  simp [BufferPoolManager.FetchPageImpl, hpt, hff]

theorem Fetch_miss_some (s s1 : BufferPoolManager) (p : page_id_t) (f : frame_id_t)
    (hpt : s.page_table_ p = none) (hff : s.FindFrame = (s1, some f)) :
    s.FetchPageImpl p =
      ({ s1 with
          disk_manager_ := if (s1.pages_ f).is_dirty_ then
              s1.disk_manager_.WritePage (s1.pages_ f).page_id_ (s1.pages_ f).data_
            else s1.disk_manager_
          page_table_ := setAt s1.page_table_ p (some f)
          replacer_ := s1.replacer_.Unpin f
          pages_ := setAt s1.pages_ f
            ⟨(if (s1.pages_ f).is_dirty_ then
                s1.disk_manager_.WritePage (s1.pages_ f).page_id_ (s1.pages_ f).data_
              else s1.disk_manager_).ReadPage p, p, 1, false⟩ }, some f) := by
  simp [BufferPoolManager.FetchPageImpl, hpt, hff]

/-- The state in which `NewPageImpl` calls `FindFrame`: the page id has been allocated. -/
theorem New_none (s s1 : BufferPoolManager)
    (hff : ({ s with disk_manager_ := s.disk_manager_.AllocatePage.1 } :
      BufferPoolManager).FindFrame = (s1, none)) :
    s.NewPageImpl = (s1, none) := by
  simp only [DiskManager.AllocatePage] at hff
  simp [BufferPoolManager.NewPageImpl, DiskManager.AllocatePage, hff]

theorem New_some (s s1 : BufferPoolManager) (f : frame_id_t)
    (hff : ({ s with disk_manager_ := s.disk_manager_.AllocatePage.1 } :
      BufferPoolManager).FindFrame = (s1, some f)) :
    s.NewPageImpl =
      ({ s1 with
          disk_manager_ := if (s1.pages_ f).is_dirty_ then
              s1.disk_manager_.WritePage (s1.pages_ f).page_id_ (s1.pages_ f).data_
            else s1.disk_manager_
          page_table_ := setAt s1.page_table_ s.disk_manager_.next_page_id (some f)
          replacer_ := s1.replacer_.Unpin f
          pages_ := setAt s1.pages_ f ⟨zeroData, s.disk_manager_.next_page_id, 1, false⟩ },
        some (f, s.disk_manager_.next_page_id)) := by
  simp only [DiskManager.AllocatePage] at hff
  simp [BufferPoolManager.NewPageImpl, DiskManager.AllocatePage, hff]

theorem InvAlloc_install (s : BufferPoolManager) (f : frame_id_t) (hm : InvMinus s f)
    (hk : ∀ g : frame_id_t, g ∈ s.replacer_.lru → s.page_table_ (s.pages_ g).page_id_ = some g)
    (page_id : page_id_t) (hnone : s.page_table_ page_id = none)
    (page : Page) (hp : page.page_id_ = page_id) (disk : DiskManager)
    (hb : ∀ (q : page_id_t) (g : frame_id_t), s.page_table_ q = some g → q < disk.next_page_id)
    (hlt : page_id < disk.next_page_id) :
    InvAlloc { s with
      disk_manager_ := disk
      page_table_ := setAt s.page_table_ page_id (some f)
      replacer_ := s.replacer_.Unpin f
      pages_ := setAt s.pages_ f page } := by
  refine ⟨Inv_install s f hm page_id page hp disk, ?_, ?_⟩
  · intro g hg
    rw [hm.Unpin_eq] at hg
    simp only [List.mem_cons] at hg
    by_cases hgf : g = f
    · subst hgf
      simp [setAt, hp]
    · have hg2 : g ∈ s.replacer_.lru := hg.resolve_left hgf
      have hkg := hk g hg2
      have hne : (s.pages_ g).page_id_ ≠ page_id := by
        intro e
        rw [e, hnone] at hkg
        cases hkg
      simp only [setAt_other _ _ _ _ hgf, setAt_other _ _ _ _ hne]
      exact hkg
  · intro q g hq
    by_cases hqp : q = page_id
    · rw [hqp]; exact hlt
    · simp only [setAt_other _ _ _ _ hqp] at hq
      exact hb q g hq

theorem InvAlloc_disk (s : BufferPoolManager) (h : InvAlloc s) (disk : DiskManager)
    (hd : s.disk_manager_.next_page_id ≤ disk.next_page_id) :
    InvAlloc { s with disk_manager_ := disk } :=
  ⟨Inv_disk s h.inv disk, h.keyed, fun q g hq => lt_of_lt_of_le (h.below q g hq) hd⟩

theorem InvAlloc_update (s : BufferPoolManager) (f : frame_id_t) (h : InvAlloc s) (page : Page)
    (hf : f ∈ s.replacer_.lru) (hp : page.page_id_ = (s.pages_ f).page_id_) (disk : DiskManager)
    (hd : s.disk_manager_.next_page_id ≤ disk.next_page_id) :
    InvAlloc { s with pages_ := setAt s.pages_ f page, disk_manager_ := disk } := by
  refine ⟨Inv_update s f h.inv page hf hp disk, ?_, fun q g hq => lt_of_lt_of_le (h.below q g hq) hd⟩
  intro g hg
  by_cases hgf : g = f
  · subst hgf
    simp only [setAt_same, hp]
    exact h.keyed g hg
  · simp only [setAt_other _ _ _ _ hgf]
    exact h.keyed g hg

theorem WritePage_next (d : DiskManager) (p : page_id_t) (b : PageData) :
    (d.WritePage p b).next_page_id = d.next_page_id := rfl

theorem InvAlloc_new (n : Nat) (d : DiskManager) : InvAlloc (BufferPoolManager.new n d) :=
  ⟨Inv_new n d, by intro f hf; simp [BufferPoolManager.new, LRUReplacer.new] at hf,
    by intro q g hq; simp [BufferPoolManager.new] at hq⟩

theorem InvAlloc_Fetch (s : BufferPoolManager) (p : page_id_t) (h : InvAlloc s)
    (hp : p < s.disk_manager_.next_page_id) : InvAlloc (s.FetchPageImpl p).1 := by
  cases hpt : s.page_table_ p with
  | some f =>
    rw [Fetch_hit_eq s p f hpt]
    exact InvAlloc_update s f h _ (h.inv.table p f hpt).1 (by rfl) s.disk_manager_ (le_refl _)
  | none =>
    cases hff : s.FindFrame with
    | mk s1 o =>
      cases o with
      | none =>
        rw [Fetch_miss_none s s1 p hpt hff, FindFrame_none_eq s s1 h.inv hff]
        exact h
      | some f =>
        rw [Fetch_miss_some s s1 p f hpt hff]
        obtain ⟨hm, _, hdk, _, _, _, _⟩ := FindFrame_some_spec s s1 f h.inv hff
        obtain ⟨hk, hb, hnone, _⟩ := FindFrame_keyed s s1 f h hff
        refine InvAlloc_install s1 f hm hk p (hnone p hpt) _ rfl _ ?_ ?_
        · intro q g hq
          have := hb q g hq
          split <;> simpa [WritePage_next] using this
        · rw [← hdk] at hp
          split <;> simpa [WritePage_next] using hp

theorem InvAlloc_New (s : BufferPoolManager) (h : InvAlloc s) : InvAlloc s.NewPageImpl.1 := by
  have h0 : InvAlloc ({ s with disk_manager_ := s.disk_manager_.AllocatePage.1 }) :=
    InvAlloc_disk s h _ (by simp [DiskManager.AllocatePage])
  cases hff : ({ s with disk_manager_ := s.disk_manager_.AllocatePage.1 } :
      BufferPoolManager).FindFrame with
  | mk s1 o =>
    cases o with
    | none =>
      rw [New_none s s1 hff, FindFrame_none_eq _ s1 h0.inv hff]
      exact h0
    | some f =>
      rw [New_some s s1 f hff]
      obtain ⟨hm, _, hdk, _, _, _, _⟩ := FindFrame_some_spec _ s1 f h0.inv hff
      obtain ⟨hk, hb, hnone, _⟩ := FindFrame_keyed _ s1 f h0 hff
      have hfresh : s.page_table_ s.disk_manager_.next_page_id = none := by
        cases hq : s.page_table_ s.disk_manager_.next_page_id with
        | none => rfl
        | some g => exact absurd (h.below _ g hq) (lt_irrefl _)
      have hnext : s1.disk_manager_.next_page_id = s.disk_manager_.next_page_id + 1 := by
        rw [hdk]; rfl
      refine InvAlloc_install s1 f hm hk _ (hnone _ hfresh) _ rfl _ ?_ ?_
      · intro q g hq
        have := hb q g hq
        split <;> simpa [WritePage_next] using this
      · split <;> simp [WritePage_next, hnext]

theorem InvAlloc_Delete (s : BufferPoolManager) (p : page_id_t) (h : InvAlloc s) :
    InvAlloc (s.DeletePageImpl p).1 := by
  refine ⟨Inv_Delete s p h.inv, ?_, ?_⟩
  · cases hpt : s.page_table_ p with
    | none =>
      simp only [BufferPoolManager.DeletePageImpl, hpt]
      exact h.keyed
    | some f =>
      by_cases hpin : (s.pages_ f).pin_count_ > 0
      · simp only [BufferPoolManager.DeletePageImpl, hpt, hpin, if_true]
        exact h.keyed
      · have hfm := (h.inv.table p f hpt).1
        have hpid := (h.inv.table p f hpt).2
        simp only [BufferPoolManager.DeletePageImpl, hpt, hpin, if_false,
          Pin_tracked _ f (h.inv.hmp f hfm)]
        intro g hg
        have hg2 := h.inv.wf.nodup.mem_erase_iff.1 hg
        have hkg := h.keyed g hg2.2
        have hne : (s.pages_ g).page_id_ ≠ (s.pages_ f).page_id_ := by
          intro e
          rw [e, hpid, hpt] at hkg
          exact hg2.1 (Option.some.inj hkg).symm
        simp only [setAt_other _ _ _ _ hg2.1, setAt_other _ _ _ _ hne]
        exact hkg
  · cases hpt : s.page_table_ p with
    | none =>
      simp only [BufferPoolManager.DeletePageImpl, hpt]
      exact h.below
    | some f =>
      by_cases hpin : (s.pages_ f).pin_count_ > 0
      · simp only [BufferPoolManager.DeletePageImpl, hpt, hpin, if_true]
        exact h.below
      · simp only [BufferPoolManager.DeletePageImpl, hpt, hpin, if_false]
        intro q g hq
        by_cases hqf : q = (s.pages_ f).page_id_
        · simp [setAt, hqf] at hq
        · simp only [setAt_other _ _ _ _ hqf] at hq
          exact h.below q g hq

theorem InvAlloc_step (s : BufferPoolManager) (op : Op) (h : InvAlloc s)
    (hok : op.allocated s) : InvAlloc (s.step op) := by
  cases op with
  | FetchPage p => exact InvAlloc_Fetch s p h hok
  | NewPage => exact InvAlloc_New s h
  | UnpinPage p d =>
    simp only [BufferPoolManager.step, BufferPoolManager.UnpinPageImpl]
    cases hpt : s.page_table_ p with
    | none => exact h
    | some f =>
      simp only
      exact InvAlloc_update s f h
        { (if d then { (s.pages_ f) with is_dirty_ := true } else s.pages_ f) with
          pin_count_ := (if d then { (s.pages_ f) with is_dirty_ := true } else s.pages_ f).pin_count_ - 1 }
        (h.inv.table p f hpt).1 (by cases d <;> rfl) s.disk_manager_ (le_refl _)
  | FlushPage p =>
    simp only [BufferPoolManager.step, BufferPoolManager.FlushPageImpl]
    cases hpt : s.page_table_ p with
    | none => exact h
    | some f =>
      simp only
      exact InvAlloc_update s f h _ (h.inv.table p f hpt).1 (by rfl) _ (le_refl _)
  | DeletePage p => exact InvAlloc_Delete s p h
  | WriteData p b =>
    simp only [BufferPoolManager.step, BufferPoolManager.WriteData]
    cases hpt : s.page_table_ p with
    | none => exact h
    | some f =>
      simp only
      exact InvAlloc_update s f h _ (h.inv.table p f hpt).1 (by rfl) s.disk_manager_ (le_refl _)

theorem InvAlloc_of_reachable (s : BufferPoolManager) (h : ReachableAllocated s) :
    InvAlloc s := by
  induction h with
  | init n d => exact InvAlloc_new n d
  | step s op _ hok ih => exact InvAlloc_step s op ih hok

/-! ## Eviction and the page table -/

theorem install_keeps (s s1 : BufferPoolManager) (f : frame_id_t) (h : Inv s)
    (hff : s.FindFrame = (s1, some f)) (r : LRUReplacer) (d : DiskManager)
    (pt : page_id_t → Option frame_id_t) (page : Page) (g : frame_id_t)
    (hg : 0 < (s.pages_ g).pin_count_) :
    ({ s1 with disk_manager_ := d, page_table_ := pt, replacer_ := r,
               pages_ := setAt s1.pages_ f page } : BufferPoolManager).pages_ g = s.pages_ g := by
  obtain ⟨_, hpg, _, _, hpin, _, _⟩ := FindFrame_some_spec s s1 f h hff
  have hgf : g ≠ f := by
    intro e
    rw [e] at hg
    omega
  simp only [setAt_other _ _ _ _ hgf, hpg]

/-- C1 (refuted as stated). With pool_size 2: FetchPage(0), UnpinPage(0), NewPage (the disk
manager hands out id 0 again, frame 0) leave page 0 resident in frame 0 with pin count 1;
the next NewPage reuses frame 1, whose stale page id is 0, and erases key 0: the pinned
page 0 is removed from the page table. -/
theorem pinned_page_unmapped :
    Reachable ((BufferPoolManager.new 2 DiskManager.empty).run
      [.FetchPage 0, .UnpinPage 0 false, .NewPage]) ∧
    ((BufferPoolManager.new 2 DiskManager.empty).run
      [.FetchPage 0, .UnpinPage 0 false, .NewPage]).page_table_ 0 = some 0 ∧
    0 < (((BufferPoolManager.new 2 DiskManager.empty).run
      [.FetchPage 0, .UnpinPage 0 false, .NewPage]).pages_ 0).pin_count_ ∧
    ((BufferPoolManager.new 2 DiskManager.empty).run
      [.FetchPage 0, .UnpinPage 0 false, .NewPage]).NewPageImpl.2 = some (1, 1) ∧
    ((BufferPoolManager.new 2 DiskManager.empty).run
      [.FetchPage 0, .UnpinPage 0 false, .NewPage]).NewPageImpl.1.page_table_ 0 = none :=
  ⟨Reachable_of_run 2 DiskManager.empty _, by decide, by decide, by decide, by decide⟩

/-- C1 (amended). For every reachable state and every FetchPage (miss) or NewPage call
that returns a page, the reused frame had pin count at most 0 and no frame with positive
pin count is overwritten; when in addition FetchPage has only been asked for page ids
that the disk manager had allocated, no page with positive pin count is removed from the
page table. -/
theorem reused_frame_unpinned (s : BufferPoolManager) (h : Reachable s) :
    (∀ (p : page_id_t) (f : frame_id_t), s.page_table_ p = none →
      (s.FetchPageImpl p).2 = some f →
      (s.pages_ f).pin_count_ ≤ 0 ∧
      (∀ g : frame_id_t, 0 < (s.pages_ g).pin_count_ →
        (s.FetchPageImpl p).1.pages_ g = s.pages_ g) ∧
      (ReachableAllocated s → ∀ (q : page_id_t) (g : frame_id_t), s.page_table_ q = some g →
        0 < (s.pages_ g).pin_count_ → (s.FetchPageImpl p).1.page_table_ q = some g)) ∧
    (∀ (f : frame_id_t) (id : page_id_t), s.NewPageImpl.2 = some (f, id) →
      (s.pages_ f).pin_count_ ≤ 0 ∧
      (∀ g : frame_id_t, 0 < (s.pages_ g).pin_count_ → s.NewPageImpl.1.pages_ g = s.pages_ g) ∧
      (ReachableAllocated s → ∀ (q : page_id_t) (g : frame_id_t), s.page_table_ q = some g →
        0 < (s.pages_ g).pin_count_ → s.NewPageImpl.1.page_table_ q = some g)) := by
  have hi := Inv_of_reachable _ s h
  constructor
  · intro p f hpt hres
    cases hff : s.FindFrame with
    | mk s1 o =>
      cases o with
      | none =>
        rw [Fetch_miss_none s s1 p hpt hff] at hres
        cases hres
      | some f1 =>
        rw [Fetch_miss_some s s1 p f1 hpt hff] at hres ⊢
        cases hres
        obtain ⟨_, _, _, _, hpin, _, _⟩ := FindFrame_some_spec s s1 f hi hff
        refine ⟨hpin, fun g hg => install_keeps s s1 f hi hff _ _ _ _ g hg, ?_⟩
        intro ha q g hq hg
        obtain ⟨_, _, _, hkeep⟩ := FindFrame_keyed s s1 f (InvAlloc_of_reachable s ha) hff
        have hgf : g ≠ f := by
          intro e
          rw [e] at hg
          omega
        have hqp : q ≠ p := by
          intro e
          rw [e, hpt] at hq
          cases hq
        simp only [setAt_other _ _ _ _ hqp]
        exact hkeep q g hq hgf
  · intro f id hres
    have h0 : Inv ({ s with disk_manager_ := s.disk_manager_.AllocatePage.1 }) := Inv_disk s hi _
    cases hff : ({ s with disk_manager_ := s.disk_manager_.AllocatePage.1 } :
        BufferPoolManager).FindFrame with
    | mk s1 o =>
      cases o with
      | none =>
        rw [New_none s s1 hff] at hres
        cases hres
      | some f1 =>
        rw [New_some s s1 f1 hff] at hres ⊢
        cases hres
        obtain ⟨_, _, _, _, hpin, _, _⟩ := FindFrame_some_spec _ s1 f h0 hff
        refine ⟨hpin, fun g hg => install_keeps _ s1 f h0 hff _ _ _ _ g hg, ?_⟩
        intro ha q g hq hg
        have hia := InvAlloc_of_reachable s ha
        obtain ⟨_, _, _, hkeep⟩ := FindFrame_keyed _ s1 f
          (InvAlloc_disk s hia s.disk_manager_.AllocatePage.1
            (by simp [DiskManager.AllocatePage])) hff
        have hgf : g ≠ f := by
          intro e
          rw [e] at hg
          have hpin' : (s.pages_ f).pin_count_ ≤ 0 := hpin
          omega
        have hqp : q ≠ s.disk_manager_.next_page_id := by
          intro e
          have := hia.below q g hq
          rw [e] at this
          exact lt_irrefl _ this
        simp only [setAt_other _ _ _ _ hqp]
        exact hkeep q g hq hgf

theorem ReachableAllocated_new_step (n : Nat) (d : DiskManager) :
    ReachableAllocated ((BufferPoolManager.new n d).step .NewPage) :=
  ReachableVia.step _ Op.NewPage (ReachableVia.init n d) trivial

theorem ReachableAllocated_demo :
    ReachableAllocated ((((BufferPoolManager.new 2 DiskManager.empty).step .NewPage).step .NewPage).step
      (.UnpinPage 1 false)) :=
  ReachableVia.step _ (Op.UnpinPage 1 false)
    (ReachableVia.step _ Op.NewPage (ReachableAllocated_new_step 2 DiskManager.empty) trivial)
    trivial

theorem reused_frame_unpinned_witness :
    Reachable ((((BufferPoolManager.new 2 DiskManager.empty).step .NewPage).step .NewPage).step
      (.UnpinPage 1 false)) ∧
    ReachableAllocated ((((BufferPoolManager.new 2 DiskManager.empty).step .NewPage).step .NewPage).step
      (.UnpinPage 1 false)) ∧
    ((((BufferPoolManager.new 2 DiskManager.empty).step .NewPage).step .NewPage).step
      (.UnpinPage 1 false)).NewPageImpl.2 = some (0, 2) ∧
    ((((BufferPoolManager.new 2 DiskManager.empty).step .NewPage).step .NewPage).step
      (.UnpinPage 1 false)).page_table_ 0 = some 1 ∧
    0 < (((((BufferPoolManager.new 2 DiskManager.empty).step .NewPage).step .NewPage).step
      (.UnpinPage 1 false)).pages_ 1).pin_count_ ∧
    (((((BufferPoolManager.new 2 DiskManager.empty).step .NewPage).step .NewPage).step
      (.UnpinPage 1 false)).pages_ 0).pin_count_ ≤ 0 ∧
    ((((BufferPoolManager.new 2 DiskManager.empty).step .NewPage).step .NewPage).step
      (.UnpinPage 1 false)).NewPageImpl.1.page_table_ 0 = some 1 :=
  ⟨Reachable_of_run 2 DiskManager.empty [.NewPage, .NewPage, .UnpinPage 1 false],
    ReachableAllocated_demo, by decide, by decide, by decide,
    ((reused_frame_unpinned _
      (Reachable_of_run 2 DiskManager.empty [.NewPage, .NewPage, .UnpinPage 1 false])).2
        0 2 (by decide)).1,
    ((reused_frame_unpinned _
      (Reachable_of_run 2 DiskManager.empty [.NewPage, .NewPage, .UnpinPage 1 false])).2
        0 2 (by decide)).2.2 ReachableAllocated_demo 0 1 (by decide) (by decide)⟩

/-- C5 (refuted as stated). With pool_size 2: FetchPage(0), NewPage (id 0 again, frame 0),
UnpinPage(0), DeletePage(0) leave frame 1 off the free list with page id 0 while 0 is no
key of the page table. -/
theorem TableConsistent_fails :
    Reachable ((BufferPoolManager.new 2 DiskManager.empty).run
      [.FetchPage 0, .NewPage, .UnpinPage 0 false, .DeletePage 0]) ∧
    ¬ TableConsistent ((BufferPoolManager.new 2 DiskManager.empty).run
      [.FetchPage 0, .NewPage, .UnpinPage 0 false, .DeletePage 0]) := by
  refine ⟨Reachable_of_run 2 DiskManager.empty _, ?_⟩
  intro hc
  have := hc.2.2.1 1 (by decide) (by decide) (by decide)
  revert this
  decide

/-- C5 (amended). In every state reachable by calls in which FetchPage is only asked for
page ids that the disk manager has already allocated, the page table is consistent with
the frames: each key p maps to a frame whose page id is p, no two keys map to the same
frame, every frame off the free list is the value of its own page id, and no frame of the
free list is a value. -/
theorem page_table_consistent (s : BufferPoolManager) (h : ReachableAllocated s) :
    TableConsistent s ∧
    (∀ f : frame_id_t, 0 ≤ f → f < s.pool_size_ → f ∉ s.free_list_ →
      s.page_table_ (s.pages_ f).page_id_ = some f) := by
  have hi := InvAlloc_of_reachable s h
  have hkey : ∀ f : frame_id_t, 0 ≤ f → f < s.pool_size_ → f ∉ s.free_list_ →
      s.page_table_ (s.pages_ f).page_id_ = some f := by
    intro f h0 h1 hnf
    exact hi.keyed f (((hi.inv.frames f).2 ⟨h0, h1⟩).resolve_left hnf)
  refine ⟨⟨fun p f hp => (hi.inv.table p f hp).2, ?_, ?_, ?_⟩, hkey⟩
  · intro p q f hp hq
    rw [← (hi.inv.table p f hp).2, ← (hi.inv.table q f hq).2]
  · intro f h0 h1 hnf
    rw [hkey f h0 h1 hnf]
    rfl
  · intro f p hf hp
    exact hi.inv.disjoint f hf (hi.inv.table p f hp).1

theorem page_table_consistent_witness :
    ReachableAllocated ((BufferPoolManager.new 2 DiskManager.empty).step .NewPage) ∧
    TableConsistent ((BufferPoolManager.new 2 DiskManager.empty).step .NewPage) :=
  ⟨ReachableVia.step _ Op.NewPage (ReachableVia.init 2 DiskManager.empty) trivial,
    (page_table_consistent _
      (ReachableVia.step _ Op.NewPage (ReachableVia.init 2 DiskManager.empty) trivial)).1⟩

/-! ## Bytes of a page across write-back and read-back -/

theorem FindFrame_none_iff (s : BufferPoolManager) (h : Inv s) :
    s.FindFrame.2 = none ↔
      s.free_list_ = [] ∧ ∀ f : frame_id_t, 0 ≤ f → f < s.pool_size_ →
        0 < (s.pages_ f).pin_count_ := by
  rcases FindFrame_cases _ h.hn h.hcap h.hmp with ⟨h1, hfl, hall⟩ | ⟨l, g, hfl, h1⟩ |
    ⟨a, g, b, hfl, hl, hg, _, h1⟩
  · rw [h1]
    simp only [true_iff]
    refine ⟨hfl, ?_⟩
    intro f hf0 hf1
    rcases (h.frames f).2 ⟨hf0, hf1⟩ with hm | hm
    · simp [hfl] at hm
    · exact hall f hm
  · rw [h1]
    simp [hfl]
  · rw [h1]
    simp only [false_iff, not_and, not_forall, reduceCtorEq]
    intro _
    have hgm : g ∈ s.replacer_.lru := by rw [hl]; simp
    have hr := h.lru_range g hgm
    exact ⟨g, hr.1, hr.2, not_lt.2 hg⟩

theorem Fetch_none_iff (s : BufferPoolManager) (h : Inv s) (p : page_id_t) :
    (s.FetchPageImpl p).2 = none ↔
      s.page_table_ p = none ∧ s.free_list_ = [] ∧
        ∀ f : frame_id_t, 0 ≤ f → f < s.pool_size_ → 0 < (s.pages_ f).pin_count_ := by
  rw [← FindFrame_none_iff s h]
  cases hpt : s.page_table_ p with
  | some f => simp [Fetch_hit_eq s p f hpt]
  | none =>
    cases hff : s.FindFrame with
    | mk s1 o =>
      cases o with
      | none => simp [Fetch_miss_none s s1 p hpt hff]
      | some f => simp [Fetch_miss_some s s1 p f hpt hff]

theorem Fetch_some_maps (s : BufferPoolManager) (p : page_id_t) (g : frame_id_t)
    (hres : (s.FetchPageImpl p).2 = some g) : (s.FetchPageImpl p).1.page_table_ p = some g := by
  cases hpt : s.page_table_ p with
  | some f =>
    rw [Fetch_hit_eq s p f hpt] at hres ⊢
    cases hres
    exact hpt
  | none =>
    cases hff : s.FindFrame with
    | mk s1 o =>
      cases o with
      | none =>
        rw [Fetch_miss_none s s1 p hpt hff] at hres
        cases hres
      | some f =>
        rw [Fetch_miss_some s s1 p f hpt hff] at hres ⊢
        cases hres
        simp [setAt]

/-- What the caller of `FindFrame` knows about the frame it got. -/
theorem FindFrame_facts (s s1 : BufferPoolManager) (f : frame_id_t) (h : InvAlloc s)
    (hff : s.FindFrame = (s1, some f)) :
    s1.pages_ = s.pages_ ∧ s1.disk_manager_ = s.disk_manager_ ∧
    (∀ (q : page_id_t) (g : frame_id_t), s1.page_table_ q = some g →
      s.page_table_ q = some g ∧ g ≠ f) ∧
    (∀ (q : page_id_t) (g : frame_id_t), s.page_table_ q = some g → g ≠ f →
      s1.page_table_ q = some g) ∧
    (∀ q : page_id_t, s.page_table_ q = none → s1.page_table_ q = none) ∧
    ((s.pages_ f).is_dirty_ = true → s.page_table_ (s.pages_ f).page_id_ = some f) := by
  obtain ⟨hm, hpg, hdk, _, _, hcase, _⟩ := FindFrame_some_spec s s1 f h.inv hff
  obtain ⟨_, _, hnone, hkeep⟩ := FindFrame_keyed s s1 f h hff
  refine ⟨hpg, hdk, ?_, hkeep, hnone, ?_⟩
  · intro q g hq
    have hgf : g ≠ f := fun e => hm.not_lru (e ▸ (hm.table q g hq).1)
    refine ⟨?_, hgf⟩
    rcases hcase with ⟨_, hpt, _⟩ | ⟨_, _, hpt⟩
    · rw [← hpt]; exact hq
    · rw [hpt] at hq
      by_cases hqf : q = (s.pages_ f).page_id_
      · simp [setAt, hqf] at hq
      · simpa only [setAt_other _ _ _ _ hqf] using hq
  · intro hd
    rcases hcase with ⟨_, _, hnd⟩ | ⟨_, hfm, _⟩
    · rw [hnd] at hd; cases hd
    · exact h.keyed f hfm

theorem Saved_install (s s1 : BufferPoolManager) (f : frame_id_t) (h : InvAlloc s)
    (hff : s.FindFrame = (s1, some f)) (p : page_id_t) (d : PageData) (hs : Saved s p d)
    (q : page_id_t) (hq : s.page_table_ q = none) (page : Page) (r : LRUReplacer)
    (hdata : q = p → page.data_ =
      (if (s1.pages_ f).is_dirty_ then
          s1.disk_manager_.WritePage (s1.pages_ f).page_id_ (s1.pages_ f).data_
        else s1.disk_manager_).pages_ p) :
    Saved { s1 with
      disk_manager_ := if (s1.pages_ f).is_dirty_ then
          s1.disk_manager_.WritePage (s1.pages_ f).page_id_ (s1.pages_ f).data_
        else s1.disk_manager_
      page_table_ := setAt s1.page_table_ q (some f)
      replacer_ := r
      pages_ := setAt s1.pages_ f page } p d := by
  obtain ⟨hpg, hdk, hsub, hkeep, hnone, hdirty⟩ := FindFrame_facts s s1 f h hff
  rw [hpg, hdk] at hdata ⊢
  -- the disk content of `p` after the write-back of the reused frame
  have hdisk : s.page_table_ p ≠ some f →
      (if (s.pages_ f).is_dirty_ then
          s.disk_manager_.WritePage (s.pages_ f).page_id_ (s.pages_ f).data_
        else s.disk_manager_).pages_ p = s.disk_manager_.pages_ p := by
    intro hne
    by_cases hd : (s.pages_ f).is_dirty_ = true
    · have hk := hdirty hd
      have hpf : p ≠ (s.pages_ f).page_id_ := fun e => hne (e ▸ hk)
      simp [hd, DiskManager.WritePage, setAt, hpf]
    · simp [hd]
  have hdisk2 : s.page_table_ p = some f →
      (if (s.pages_ f).is_dirty_ then
          s.disk_manager_.WritePage (s.pages_ f).page_id_ (s.pages_ f).data_
        else s.disk_manager_).pages_ p = d := by
    intro hpf
    have hpid := (h.inv.table p f hpf).2
    have hr := hs.resident f hpf
    by_cases hd : (s.pages_ f).is_dirty_ = true
    · simp [hd, DiskManager.WritePage, setAt, hpid, hr.1]
    · simp only [hd, if_false]
      exact hr.2 (by simpa using hd)
  refine ⟨?_, ?_, ?_⟩
  · have := hs.alloc
    show p < (if (s.pages_ f).is_dirty_ then _ else _ : DiskManager).next_page_id
    split
    · exact this
    · exact this
  · intro g hg
    show (setAt s.pages_ f page g).data_ = d ∧ ((setAt s.pages_ f page g).is_dirty_ = false →
      (if (s.pages_ f).is_dirty_ then _ else _ : DiskManager).pages_ p = d)
    have hg' : setAt s1.page_table_ q (some f) p = some g := hg
    by_cases hqp : p = q
    · subst hqp
      simp only [setAt_same, Option.some.injEq] at hg'
      subst hg'
      have hne : s.page_table_ p ≠ some f := by rw [hq]; simp
      have hd2 := hdisk hne
      simp only [setAt_same]
      rw [hdata rfl, hd2]
      exact ⟨hs.evicted hq, fun _ => hs.evicted hq⟩
    · simp only [setAt_other _ _ _ _ hqp] at hg'
      obtain ⟨hpg', hgf⟩ := hsub p g hg'
      have hne : s.page_table_ p ≠ some f := by
        rw [hpg']
        intro e
        exact hgf (Option.some.inj e)
      simp only [setAt_other _ _ _ _ hgf]
      rw [hdisk hne]
      exact hs.resident g hpg'
  · intro hn
    show (if (s.pages_ f).is_dirty_ then _ else _ : DiskManager).pages_ p = d
    have hn' : setAt s1.page_table_ q (some f) p = none := hn
    have hqp : p ≠ q := by
      intro e
      rw [e, setAt_same] at hn'
      cases hn'
    simp only [setAt_other _ _ _ _ hqp] at hn'
    cases hpt : s.page_table_ p with
    | none =>
      rw [hdisk (by rw [hpt]; simp)]
      exact hs.evicted hpt
    | some g =>
      by_cases hgf : g = f
      · subst hgf
        exact hdisk2 hpt
      · rw [hkeep p g hpt hgf] at hn'
        cases hn'

theorem Saved_update (s : BufferPoolManager) (h : Inv s) (p q : page_id_t) (d : PageData)
    (hs : Saved s p d) (g : frame_id_t) (hq : s.page_table_ q = some g) (page : Page)
    (disk : DiskManager) (hnext : disk.next_page_id = s.disk_manager_.next_page_id)
    (hsame : q = p → page.data_ = d ∧ (page.is_dirty_ = false → disk.pages_ p = d))
    (hother : q ≠ p → disk.pages_ p = s.disk_manager_.pages_ p) :
    Saved { s with pages_ := setAt s.pages_ g page, disk_manager_ := disk } p d := by
  refine ⟨?_, ?_, ?_⟩
  · show p < disk.next_page_id
    rw [hnext]
    exact hs.alloc
  · intro f hf
    have hf' : s.page_table_ p = some f := hf
    show (setAt s.pages_ g page f).data_ = d ∧ ((setAt s.pages_ g page f).is_dirty_ = false →
      disk.pages_ p = d)
    by_cases hfg : f = g
    · subst hfg
      have hqp : q = p := by
        rw [← (h.table q f hq).2, ← (h.table p f hf').2]
      simp only [setAt_same]
      exact hsame hqp
    · have hqp : q ≠ p := by
        intro e
        rw [e, hf'] at hq
        exact hfg (Option.some.inj hq)
      simp only [setAt_other _ _ _ _ hfg]
      rw [hother hqp]
      exact hs.resident f hf'
  · intro hn
    have hn' : s.page_table_ p = none := hn
    have hqp : q ≠ p := by
      intro e
      rw [e, hn'] at hq
      cases hq
    show disk.pages_ p = d
    rw [hother hqp]
    exact hs.evicted hn'

theorem Saved_step (s : BufferPoolManager) (op : Op) (p : page_id_t) (d : PageData)
    (h : InvAlloc s) (hs : Saved s p d) (hsp : op.spares p) : Saved (s.step op) p d := by
  cases op with
  | FetchPage q =>
    simp only [BufferPoolManager.step]
    cases hpt : s.page_table_ q with
    | some g =>
      rw [Fetch_hit_eq s q g hpt]
      refine Saved_update s h.inv p q d hs g hpt _ s.disk_manager_ rfl ?_ (fun _ => rfl)
      intro e
      subst e
      exact hs.resident g hpt
    | none =>
      cases hff : s.FindFrame with
      | mk s1 o =>
        cases o with
        | none =>
          rw [Fetch_miss_none s s1 q hpt hff, FindFrame_none_eq s s1 h.inv hff]
          exact hs
        | some f =>
          rw [Fetch_miss_some s s1 q f hpt hff]
          exact Saved_install s s1 f h hff p d hs q hpt _ _ (fun e => by subst e; rfl)
  | NewPage =>
    simp only [BufferPoolManager.step]
    have h0 : InvAlloc ({ s with disk_manager_ := s.disk_manager_.AllocatePage.1 }) :=
      InvAlloc_disk s h _ (by simp [DiskManager.AllocatePage])
    have hs0 : Saved ({ s with disk_manager_ := s.disk_manager_.AllocatePage.1 }) p d :=
      ⟨lt_trans hs.alloc (by simp [DiskManager.AllocatePage]), hs.resident, hs.evicted⟩
    have hfresh : s.page_table_ s.disk_manager_.next_page_id = none := by
      cases hq : s.page_table_ s.disk_manager_.next_page_id with
      | none => rfl
      | some g => exact absurd (h.below _ g hq) (lt_irrefl _)
    cases hff : ({ s with disk_manager_ := s.disk_manager_.AllocatePage.1 } :
        BufferPoolManager).FindFrame with
    | mk s1 o =>
      cases o with
      | none =>
        rw [New_none s s1 hff, FindFrame_none_eq _ s1 h0.inv hff]
        exact hs0
      | some f =>
        rw [New_some s s1 f hff]
        refine Saved_install _ s1 f h0 hff p d hs0 _ hfresh _ _ ?_
        intro e
        exact absurd hs.alloc (by rw [← e]; exact lt_irrefl _)
  | UnpinPage q b =>
    simp only [BufferPoolManager.step, BufferPoolManager.UnpinPageImpl]
    cases hpt : s.page_table_ q with
    | none => exact hs
    | some g =>
      simp only
      refine Saved_update s h.inv p q d hs g hpt _ s.disk_manager_ rfl ?_ (fun _ => rfl)
      intro e
      subst e
      have hr := hs.resident g hpt
      cases b
      · exact hr
      · exact ⟨hr.1, fun hc => by simp at hc⟩
  | FlushPage q =>
    simp only [BufferPoolManager.step, BufferPoolManager.FlushPageImpl]
    cases hpt : s.page_table_ q with
    | none => exact hs
    | some g =>
      simp only
      refine Saved_update s h.inv p q d hs g hpt _ _ rfl ?_ ?_
      · intro e
        subst e
        have hr := hs.resident g hpt
        exact ⟨hr.1, fun _ => by simp [DiskManager.WritePage, setAt, hr.1]⟩
      · intro hqp
        have : p ≠ q := fun e => hqp e.symm
        simp [DiskManager.WritePage, setAt, this]
  | DeletePage q =>
    have hqp : q ≠ p := hsp
    simp only [BufferPoolManager.step, BufferPoolManager.DeletePageImpl]
    cases hpt : s.page_table_ q with
    | none => exact hs
    | some g =>
      simp only
      by_cases hpin : (s.pages_ g).pin_count_ > 0
      · simp only [hpin, if_true]
        exact hs
      · simp only [hpin, if_false]
        have hpid := (h.inv.table q g hpt).2
        have hpq : p ≠ (s.pages_ g).page_id_ := by rw [hpid]; exact fun e => hqp e.symm
        refine ⟨hs.alloc, ?_, ?_⟩
        · intro f hf
          have hf' : s.page_table_ p = some f := by
            simpa only [setAt_other _ _ _ _ hpq] using hf
          have hfg : f ≠ g := by
            intro e
            rw [e] at hf'
            exact hpq (by rw [← (h.inv.table p g hf').2])
          show (setAt s.pages_ g _ f).data_ = d ∧ ((setAt s.pages_ g _ f).is_dirty_ = false →
            s.disk_manager_.pages_ p = d)
          simp only [setAt_other _ _ _ _ hfg]
          exact hs.resident f hf'
        · intro hn
          have hn' : s.page_table_ p = none := by
            simpa only [setAt_other _ _ _ _ hpq] using hn
          exact hs.evicted hn'
  | WriteData q b =>
    have hqp : q ≠ p := hsp
    simp only [BufferPoolManager.step, BufferPoolManager.WriteData]
    cases hpt : s.page_table_ q with
    | none => exact hs
    | some g =>
      simp only
      exact Saved_update s h.inv p q d hs g hpt _ s.disk_manager_ rfl
        (fun e => absurd e hqp) (fun _ => rfl)

theorem Saved_run (p : page_id_t) (d : PageData) (ops : List Op) :
    ∀ s : BufferPoolManager, InvAlloc s → Saved s p d → sparingRun p s ops →
      InvAlloc (s.run ops) ∧ Saved (s.run ops) p d := by
  induction ops with
  | nil => intro s h hs _; exact ⟨h, hs⟩
  | cons op ops ih =>
    intro s h hs hr
    exact ih (s.step op) (InvAlloc_step s op h hr.1) (Saved_step s op p d h hs hr.2.1) hr.2.2

theorem Saved_fetch (s : BufferPoolManager) (p : page_id_t) (d : PageData) (h : InvAlloc s)
    (hs : Saved s p d) :
    (∀ g : frame_id_t, (s.FetchPageImpl p).2 = some g →
      ((s.FetchPageImpl p).1.pages_ g).data_ = d) ∧
    ((s.FetchPageImpl p).2 = none ↔
      s.page_table_ p = none ∧ s.free_list_ = [] ∧
        ∀ f : frame_id_t, 0 ≤ f → f < s.pool_size_ → 0 < (s.pages_ f).pin_count_) := by
  refine ⟨?_, Fetch_none_iff s h.inv p⟩
  intro g hg
  have hs' : Saved (s.step (.FetchPage p)) p d := Saved_step s _ p d h hs trivial
  exact (hs'.resident g (Fetch_some_maps s p g hg)).1

/-- C2 (refuted as stated). First, with pool_size 1: page 0 is resident and pinned, its
bytes are set to [7], UnpinPage(0, true) is called and NewPage evicts it (the disk then
holds [7]); the frame is pinned by the new page, so FetchPage(0) returns no page. Second,
with pool_size 3 and a FetchPage(0) made before the disk manager allocated id 0: page 0
is resident and pinned, its bytes are set to [7], UnpinPage(0, true) is called, NewPage
erases key 0, and FetchPage(0) returns a page whose bytes are [9]. -/
theorem dirty_roundtrip_fails :
    (ReachableAllocated ((BufferPoolManager.new 1 DiskManager.empty).step .NewPage) ∧
      ((BufferPoolManager.new 1 DiskManager.empty).step .NewPage).page_table_ 0 = some 0 ∧
      0 < ((((BufferPoolManager.new 1 DiskManager.empty).step .NewPage).pages_ 0).pin_count_) ∧
      (((BufferPoolManager.new 1 DiskManager.empty).step .NewPage).run
        [.WriteData 0 [7], .UnpinPage 0 true, .NewPage]).page_table_ 0 = none ∧
      (((BufferPoolManager.new 1 DiskManager.empty).step .NewPage).run
        [.WriteData 0 [7], .UnpinPage 0 true, .NewPage]).disk_manager_.pages_ 0 = [7] ∧
      ((((BufferPoolManager.new 1 DiskManager.empty).step .NewPage).run
        [.WriteData 0 [7], .UnpinPage 0 true, .NewPage]).FetchPageImpl 0).2 = none) ∧
    (Reachable ((BufferPoolManager.new 3 DiskManager.empty).run
        [.FetchPage 0, .WriteData 0 [9], .UnpinPage 0 true, .FetchPage 5, .UnpinPage 5 false,
          .NewPage]) ∧
      ((BufferPoolManager.new 3 DiskManager.empty).run
        [.FetchPage 0, .WriteData 0 [9], .UnpinPage 0 true, .FetchPage 5, .UnpinPage 5 false,
          .NewPage]).page_table_ 0 = some 0 ∧
      0 < (((BufferPoolManager.new 3 DiskManager.empty).run
        [.FetchPage 0, .WriteData 0 [9], .UnpinPage 0 true, .FetchPage 5, .UnpinPage 5 false,
          .NewPage]).pages_ 0).pin_count_ ∧
      ((BufferPoolManager.new 3 DiskManager.empty).run
        [.FetchPage 0, .WriteData 0 [9], .UnpinPage 0 true, .FetchPage 5, .UnpinPage 5 false,
          .NewPage, .WriteData 0 [7], .UnpinPage 0 true, .NewPage]).page_table_ 0 = none ∧
      (((BufferPoolManager.new 3 DiskManager.empty).run
        [.FetchPage 0, .WriteData 0 [9], .UnpinPage 0 true, .FetchPage 5, .UnpinPage 5 false,
          .NewPage, .WriteData 0 [7], .UnpinPage 0 true, .NewPage]).FetchPageImpl 0).2
        = some 1 ∧
      ((((BufferPoolManager.new 3 DiskManager.empty).run
        [.FetchPage 0, .WriteData 0 [9], .UnpinPage 0 true, .FetchPage 5, .UnpinPage 5 false,
          .NewPage, .WriteData 0 [7], .UnpinPage 0 true, .NewPage]).FetchPageImpl 0).1.pages_
        1).data_ = [9]) :=
  ⟨⟨ReachableAllocated_new_step 1 DiskManager.empty, by decide, by decide, by decide, by decide,
      by decide⟩,
    ⟨Reachable_of_run 3 DiskManager.empty _, by decide, by decide, by decide, by decide,
      by decide⟩⟩

/-- C2 (amended). In every state reachable by calls in which FetchPage is only asked for
allocated page ids, for every resident page p: after its bytes are set to d and
UnpinPage(p, true) is called, and after any further calls that ask FetchPage only for
allocated ids and neither delete p nor overwrite its bytes (so FetchPage/NewPage calls
for other pages may evict p), FetchPage(p) returns no page exactly when p is not
resident, the free list is empty and every frame is pinned, and any page it returns has
bytes equal to d. -/
theorem dirty_page_roundtrip (s : BufferPoolManager) (h : ReachableAllocated s)
    (p : page_id_t) (f : frame_id_t) (hres : s.page_table_ p = some f) (d : PageData)
    (ops : List Op)
    (hops : sparingRun p ((s.WriteData p d).UnpinPageImpl p true).1 ops) :
    (∀ g : frame_id_t,
      (((((s.WriteData p d).UnpinPageImpl p true).1).run ops).FetchPageImpl p).2 = some g →
      ((((((s.WriteData p d).UnpinPageImpl p true).1).run ops).FetchPageImpl p).1.pages_
        g).data_ = d) ∧
    ((((((s.WriteData p d).UnpinPageImpl p true).1).run ops).FetchPageImpl p).2 = none ↔
      ((((s.WriteData p d).UnpinPageImpl p true).1).run ops).page_table_ p = none ∧
      ((((s.WriteData p d).UnpinPageImpl p true).1).run ops).free_list_ = [] ∧
      ∀ g : frame_id_t, 0 ≤ g →
        g < ((((s.WriteData p d).UnpinPageImpl p true).1).run ops).pool_size_ →
        0 < ((((((s.WriteData p d).UnpinPageImpl p true).1).run ops).pages_ g).pin_count_)) := by
  have hi := InvAlloc_of_reachable s h
  have h1 : InvAlloc (s.WriteData p d) := InvAlloc_step s (.WriteData p d) hi trivial
  have h2 : InvAlloc ((s.WriteData p d).UnpinPageImpl p true).1 :=
    InvAlloc_step _ (.UnpinPage p true) h1 trivial
  have hs2 : Saved ((s.WriteData p d).UnpinPageImpl p true).1 p d := by
    have e1 : (s.WriteData p d).page_table_ p = some f := by
      simp [BufferPoolManager.WriteData, hres]
    refine ⟨?_, ?_, ?_⟩
    · simpa [BufferPoolManager.UnpinPageImpl, BufferPoolManager.WriteData, hres]
        using hi.below p f hres
    · intro g hg
      simp only [BufferPoolManager.UnpinPageImpl, BufferPoolManager.WriteData, hres] at hg ⊢
      cases hg
      simp [setAt]
    · intro hn
      simp [BufferPoolManager.UnpinPageImpl, BufferPoolManager.WriteData, hres] at hn
  obtain ⟨h3, hs3⟩ := Saved_run p d ops _ h2 hs2 hops
  exact Saved_fetch _ p d h3 hs3

theorem dirty_page_roundtrip_witness :
    ReachableAllocated ((BufferPoolManager.new 2 DiskManager.empty).step .NewPage) ∧
    ((BufferPoolManager.new 2 DiskManager.empty).step .NewPage).page_table_ 0 = some 1 ∧
    sparingRun 0 ((((BufferPoolManager.new 2 DiskManager.empty).step .NewPage).WriteData 0
      [7]).UnpinPageImpl 0 true).1 [.NewPage, .NewPage, .UnpinPage 1 false] ∧
    ((((((((BufferPoolManager.new 2 DiskManager.empty).step .NewPage).WriteData 0
      [7]).UnpinPageImpl 0 true).1).run
        [.NewPage, .NewPage, .UnpinPage 1 false]).FetchPageImpl 0).1.pages_ 0).data_ = [7] :=
  ⟨ReachableAllocated_new_step 2 DiskManager.empty, by decide,
    by simp [sparingRun, Op.allocated, Op.spares],
    (dirty_page_roundtrip _ (ReachableAllocated_new_step 2 DiskManager.empty) 0 1 (by decide)
      [7] [.NewPage, .NewPage, .UnpinPage 1 false]
      (by simp [sparingRun, Op.allocated, Op.spares])).1 0 (by decide)⟩

/-- C9 (refuted as stated). First, with pool_size 1: page 0 is resident, FlushPage(0)
returns true, then UnpinPage(0) and NewPage evict it; the frame is pinned by the new
page, so the later FetchPage(0) returns no page. Second, with pool_size 3 and a
FetchPage(0) made before the disk manager allocated id 0: page 0 is resident with bytes
[7], FlushPage(0) returns true, UnpinPage(0) and NewPage follow, and the later FetchPage(0)
returns a page whose bytes are [9]. -/
theorem flush_then_fetch_fails :
    (ReachableAllocated ((BufferPoolManager.new 1 DiskManager.empty).step .NewPage) ∧
      ((BufferPoolManager.new 1 DiskManager.empty).step .NewPage).page_table_ 0 = some 0 ∧
      (((BufferPoolManager.new 1 DiskManager.empty).step .NewPage).FlushPageImpl 0).2 = true ∧
      ((((BufferPoolManager.new 1 DiskManager.empty).step .NewPage).run
        [.FlushPage 0, .UnpinPage 0 false, .NewPage]).FetchPageImpl 0).2 = none) ∧
    (Reachable ((BufferPoolManager.new 3 DiskManager.empty).run
        [.FetchPage 0, .WriteData 0 [9], .UnpinPage 0 true, .FetchPage 5, .UnpinPage 5 false,
          .NewPage, .WriteData 0 [7]]) ∧
      ((BufferPoolManager.new 3 DiskManager.empty).run
        [.FetchPage 0, .WriteData 0 [9], .UnpinPage 0 true, .FetchPage 5, .UnpinPage 5 false,
          .NewPage, .WriteData 0 [7]]).page_table_ 0 = some 0 ∧
      (((BufferPoolManager.new 3 DiskManager.empty).run
        [.FetchPage 0, .WriteData 0 [9], .UnpinPage 0 true, .FetchPage 5, .UnpinPage 5 false,
          .NewPage, .WriteData 0 [7]]).pages_ 0).data_ = [7] ∧
      (((BufferPoolManager.new 3 DiskManager.empty).run
        [.FetchPage 0, .WriteData 0 [9], .UnpinPage 0 true, .FetchPage 5, .UnpinPage 5 false,
          .NewPage, .WriteData 0 [7]]).FlushPageImpl 0).2 = true ∧
      (((BufferPoolManager.new 3 DiskManager.empty).run
        [.FetchPage 0, .WriteData 0 [9], .UnpinPage 0 true, .FetchPage 5, .UnpinPage 5 false,
          .NewPage, .WriteData 0 [7], .FlushPage 0, .UnpinPage 0 false,
          .NewPage]).FetchPageImpl 0).2 = some 1 ∧
      ((((BufferPoolManager.new 3 DiskManager.empty).run
        [.FetchPage 0, .WriteData 0 [9], .UnpinPage 0 true, .FetchPage 5, .UnpinPage 5 false,
          .NewPage, .WriteData 0 [7], .FlushPage 0, .UnpinPage 0 false,
          .NewPage]).FetchPageImpl 0).1.pages_ 1).data_ = [9]) :=
  ⟨⟨ReachableAllocated_new_step 1 DiskManager.empty, by decide, by decide, by decide⟩,
    ⟨Reachable_of_run 3 DiskManager.empty _, by decide, by decide, by decide, by decide,
      by decide⟩⟩

/-- C9 (amended). FlushPage(p) on a resident page returns true, makes the disk content of
p equal to the page's bytes, clears is_dirty and leaves pin count, bytes, page id, the
other frames, the other disk pages, page table, free list and replacer unchanged; when
the state is reachable by calls in which FetchPage is only asked for allocated page ids,
then after any further such calls that neither delete p nor overwrite its bytes,
FetchPage(p) returns no page exactly when p is not resident, the free list is empty and
every frame is pinned, and any page it returns has the flushed bytes. On a page that is
not resident FlushPage returns false and changes nothing (no write). -/
theorem FlushPage_effect (s : BufferPoolManager) (p : page_id_t) :
    (∀ f : frame_id_t, s.page_table_ p = some f →
      (s.FlushPageImpl p).2 = true ∧
      (s.FlushPageImpl p).1.disk_manager_.pages_ p = (s.pages_ f).data_ ∧
      ((s.FlushPageImpl p).1.pages_ f).is_dirty_ = false ∧
      ((s.FlushPageImpl p).1.pages_ f).pin_count_ = (s.pages_ f).pin_count_ ∧
      ((s.FlushPageImpl p).1.pages_ f).data_ = (s.pages_ f).data_ ∧
      ((s.FlushPageImpl p).1.pages_ f).page_id_ = (s.pages_ f).page_id_ ∧
      (∀ g : frame_id_t, g ≠ f → (s.FlushPageImpl p).1.pages_ g = s.pages_ g) ∧
      (∀ q : page_id_t, q ≠ p →
        (s.FlushPageImpl p).1.disk_manager_.pages_ q = s.disk_manager_.pages_ q) ∧
      (s.FlushPageImpl p).1.page_table_ = s.page_table_ ∧
      (s.FlushPageImpl p).1.free_list_ = s.free_list_ ∧
      (s.FlushPageImpl p).1.replacer_ = s.replacer_ ∧
      (s.FlushPageImpl p).1.pool_size_ = s.pool_size_ ∧
      (ReachableAllocated s → ∀ ops : List Op, sparingRun p (s.FlushPageImpl p).1 ops →
        (∀ g : frame_id_t,
          ((((s.FlushPageImpl p).1).run ops).FetchPageImpl p).2 = some g →
          (((((s.FlushPageImpl p).1).run ops).FetchPageImpl p).1.pages_ g).data_
            = (s.pages_ f).data_) ∧
        (((((s.FlushPageImpl p).1).run ops).FetchPageImpl p).2 = none ↔
          (((s.FlushPageImpl p).1).run ops).page_table_ p = none ∧
          (((s.FlushPageImpl p).1).run ops).free_list_ = [] ∧
          ∀ g : frame_id_t, 0 ≤ g → g < (((s.FlushPageImpl p).1).run ops).pool_size_ →
            0 < (((((s.FlushPageImpl p).1).run ops).pages_ g).pin_count_)))) ∧
    (s.page_table_ p = none → s.FlushPageImpl p = (s, false)) := by
  constructor
  · intro f hf
    have hfl : s.FlushPageImpl p =
        ({ s with pages_ := setAt s.pages_ f { (s.pages_ f) with is_dirty_ := false }
                  disk_manager_ := s.disk_manager_.WritePage p (s.pages_ f).data_ }, true) := by
      simp [BufferPoolManager.FlushPageImpl, hf]
    refine ⟨by rw [hfl], by simp [hfl, DiskManager.WritePage, setAt], by simp [hfl, setAt],
      by simp [hfl, setAt], by simp [hfl, setAt], by simp [hfl, setAt], ?_, ?_, by rw [hfl],
      by rw [hfl], by rw [hfl], by rw [hfl], ?_⟩
    · intro g hg
      simp [hfl, setAt, hg]
    · intro q hq
      simp [hfl, DiskManager.WritePage, setAt, hq]
    · intro hr ops hops
      have hi := InvAlloc_of_reachable s hr
      have h2 : InvAlloc (s.FlushPageImpl p).1 := InvAlloc_step s (.FlushPage p) hi trivial
      have hs2 : Saved (s.FlushPageImpl p).1 p (s.pages_ f).data_ := by
        rw [hfl]
        refine ⟨hi.below p f hf, ?_, ?_⟩
        · intro g hg
          have hg' : s.page_table_ p = some g := hg
          rw [hf] at hg'
          cases hg'
          simp [DiskManager.WritePage, setAt]
        · intro hn
          have hn' : s.page_table_ p = none := hn
          rw [hf] at hn'
          cases hn'
      obtain ⟨h3, hs3⟩ := Saved_run p _ ops _ h2 hs2 hops
      exact Saved_fetch _ p _ h3 hs3
  · intro hn
    simp [BufferPoolManager.FlushPageImpl, hn]

theorem FlushPage_effect_witness :
    ((BufferPoolManager.new 2 DiskManager.empty).step .NewPage).page_table_ 0 = some 1 ∧
    ReachableAllocated ((BufferPoolManager.new 2 DiskManager.empty).step .NewPage) ∧
    sparingRun 0 (((BufferPoolManager.new 2 DiskManager.empty).step .NewPage).FlushPageImpl 0).1
      [.UnpinPage 0 false, .NewPage, .NewPage, .UnpinPage 1 false] ∧
    ((((((BufferPoolManager.new 2 DiskManager.empty).step .NewPage).FlushPageImpl 0).1.run
      [.UnpinPage 0 false, .NewPage, .NewPage, .UnpinPage 1 false]).FetchPageImpl 0).1.pages_ 0).data_ =
        (((BufferPoolManager.new 2 DiskManager.empty).step .NewPage).pages_ 1).data_ :=
  ⟨by decide, ReachableAllocated_new_step 2 DiskManager.empty,
    by simp [sparingRun, Op.allocated, Op.spares],
    (((FlushPage_effect ((BufferPoolManager.new 2 DiskManager.empty).step .NewPage) 0).1 1
      (by decide)).2.2.2.2.2.2.2.2.2.2.2.2
        (ReachableAllocated_new_step 2 DiskManager.empty)
        [.UnpinPage 0 false, .NewPage, .NewPage, .UnpinPage 1 false]
        (by simp [sparingRun, Op.allocated, Op.spares])).1 0 (by decide)⟩

/-! ## The replacer under all three calls -/

theorem Dated_new (K : Nat) : Dated (LRUReplacer.new K) Stamps.new :=
  ⟨WF_new K, by simp [LRUReplacer.new], by simp [Stamps.new], by simp [LRUReplacer.new]⟩

theorem Dated_tick (r : LRUReplacer) (s : Stamps) (h : Dated r s) :
    Dated r { s with clock := s.clock + 1 } :=
  ⟨h.wf, h.has, fun f t hf => Nat.le_succ_of_le (h.bound f t hf), h.order⟩

theorem WF_Victim (r : LRUReplacer) (h : r.WF) : r.Victim.1.WF := by
  rcases List.eq_nil_or_concat r.lru with hl | ⟨l, x, hl⟩
  · have hn : r.num_pages_ = 0 := by rw [h.size_eq, hl]; rfl
    rw [Victim_nil r hn]; exact h
  · have hl2 : r.lru = l ++ [x] := by simpa using hl
    rw [Victim_snoc r l x h.size_eq hl2]
    have hnd : (l ++ [x]).Nodup := hl2 ▸ h.nodup
    have hx : x ∉ l := by
      intro hm
      have := List.nodup_append.1 hnd
      exact this.2.2 hm (by simp)
    refine ⟨(List.nodup_append.1 hnd).1, ?_, by simp [h.size_eq, hl2]⟩
    intro g
    by_cases hg : g = x
    · simp [hg, setAt, hx]
    · simp [hg, setAt, h.mp_iff g, hl2]

theorem Victim_sublist (r : LRUReplacer) : r.Victim.1.lru.Sublist r.lru := by
  unfold LRUReplacer.Victim
  split
  · split
    · exact List.dropLast_sublist _
    · exact List.Sublist.refl _
  · exact List.Sublist.refl _

theorem Victim_max (r : LRUReplacer) : r.Victim.1.max_num_pages_ = r.max_num_pages_ := by
  unfold LRUReplacer.Victim
  split
  · split <;> rfl
  · rfl

theorem Dated_Victim (r : LRUReplacer) (s : Stamps) (h : Dated r s) : Dated r.Victim.1 s := by
  have hw := WF_Victim r h.wf
  refine ⟨hw, ?_, h.bound, h.order.sublist (Victim_sublist r)⟩
  intro f hf
  exact h.has f ((h.wf.mp_iff f).2 ((Victim_sublist r).subset ((hw.mp_iff f).1 hf)))

theorem WF_Pin (r : LRUReplacer) (f : frame_id_t) (h : r.WF) : (r.Pin f).WF := by
  by_cases hf : r.mp f = true
  · have hmem : ∀ g, g ∈ r.lru.erase f ↔ g ≠ f ∧ g ∈ r.lru := fun g => h.nodup.mem_erase_iff
    rw [Pin_tracked r f hf]
    refine ⟨h.nodup.erase f, ?_, ?_⟩
    · intro g
      rw [hmem]
      by_cases hg : g = f
      · simp [hg, setAt]
      · simp [hg, setAt, h.mp_iff g]
    · have : f ∈ r.lru := (h.mp_iff f).1 hf
      simp [h.size_eq, List.length_erase_of_mem this]
  · rw [Pin_untracked r f (by simpa using hf)]; exact h

theorem Pin_sublist (r : LRUReplacer) (f : frame_id_t) : (r.Pin f).lru.Sublist r.lru := by
  unfold LRUReplacer.Pin
  split
  · exact List.erase_sublist _ _
  · exact List.Sublist.refl _

theorem Dated_Pin (r : LRUReplacer) (s : Stamps) (f : frame_id_t) (h : Dated r s) :
    Dated (r.Pin f) s := by
  have hw := WF_Pin r f h.wf
  refine ⟨hw, ?_, h.bound, h.order.sublist (Pin_sublist r f)⟩
  intro g hg
  exact h.has g ((h.wf.mp_iff g).2 ((Pin_sublist r f).subset ((hw.mp_iff g).1 hg)))

theorem Victim_mp_false (r : LRUReplacer) (f : frame_id_t) (hf : r.mp f = false) :
    r.Victim.1.mp f = false := by
  unfold LRUReplacer.Victim
  split
  · split
    · simp only [setAt]
      split <;> simp [hf]
    · exact hf
  · exact hf

/-- The two steps of `Unpin` on an untracked frame. -/
theorem Unpin_untracked (r : LRUReplacer) (f : frame_id_t) (hf : r.mp f = false) :
    r.Unpin f =
      { (if r.num_pages_ = r.max_num_pages_ then r.Victim.1 else r) with
        lru := f :: (if r.num_pages_ = r.max_num_pages_ then r.Victim.1 else r).lru,
        mp := setAt (if r.num_pages_ = r.max_num_pages_ then r.Victim.1 else r).mp f true,
        num_pages_ := (if r.num_pages_ = r.max_num_pages_ then r.Victim.1 else r).num_pages_ + 1 } := by
  simp [LRUReplacer.Unpin, hf]

theorem WF_Unpin (r : LRUReplacer) (f : frame_id_t) (h : r.WF) : (r.Unpin f).WF := by
  by_cases hf : r.mp f = true
  · rw [Unpin_tracked r f hf]; exact h
  · have hf2 : r.mp f = false := by simpa using hf
    have key : ∀ r1 : LRUReplacer, r1.WF → r1.mp f = false →
        LRUReplacer.WF { r1 with lru := f :: r1.lru, mp := setAt r1.mp f true,
                                 num_pages_ := r1.num_pages_ + 1 } := by
      intro r1 h1 hf1
      have hnot : f ∉ r1.lru := fun hm => by
        have := (h1.mp_iff f).2 hm
        rw [hf1] at this
        exact absurd this (by decide)
      refine ⟨List.nodup_cons.2 ⟨hnot, h1.nodup⟩, ?_, by simp [h1.size_eq]⟩
      intro g
      by_cases hg : g = f
      · simp [hg, setAt]
      · simp [hg, setAt, h1.mp_iff g]
    rw [Unpin_untracked r f hf2]
    by_cases hc : r.num_pages_ = r.max_num_pages_
    · simp only [hc, if_true]
      exact key _ (WF_Victim r h) (Victim_mp_false r f hf2)
    · simp only [hc, if_false]
      exact key r h hf2

theorem WF_apply (r : LRUReplacer) (op : LRUOp) (h : r.WF) : (r.apply op).WF := by
  cases op with
  | Victim => exact WF_Victim r h
  | Pin f => exact WF_Pin r f h
  | Unpin f => exact WF_Unpin r f h

/-- Inserting an untracked frame at the head of the list with the next time stamp. -/
theorem Dated_insert (r : LRUReplacer) (s : Stamps) (f : frame_id_t) (h : Dated r s)
    (hf : r.mp f = false) :
    Dated { r with lru := f :: r.lru, mp := setAt r.mp f true, num_pages_ := r.num_pages_ + 1 }
      { clock := s.clock + 1, stamp := setAt s.stamp f (some (s.clock + 1)) } := by
  have hnot : f ∉ r.lru := fun hm => by
    have := (h.wf.mp_iff f).2 hm
    rw [hf] at this
    exact absurd this (by decide)
  refine ⟨⟨List.nodup_cons.2 ⟨hnot, h.wf.nodup⟩, ?_, by simp [h.wf.size_eq]⟩, ?_, ?_, ?_⟩
  · intro g
    by_cases hg : g = f
    · simp [hg, setAt]
    · simp [hg, setAt, h.wf.mp_iff g]
  · intro g hg
    by_cases hgf : g = f
    · simp [hgf, setAt]
    · simp only [setAt, hgf, if_false] at hg ⊢
      exact h.has g hg
  · intro g t hg
    by_cases hgf : g = f
    · subst hgf
      simp only [setAt, if_true, Option.some.injEq] at hg
      exact Nat.le_of_eq hg.symm
    · simp only [setAt, hgf, if_false] at hg
      exact Nat.le_succ_of_le (h.bound g t hg)
  · refine List.pairwise_cons.2 ⟨?_, ?_⟩
    · intro a ha
      have haf : a ≠ f := fun e => hnot (e ▸ ha)
      obtain ⟨ta, hta⟩ := Option.isSome_iff_exists.1 (h.has a ((h.wf.mp_iff a).2 ha))
      exact ⟨ta, s.clock + 1, by simp [setAt, haf, hta], by simp [setAt],
        Nat.lt_succ_of_le (h.bound a ta hta)⟩
    · refine List.Pairwise.imp_of_mem ?_ h.order
      intro a b ha hb hab
      obtain ⟨ta, tb, h1, h2, h3⟩ := hab
      have haf : a ≠ f := fun e => hnot (e ▸ ha)
      have hbf : b ≠ f := fun e => hnot (e ▸ hb)
      exact ⟨ta, tb, by simp [setAt, hbf, h1], by simp [setAt, haf, h2], h3⟩

theorem Dated_apply (r : LRUReplacer) (s : Stamps) (op : LRUOp) (h : Dated r s) :
    Dated (r.apply op) (s.apply r op) := by
  cases op with
  | Victim => exact Dated_tick _ _ (Dated_Victim r s h)
  | Pin f => exact Dated_tick _ _ (Dated_Pin r s f h)
  | Unpin f =>
    by_cases hf : r.mp f = true
    · simp only [LRUReplacer.apply, Stamps.apply, Unpin_tracked r f hf, hf, if_true]
      exact Dated_tick _ _ h
    · have hf2 : r.mp f = false := by simpa using hf
      simp only [LRUReplacer.apply, Stamps.apply, Unpin_untracked r f hf2, hf2]
      by_cases hc : r.num_pages_ = r.max_num_pages_
      · simp only [hc, if_true]
        exact Dated_insert _ s f (Dated_Victim r s h) (Victim_mp_false r f hf2)
      · simp only [hc, if_false]
        exact Dated_insert r s f h hf2

theorem Dated_applyAll (ops : List LRUOp) : ∀ (r : LRUReplacer) (s : Stamps), Dated r s →
    Dated (r.applyAll ops) (Stamps.applyAll r s ops) := by
  induction ops with
  | nil => intro r s h; exact h
  | cons op ops ih =>
    intro r s h
    simp only [LRUReplacer.applyAll, List.foldl_cons, Stamps.applyAll]
    exact ih _ _ (Dated_apply r s op h)

theorem apply_max (r : LRUReplacer) (op : LRUOp) :
    (r.apply op).max_num_pages_ = r.max_num_pages_ := by
  cases op with
  | Victim => exact Victim_max r
  | Pin f =>
    simp only [LRUReplacer.apply, LRUReplacer.Pin]
    split <;> rfl
  | Unpin f =>
    simp only [LRUReplacer.apply, LRUReplacer.Unpin]
    split
    · rfl
    · simp only
      split
      · exact Victim_max r
      · rfl

theorem applyAll_max (ops : List LRUOp) : ∀ r : LRUReplacer,
    (r.applyAll ops).max_num_pages_ = r.max_num_pages_ := by
  induction ops with
  | nil => intro r; rfl
  | cons op ops ih =>
    intro r
    simp only [LRUReplacer.applyAll, List.foldl_cons]
    exact (ih (r.apply op)).trans (apply_max r op)

theorem Victim_size (r : LRUReplacer) (h : r.WF) :
    r.Victim.1.num_pages_ = r.num_pages_ - 1 := by
  rcases List.eq_nil_or_concat r.lru with hl | ⟨l, x, hl⟩
  · have hn : r.num_pages_ = 0 := by rw [h.size_eq, hl]; rfl
    rw [Victim_nil r hn, hn]
  · have hl2 : r.lru = l ++ [x] := by simpa using hl
    rw [Victim_snoc r l x h.size_eq hl2]

/-- With a capacity of at least one frame, no call makes `Size()` exceed the capacity. -/
theorem Size_le_apply (r : LRUReplacer) (op : LRUOp) (h : r.WF) (hk : 1 ≤ r.max_num_pages_)
    (hs : r.num_pages_ ≤ r.max_num_pages_) :
    (r.apply op).num_pages_ ≤ (r.apply op).max_num_pages_ := by
  rw [apply_max]
  cases op with
  | Victim =>
    simp only [LRUReplacer.apply, Victim_size r h]
    omega
  | Pin f =>
    simp only [LRUReplacer.apply, LRUReplacer.Pin]
    split
    · simp only; omega
    · exact hs
  | Unpin f =>
    by_cases hf : r.mp f = true
    · simp only [LRUReplacer.apply, Unpin_tracked r f hf]; exact hs
    · have hf2 : r.mp f = false := by simpa using hf
      simp only [LRUReplacer.apply, Unpin_untracked r f hf2]
      by_cases hc : r.num_pages_ = r.max_num_pages_
      · simp only [hc, if_true]
        have := Victim_size r h
        omega
      · simp only [hc, if_false]
        omega

theorem Size_le_applyAll (ops : List LRUOp) : ∀ r : LRUReplacer, r.WF →
    1 ≤ r.max_num_pages_ → r.num_pages_ ≤ r.max_num_pages_ →
    (r.applyAll ops).num_pages_ ≤ (r.applyAll ops).max_num_pages_ := by
  induction ops with
  | nil => intro r _ _ hs; exact hs
  | cons op ops ih =>
    intro r h hk hs
    simp only [LRUReplacer.applyAll, List.foldl_cons]
    exact ih _ (WF_apply r op h) (by rw [apply_max]; exact hk) (Size_le_apply r op h hk hs)

/-- C11. In every state `r` of a replacer reached from `LRUReplacer(K)` by Victim, Pin and
Unpin calls: `Size() = 0` holds exactly when no frame is tracked, and then Victim returns
false and leaves the state as it is; when `Size() ≠ 0` the list is `l ++ [x]`, Victim
returns true with `x`, which is tracked and was inserted before every other tracked frame,
afterwards `x` is not tracked, every other frame is tracked as before, `Size()` is one
less and the list is `l`, the other frames in their former order. -/
theorem LRUReplacer_Victim_effect (K : Nat) (ops : List LRUOp) :
    (((LRUReplacer.new K).applyAll ops).Size = 0 ↔
      ∀ f, ((LRUReplacer.new K).applyAll ops).mp f = false) ∧
    (((LRUReplacer.new K).applyAll ops).Size = 0 →
      ((LRUReplacer.new K).applyAll ops).Victim = ((LRUReplacer.new K).applyAll ops, none)) ∧
    (((LRUReplacer.new K).applyAll ops).Size ≠ 0 →
      ∃ x l, ((LRUReplacer.new K).applyAll ops).lru = l ++ [x] ∧
        ((LRUReplacer.new K).applyAll ops).Victim.2 = some x ∧
        ((LRUReplacer.new K).applyAll ops).mp x = true ∧
        (∀ y, ((LRUReplacer.new K).applyAll ops).mp y = true → y ≠ x →
          (Stamps.applyAll (LRUReplacer.new K) Stamps.new ops).before x y) ∧
        ((LRUReplacer.new K).applyAll ops).Victim.1.mp x = false ∧
        x ∉ ((LRUReplacer.new K).applyAll ops).Victim.1.lru ∧
        (∀ y, y ≠ x → ((LRUReplacer.new K).applyAll ops).Victim.1.mp y =
          ((LRUReplacer.new K).applyAll ops).mp y) ∧
        ((LRUReplacer.new K).applyAll ops).Victim.1.Size + 1 =
          ((LRUReplacer.new K).applyAll ops).Size ∧
        ((LRUReplacer.new K).applyAll ops).Victim.1.lru = l ∧
        ((LRUReplacer.new K).applyAll ops).Victim.1.lru =
          ((LRUReplacer.new K).applyAll ops).lru.filter (fun y => decide (y ≠ x))) := by
  have h := Dated_applyAll ops _ _ (Dated_new K)
  generalize (LRUReplacer.new K).applyAll ops = r at h
  generalize Stamps.applyAll (LRUReplacer.new K) Stamps.new ops = s at h
  refine ⟨?_, ?_, ?_⟩
  · constructor
    · intro h0 f
      have hl : r.lru = [] := List.length_eq_zero.1 (h.wf.size_eq ▸ h0)
      cases hf : r.mp f with
      | false => rfl
      | true =>
        have := (h.wf.mp_iff f).1 hf
        rw [hl] at this
        exact absurd this (by simp)
    · intro hall
      rcases List.eq_nil_or_concat r.lru with hl | ⟨l, x, hl⟩
      · simp [LRUReplacer.Size, h.wf.size_eq, hl]
      · have hx : r.mp x = true := (h.wf.mp_iff x).2 (by rw [hl]; simp)
        rw [hall x] at hx
        exact absurd hx (by decide)
  · intro h0
    exact Victim_nil r h0
  · intro h0
    rcases List.eq_nil_or_concat r.lru with hl | ⟨l, x, hl⟩
    · exact absurd (by simp [LRUReplacer.Size, h.wf.size_eq, hl]) h0
    · have hl2 : r.lru = l ++ [x] := by simpa using hl
      have hnd : (l ++ [x]).Nodup := hl2 ▸ h.wf.nodup
      have hx : x ∉ l := fun hm => (List.nodup_append.1 hnd).2.2 hm (by simp)
      have hord : (l ++ [x]).Pairwise (fun a b => s.before b a) := hl2 ▸ h.order
      refine ⟨x, l, hl2, ?_, (h.wf.mp_iff x).2 (by rw [hl2]; simp), ?_, ?_, ?_, ?_, ?_, ?_, ?_⟩
      · rw [Victim_snoc r l x h.wf.size_eq hl2]
      · intro y hy hyx
        have hm : y ∈ l ++ [x] := hl2 ▸ (h.wf.mp_iff y).1 hy
        have hyl : y ∈ l := by
          rcases List.mem_append.1 hm with h1 | h1
          · exact h1
          · exact absurd (by simpa using h1) hyx
        exact (List.pairwise_append.1 hord).2.2 y hyl x (by simp)
      · rw [Victim_snoc r l x h.wf.size_eq hl2]
        simp [setAt]
      · rw [Victim_snoc r l x h.wf.size_eq hl2]
        exact hx
      · intro y hyx
        rw [Victim_snoc r l x h.wf.size_eq hl2]
        simp [setAt, hyx]
      · rw [Victim_snoc r l x h.wf.size_eq hl2]
        simp only [LRUReplacer.Size] at h0 ⊢
        omega
      · rw [Victim_snoc r l x h.wf.size_eq hl2]
      · rw [Victim_snoc r l x h.wf.size_eq hl2, hl2]
        simp only [List.filter_append]
        have : List.filter (fun y => decide (y ≠ x)) l = l :=
          List.filter_eq_self.2 (fun a ha => by
            have : a ≠ x := fun e => hx (e ▸ ha)
            simpa using this)
        rw [this]
        simp

theorem LRUReplacer_Victim_effect_witness :
    ((LRUReplacer.new 2).applyAll [.Unpin 5, .Unpin 3, .Victim]).Size ≠ 0 ∧
    ∃ x l, ((LRUReplacer.new 2).applyAll [.Unpin 5, .Unpin 3, .Victim]).lru = l ++ [x] ∧
      ((LRUReplacer.new 2).applyAll [.Unpin 5, .Unpin 3, .Victim]).Victim.2 = some x ∧
      ((LRUReplacer.new 2).applyAll [.Unpin 5, .Unpin 3, .Victim]).Victim.1.Size + 1 =
        ((LRUReplacer.new 2).applyAll [.Unpin 5, .Unpin 3, .Victim]).Size :=
  ⟨by decide,
    match (LRUReplacer_Victim_effect 2 [.Unpin 5, .Unpin 3, .Victim]).2.2 (by decide) with
    | ⟨x, l, h1, h2, _, _, _, _, _, h3, _⟩ => ⟨x, l, h1, h2, h3⟩⟩

/-- C12 (as stated, refuted at capacity 0). On `LRUReplacer(0)` frame 1 is not tracked and
`Size() = 0 = K`; `Unpin(1)` finds no frame to drop, inserts frame 1, and `Size()` is 1,
not `K`. -/
theorem Unpin_at_zero_capacity :
    (LRUReplacer.new 0).mp 1 = false ∧
    (LRUReplacer.new 0).Size = 0 ∧
    (LRUReplacer.new 0).max_num_pages_ = 0 ∧
    ((LRUReplacer.new 0).Unpin 1).lru = [1] ∧
    ((LRUReplacer.new 0).Unpin 1).Size = 1 ∧
    ((LRUReplacer.new 0).Unpin 1).max_num_pages_ = 0 := by
  decide

/-- C12 (amended: capacity at least 1). In every state `r` of a replacer reached from
`LRUReplacer(K)` by Victim, Pin and Unpin calls: `Unpin(f)` of a tracked frame leaves the state as it is;
`Unpin(f)` of an untracked frame with `Size() < K` puts `f` at the head of the list
(the most recently used end), tracks it and adds one to `Size()`; `Unpin(f)` of an
untracked frame with `Size() = K` and `K ≥ 1` drops the last frame `x` of the list (the
one Victim would return) and then puts `f` at the head, so `Size()` stays `K`; with
`K = 0` and `Size() = 0` nothing is dropped, `f` is inserted and `Size()` becomes 1. -/
theorem LRUReplacer_Unpin_effect (K : Nat) (ops : List LRUOp) (f : frame_id_t) :
    (((LRUReplacer.new K).applyAll ops).mp f = true →
      ((LRUReplacer.new K).applyAll ops).Unpin f = (LRUReplacer.new K).applyAll ops) ∧
    (((LRUReplacer.new K).applyAll ops).mp f = false →
      ((LRUReplacer.new K).applyAll ops).Size < K →
      (((LRUReplacer.new K).applyAll ops).Unpin f).lru =
        f :: ((LRUReplacer.new K).applyAll ops).lru ∧
      (((LRUReplacer.new K).applyAll ops).Unpin f).mp =
        setAt ((LRUReplacer.new K).applyAll ops).mp f true ∧
      (((LRUReplacer.new K).applyAll ops).Unpin f).Size =
        ((LRUReplacer.new K).applyAll ops).Size + 1) ∧
    (((LRUReplacer.new K).applyAll ops).mp f = false →
      ((LRUReplacer.new K).applyAll ops).Size = K → 1 ≤ K →
      ∃ x l, ((LRUReplacer.new K).applyAll ops).lru = l ++ [x] ∧
        ((LRUReplacer.new K).applyAll ops).Victim.2 = some x ∧ x ≠ f ∧
        (((LRUReplacer.new K).applyAll ops).Unpin f).lru = f :: l ∧
        (((LRUReplacer.new K).applyAll ops).Unpin f).mp =
          setAt (setAt ((LRUReplacer.new K).applyAll ops).mp x false) f true ∧
        (((LRUReplacer.new K).applyAll ops).Unpin f).Size = K) ∧
    (((LRUReplacer.new K).applyAll ops).mp f = false →
      ((LRUReplacer.new K).applyAll ops).Size = K → K = 0 →
      (((LRUReplacer.new K).applyAll ops).Unpin f).lru = [f] ∧
      (((LRUReplacer.new K).applyAll ops).Unpin f).Size = 1) := by
  have h := (Dated_applyAll ops _ _ (Dated_new K)).wf
  have hmax : ((LRUReplacer.new K).applyAll ops).max_num_pages_ = K := applyAll_max ops _
  generalize (LRUReplacer.new K).applyAll ops = r at h hmax
  refine ⟨Unpin_tracked r f, ?_, ?_, ?_⟩
  · intro hf hlt
    have hc : r.num_pages_ ≠ r.max_num_pages_ := by
      simp only [LRUReplacer.Size] at hlt
      omega
    rw [Unpin_fresh r f hf hc]
    exact ⟨rfl, rfl, rfl⟩
  · intro hf hsz hk
    simp only [LRUReplacer.Size] at hsz
    rcases List.eq_nil_or_concat r.lru with hl | ⟨l, x, hl⟩
    · have : r.num_pages_ = 0 := by rw [h.size_eq, hl]; rfl
      omega
    · have hl2 : r.lru = l ++ [x] := by simpa using hl
      have hxf : x ≠ f := by
        intro e
        have : r.mp x = true := (h.mp_iff x).2 (by rw [hl2]; simp)
        rw [e, hf] at this
        exact absurd this (by decide)
      have hv := Victim_snoc r l x h.size_eq hl2
      have hlen : r.num_pages_ = l.length + 1 := by rw [h.size_eq, hl2]; simp
      refine ⟨x, l, hl2, by rw [hv], hxf, ?_, ?_, ?_⟩
      · rw [Unpin_untracked r f hf]
        simp [hsz, hmax, hv]
      · rw [Unpin_untracked r f hf]
        simp [hsz, hmax, hv]
      · rw [Unpin_untracked r f hf]
        simp only [hsz, hmax, if_true, hv, LRUReplacer.Size]
        omega
  · intro hf hsz hk
    simp only [LRUReplacer.Size] at hsz
    have hn : r.num_pages_ = 0 := by omega
    have hl : r.lru = [] := List.length_eq_zero.1 (h.size_eq ▸ hn)
    rw [Unpin_untracked r f hf]
    simp [hsz, hmax, Victim_nil r hn, hl, hn, LRUReplacer.Size, hk]

theorem LRUReplacer_Unpin_effect_witness :
    ((LRUReplacer.new 2).applyAll [.Unpin 5, .Unpin 3]).mp 7 = false ∧
    ((LRUReplacer.new 2).applyAll [.Unpin 5, .Unpin 3]).Size = 2 ∧
    ∃ x l, ((LRUReplacer.new 2).applyAll [.Unpin 5, .Unpin 3]).lru = l ++ [x] ∧
      (((LRUReplacer.new 2).applyAll [.Unpin 5, .Unpin 3]).Unpin 7).lru = 7 :: l ∧
      (((LRUReplacer.new 2).applyAll [.Unpin 5, .Unpin 3]).Unpin 7).Size = 2 :=
  ⟨by decide, by decide,
    match (LRUReplacer_Unpin_effect 2 [.Unpin 5, .Unpin 3] 7).2.2.1 (by decide) (by decide)
      (by decide) with
    | ⟨x, l, h1, _, _, h2, _, h3⟩ => ⟨x, l, h1, h2, h3⟩⟩

/-- C13. In every state `r` of a replacer reached from `LRUReplacer(K)` by Victim, Pin and
Unpin calls, after `Pin(f)` frame `f` is not tracked (neither in the map nor in the list),
every other frame is tracked as before, the list is the former list without `f` (the
other frames in their former order), `Size()` is one less when `f` was tracked, a second
`Pin(f)` changes nothing, and `Pin(f)` of an untracked frame leaves the state as it is. -/
theorem LRUReplacer_Pin_effect (K : Nat) (ops : List LRUOp) (f : frame_id_t) :
    (((LRUReplacer.new K).applyAll ops).Pin f).mp f = false ∧
    f ∉ (((LRUReplacer.new K).applyAll ops).Pin f).lru ∧
    (∀ g, g ≠ f → (((LRUReplacer.new K).applyAll ops).Pin f).mp g =
      ((LRUReplacer.new K).applyAll ops).mp g) ∧
    (((LRUReplacer.new K).applyAll ops).Pin f).lru =
      ((LRUReplacer.new K).applyAll ops).lru.filter (fun g => decide (g ≠ f)) ∧
    (((LRUReplacer.new K).applyAll ops).mp f = true →
      (((LRUReplacer.new K).applyAll ops).Pin f).Size + 1 =
        ((LRUReplacer.new K).applyAll ops).Size) ∧
    ((((LRUReplacer.new K).applyAll ops).Pin f).Pin f =
      ((LRUReplacer.new K).applyAll ops).Pin f) ∧
    (((LRUReplacer.new K).applyAll ops).mp f = false →
      ((LRUReplacer.new K).applyAll ops).Pin f = (LRUReplacer.new K).applyAll ops) := by
  have h := (Dated_applyAll ops _ _ (Dated_new K)).wf
  generalize (LRUReplacer.new K).applyAll ops = r at h
  have hw := WF_Pin r f h
  have h1 : (r.Pin f).mp f = false := by
    cases hf : r.mp f with
    | false => rw [Pin_untracked r f hf]; exact hf
    | true => rw [Pin_tracked r f hf]; simp [setAt]
  refine ⟨h1, ?_, ?_, ?_, ?_, Pin_untracked _ f h1, Pin_untracked r f⟩
  · intro hm
    have := (hw.mp_iff f).2 hm
    rw [h1] at this
    exact absurd this (by decide)
  · intro g hg
    cases hf : r.mp f with
    | false => rw [Pin_untracked r f hf]
    | true => rw [Pin_tracked r f hf]; simp [setAt, hg]
  · cases hf : r.mp f with
    | false =>
      rw [Pin_untracked r f hf]
      symm
      refine List.filter_eq_self.2 (fun a ha => ?_)
      have : a ≠ f := by
        intro e
        have := (h.mp_iff a).2 ha
        rw [e, hf] at this
        exact absurd this (by decide)
      simpa using this
    | true =>
      rw [Pin_tracked r f hf]
      simp only
      rw [h.nodup.erase_eq_filter f]
      congr 1
      funext g
      by_cases hg : g = f <;> simp [hg]
  · intro hf
    rw [Pin_tracked r f hf]
    have : f ∈ r.lru := (h.mp_iff f).1 hf
    have hpos : 0 < r.lru.length := List.length_pos_of_mem this
    simp only [LRUReplacer.Size, h.size_eq]
    omega

theorem LRUReplacer_Pin_effect_witness :
    ((LRUReplacer.new 3).applyAll [.Unpin 5, .Unpin 3, .Unpin 4]).mp 3 = true ∧
    (((LRUReplacer.new 3).applyAll [.Unpin 5, .Unpin 3, .Unpin 4]).Pin 3).Size + 1 =
      ((LRUReplacer.new 3).applyAll [.Unpin 5, .Unpin 3, .Unpin 4]).Size :=
  ⟨by decide, (LRUReplacer_Pin_effect 3 [.Unpin 5, .Unpin 3, .Unpin 4] 3).2.2.2.2.1 (by decide)⟩

/-- C14 (as stated, refuted at capacity 0). On `LRUReplacer(0)` the calls `Unpin(1)`,
`Unpin(2)` leave two tracked frames: `Size()` is 1 after the first call and 2 after the
second, above the capacity 0; no frame is there to be dropped when `Unpin(1)` is called. -/
theorem size_above_zero_capacity :
    (LRUReplacer.new 0).Size = 0 ∧
    ((LRUReplacer.new 0).applyAll [.Unpin 1]).lru = [1] ∧
    ((LRUReplacer.new 0).applyAll [.Unpin 1]).Size = 1 ∧
    ((LRUReplacer.new 0).applyAll [.Unpin 1, .Unpin 2]).lru = [2, 1] ∧
    ((LRUReplacer.new 0).applyAll [.Unpin 1, .Unpin 2]).Size = 2 ∧
    ¬ ((LRUReplacer.new 0).applyAll [.Unpin 1, .Unpin 2]).Size ≤ 0 := by
  decide

/-- C14 (amended: capacity at least 1). After every sequence of Victim, Pin and Unpin calls on
`LRUReplacer(K)` the list has no duplicate, the map holds exactly the frames of the list
and `Size()` is the length of the list; `Size() ≤ K` holds whenever `K ≥ 1`; on
`LRUReplacer(0)` the calls `Unpin(1)`, `Unpin(2)` leave `Size() = 2`, above the capacity. -/
theorem LRUReplacer_size_invariant (K : Nat) (ops : List LRUOp) :
    ((LRUReplacer.new K).applyAll ops).lru.Nodup ∧
    (∀ f, ((LRUReplacer.new K).applyAll ops).mp f = true ↔
      f ∈ ((LRUReplacer.new K).applyAll ops).lru) ∧
    ((LRUReplacer.new K).applyAll ops).Size = ((LRUReplacer.new K).applyAll ops).lru.length ∧
    (1 ≤ K → ((LRUReplacer.new K).applyAll ops).Size ≤ K) ∧
    ((LRUReplacer.new 0).applyAll [.Unpin 1]).Size = 1 ∧
    ((LRUReplacer.new 0).applyAll [.Unpin 1, .Unpin 2]).Size = 2 ∧
    ((LRUReplacer.new 0).applyAll [.Unpin 1, .Unpin 2]).max_num_pages_ = 0 := by
  have h := (Dated_applyAll ops _ _ (Dated_new K)).wf
  refine ⟨h.nodup, h.mp_iff, h.size_eq, ?_, by decide, by decide, by decide⟩
  intro hk
  have := Size_le_applyAll ops (LRUReplacer.new K) (WF_new K) hk (Nat.zero_le _)
  rw [applyAll_max] at this
  exact this

theorem LRUReplacer_size_invariant_witness :
    1 ≤ 2 ∧ ((LRUReplacer.new 2).applyAll [.Unpin 5, .Unpin 3, .Unpin 4, .Victim]).Size ≤ 2 :=
  ⟨by decide,
    (LRUReplacer_size_invariant 2 [.Unpin 5, .Unpin 3, .Unpin 4, .Victim]).2.2.2.1 (by decide)⟩

/-! ## B+ tree: lookups and duplicate inserts -/

theorem FreePagesLoop_nil (ps : List page_id_t) (t : BPlusTree) :
    BPlusTree.FreePagesLoop t [] ps = (t, []) := by
  induction ps with
  | nil => rfl
  | cons p ps ih => simp [BPlusTree.FreePagesLoop, ih]

theorem FreePages_some (t : BPlusTree) (w : Bool) (txn : Transaction) (cur : page_id_t)
    (h : txn.deleted_page_set = []) :
    t.FreePagesInTransaction w (some txn) cur =
      .ok (t, some { page_set := [], deleted_page_set := [] }) := by
  simp [BPlusTree.FreePagesInTransaction, h, FreePagesLoop_nil]

theorem FreePages_none (t t1 : BPlusTree) (w : Bool) (cur : page_id_t) (o : Option Transaction)
    (h : t.FreePagesInTransaction w none cur = .ok (t1, o)) : t1 = t ∧ o = none := by
  simp only [BPlusTree.FreePagesInTransaction] at h
  split at h
  · split at h
    · simp only [Except.ok.injEq, Prod.mk.injEq] at h
      exact ⟨h.1.symm, h.2.symm⟩
    · simp at h
  · simp at h

/-- A fetch made for an insert or a delete with a transaction that schedules no deletion
returns the stored page and leaves the tree as it is. -/
theorem Crabing_some (t : BPlusTree) (p prev : page_id_t) (op : Operate_Type)
    (txn : Transaction) (pg : BPlusTreePage) (hp : t.pages p = some pg)
    (htxn : txn.deleted_page_set = []) :
    ∃ txn1 : Transaction, txn1.deleted_page_set = [] ∧
      t.CrabingProtocalFetchPage p op prev (some txn) = .ok (t, some txn1, pg) := by
  have hf : t.FetchPage p = .ok pg := by simp [BPlusTree.FetchPage, hp]
  unfold BPlusTree.CrabingProtocalFetchPage
  simp only [bind, Except.bind, hf]
  split
  · rw [FreePages_some t _ txn prev htxn]
    simp only [hf]
    exact ⟨_, rfl, rfl⟩
  · exact ⟨{ txn with page_set := txn.page_set ++ [p] }, htxn, rfl⟩

theorem FetchPage_ok (t : BPlusTree) (p : page_id_t) (pg : BPlusTreePage) :
    t.FetchPage p = .ok pg ↔ t.pages p = some pg := by
  unfold BPlusTree.FetchPage
  split <;> simp_all

/-- A read-only fetch that succeeds leaves the tree as it is and returns the stored page. -/
theorem Crabing_read (t t1 : BPlusTree) (p prev : page_id_t) (o : Option Transaction)
    (pg : BPlusTreePage)
    (h : t.CrabingProtocalFetchPage p Operate_Type.OP_READ prev none = .ok (t1, o, pg)) :
    t1 = t ∧ o = none ∧ t.pages p = some pg := by
  unfold BPlusTree.CrabingProtocalFetchPage at h
  simp only [bind, Except.bind] at h
  cases hf : t.FetchPage p with
  | error e => simp [hf] at h
  | ok tree_page =>
    simp only [hf] at h
    split at h
    · cases hfp : t.FreePagesInTransaction false none prev with
      | error e => simp [hfp] at h
      | ok r =>
        obtain ⟨t2, o2⟩ := r
        obtain ⟨h1, h2⟩ := FreePages_none t t2 _ prev o2 hfp
        rw [h1, h2] at hfp
        have hd : decide (Operate_Type.OP_READ ≠ Operate_Type.OP_READ) = false := by decide
        simp only [hd, hfp, hf, Except.ok.injEq, Prod.mk.injEq] at h
        exact ⟨h.1.symm, h.2.1.symm, h.2.2 ▸ (FetchPage_ok _ _ _).1 hf⟩
    · simp only [Except.ok.injEq, Prod.mk.injEq] at h
      exact ⟨h.1.symm, h.2.1.symm, h.2.2 ▸ (FetchPage_ok _ _ _).1 hf⟩

theorem FindLeafLoop_read (key : KeyType) (fuel : Nat) : ∀ (t t1 : BPlusTree)
    (page : BPlusTreePage) (cur leaf : page_id_t) (o : Option Transaction),
    BPlusTree.FindLeafLoop key false Operate_Type.OP_READ fuel t none page cur =
      .ok (t1, o, leaf) →
    t1 = t ∧ o = none ∧ ∀ txn : Transaction, txn.deleted_page_set = [] →
      ∃ txn1 : Transaction, txn1.deleted_page_set = [] ∧
        BPlusTree.FindLeafLoop key false Operate_Type.OP_INSERT fuel t (some txn) page cur =
          .ok (t, some txn1, leaf) := by
  induction fuel with
  | zero => intro t t1 page cur leaf o h; simp [BPlusTree.FindLeafLoop] at h
  | succ fuel ih =>
    intro t t1 page cur leaf o h
    unfold BPlusTree.FindLeafLoop at h
    by_cases hl : page.IsLeafPage = true
    · simp only [hl, if_true, Except.ok.injEq, Prod.mk.injEq] at h
      refine ⟨h.1.symm, h.2.1.symm, fun txn htxn => ⟨txn, htxn, ?_⟩⟩
      unfold BPlusTree.FindLeafLoop
      simp [hl, h.2.2]
    · simp only [hl, Bool.false_eq_true, if_false, bind, Except.bind] at h
      cases hn : BPlusTreeInternalPage.Lookup page key with
      | error e => simp [hn] at h
      | ok next =>
        simp only [hn] at h
        cases hc : t.CrabingProtocalFetchPage next Operate_Type.OP_READ cur none with
        | error e => simp [hc] at h
        | ok r =>
          obtain ⟨t2, o2, pg⟩ := r
          simp only [hc] at h
          obtain ⟨h1, h2, h3⟩ := Crabing_read t t2 next cur o2 pg hc
          rw [h1, h2] at h
          obtain ⟨h4, h6, h5⟩ := ih t t1 pg next leaf o h
          refine ⟨h4, h6, fun txn htxn => ?_⟩
          obtain ⟨txn1, htxn1, hc1⟩ :=
            Crabing_some t next cur Operate_Type.OP_INSERT txn pg h3 htxn
          obtain ⟨txn2, htxn2, hl2⟩ := h5 txn1 htxn1
          refine ⟨txn2, htxn2, ?_⟩
          unfold BPlusTree.FindLeafLoop
          simp only [hl, Bool.false_eq_true, if_false, bind, Except.bind, hn, hc1]
          exact hl2

theorem FindLeafPage_read (t t1 : BPlusTree) (key : KeyType) (o : Option Transaction)
    (leaf : Option page_id_t)
    (h : t.FindLeafPage key false Operate_Type.OP_READ none = .ok (t1, o, leaf)) :
    t1 = t ∧ o = none ∧ (leaf = none ↔ t.IsEmpty = true) ∧
    ∀ txn : Transaction, txn.deleted_page_set = [] →
      ∃ txn1 : Transaction, txn1.deleted_page_set = [] ∧
        t.FindLeafPage key false Operate_Type.OP_INSERT (some txn) = .ok (t, some txn1, leaf) := by
  unfold BPlusTree.FindLeafPage at h
  by_cases he : t.IsEmpty = true
  · simp only [he, if_true, Except.ok.injEq, Prod.mk.injEq] at h
    refine ⟨h.1.symm, h.2.1.symm, by simp [← h.2.2, he], fun txn htxn => ⟨txn, htxn, ?_⟩⟩
    unfold BPlusTree.FindLeafPage
    simp [he, h.2.2]
  · simp only [he, Bool.false_eq_true, if_false, bind, Except.bind] at h
    cases hc : t.CrabingProtocalFetchPage t.root_page_id_ Operate_Type.OP_READ (-1) none with
    | error e => simp [hc] at h
    | ok r =>
      obtain ⟨t2, o2, pg⟩ := r
      simp only [hc] at h
      obtain ⟨h1, h2, h3⟩ := Crabing_read t t2 _ _ o2 pg hc
      rw [h1, h2] at h
      cases hl : BPlusTree.FindLeafLoop key false Operate_Type.OP_READ t.fuel t none pg
          t.root_page_id_ with
      | error e => simp [hl] at h
      | ok r =>
        obtain ⟨t3, o3, lf⟩ := r
        simp only [hl, Except.ok.injEq, Prod.mk.injEq] at h
        obtain ⟨h4, h6, h5⟩ := FindLeafLoop_read key _ t t3 pg _ lf o3 hl
        refine ⟨h.1.symm.trans h4, h.2.1.symm.trans h6, by simp [← h.2.2, he],
          fun txn htxn => ?_⟩
        obtain ⟨txn1, htxn1, hc1⟩ :=
          Crabing_some t t.root_page_id_ (-1) Operate_Type.OP_INSERT txn pg h3 htxn
        obtain ⟨txn2, htxn2, hl2⟩ := h5 txn1 htxn1
        refine ⟨txn2, htxn2, ?_⟩
        unfold BPlusTree.FindLeafPage
        simp only [he, Bool.false_eq_true, if_false, bind, Except.bind, hc1, hl2, h.2.2]

/-- C17. In every state of the tree, when `GetValue(k)` returns true with `[v]`, the call
`Insert(k, v2)` returns false and the state after it is the state before it (root page
id, every page with its entries and its next page id, and the page counter), and
`GetValue(k)` itself leaves the state as it is, so it still yields `[v]` afterwards. -/
theorem Insert_duplicate_unchanged (t : BPlusTree) (k : KeyType) (v v2 : ValueType)
    (h : (t.GetValue k none).toOption.map Prod.snd = some (true, [v])) :
    t.Insert k v2 = .ok (t, false) ∧ t.GetValue k none = .ok (t, true, [v]) := by
  cases hg : t.GetValue k none with
  | error e => simp [hg, Except.toOption] at h
  | ok r =>
    obtain ⟨tg, b, res⟩ := r
    simp only [hg, Except.toOption, Option.map_some', Option.some.injEq, Prod.mk.injEq] at h
    obtain ⟨hb, hres⟩ := h
    rw [hb, hres] at hg
    refine ⟨?_, ?_⟩
    all_goals
      have hg2 := hg
      unfold BPlusTree.GetValue at hg2
      simp only [bind, Except.bind] at hg2
      cases hf : t.FindLeafPage k false Operate_Type.OP_READ none with
      | error e => simp [hf] at hg2
      | ok r =>
        obtain ⟨t1, o, leaf⟩ := r
        simp only [hf] at hg2
        obtain ⟨h1, ho, h2, h3⟩ := FindLeafPage_read t t1 k o leaf hf
        rw [h1, ho] at hg2
        cases leaf with
        | none => simp at hg2
        | some leaf_id =>
          simp only at hg2
          cases hp : t.FetchPage leaf_id with
          | error e => simp [hp] at hg2
          | ok leaf_page =>
            simp only [hp] at hg2
            cases hfree : t.FreePagesInTransaction false none leaf_id with
            | error e => simp [hfree] at hg2
            | ok r2 =>
              obtain ⟨t2, o2⟩ := r2
              simp only [hfree] at hg2
              obtain ⟨ht2, _⟩ := FreePages_none t t2 false leaf_id o2 hfree
              cases hlook : BPlusTreeLeafPage.Lookup leaf_page k with
              | none => simp [hlook] at hg2
              | some val =>
                simp only [hlook, Except.ok.injEq, Prod.mk.injEq, List.cons.injEq, and_true,
                  true_and] at hg2
                have hne : t.IsEmpty = false := by
                  cases he : t.IsEmpty with
                  | false => rfl
                  | true => exact absurd (h2.2 he) (by simp)
                obtain ⟨txn1, htxn1, hins⟩ := h3 Transaction.new rfl
                first
                | (unfold BPlusTree.Insert BPlusTree.InsertIntoLeaf
                   simp only [hne, Bool.false_eq_true, if_false, bind, Except.bind, hins, hp,
                     hlook, FreePages_some t true txn1 (-1) htxn1])
                | (rw [hb, hres, ← hg2.1, ht2])
theorem Insert_duplicate_unchanged_witness :
    (((BPlusTree.new 3 4).applyAllD (insertAll [3, 4, 5, 2, 1])).GetValue 4 none).toOption.map
      Prod.snd = some (true, [40]) ∧
    (((BPlusTree.new 3 4).applyAllD (insertAll [3, 4, 5, 2, 1])).Insert 4 99).toOption.map
      Prod.snd = some false :=
  ⟨by decide, congrArg (fun r => r.toOption.map Prod.snd)
    (Insert_duplicate_unchanged _ 4 40 99 (by decide)).1⟩

/-- C16 (code defect). With leaf_max_size 4 and internal_max_size 4 the keys 1 to 7 are
inserted into an empty tree; then `Insert(8, 80)` returns and key 8 is found, and
`Remove(8)` does not return: the merge of the two internal pages removes the entry of the
right page from the root twice, and the second `Remove(index)` fails its `assert`. -/
theorem Remove_after_Insert_aborts :
    ((BPlusTree.new 4 4).applyAllD (insertAll [1, 2, 3, 4, 5, 6, 7])).find 8 = some (false, []) ∧
    (((BPlusTree.new 4 4).applyAllD (insertAll [1, 2, 3, 4, 5, 6, 7])).Insert 8 80).toOption.map
      Prod.snd = some true ∧
    ((BPlusTree.new 4 4).applyAllD (insertAll [1, 2, 3, 4, 5, 6, 7, 8])).find 8 =
      some (true, [80]) ∧
    Err.of (((BPlusTree.new 4 4).applyAllD (insertAll [1, 2, 3, 4, 5, 6, 7, 8])).Remove 8) =
      some Err.assertFail ∧
    Err.of ((BPlusTree.new 4 4).applyAll (insertAll [1, 2, 3, 4, 5, 6, 7, 8])) = none := by
  decide

/-- C18 (code defect). With leaf_max_size 3 and internal_max_size 4 the keys 3, 4, 5, 2, 1
are inserted into an empty tree and each of them is found by `GetValue`; the iteration
from `begin()` until `isEnd()` visits the keys 1, 2, 3 only. The split of the leaf
[1, 2, 3] leaves the new leaf [2, 3] (page 4) without next page, so the leaf [4, 5]
(page 2) is not reached. -/
theorem iteration_misses_keys :
    Err.of ((BPlusTree.new 3 4).applyAll (insertAll [3, 4, 5, 2, 1])) = none ∧
    ((BPlusTree.new 3 4).applyAllD (insertAll [3, 4, 5, 2, 1])).find 4 = some (true, [40]) ∧
    ((BPlusTree.new 3 4).applyAllD (insertAll [3, 4, 5, 2, 1])).find 5 = some (true, [50]) ∧
    (((BPlusTree.new 3 4).applyAllD (insertAll [3, 4, 5, 2, 1])).scan 10).toOption =
      some [(1, 10), (2, 20), (3, 30)] ∧
    (((BPlusTree.new 3 4).applyAllD (insertAll [3, 4, 5, 2, 1])).pages 4).map
      (fun n => (n.array, n.next_page_id_)) = some ([(2, 20), (3, 30)], INVALID_PAGE_ID) ∧
    (((BPlusTree.new 3 4).applyAllD (insertAll [3, 4, 5, 2, 1])).pages 2).map
      (fun n => n.array) = some [(4, 40), (5, 50)] := by
  decide

/-- C19 (refuted as stated). With leaf_max_size 3 and internal_max_size 3 the keys 1, 2,
3, 4 are inserted into an empty tree. The root (page 6) then has the internal page 3 as
its first child, and page 3, which is not the root, has size 1 with max_size 3, below
ceil(3 / 2) = 2: the split of an internal page of size 3 leaves it 3 / 2 = 1 entry. -/
theorem internal_below_half :
    Err.of ((BPlusTree.new 3 3).applyAll (insertAll [1, 2, 3, 4])) = none ∧
    ((BPlusTree.new 3 3).applyAllD (insertAll [1, 2, 3, 4])).root_page_id_ = 6 ∧
    (((BPlusTree.new 3 3).applyAllD (insertAll [1, 2, 3, 4])).pages 6).map
      (fun n => n.array.map Prod.snd) = some [3, 5] ∧
    ((BPlusTree.new 3 3).applyAllD (insertAll [1, 2, 3, 4])).shape 3 =
      some (false, false, 1, 3) ∧
    ¬ ((3 + 1) / 2 ≤ 1) := by
  decide

/-- C20 (code defect). With leaf_max_size 3 and internal_max_size 4 the keys 1 to 7 are
inserted into an empty tree and all are found. `Remove(1)` merges two internal pages and
removes the entry of the right one from the root twice, which drops the third child of
the root, the subtree holding 5, 6 and 7: these keys are no longer found. After
`Remove(2)`, `Remove(3)`, `Remove(4)` the tree is empty although 5, 6 and 7 have not
been removed. -/
theorem empty_before_all_removed :
    Err.of ((BPlusTree.new 3 4).applyAll (insertAll [1, 2, 3, 4, 5, 6, 7] ++
      [.Remove 1, .Remove 2, .Remove 3, .Remove 4])) = none ∧
    ((BPlusTree.new 3 4).applyAllD (insertAll [1, 2, 3, 4, 5, 6, 7])).find 5 =
      some (true, [50]) ∧
    ((BPlusTree.new 3 4).applyAllD (insertAll [1, 2, 3, 4, 5, 6, 7])).find 6 =
      some (true, [60]) ∧
    ((BPlusTree.new 3 4).applyAllD (insertAll [1, 2, 3, 4, 5, 6, 7])).find 7 =
      some (true, [70]) ∧
    ((BPlusTree.new 3 4).applyAllD (insertAll [1, 2, 3, 4, 5, 6, 7] ++ [.Remove 1])).find 5 =
      some (false, []) ∧
    ((BPlusTree.new 3 4).applyAllD (insertAll [1, 2, 3, 4, 5, 6, 7] ++
      [.Remove 1, .Remove 2, .Remove 3])).IsEmpty = false ∧
    ((BPlusTree.new 3 4).applyAllD (insertAll [1, 2, 3, 4, 5, 6, 7] ++
      [.Remove 1, .Remove 2, .Remove 3, .Remove 4])).IsEmpty = true := by
  decide

/-! ## B+ tree: the trees built by `Insert` -/

theorem setPage_same (t : BPlusTree) (p : page_id_t) (n : BPlusTreePage) :
    (t.setPage p n).pages p = some n := by
  simp [BPlusTree.setPage, setAt]

theorem setPage_other (t : BPlusTree) (p q : page_id_t) (n : BPlusTreePage) (h : q ≠ p) :
    (t.setPage p n).pages q = t.pages q := by
  simp [BPlusTree.setPage, setAt, h]

theorem Leaf_Insert_size (n : BPlusTreePage) (k : KeyType) (v : ValueType) :
    (BPlusTreeLeafPage.Insert n k v).2 = n.GetSize + 1 ∧
    (BPlusTreeLeafPage.Insert n k v).1.GetSize = n.GetSize + 1 := by
  simp only [BPlusTreeLeafPage.Insert, BPlusTreePage.GetSize, List.length_append,
    List.length_take, List.length_cons, List.length_drop]
  omega

theorem Leaf_Insert_fields (n : BPlusTreePage) (k : KeyType) (v : ValueType) :
    (BPlusTreeLeafPage.Insert n k v).1.page_type_ = n.page_type_ ∧
    (BPlusTreeLeafPage.Insert n k v).1.max_size_ = n.max_size_ ∧
    (BPlusTreeLeafPage.Insert n k v).1.parent_page_id_ = n.parent_page_id_ ∧
    (BPlusTreeLeafPage.Insert n k v).1.page_id_ = n.page_id_ :=
  ⟨rfl, rfl, rfl, rfl⟩

theorem LookupLoop_range (array : List (KeyType × Int)) (key : KeyType) (fuel : Nat) :
    ∀ left right : Int, 1 ≤ left → right < array.length → left ≤ right + 1 →
      1 ≤ BPlusTreeInternalPage.LookupLoop array key fuel left right ∧
      BPlusTreeInternalPage.LookupLoop array key fuel left right ≤ array.length := by
  induction fuel with
  | zero => intro left right h1 h2 h3; simp only [BPlusTreeInternalPage.LookupLoop]; omega
  | succ fuel ih =>
    intro left right h1 h2 h3
    unfold BPlusTreeInternalPage.LookupLoop
    split
    · simp only
      split
      · split
        · apply ih <;> omega
        · apply ih <;> omega
      · omega
    · omega

theorem Lookup_mem (n : BPlusTreePage) (key : KeyType) (h : 1 ≤ n.GetSize) :
    ∃ c, BPlusTreeInternalPage.Lookup n key = .ok c ∧ c ∈ n.array.map Prod.snd := by
  have hr := LookupLoop_range n.array key (n.GetSize + 1) 1 ((n.GetSize : Int) - 1)
    (by omega) (by simp [BPlusTreePage.GetSize]) (by omega)
  unfold BPlusTreeInternalPage.Lookup
  simp only
  generalize BPlusTreeInternalPage.LookupLoop n.array key (n.GetSize + 1) 1
    ((n.GetSize : Int) - 1) = left at hr
  have hlt : (left - 1).toNat < n.array.length := by omega
  rw [List.get?_eq_get hlt]
  exact ⟨_, rfl, List.mem_map_of_mem _ (List.get_mem _ _ _)⟩

theorem IsLeafPage_iff (n : BPlusTreePage) :
    n.IsLeafPage = true ↔ n.page_type_ = IndexPageType.LEAF_PAGE := by
  simp [BPlusTreePage.IsLeafPage]

theorem IsRootPage_iff (n : BPlusTreePage) :
    n.IsRootPage = true ↔ n.parent_page_id_ = INVALID_PAGE_ID := by
  simp [BPlusTreePage.IsRootPage]

theorem SizeOK_congr (t t1 : BPlusTree) (n : BPlusTreePage) (b : Bool)
    (hl : t1.leaf_max_size_ = t.leaf_max_size_)
    (hm : t1.internal_max_size_ = t.internal_max_size_) (h : SizeOK t n b) : SizeOK t1 n b := by
  unfold SizeOK at h ⊢
  rw [hl, hm]
  exact h

/-- A page keeps its links when the other pages keep their kind and their level. -/
theorem Linked_frame (t t1 : BPlusTree) (lev lev1 : page_id_t → Nat) (p : page_id_t)
    (n n0 : BPlusTreePage)
    (hl : t1.leaf_max_size_ = t.leaf_max_size_)
    (hm : t1.internal_max_size_ = t.internal_max_size_)
    (hk : ∀ q qn, t.pages q = some qn →
      ∃ qn1, t1.pages q = some qn1 ∧ qn1.page_type_ = qn.page_type_)
    (hv : ∀ q qn, t.pages q = some qn → lev1 q = lev q)
    (hr : lev t.root_page_id_ ≤ lev1 t1.root_page_id_)
    (hp : t.pages p = some n0) (h : Linked t lev p n) : Linked t1 lev1 p n := by
  refine ⟨h.id_eq, h.kind, ?_, ?_, ?_, ?_, h.int_size, ?_, ?_⟩
  · intro hne
    obtain ⟨q, hq, hqt, hql⟩ := h.parent_ok hne
    obtain ⟨q1, hq1, hq1t⟩ := hk _ _ hq
    exact ⟨q1, hq1, hq1t.trans hqt, by rw [hv _ _ hq, hv _ _ hp, hql]⟩
  · intro hlf
    rw [hv _ _ hp]
    exact h.leaf_lev hlf
  · intro hlf
    rw [hl]
    exact h.leaf_max hlf
  · intro hi
    rw [hm]
    exact h.int_max hi
  · intro hi c hc
    obtain ⟨cn, hcn, hcl⟩ := h.children hi c hc
    obtain ⟨cn1, hcn1, _⟩ := hk _ _ hcn
    exact ⟨cn1, hcn1, by rw [hv _ _ hcn, hv _ _ hp, hcl]⟩
  · rw [hv _ _ hp]
    exact le_trans h.lev_le hr

theorem FindLeafLoop_linked (t : BPlusTree) (lev : page_id_t → Nat)
    (hlink : ∀ p n, t.pages p = some n → Linked t lev p n) (key : KeyType)
    (op : Operate_Type) (fuel : Nat) :
    ∀ (cur : page_id_t) (page : BPlusTreePage) (txn : Transaction),
      t.pages cur = some page → lev cur < fuel → txn.deleted_page_set = [] →
      ∃ X txn1 xn, BPlusTree.FindLeafLoop key false op fuel t (some txn) page cur =
          .ok (t, some txn1, X) ∧ txn1.deleted_page_set = [] ∧ t.pages X = some xn ∧
          xn.page_type_ = IndexPageType.LEAF_PAGE := by
  induction fuel with
  | zero => intro cur page txn _ h; omega
  | succ fuel ih =>
    intro cur page txn hp hlev htxn
    unfold BPlusTree.FindLeafLoop
    by_cases hl : page.IsLeafPage = true
    · simp only [hl, if_true]
      exact ⟨cur, txn, page, rfl, htxn, hp, (IsLeafPage_iff page).1 hl⟩
    · have hpl := hlink cur page hp
      have hi : page.page_type_ = IndexPageType.INTERNAL_PAGE := by
        rcases hpl.kind with h | h
        · exact absurd ((IsLeafPage_iff page).2 h) hl
        · exact h
      obtain ⟨c, hc, hmem⟩ := Lookup_mem page key (hpl.int_size hi)
      obtain ⟨cn, hcn, hcl⟩ := hpl.children hi c hmem
      obtain ⟨txn1, htxn1, hcr⟩ := Crabing_some t c cur op txn cn hcn htxn
      obtain ⟨X, txn2, xn, h1, h2, h3, h4⟩ := ih c cn txn1 hcn (by omega) htxn1
      refine ⟨X, txn2, xn, ?_, h2, h3, h4⟩
      simp only [hl, Bool.false_eq_true, if_false, bind, Except.bind, hc, hcr]
      exact h1

theorem FindLeafPage_linked (t : BPlusTree) (lev : page_id_t → Nat)
    (hlink : ∀ p n, t.pages p = some n → Linked t lev p n)
    (hne : t.root_page_id_ ≠ INVALID_PAGE_ID) (hroot : ∃ r, t.pages t.root_page_id_ = some r)
    (hh : lev t.root_page_id_ < t.fuel) (key : KeyType) (op : Operate_Type) (txn : Transaction)
    (htxn : txn.deleted_page_set = []) :
    ∃ X txn1 xn, t.FindLeafPage key false op (some txn) = .ok (t, some txn1, some X) ∧
      txn1.deleted_page_set = [] ∧ t.pages X = some xn ∧
      xn.page_type_ = IndexPageType.LEAF_PAGE := by
  obtain ⟨r, hr⟩ := hroot
  obtain ⟨txn1, htxn1, hcr⟩ := Crabing_some t t.root_page_id_ (-1) op txn r hr htxn
  obtain ⟨X, txn2, xn, h1, h2, h3, h4⟩ :=
    FindLeafLoop_linked t lev hlink key op t.fuel t.root_page_id_ r txn1 hr hh htxn1
  refine ⟨X, txn2, xn, ?_, h2, h3, h4⟩
  have he : t.IsEmpty = false := by simp [BPlusTree.IsEmpty, hne]
  unfold BPlusTree.FindLeafPage
  simp only [he, Bool.false_eq_true, if_false, bind, Except.bind, hcr, h1]

theorem SplitLeaf_eq (t : BPlusTree) (txn : Transaction) (X : page_id_t) (leaf : BPlusTreePage)
    (h : t.pages X = some leaf) (hX : X ≠ t.next_page_id) :
    ∃ t3 txn1, t.SplitLeaf txn X = .ok (t3, txn1, t.next_page_id) ∧
      txn1.deleted_page_set = txn.deleted_page_set ∧
      t3.pages X = some { leaf with next_page_id_ := t.next_page_id,
                                    array := leaf.array.take (leaf.GetSize / 2) } ∧
      t3.pages t.next_page_id = some
        { (BPlusTreeLeafPage.Init t.next_page_id leaf.parent_page_id_ leaf.max_size_) with
          array := leaf.array.drop (leaf.GetSize / 2) } ∧
      (∀ p, p ≠ X → p ≠ t.next_page_id → t3.pages p = t.pages p) ∧
      t3.next_page_id = t.next_page_id + 1 ∧ t3.root_page_id_ = t.root_page_id_ ∧
      t3.leaf_max_size_ = t.leaf_max_size_ ∧ t3.internal_max_size_ = t.internal_max_size_ := by
  have hf : (t.NewPage).1.FetchPage X = .ok leaf := by
    simp [BPlusTree.FetchPage, BPlusTree.NewPage, setAt, hX, h]
  refine ⟨((t.NewPage).1.setPage t.next_page_id (BPlusTreeLeafPage.MoveHalfTo leaf
      (BPlusTreeLeafPage.Init t.next_page_id leaf.parent_page_id_ leaf.max_size_)).2).setPage X
      (BPlusTreeLeafPage.MoveHalfTo leaf
      (BPlusTreeLeafPage.Init t.next_page_id leaf.parent_page_id_ leaf.max_size_)).1,
    { txn with page_set := txn.page_set ++ [t.next_page_id] }, ?_, rfl, ?_, ?_, ?_, rfl, rfl,
    rfl, rfl⟩
  · unfold BPlusTree.SplitLeaf
    simp only [bind, Except.bind, hf]
    rfl
  · simp [BPlusTree.setPage, setAt, BPlusTreeLeafPage.MoveHalfTo, BPlusTree.NewPage,
      BPlusTreeLeafPage.Init]
  · simp [BPlusTree.setPage, setAt, BPlusTreeLeafPage.MoveHalfTo, BPlusTree.NewPage,
      BPlusTreeLeafPage.Init, Ne.symm hX]
  · intro p h1 h2
    simp [BPlusTree.setPage, setAt, BPlusTree.NewPage, h1, h2]

theorem stored_lt (t : BPlusTree) (hfresh : ∀ p, t.next_page_id ≤ p → t.pages p = none)
    (p : page_id_t) (n : BPlusTreePage) (h : t.pages p = some n) : p < t.next_page_id := by
  by_contra hc
  rw [hfresh p (not_lt.1 hc)] at h
  exact absurd h (by simp)

/-- The state after a leaf that has reached `leaf_max_size` pairs was split. -/
theorem SplitInv_of_leaf_split (t t3 : BPlusTree) (lev : page_id_t → Nat) (X N : page_id_t)
    (xn : BPlusTreePage) (arr : List (KeyType × Int))
    (hinv : TreeInv t lev) (hX : t.pages X = some xn)
    (hleaf : xn.page_type_ = IndexPageType.LEAF_PAGE) (hN : N = t.next_page_id)
    (harr : arr.length = t.leaf_max_size_) (hsz : arr.length = xn.GetSize + 1)
    (h3X : t3.pages X = some { xn with next_page_id_ := N,
                                       array := arr.take (arr.length / 2) })
    (h3N : t3.pages N = some
      { (BPlusTreeLeafPage.Init N xn.parent_page_id_ xn.max_size_) with
        array := arr.drop (arr.length / 2) })
    (h3o : ∀ p, p ≠ X → p ≠ N → t3.pages p = t.pages p)
    (hnext : t3.next_page_id = N + 1) (hroot : t3.root_page_id_ = t.root_page_id_)
    (hl : t3.leaf_max_size_ = t.leaf_max_size_)
    (hm : t3.internal_max_size_ = t.internal_max_size_) :
    SplitInv t3 (setAt lev N 0) X N := by
  have hstN : ∀ q qn, t.pages q = some qn → q ≠ N := by
    intro q qn hq
    have := stored_lt t hinv.fresh q qn hq
    rw [hN]
    exact ne_of_lt this
  have hXN : X ≠ N := hstN X xn hX
  have hXl := hinv.linked X xn hX
  have hl2 : 2 ≤ t.leaf_max_size_ := by
    have hs := (hinv.sizes X xn hX).1 hleaf
    split at hs
    · have := hs.1
      omega
    · exact hs.1
  -- frame facts
  have hk : ∀ q qn, t.pages q = some qn →
      ∃ qn1, t3.pages q = some qn1 ∧ qn1.page_type_ = qn.page_type_ := by
    intro q qn hq
    by_cases hqX : q = X
    · subst hqX
      rw [hX] at hq
      cases hq
      exact ⟨_, h3X, rfl⟩
    · exact ⟨qn, by rw [h3o q hqX (hstN q qn hq)]; exact hq, rfl⟩
  have hv : ∀ q qn, t.pages q = some qn → setAt lev N 0 q = lev q := by
    intro q qn hq
    simp [setAt, hstN q qn hq]
  have hr : lev t.root_page_id_ ≤ setAt lev N 0 t3.root_page_id_ := by
    obtain ⟨r, hr⟩ := hinv.root_stored
    rw [hroot, hv _ _ hr]
  have hlevX : lev X = 0 := hXl.leaf_lev hleaf
  have hnp := hinv.next_pos
  have hht := hinv.height
  refine ⟨by rw [hroot]; exact hinv.root_ne, by linarith, ?_, ?_,
    ?_, ?_, ?_, ?_, ?_, ?_, ?_, hXN⟩
  · -- fresh
    intro p hp
    have h1 : p ≠ N := ne_of_gt (by linarith)
    have h2 : p ≠ X := by
      have := stored_lt t hinv.fresh X xn hX
      exact ne_of_gt (by linarith)
    rw [h3o p h2 h1]
    exact hinv.fresh p (by linarith)
  · -- root stored
    obtain ⟨r, hr⟩ := hinv.root_stored
    obtain ⟨r1, hr1, _⟩ := hk _ _ hr
    exact ⟨r1, by rw [hroot]; exact hr1⟩
  · -- height
    obtain ⟨r, hr0⟩ := hinv.root_stored
    rw [hroot, hv _ _ hr0]
    linarith
  · -- linked
    intro p n hp
    by_cases hpX : p = X
    · subst hpX
      rw [h3X] at hp
      cases hp
      refine Linked_frame t t3 lev _ p _ xn hl hm hk hv hr hX ?_
      exact ⟨hXl.id_eq, hXl.kind, hXl.parent_ok, hXl.leaf_lev, hXl.leaf_max,
        fun hi => absurd (hleaf.symm.trans hi) (by decide),
        fun hi => absurd (hleaf.symm.trans hi) (by decide),
        fun hi => absurd (hleaf.symm.trans hi) (by decide), hXl.lev_le⟩
    · by_cases hpN : p = N
      · subst hpN
        rw [h3N] at hp
        cases hp
        refine ⟨rfl, Or.inl rfl, ?_, fun _ => by simp [setAt], ?_,
          fun hi => absurd hi (by simp [BPlusTreeLeafPage.Init]),
          fun hi => absurd hi (by simp [BPlusTreeLeafPage.Init]),
          fun hi => absurd hi (by simp [BPlusTreeLeafPage.Init]), by simp [setAt]⟩
        · intro hne
          obtain ⟨q, hq, hqt, hql⟩ := hXl.parent_ok hne
          obtain ⟨q1, hq1, hq1t⟩ := hk _ _ hq
          refine ⟨q1, hq1, hq1t.trans hqt, ?_⟩
          have : setAt lev p 0 xn.parent_page_id_ = lev xn.parent_page_id_ := hv _ _ hq
          simp only [BPlusTreeLeafPage.Init] at this ⊢
          rw [this, hql, hlevX]
          simp [setAt]
        · intro _
          simp only [BPlusTreeLeafPage.Init]
          rw [hl]
          exact hXl.leaf_max hleaf
      · rw [h3o p hpX hpN] at hp
        exact Linked_frame t t3 lev _ p n n hl hm hk hv hr hp (hinv.linked p n hp)
  · -- sizes
    intro p n hp hpX hpN
    rw [h3o p hpX hpN] at hp
    exact SizeOK_congr t t3 n _ hl hm (hinv.sizes p n hp)
  · -- root_iff
    intro p n hp hpN
    rw [hroot]
    by_cases hpX : p = X
    · subst hpX
      rw [h3X] at hp
      cases hp
      exact hinv.root_iff p xn hX
    · rw [h3o p hpX hpN] at hp
      exact hinv.root_iff p n hp
  · -- old_new
    refine ⟨_, _, h3X, h3N, rfl, ?_, ?_⟩
    · refine ⟨fun _ => ?_, fun hi => absurd (hleaf.symm.trans hi) (by decide)⟩
      simp only [Bool.false_eq_true, if_false, BPlusTreePage.GetSize, List.length_take, hl]
      omega
    · refine ⟨fun _ => ?_, fun hi => absurd hi (by simp [BPlusTreeLeafPage.Init])⟩
      simp only [Bool.false_eq_true, if_false, BPlusTreePage.GetSize, List.length_drop, hl]
      omega
  · -- lev_eq
    simp [setAt, hXN, hlevX]
  · -- new_ne
    obtain ⟨r, hr0⟩ := hinv.root_stored
    rw [hroot]
    exact fun e => hstN _ _ hr0 e.symm

theorem InsertNodeAfter_spec (n : BPlusTreePage) (old_value : Int) (key : KeyType)
    (new_value : Int) :
    (BPlusTreeInternalPage.InsertNodeAfter n old_value key new_value).2 = n.GetSize + 1 ∧
    (BPlusTreeInternalPage.InsertNodeAfter n old_value key new_value).1.array.length =
      n.GetSize + 1 ∧
    (∀ c, c ∈ (BPlusTreeInternalPage.InsertNodeAfter n old_value key new_value).1.array.map
        Prod.snd ↔ c = new_value ∨ c ∈ n.array.map Prod.snd) ∧
    (BPlusTreeInternalPage.InsertNodeAfter n old_value key new_value).1 =
      { n with array :=
        (BPlusTreeInternalPage.InsertNodeAfter n old_value key new_value).1.array } := by
  refine ⟨?_, ?_, ?_, rfl⟩
  · simp only [BPlusTreeInternalPage.InsertNodeAfter, BPlusTreePage.GetSize, List.length_append,
      List.length_take, List.length_cons, List.length_drop]
    omega
  · simp only [BPlusTreeInternalPage.InsertNodeAfter, BPlusTreePage.GetSize, List.length_append,
      List.length_take, List.length_cons, List.length_drop]
    omega
  · intro c
    simp only [BPlusTreeInternalPage.InsertNodeAfter, List.map_append, List.map_cons,
      List.mem_append, List.mem_cons]
    constructor
    · rintro (h | h | h)
      · exact Or.inr (List.map_take _ _ _ ▸ h |> fun h => List.mem_of_mem_take h)
      · exact Or.inl h
      · exact Or.inr (List.map_drop _ _ _ ▸ h |> fun h => List.mem_of_mem_drop h)
    · rintro (h | h)
      · exact Or.inr (Or.inl h)
      · have := (List.take_append_drop
          ((BPlusTreeInternalPage.ValueIndex n old_value + 1).toNat) (n.array.map Prod.snd)).symm
        rw [this, List.mem_append] at h
        rcases h with h | h
        · exact Or.inl (by rw [List.map_take]; exact h)
        · exact Or.inr (Or.inr (by rw [List.map_drop]; exact h))

/-- The loop that gives the moved children their new parent: every listed child gets
`parent_id`, no other page changes. -/
theorem adoptAll_spec (parent_id : page_id_t) (items : List (KeyType × Int)) :
    ∀ t : BPlusTree, (∀ c ∈ items.map Prod.snd, ∃ cn, t.pages c = some cn) →
    ∃ t1, t.adoptAll parent_id items = .ok t1 ∧
      (∀ q, t1.pages q = if q ∈ items.map Prod.snd
        then (t.pages q).map (fun n => { n with parent_page_id_ := parent_id })
        else t.pages q) ∧
      t1.next_page_id = t.next_page_id ∧ t1.root_page_id_ = t.root_page_id_ ∧
      t1.leaf_max_size_ = t.leaf_max_size_ ∧ t1.internal_max_size_ = t.internal_max_size_ := by
  induction items with
  | nil => intro t _; exact ⟨t, rfl, by simp, rfl, rfl, rfl, rfl⟩
  | cons item rest ih =>
    intro t h
    obtain ⟨cn, hcn⟩ := h item.2 (by simp)
    have hst : ∀ c ∈ rest.map Prod.snd, ∃ cn1,
        (t.setPage item.2 { cn with parent_page_id_ := parent_id }).pages c = some cn1 := by
      intro c hc
      by_cases hci : c = item.2
      · exact ⟨_, by rw [hci]; exact setPage_same _ _ _⟩
      · obtain ⟨cn1, hcn1⟩ := h c (by simp only [List.map_cons, List.mem_cons]; exact Or.inr hc)
        exact ⟨cn1, by rw [setPage_other _ _ _ _ hci]; exact hcn1⟩
    obtain ⟨t1, h1, h2, h3, h4, h5, h6⟩ := ih _ hst
    refine ⟨t1, ?_, ?_, h3, h4, h5, h6⟩
    · unfold BPlusTree.adoptAll
      simp only [bind, Except.bind, BPlusTree.FetchPage, hcn]
      exact h1
    · intro q
      rw [h2 q]
      by_cases hqi : q = item.2
      · subst hqi
        simp only [List.map_cons, List.mem_cons, true_or, if_true, setPage_same, hcn,
          Option.map_some']
        split <;> rfl
      · simp only [List.map_cons, List.mem_cons, hqi, false_or, setPage_other _ _ _ _ hqi]

theorem SplitInternal_eq (t : BPlusTree) (txn : Transaction) (P : page_id_t)
    (pn : BPlusTreePage) (h : t.pages P = some pn) (hP : P ≠ t.next_page_id)
    (hch : ∀ c ∈ pn.array.map Prod.snd, (∃ cn, t.pages c = some cn) ∧ c ≠ P ∧
      c ≠ t.next_page_id) :
    ∃ t5 txn1, t.SplitInternal txn P = .ok (t5, txn1, t.next_page_id) ∧
      txn1.deleted_page_set = txn.deleted_page_set ∧
      t5.pages P = some { pn with array := pn.array.take (pn.GetSize / 2) } ∧
      t5.pages t.next_page_id = some
        { (BPlusTreeInternalPage.Init BPlusTreePage.zeroed t.next_page_id pn.parent_page_id_
            pn.max_size_) with array := pn.array.drop (pn.GetSize / 2) } ∧
      (∀ q, q ≠ P → q ≠ t.next_page_id →
        t5.pages q = if q ∈ (pn.array.drop (pn.GetSize / 2)).map Prod.snd
          then (t.pages q).map (fun n => { n with parent_page_id_ := t.next_page_id })
          else t.pages q) ∧
      t5.next_page_id = t.next_page_id + 1 ∧ t5.root_page_id_ = t.root_page_id_ ∧
      t5.leaf_max_size_ = t.leaf_max_size_ ∧ t5.internal_max_size_ = t.internal_max_size_ := by
  have hf : (t.NewPage).1.FetchPage P = .ok pn := by
    simp [BPlusTree.FetchPage, BPlusTree.NewPage, setAt, hP, h]
  have hsub : ∀ c ∈ (pn.array.drop (pn.GetSize / 2)).map Prod.snd, c ∈ pn.array.map Prod.snd := by
    intro c hc
    rw [List.map_drop] at hc
    exact List.mem_of_mem_drop hc
  have hst : ∀ c ∈ (pn.array.drop (pn.GetSize / 2)).map Prod.snd, ∃ cn,
      ((t.NewPage).1.setPage t.next_page_id (BPlusTreeInternalPage.Init BPlusTreePage.zeroed
        t.next_page_id pn.parent_page_id_ pn.max_size_)).pages c = some cn := by
    intro c hc
    obtain ⟨⟨cn, hcn⟩, _, h2⟩ := hch c (hsub c hc)
    exact ⟨cn, by simp [BPlusTree.setPage, BPlusTree.NewPage, setAt, h2, hcn]⟩
  obtain ⟨t3, h3, h3p, h3n, h3r, h3l, h3m⟩ := adoptAll_spec t.next_page_id _ _ hst
  have hN3 : t3.pages t.next_page_id = some (BPlusTreeInternalPage.Init BPlusTreePage.zeroed
      t.next_page_id pn.parent_page_id_ pn.max_size_) := by
    rw [h3p]
    have : t.next_page_id ∉ (pn.array.drop (pn.GetSize / 2)).map Prod.snd :=
      fun hc => (hch _ (hsub _ hc)).2.2 rfl
    rw [if_neg this]
    simp [BPlusTree.setPage, setAt]
  have hP3 : t3.pages P = some pn := by
    rw [h3p]
    have : P ∉ (pn.array.drop (pn.GetSize / 2)).map Prod.snd :=
      fun hc => (hch _ (hsub _ hc)).2.1 rfl
    rw [if_neg this]
    simp [BPlusTree.setPage, BPlusTree.NewPage, setAt, hP, h]
  refine ⟨(t3.setPage t.next_page_id
      { (BPlusTreeInternalPage.Init BPlusTreePage.zeroed t.next_page_id pn.parent_page_id_
          pn.max_size_) with array := pn.array.drop (pn.GetSize / 2) }).setPage P
      { pn with array := pn.array.take (pn.GetSize / 2) },
    { txn with page_set := txn.page_set ++ [t.next_page_id] }, ?_, rfl, ?_, ?_, ?_, ?_, ?_, ?_,
    ?_⟩
  · unfold BPlusTree.SplitInternal
    simp only [bind, Except.bind, hf]
    have h3b : ((t.NewPage).1.setPage (t.NewPage).2 (BPlusTreeInternalPage.Init
        BPlusTreePage.zeroed (t.NewPage).2 pn.parent_page_id_ pn.max_size_)).adoptAll
        (t.NewPage).2 (List.drop (pn.GetSize / 2) pn.array) = .ok t3 := h3
    simp only [h3b]
    have hfN : t3.FetchPage (t.NewPage).2 = .ok (BPlusTreeInternalPage.Init
        BPlusTreePage.zeroed t.next_page_id pn.parent_page_id_ pn.max_size_) := by
      simp [BPlusTree.FetchPage, BPlusTree.NewPage, hN3]
    simp only [hfN]
    have hfP : (t3.setPage (t.NewPage).2
        { (BPlusTreeInternalPage.Init BPlusTreePage.zeroed t.next_page_id pn.parent_page_id_
            pn.max_size_) with array := List.drop (pn.GetSize / 2) pn.array }).FetchPage P =
        .ok pn := by
      simp [BPlusTree.FetchPage, BPlusTree.NewPage, BPlusTree.setPage, setAt, hP, hP3]
    simp only [hfP]
    rfl
  · simp [BPlusTree.setPage, setAt]
  · simp [BPlusTree.setPage, setAt, Ne.symm hP]
  · intro q h1 h2
    simp only [BPlusTree.setPage, setAt, h1, h2, if_false]
    rw [h3p q]
    simp [BPlusTree.setPage, BPlusTree.NewPage, setAt, h2]
  · simp [BPlusTree.setPage, h3n, BPlusTree.NewPage]
  · simp [BPlusTree.setPage, h3r, BPlusTree.NewPage]
  · simp [BPlusTree.setPage, h3l, BPlusTree.NewPage]
  · simp [BPlusTree.setPage, h3m, BPlusTree.NewPage]

theorem SizeOK_of_eq (t : BPlusTree) (n n1 : BPlusTreePage) (b : Bool)
    (hty : n1.page_type_ = n.page_type_) (hsz : n1.GetSize = n.GetSize) (h : SizeOK t n b) :
    SizeOK t n1 b := by
  unfold SizeOK at h ⊢
  rw [hty, hsz]
  exact h

theorem Linked_reparent (t : BPlusTree) (lev : page_id_t → Nat) (p P : page_id_t)
    (n q : BPlusTreePage) (h : Linked t lev p n) (hq : t.pages P = some q)
    (hqt : q.page_type_ = IndexPageType.INTERNAL_PAGE) (hlev : lev P = lev p + 1) :
    Linked t lev p { n with parent_page_id_ := P } :=
  ⟨h.id_eq, h.kind, fun _ => ⟨q, hq, hqt, hlev⟩, h.leaf_lev, h.leaf_max, h.int_max, h.int_size,
    h.children, h.lev_le⟩

/-- The state after `InsertNodeAfter` has listed the new page `new` in the parent `P` of
`old`: the invariant holds again unless `P` has reached `internal_max_size`. -/
theorem after_parent_insert (t t2 : BPlusTree) (lev : page_id_t → Nat) (old new P : page_id_t)
    (o n pn : BPlusTreePage) (arr : List (KeyType × Int))
    (hs : SplitInv t lev old new) (ho : t.pages old = some o) (hn : t.pages new = some n)
    (hPne : o.parent_page_id_ ≠ INVALID_PAGE_ID) (hP : P = o.parent_page_id_)
    (hpn : t.pages P = some pn)
    (hlen : arr.length = pn.GetSize + 1)
    (hmem : ∀ c, c ∈ arr.map Prod.snd ↔ c = new ∨ c ∈ pn.array.map Prod.snd)
    (h2P : t2.pages P = some { pn with array := arr })
    (h2n : t2.pages new = some { n with parent_page_id_ := P })
    (h2x : ∀ q, q ≠ P → q ≠ new → t2.pages q = t.pages q)
    (hnext : t2.next_page_id = t.next_page_id) (hroot : t2.root_page_id_ = t.root_page_id_)
    (hl : t2.leaf_max_size_ = t.leaf_max_size_)
    (hm : t2.internal_max_size_ = t.internal_max_size_) :
    (arr.length ≠ t.internal_max_size_ → TreeInv t2 lev) ∧
    (arr.length = t.internal_max_size_ → Overfull t2 lev P) := by
  obtain ⟨o1, n1, ho1, hn1, hpar, hso, hsn⟩ := hs.old_new
  rw [ho] at ho1; cases ho1
  rw [hn] at hn1; cases hn1
  have hol := hs.linked old o ho
  have hnl := hs.linked new n hn
  have hpl := hs.linked P pn hpn
  obtain ⟨q, hq, hqt, hql⟩ := hol.parent_ok hPne
  rw [← hP, hpn] at hq
  cases hq
  rw [← hP] at hql
  have hPold : P ≠ old := fun e => by rw [e] at hql; omega
  have hPnew : P ≠ new := fun e => by rw [e, hs.lev_eq] at hql; omega
  have hPinv : P ≠ INVALID_PAGE_ID := hP ▸ hPne
  have hk : ∀ q qn, t.pages q = some qn →
      ∃ qn1, t2.pages q = some qn1 ∧ qn1.page_type_ = qn.page_type_ := by
    intro q qn hq
    by_cases hqP : q = P
    · subst hqP
      rw [hpn] at hq; cases hq
      exact ⟨_, h2P, rfl⟩
    · by_cases hqn : q = new
      · subst hqn
        rw [hn] at hq; cases hq
        exact ⟨_, h2n, rfl⟩
      · exact ⟨qn, by rw [h2x q hqP hqn]; exact hq, rfl⟩
  have hv : ∀ q qn, t.pages q = some qn → lev q = lev q := fun _ _ _ => rfl
  have hr : lev t.root_page_id_ ≤ lev t2.root_page_id_ := by rw [hroot]
  have hlinked : ∀ p n1, t2.pages p = some n1 → Linked t2 lev p n1 := by
    intro p n1 hp
    by_cases hpP : p = P
    · subst hpP
      rw [h2P] at hp; cases hp
      have hfr := Linked_frame t t2 lev lev p pn pn hl hm hk hv hr hpn hpl
      refine ⟨hfr.id_eq, hfr.kind, hfr.parent_ok, hfr.leaf_lev, hfr.leaf_max, hfr.int_max,
        fun _ => by simp only [BPlusTreePage.GetSize]; omega, ?_, hfr.lev_le⟩
      intro hi c hc
      rcases (hmem c).1 hc with h | h
      · subst h
        exact ⟨_, h2n, by rw [hs.lev_eq, hql]⟩
      · exact hfr.children hi c h
    · by_cases hpn1 : p = new
      · subst hpn1
        rw [h2n] at hp; cases hp
        have hfr := Linked_frame t t2 lev lev p n n hl hm hk hv hr hn hnl
        exact Linked_reparent t2 lev p P n _ hfr h2P hqt (by rw [hs.lev_eq, hql])
      · rw [h2x p hpP hpn1] at hp
        exact Linked_frame t t2 lev lev p n1 n1 hl hm hk hv hr hp (hs.linked p n1 hp)
  have hsizes : ∀ p n1, t2.pages p = some n1 → p ≠ P → SizeOK t2 n1 n1.IsRootPage := by
    intro p n1 hp hpP
    by_cases hpn1 : p = new
    · subst hpn1
      rw [h2n] at hp; cases hp
      have : BPlusTreePage.IsRootPage { n with parent_page_id_ := P } = false := by
        simp [BPlusTreePage.IsRootPage, hPinv]
      rw [this]
      exact SizeOK_congr t t2 _ _ hl hm (SizeOK_of_eq t n _ false rfl rfl hsn)
    · rw [h2x p hpP hpn1] at hp
      by_cases hpo : p = old
      · subst hpo
        rw [ho] at hp; cases hp
        have : o.IsRootPage = false := by simp [BPlusTreePage.IsRootPage, hPne]
        rw [this]
        exact SizeOK_congr t t2 _ _ hl hm hso
      · exact SizeOK_congr t t2 _ _ hl hm (hs.sizes p n1 hp hpo hpn1)
  have hrootiff : ∀ p n1, t2.pages p = some n1 →
      (n1.parent_page_id_ = INVALID_PAGE_ID ↔ p = t2.root_page_id_) := by
    intro p n1 hp
    rw [hroot]
    by_cases hpP : p = P
    · subst hpP
      rw [h2P] at hp; cases hp
      exact hs.root_iff p pn hpn hPnew
    · by_cases hpn1 : p = new
      · subst hpn1
        rw [h2n] at hp; cases hp
        exact ⟨fun h => absurd h hPinv, fun h => absurd h hs.new_ne⟩
      · rw [h2x p hpP hpn1] at hp
        exact hs.root_iff p n1 hp hpn1
  have hfresh : ∀ p, t2.next_page_id ≤ p → t2.pages p = none := by
    intro p hp
    rw [hnext] at hp
    have h1 : p ≠ P := fun e => by
      have := stored_lt t hs.fresh P pn hpn
      rw [e] at hp
      exact absurd this (not_lt.2 hp)
    have h2 : p ≠ new := fun e => by
      have := stored_lt t hs.fresh new n hn
      rw [e] at hp
      exact absurd this (not_lt.2 hp)
    rw [h2x p h1 h2]
    exact hs.fresh p hp
  have hrs : ∃ r, t2.pages t2.root_page_id_ = some r := by
    obtain ⟨r, hr0⟩ := hs.root_stored
    obtain ⟨r1, hr1, _⟩ := hk _ _ hr0
    exact ⟨r1, by rw [hroot]; exact hr1⟩
  have hh := hs.height
  have hnp := hs.next_pos
  constructor
  · intro hne
    refine ⟨by rw [hroot]; exact hs.root_ne, by rw [hnext]; exact hnp, hfresh, hrs,
      by rw [hroot, hnext]; linarith, hlinked, ?_, hrootiff⟩
    intro p n1 hp
    by_cases hpP : p = P
    · subst hpP
      rw [h2P] at hp; cases hp
      have hsz := hs.sizes p pn hpn hPold hPnew
      have hty : (BPlusTreePage.IsRootPage { pn with array := arr }) = pn.IsRootPage := rfl
      rw [hty]
      unfold SizeOK at hsz ⊢
      rw [hl, hm]
      refine ⟨fun h => absurd (hqt.symm.trans h) (by decide), fun _ => ?_⟩
      have h2 := hsz.2 hqt
      simp only [BPlusTreePage.GetSize] at h2 hlen ⊢
      split
      · rename_i hr1
        rw [if_pos hr1] at h2
        omega
      · rename_i hr1
        rw [if_neg hr1] at h2
        have := hne
        omega
    · exact hsizes p n1 hp hpP
  · intro heq
    refine ⟨by rw [hroot]; exact hs.root_ne, by rw [hnext]; exact hnp, hfresh, hrs,
      by rw [hroot, hnext]; exact hh, hlinked, hsizes, hrootiff, ?_⟩
    refine ⟨_, h2P, hqt, by simp only [BPlusTreePage.GetSize]; rw [hm]; exact heq, ?_⟩
    have := hpl.int_size hqt
    rw [hm]
    simp only [BPlusTreePage.GetSize] at this hlen
    omega

/-- The state after an internal page that has reached `internal_max_size` children was
split: the upper half went to the new page `N`, and the moved children point to `N`. -/
theorem SplitInv_of_internal_split (t t5 : BPlusTree) (lev : page_id_t → Nat)
    (P N : page_id_t) (pn : BPlusTreePage)
    (hov : Overfull t lev P) (hpn : t.pages P = some pn) (hN : N = t.next_page_id)
    (h5P : t5.pages P = some { pn with array := pn.array.take (pn.GetSize / 2) })
    (h5N : t5.pages N = some
      { (BPlusTreeInternalPage.Init BPlusTreePage.zeroed N pn.parent_page_id_ pn.max_size_) with
        array := pn.array.drop (pn.GetSize / 2) })
    (h5x : ∀ q, q ≠ P → q ≠ N →
      t5.pages q = if q ∈ (pn.array.drop (pn.GetSize / 2)).map Prod.snd
        then (t.pages q).map (fun n => { n with parent_page_id_ := N })
        else t.pages q)
    (hnext : t5.next_page_id = N + 1) (hroot : t5.root_page_id_ = t.root_page_id_)
    (hl : t5.leaf_max_size_ = t.leaf_max_size_)
    (hm : t5.internal_max_size_ = t.internal_max_size_) :
    SplitInv t5 (setAt lev N (lev P)) P N := by
  obtain ⟨pn1, hpn1, hpt, hfull, hm2⟩ := hov.full
  rw [hpn] at hpn1; cases hpn1
  have hpl := hov.linked P pn hpn
  have hstN : ∀ q qn, t.pages q = some qn → q ≠ N := by
    intro q qn hq
    have := stored_lt t hov.fresh q qn hq
    rw [hN]
    exact ne_of_lt this
  have hPN : P ≠ N := hstN P pn hpn
  have hNinv : N ≠ INVALID_PAGE_ID := by
    have := hov.next_pos
    rw [hN]
    exact ne_of_gt (by simp only [INVALID_PAGE_ID]; linarith)
  have hsub : ∀ c ∈ (pn.array.drop (pn.GetSize / 2)).map Prod.snd, c ∈ pn.array.map Prod.snd := by
    intro c hc
    rw [List.map_drop] at hc
    exact List.mem_of_mem_drop hc
  have hsub2 : ∀ c ∈ (pn.array.take (pn.GetSize / 2)).map Prod.snd, c ∈ pn.array.map Prod.snd := by
    intro c hc
    rw [List.map_take] at hc
    exact List.mem_of_mem_take hc
  have hchild : ∀ c ∈ pn.array.map Prod.snd, ∃ cn, t.pages c = some cn ∧ lev c + 1 = lev P :=
    hpl.children hpt
  have hchP : ∀ c ∈ pn.array.map Prod.snd, c ≠ P := by
    intro c hc e
    obtain ⟨cn, _, hcl⟩ := hchild c hc
    rw [e] at hcl
    omega
  have hk : ∀ q qn, t.pages q = some qn →
      ∃ qn1, t5.pages q = some qn1 ∧ qn1.page_type_ = qn.page_type_ := by
    intro q qn hq
    by_cases hqP : q = P
    · subst hqP
      rw [hpn] at hq; cases hq
      exact ⟨_, h5P, rfl⟩
    · rw [h5x q hqP (hstN q qn hq), hq]
      split
      · exact ⟨_, rfl, rfl⟩
      · exact ⟨_, rfl, rfl⟩
  have hv : ∀ q qn, t.pages q = some qn → setAt lev N (lev P) q = lev q := by
    intro q qn hq
    simp [setAt, hstN q qn hq]
  have hr : lev t.root_page_id_ ≤ setAt lev N (lev P) t5.root_page_id_ := by
    obtain ⟨r, hr⟩ := hov.root_stored
    rw [hroot, hv _ _ hr]
  have hlevN : setAt lev N (lev P) N = lev P := by simp [setAt]
  have hchroot : ∀ c ∈ pn.array.map Prod.snd, c ≠ t.root_page_id_ := by
    intro c hc e
    obtain ⟨cn, _, hcl⟩ := hchild c hc
    have := hpl.lev_le
    rw [e] at hcl
    omega
  have hnp := hov.next_pos
  have hht := hov.height
  have hlen : pn.array.length = t.internal_max_size_ := hfull
  refine ⟨by rw [hroot]; exact hov.root_ne, by linarith, ?_, ?_, ?_, ?_, ?_, ?_, ?_, ?_, ?_,
    hPN⟩
  · -- fresh
    intro p hp
    have h1 : p ≠ N := ne_of_gt (by linarith)
    have h2 : p ≠ P := by
      have := stored_lt t hov.fresh P pn hpn
      exact ne_of_gt (by linarith)
    have h3 : t.pages p = none := hov.fresh p (by linarith)
    rw [h5x p h2 h1, h3]
    split <;> rfl
  · -- root stored
    obtain ⟨r, hr0⟩ := hov.root_stored
    obtain ⟨r1, hr1, _⟩ := hk _ _ hr0
    exact ⟨r1, by rw [hroot]; exact hr1⟩
  · -- height
    obtain ⟨r, hr0⟩ := hov.root_stored
    rw [hroot, hv _ _ hr0]
    linarith
  · -- linked
    intro p n hp
    by_cases hpP : p = P
    · subst hpP
      rw [h5P] at hp; cases hp
      have hfr := Linked_frame t t5 lev _ p pn pn hl hm hk hv hr hpn hpl
      refine ⟨hfr.id_eq, hfr.kind, hfr.parent_ok, hfr.leaf_lev, hfr.leaf_max, hfr.int_max,
        fun _ => ?_, fun hi c hc => hfr.children hi c (hsub2 c hc), hfr.lev_le⟩
      simp only [BPlusTreePage.GetSize, List.length_take]
      omega
    · by_cases hpN : p = N
      · subst hpN
        rw [h5N] at hp; cases hp
        refine ⟨rfl, Or.inr rfl, ?_,
          fun hi => absurd hi (by simp [BPlusTreeInternalPage.Init]),
          fun hi => absurd hi (by simp [BPlusTreeInternalPage.Init]), ?_, ?_, ?_, ?_⟩
        · intro hne
          obtain ⟨q, hq, hqt, hql⟩ := hpl.parent_ok hne
          obtain ⟨q1, hq1, hq1t⟩ := hk _ _ hq
          refine ⟨q1, hq1, hq1t.trans hqt, ?_⟩
          have : setAt lev p (lev P) pn.parent_page_id_ = lev pn.parent_page_id_ := hv _ _ hq
          simp only [BPlusTreeInternalPage.Init] at this ⊢
          rw [this, hql, hlevN]
        · intro _
          simp only [BPlusTreeInternalPage.Init]
          rw [hm]
          exact hpl.int_max hpt
        · intro _
          simp only [BPlusTreePage.GetSize, List.length_drop]
          omega
        · intro _ c hc
          obtain ⟨cn, hcn, hcl⟩ := hchild c (hsub c hc)
          obtain ⟨cn1, hcn1, _⟩ := hk _ _ hcn
          exact ⟨cn1, hcn1, by rw [hv _ _ hcn, hlevN, hcl]⟩
        · rw [hlevN]
          exact le_trans hpl.lev_le hr
      · rw [h5x p hpP hpN] at hp
        split at hp
        · rename_i hmemd
          cases hp0 : t.pages p with
          | none => rw [hp0] at hp; simp at hp
          | some n0 =>
            rw [hp0] at hp
            simp only [Option.map_some', Option.some.injEq] at hp
            subst hp
            have hfr := Linked_frame t t5 lev _ p n0 n0 hl hm hk hv hr hp0 (hov.linked p n0 hp0)
            obtain ⟨cn, _, hcl⟩ := hchild p (hsub p hmemd)
            exact Linked_reparent t5 _ p N n0 _ hfr h5N rfl
              (by rw [hlevN, hv _ _ hp0, hcl])
        · exact Linked_frame t t5 lev _ p n n hl hm hk hv hr hp (hov.linked p n hp)
  · -- sizes
    intro p n hp hpP hpN
    rw [h5x p hpP hpN] at hp
    split at hp
    · rename_i hmemd
      cases hp0 : t.pages p with
      | none => rw [hp0] at hp; simp at hp
      | some n0 =>
        rw [hp0] at hp
        simp only [Option.map_some', Option.some.injEq] at hp
        subst hp
        have h1 : BPlusTreePage.IsRootPage { n0 with parent_page_id_ := N } = false := by
          simp [BPlusTreePage.IsRootPage, hNinv]
        have h2 : n0.IsRootPage = false := by
          have := (hov.root_iff p n0 hp0).not.2 (hchroot p (hsub p hmemd))
          simp [BPlusTreePage.IsRootPage, this]
        rw [h1]
        have := hov.sizes p n0 hp0 hpP
        rw [h2] at this
        exact SizeOK_congr t t5 _ _ hl hm (SizeOK_of_eq t n0 _ false rfl rfl this)
    · exact SizeOK_congr t t5 _ _ hl hm (hov.sizes p n hp hpP)
  · -- root_iff
    intro p n hp hpN
    rw [hroot]
    by_cases hpP : p = P
    · subst hpP
      rw [h5P] at hp; cases hp
      exact hov.root_iff p pn hpn
    · rw [h5x p hpP hpN] at hp
      split at hp
      · rename_i hmemd
        cases hp0 : t.pages p with
        | none => rw [hp0] at hp; simp at hp
        | some n0 =>
          rw [hp0] at hp
          simp only [Option.map_some', Option.some.injEq] at hp
          subst hp
          exact ⟨fun h => absurd h hNinv, fun h => absurd h (hchroot p (hsub p hmemd))⟩
      · exact hov.root_iff p n hp
  · -- old_new
    refine ⟨_, _, h5P, h5N, rfl, ?_, ?_⟩
    · refine ⟨fun h => absurd (hpt.symm.trans h) (by decide), fun _ => ?_⟩
      simp only [Bool.false_eq_true, if_false, BPlusTreePage.GetSize, List.length_take, hm]
      omega
    · refine ⟨fun h => absurd h (by simp [BPlusTreeInternalPage.Init]), fun _ => ?_⟩
      simp only [Bool.false_eq_true, if_false, BPlusTreePage.GetSize, List.length_drop, hm]
      omega
  · -- lev_eq
    simp [setAt, hPN]
  · -- new_ne
    obtain ⟨r, hr0⟩ := hov.root_stored
    rw [hroot]
    exact fun e => hstN _ _ hr0 e.symm

/-- The state after the split root `old` and its new sibling `new` got the new root `N`. -/
theorem TreeInv_of_new_root (t t5 : BPlusTree) (lev : page_id_t → Nat) (old new N : page_id_t)
    (o n : BPlusTreePage) (key : KeyType)
    (hs : SplitInv t lev old new) (ho : t.pages old = some o) (hn : t.pages new = some n)
    (hor : o.parent_page_id_ = INVALID_PAGE_ID) (hN : N = t.next_page_id)
    (h5N : t5.pages N = some (BPlusTreeInternalPage.PopulateNewRoot
      (BPlusTreeInternalPage.Init BPlusTreePage.zeroed N INVALID_PAGE_ID t.internal_max_size_)
      old key new))
    (h5o : t5.pages old = some { o with parent_page_id_ := N })
    (h5n : t5.pages new = some { n with parent_page_id_ := N })
    (h5x : ∀ q, q ≠ old → q ≠ new → q ≠ N → t5.pages q = t.pages q)
    (hnext : t5.next_page_id = N + 1) (hroot : t5.root_page_id_ = N)
    (hl : t5.leaf_max_size_ = t.leaf_max_size_)
    (hm : t5.internal_max_size_ = t.internal_max_size_) :
    TreeInv t5 (setAt lev N (lev old + 1)) := by
  obtain ⟨o1, n1, ho1, hn1, hpar, hso, hsn⟩ := hs.old_new
  rw [ho] at ho1; cases ho1
  rw [hn] at hn1; cases hn1
  have hol := hs.linked old o ho
  have hnl := hs.linked new n hn
  have hstN : ∀ q qn, t.pages q = some qn → q ≠ N := by
    intro q qn hq
    have := stored_lt t hs.fresh q qn hq
    rw [hN]
    exact ne_of_lt this
  have hoN : old ≠ N := hstN old o ho
  have hnN : new ≠ N := hstN new n hn
  have hNinv : N ≠ INVALID_PAGE_ID := by
    have := hs.next_pos
    rw [hN]
    exact ne_of_gt (by simp only [INVALID_PAGE_ID]; linarith)
  have hold_root : old = t.root_page_id_ := (hs.root_iff old o ho hs.old_ne).1 hor
  have hk : ∀ q qn, t.pages q = some qn →
      ∃ qn1, t5.pages q = some qn1 ∧ qn1.page_type_ = qn.page_type_ := by
    intro q qn hq
    by_cases hqo : q = old
    · subst hqo
      rw [ho] at hq; cases hq
      exact ⟨_, h5o, rfl⟩
    · by_cases hqn : q = new
      · subst hqn
        rw [hn] at hq; cases hq
        exact ⟨_, h5n, rfl⟩
      · exact ⟨qn, by rw [h5x q hqo hqn (hstN q qn hq)]; exact hq, rfl⟩
  have hv : ∀ q qn, t.pages q = some qn → setAt lev N (lev old + 1) q = lev q := by
    intro q qn hq
    simp [setAt, hstN q qn hq]
  have hlevN : setAt lev N (lev old + 1) N = lev old + 1 := by simp [setAt]
  have hr : lev t.root_page_id_ ≤ setAt lev N (lev old + 1) t5.root_page_id_ := by
    rw [hroot, hlevN, ← hold_root]
    omega
  have hnp := hs.next_pos
  have hht := hs.height
  have hRt : (BPlusTreeInternalPage.PopulateNewRoot (BPlusTreeInternalPage.Init
      BPlusTreePage.zeroed N INVALID_PAGE_ID t.internal_max_size_) old key new).page_type_ =
      IndexPageType.INTERNAL_PAGE := rfl
  refine ⟨by rw [hroot]; exact hNinv, by linarith, ?_, ⟨_, by rw [hroot]; exact h5N⟩, ?_, ?_, ?_,
    ?_⟩
  · -- fresh
    intro p hp
    have h1 : p ≠ N := ne_of_gt (by linarith)
    have h2 : p ≠ old := by
      have := stored_lt t hs.fresh old o ho
      exact ne_of_gt (by linarith)
    have h3 : p ≠ new := by
      have := stored_lt t hs.fresh new n hn
      exact ne_of_gt (by linarith)
    rw [h5x p h2 h3 h1]
    exact hs.fresh p (by linarith)
  · -- height
    rw [hroot, hlevN, hnext]
    rw [← hold_root] at hht
    push_cast
    linarith
  · -- linked
    intro p n1 hp
    by_cases hpN : p = N
    · subst hpN
      rw [h5N] at hp; cases hp
      refine ⟨rfl, Or.inr rfl, fun h => absurd rfl h, fun hi => absurd hi (by simp [hRt]),
        fun hi => absurd hi (by simp [hRt]), fun _ => by rw [hm]; rfl,
        fun _ => by simp [BPlusTreeInternalPage.PopulateNewRoot, BPlusTreePage.GetSize], ?_,
        by rw [hroot]⟩
      intro _ c hc
      simp only [BPlusTreeInternalPage.PopulateNewRoot, List.map_cons, List.map_nil,
        List.mem_cons, List.mem_singleton, List.not_mem_nil, or_false] at hc
      rcases hc with h | h
      · subst h
        exact ⟨_, h5o, by rw [hlevN, hv _ _ ho]⟩
      · subst h
        exact ⟨_, h5n, by rw [hlevN, hv _ _ hn, hs.lev_eq]⟩
    · by_cases hpo : p = old
      · subst hpo
        rw [h5o] at hp; cases hp
        have hfr := Linked_frame t t5 lev _ p o o hl hm hk hv hr ho hol
        exact Linked_reparent t5 _ p N o _ hfr h5N hRt (by rw [hlevN, hv _ _ ho])
      · by_cases hpn : p = new
        · subst hpn
          rw [h5n] at hp; cases hp
          have hfr := Linked_frame t t5 lev _ p n n hl hm hk hv hr hn hnl
          exact Linked_reparent t5 _ p N n _ hfr h5N hRt (by rw [hlevN, hv _ _ hn, hs.lev_eq])
        · rw [h5x p hpo hpn hpN] at hp
          exact Linked_frame t t5 lev _ p n1 n1 hl hm hk hv hr hp (hs.linked p n1 hp)
  · -- sizes
    intro p n1 hp
    by_cases hpN : p = N
    · subst hpN
      rw [h5N] at hp; cases hp
      refine ⟨fun hi => absurd hi (by simp [hRt]), fun _ => ?_⟩
      simp only [BPlusTreeInternalPage.PopulateNewRoot, BPlusTreePage.IsRootPage,
        decide_True, if_true, BPlusTreePage.GetSize, List.length_cons, List.length_nil]
      omega
    · by_cases hpo : p = old
      · subst hpo
        rw [h5o] at hp; cases hp
        have h1 : BPlusTreePage.IsRootPage { o with parent_page_id_ := N } = false := by
          simp [BPlusTreePage.IsRootPage, hNinv]
        rw [h1]
        exact SizeOK_congr t t5 _ _ hl hm (SizeOK_of_eq t o _ false rfl rfl hso)
      · by_cases hpn : p = new
        · subst hpn
          rw [h5n] at hp; cases hp
          have h1 : BPlusTreePage.IsRootPage { n with parent_page_id_ := N } = false := by
            simp [BPlusTreePage.IsRootPage, hNinv]
          rw [h1]
          exact SizeOK_congr t t5 _ _ hl hm (SizeOK_of_eq t n _ false rfl rfl hsn)
        · rw [h5x p hpo hpn hpN] at hp
          exact SizeOK_congr t t5 _ _ hl hm (hs.sizes p n1 hp hpo hpn)
  · -- root_iff
    intro p n1 hp
    rw [hroot]
    by_cases hpN : p = N
    · subst hpN
      rw [h5N] at hp; cases hp
      exact ⟨fun _ => rfl, fun _ => rfl⟩
    · by_cases hpo : p = old
      · subst hpo
        rw [h5o] at hp; cases hp
        exact ⟨fun h => absurd h hNinv, fun h => absurd h hpN⟩
      · by_cases hpn : p = new
        · subst hpn
          rw [h5n] at hp; cases hp
          exact ⟨fun h => absurd h hNinv, fun h => absurd h hpN⟩
        · rw [h5x p hpo hpn hpN] at hp
          refine ⟨fun h => ?_, fun h => absurd h hpN⟩
          exact absurd (((hs.root_iff p n1 hp hpn).1 h).trans hold_root.symm) hpo

theorem Internal_KeyAt_zero (n : BPlusTreePage) (h : 1 ≤ n.GetSize) :
    ∃ k, BPlusTreeInternalPage.KeyAt n 0 = .ok k := by
  unfold BPlusTreeInternalPage.KeyAt
  simp only [le_refl, if_true, Int.toNat_zero]
  cases hg : n.array.get? 0 with
  | none =>
    rw [List.get?_eq_none] at hg
    simp only [BPlusTreePage.GetSize] at h
    omega
  | some item => exact ⟨item.1, rfl⟩

/-- `InsertIntoParent` returns and restores the invariant. -/
theorem InsertIntoParent_ok (fuel : Nat) : ∀ (t : BPlusTree) (lev : page_id_t → Nat)
    (txn : Transaction) (old new : page_id_t) (key : KeyType),
    SplitInv t lev old new → txn.deleted_page_set = [] →
    lev t.root_page_id_ < lev old + fuel →
    ∃ t1 txn1 lev1, BPlusTree.InsertIntoParent fuel t txn old key new = .ok (t1, txn1) ∧
      txn1.deleted_page_set = [] ∧ TreeInv t1 lev1 ∧
      t1.leaf_max_size_ = t.leaf_max_size_ ∧
      t1.internal_max_size_ = t.internal_max_size_ := by
  induction fuel with
  | zero =>
    intro t lev txn old new key hs _ hf
    obtain ⟨o, n, ho, _⟩ := hs.old_new
    have := (hs.linked old o ho).lev_le
    omega
  | succ fuel ih =>
    intro t lev txn old new key hs htxn hf
    obtain ⟨o, n, ho, hn, hpar, hso, hsn⟩ := hs.old_new
    have hfo : t.FetchPage old = .ok o := (FetchPage_ok _ _ _).2 ho
    have holt := stored_lt t hs.fresh old o ho
    have hnlt := stored_lt t hs.fresh new n hn
    have hoN : old ≠ t.next_page_id := ne_of_lt holt
    have hnN : new ≠ t.next_page_id := ne_of_lt hnlt
    by_cases hroot : o.IsRootPage = true
    · -- a new root
      have hor := (IsRootPage_iff o).1 hroot
      have h5 := TreeInv_of_new_root t
        ((({ (t.NewPage).1 with root_page_id_ := t.next_page_id }.setPage t.next_page_id
          (BPlusTreeInternalPage.PopulateNewRoot (BPlusTreeInternalPage.Init BPlusTreePage.zeroed
            t.next_page_id INVALID_PAGE_ID t.internal_max_size_) old key new)).setPage old
          { o with parent_page_id_ := t.next_page_id }).setPage new
          { n with parent_page_id_ := t.next_page_id })
        lev old new t.next_page_id o n key hs ho hn hor rfl
        (by simp [BPlusTree.setPage, setAt, Ne.symm hoN, Ne.symm hnN])
        (by simp [BPlusTree.setPage, setAt, hs.old_ne])
        (by simp [BPlusTree.setPage, setAt])
        (by intro q h1 h2 h3; simp [BPlusTree.setPage, BPlusTree.NewPage, setAt, h1, h2, h3])
        rfl rfl rfl rfl
      refine ⟨_, txn, _, ?_, htxn, h5, rfl, rfl⟩
      unfold BPlusTree.InsertIntoParent
      simp only [bind, Except.bind, hfo, hroot, if_true]
      have h1 : (({ (t.NewPage).1 with root_page_id_ := (t.NewPage).2 }.setPage (t.NewPage).2
          (BPlusTreeInternalPage.PopulateNewRoot (BPlusTreeInternalPage.Init BPlusTreePage.zeroed
            (t.NewPage).2 INVALID_PAGE_ID t.internal_max_size_) old key new))).FetchPage old =
          .ok o := by
        simp [BPlusTree.FetchPage, BPlusTree.setPage, BPlusTree.NewPage, setAt, hoN, ho]
      simp only [h1]
      have h2 : ((({ (t.NewPage).1 with root_page_id_ := (t.NewPage).2 }.setPage (t.NewPage).2
          (BPlusTreeInternalPage.PopulateNewRoot (BPlusTreeInternalPage.Init BPlusTreePage.zeroed
            (t.NewPage).2 INVALID_PAGE_ID t.internal_max_size_) old key new))).setPage old
          { o with parent_page_id_ := (t.NewPage).2 }).FetchPage new = .ok n := by
        simp [BPlusTree.FetchPage, BPlusTree.setPage, BPlusTree.NewPage, setAt, hnN,
          Ne.symm hs.old_ne, hn]
      simp only [h2]
      rfl
    · -- the parent takes the new page
      have hroot2 : o.IsRootPage = false := by simpa using hroot
      have hPne : o.parent_page_id_ ≠ INVALID_PAGE_ID := fun e => hroot ((IsRootPage_iff o).2 e)
      obtain ⟨pn, hpn, hpt, hpl⟩ := (hs.linked old o ho).parent_ok hPne
      have hPnew : o.parent_page_id_ ≠ new := fun e => by rw [e, hs.lev_eq] at hpl; omega
      have hfP : t.FetchPage o.parent_page_id_ = .ok pn := (FetchPage_ok _ _ _).2 hpn
      have hfn : t.FetchPage new = .ok n := (FetchPage_ok _ _ _).2 hn
      have hfP1 : (t.setPage new { n with parent_page_id_ := o.parent_page_id_ }).FetchPage
          o.parent_page_id_ = .ok pn := by
        simp [BPlusTree.FetchPage, BPlusTree.setPage, setAt, hPnew, hpn]
      obtain ⟨hia1, hia2, hia3, hia4⟩ := InsertNodeAfter_spec pn old key new
      have hmax : pn.max_size_ = t.internal_max_size_ := (hs.linked _ pn hpn).int_max hpt
      have hap := after_parent_insert t
        ((t.setPage new { n with parent_page_id_ := o.parent_page_id_ }).setPage
          o.parent_page_id_ (BPlusTreeInternalPage.InsertNodeAfter pn old key new).1)
        lev old new o.parent_page_id_ o n pn
        (BPlusTreeInternalPage.InsertNodeAfter pn old key new).1.array hs ho hn hPne rfl hpn
        hia2 hia3
        (by rw [setPage_same]; exact congrArg some hia4)
        (by rw [setPage_other _ _ _ _ (Ne.symm hPnew), setPage_same])
        (by intro q h1 h2; rw [setPage_other _ _ _ _ h1, setPage_other _ _ _ _ h2])
        rfl rfl rfl rfl
      unfold BPlusTree.InsertIntoParent
      simp only [bind, Except.bind, hfo, hroot2, Bool.false_eq_true, if_false, hfP, hfn, hfP1]
      by_cases hsz : (BPlusTreeInternalPage.InsertNodeAfter pn old key new).2 =
          (BPlusTreeInternalPage.InsertNodeAfter pn old key new).1.max_size_
      · -- the parent is split
        simp only [hsz, if_true]
        have hfull : (BPlusTreeInternalPage.InsertNodeAfter pn old key new).1.array.length =
            t.internal_max_size_ := by
          rw [hia2, ← hia1, hsz, hia4]
          exact hmax
        have hov := hap.2 hfull
        obtain ⟨pn1, hpn1, hpt1, _, _⟩ := hov.full
        have hch : ∀ c ∈ pn1.array.map Prod.snd,
            (∃ cn, ((t.setPage new { n with parent_page_id_ := o.parent_page_id_ }).setPage
              o.parent_page_id_ (BPlusTreeInternalPage.InsertNodeAfter pn old key new).1).pages c =
              some cn) ∧ c ≠ o.parent_page_id_ ∧
            c ≠ ((t.setPage new { n with parent_page_id_ := o.parent_page_id_ }).setPage
              o.parent_page_id_
              (BPlusTreeInternalPage.InsertNodeAfter pn old key new).1).next_page_id := by
          intro c hc
          obtain ⟨cn, hcn, hcl⟩ := (hov.linked _ pn1 hpn1).children hpt1 c hc
          exact ⟨⟨cn, hcn⟩, fun e => by rw [e] at hcl; omega,
            ne_of_lt (stored_lt _ hov.fresh c cn hcn)⟩
        obtain ⟨t5, txn1, h5, h5t, h5P, h5N, h5x, h5next, h5root, h5l, h5m⟩ :=
          SplitInternal_eq _ txn o.parent_page_id_ pn1 hpn1
            (ne_of_lt (stored_lt _ hov.fresh _ pn1 hpn1)) hch
        have hs5 := SplitInv_of_internal_split _ t5 lev o.parent_page_id_ _ pn1 hov hpn1 rfl
          h5P h5N h5x h5next h5root h5l h5m
        simp only [h5]
        have hfN : t5.FetchPage ((t.setPage new { n with parent_page_id_ := o.parent_page_id_
            }).setPage o.parent_page_id_
            (BPlusTreeInternalPage.InsertNodeAfter pn old key new).1).next_page_id = .ok _ :=
          (FetchPage_ok _ _ _).2 h5N
        simp only [hfN]
        have hsz5 := (hs5.linked _ _ h5N).int_size rfl
        obtain ⟨k0, hk0⟩ := Internal_KeyAt_zero _ hsz5
        simp only [hk0]
        have hroot_st : ∃ r, t.pages t.root_page_id_ = some r := hs.root_stored
        obtain ⟨r, hr⟩ := hroot_st
        have hlev5 : setAt lev ((t.setPage new { n with parent_page_id_ := o.parent_page_id_
            }).setPage o.parent_page_id_
            (BPlusTreeInternalPage.InsertNodeAfter pn old key new).1).next_page_id
            (lev o.parent_page_id_) t5.root_page_id_ = lev t.root_page_id_ := by
          rw [h5root]
          have : t.root_page_id_ ≠ t.next_page_id := ne_of_lt (stored_lt t hs.fresh _ r hr)
          simp [setAt, BPlusTree.setPage, this]
        have hlev5P : setAt lev ((t.setPage new { n with parent_page_id_ := o.parent_page_id_
            }).setPage o.parent_page_id_
            (BPlusTreeInternalPage.InsertNodeAfter pn old key new).1).next_page_id
            (lev o.parent_page_id_) o.parent_page_id_ = lev o.parent_page_id_ := by
          have : o.parent_page_id_ ≠ t.next_page_id := ne_of_lt (stored_lt t hs.fresh _ pn hpn)
          simp [setAt, BPlusTree.setPage, this]
        obtain ⟨t6, txn6, lev6, h6, h6t, h6i, h6l, h6m⟩ := ih t5 _ txn1 o.parent_page_id_ _ k0
          hs5 (h5t.trans htxn) (by rw [hlev5, hlev5P, hpl]; omega)
        exact ⟨t6, txn6, lev6, h6, h6t, h6i, h6l.trans h5l, h6m.trans h5m⟩
      · -- no split
        simp only [hsz, if_false]
        have hne : (BPlusTreeInternalPage.InsertNodeAfter pn old key new).1.array.length ≠
            t.internal_max_size_ := by
          intro e
          apply hsz
          rw [hia1, ← hia2, e, hia4]
          exact hmax.symm
        exact ⟨_, txn, lev, rfl, htxn, hap.1 hne, rfl, rfl⟩

/-- The state after a pair was put into a leaf that stays below `leaf_max_size`. -/
theorem TreeInv_of_leaf_insert (t t2 : BPlusTree) (lev : page_id_t → Nat) (X : page_id_t)
    (xn : BPlusTreePage) (arr : List (KeyType × Int))
    (hinv : TreeInv t lev) (hX : t.pages X = some xn)
    (hleaf : xn.page_type_ = IndexPageType.LEAF_PAGE)
    (hsz : arr.length = xn.GetSize + 1) (hne : arr.length ≠ t.leaf_max_size_)
    (h2X : t2.pages X = some { xn with array := arr })
    (h2o : ∀ p, p ≠ X → t2.pages p = t.pages p)
    (hnext : t2.next_page_id = t.next_page_id) (hroot : t2.root_page_id_ = t.root_page_id_)
    (hl : t2.leaf_max_size_ = t.leaf_max_size_)
    (hm : t2.internal_max_size_ = t.internal_max_size_) : TreeInv t2 lev := by
  have hXl := hinv.linked X xn hX
  have hk : ∀ q qn, t.pages q = some qn →
      ∃ qn1, t2.pages q = some qn1 ∧ qn1.page_type_ = qn.page_type_ := by
    intro q qn hq
    by_cases hqX : q = X
    · subst hqX
      rw [hX] at hq; cases hq
      exact ⟨_, h2X, rfl⟩
    · exact ⟨qn, by rw [h2o q hqX]; exact hq, rfl⟩
  have hv : ∀ q qn, t.pages q = some qn → lev q = lev q := fun _ _ _ => rfl
  have hr : lev t.root_page_id_ ≤ lev t2.root_page_id_ := by rw [hroot]
  refine ⟨by rw [hroot]; exact hinv.root_ne, by rw [hnext]; exact hinv.next_pos, ?_, ?_,
    by rw [hroot, hnext]; exact hinv.height, ?_, ?_, ?_⟩
  · intro p hp
    rw [hnext] at hp
    have h1 : p ≠ X := fun e => by
      have := stored_lt t hinv.fresh X xn hX
      rw [e] at hp
      exact absurd this (not_lt.2 hp)
    rw [h2o p h1]
    exact hinv.fresh p hp
  · obtain ⟨r, hr0⟩ := hinv.root_stored
    obtain ⟨r1, hr1, _⟩ := hk _ _ hr0
    exact ⟨r1, by rw [hroot]; exact hr1⟩
  · intro p n hp
    by_cases hpX : p = X
    · subst hpX
      rw [h2X] at hp; cases hp
      refine Linked_frame t t2 lev lev p _ xn hl hm hk hv hr hX ?_
      exact ⟨hXl.id_eq, hXl.kind, hXl.parent_ok, hXl.leaf_lev, hXl.leaf_max,
        fun hi => absurd (hleaf.symm.trans hi) (by decide),
        fun hi => absurd (hleaf.symm.trans hi) (by decide),
        fun hi => absurd (hleaf.symm.trans hi) (by decide), hXl.lev_le⟩
    · rw [h2o p hpX] at hp
      exact Linked_frame t t2 lev lev p n n hl hm hk hv hr hp (hinv.linked p n hp)
  · intro p n hp
    by_cases hpX : p = X
    · subst hpX
      rw [h2X] at hp; cases hp
      have hs := hinv.sizes p xn hX
      have hty : (BPlusTreePage.IsRootPage { xn with array := arr }) = xn.IsRootPage := rfl
      rw [hty]
      unfold SizeOK at hs ⊢
      rw [hl, hm]
      refine ⟨fun _ => ?_, fun h => absurd (hleaf.symm.trans h) (by decide)⟩
      have h2 := hs.1 hleaf
      simp only [BPlusTreePage.GetSize] at h2 hsz ⊢
      split
      · rename_i hr1
        rw [if_pos hr1] at h2
        omega
      · rename_i hr1
        rw [if_neg hr1] at h2
        omega
    · rw [h2o p hpX] at hp
      exact SizeOK_congr t t2 _ _ hl hm (hinv.sizes p n hp)
  · intro p n hp
    rw [hroot]
    by_cases hpX : p = X
    · subst hpX
      rw [h2X] at hp; cases hp
      exact hinv.root_iff p xn hX
    · rw [h2o p hpX] at hp
      exact hinv.root_iff p n hp

theorem TreeInv_StartNewTree (t : BPlusTree) (k : KeyType) (v : ValueType) (hb : Blank t) :
    TreeInv (t.StartNewTree k v) (fun _ => 0) := by
  have hnp := hb.next_pos
  have hNinv : t.next_page_id ≠ INVALID_PAGE_ID :=
    ne_of_gt (by simp only [INVALID_PAGE_ID]; linarith)
  have hpages : ∀ p, (t.StartNewTree k v).pages p =
      if p = t.next_page_id then some (BPlusTreeLeafPage.Insert
        (BPlusTreeLeafPage.Init t.next_page_id INVALID_PAGE_ID t.leaf_max_size_) k v).1
      else none := by
    intro p
    simp only [BPlusTree.StartNewTree, BPlusTree.NewPage, setAt]
    split
    · rfl
    · exact hb.pages p
  have hst : ∀ p n, (t.StartNewTree k v).pages p = some n → p = t.next_page_id ∧
      n = (BPlusTreeLeafPage.Insert
        (BPlusTreeLeafPage.Init t.next_page_id INVALID_PAGE_ID t.leaf_max_size_) k v).1 := by
    intro p n hp
    rw [hpages] at hp
    split at hp
    · rename_i h
      exact ⟨h, by simpa using hp.symm⟩
    · simp at hp
  have hsize := (Leaf_Insert_size
    (BPlusTreeLeafPage.Init t.next_page_id INVALID_PAGE_ID t.leaf_max_size_) k v).2
  refine ⟨hNinv, ?_, ?_, ⟨_, by rw [hpages]; exact if_pos rfl⟩, ?_, ?_, ?_, ?_⟩
  · show (1 : Int) ≤ t.next_page_id + 1
    linarith
  · intro p hp
    rw [hpages]
    have : p ≠ t.next_page_id := by
      have h1 : t.next_page_id + 1 ≤ p := hp
      exact ne_of_gt (by linarith)
    exact if_neg this
  · show ((0 : Nat) : Int) + 2 ≤ t.next_page_id + 1
    push_cast
    linarith
  · intro p n hp
    obtain ⟨h1, h2⟩ := hst p n hp
    subst h1 h2
    exact ⟨rfl, Or.inl rfl, fun h => absurd rfl h, fun _ => rfl, fun _ => rfl,
      fun hi => absurd hi (by simp [BPlusTreeLeafPage.Insert, BPlusTreeLeafPage.Init]),
      fun hi => absurd hi (by simp [BPlusTreeLeafPage.Insert, BPlusTreeLeafPage.Init]),
      fun hi => absurd hi (by simp [BPlusTreeLeafPage.Insert, BPlusTreeLeafPage.Init]),
      le_refl _⟩
  · intro p n hp
    obtain ⟨h1, h2⟩ := hst p n hp
    subst h1 h2
    refine ⟨fun _ => ?_,
      fun hi => absurd hi (by simp [BPlusTreeLeafPage.Insert, BPlusTreeLeafPage.Init])⟩
    have hr : BPlusTreePage.IsRootPage (BPlusTreeLeafPage.Insert
        (BPlusTreeLeafPage.Init t.next_page_id INVALID_PAGE_ID t.leaf_max_size_) k v).1 = true := by
      simp [BPlusTreePage.IsRootPage, BPlusTreeLeafPage.Insert, BPlusTreeLeafPage.Init]
    rw [if_pos hr, hsize]
    simp only [BPlusTreePage.GetSize, BPlusTreeLeafPage.Init, List.length_nil]
    have : (t.StartNewTree k v).leaf_max_size_ = t.leaf_max_size_ := rfl
    omega
  · intro p n hp
    obtain ⟨h1, h2⟩ := hst p n hp
    subst h1 h2
    exact ⟨fun _ => rfl, fun _ => rfl⟩

theorem Leaf_KeyAt_zero (n : BPlusTreePage) (h : 1 ≤ n.GetSize) :
    ∃ k, BPlusTreeLeafPage.KeyAt n 0 = .ok k := by
  unfold BPlusTreeLeafPage.KeyAt
  cases hg : n.array.get? 0 with
  | none =>
    rw [List.get?_eq_none] at hg
    simp only [BPlusTreePage.GetSize] at h
    omega
  | some item => exact ⟨item.1, rfl⟩

theorem fuel_gt (t : BPlusTree) (a : Nat) (h : (a : Int) + 2 ≤ t.next_page_id) : a < t.fuel := by
  have h1 : (a : Int) < t.next_page_id := by linarith
  have := Int.lt_toNat.2 h1
  unfold BPlusTree.fuel
  omega

/-- `Insert` on a non-empty tree that satisfies the invariant returns, and the tree it
leaves satisfies the invariant. -/
theorem Insert_TreeInv (t : BPlusTree) (lev : page_id_t → Nat) (k : KeyType) (v : ValueType)
    (hinv : TreeInv t lev) :
    ∃ t1 b lev1, t.Insert k v = .ok (t1, b) ∧ TreeInv t1 lev1 ∧
      t1.leaf_max_size_ = t.leaf_max_size_ ∧
      t1.internal_max_size_ = t.internal_max_size_ := by
  have he : t.IsEmpty = false := by simp [BPlusTree.IsEmpty, hinv.root_ne]
  obtain ⟨X, txn1, xn, hfl, htxn1, hX, hleaf⟩ := FindLeafPage_linked t lev hinv.linked
    hinv.root_ne hinv.root_stored (fuel_gt t _ hinv.height) k Operate_Type.OP_INSERT
    Transaction.new rfl
  have hfX : t.FetchPage X = .ok xn := (FetchPage_ok _ _ _).2 hX
  unfold BPlusTree.Insert BPlusTree.InsertIntoLeaf
  simp only [he, Bool.false_eq_true, if_false, bind, Except.bind, hfl, hfX]
  cases hlook : BPlusTreeLeafPage.Lookup xn k with
  | some val =>
    simp only [FreePages_some t true txn1 (-1) htxn1]
    exact ⟨t, false, lev, rfl, hinv, rfl, rfl⟩
  | none =>
    simp only
    obtain ⟨hli1, hli2⟩ := Leaf_Insert_size xn k v
    have hXN : X ≠ t.next_page_id := ne_of_lt (stored_lt t hinv.fresh X xn hX)
    by_cases hsz : (BPlusTreeLeafPage.Insert xn k v).2 = t.leaf_max_size_
    · -- the leaf is split
      simp only [hsz, if_true]
      obtain ⟨t3, txn2, h3, h3t, h3X, h3N, h3x, h3next, h3root, h3l, h3m⟩ :=
        SplitLeaf_eq (t.setPage X (BPlusTreeLeafPage.Insert xn k v).1) txn1 X
          (BPlusTreeLeafPage.Insert xn k v).1 (setPage_same _ _ _) hXN
      have hs3 := SplitInv_of_leaf_split t t3 lev X t.next_page_id xn
        (BPlusTreeLeafPage.Insert xn k v).1.array hinv hX hleaf rfl
        (by rw [← hsz, hli1]; exact hli2) hli2 h3X h3N
        (by intro p h1 h2; rw [h3x p h1 h2, setPage_other _ _ _ _ h1]) h3next h3root h3l h3m
      simp only [h3]
      obtain ⟨o3, n3, _, hn3, _, _, hsn3⟩ := hs3.old_new
      have hty3 : n3.page_type_ = IndexPageType.LEAF_PAGE := by
        have h3N2 : t3.pages t.next_page_id = some _ := h3N
        have e := Option.some.inj (hn3.symm.trans h3N2)
        rw [e]
        rfl
      have hfN : t3.FetchPage (t.setPage X (BPlusTreeLeafPage.Insert xn k v).1).next_page_id =
          .ok n3 := (FetchPage_ok _ _ _).2 hn3
      simp only [hfN]
      have hsz3 : 1 ≤ n3.GetSize := by
        have := hsn3.1 hty3
        simp only [Bool.false_eq_true, if_false] at this
        omega
      obtain ⟨k0, hk0⟩ := Leaf_KeyAt_zero _ hsz3
      simp only [hk0]
      have hfu : (setAt lev t.next_page_id 0) t3.root_page_id_ <
          (setAt lev t.next_page_id 0) X + t3.fuel := by
        have := fuel_gt t3 ((setAt lev t.next_page_id 0) t3.root_page_id_)
          (by have := hs3.height; linarith)
        omega
      obtain ⟨t4, txn4, lev4, h4, h4t, h4i, h4l, h4m⟩ := InsertIntoParent_ok t3.fuel t3 _ txn2 X
        t.next_page_id k0 hs3 (h3t.trans htxn1) hfu
      have h4b : BPlusTree.InsertIntoParent t3.fuel t3 txn2 X k0
          (t.setPage X (BPlusTreeLeafPage.Insert xn k v).1).next_page_id = .ok (t4, txn4) := h4
      simp only [h4b, FreePages_some t4 true txn4 (-1) h4t]
      exact ⟨t4, true, lev4, rfl, h4i, h4l.trans h3l, h4m.trans h3m⟩
    · -- no split
      simp only [hsz, if_false]
      rw [FreePages_some _ true txn1 (-1) htxn1]
      have hi2 := TreeInv_of_leaf_insert t (t.setPage X (BPlusTreeLeafPage.Insert xn k v).1) lev
        X xn (BPlusTreeLeafPage.Insert xn k v).1.array hinv hX hleaf hli2
        (fun e => hsz (hli1.trans (hli2.symm.trans e))) (setPage_same _ _ _)
        (fun p hp => setPage_other _ _ _ _ hp) rfl rfl rfl rfl
      exact ⟨_, true, lev, rfl, hi2, rfl, rfl⟩

/-- States a sequence of `Insert` calls on a new tree goes through. -/
theorem Insert_Built (t : BPlusTree) (k : KeyType) (v : ValueType)
    (h : Blank t ∨ ∃ lev, TreeInv t lev) :
    ∃ t1 b lev1, t.Insert k v = .ok (t1, b) ∧ TreeInv t1 lev1 ∧
      t1.leaf_max_size_ = t.leaf_max_size_ ∧
      t1.internal_max_size_ = t.internal_max_size_ := by
  rcases h with hb | ⟨lev, hinv⟩
  · refine ⟨t.StartNewTree k v, true, fun _ => 0, ?_, TreeInv_StartNewTree t k v hb, rfl, rfl⟩
    simp [BPlusTree.Insert, BPlusTree.IsEmpty, hb.root]
  · exact Insert_TreeInv t lev k v hinv

theorem insertAll_Built (kvs : List (KeyType × ValueType)) : ∀ t : BPlusTree,
    (Blank t ∨ ∃ lev, TreeInv t lev) →
    ∃ t1, t.applyAll (kvs.map (fun kv => TreeOp.Insert kv.1 kv.2)) = .ok t1 ∧
      (Blank t1 ∨ ∃ lev, TreeInv t1 lev) ∧
      t1.leaf_max_size_ = t.leaf_max_size_ ∧
      t1.internal_max_size_ = t.internal_max_size_ := by
  induction kvs with
  | nil => intro t h; exact ⟨t, rfl, h, rfl, rfl⟩
  | cons kv kvs ih =>
    intro t h
    obtain ⟨t1, b, lev1, h1, h2, h3, h4⟩ := Insert_Built t kv.1 kv.2 h
    obtain ⟨t2, h5, h6, h7, h8⟩ := ih t1 (Or.inr ⟨lev1, h2⟩)
    refine ⟨t2, ?_, h6, h7.trans h3, h8.trans h4⟩
    simp only [List.map_cons, BPlusTree.applyAll, BPlusTree.apply, bind, Except.bind, h1]
    exact h5

/-- C19 (amended). For a `leaf_max_size` of at least 2 and an `internal_max_size` of at
least 3: when the `Insert` calls of a sequence on a new tree all return, every page of the
tree they leave other than the root satisfies: a leaf has
`ceil((max_size - 1) / 2) ≤ size ≤ max_size - 1` and an internal page has
`floor(max_size / 2) ≤ size < max_size`, where `max_size` is the `leaf_max_size`,
respectively the `internal_max_size`, of the tree. -/
theorem insert_only_size_bounds (l m : Nat) (kvs : List (KeyType × ValueType)) (t : BPlusTree)
    (hl : 2 ≤ l) (hm : 3 ≤ m)
    (hrun : (BPlusTree.new l m).applyAll (kvs.map (fun kv => TreeOp.Insert kv.1 kv.2)) = .ok t) :
    ∀ p n, t.pages p = some n → p ≠ t.root_page_id_ →
      (n.IsLeafPage = true → n.max_size_ = l ∧
        (n.max_size_ - 1 + 1) / 2 ≤ n.GetSize ∧ n.GetSize ≤ n.max_size_ - 1) ∧
      (n.IsLeafPage = false → n.max_size_ = m ∧
        n.max_size_ / 2 ≤ n.GetSize ∧ n.GetSize < n.max_size_) := by
  have hb : Blank (BPlusTree.new l m) := ⟨rfl, fun _ => rfl, le_refl _⟩
  obtain ⟨t1, h1, h2, h3, h4⟩ := insertAll_Built kvs (BPlusTree.new l m) (Or.inl hb)
  rw [hrun] at h1
  have ht : t = t1 := by
    injection h1
  subst ht
  intro p n hp hroot
  rcases h2 with hbl | ⟨lev, hinv⟩
  · rw [hbl.pages p] at hp
    exact absurd hp (by simp)
  · have hlk := hinv.linked p n hp
    have hsz := hinv.sizes p n hp
    have hnr : n.IsRootPage = false := by
      have := (hinv.root_iff p n hp).not.2 hroot
      simp [BPlusTreePage.IsRootPage, this]
    rw [hnr] at hsz
    have h3b : t.leaf_max_size_ = l := h3
    have h4b : t.internal_max_size_ = m := h4
    constructor
    · intro hleaf
      have hty := (IsLeafPage_iff n).1 hleaf
      have hmax := hlk.leaf_max hty
      have := hsz.1 hty
      simp only [Bool.false_eq_true, if_false] at this
      refine ⟨hmax.trans h3b, ?_, ?_⟩ <;> omega
    · intro hleaf
      have hty : n.page_type_ = IndexPageType.INTERNAL_PAGE := by
        rcases hlk.kind with h | h
        · rw [(IsLeafPage_iff n).2 h] at hleaf
          exact absurd hleaf (by decide)
        · exact h
      have hmax := hlk.int_max hty
      have := hsz.2 hty
      simp only [Bool.false_eq_true, if_false] at this
      refine ⟨hmax.trans h4b, ?_, ?_⟩ <;> omega

set_option maxHeartbeats 1000000

/-! ## B+ tree: binary search in sorted pages -/

theorem aboveLo_iff (a : Option KeyType) (k : KeyType) : boundLe a (some k) ↔ aboveLo a k := by
  unfold boundLe aboveLo
  constructor
  · intro h x hx; exact h x k hx rfl
  · intro h x y hx hy; cases hy; exact h x hx

theorem boundLe_none_left (b : Option KeyType) : boundLe none b := by
  intro x y hx; cases hx

theorem boundLe_none_right (a : Option KeyType) : boundLe a none := by
  intro x y _ hy; cases hy

theorem aboveLo_none (k : KeyType) : aboveLo none k := by
  intro x hx; cases hx

theorem belowHi_none (k : KeyType) : belowHi k none := by
  intro x hx; cases hx

theorem aboveLo_some (x k : KeyType) : aboveLo (some x) k ↔ x ≤ k := by
  unfold aboveLo
  constructor
  · intro h; exact h x rfl
  · intro h y hy; cases hy; exact h

theorem belowHi_some (k y : KeyType) : belowHi k (some y) ↔ k < y := by
  unfold belowHi
  constructor
  · intro h; exact h y rfl
  · intro h z hz; cases hz; exact h

theorem aboveLo_trans (a : Option KeyType) (k k2 : KeyType) (h : aboveLo a k) (h2 : k ≤ k2) :
    aboveLo a k2 := by
  intro x hx; exact le_trans (h x hx) h2

theorem belowHi_trans (k k2 : KeyType) (b : Option KeyType) (h : belowHi k2 b) (h2 : k ≤ k2) :
    belowHi k b := by
  intro y hy; exact lt_of_le_of_lt h2 (h y hy)

theorem belowHi_widen (k : KeyType) (b c : Option KeyType) (h : belowHi k b)
    (hb : ∃ y, b = some y) (hbc : boundLe b c) : belowHi k c := by
  obtain ⟨y, hy⟩ := hb
  intro z hz
  exact lt_of_lt_of_le (h y hy) (hbc y z hy hz)

/-- Strict order of the keys of a sorted leaf array, by index. -/
theorem sorted_get (arr : List (KeyType × Int)) (h : arr.Pairwise (fun x y => x.1 < y.1)) :
    ∀ i j x y, i < j → arr.get? i = some x → arr.get? j = some y → x.1 < y.1 := by
  intro i j x y hij hx hy
  rw [List.pairwise_iff_get] at h
  have hi : i < arr.length := by
    by_contra hc
    rw [List.get?_eq_none.mpr (by omega)] at hx; cases hx
  have hj : j < arr.length := by
    by_contra hc
    rw [List.get?_eq_none.mpr (by omega)] at hy; cases hy
  have := h ⟨i, hi⟩ ⟨j, hj⟩ (by simpa using hij)
  rw [List.get?_eq_get hi] at hx
  rw [List.get?_eq_get hj] at hy
  cases hx; cases hy
  exact this

theorem KeyIndexLoop_spec (arr : List (KeyType × Int)) (key : KeyType)
    (hs : ∀ i j x y, i < j → arr.get? i = some x → arr.get? j = some y → x.1 < y.1) :
    ∀ (fuel : Nat) (left right : Int), 0 ≤ left → right < arr.length → left ≤ right + 1 →
      right - left + 2 ≤ fuel →
      (∀ (i : Nat) x, (i : Int) < left → arr.get? i = some x → x.1 < key) →
      (∀ (i : Nat) x, right < (i : Int) → arr.get? i = some x → key ≤ x.1) →
      0 ≤ BPlusTreeLeafPage.KeyIndexLoop arr key fuel left right ∧
      BPlusTreeLeafPage.KeyIndexLoop arr key fuel left right ≤ arr.length ∧
      (∀ (i : Nat) x, (i : Int) < BPlusTreeLeafPage.KeyIndexLoop arr key fuel left right →
        arr.get? i = some x → x.1 < key) ∧
      (∀ (i : Nat) x, BPlusTreeLeafPage.KeyIndexLoop arr key fuel left right ≤ (i : Int) →
        arr.get? i = some x → key ≤ x.1) := by
  intro fuel
  induction fuel with
  | zero =>
    intro left right h0 h1 h2 h3 _ _
    omega
  | succ fuel ih =>
    intro left right h0 h1 h2 h3 hl hr
    unfold BPlusTreeLeafPage.KeyIndexLoop
    by_cases hle : left ≤ right
    · rw [if_pos hle]
      have hmid0 : 0 ≤ (right - left) / 2 + left := by omega
      have hmid1 : (right - left) / 2 + left ≤ right := by omega
      have hmid2 : left ≤ (right - left) / 2 + left := by omega
      have hlt : ((right - left) / 2 + left).toNat < arr.length := by
        have : (((right - left) / 2 + left).toNat : Int) = (right - left) / 2 + left :=
          Int.toNat_of_nonneg hmid0
        omega
      have hcast : (((right - left) / 2 + left).toNat : Int) = (right - left) / 2 + left :=
        Int.toNat_of_nonneg hmid0
      have hget : arr.get? ((right - left) / 2 + left).toNat =
          some (arr.get ⟨_, hlt⟩) := List.get?_eq_get hlt
      simp only [hget]
      by_cases hk : (arr.get ⟨_, hlt⟩).1 ≥ key
      · rw [if_pos hk]
        apply ih left _ h0 (by omega) (by omega) (by omega) hl
        intro i x hi hx
        by_cases hie : i = ((right - left) / 2 + left).toNat
        · subst hie; rw [hget] at hx; cases hx; exact hk
        · have : ((right - left) / 2 + left).toNat < i := by omega
          have := hs _ _ _ _ this hget hx
          exact le_of_lt (lt_of_le_of_lt hk this)
      · rw [if_neg hk]
        apply ih _ right (by omega) h1 (by omega) (by omega) _ hr
        intro i x hi hx
        by_cases hie : i = ((right - left) / 2 + left).toNat
        · subst hie; rw [hget] at hx; cases hx; exact lt_of_not_ge hk
        · have : i < ((right - left) / 2 + left).toNat := by omega
          have := hs _ _ _ _ this hx hget
          exact lt_trans this (lt_of_not_ge hk)
    · rw [if_neg hle]
      have : right + 1 = left := by omega
      rw [this]
      exact ⟨h0, by omega, hl, fun i x hi hx => hr i x (by omega) hx⟩

/-- `KeyIndex` on a sorted leaf: the keys before the index are smaller than `key`, the
keys from the index on are not. -/
theorem KeyIndex_spec (n : BPlusTreePage) (key : KeyType)
    (h : n.array.Pairwise (fun x y => x.1 < y.1)) :
    BPlusTreeLeafPage.KeyIndex n key ≤ n.array.length ∧
    (∀ x ∈ n.array.take (BPlusTreeLeafPage.KeyIndex n key), x.1 < key) ∧
    (∀ x ∈ n.array.drop (BPlusTreeLeafPage.KeyIndex n key), key ≤ x.1) := by
  have hs := sorted_get n.array h
  have := KeyIndexLoop_spec n.array key hs (n.GetSize + 1) 0 ((n.GetSize : Int) - 1)
    (by omega) (by simp [BPlusTreePage.GetSize]) (by omega) (by push_cast; omega)
    (by intro i x hi; omega)
    (by intro i x hi hx
        have : i < n.array.length := by
          by_contra hc
          rw [List.get?_eq_none.mpr (by omega)] at hx; cases hx
        simp [BPlusTreePage.GetSize] at hi; omega)
  obtain ⟨h0, h1, h2, h3⟩ := this
  unfold BPlusTreeLeafPage.KeyIndex
  generalize BPlusTreeLeafPage.KeyIndexLoop n.array key (n.GetSize + 1) 0
    ((n.GetSize : Int) - 1) = r at *
  have hc : (r.toNat : Int) = r := Int.toNat_of_nonneg h0
  refine ⟨by omega, ?_, ?_⟩
  · intro x hx
    obtain ⟨i, hi⟩ := List.get?_of_mem hx
    have hlen : i < r.toNat := by
      by_contra hc2
      rw [List.get?_take_eq_none (by omega)] at hi; cases hi
    rw [List.get?_take hlen] at hi
    exact h2 i x (by omega) hi
  · intro x hx
    obtain ⟨i, hi⟩ := List.get?_of_mem hx
    rw [List.get?_drop] at hi
    exact h3 _ x (by push_cast; omega) hi

theorem take_drop_keys (arr : List (KeyType × Int)) (i : Nat) (x : KeyType × Int)
    (hx : x ∈ arr) : x ∈ arr.take i ∨ x ∈ arr.drop i := by
  have : x ∈ arr.take i ++ arr.drop i := by rw [List.take_append_drop]; exact hx
  exact List.mem_append.mp this

/-- `Lookup` on a sorted leaf finds every pair stored in it. -/
theorem Leaf_Lookup_mem (n : BPlusTreePage) (k : KeyType) (v : Int)
    (h : n.array.Pairwise (fun x y => x.1 < y.1)) (hm : (k, v) ∈ n.array) :
    BPlusTreeLeafPage.Lookup n k = some v := by
  obtain ⟨h1, h2, h3⟩ := KeyIndex_spec n k h
  unfold BPlusTreeLeafPage.Lookup
  simp only
  generalize BPlusTreeLeafPage.KeyIndex n k = idx at *
  have hd : (k, v) ∈ n.array.drop idx := by
    rcases take_drop_keys n.array idx _ hm with h4 | h4
    · have := h2 _ h4; simp at this
    · exact h4
  have hsd : (n.array.drop idx).Pairwise (fun x y => x.1 < y.1) :=
    List.Pairwise.sublist (List.drop_sublist _ _) h
  cases hdr : n.array.drop idx with
  | nil => rw [hdr] at hd; cases hd
  | cons y rest =>
    have hget : n.array.get? idx = some y := by
      have := List.get?_drop n.array idx 0
      rw [hdr] at this
      simpa using this.symm
    rw [hget]
    rw [hdr] at hd hsd h3
    have hy := h3 y (List.mem_cons_self _ _)
    rcases List.mem_cons.mp hd with h5 | h5
    · subst h5; simp
    · have := (List.pairwise_cons.mp hsd).1 _ h5
      exact absurd this (not_lt.mpr hy)

/-- `Lookup` on a leaf finds only keys stored in it. -/
theorem Leaf_Lookup_some (n : BPlusTreePage) (k : KeyType) (v : Int)
    (h : BPlusTreeLeafPage.Lookup n k = some v) : (k, v) ∈ n.array := by
  unfold BPlusTreeLeafPage.Lookup at h
  cases hg : n.array.get? (BPlusTreeLeafPage.KeyIndex n k) with
  | none => simp only [hg] at h; cases h
  | some y =>
    simp only [hg] at h
    by_cases hy : y.1 = k
    · rw [if_pos hy] at h
      cases h
      have := List.get?_mem hg
      rw [← hy]; exact this
    · rw [if_neg hy] at h; cases h

/-- `Insert` into a sorted leaf that does not hold the key keeps the leaf sorted. -/
theorem Leaf_Insert_sorted (n : BPlusTreePage) (k : KeyType) (v : Int)
    (h : n.array.Pairwise (fun x y => x.1 < y.1))
    (hk : BPlusTreeLeafPage.Lookup n k = none) :
    (BPlusTreeLeafPage.Insert n k v).1.array.Pairwise (fun x y => x.1 < y.1) := by
  obtain ⟨h1, h2, h3⟩ := KeyIndex_spec n k h
  unfold BPlusTreeLeafPage.Insert
  simp only
  have hnk : ∀ x ∈ n.array, x.1 ≠ k := by
    intro x hx hxe
    have := Leaf_Lookup_mem n k x.2 h (by rw [← hxe]; exact hx)
    rw [hk] at this; cases this
  generalize BPlusTreeLeafPage.KeyIndex n k = idx at *
  rw [List.pairwise_append]
  refine ⟨List.Pairwise.sublist (List.take_sublist _ _) h, ?_, ?_⟩
  · rw [List.pairwise_cons]
    refine ⟨?_, List.Pairwise.sublist (List.drop_sublist _ _) h⟩
    intro y hy
    have h4 := h3 y hy
    have h5 := hnk y (List.mem_of_mem_drop hy)
    exact lt_of_le_of_ne h4 (Ne.symm h5)
  · intro a ha b hb
    rcases List.mem_cons.mp hb with h4 | h4
    · subst h4; exact h2 a ha
    · have h5 : (n.array.take idx ++ n.array.drop idx).Pairwise (fun x y => x.1 < y.1) := by
        rw [List.take_append_drop]; exact h
      exact (List.pairwise_append.mp h5).2.2 a ha b h4

theorem Leaf_Insert_mem (n : BPlusTreePage) (k : KeyType) (v : Int) (x : KeyType × Int) :
    x ∈ (BPlusTreeLeafPage.Insert n k v).1.array ↔ x = (k, v) ∨ x ∈ n.array := by
  unfold BPlusTreeLeafPage.Insert
  simp only
  generalize BPlusTreeLeafPage.KeyIndex n k = idx
  constructor
  · intro h
    rcases List.mem_append.mp h with h1 | h1
    · exact Or.inr (List.mem_of_mem_take h1)
    · rcases List.mem_cons.mp h1 with h2 | h2
      · exact Or.inl h2
      · exact Or.inr (List.mem_of_mem_drop h2)
  · intro h
    rcases h with h | h
    · subst h; simp
    · rcases take_drop_keys n.array idx x h with h1 | h1
      · exact List.mem_append.mpr (Or.inl h1)
      · exact List.mem_append.mpr (Or.inr (List.mem_cons_of_mem _ h1))

theorem Leaf_Insert_eq (n : BPlusTreePage) (k : KeyType) (v : Int) :
    (BPlusTreeLeafPage.Insert n k v).1 =
      { n with array := (BPlusTreeLeafPage.Insert n k v).1.array } := rfl

/-- `RemoveAndDeleteRecord` leaves a sublist of the pairs. -/
theorem Leaf_Remove_sublist (n : BPlusTreePage) (k : KeyType) :
    (BPlusTreeLeafPage.RemoveAndDeleteRecord n k).1 =
      { n with array := (BPlusTreeLeafPage.RemoveAndDeleteRecord n k).1.array } ∧
    (BPlusTreeLeafPage.RemoveAndDeleteRecord n k).1.array.Sublist n.array ∧
    (BPlusTreeLeafPage.RemoveAndDeleteRecord n k).2 =
      (BPlusTreeLeafPage.RemoveAndDeleteRecord n k).1.GetSize := by
  unfold BPlusTreeLeafPage.RemoveAndDeleteRecord
  simp only
  cases hg : n.array.get? (BPlusTreeLeafPage.KeyIndex n k) with
  | none => exact ⟨rfl, List.Sublist.refl _, rfl⟩
  | some y =>
    simp only
    by_cases hy : y.1 = k
    · rw [if_pos hy]
      exact ⟨rfl, List.eraseIdx_sublist _ _, rfl⟩
    · rw [if_neg hy]
      exact ⟨rfl, List.Sublist.refl _, rfl⟩

/-! ## B+ tree: the tiling of an internal page -/

theorem Tiled_congr (lo hi lo2 hi2 : page_id_t → Option KeyType) (b : Option KeyType) :
    ∀ (arr : List (KeyType × Int)) (a : Option KeyType),
      (∀ c ∈ arr.map Prod.snd, lo2 c = lo c ∧ hi2 c = hi c) →
      Tiled lo hi a arr b → Tiled lo2 hi2 a arr b
  | [], _, _, _ => trivial
  | [item], a, hc, h => by
    obtain ⟨h1, h2, h3⟩ := h
    have := hc item.2 (by simp)
    exact ⟨by rw [this.1]; exact h1, by rw [this.2]; exact h2, h3⟩
  | item :: next :: rest, a, hc, h => by
    obtain ⟨h1, h2, h3, h4⟩ := h
    have := hc item.2 (by simp)
    refine ⟨by rw [this.1]; exact h1, by rw [this.2]; exact h2, h3, ?_⟩
    exact Tiled_congr lo hi lo2 hi2 b (next :: rest) _
      (fun c hc2 => hc c (List.mem_cons_of_mem _ hc2)) h4

theorem Tiled_append (lo hi : page_id_t → Option KeyType) (b : Option KeyType)
    (x : KeyType × Int) (l2 : List (KeyType × Int)) :
    ∀ (l1 : List (KeyType × Int)) (a : Option KeyType), l1 ≠ [] →
      (Tiled lo hi a (l1 ++ x :: l2) b ↔
        Tiled lo hi a l1 (some x.1) ∧ Tiled lo hi (some x.1) (x :: l2) b)
  | [], _, h => absurd rfl h
  | [y], a, _ => by
    show (lo y.2 = a ∧ hi y.2 = some x.1 ∧ aboveLo a x.1 ∧ Tiled lo hi (some x.1) (x :: l2) b) ↔
      (lo y.2 = a ∧ hi y.2 = some x.1 ∧ boundLe a (some x.1)) ∧ Tiled lo hi (some x.1) (x :: l2) b
    rw [aboveLo_iff]
    tauto
  | y :: z :: l1, a, _ => by
    show (lo y.2 = a ∧ hi y.2 = some z.1 ∧ aboveLo a z.1 ∧
        Tiled lo hi (some z.1) ((z :: l1) ++ x :: l2) b) ↔
      (lo y.2 = a ∧ hi y.2 = some z.1 ∧ aboveLo a z.1 ∧ Tiled lo hi (some z.1) (z :: l1) (some x.1)) ∧
        Tiled lo hi (some x.1) (x :: l2) b
    rw [Tiled_append lo hi b x l2 (z :: l1) (some z.1) (by simp)]
    tauto

theorem Tiled_head_key (lo hi : page_id_t → Option KeyType) (a b : Option KeyType)
    (s s2 : KeyType) (c : Int) (rest : List (KeyType × Int)) :
    Tiled lo hi a ((s, c) :: rest) b ↔ Tiled lo hi a ((s2, c) :: rest) b := by
  cases rest with
  | nil => exact Iff.rfl
  | cons y rest => exact Iff.rfl

theorem Tiled_bound (lo hi : page_id_t → Option KeyType) (b : Option KeyType) :
    ∀ (arr : List (KeyType × Int)) (a : Option KeyType), arr ≠ [] →
      Tiled lo hi a arr b → boundLe a b
  | [], _, h, _ => absurd rfl h
  | [_], _, _, h => h.2.2
  | _ :: next :: rest, a, _, h => by
    obtain ⟨_, _, h3, h4⟩ := h
    have := Tiled_bound lo hi b (next :: rest) _ (by simp) h4
    intro x y hx hy
    exact le_trans (h3 x hx) (this _ y rfl hy)

theorem Tiled_head (lo hi : page_id_t → Option KeyType) (a b : Option KeyType)
    (x : KeyType × Int) (rest : List (KeyType × Int)) (h : Tiled lo hi a (x :: rest) b) :
    lo x.2 = a ∧ hi x.2 = (match rest.head? with | some nx => some nx.1 | none => b) := by
  cases rest with
  | nil => exact ⟨h.1, h.2.1⟩
  | cons y rest => exact ⟨h.1, h.2.1⟩

theorem Tiled_drop (lo hi : page_id_t → Option KeyType) (b : Option KeyType) :
    ∀ (i : Nat) (arr : List (KeyType × Int)) (a : Option KeyType) (x : KeyType × Int),
      1 ≤ i → arr.get? i = some x → Tiled lo hi a arr b →
      Tiled lo hi (some x.1) (arr.drop i) b ∧ aboveLo a x.1
  | 0, _, _, _, h, _, _ => by omega
  | _ + 1, [], _, _, _, hg, _ => by cases hg
  | _ + 1, [_], _, _, _, hg, _ => by
    simp at hg
  | 0 + 1, _ :: next :: rest, a, x, _, hg, h => by
    simp at hg
    subst hg
    exact ⟨h.2.2.2, h.2.2.1⟩
  | (i + 1) + 1, _ :: next :: rest, a, x, _, hg, h => by
    have hg2 : (next :: rest).get? (i + 1) = some x := by simpa using hg
    have := Tiled_drop lo hi b (i + 1) (next :: rest) (some next.1) x (by omega) hg2 h.2.2.2
    refine ⟨by simpa using this.1, ?_⟩
    have h3 := this.2 _ rfl
    exact aboveLo_trans _ _ _ h.2.2.1 h3

/-- The labels of the child in slot `i` of a tiled array. -/
theorem Tiled_get (lo hi : page_id_t → Option KeyType) (a b : Option KeyType)
    (arr : List (KeyType × Int)) (h : Tiled lo hi a arr b) (i : Nat) (x : KeyType × Int)
    (hx : arr.get? i = some x) :
    lo x.2 = (if i = 0 then a else some x.1) ∧
    hi x.2 = (match arr.get? (i + 1) with | some nx => some nx.1 | none => b) ∧
    (1 ≤ i → aboveLo a x.1 ∧ boundLe (some x.1) b) := by
  cases i with
  | zero =>
    cases arr with
    | nil => cases hx
    | cons y rest =>
      simp at hx; subst hx
      have := Tiled_head lo hi a b _ rest h
      refine ⟨by simpa using this.1, ?_, by omega⟩
      rw [this.2]
      cases rest <;> rfl
  | succ i =>
    obtain ⟨h1, h2⟩ := Tiled_drop lo hi b (i + 1) arr a x (by omega) hx h
    have hd : arr.drop (i + 1) = x :: arr.drop (i + 2) := by
      have := List.drop_eq_getElem_cons (l := arr) (n := i + 1)
        (by
          by_contra hc
          rw [List.get?_eq_none.mpr (by omega)] at hx; cases hx)
      rw [this]
      congr 1
      have hl : i + 1 < arr.length := by
        by_contra hc
        rw [List.get?_eq_none.mpr (by omega)] at hx; cases hx
      rw [List.get?_eq_get hl] at hx
      cases hx; rfl
    rw [hd] at h1
    have := Tiled_head lo hi _ b _ _ h1
    refine ⟨by simpa using this.1, ?_, fun _ => ⟨h2, Tiled_bound lo hi b _ _ (by simp) h1⟩⟩
    rw [this.2]
    have : (arr.drop (i + 2)).head? = arr.get? (i + 1 + 1) := by
      rw [← List.get?_zero, List.get?_drop]
    rw [this]

/-- The keys of the slots from 1 on are in order. -/
theorem Tiled_sorted (lo hi : page_id_t → Option KeyType) (a b : Option KeyType)
    (arr : List (KeyType × Int)) (h : Tiled lo hi a arr b) :
    ∀ i j x y, 1 ≤ i → i < j → arr.get? i = some x → arr.get? j = some y → x.1 ≤ y.1 := by
  intro i j x y hi1 hij hx hy
  obtain ⟨h1, _⟩ := Tiled_drop lo hi b i arr a x hi1 hx h
  have hy2 : (arr.drop i).get? (j - i) = some y := by
    rw [List.get?_drop]
    have : i + (j - i) = j := by omega
    rw [this]; exact hy
  have := Tiled_drop lo hi b (j - i) (arr.drop i) (some x.1) y (by omega) hy2 h1
  exact this.2 _ rfl

theorem LookupLoop_spec (arr : List (KeyType × Int)) (key : KeyType)
    (hs : ∀ i j x y, 1 ≤ i → i < j → arr.get? i = some x → arr.get? j = some y → x.1 ≤ y.1) :
    ∀ (fuel : Nat) (left right : Int), 1 ≤ left → right < arr.length → left ≤ right + 1 →
      right - left + 2 ≤ fuel →
      (∀ (i : Nat) x, 1 ≤ i → (i : Int) < left → arr.get? i = some x → x.1 ≤ key) →
      (∀ (i : Nat) x, right < (i : Int) → arr.get? i = some x → key < x.1) →
      1 ≤ BPlusTreeInternalPage.LookupLoop arr key fuel left right ∧
      BPlusTreeInternalPage.LookupLoop arr key fuel left right ≤ arr.length ∧
      (∀ (i : Nat) x, 1 ≤ i →
        (i : Int) < BPlusTreeInternalPage.LookupLoop arr key fuel left right →
        arr.get? i = some x → x.1 ≤ key) ∧
      (∀ (i : Nat) x, BPlusTreeInternalPage.LookupLoop arr key fuel left right ≤ (i : Int) →
        arr.get? i = some x → key < x.1) := by
  intro fuel
  induction fuel with
  | zero =>
    intro left right h0 h1 h2 h3 _ _
    omega
  | succ fuel ih =>
    intro left right h0 h1 h2 h3 hl hr
    unfold BPlusTreeInternalPage.LookupLoop
    by_cases hle : left ≤ right
    · rw [if_pos hle]
      have hmid0 : 1 ≤ (right - left) / 2 + left := by omega
      have hmid1 : (right - left) / 2 + left ≤ right := by omega
      have hmid2 : left ≤ (right - left) / 2 + left := by omega
      have hcast : (((right - left) / 2 + left).toNat : Int) = (right - left) / 2 + left :=
        Int.toNat_of_nonneg (by omega)
      have hlt : ((right - left) / 2 + left).toNat < arr.length := by omega
      have hget : arr.get? ((right - left) / 2 + left).toNat =
          some (arr.get ⟨_, hlt⟩) := List.get?_eq_get hlt
      simp only [hget]
      by_cases hk : (arr.get ⟨_, hlt⟩).1 ≤ key
      · rw [if_pos hk]
        apply ih _ right (by omega) h1 (by omega) (by omega) _ hr
        intro i x hi1 hi hx
        by_cases hie : i = ((right - left) / 2 + left).toNat
        · subst hie; rw [hget] at hx; cases hx; exact hk
        · have : i < ((right - left) / 2 + left).toNat := by omega
          have := hs _ _ _ _ hi1 this hx hget
          exact le_trans this hk
      · rw [if_neg hk]
        apply ih left _ h0 (by omega) (by omega) (by omega) hl
        intro i x hi hx
        by_cases hie : i = ((right - left) / 2 + left).toNat
        · subst hie; rw [hget] at hx; cases hx; exact lt_of_not_ge hk
        · have : ((right - left) / 2 + left).toNat < i := by omega
          have := hs _ _ _ _ (by omega) this hget hx
          exact lt_of_lt_of_le (lt_of_not_ge hk) this
    · rw [if_neg hle]
      have : left = right + 1 := by omega
      exact ⟨h0, by omega, hl, fun i x hi hx => hr i x (by omega) hx⟩

/-- `Lookup` in a tiled internal page: the child whose range holds the key. -/
theorem Lookup_tiled (lo hi : page_id_t → Option KeyType) (n : BPlusTreePage) (key : KeyType)
    (a b : Option KeyType) (h : Tiled lo hi a n.array b) (hsz : 1 ≤ n.GetSize)
    (ha : aboveLo a key) (hb : belowHi key b) :
    ∃ c, BPlusTreeInternalPage.Lookup n key = .ok c ∧ c ∈ n.array.map Prod.snd ∧
      aboveLo (lo c) key ∧ belowHi key (hi c) := by
  have hs := Tiled_sorted lo hi a b n.array h
  have hsz2 : 1 ≤ n.array.length := hsz
  have := LookupLoop_spec n.array key hs (n.GetSize + 1) 1 ((n.GetSize : Int) - 1)
    (by omega) (by simp [BPlusTreePage.GetSize]) (by simp [BPlusTreePage.GetSize]; omega)
    (by push_cast; omega)
    (by intro i x hi1 hi; omega)
    (by intro i x hi hx
        have : i < n.array.length := by
          by_contra hc
          rw [List.get?_eq_none.mpr (by omega)] at hx; cases hx
        simp [BPlusTreePage.GetSize] at hi; omega)
  obtain ⟨h1, h2, h3, h4⟩ := this
  unfold BPlusTreeInternalPage.Lookup
  simp only
  generalize BPlusTreeInternalPage.LookupLoop n.array key (n.GetSize + 1) 1
    ((n.GetSize : Int) - 1) = r at *
  have hc : ((r - 1).toNat : Int) = r - 1 := Int.toNat_of_nonneg (by omega)
  have hlt : (r - 1).toNat < n.array.length := by omega
  have hget : n.array.get? (r - 1).toNat = some (n.array.get ⟨_, hlt⟩) := List.get?_eq_get hlt
  rw [hget]
  refine ⟨_, rfl, List.mem_map_of_mem _ (List.get_mem _ _ _), ?_⟩
  obtain ⟨g1, g2, g3⟩ := Tiled_get lo hi a b n.array h _ _ hget
  constructor
  · rw [g1]
    by_cases h0 : (r - 1).toNat = 0
    · rw [if_pos h0]; exact ha
    · rw [if_neg h0]
      rw [aboveLo_some]
      exact h3 _ _ (by omega) (by omega) hget
  · rw [g2]
    cases hn : n.array.get? ((r - 1).toNat + 1) with
    | none => exact hb
    | some nx =>
      simp only
      rw [belowHi_some]
      exact h4 _ _ (by omega) hn

/-! ## B+ tree: walking down a tree with ordered keys -/

theorem Crabing_none (t : BPlusTree) (p prev : page_id_t) (pg : BPlusTreePage)
    (hp : t.pages p = some pg) (hprev : 0 < prev → ∃ x, t.pages prev = some x) :
    t.CrabingProtocalFetchPage p Operate_Type.OP_READ prev none = .ok (t, none, pg) := by
  have hf : t.FetchPage p = .ok pg := (FetchPage_ok _ _ _).2 hp
  have hd : decide (Operate_Type.OP_READ ≠ Operate_Type.OP_READ) = false := by decide
  unfold BPlusTree.CrabingProtocalFetchPage
  simp only [bind, Except.bind, hf, hd]
  by_cases h0 : prev > 0
  · obtain ⟨x, hx⟩ := hprev h0
    have hfp : t.FreePagesInTransaction false none prev = .ok (t, none) := by
      unfold BPlusTree.FreePagesInTransaction
      have : prev ≥ 0 := le_of_lt h0
      simp [this, hx]
    simp [h0, hfp, hf]
  · simp [h0, hf]

theorem IsLeafPage_false (n : BPlusTreePage)
    (hk : n.page_type_ = IndexPageType.LEAF_PAGE ∨ n.page_type_ = IndexPageType.INTERNAL_PAGE) :
    n.IsLeafPage = false ↔ n.page_type_ = IndexPageType.INTERNAL_PAGE := by
  unfold BPlusTreePage.IsLeafPage
  rcases hk with h | h <;> simp [h]

theorem FindLeafLoop_ord (t : BPlusTree) (g : Ghost) (h : Ord t g) (key : KeyType)
    (op : Operate_Type) (P : Option Transaction → Prop)
    (hcr : ∀ c cn cur o, P o → t.pages c = some cn → (0 < cur → ∃ x, t.pages cur = some x) →
      ∃ o1, t.CrabingProtocalFetchPage c op cur o = .ok (t, o1, cn) ∧ P o1) (fuel : Nat) :
    ∀ (cur : page_id_t) (page : BPlusTreePage) (o : Option Transaction),
      g.live cur → t.pages cur = some page → g.lev cur < fuel → aboveLo (g.lo cur) key →
      belowHi key (g.hi cur) → P o →
      ∃ X o1 xn, BPlusTree.FindLeafLoop key false op fuel t o page cur = .ok (t, o1, X) ∧
        P o1 ∧ g.live X ∧ t.pages X = some xn ∧ xn.page_type_ = IndexPageType.LEAF_PAGE ∧
        aboveLo (g.lo X) key ∧ belowHi key (g.hi X) := by
  induction fuel with
  | zero => intro cur page o _ _ hl; omega
  | succ fuel ih =>
    intro cur page o hlive hp hlev ha hb ho
    obtain ⟨n, hn, hok⟩ := h.pages cur hlive
    rw [hp] at hn; cases hn
    unfold BPlusTree.FindLeafLoop
    by_cases hl : page.IsLeafPage = true
    · simp only [hl, if_true]
      exact ⟨cur, o, page, rfl, ho, hlive, hp, (IsLeafPage_iff page).1 hl, ha, hb⟩
    · have hi : page.page_type_ = IndexPageType.INTERNAL_PAGE := by
        rcases hok.kind with h1 | h1
        · exact absurd ((IsLeafPage_iff page).2 h1) hl
        · exact h1
      obtain ⟨c, hc, hmem, hca, hcb⟩ :=
        Lookup_tiled g.lo g.hi page key _ _ (hok.int_tiled hi) (hok.int_size hi) ha hb
      obtain ⟨hcl, hclev, cn, hcn, _⟩ := hok.children hi c hmem
      obtain ⟨o1, hcr1, ho1⟩ := hcr c cn cur o ho hcn (fun _ => ⟨page, hp⟩)
      obtain ⟨X, o2, xn, h1, h2, h3, h4, h5, h6, h7⟩ :=
        ih c cn o1 hcl hcn (by omega) hca hcb ho1
      refine ⟨X, o2, xn, ?_, h2, h3, h4, h5, h6, h7⟩
      simp only [hl, Bool.false_eq_true, if_false, bind, Except.bind, hc, hcr1]
      exact h1

theorem Ord_root_ne (t : BPlusTree) (g : Ghost) (hiC : page_id_t → Option KeyType)
    (ex big : page_id_t) (h : OrdX t g hiC ex big) : t.root_page_id_ ≠ INVALID_PAGE_ID := by
  have := h.live_pos _ h.root_live
  intro hc
  rw [hc] at this
  exact absurd this (by decide)

theorem FindLeafPage_ord (t : BPlusTree) (g : Ghost) (h : Ord t g) (key : KeyType)
    (op : Operate_Type) (P : Option Transaction → Prop)
    (hcr : ∀ c cn cur o, P o → t.pages c = some cn → (0 < cur → ∃ x, t.pages cur = some x) →
      ∃ o1, t.CrabingProtocalFetchPage c op cur o = .ok (t, o1, cn) ∧ P o1)
    (o : Option Transaction) (ho : P o) :
    ∃ X o1 xn, t.FindLeafPage key false op o = .ok (t, o1, some X) ∧
      P o1 ∧ g.live X ∧ t.pages X = some xn ∧ xn.page_type_ = IndexPageType.LEAF_PAGE ∧
      aboveLo (g.lo X) key ∧ belowHi key (g.hi X) := by
  obtain ⟨r, hr, _⟩ := h.pages _ h.root_live
  obtain ⟨o1, hcr1, ho1⟩ := hcr t.root_page_id_ r (-1) o ho hr (fun hc => absurd hc (by decide))
  obtain ⟨X, o2, xn, h1, h2, h3, h4, h5, h6, h7⟩ :=
    FindLeafLoop_ord t g h key op P hcr t.fuel t.root_page_id_ r o1 h.root_live hr
      (fuel_gt t _ h.height) (by rw [h.root_lo]; exact aboveLo_none _)
      (by rw [h.root_hi]; exact belowHi_none _) ho1
  refine ⟨X, o2, xn, ?_, h2, h3, h4, h5, h6, h7⟩
  have he : t.IsEmpty = false := by simp [BPlusTree.IsEmpty, Ord_root_ne t g _ _ _ h]
  unfold BPlusTree.FindLeafPage
  simp only [he, Bool.false_eq_true, if_false, bind, Except.bind, hcr1, h1]

/-- A live page that is not the root has a higher page above it, so a live page as high
as the root is the root. -/
theorem lev_root (t : BPlusTree) (g : Ghost) (h : Ord t g) (p : page_id_t) (hl : g.live p)
    (he : g.lev p = g.lev t.root_page_id_) : p = t.root_page_id_ := by
  by_contra hne
  obtain ⟨n, hn, hok⟩ := h.pages p hl
  have hex : p ≠ INVALID_PAGE_ID := by
    intro hc; have := h.live_pos p hl; rw [hc] at this; exact absurd this (by decide)
  obtain ⟨hpl, q, hq, hqi, hmem⟩ := hok.parent_ok hne hex
  obtain ⟨q2, hq2, hok2⟩ := h.pages _ hpl
  rw [hq] at hq2; cases hq2
  have := (hok2.children hqi p hmem).2.1
  have := hok2.lev_le
  omega

/-- The page above a live page that is not the root. -/
theorem parent_of (t : BPlusTree) (g : Ghost) (h : Ord t g) (p : page_id_t) (n : BPlusTreePage)
    (hl : g.live p) (hn : t.pages p = some n) (hne : p ≠ t.root_page_id_) :
    g.live n.parent_page_id_ ∧ ∃ q, t.pages n.parent_page_id_ = some q ∧
      PageOK t g g.hi INVALID_PAGE_ID n.parent_page_id_ q ∧
      q.page_type_ = IndexPageType.INTERNAL_PAGE ∧ p ∈ q.array.map Prod.snd ∧
      g.lev n.parent_page_id_ = g.lev p + 1 := by
  obtain ⟨n2, hn2, hok⟩ := h.pages p hl
  rw [hn] at hn2; cases hn2
  have hex : p ≠ INVALID_PAGE_ID := by
    intro hc; have := h.live_pos p hl; rw [hc] at this; exact absurd this (by decide)
  obtain ⟨hpl, q, hq, hqi, hmem⟩ := hok.parent_ok hne hex
  obtain ⟨q2, hq2, hok2⟩ := h.pages _ hpl
  rw [hq] at hq2; cases hq2
  exact ⟨hpl, q, hq, hok2, hqi, hmem, ((hok2.children hqi p hmem).2.1).symm⟩

/-- Two slots of a tiled array: the one further left ends where or before the other one
starts. -/
theorem Tiled_apart (lo hi : page_id_t → Option KeyType) (a b : Option KeyType)
    (arr : List (KeyType × Int)) (h : Tiled lo hi a arr b) (i j : Nat) (x y : KeyType × Int)
    (hij : i < j) (hx : arr.get? i = some x) (hy : arr.get? j = some y) :
    ∃ u, hi x.2 = some u ∧ lo y.2 = some y.1 ∧ u ≤ y.1 := by
  obtain ⟨_, g2, _⟩ := Tiled_get lo hi a b arr h i x hx
  obtain ⟨f1, _, _⟩ := Tiled_get lo hi a b arr h j y hy
  have hj0 : ¬ j = 0 := by omega
  rw [if_neg hj0] at f1
  have hlen : i + 1 < arr.length := by
    by_contra hc
    rw [List.get?_eq_none.mpr (by omega)] at hy; cases hy
  have hget : arr.get? (i + 1) = some (arr.get ⟨_, hlen⟩) := List.get?_eq_get hlen
  rw [hget] at g2
  refine ⟨_, g2, f1, ?_⟩
  by_cases hji : j = i + 1
  · subst hji; rw [hget] at hy; cases hy; exact le_refl _
  · exact Tiled_sorted lo hi a b arr h (i + 1) j _ _ (by omega) (by omega) hget hy

/-- The range of a child lies in the range of its parent. -/
theorem Tiled_within (lo hi : page_id_t → Option KeyType) (a b : Option KeyType)
    (arr : List (KeyType × Int)) (h : Tiled lo hi a arr b) (x : KeyType × Int) (hx : x ∈ arr)
    (k : KeyType) (hk1 : aboveLo (lo x.2) k) (hk2 : belowHi k (hi x.2)) :
    aboveLo a k ∧ belowHi k b := by
  obtain ⟨i, hi1⟩ := List.get?_of_mem hx
  obtain ⟨g1, g2, g3⟩ := Tiled_get lo hi a b arr h i x hi1
  constructor
  · by_cases h0 : i = 0
    · rw [if_pos h0] at g1; rw [← g1]; exact hk1
    · rw [if_neg h0] at g1
      rw [g1] at hk1
      exact aboveLo_trans _ _ _ (g3 (by omega)).1 ((aboveLo_some _ _).1 hk1)
  · cases hn : arr.get? (i + 1) with
    | none =>
      rw [hn] at g2
      simp only at g2
      rw [g2] at hk2; exact hk2
    | some nx =>
      rw [hn] at g2
      simp only at g2
      rw [g2] at hk2
      obtain ⟨_, _, f3⟩ := Tiled_get lo hi a b arr h (i + 1) nx hn
      intro y hy
      exact lt_of_lt_of_le ((belowHi_some _ _).1 hk2) ((f3 (by omega)).2 _ y rfl hy)

/-- No key lies in the ranges of two live pages of the same height. -/
theorem range_unique (t : BPlusTree) (g : Ghost) (h : Ord t g) (k : KeyType) (d : Nat) :
    ∀ p q, g.live p → g.live q → g.lev p = g.lev q → g.lev p + d = g.lev t.root_page_id_ →
      aboveLo (g.lo p) k → belowHi k (g.hi p) → aboveLo (g.lo q) k → belowHi k (g.hi q) →
      p = q := by
  induction d with
  | zero =>
    intro p q hp hq he hd _ _ _ _
    rw [lev_root t g h p hp (by omega), lev_root t g h q hq (by omega)]
  | succ d ih =>
    intro p q hp hq he hd hpa hpb hqa hqb
    obtain ⟨pn, hpn, _⟩ := h.pages p hp
    obtain ⟨qn, hqn, _⟩ := h.pages q hq
    have hpr : p ≠ t.root_page_id_ := by intro hc; rw [hc] at hd; omega
    have hqr : q ≠ t.root_page_id_ := by intro hc; rw [hc] at he; omega
    obtain ⟨hP, P, hPs, hPok, hPi, hPm, hPl⟩ := parent_of t g h p pn hp hpn hpr
    obtain ⟨hQ, Q, hQs, hQok, hQi, hQm, hQl⟩ := parent_of t g h q qn hq hqn hqr
    obtain ⟨xp, hxp, hxp2⟩ := List.mem_map.mp hPm
    obtain ⟨xq, hxq, hxq2⟩ := List.mem_map.mp hQm
    have hPt := hPok.int_tiled hPi
    have hQt := hQok.int_tiled hQi
    have r1 := Tiled_within g.lo g.hi _ _ _ hPt xp hxp k (by rw [hxp2]; exact hpa)
      (by rw [hxp2]; exact hpb)
    have r2 := Tiled_within g.lo g.hi _ _ _ hQt xq hxq k (by rw [hxq2]; exact hqa)
      (by rw [hxq2]; exact hqb)
    have hPQ := ih _ _ hP hQ (by omega) (by omega) r1.1 r1.2 r2.1 r2.2
    rw [← hPQ] at hQs
    rw [hPs] at hQs; cases hQs
    obtain ⟨i, hi1⟩ := List.get?_of_mem hxp
    obtain ⟨j, hj1⟩ := List.get?_of_mem hxq
    rcases Nat.lt_trichotomy i j with hlt | heq | hgt
    · obtain ⟨u, hu1, hu2, hu3⟩ := Tiled_apart g.lo g.hi _ _ _ hPt i j xp xq hlt hi1 hj1
      rw [hxp2] at hu1; rw [hxq2] at hu2
      have c1 := hpb u hu1
      have c2 := hqa _ hu2
      exact absurd (lt_of_lt_of_le c1 hu3) (not_lt.mpr c2)
    · subst heq; rw [hi1] at hj1; cases hj1; rw [← hxp2, ← hxq2]
    · obtain ⟨u, hu1, hu2, hu3⟩ := Tiled_apart g.lo g.hi _ _ _ hPt j i xq xp hgt hj1 hi1
      rw [hxq2] at hu1; rw [hxp2] at hu2
      have c1 := hqb u hu1
      have c2 := hpa _ hu2
      exact absurd (lt_of_lt_of_le c1 hu3) (not_lt.mpr c2)

/-- `GetValue` finds a pair stored in a live leaf whose range holds the key. -/
theorem GetValue_ord (t : BPlusTree) (g : Ghost) (h : Ord t g) (k : KeyType) (v : Int)
    (Z : page_id_t) (zn : BPlusTreePage) (hZ : g.live Z) (hzn : t.pages Z = some zn)
    (hleaf : zn.page_type_ = IndexPageType.LEAF_PAGE) (hmem : (k, v) ∈ zn.array) :
    t.GetValue k none = .ok (t, true, [v]) := by
  obtain ⟨zn2, hzn2, hzok⟩ := h.pages Z hZ
  rw [hzn] at hzn2; cases hzn2
  obtain ⟨ha, hb⟩ := hzok.leaf_range hleaf _ hmem
  obtain ⟨X, o1, xn, h1, h2, h3, h4, h5, h6, h7⟩ :=
    FindLeafPage_ord t g h k Operate_Type.OP_READ (fun o => o = none)
      (fun c cn cur o ho hc hcur => ⟨none, by rw [ho]; exact Crabing_none t c cur cn hc hcur, rfl⟩)
      none rfl
  obtain ⟨xn2, hxn2, hxok⟩ := h.pages X h3
  rw [h4] at hxn2; cases hxn2
  have hXZ : X = Z := by
    have l1 := hxok.leaf_lev h5
    have l2 := hzok.leaf_lev hleaf
    have hle := hzok.lev_le
    exact range_unique t g h k (g.lev t.root_page_id_) X Z h3 hZ (by omega) (by omega)
      h6 h7 ha hb
  subst hXZ
  rw [hzn] at h4; cases h4
  have hlk := Leaf_Lookup_mem zn k v (hzok.leaf_sorted hleaf) hmem
  have hpos := h.live_pos X hZ
  have hfp : t.FreePagesInTransaction false none X = .ok (t, none) := by
    unfold BPlusTree.FreePagesInTransaction
    have : X ≥ 0 := le_of_lt hpos
    simp [this, hzn]
  unfold BPlusTree.GetValue
  simp only [bind, Except.bind, h1, h2, (FetchPage_ok _ _ _).2 hzn, hlk, hfp]

/-! ## B+ tree: pages that a change does not touch -/

theorem UpSame_of_eq (t t1 : BPlusTree) (g g1 : Ghost) (hiC hiC1 : page_id_t → Option KeyType)
    (c : page_id_t) (hp : t1.pages c = t.pages c) (hl : g.live c → g1.live c)
    (hlev : g1.lev c = g.lev c) (hlo : g1.lo c = g.lo c) (hhi : hiC1 c = hiC c) :
    UpSame t t1 g g1 hiC hiC1 c :=
  ⟨hl, hlev, hlo, hhi, fun cn hcn => ⟨cn, by rw [hp]; exact hcn, rfl⟩⟩

theorem DownSame_of_eq (t t1 : BPlusTree) (g g1 : Ghost) (q p : page_id_t)
    (hp : t1.pages q = t.pages q) (hl : g.live q → g1.live q) : DownSame t t1 g g1 q p :=
  ⟨hl, fun qn hqn hi hx => ⟨qn, by rw [hp]; exact hqn, hi, hx⟩⟩

theorem PageOK_frame (t t1 : BPlusTree) (g g1 : Ghost) (hiC hiC1 : page_id_t → Option KeyType)
    (ex ex1 p : page_id_t) (n : BPlusTreePage) (h : PageOK t g hiC ex p n)
    (hlev : g1.lev p = g.lev p) (hlo : g1.lo p = g.lo p) (hhi : g1.hi p = g.hi p)
    (hrl : g.lev t.root_page_id_ ≤ g1.lev t1.root_page_id_)
    (hup : n.page_type_ = IndexPageType.INTERNAL_PAGE → ∀ c ∈ n.array.map Prod.snd,
      UpSame t t1 g g1 hiC hiC1 c)
    (hdown : p ≠ t.root_page_id_ → p ≠ ex → DownSame t t1 g g1 n.parent_page_id_ p)
    (hroot : p = t1.root_page_id_ ↔ p = t.root_page_id_) (hex : p ≠ ex1 → p ≠ ex) :
    PageOK t1 g1 hiC1 ex1 p n := by
  refine ⟨h.id_eq, h.kind, ?_, ?_, h.leaf_sorted, ?_, h.int_size, h.int_nodup, ?_, ?_, ?_, ?_⟩
  · rw [hlev]; exact le_trans h.lev_le hrl
  · intro hl; rw [hlev]; exact h.leaf_lev hl
  · intro hl x hx; rw [hlo, hhi]; exact h.leaf_range hl x hx
  · intro hi
    rw [hlo, hhi]
    exact Tiled_congr g.lo hiC g1.lo hiC1 _ _ _
      (fun c hc => ⟨(hup hi c hc).lo, (hup hi c hc).hiC⟩) (h.int_tiled hi)
  · intro hi c hc
    obtain ⟨hcl, hclev, cn, hcn, hcp⟩ := h.children hi c hc
    have hu := hup hi c hc
    obtain ⟨cn1, hcn1, hcp1⟩ := hu.parent cn hcn
    exact ⟨hu.live hcl, by rw [hu.lev, hlev]; exact hclev, cn1, hcn1, by rw [hcp1]; exact hcp⟩
  · intro hr hx
    have hr0 : p ≠ t.root_page_id_ := fun hc => hr (hroot.2 hc)
    obtain ⟨hpl, q, hq, hqi, hmem⟩ := h.parent_ok hr0 (hex hx)
    have hd := hdown hr0 (hex hx)
    obtain ⟨q1, hq1, hq1i, hsub⟩ := hd.kids q hq hqi hmem
    exact ⟨hd.live hpl, q1, hq1, hq1i, hsub⟩
  · intro hr; exact h.root_parent (hroot.1 hr)

/-- A live internal page that lists `c` is the parent `c` points to. -/
theorem lister_eq (t : BPlusTree) (g : Ghost) (hiC : page_id_t → Option KeyType)
    (ex big : page_id_t) (h : OrdX t g hiC ex big) (q c : page_id_t) (qn cn : BPlusTreePage)
    (hq : g.live q) (hqn : t.pages q = some qn)
    (hqi : qn.page_type_ = IndexPageType.INTERNAL_PAGE) (hc : c ∈ qn.array.map Prod.snd)
    (hcn : t.pages c = some cn) : cn.parent_page_id_ = q := by
  obtain ⟨qn2, hqn2, hok⟩ := h.pages q hq
  rw [hqn] at hqn2; cases hqn2
  obtain ⟨_, _, cn2, hcn2, hp⟩ := hok.children hqi c hc
  rw [hcn] at hcn2; cases hcn2
  exact hp

theorem live_lt (t : BPlusTree) (g : Ghost) (hiC : page_id_t → Option KeyType)
    (ex big : page_id_t) (h : OrdX t g hiC ex big) (p : page_id_t) (hp : g.live p) :
    p < t.next_page_id := by
  obtain ⟨n, hn, _⟩ := h.pages p hp
  exact stored_lt t h.fresh p n hn

/-- A live internal page is not its own child, and a child is not a leaf's id. -/
theorem child_ne (t : BPlusTree) (g : Ghost) (hiC : page_id_t → Option KeyType)
    (ex big : page_id_t) (h : OrdX t g hiC ex big) (q c : page_id_t) (qn : BPlusTreePage)
    (hq : g.live q) (hqn : t.pages q = some qn)
    (hqi : qn.page_type_ = IndexPageType.INTERNAL_PAGE) (hc : c ∈ qn.array.map Prod.snd) :
    c ≠ q ∧ g.lev c + 1 = g.lev q ∧ g.live c := by
  obtain ⟨qn2, hqn2, hok⟩ := h.pages q hq
  rw [hqn] at hqn2; cases hqn2
  obtain ⟨hl, hlev, _⟩ := hok.children hqi c hc
  refine ⟨?_, hlev, hl⟩
  intro hcq; rw [hcq] at hlev; omega

/-- Replacing the pairs of a live leaf by sorted pairs in its range keeps the invariant. -/
theorem Ord_leaf_update (t : BPlusTree) (g : Ghost) (hiC : page_id_t → Option KeyType)
    (ex big : page_id_t) (h : OrdX t g hiC ex big) (X : page_id_t) (xn : BPlusTreePage)
    (arr : List (KeyType × Int)) (hX : g.live X) (hxn : t.pages X = some xn)
    (hleaf : xn.page_type_ = IndexPageType.LEAF_PAGE)
    (hs : arr.Pairwise (fun x y => x.1 < y.1))
    (hr : ∀ x ∈ arr, aboveLo (g.lo X) x.1 ∧ belowHi x.1 (g.hi X)) (nx : page_id_t) :
    OrdX (t.setPage X { xn with array := arr, next_page_id_ := nx }) g hiC ex big := by
  have hXlt := stored_lt t h.fresh X xn hxn
  refine ⟨h.root_live, ?_, h.live_pos, h.root_lo, h.root_hi, h.height, ?_, ?_⟩
  pick_goal 3
  · intro p n hp hn hi
    have hpX : p ≠ X := by
      intro hc; rw [hc, setPage_same] at hn; cases hn; rw [hleaf] at hi; cases hi
    rw [setPage_other _ _ _ _ hpX] at hn
    exact h.sizes p n hp hn hi
  · intro p hp
    have : p ≠ X := by intro hc; rw [hc] at hp; exact absurd hXlt (not_lt.mpr hp)
    rw [setPage_other _ _ _ _ this]
    exact h.fresh p hp
  · intro p hp
    obtain ⟨n, hn, hok⟩ := h.pages p hp
    have hup : ∀ c, UpSame t (t.setPage X { xn with array := arr, next_page_id_ := nx })
        g g hiC hiC c := by
      intro c
      refine ⟨id, rfl, rfl, rfl, ?_⟩
      intro cn hcn
      by_cases hc : c = X
      · subst hc; rw [hxn] at hcn; cases hcn
        exact ⟨_, setPage_same _ _ _, rfl⟩
      · exact ⟨cn, by rw [setPage_other _ _ _ _ hc]; exact hcn, rfl⟩
    have hdown : ∀ q c, DownSame t (t.setPage X { xn with array := arr, next_page_id_ := nx })
        g g q c := by
      intro q c
      refine ⟨id, ?_⟩
      intro qn hqn hqi hx
      by_cases hq : q = X
      · subst hq; rw [hxn] at hqn; cases hqn
        rw [hleaf] at hqi; cases hqi
      · exact ⟨qn, by rw [setPage_other _ _ _ _ hq]; exact hqn, hqi, hx⟩
    by_cases hpX : p = X
    · have hnx : n = xn := by rw [hpX, hxn] at hn; exact (Option.some.inj hn).symm
      rw [hnx] at hok
      rw [hpX] at hok ⊢
      refine ⟨_, setPage_same _ _ _, ?_⟩
      have hf := PageOK_frame t (t.setPage X { xn with array := arr, next_page_id_ := nx })
        g g hiC hiC ex ex X xn hok rfl rfl rfl (le_refl _)
        (fun _ c _ => hup c) (fun _ _ => hdown _ _) Iff.rfl id
      have habs : ∀ {α : Prop}, xn.page_type_ = IndexPageType.INTERNAL_PAGE → α := by
        intro α hi; rw [hleaf] at hi; cases hi
      exact ⟨hf.id_eq, hf.kind, hf.lev_le, hf.leaf_lev, fun _ => hs, fun _ => hr,
        fun hi => habs hi, fun hi => habs hi, fun hi => habs hi, fun hi => habs hi,
        hf.parent_ok, hf.root_parent⟩
    · refine ⟨n, by rw [setPage_other _ _ _ _ hpX]; exact hn, ?_⟩
      exact PageOK_frame t _ g g hiC hiC ex ex p n hok rfl rfl rfl (le_refl _)
        (fun _ c _ => hup c) (fun _ _ => hdown _ _) Iff.rfl id

/-! ## B+ tree: changes of the array of an internal page -/

theorem Tiled_lift (lo hi lo2 hi2 : page_id_t → Option KeyType) (a b : Option KeyType)
    (l1 l2 l3 : List (KeyType × Int)) (x y : KeyType × Int) (hne : l1 ≠ [])
    (h : Tiled lo hi a (l1 ++ x :: l2) b)
    (hc : ∀ c ∈ l1.map Prod.snd, lo2 c = lo c ∧ hi2 c = hi c) (hxy : y.1 = x.1)
    (hy : Tiled lo hi (some x.1) (x :: l2) b → Tiled lo2 hi2 (some y.1) (y :: l3) b) :
    Tiled lo2 hi2 a (l1 ++ y :: l3) b := by
  rw [Tiled_append lo hi b x l2 l1 a hne] at h
  rw [Tiled_append lo2 hi2 b y l3 l1 a hne]
  refine ⟨?_, hy h.2⟩
  rw [hxy]
  exact Tiled_congr lo hi lo2 hi2 _ l1 a hc h.1

theorem Tiled_insert_head (lo hi hiC : page_id_t → Option KeyType) (a b : Option KeyType)
    (l2 : List (KeyType × Int)) (s key : KeyType) (old new : page_id_t)
    (h : Tiled lo hiC a ((s, old) :: l2) b)
    (hC : ∀ c ∈ l2.map Prod.snd, hi c = hiC c)
    (h1 : hi old = some key) (h2 : lo new = some key) (h3 : hi new = hiC old)
    (h4 : aboveLo (lo old) key) (h5 : boundLe (some key) (hi new)) :
    Tiled lo hi a ((s, old) :: (key, new) :: l2) b := by
  cases l2 with
  | nil =>
    obtain ⟨g1, g2, g3⟩ := h
    simp only at g1 g2
    refine ⟨g1, h1, by rw [← g1]; exact h4, h2, by rw [h3]; exact g2, ?_⟩
    rw [h3, g2] at h5; exact h5
  | cons y l2 =>
    obtain ⟨g1, g2, g3, g4⟩ := h
    simp only at g1 g2
    refine ⟨g1, h1, by rw [← g1]; exact h4, h2, by rw [h3]; exact g2, ?_, ?_⟩
    · rw [h3, g2] at h5
      exact (aboveLo_iff _ _).1 h5
    · exact Tiled_congr lo hiC lo hi b _ _ (fun c hc => ⟨rfl, hC c hc⟩) g4

/-- The tiling after `InsertNodeAfter`: the new child takes the upper part of the range
of the old one. -/
theorem Tiled_insert (lo hi hiC : page_id_t → Option KeyType) (a b : Option KeyType)
    (l1 l2 : List (KeyType × Int)) (s key : KeyType) (old new : page_id_t)
    (h : Tiled lo hiC a (l1 ++ (s, old) :: l2) b)
    (hC : ∀ c ∈ (l1 ++ l2).map Prod.snd, hi c = hiC c)
    (h1 : hi old = some key) (h2 : lo new = some key) (h3 : hi new = hiC old)
    (h4 : aboveLo (lo old) key) (h5 : boundLe (some key) (hi new)) :
    Tiled lo hi a (l1 ++ (s, old) :: (key, new) :: l2) b := by
  have hC2 : ∀ c ∈ l2.map Prod.snd, hi c = hiC c := by
    intro c hc; apply hC; simp only [List.map_append, List.mem_append]; exact Or.inr hc
  by_cases hne : l1 = []
  · subst hne
    exact Tiled_insert_head lo hi hiC a b l2 s key old new h hC2 h1 h2 h3 h4 h5
  · apply Tiled_lift lo hiC lo hi a b l1 l2 _ (s, old) (s, old) hne h _ rfl
    · intro h6
      exact Tiled_insert_head lo hi hiC _ b l2 s key old new h6 hC2 h1 h2 h3 h4 h5
    · intro c hc
      refine ⟨rfl, ?_⟩
      apply hC; simp only [List.map_append, List.mem_append]; exact Or.inl hc

theorem Tiled_remove_head (lo hi hi2 : page_id_t → Option KeyType) (a b : Option KeyType)
    (l2 : List (KeyType × Int)) (s k : KeyType) (M S : page_id_t)
    (h : Tiled lo hi a ((s, M) :: (k, S) :: l2) b)
    (hC : ∀ c ∈ l2.map Prod.snd, hi2 c = hi c) (h1 : hi2 M = hi S) :
    Tiled lo hi2 a ((s, M) :: l2) b := by
  obtain ⟨g1, g2, g3, g4⟩ := h
  simp only at g1 g2 g3
  cases l2 with
  | nil =>
    obtain ⟨f1, f2, f3⟩ := g4
    simp only at f1 f2
    refine ⟨g1, by rw [h1]; exact f2, ?_⟩
    intro x y hx hy
    exact le_trans (g3 x hx) (f3 k y rfl hy)
  | cons y l2 =>
    obtain ⟨f1, f2, f3, f4⟩ := g4
    simp only at f1 f2
    refine ⟨g1, by rw [h1]; exact f2, ?_, ?_⟩
    · exact aboveLo_trans _ _ _ g3 (f3 k rfl)
    · exact Tiled_congr lo hi lo hi2 b _ _ (fun c hc => ⟨rfl, hC c hc⟩) f4

/-- The tiling after the slot behind `M` is removed: `M` reaches up to where the removed
child ended. -/
theorem Tiled_remove (lo hi hi2 : page_id_t → Option KeyType) (a b : Option KeyType)
    (l1 l2 : List (KeyType × Int)) (s k : KeyType) (M S : page_id_t)
    (h : Tiled lo hi a (l1 ++ (s, M) :: (k, S) :: l2) b)
    (hC : ∀ c ∈ (l1 ++ l2).map Prod.snd, hi2 c = hi c) (h1 : hi2 M = hi S) :
    Tiled lo hi2 a (l1 ++ (s, M) :: l2) b := by
  have hC2 : ∀ c ∈ l2.map Prod.snd, hi2 c = hi c := by
    intro c hc; apply hC; simp only [List.map_append, List.mem_append]; exact Or.inr hc
  by_cases hne : l1 = []
  · subst hne
    exact Tiled_remove_head lo hi hi2 a b l2 s k M S h hC2 h1
  · apply Tiled_lift lo hi lo hi2 a b l1 _ _ (s, M) (s, M) hne h _ rfl
    · intro h6
      exact Tiled_remove_head lo hi hi2 _ b l2 s k M S h6 hC2 h1
    · intro c hc
      refine ⟨rfl, ?_⟩
      apply hC; simp only [List.map_append, List.mem_append]; exact Or.inl hc

theorem Tiled_setkey_head (lo hi lo2 hi2 : page_id_t → Option KeyType) (a b : Option KeyType)
    (l2 : List (KeyType × Int)) (s k k2 : KeyType) (M S : page_id_t)
    (h : Tiled lo hi a ((s, M) :: (k, S) :: l2) b)
    (hC : ∀ c ∈ l2.map Prod.snd, lo2 c = lo c ∧ hi2 c = hi c)
    (h1 : lo2 M = lo M) (h2 : hi2 M = some k2) (h3 : lo2 S = some k2) (h4 : hi2 S = hi S)
    (h5 : aboveLo (lo M) k2) (h6 : boundLe (some k2) (hi S)) :
    Tiled lo2 hi2 a ((s, M) :: (k2, S) :: l2) b := by
  obtain ⟨g1, g2, g3, g4⟩ := h
  simp only at g1 g2 g3
  refine ⟨by rw [h1]; exact g1, h2, by rw [← g1]; exact h5, ?_⟩
  cases l2 with
  | nil =>
    obtain ⟨f1, f2, f3⟩ := g4
    simp only at f1 f2
    refine ⟨h3, by rw [h4]; exact f2, ?_⟩
    rw [f2] at h6; exact h6
  | cons y l2 =>
    obtain ⟨f1, f2, f3, f4⟩ := g4
    simp only at f1 f2
    refine ⟨h3, by rw [h4]; exact f2, ?_, ?_⟩
    · rw [f2] at h6; exact (aboveLo_iff _ _).1 h6
    · exact Tiled_congr lo hi lo2 hi2 b _ _ hC f4

/-- The tiling after the key between `M` and `S` is replaced. -/
theorem Tiled_setkey (lo hi lo2 hi2 : page_id_t → Option KeyType) (a b : Option KeyType)
    (l1 l2 : List (KeyType × Int)) (s k k2 : KeyType) (M S : page_id_t)
    (h : Tiled lo hi a (l1 ++ (s, M) :: (k, S) :: l2) b)
    (hC : ∀ c ∈ (l1 ++ l2).map Prod.snd, lo2 c = lo c ∧ hi2 c = hi c)
    (h1 : lo2 M = lo M) (h2 : hi2 M = some k2) (h3 : lo2 S = some k2) (h4 : hi2 S = hi S)
    (h5 : aboveLo (lo M) k2) (h6 : boundLe (some k2) (hi S)) :
    Tiled lo2 hi2 a (l1 ++ (s, M) :: (k2, S) :: l2) b := by
  have hC2 : ∀ c ∈ l2.map Prod.snd, lo2 c = lo c ∧ hi2 c = hi c := by
    intro c hc; apply hC; simp only [List.map_append, List.mem_append]; exact Or.inr hc
  by_cases hne : l1 = []
  · subst hne
    exact Tiled_setkey_head lo hi lo2 hi2 a b l2 s k k2 M S h hC2 h1 h2 h3 h4 h5 h6
  · apply Tiled_lift lo hi lo2 hi2 a b l1 _ _ (s, M) (s, M) hne h _ rfl
    · intro h7
      exact Tiled_setkey_head lo hi lo2 hi2 _ b l2 s k k2 M S h7 hC2 h1 h2 h3 h4 h5 h6
    · intro c hc
      apply hC; simp only [List.map_append, List.mem_append]; exact Or.inl hc

theorem ValueIndexFrom_split (c : Int) : ∀ (arr : List (KeyType × Int)) (i : Int),
    c ∈ arr.map Prod.snd →
    ∃ l1 s l2, arr = l1 ++ (s, c) :: l2 ∧ c ∉ l1.map Prod.snd ∧
      BPlusTreeInternalPage.ValueIndexFrom c arr i = i + l1.length
  | [], _, h => by simp at h
  | item :: rest, i, h => by
    unfold BPlusTreeInternalPage.ValueIndexFrom
    by_cases hc : item.2 = c
    · rw [if_pos hc]
      refine ⟨[], item.1, rest, ?_, by simp, by simp⟩
      rw [← hc]; rfl
    · rw [if_neg hc]
      have hm : c ∈ rest.map Prod.snd := by
        simp only [List.map_cons, List.mem_cons] at h
        rcases h with h | h
        · exact absurd h.symm hc
        · exact h
      obtain ⟨l1, s, l2, h1, h2, h3⟩ := ValueIndexFrom_split c rest (i + 1) hm
      refine ⟨item :: l1, s, l2, by rw [h1]; rfl, ?_, ?_⟩
      · simp only [List.map_cons, List.mem_cons, not_or]
        exact ⟨fun hh => hc hh.symm, h2⟩
      · rw [h3]; simp only [List.length_cons]; push_cast; ring

/-- The slot of a child that the page lists. -/
theorem ValueIndex_split (n : BPlusTreePage) (c : Int) (h : c ∈ n.array.map Prod.snd) :
    ∃ l1 s l2, n.array = l1 ++ (s, c) :: l2 ∧ c ∉ l1.map Prod.snd ∧
      BPlusTreeInternalPage.ValueIndex n c = l1.length := by
  obtain ⟨l1, s, l2, h1, h2, h3⟩ := ValueIndexFrom_split c n.array 0 h
  exact ⟨l1, s, l2, h1, h2, by unfold BPlusTreeInternalPage.ValueIndex; rw [h3]; simp⟩

theorem ValueIndex_at (n : BPlusTreePage) (c : Int) (l1 l2 : List (KeyType × Int)) (s : KeyType)
    (h : n.array = l1 ++ (s, c) :: l2) (hnd : (n.array.map Prod.snd).Nodup) :
    BPlusTreeInternalPage.ValueIndex n c = l1.length := by
  obtain ⟨m1, s2, m2, h1, h2, h3⟩ := ValueIndex_split n c (by rw [h]; simp)
  rw [h3]
  rw [h] at h1 hnd
  have hc1 : c ∉ l1.map Prod.snd := by
    intro hc
    rw [List.map_append, List.nodup_append] at hnd
    exact hnd.2.2 hc (by simp)
  have := List.append_eq_append_iff.mp h1
  rcases this with ⟨a', ha1, ha2⟩ | ⟨c', hc1', hc2⟩
  · cases a' with
    | nil => simp at ha1; rw [ha1]
    | cons z a' =>
      simp only [List.cons_append, List.cons.injEq] at ha2
      exfalso; apply h2; rw [ha1]; rw [← ha2.1]; simp
  · cases c' with
    | nil => simp at hc1'; rw [hc1']
    | cons z c' =>
      simp only [List.cons_append, List.cons.injEq] at hc2
      exfalso; apply hc1; rw [hc1']; rw [← hc2.1]; simp

theorem InsertNodeAfter_split (n : BPlusTreePage) (old : Int) (key : KeyType) (new : Int)
    (l1 l2 : List (KeyType × Int)) (s : KeyType) (h : n.array = l1 ++ (s, old) :: l2)
    (hnd : (n.array.map Prod.snd).Nodup) :
    (BPlusTreeInternalPage.InsertNodeAfter n old key new).1 =
      { n with array := l1 ++ (s, old) :: (key, new) :: l2 } := by
  unfold BPlusTreeInternalPage.InsertNodeAfter
  simp only
  rw [ValueIndex_at n old l1 l2 s h hnd]
  have : ((l1.length : Int) + 1).toNat = l1.length + 1 := by omega
  rw [this, h]
  congr 1
  have h1 : (l1 ++ (s, old) :: l2).take (l1.length + 1) = l1 ++ [(s, old)] := by
    rw [List.take_append_eq_append_take]
    simp
  have h2 : (l1 ++ (s, old) :: l2).drop (l1.length + 1) = l2 := by
    rw [List.drop_append_eq_append_drop]
    simp
  rw [h1, h2]
  simp

theorem get?_mid (l1 l2 : List (KeyType × Int)) (x : KeyType × Int) :
    (l1 ++ x :: l2).get? l1.length = some x := by
  induction l1 with
  | nil => rfl
  | cons a l ih => simpa using ih

theorem Internal_Remove_at (n : BPlusTreePage) (l1 l2 : List (KeyType × Int)) (x : KeyType × Int)
    (h : n.array = l1 ++ x :: l2) :
    BPlusTreeInternalPage.Remove n (l1.length : Int) = .ok { n with array := l1 ++ l2 } := by
  unfold BPlusTreeInternalPage.Remove
  have hlt : (0 : Int) ≤ l1.length ∧ (l1.length : Int) < n.GetSize := by
    unfold BPlusTreePage.GetSize; rw [h]; simp
  rw [if_pos hlt]
  congr 2
  rw [h]
  simp [List.eraseIdx_append_of_length_le]

theorem Internal_KeyAt_at (n : BPlusTreePage) (l1 l2 : List (KeyType × Int)) (x : KeyType × Int)
    (h : n.array = l1 ++ x :: l2) :
    BPlusTreeInternalPage.KeyAt n (l1.length : Int) = .ok x.1 := by
  unfold BPlusTreeInternalPage.KeyAt
  rw [if_pos (by omega)]
  have : n.array.get? (l1.length : Int).toNat = some x := by
    rw [h]; exact get?_mid l1 l2 x
  rw [this]

theorem Internal_ValueAt_at (n : BPlusTreePage) (l1 l2 : List (KeyType × Int)) (x : KeyType × Int)
    (h : n.array = l1 ++ x :: l2) :
    BPlusTreeInternalPage.ValueAt n (l1.length : Int) = .ok x.2 := by
  unfold BPlusTreeInternalPage.ValueAt
  rw [if_pos (by omega)]
  have : n.array.get? (l1.length : Int).toNat = some x := by
    rw [h]; exact get?_mid l1 l2 x
  rw [this]

theorem Internal_SetKeyAt_at (n : BPlusTreePage) (l1 l2 : List (KeyType × Int)) (x : KeyType × Int)
    (key : KeyType) (h : n.array = l1 ++ x :: l2) :
    BPlusTreeInternalPage.SetKeyAt n (l1.length : Int) key =
      .ok { n with array := l1 ++ (key, x.2) :: l2 } := by
  unfold BPlusTreeInternalPage.SetKeyAt
  rw [if_pos (by omega)]
  have : n.array.get? (l1.length : Int).toNat = some x := by
    rw [h]; exact get?_mid l1 l2 x
  rw [this]
  simp only
  congr 2
  rw [h]
  simp

/-! ## B+ tree: `Insert` keeps the keys in order -/

theorem Ord_StartNewTree (t : BPlusTree) (k : KeyType) (v : ValueType)
    (hpos : 1 ≤ t.next_page_id) (hfresh : ∀ p, t.next_page_id ≤ p → t.pages p = none) :
    ∃ g zn, Ord (t.StartNewTree k v) g ∧ g.live t.next_page_id ∧
      (t.StartNewTree k v).pages t.next_page_id = some zn ∧
      zn.page_type_ = IndexPageType.LEAF_PAGE ∧ (k, v) ∈ zn.array ∧
      1 ≤ (t.StartNewTree k v).next_page_id ∧
      (∀ p, (t.StartNewTree k v).next_page_id ≤ p → (t.StartNewTree k v).pages p = none) := by
  have harr : (BPlusTreeLeafPage.Insert
      (BPlusTreeLeafPage.Init t.next_page_id INVALID_PAGE_ID t.leaf_max_size_) k v).1.array =
      [(k, v)] := by
    unfold BPlusTreeLeafPage.Insert BPlusTreeLeafPage.Init
    simp
  have hpg : ∀ p, (t.StartNewTree k v).pages p = if p = t.next_page_id then
      some (BPlusTreeLeafPage.Insert
        (BPlusTreeLeafPage.Init t.next_page_id INVALID_PAGE_ID t.leaf_max_size_) k v).1
      else t.pages p := by
    intro p
    unfold BPlusTree.StartNewTree BPlusTree.NewPage setAt
    simp only
    by_cases hp : p = t.next_page_id
    · simp [hp]
    · simp [hp]
  have hroot : (t.StartNewTree k v).root_page_id_ = t.next_page_id := rfl
  have hnext : (t.StartNewTree k v).next_page_id = t.next_page_id + 1 := rfl
  have hfr : ∀ p, (t.StartNewTree k v).next_page_id ≤ p → (t.StartNewTree k v).pages p = none := by
    intro p hp
    rw [hnext] at hp
    rw [hpg, if_neg (by intro hc; rw [hc] at hp; linarith)]
    exact hfresh p (by linarith)
  refine ⟨⟨fun p => p = t.next_page_id, fun _ => 0, fun _ => none, fun _ => none⟩, _, ?_, rfl,
    by rw [hpg, if_pos rfl], rfl, by rw [harr]; simp, by rw [hnext]; linarith, hfr⟩
  refine ⟨hroot, hfr, ?_, rfl, rfl, ?_, ?_, ?_⟩
  pick_goal 4
  · intro p n hp hn hi
    simp only at hp
    rw [hpg, if_pos hp] at hn
    cases hn; cases hi
  · intro p hp; simp only at hp; rw [hp]; linarith
  · rw [hnext]; simp only; push_cast; linarith
  · intro p hp
    simp only at hp
    refine ⟨_, by rw [hpg, if_pos hp], ?_⟩
    refine ⟨by rw [hp]; rfl, Or.inl rfl, le_refl _, fun _ => rfl, ?_, ?_, ?_, ?_, ?_, ?_, ?_, ?_⟩
    · intro _; rw [harr]; simp
    · intro _ x _; exact ⟨aboveLo_none _, belowHi_none _⟩
    · intro hi; cases hi
    · intro hi; cases hi
    · intro hi; cases hi
    · intro hi; cases hi
    · intro hr; rw [hroot] at hr; exact absurd hp hr
    · intro _; rfl

theorem PageOK_leaf_mk (t : BPlusTree) (g : Ghost) (hiC : page_id_t → Option KeyType)
    (ex p : page_id_t) (n : BPlusTreePage) (hid : n.page_id_ = p)
    (hleaf : n.page_type_ = IndexPageType.LEAF_PAGE) (hlev : g.lev p = 0)
    (hs : n.array.Pairwise (fun x y => x.1 < y.1))
    (hr : ∀ x ∈ n.array, aboveLo (g.lo p) x.1 ∧ belowHi x.1 (g.hi p))
    (hpar : p ≠ t.root_page_id_ → p ≠ ex → g.live n.parent_page_id_ ∧
      ∃ q, t.pages n.parent_page_id_ = some q ∧ q.page_type_ = IndexPageType.INTERNAL_PAGE ∧
        p ∈ q.array.map Prod.snd)
    (hrp : p = t.root_page_id_ → n.parent_page_id_ = INVALID_PAGE_ID) :
    PageOK t g hiC ex p n := by
  have habs : ∀ {α : Prop}, n.page_type_ = IndexPageType.INTERNAL_PAGE → α := by
    intro α hi; rw [hleaf] at hi; cases hi
  exact ⟨hid, Or.inl hleaf, by rw [hlev]; exact Nat.zero_le _, fun _ => hlev, fun _ => hs,
    fun _ => hr, fun hi => habs hi, fun hi => habs hi, fun hi => habs hi, fun hi => habs hi,
    hpar, hrp⟩

theorem live_ne_invalid (t : BPlusTree) (g : Ghost) (hiC : page_id_t → Option KeyType)
    (ex big : page_id_t) (h : OrdX t g hiC ex big) (p : page_id_t) (hp : g.live p) :
    p ≠ INVALID_PAGE_ID := by
  intro hc; have := h.live_pos p hp; rw [hc] at this; exact absurd this (by decide)

/-- A sorted array cut in two: the keys of the lower part are below the first key of the
upper part, the keys of the upper part are not. -/
theorem sorted_cut (arr : List (KeyType × Int)) (i : Nat) (x : KeyType × Int)
    (rest : List (KeyType × Int)) (h : arr.Pairwise (fun x y => x.1 < y.1))
    (hd : arr.drop i = x :: rest) :
    (∀ y ∈ arr.take i, y.1 < x.1) ∧ (∀ y ∈ arr.drop i, x.1 ≤ y.1) := by
  have h5 : (arr.take i ++ arr.drop i).Pairwise (fun x y => x.1 < y.1) := by
    rw [List.take_append_drop]; exact h
  obtain ⟨_, h2, h3⟩ := List.pairwise_append.mp h5
  constructor
  · intro y hy
    exact h3 y hy x (by rw [hd]; exact List.mem_cons_self _ _)
  · intro y hy
    rw [hd] at hy h2
    rcases List.mem_cons.mp hy with h4 | h4
    · rw [h4]
    · exact le_of_lt ((List.pairwise_cons.mp h2).1 y h4)

/-- The state after a leaf split. -/
theorem SplitOrd_of_leaf_split (t t3 : BPlusTree) (g : Ghost) (X : page_id_t)
    (xn : BPlusTreePage) (h : Ord t g) (hX : g.live X) (hxn : t.pages X = some xn)
    (hleaf : xn.page_type_ = IndexPageType.LEAF_PAGE) (key0 : KeyType) (v0 : Int)
    (rest : List (KeyType × Int))
    (hd : xn.array.drop (xn.GetSize / 2) = (key0, v0) :: rest)
    (h3X : t3.pages X = some { xn with next_page_id_ := t.next_page_id,
                                       array := xn.array.take (xn.GetSize / 2) })
    (h3N : t3.pages t.next_page_id = some
        { (BPlusTreeLeafPage.Init t.next_page_id xn.parent_page_id_ xn.max_size_) with
          array := xn.array.drop (xn.GetSize / 2) })
    (h3o : ∀ p, p ≠ X → p ≠ t.next_page_id → t3.pages p = t.pages p)
    (h3n : t3.next_page_id = t.next_page_id + 1)
    (h3r : t3.root_page_id_ = t.root_page_id_)
    (h3m : t3.internal_max_size_ = t.internal_max_size_) :
    SplitOrd t3 ⟨fun p => g.live p ∨ p = t.next_page_id,
        fun p => if p = t.next_page_id then g.lev X else g.lev p,
        fun p => if p = t.next_page_id then some key0 else g.lo p,
        fun p => if p = X then some key0 else if p = t.next_page_id then g.hi X else g.hi p⟩
      X t.next_page_id key0 := by
  have hXlt := stored_lt t h.fresh X xn hxn
  have hXN : X ≠ t.next_page_id := ne_of_lt hXlt
  have hNX : t.next_page_id ≠ X := fun hc => hXN hc.symm
  have hlN : ∀ p, g.live p → p ≠ t.next_page_id := fun p hp => ne_of_lt (live_lt t g _ _ _ h p hp)
  obtain ⟨xn2, hxn2, hXok⟩ := h.pages X hX
  rw [hxn] at hxn2; cases hxn2
  obtain ⟨hc1, hc2⟩ := sorted_cut xn.array _ _ rest (hXok.leaf_sorted hleaf) hd
  have hkey : (key0, v0) ∈ xn.array :=
    List.mem_of_mem_drop (by rw [hd]; exact List.mem_cons_self _ _)
  have hkr := hXok.leaf_range hleaf _ hkey
  have hrN : t.root_page_id_ ≠ t.next_page_id := hlN _ h.root_live
  -- pages other than `X` and the new page
  have hup : ∀ c, g.live c → UpSame t t3 g
      ⟨fun p => g.live p ∨ p = t.next_page_id,
        fun p => if p = t.next_page_id then g.lev X else g.lev p,
        fun p => if p = t.next_page_id then some key0 else g.lo p,
        fun p => if p = X then some key0 else if p = t.next_page_id then g.hi X else g.hi p⟩
      g.hi (fun q => if q = X then
          (if t.next_page_id = X then some key0 else if t.next_page_id = t.next_page_id
            then g.hi X else g.hi t.next_page_id)
        else (if q = X then some key0 else if q = t.next_page_id then g.hi X else g.hi q)) c := by
    intro c hc
    have hcN := hlN c hc
    refine ⟨Or.inl, by simp [hcN], by simp [hcN], ?_, ?_⟩
    · by_cases hcX : c = X
      · simp [hcX, hNX]
      · simp [hcX, hcN]
    · intro cn hcn
      by_cases hcX : c = X
      · rw [hcX] at hcn ⊢; rw [hxn] at hcn; cases hcn
        exact ⟨_, h3X, rfl⟩
      · exact ⟨cn, by rw [h3o c hcX hcN]; exact hcn, rfl⟩
  have hdown : ∀ q c, g.live q → DownSame t t3 g
      ⟨fun p => g.live p ∨ p = t.next_page_id,
        fun p => if p = t.next_page_id then g.lev X else g.lev p,
        fun p => if p = t.next_page_id then some key0 else g.lo p,
        fun p => if p = X then some key0 else if p = t.next_page_id then g.hi X else g.hi p⟩
      q c := by
    intro q c hq
    refine ⟨Or.inl, ?_⟩
    intro qn hqn hqi hx
    have hqX : q ≠ X := by
      intro hc; rw [hc, hxn] at hqn; cases hqn; rw [hleaf] at hqi; cases hqi
    exact ⟨qn, by rw [h3o q hqX (hlN q hq)]; exact hqn, hqi, hx⟩
  refine ⟨⟨?_, ?_, ?_, ?_, ?_, ?_, ?_, ?_⟩, Or.inl hX, Or.inr rfl, hXN, by simp, by simp,
    by simp, ⟨_, _, h3X, h3N, rfl⟩, ?_, by rw [h3r]; exact fun hc => hrN hc.symm, ?_, ?_, ?_⟩
  pick_goal 8
  · intro p n hp hn hi
    have hpX : p ≠ X := by
      intro hc; rw [hc, h3X] at hn; cases hn; rw [hleaf] at hi; cases hi
    have hpN : p ≠ t.next_page_id := by
      intro hc; rw [hc, h3N] at hn; cases hn; cases hi
    have hpl : g.live p := by
      rcases hp with hp | hp
      · exact hp
      · exact absurd hp hpN
    rw [h3o p hpX hpN] at hn
    rw [h3r, h3m]
    exact h.sizes p n hpl hn hi
  pick_goal 11
  · intro o ho hi
    rw [h3X] at ho; cases ho; rw [hleaf] at hi; cases hi
  · rw [h3r]; exact Or.inl h.root_live
  · intro p hp
    rw [h3n] at hp
    have h1 : p ≠ X := by intro hc; rw [hc] at hp; linarith
    have h2 : p ≠ t.next_page_id := by intro hc; rw [hc] at hp; linarith
    rw [h3o p h1 h2]; exact h.fresh p (by linarith)
  · intro p hp
    rcases hp with hp | hp
    · exact h.live_pos p hp
    · rw [hp]; linarith [h.live_pos X hX]
  · simp only [h3r, if_neg hrN]; exact h.root_lo
  · simp only [h3r]
    by_cases hrX : t.root_page_id_ = X
    · simp only [hrX, if_true, if_neg hNX]; rw [← hrX]; exact h.root_hi
    · simp only [if_neg hrX, if_neg hrN]; exact h.root_hi
  · simp only [h3r, h3n, if_neg hrN]; have := h.height; linarith
  · intro p hp
    by_cases hpX : p = X
    · rw [hpX]
      refine ⟨_, h3X, ?_⟩
      apply PageOK_leaf_mk
      · exact hXok.id_eq
      · exact hleaf
      · simp only [if_neg hXN]; exact hXok.leaf_lev hleaf
      · exact List.Pairwise.sublist (List.take_sublist _ _) (hXok.leaf_sorted hleaf)
      · intro x hx
        simp only [if_neg hXN, if_true]
        exact ⟨(hXok.leaf_range hleaf x (List.mem_of_mem_take hx)).1,
          (belowHi_some _ _).2 (hc1 x hx)⟩
      · intro hr hx
        rw [h3r] at hr
        obtain ⟨hpl, q, hq, hqi, hmem⟩ :=
          hXok.parent_ok hr (live_ne_invalid t g _ _ _ h X hX)
        obtain ⟨q1, hq1, hq1i, hm1⟩ := (hdown _ X hpl).kids q hq hqi hmem
        exact ⟨Or.inl hpl, q1, hq1, hq1i, hm1⟩
      · intro hr; rw [h3r] at hr; exact hXok.root_parent hr
    · by_cases hpN : p = t.next_page_id
      · rw [hpN]
        refine ⟨_, h3N, ?_⟩
        apply PageOK_leaf_mk
        · rfl
        · rfl
        · simp only [if_true]; exact hXok.leaf_lev hleaf
        · exact List.Pairwise.sublist (List.drop_sublist _ _) (hXok.leaf_sorted hleaf)
        · intro x hx
          simp only [if_true, if_neg hNX]
          exact ⟨(aboveLo_some _ _).2 (hc2 x hx),
            (hXok.leaf_range hleaf x (List.mem_of_mem_drop hx)).2⟩
        · intro _ hx; exact absurd rfl hx
        · intro hr; rw [h3r] at hr; exact absurd hr.symm hrN
      · have hpl : g.live p := by
          rcases hp with hp | hp
          · exact hp
          · exact absurd hp hpN
        obtain ⟨n, hn, hok⟩ := h.pages p hpl
        refine ⟨n, by rw [h3o p hpX hpN]; exact hn, ?_⟩
        apply PageOK_frame t t3 g _ g.hi _ INVALID_PAGE_ID _ p n hok
        · simp [hpN]
        · simp [hpN]
        · simp [hpN, hpX]
        · simp only [h3r, if_neg hrN]; exact le_refl _
        · intro hi c hc
          exact hup c (hok.children hi c hc).1
        · intro hr hx
          exact hdown _ p (hok.parent_ok hr hx).1
        · rw [h3r]
        · intro _; exact live_ne_invalid t g _ _ _ h p hpl
  · intro p n hp hn hi hmem
    rcases hp with hp | hp
    · by_cases hpX : p = X
      · rw [hpX, h3X] at hn; cases hn; rw [hleaf] at hi; cases hi
      · rw [h3o p hpX (hlN p hp)] at hn
        have := (child_ne t g _ _ _ h p _ n hp hn hi hmem).2.2
        exact hlN _ this rfl
    · rw [hp, h3N] at hn; cases hn; cases hi
  · simp only [if_neg hXN]; exact hkr.1
  · simp only [if_true, if_neg hNX]
    intro x y hx hy
    cases hx
    exact le_of_lt (hkr.2 y hy)

theorem PageOK_listed (t : BPlusTree) (g : Ghost) (hiC : page_id_t → Option KeyType)
    (ex ex1 p : page_id_t) (n : BPlusTreePage) (h : PageOK t g hiC ex p n)
    (hpar : p ≠ t.root_page_id_ → p ≠ ex1 → g.live n.parent_page_id_ ∧
      ∃ q, t.pages n.parent_page_id_ = some q ∧ q.page_type_ = IndexPageType.INTERNAL_PAGE ∧
        p ∈ q.array.map Prod.snd) :
    PageOK t g hiC ex1 p n :=
  ⟨h.id_eq, h.kind, h.lev_le, h.leaf_lev, h.leaf_sorted, h.leaf_range, h.int_size, h.int_nodup,
    h.int_tiled, h.children, hpar, h.root_parent⟩

theorem nodup_insert_after (l1 l2 : List Int) (a b : Int) (h : (l1 ++ a :: l2).Nodup)
    (hb : b ∉ l1 ++ a :: l2) : (l1 ++ a :: b :: l2).Nodup := by
  have : l1 ++ a :: b :: l2 = (l1 ++ [a]) ++ b :: l2 := by simp
  rw [this, List.nodup_middle]
  rw [List.nodup_cons]
  constructor
  · intro hc; apply hb; simpa using hc
  · simpa using h

/-- The state after `InsertIntoParent` has put the new page into the parent. -/
theorem Ord_of_parent_insert (t t2 : BPlusTree) (g : Ghost) (old new : page_id_t)
    (key : KeyType) (h : SplitOrd t g old new key) (o Pn nn : BPlusTreePage)
    (ho : t.pages old = some o) (hnr : old ≠ t.root_page_id_)
    (hP : t.pages o.parent_page_id_ = some Pn) (hnn : t.pages new = some nn)
    (h2P : t2.pages o.parent_page_id_ =
      some (BPlusTreeInternalPage.InsertNodeAfter Pn old key new).1)
    (h2N : t2.pages new = some { nn with parent_page_id_ := o.parent_page_id_ })
    (h2o : ∀ p, p ≠ o.parent_page_id_ → p ≠ new → t2.pages p = t.pages p)
    (h2n : t2.next_page_id = t.next_page_id)
    (h2r : t2.root_page_id_ = t.root_page_id_)
    (h2m : t2.internal_max_size_ = t.internal_max_size_) :
    OrdX t2 g g.hi INVALID_PAGE_ID o.parent_page_id_ := by
  have hord := h.ord
  obtain ⟨o2, ho2, hook⟩ := hord.pages old h.live_old
  rw [ho] at ho2; cases ho2
  obtain ⟨hPl, Pn2, hP2, hPi, hPm⟩ := hook.parent_ok hnr h.ne
  rw [hP] at hP2; cases hP2
  obtain ⟨Pn3, hP3, hPok⟩ := hord.pages _ hPl
  rw [hP] at hP3; cases hP3
  obtain ⟨nn2, hnn2, hnok⟩ := hord.pages new h.live_new
  rw [hnn] at hnn2; cases hnn2
  have hnpar : nn.parent_page_id_ = o.parent_page_id_ := by
    obtain ⟨o3, n3, h1, h2, h3⟩ := h.parent_eq
    rw [ho] at h1; rw [hnn] at h2; cases h1; cases h2; exact h3
  have hnn_eq : ({ nn with parent_page_id_ := o.parent_page_id_ } : BPlusTreePage) = nn := by
    rw [← hnpar]
  rw [hnn_eq] at h2N
  have hlevP : g.lev old + 1 = g.lev o.parent_page_id_ := (hPok.children hPi old hPm).2.1
  have hPold : o.parent_page_id_ ≠ old := by intro hc; rw [hc] at hlevP; omega
  have hPnew : o.parent_page_id_ ≠ new := by
    intro hc; rw [hc, h.lev_eq] at hlevP; omega
  -- no page but the parent lists `old`
  have F1 : ∀ p n, g.live p → t.pages p = some n →
      n.page_type_ = IndexPageType.INTERNAL_PAGE → old ∈ n.array.map Prod.snd →
      p = o.parent_page_id_ := by
    intro p n hp hn hi hm
    exact (lister_eq t g _ _ _ hord p old n o hp hn hi hm ho).symm
  obtain ⟨l1, s, l2, harr, hl1, _⟩ := ValueIndex_split Pn old hPm
  have hnd := hPok.int_nodup hPi
  have hP1 := InsertNodeAfter_split Pn old key new l1 l2 s harr hnd
  rw [hP1] at h2P
  have hnewP : new ∉ Pn.array.map Prod.snd := h.unlisted _ Pn hPl hP hPi
  have hsub : ∀ c, c ∈ Pn.array.map Prod.snd →
      c ∈ (l1 ++ (s, old) :: (key, new) :: l2).map Prod.snd := by
    intro c hc
    rw [harr] at hc
    simp only [List.map_append, List.map_cons, List.mem_append, List.mem_cons] at hc ⊢
    tauto
  have hup : ∀ c, g.live c → c ≠ old → c ≠ new →
      UpSame t t2 g g (fun q => if q = old then g.hi new else g.hi q) g.hi c := by
    intro c hc hco hcn
    refine ⟨id, rfl, rfl, by simp [hco], ?_⟩
    intro cn hcn2
    by_cases hcP : c = o.parent_page_id_
    · rw [hcP] at hcn2 ⊢; rw [hP] at hcn2; cases hcn2
      exact ⟨_, h2P, rfl⟩
    · exact ⟨cn, by rw [h2o c hcP hcn]; exact hcn2, rfl⟩
  have hdown : ∀ q c, DownSame t t2 g g q c := by
    intro q c
    refine ⟨id, ?_⟩
    intro qn hqn hqi hx
    by_cases hqP : q = o.parent_page_id_
    · rw [hqP] at hqn ⊢; rw [hP] at hqn; cases hqn
      exact ⟨_, h2P, hPi, hsub c hx⟩
    · by_cases hqn2 : q = new
      · rw [hqn2] at hqn ⊢; rw [hnn] at hqn; cases hqn
        exact ⟨_, h2N, hqi, hx⟩
      · exact ⟨qn, by rw [h2o q hqP hqn2]; exact hqn, hqi, hx⟩
  have hupAll : ∀ p n, g.live p → t.pages p = some n → p ≠ o.parent_page_id_ →
      n.page_type_ = IndexPageType.INTERNAL_PAGE → ∀ c ∈ n.array.map Prod.snd,
      UpSame t t2 g g (fun q => if q = old then g.hi new else g.hi q) g.hi c := by
    intro p n hp hn hpP hi c hc
    have hcl := (child_ne t g _ _ _ hord p c n hp hn hi hc).2.2
    apply hup c hcl
    · intro hco; rw [hco] at hc; exact hpP (F1 p n hp hn hi hc)
    · intro hcn; rw [hcn] at hc; exact h.unlisted p n hp hn hi hc
  refine ⟨by rw [h2r]; exact hord.root_live, ?_, hord.live_pos, by rw [h2r]; exact hord.root_lo,
    ?_, by rw [h2r, h2n]; exact hord.height, ?_, ?_⟩
  pick_goal 4
  · intro p n1 hp hn1 hi1
    rw [h2r, h2m]
    by_cases hpP : p = o.parent_page_id_
    · rw [hpP, h2P] at hn1
      have hn1e := Option.some.inj hn1
      rw [← hn1e]
      exact ⟨(hord.sizes _ Pn hPl hP hPi).1, fun _ hc => absurd hpP hc⟩
    · by_cases hpn : p = new
      · rw [hpn, h2N] at hn1
        have hn1e := Option.some.inj hn1
        rw [← hn1e] at hi1 ⊢
        have := hord.sizes new nn h.live_new hnn hi1
        rw [hpn]
        exact ⟨this.1, fun hr _ => this.2 hr (live_ne_invalid t g _ _ _ hord new h.live_new)⟩
      · rw [h2o p hpP hpn] at hn1
        have := hord.sizes p n1 hp hn1 hi1
        exact ⟨this.1, fun hr _ => this.2 hr (live_ne_invalid t g _ _ _ hord p hp)⟩
  · intro p hp
    rw [h2n] at hp
    have h1 : p ≠ o.parent_page_id_ := by
      intro hc; rw [hc] at hp; exact absurd (stored_lt t hord.fresh _ _ hP) (not_lt.mpr hp)
    have h2 : p ≠ new := by
      intro hc; rw [hc] at hp; exact absurd (stored_lt t hord.fresh _ _ hnn) (not_lt.mpr hp)
    rw [h2o p h1 h2]; exact hord.fresh p hp
  · have := hord.root_hi
    simp only at this
    rw [h2r]
    rw [if_neg (fun hc => hnr hc.symm)] at this
    exact this
  · intro p hp
    by_cases hpP : p = o.parent_page_id_
    · rw [hpP]
      refine ⟨_, h2P, ?_⟩
      have habs : ∀ {α : Prop}, Pn.page_type_ = IndexPageType.LEAF_PAGE → α := by
        intro α hl; rw [hPi] at hl; cases hl
      refine ⟨hPok.id_eq, hPok.kind, by rw [h2r]; exact hPok.lev_le, fun hl => habs hl,
        fun hl => habs hl, fun hl => habs hl, ?_, ?_, ?_, ?_, ?_, ?_⟩
      · intro _; simp [BPlusTreePage.GetSize]; omega
      · intro _
        simp only [List.map_append, List.map_cons]
        apply nodup_insert_after
        · rw [harr] at hnd; simpa using hnd
        · rw [harr] at hnewP; simpa using hnewP
      · intro _
        have ht := hPok.int_tiled hPi
        rw [harr] at ht
        apply Tiled_insert g.lo g.hi _ _ _ l1 l2 s key old new ht
        · intro c hc
          have hco : c ≠ old := by
            intro hco
            rw [harr] at hnd
            rw [hco] at hc
            simp only [List.map_append, List.map_cons, List.mem_append] at hc hnd
            have hnd2 := List.nodup_middle.mp hnd
            rw [List.nodup_cons] at hnd2
            apply hnd2.1
            simp only [List.map_append, List.mem_append]
            exact hc
          simp [hco]
        · exact h.hi_old
        · exact h.lo_new
        · simp
        · exact h.lo_key
        · exact h.key_hi
      · intro _ c hc
        simp only [List.map_append, List.map_cons, List.mem_append, List.mem_cons] at hc
        by_cases hcn : c = new
        · rw [hcn]
          exact ⟨h.live_new, by rw [h.lev_eq]; exact hlevP, _, h2N, hnpar⟩
        · have hc2 : c ∈ Pn.array.map Prod.snd := by
            rw [harr]
            simp only [List.map_append, List.map_cons, List.mem_append, List.mem_cons]
            tauto
          obtain ⟨hcl, hclev, cn, hcn2, hcp⟩ := hPok.children hPi c hc2
          have hcP : c ≠ o.parent_page_id_ := by intro hcc; rw [hcc] at hclev; omega
          exact ⟨hcl, hclev, cn, by rw [h2o c hcP hcn]; exact hcn2, hcp⟩
      · intro hr _
        rw [h2r] at hr
        obtain ⟨hGl, G, hG, hGi, hGm⟩ := hPok.parent_ok hr hPnew
        obtain ⟨q1, hq1, hq1i, hm1⟩ := (hdown _ o.parent_page_id_).kids G hG hGi hGm
        exact ⟨hGl, q1, hq1, hq1i, hm1⟩
      · intro hr; rw [h2r] at hr; exact hPok.root_parent hr
    · by_cases hpn : p = new
      · rw [hpn]
        refine ⟨_, h2N, ?_⟩
        have hf := PageOK_frame t t2 g g _ g.hi new new new nn hnok rfl rfl rfl
          (by rw [h2r]) (hupAll new nn h.live_new hnn (fun hc => hPnew hc.symm))
          (fun _ hx => absurd rfl hx) (by rw [h2r]) id
        apply PageOK_listed _ _ _ _ _ _ _ hf
        intro _ _
        rw [hnpar]
        refine ⟨hPl, _, h2P, hPi, ?_⟩
        simp
      · obtain ⟨n, hn, hok⟩ := hord.pages p hp
        refine ⟨n, by rw [h2o p hpP hpn]; exact hn, ?_⟩
        exact PageOK_frame t t2 g g _ g.hi new INVALID_PAGE_ID p n hok rfl rfl rfl
          (by rw [h2r]) (hupAll p n hp hn hpP)
          (fun _ _ => hdown _ _) (by rw [h2r]) (fun _ => hpn)

/-- A live page whose parent pointer is rewritten, with the clauses about the parent
given for the new state. -/
theorem PageOK_move (t t1 : BPlusTree) (g g1 : Ghost) (hiC hiC1 : page_id_t → Option KeyType)
    (ex ex1 p : page_id_t) (n : BPlusTreePage) (par : page_id_t)
    (h : PageOK t g hiC ex p n)
    (hlev : g1.lev p = g.lev p) (hlo : g1.lo p = g.lo p) (hhi : g1.hi p = g.hi p)
    (hrl : g1.lev p ≤ g1.lev t1.root_page_id_)
    (hup : n.page_type_ = IndexPageType.INTERNAL_PAGE → ∀ c ∈ n.array.map Prod.snd,
      UpSame t t1 g g1 hiC hiC1 c)
    (hpar : p ≠ t1.root_page_id_ → p ≠ ex1 → g1.live par ∧
      ∃ q, t1.pages par = some q ∧ q.page_type_ = IndexPageType.INTERNAL_PAGE ∧
        p ∈ q.array.map Prod.snd)
    (hrp : p = t1.root_page_id_ → par = INVALID_PAGE_ID) :
    PageOK t1 g1 hiC1 ex1 p { n with parent_page_id_ := par } := by
  refine ⟨h.id_eq, h.kind, hrl, ?_, h.leaf_sorted, ?_, h.int_size, h.int_nodup, ?_, ?_, hpar, hrp⟩
  · intro hl; rw [hlev]; exact h.leaf_lev hl
  · intro hl x hx; rw [hlo, hhi]; exact h.leaf_range hl x hx
  · intro hi
    rw [hlo, hhi]
    exact Tiled_congr g.lo hiC g1.lo hiC1 _ _ _
      (fun c hc => ⟨(hup hi c hc).lo, (hup hi c hc).hiC⟩) (h.int_tiled hi)
  · intro hi c hc
    obtain ⟨hcl, hclev, cn, hcn, hcp⟩ := h.children hi c hc
    have hu := hup hi c hc
    obtain ⟨cn1, hcn1, hcp1⟩ := hu.parent cn hcn
    exact ⟨hu.live hcl, by rw [hu.lev, hlev]; exact hclev, cn1, hcn1, by rw [hcp1]; exact hcp⟩

/-- The state after `InsertIntoParent` has made a new root. -/
theorem Ord_of_new_root (t t5 : BPlusTree) (g : Ghost) (old new : page_id_t)
    (key : KeyType) (h : SplitOrd t g old new key) (o nn : BPlusTreePage)
    (ho : t.pages old = some o) (hr : old = t.root_page_id_) (hnn : t.pages new = some nn)
    (h5N : t5.pages t.next_page_id = some (BPlusTreeInternalPage.PopulateNewRoot
        (BPlusTreeInternalPage.Init BPlusTreePage.zeroed t.next_page_id INVALID_PAGE_ID
          t.internal_max_size_) old key new))
    (h5o : t5.pages old = some { o with parent_page_id_ := t.next_page_id })
    (h5n : t5.pages new = some { nn with parent_page_id_ := t.next_page_id })
    (h5x : ∀ p, p ≠ t.next_page_id → p ≠ old → p ≠ new → t5.pages p = t.pages p)
    (h5next : t5.next_page_id = t.next_page_id + 1)
    (h5r : t5.root_page_id_ = t.next_page_id)
    (h5m : t5.internal_max_size_ = t.internal_max_size_) :
    Ord t5 ⟨fun p => g.live p ∨ p = t.next_page_id,
      fun p => if p = t.next_page_id then g.lev old + 1 else g.lev p,
      fun p => if p = t.next_page_id then none else g.lo p,
      fun p => if p = t.next_page_id then none else g.hi p⟩ := by
  have hord := h.ord
  obtain ⟨o2, ho2, hook⟩ := hord.pages old h.live_old
  rw [ho] at ho2; cases ho2
  obtain ⟨nn2, hnn2, hnok⟩ := hord.pages new h.live_new
  rw [hnn] at hnn2; cases hnn2
  have hlN : ∀ p, g.live p → p ≠ t.next_page_id :=
    fun p hp => ne_of_lt (live_lt t g _ _ _ hord p hp)
  have holdN := hlN old h.live_old
  have hnewN := hlN new h.live_new
  have hloold : g.lo old = none := by rw [hr]; exact hord.root_lo
  have hhinew : g.hi new = none := by
    have := hord.root_hi
    simp only at this
    rw [if_pos hr.symm] at this
    exact this
  -- nobody lists the old root or the new page
  have F1 : ∀ p n, g.live p → t.pages p = some n →
      n.page_type_ = IndexPageType.INTERNAL_PAGE → old ∉ n.array.map Prod.snd := by
    intro p n hp hn hi hm
    obtain ⟨n2, hn2, hok⟩ := hord.pages p hp
    rw [hn] at hn2; cases hn2
    have h1 := (hok.children hi old hm).2.1
    have h2 := hok.lev_le
    rw [← hr] at h2
    omega
  have hup : ∀ c, g.live c → c ≠ old → c ≠ new → UpSame t t5 g
      ⟨fun p => g.live p ∨ p = t.next_page_id,
        fun p => if p = t.next_page_id then g.lev old + 1 else g.lev p,
        fun p => if p = t.next_page_id then none else g.lo p,
        fun p => if p = t.next_page_id then none else g.hi p⟩
      (fun q => if q = old then g.hi new else g.hi q)
      (fun p => if p = t.next_page_id then none else g.hi p) c := by
    intro c hc hco hcn
    have hcN := hlN c hc
    refine ⟨Or.inl, by simp [hcN], by simp [hcN], by simp [hcN, hco], ?_⟩
    intro cn hcn2
    exact ⟨cn, by rw [h5x c hcN hco hcn]; exact hcn2, rfl⟩
  have hupAll : ∀ p n, g.live p → t.pages p = some n →
      n.page_type_ = IndexPageType.INTERNAL_PAGE → ∀ c ∈ n.array.map Prod.snd, UpSame t t5 g
      ⟨fun p => g.live p ∨ p = t.next_page_id,
        fun p => if p = t.next_page_id then g.lev old + 1 else g.lev p,
        fun p => if p = t.next_page_id then none else g.lo p,
        fun p => if p = t.next_page_id then none else g.hi p⟩
      (fun q => if q = old then g.hi new else g.hi q)
      (fun p => if p = t.next_page_id then none else g.hi p) c := by
    intro p n hp hn hi c hc
    have hcl := (child_ne t g _ _ _ hord p c n hp hn hi hc).2.2
    apply hup c hcl
    · intro hco; rw [hco] at hc; exact F1 p n hp hn hi hc
    · intro hcn; rw [hcn] at hc; exact h.unlisted p n hp hn hi hc
  have hdown : ∀ q c, g.live q → DownSame t t5 g
      ⟨fun p => g.live p ∨ p = t.next_page_id,
        fun p => if p = t.next_page_id then g.lev old + 1 else g.lev p,
        fun p => if p = t.next_page_id then none else g.lo p,
        fun p => if p = t.next_page_id then none else g.hi p⟩ q c := by
    intro q c hq
    refine ⟨Or.inl, ?_⟩
    intro qn hqn hqi hx
    by_cases hqo : q = old
    · rw [hqo] at hqn ⊢; rw [ho] at hqn; cases hqn
      exact ⟨_, h5o, hqi, hx⟩
    · by_cases hqn2 : q = new
      · rw [hqn2] at hqn ⊢; rw [hnn] at hqn; cases hqn
        exact ⟨_, h5n, hqi, hx⟩
      · exact ⟨qn, by rw [h5x q (hlN q hq) hqo hqn2]; exact hqn, hqi, hx⟩
  have hNlist : ∃ q, t5.pages t.next_page_id = some q ∧
      q.page_type_ = IndexPageType.INTERNAL_PAGE ∧ q.array = [(0, old), (key, new)] :=
    ⟨_, h5N, rfl, rfl⟩
  refine ⟨by rw [h5r]; exact Or.inr rfl, ?_, ?_, by rw [h5r]; simp, by rw [h5r]; simp, ?_, ?_,
    ?_⟩
  pick_goal 5
  · intro p n1 hp hn1 hi1
    rw [h5r, h5m]
    by_cases hpN : p = t.next_page_id
    · rw [hpN, h5N] at hn1
      have hn1e := Option.some.inj hn1
      rw [← hn1e]
      exact ⟨rfl, fun hc => absurd hpN hc⟩
    · have hpl : g.live p := by
        rcases hp with hp | hp
        · exact hp
        · exact absurd hp hpN
      by_cases hpo : p = old
      · rw [hpo, h5o] at hn1
        have hn1e := Option.some.inj hn1
        rw [← hn1e] at hi1 ⊢
        exact ⟨(hord.sizes old o h.live_old ho hi1).1, fun _ _ => h.old_size o ho hi1⟩
      · by_cases hpn : p = new
        · rw [hpn, h5n] at hn1
          have hn1e := Option.some.inj hn1
          rw [← hn1e] at hi1 ⊢
          have := hord.sizes new nn h.live_new hnn hi1
          exact ⟨this.1, fun _ _ => this.2 h.new_ne_root
            (live_ne_invalid t g _ _ _ hord new h.live_new)⟩
        · rw [h5x p hpN hpo hpn] at hn1
          have := hord.sizes p n1 hpl hn1 hi1
          exact ⟨this.1, fun _ _ => this.2 (by rw [← hr]; exact hpo)
            (live_ne_invalid t g _ _ _ hord p hpl)⟩
  · intro p hp
    rw [h5next] at hp
    have h1 : p ≠ t.next_page_id := by intro hc; rw [hc] at hp; linarith
    have h2 : p ≠ old := by
      intro hc; rw [hc] at hp; have := live_lt t g _ _ _ hord old h.live_old; linarith
    have h3 : p ≠ new := by
      intro hc; rw [hc] at hp; have := live_lt t g _ _ _ hord new h.live_new; linarith
    rw [h5x p h1 h2 h3]; exact hord.fresh p (by linarith)
  · intro p hp
    rcases hp with hp | hp
    · exact hord.live_pos p hp
    · rw [hp]; linarith [hord.live_pos old h.live_old, live_lt t g _ _ _ hord old h.live_old]
  · rw [h5r, h5next]; simp only [if_true]
    have := hord.height; rw [← hr] at this; push_cast; linarith
  · intro p hp
    by_cases hpN : p = t.next_page_id
    · rw [hpN]
      refine ⟨_, h5N, ?_⟩
      refine ⟨rfl, Or.inr rfl, (by rw [h5r]), fun hl => (by cases hl), fun hl => (by cases hl),
        fun hl => (by cases hl), fun _ => (by simp [BPlusTreePage.GetSize,
          BPlusTreeInternalPage.PopulateNewRoot]), ?_, ?_, ?_, ?_, fun _ => rfl⟩
      · intro _
        simp only [BPlusTreeInternalPage.PopulateNewRoot, List.map_cons, List.map_nil]
        simp [h.ne]
      · intro _
        show Tiled _ _ _ [(0, old), (key, new)] _
        refine ⟨?_, ?_, ?_, ?_, ?_, ?_⟩
        · simp [holdN, hloold]
        · simp [holdN, h.hi_old]
        · simp only [if_true]; exact aboveLo_none _
        · simp [hnewN, h.lo_new]
        · simp [hnewN, hhinew]
        · simp only [if_true]; exact boundLe_none_right _
      · intro _ c hc
        simp only [BPlusTreeInternalPage.PopulateNewRoot, List.map_cons, List.map_nil,
          List.mem_cons, List.mem_singleton, List.not_mem_nil, or_false] at hc
        rcases hc with hc | hc
        · rw [hc]; exact ⟨Or.inl h.live_old, by simp [holdN], _, h5o, rfl⟩
        · rw [hc]; exact ⟨Or.inl h.live_new, by simp [hnewN, h.lev_eq], _, h5n, rfl⟩
      · intro hc; rw [h5r] at hc; exact absurd rfl hc
    · have hpl : g.live p := by
        rcases hp with hp | hp
        · exact hp
        · exact absurd hp hpN
      by_cases hpo : p = old
      · rw [hpo]
        refine ⟨_, h5o, ?_⟩
        apply PageOK_move t t5 g _ _ _ new INVALID_PAGE_ID old o t.next_page_id hook
        · simp [holdN]
        · simp [holdN]
        · simp [holdN]
        · rw [h5r]; simp [holdN]
        · exact hupAll old o h.live_old ho
        · intro _ _
          exact ⟨Or.inr rfl, _, h5N, rfl, by simp [BPlusTreeInternalPage.PopulateNewRoot]⟩
        · intro hc; rw [h5r] at hc; exact absurd hc holdN
      · by_cases hpn : p = new
        · rw [hpn]
          refine ⟨_, h5n, ?_⟩
          apply PageOK_move t t5 g _ _ _ new INVALID_PAGE_ID new nn t.next_page_id hnok
          · simp [hnewN]
          · simp [hnewN]
          · simp [hnewN]
          · rw [h5r]; simp [hnewN, h.lev_eq]
          · exact hupAll new nn h.live_new hnn
          · intro _ _
            exact ⟨Or.inr rfl, _, h5N, rfl, by simp [BPlusTreeInternalPage.PopulateNewRoot]⟩
          · intro hc; rw [h5r] at hc; exact absurd hc hnewN
        · obtain ⟨n, hn, hok⟩ := hord.pages p hpl
          refine ⟨n, by rw [h5x p hpN hpo hpn]; exact hn, ?_⟩
          apply PageOK_frame t t5 g _ _ _ new INVALID_PAGE_ID p n hok
          · simp [hpN]
          · simp [hpN]
          · simp [hpN]
          · rw [h5r, ← hr]; simp
          · exact hupAll p n hpl hn
          · intro hr2 hx
            exact hdown _ p (hok.parent_ok hr2 hx).1
          · rw [h5r, ← hr]
            exact ⟨fun hc => absurd hc hpN, fun hc => absurd hc hpo⟩
          · intro _; exact hpn

/-- The state after the split of an internal page. -/
theorem SplitOrd_of_internal_split (t t5 : BPlusTree) (g : Ghost) (P : page_id_t)
    (pn : BPlusTreePage) (h : OrdX t g g.hi INVALID_PAGE_ID P) (hP : g.live P)
    (hpn : t.pages P = some pn)
    (hi : pn.page_type_ = IndexPageType.INTERNAL_PAGE) (hsz : 2 ≤ pn.GetSize)
    (hfull : pn.GetSize = pn.max_size_)
    (key0 : KeyType) (c0 : Int) (rest : List (KeyType × Int))
    (hd : pn.array.drop (pn.GetSize / 2) = (key0, c0) :: rest)
    (h5P : t5.pages P = some { pn with array := pn.array.take (pn.GetSize / 2) })
    (h5N : t5.pages t.next_page_id = some
        { (BPlusTreeInternalPage.Init BPlusTreePage.zeroed t.next_page_id pn.parent_page_id_
            pn.max_size_) with array := pn.array.drop (pn.GetSize / 2) })
    (h5o : ∀ q, q ≠ P → q ≠ t.next_page_id →
        t5.pages q = if q ∈ (pn.array.drop (pn.GetSize / 2)).map Prod.snd
          then (t.pages q).map (fun n => { n with parent_page_id_ := t.next_page_id })
          else t.pages q)
    (h5n : t5.next_page_id = t.next_page_id + 1)
    (h5r : t5.root_page_id_ = t.root_page_id_)
    (h5m : t5.internal_max_size_ = t.internal_max_size_) :
    SplitOrd t5 ⟨fun p => g.live p ∨ p = t.next_page_id,
        fun p => if p = t.next_page_id then g.lev P else g.lev p,
        fun p => if p = t.next_page_id then some key0 else g.lo p,
        fun p => if p = P then some key0 else if p = t.next_page_id then g.hi P else g.hi p⟩
      P t.next_page_id key0 := by
  have hPlt := stored_lt t h.fresh P pn hpn
  have hPN : P ≠ t.next_page_id := ne_of_lt hPlt
  have hNP : t.next_page_id ≠ P := fun hc => hPN hc.symm
  have hlN : ∀ p, g.live p → p ≠ t.next_page_id := fun p hp => ne_of_lt (live_lt t g _ _ _ h p hp)
  obtain ⟨pn2, hpn2, hPok⟩ := h.pages P hP
  rw [hpn] at hpn2; cases hpn2
  have hrN : t.root_page_id_ ≠ t.next_page_id := hlN _ h.root_live
  have hlen : pn.array.length = pn.GetSize := rfl
  have htk : pn.array.take (pn.GetSize / 2) ≠ [] := by
    intro hc
    have := congrArg List.length hc
    simp only [List.length_take, List.length_nil] at this
    omega
  have harr : pn.array = pn.array.take (pn.GetSize / 2) ++ (key0, c0) :: rest := by
    rw [← hd, List.take_append_drop]
  have ht := hPok.int_tiled hi
  rw [harr, Tiled_append g.lo g.hi _ _ _ _ _ htk] at ht
  obtain ⟨ht1, ht2⟩ := ht
  have hb1 := Tiled_bound g.lo g.hi _ _ _ htk ht1
  have hb2 := Tiled_bound g.lo g.hi _ _ _ (by simp) ht2
  have hnd := hPok.int_nodup hi
  have hmemT : ∀ c, c ∈ (pn.array.take (pn.GetSize / 2)).map Prod.snd →
      c ∈ pn.array.map Prod.snd := by
    intro c hc
    obtain ⟨x, hx, hx2⟩ := List.mem_map.mp hc
    exact List.mem_map.mpr ⟨x, List.mem_of_mem_take hx, hx2⟩
  have hmemD : ∀ c, c ∈ (pn.array.drop (pn.GetSize / 2)).map Prod.snd →
      c ∈ pn.array.map Prod.snd := by
    intro c hc
    obtain ⟨x, hx, hx2⟩ := List.mem_map.mp hc
    exact List.mem_map.mpr ⟨x, List.mem_of_mem_drop hx, hx2⟩
  have hTD : ∀ c, c ∈ pn.array.map Prod.snd →
      c ∉ (pn.array.drop (pn.GetSize / 2)).map Prod.snd →
      c ∈ (pn.array.take (pn.GetSize / 2)).map Prod.snd := by
    intro c hc hcd
    obtain ⟨x, hx, hx2⟩ := List.mem_map.mp hc
    rcases take_drop_keys pn.array (pn.GetSize / 2) x hx with h1 | h1
    · exact List.mem_map.mpr ⟨x, h1, hx2⟩
    · exact absurd (List.mem_map.mpr ⟨x, h1, hx2⟩) hcd
  have hdisj : ∀ c, c ∈ (pn.array.take (pn.GetSize / 2)).map Prod.snd →
      c ∉ (pn.array.drop (pn.GetSize / 2)).map Prod.snd := by
    intro c hc1 hc2
    have : ((pn.array.take (pn.GetSize / 2) ++ pn.array.drop (pn.GetSize / 2)).map
        Prod.snd).Nodup := by rw [List.take_append_drop]; exact hnd
    rw [List.map_append, List.nodup_append] at this
    exact this.2.2 hc1 hc2
  -- the children of `P`
  have hchP : ∀ c, c ∈ pn.array.map Prod.snd → g.live c ∧ g.lev c + 1 = g.lev P ∧
      c ≠ P ∧ c ≠ t.next_page_id ∧ ∃ cn, t.pages c = some cn ∧ cn.parent_page_id_ = P := by
    intro c hc
    obtain ⟨h1, h2, h3⟩ := hPok.children hi c hc
    exact ⟨h1, h2, fun hcc => by rw [hcc] at h2; omega, hlN c h1, h3⟩
  -- only `P` lists the moved children
  have F1 : ∀ p n c, g.live p → t.pages p = some n →
      n.page_type_ = IndexPageType.INTERNAL_PAGE → c ∈ n.array.map Prod.snd →
      c ∈ pn.array.map Prod.snd → p = P := by
    intro p n c hp hn hi2 hm hm2
    obtain ⟨_, _, _, _, cn, hcn, hcp⟩ := hchP c hm2
    rw [← hcp]
    exact (lister_eq t g _ _ _ h p c n cn hp hn hi2 hm hcn).symm
  have hup : ∀ c, g.live c → c ∉ (pn.array.drop (pn.GetSize / 2)).map Prod.snd →
      UpSame t t5 g
      ⟨fun p => g.live p ∨ p = t.next_page_id,
        fun p => if p = t.next_page_id then g.lev P else g.lev p,
        fun p => if p = t.next_page_id then some key0 else g.lo p,
        fun p => if p = P then some key0 else if p = t.next_page_id then g.hi P else g.hi p⟩
      g.hi (fun q => if q = P then
          (if t.next_page_id = P then some key0 else if t.next_page_id = t.next_page_id
            then g.hi P else g.hi t.next_page_id)
        else (if q = P then some key0 else if q = t.next_page_id then g.hi P else g.hi q)) c := by
    intro c hc hcD
    have hcN := hlN c hc
    refine ⟨Or.inl, by simp [hcN], by simp [hcN], ?_, ?_⟩
    · by_cases hcP : c = P
      · simp [hcP, hNP]
      · simp [hcP, hcN]
    · intro cn hcn
      by_cases hcP : c = P
      · rw [hcP] at hcn ⊢; rw [hpn] at hcn; cases hcn
        exact ⟨_, h5P, rfl⟩
      · exact ⟨cn, by rw [h5o c hcP hcN, if_neg hcD]; exact hcn, rfl⟩
  have hupAll : ∀ p n, g.live p → t.pages p = some n → p ≠ P →
      n.page_type_ = IndexPageType.INTERNAL_PAGE → ∀ c ∈ n.array.map Prod.snd,
      UpSame t t5 g
      ⟨fun p => g.live p ∨ p = t.next_page_id,
        fun p => if p = t.next_page_id then g.lev P else g.lev p,
        fun p => if p = t.next_page_id then some key0 else g.lo p,
        fun p => if p = P then some key0 else if p = t.next_page_id then g.hi P else g.hi p⟩
      g.hi (fun q => if q = P then
          (if t.next_page_id = P then some key0 else if t.next_page_id = t.next_page_id
            then g.hi P else g.hi t.next_page_id)
        else (if q = P then some key0 else if q = t.next_page_id then g.hi P else g.hi q)) c := by
    intro p n hp hn hpP hi2 c hc
    have hcl := (child_ne t g _ _ _ h p c n hp hn hi2 hc).2.2
    apply hup c hcl
    intro hcD
    exact hpP (F1 p n c hp hn hi2 hc (hmemD c hcD))
  have hdown : ∀ q c, g.live q → (q = P → c ∈ (pn.array.take (pn.GetSize / 2)).map Prod.snd) →
      DownSame t t5 g
      ⟨fun p => g.live p ∨ p = t.next_page_id,
        fun p => if p = t.next_page_id then g.lev P else g.lev p,
        fun p => if p = t.next_page_id then some key0 else g.lo p,
        fun p => if p = P then some key0 else if p = t.next_page_id then g.hi P else g.hi p⟩
      q c := by
    intro q c hq hqc
    refine ⟨Or.inl, ?_⟩
    intro qn hqn hqi hx
    by_cases hqP : q = P
    · rw [hqP]
      exact ⟨_, h5P, hi, hqc hqP⟩
    · by_cases hqD : q ∈ (pn.array.drop (pn.GetSize / 2)).map Prod.snd
      · exact ⟨{ qn with parent_page_id_ := t.next_page_id },
          by rw [h5o q hqP (hlN q hq), if_pos hqD, hqn]; rfl, hqi, hx⟩
      · exact ⟨qn, by rw [h5o q hqP (hlN q hq), if_neg hqD]; exact hqn, hqi, hx⟩
  have hmaxP := (h.sizes P pn hP hpn hi).1
  have hszT : (pn.array.take (pn.GetSize / 2)).length < pn.max_size_ := by
    simp only [List.length_take]; omega
  have hszD : (pn.array.drop (pn.GetSize / 2)).length < pn.max_size_ := by
    simp only [List.length_drop]; omega
  refine ⟨⟨?_, ?_, ?_, ?_, ?_, ?_, ?_, ?_⟩, Or.inl hP, Or.inr rfl, hPN, by simp, by simp,
    by simp, ⟨_, _, h5P, h5N, rfl⟩, ?_, by rw [h5r]; exact fun hc => hrN hc.symm, ?_, ?_, ?_⟩
  pick_goal 8
  · intro p n1 hp hn1 hi1
    rw [h5r, h5m]
    by_cases hpP : p = P
    · rw [hpP, h5P] at hn1
      have hn1e := Option.some.inj hn1
      rw [← hn1e]
      exact ⟨hmaxP, fun _ _ => hszT⟩
    · by_cases hpN : p = t.next_page_id
      · rw [hpN, h5N] at hn1
        have hn1e := Option.some.inj hn1
        rw [← hn1e]
        exact ⟨hmaxP, fun _ _ => hszD⟩
      · have hpl : g.live p := by
          rcases hp with hp | hp
          · exact hp
          · exact absurd hp hpN
        obtain ⟨n0, hn0, _⟩ := h.pages p hpl
        have hsame : n1.page_type_ = n0.page_type_ ∧ n1.max_size_ = n0.max_size_ ∧
            n1.GetSize = n0.GetSize := by
          rw [h5o p hpP hpN, hn0] at hn1
          split at hn1
          · simp only [Option.map_some', Option.some.injEq] at hn1
            rw [← hn1]; exact ⟨rfl, rfl, rfl⟩
          · have := Option.some.inj hn1
            rw [← this]; exact ⟨rfl, rfl, rfl⟩
        rw [hsame.1] at hi1
        rw [hsame.2.1, hsame.2.2]
        have := h.sizes p n0 hpl hn0 hi1
        exact ⟨this.1, fun hr _ => this.2 hr hpP⟩
  pick_goal 11
  · intro o ho hi1
    rw [h5P] at ho
    have := Option.some.inj ho
    rw [← this]
    exact hszT
  · rw [h5r]; exact Or.inl h.root_live
  · intro p hp
    rw [h5n] at hp
    have h1 : p ≠ P := by intro hc; rw [hc] at hp; linarith
    have h2 : p ≠ t.next_page_id := by intro hc; rw [hc] at hp; linarith
    have h3 : t.pages p = none := h.fresh p (by linarith)
    rw [h5o p h1 h2, h3]
    split <;> rfl
  · intro p hp
    rcases hp with hp | hp
    · exact h.live_pos p hp
    · rw [hp]; linarith [h.live_pos P hP]
  · simp only [h5r, if_neg hrN]; exact h.root_lo
  · simp only [h5r]
    by_cases hrP : t.root_page_id_ = P
    · simp only [hrP, if_true, if_neg hNP]; rw [← hrP]; exact h.root_hi
    · simp only [if_neg hrP, if_neg hrN]; exact h.root_hi
  · simp only [h5r, h5n, if_neg hrN]; have := h.height; linarith
  · intro p hp
    by_cases hpP : p = P
    · rw [hpP]
      refine ⟨_, h5P, ?_⟩
      have habs : ∀ {α : Prop}, pn.page_type_ = IndexPageType.LEAF_PAGE → α := by
        intro α hl; rw [hi] at hl; cases hl
      refine ⟨hPok.id_eq, hPok.kind, ?_, fun hl => habs hl, fun hl => habs hl,
        fun hl => habs hl, ?_, ?_, ?_, ?_, ?_, ?_⟩
      · simp only [h5r, if_neg hPN, if_neg hrN]; exact hPok.lev_le
      · intro _
        simp only [BPlusTreePage.GetSize, List.length_take]
        omega
      · intro _
        exact List.Nodup.sublist (List.Sublist.map _ (List.take_sublist _ _)) hnd
      · intro _
        simp only [if_neg hPN, if_true]
        apply Tiled_congr g.lo g.hi _ _ _ _ _ _ ht1
        intro c hc
        obtain ⟨_, _, hcP, hcN, _⟩ := hchP c (hmemT c hc)
        simp [hcP, hcN]
      · intro _ c hc
        obtain ⟨hcl, hclev, hcP, hcN, cn, hcn, hcp⟩ := hchP c (hmemT c hc)
        refine ⟨Or.inl hcl, by simp only [if_neg hcN, if_neg hPN]; exact hclev, cn, ?_, hcp⟩
        rw [h5o c hcP hcN, if_neg (hdisj c hc)]; exact hcn
      · intro hr hx
        rw [h5r] at hr
        obtain ⟨hGl, G, hG, hGi, hGm⟩ :=
          hPok.parent_ok hr (live_ne_invalid t g _ _ _ h P hP)
        have hGP : pn.parent_page_id_ ≠ P := (child_ne t g _ _ _ h _ P G hGl hG hGi hGm).1.symm
        obtain ⟨q1, hq1, hq1i, hm1⟩ :=
          (hdown _ P hGl (fun hc => absurd hc hGP)).kids G hG hGi hGm
        exact ⟨Or.inl hGl, q1, hq1, hq1i, hm1⟩
      · intro hr; rw [h5r] at hr; exact hPok.root_parent hr
    · by_cases hpN : p = t.next_page_id
      · rw [hpN]
        refine ⟨_, h5N, ?_⟩
        refine ⟨rfl, Or.inr rfl, ?_, fun hl => (by cases hl), fun hl => (by cases hl),
          fun hl => (by cases hl), ?_, ?_, ?_, ?_, ?_, ?_⟩
        · simp only [h5r, if_true, if_neg hrN]; exact hPok.lev_le
        · intro _
          show 1 ≤ (pn.array.drop (pn.GetSize / 2)).length
          rw [hd]; simp
        · intro _
          exact List.Nodup.sublist (List.Sublist.map _ (List.drop_sublist _ _)) hnd
        · intro _
          simp only [if_true, if_neg hNP]
          show Tiled _ _ _ (pn.array.drop (pn.GetSize / 2)) _
          rw [hd]
          apply Tiled_congr g.lo g.hi _ _ _ _ _ _ ht2
          intro c hc
          obtain ⟨_, _, hcP, hcN, _⟩ := hchP c (hmemD c (by rw [hd]; exact hc))
          simp [hcP, hcN]
        · intro _ c hc
          have hc' : c ∈ (pn.array.drop (pn.GetSize / 2)).map Prod.snd := hc
          obtain ⟨hcl, hclev, hcP, hcN, cn, hcn, hcp⟩ := hchP c (hmemD c hc')
          refine ⟨Or.inl hcl, by simp only [if_neg hcN, if_true]; exact hclev,
            { cn with parent_page_id_ := t.next_page_id }, ?_, rfl⟩
          rw [h5o c hcP hcN, if_pos hc', hcn]; rfl
        · intro _ hx; exact absurd rfl hx
        · intro hr; rw [h5r] at hr; exact absurd hr.symm hrN
      · have hpl : g.live p := by
          rcases hp with hp | hp
          · exact hp
          · exact absurd hp hpN
        obtain ⟨n, hn, hok⟩ := h.pages p hpl
        by_cases hpD : p ∈ (pn.array.drop (pn.GetSize / 2)).map Prod.snd
        · refine ⟨{ n with parent_page_id_ := t.next_page_id },
            by rw [h5o p hpP hpN, if_pos hpD, hn]; rfl, ?_⟩
          obtain ⟨_, hplev, _, _, _⟩ := hchP p (hmemD p hpD)
          apply PageOK_move t t5 g _ _ _ INVALID_PAGE_ID _ p n t.next_page_id hok
          · simp [hpN]
          · simp [hpN]
          · simp [hpN, hpP]
          · simp only [h5r, if_neg hpN, if_neg hrN]; exact hok.lev_le
          · exact hupAll p n hpl hn hpP
          · intro _ _
            exact ⟨Or.inr rfl, _, h5N, rfl, hpD⟩
          · intro hr
            rw [h5r] at hr
            have := hPok.lev_le
            rw [← hr] at this
            omega
        · refine ⟨n, by rw [h5o p hpP hpN, if_neg hpD]; exact hn, ?_⟩
          apply PageOK_frame t t5 g _ g.hi _ INVALID_PAGE_ID _ p n hok
          · simp [hpN]
          · simp [hpN]
          · simp [hpN, hpP]
          · simp only [h5r, if_neg hrN]; exact le_refl _
          · exact hupAll p n hpl hn hpP
          · intro hr hx
            obtain ⟨hql, q, hq, hqi, hqm⟩ := hok.parent_ok hr hx
            apply hdown _ p hql
            intro hqP
            rw [hqP, hpn] at hq; cases hq
            exact hTD p hqm hpD
          · rw [h5r]
          · intro _; exact live_ne_invalid t g _ _ _ h p hpl
  · intro p n hp hn hi2 hmem
    have hall : ∀ q qn, g.live q → t.pages q = some qn →
        qn.page_type_ = IndexPageType.INTERNAL_PAGE →
        t.next_page_id ∉ qn.array.map Prod.snd := by
      intro q qn hq hqn hqi hm
      exact hlN _ (child_ne t g _ _ _ h q _ qn hq hqn hqi hm).2.2 rfl
    rcases hp with hp | hp
    · by_cases hpP : p = P
      · rw [hpP, h5P] at hn; cases hn
        exact hall P pn hP hpn hi (hmemT _ hmem)
      · obtain ⟨n0, hn0, _⟩ := h.pages p hp
        rw [h5o p hpP (hlN p hp), hn0] at hn
        split at hn
        · simp only [Option.map_some', Option.some.injEq] at hn
          rw [← hn] at hmem hi2
          exact hall p n0 hp hn0 hi2 hmem
        · have hnn := Option.some.inj hn
          rw [← hnn] at hmem hi2
          exact hall p n0 hp hn0 hi2 hmem
    · rw [hp, h5N] at hn; cases hn
      exact hall P pn hP hpn hi (hmemD _ hmem)
  · simp only [if_neg hPN]; exact (aboveLo_iff _ _).1 hb1
  · simp only [if_true, if_neg hNP]; exact hb2

theorem Internal_KeyAt_head (n : BPlusTreePage) (x : KeyType × Int) (rest : List (KeyType × Int))
    (h : n.array = x :: rest) : BPlusTreeInternalPage.KeyAt n 0 = .ok x.1 := by
  unfold BPlusTreeInternalPage.KeyAt
  simp [h]

theorem Leaf_KeyAt_head (n : BPlusTreePage) (x : KeyType × Int) (rest : List (KeyType × Int))
    (h : n.array = x :: rest) : BPlusTreeLeafPage.KeyAt n 0 = .ok x.1 := by
  unfold BPlusTreeLeafPage.KeyAt
  simp [h]

theorem drop_half_cons (arr : List (KeyType × Int)) (h : 1 ≤ arr.length) :
    ∃ x rest, arr.drop (arr.length / 2) = x :: rest := by
  cases hd : arr.drop (arr.length / 2) with
  | nil =>
    have := congrArg List.length hd
    simp only [List.length_drop, List.length_nil] at this
    omega
  | cons x rest => exact ⟨x, rest, rfl⟩

theorem OrdX_small (t : BPlusTree) (g : Ghost) (hiC : page_id_t → Option KeyType)
    (ex big : page_id_t) (h : OrdX t g hiC ex big)
    (hb : ∀ n, t.pages big = some n → n.page_type_ = IndexPageType.INTERNAL_PAGE →
      big ≠ t.root_page_id_ → n.GetSize < n.max_size_) :
    OrdX t g hiC ex INVALID_PAGE_ID := by
  refine ⟨h.root_live, h.fresh, h.live_pos, h.root_lo, h.root_hi, h.height, h.pages, ?_⟩
  intro p n hp hn hi
  refine ⟨(h.sizes p n hp hn hi).1, fun hr _ => ?_⟩
  by_cases hpb : p = big
  · rw [hpb] at hn hr; exact hb n hn hi hr
  · exact (h.sizes p n hp hn hi).2 hr hpb

/-- `InsertIntoParent` returns and leaves a tree with the ordering invariant; the leaves
keep their pairs. -/
theorem InsertIntoParent_ord (fuel : Nat) : ∀ (t : BPlusTree) (g : Ghost)
    (txn : Transaction) (old new : page_id_t) (key : KeyType),
    SplitOrd t g old new key → txn.deleted_page_set = [] →
    g.lev t.root_page_id_ < g.lev old + fuel →
    ∃ t1 txn1 g1, BPlusTree.InsertIntoParent fuel t txn old key new = .ok (t1, txn1) ∧
      txn1.deleted_page_set = [] ∧ Ord t1 g1 ∧
      (∀ Z zn, g.live Z → t.pages Z = some zn → zn.page_type_ = IndexPageType.LEAF_PAGE →
        g1.live Z ∧ ∃ zn1, t1.pages Z = some zn1 ∧
          zn1.page_type_ = IndexPageType.LEAF_PAGE ∧ zn1.array = zn.array) := by
  induction fuel with
  | zero =>
    intro t g txn old new key hs _ hf
    obtain ⟨o, ho, hook⟩ := hs.ord.pages old hs.live_old
    have := hook.lev_le
    omega
  | succ fuel ih =>
    intro t g txn old new key hs htxn hf
    have hord := hs.ord
    obtain ⟨o, ho, hook⟩ := hord.pages old hs.live_old
    obtain ⟨n, hn, hnok⟩ := hord.pages new hs.live_new
    have hfo : t.FetchPage old = .ok o := (FetchPage_ok _ _ _).2 ho
    have holt := stored_lt t hord.fresh old o ho
    have hnlt := stored_lt t hord.fresh new n hn
    have hoN : old ≠ t.next_page_id := ne_of_lt holt
    have hnN : new ≠ t.next_page_id := ne_of_lt hnlt
    by_cases hroot : o.IsRootPage = true
    · -- a new root
      have hor : old = t.root_page_id_ := by
        by_contra hc
        have := (hook.parent_ok hc hs.ne).1
        rw [(IsRootPage_iff o).1 hroot] at this
        exact live_ne_invalid t g _ _ _ hord _ this rfl
      have h5 := Ord_of_new_root t
        ((({ (t.NewPage).1 with root_page_id_ := t.next_page_id }.setPage t.next_page_id
          (BPlusTreeInternalPage.PopulateNewRoot (BPlusTreeInternalPage.Init BPlusTreePage.zeroed
            t.next_page_id INVALID_PAGE_ID t.internal_max_size_) old key new)).setPage old
          { o with parent_page_id_ := t.next_page_id }).setPage new
          { n with parent_page_id_ := t.next_page_id })
        g old new key hs o n ho hor hn
        (by simp [BPlusTree.setPage, setAt, Ne.symm hoN, Ne.symm hnN])
        (by simp [BPlusTree.setPage, setAt, hs.ne])
        (by simp [BPlusTree.setPage, setAt])
        (by intro q h1 h2 h3; simp [BPlusTree.setPage, BPlusTree.NewPage, setAt, h1, h2, h3])
        rfl rfl rfl
      refine ⟨_, txn, _, ?_, htxn, h5, ?_⟩
      · unfold BPlusTree.InsertIntoParent
        simp only [bind, Except.bind, hfo, hroot, if_true]
        have h1 : (({ (t.NewPage).1 with root_page_id_ := (t.NewPage).2 }.setPage (t.NewPage).2
            (BPlusTreeInternalPage.PopulateNewRoot (BPlusTreeInternalPage.Init BPlusTreePage.zeroed
              (t.NewPage).2 INVALID_PAGE_ID t.internal_max_size_) old key new))).FetchPage old =
            .ok o := by
          simp [BPlusTree.FetchPage, BPlusTree.setPage, BPlusTree.NewPage, setAt, hoN, ho]
        simp only [h1]
        have h2 : ((({ (t.NewPage).1 with root_page_id_ := (t.NewPage).2 }.setPage
            (t.NewPage).2
            (BPlusTreeInternalPage.PopulateNewRoot (BPlusTreeInternalPage.Init BPlusTreePage.zeroed
              (t.NewPage).2 INVALID_PAGE_ID t.internal_max_size_) old key new))).setPage old
            { o with parent_page_id_ := (t.NewPage).2 }).FetchPage new = .ok n := by
          simp [BPlusTree.FetchPage, BPlusTree.setPage, BPlusTree.NewPage, setAt, hnN,
            Ne.symm hs.ne, hn]
        simp only [h2]
        rfl
      · intro Z zn hZ hzn hzl
        refine ⟨Or.inl hZ, ?_⟩
        have hZN : Z ≠ t.next_page_id := ne_of_lt (stored_lt t hord.fresh Z zn hzn)
        by_cases hZn : Z = new
        · rw [hZn] at hzn ⊢; rw [hn] at hzn; cases hzn
          exact ⟨{ n with parent_page_id_ := t.next_page_id }, setPage_same _ _ _, hzl, rfl⟩
        · by_cases hZo : Z = old
          · rw [hZo] at hzn ⊢; rw [ho] at hzn; cases hzn
            exact ⟨{ o with parent_page_id_ := t.next_page_id },
              by rw [setPage_other _ _ _ _ hs.ne, setPage_same], hzl, rfl⟩
          · refine ⟨zn, ?_, hzl, rfl⟩
            rw [setPage_other _ _ _ _ hZn, setPage_other _ _ _ _ hZo,
              setPage_other _ _ _ _ hZN]
            simp only [BPlusTree.NewPage, setAt, if_neg hZN]
            exact hzn
    · -- the parent takes the new page
      have hroot2 : o.IsRootPage = false := by simpa using hroot
      have hor : old ≠ t.root_page_id_ := by
        intro hc
        exact hroot ((IsRootPage_iff o).2 (hook.root_parent hc))
      obtain ⟨hPl, pn, hpn, hpt, hpm⟩ := hook.parent_ok hor hs.ne
      obtain ⟨pn2, hpn2, hPok⟩ := hord.pages _ hPl
      rw [hpn] at hpn2; cases hpn2
      have hpl : g.lev old + 1 = g.lev o.parent_page_id_ := (hPok.children hpt old hpm).2.1
      have hPnew : o.parent_page_id_ ≠ new := fun e => by rw [e, hs.lev_eq] at hpl; omega
      have hfP : t.FetchPage o.parent_page_id_ = .ok pn := (FetchPage_ok _ _ _).2 hpn
      have hfn : t.FetchPage new = .ok n := (FetchPage_ok _ _ _).2 hn
      have hfP1 : (t.setPage new { n with parent_page_id_ := o.parent_page_id_ }).FetchPage
          o.parent_page_id_ = .ok pn := by
        simp [BPlusTree.FetchPage, BPlusTree.setPage, setAt, hPnew, hpn]
      obtain ⟨hia1, hia2, hia3, hia4⟩ := InsertNodeAfter_spec pn old key new
      have hap := Ord_of_parent_insert t
        ((t.setPage new { n with parent_page_id_ := o.parent_page_id_ }).setPage
          o.parent_page_id_ (BPlusTreeInternalPage.InsertNodeAfter pn old key new).1)
        g old new key hs o pn n ho hor hpn hn
        (by rw [setPage_same])
        (by rw [setPage_other _ _ _ _ (Ne.symm hPnew), setPage_same])
        (by intro q h1 h2; rw [setPage_other _ _ _ _ h1, setPage_other _ _ _ _ h2])
        rfl rfl rfl
      have hleaf2 : ∀ Z zn, g.live Z → t.pages Z = some zn →
          zn.page_type_ = IndexPageType.LEAF_PAGE →
          ∃ zn1, ((t.setPage new { n with parent_page_id_ := o.parent_page_id_ }).setPage
            o.parent_page_id_ (BPlusTreeInternalPage.InsertNodeAfter pn old key new).1).pages Z =
            some zn1 ∧ zn1.page_type_ = IndexPageType.LEAF_PAGE ∧ zn1.array = zn.array := by
        intro Z zn hZ hzn hzl
        have hZP : Z ≠ o.parent_page_id_ := by
          intro hc; rw [hc, hpn] at hzn; cases hzn; rw [hpt] at hzl; cases hzl
        by_cases hZn : Z = new
        · rw [hZn] at hzn ⊢; rw [hn] at hzn; cases hzn
          exact ⟨{ n with parent_page_id_ := o.parent_page_id_ },
            by rw [setPage_other _ _ _ _ (Ne.symm hPnew), setPage_same], hzl, rfl⟩
        · exact ⟨zn, by rw [setPage_other _ _ _ _ hZP, setPage_other _ _ _ _ hZn]; exact hzn,
            hzl, rfl⟩
      unfold BPlusTree.InsertIntoParent
      simp only [bind, Except.bind, hfo, hroot2, Bool.false_eq_true, if_false, hfP, hfn, hfP1]
      by_cases hsz : (BPlusTreeInternalPage.InsertNodeAfter pn old key new).2 =
          (BPlusTreeInternalPage.InsertNodeAfter pn old key new).1.max_size_
      · -- the parent is split
        simp only [hsz, if_true]
        obtain ⟨pn1, hpn1, hP1ok⟩ := hap.pages _ hPl
        have hpn1e : pn1 = (BPlusTreeInternalPage.InsertNodeAfter pn old key new).1 := by
          rw [setPage_same] at hpn1; exact (Option.some.inj hpn1).symm
        have hpt1 : pn1.page_type_ = IndexPageType.INTERNAL_PAGE := by
          rw [hpn1e, hia4]; exact hpt
        have hsz1 : 2 ≤ pn1.GetSize := by
          have h1 := hPok.int_size hpt
          have h2 : pn1.GetSize = pn.GetSize + 1 := by rw [hpn1e]; exact hia2
          omega
        have hch : ∀ c ∈ pn1.array.map Prod.snd,
            (∃ cn, ((t.setPage new { n with parent_page_id_ := o.parent_page_id_ }).setPage
              o.parent_page_id_ (BPlusTreeInternalPage.InsertNodeAfter pn old key new).1).pages c =
              some cn) ∧ c ≠ o.parent_page_id_ ∧
            c ≠ ((t.setPage new { n with parent_page_id_ := o.parent_page_id_ }).setPage
              o.parent_page_id_
              (BPlusTreeInternalPage.InsertNodeAfter pn old key new).1).next_page_id := by
          intro c hc
          obtain ⟨hcl, hclev, cn, hcn, _⟩ := hP1ok.children hpt1 c hc
          exact ⟨⟨cn, hcn⟩, fun e => by rw [e] at hclev; omega,
            ne_of_lt (stored_lt _ hap.fresh c cn hcn)⟩
        have hfull : pn1.GetSize = pn1.max_size_ := by
          have h2 : pn1.GetSize = pn.GetSize + 1 := by rw [hpn1e]; exact hia2
          rw [h2, ← hia1, hsz, hpn1e]
        obtain ⟨t5, txn1, h5, h5t, h5P, h5N, h5x, h5next, h5root, _, h5m⟩ :=
          SplitInternal_eq _ txn o.parent_page_id_ pn1 hpn1
            (ne_of_lt (stored_lt _ hap.fresh _ pn1 hpn1)) hch
        obtain ⟨x, rest, hd⟩ := drop_half_cons pn1.array (by
          have : pn1.array.length = pn1.GetSize := rfl
          omega)
        have hs5 := SplitOrd_of_internal_split _ t5 g o.parent_page_id_ pn1 hap hPl hpn1 hpt1
          hsz1 hfull x.1 x.2 rest hd h5P h5N h5x h5next h5root h5m
        simp only [h5]
        have hfN : t5.FetchPage ((t.setPage new { n with parent_page_id_ := o.parent_page_id_
            }).setPage o.parent_page_id_
            (BPlusTreeInternalPage.InsertNodeAfter pn old key new).1).next_page_id = .ok _ :=
          (FetchPage_ok _ _ _).2 h5N
        simp only [hfN]
        have hk0 := Internal_KeyAt_head
          { (BPlusTreeInternalPage.Init BPlusTreePage.zeroed
              ((t.setPage new { n with parent_page_id_ := o.parent_page_id_ }).setPage
                o.parent_page_id_
                (BPlusTreeInternalPage.InsertNodeAfter pn old key new).1).next_page_id
              pn1.parent_page_id_ pn1.max_size_) with
            array := pn1.array.drop (pn1.GetSize / 2) } x rest hd
        simp only [hk0]
        have hrN : t.root_page_id_ ≠ t.next_page_id :=
          ne_of_lt (live_lt t g _ _ _ hord _ hord.root_live)
        have hPN : o.parent_page_id_ ≠ t.next_page_id := ne_of_lt (live_lt t g _ _ _ hord _ hPl)
        obtain ⟨t6, txn6, g6, h6, h6t, h6i, h6l⟩ := ih t5 _ txn1 o.parent_page_id_ _ x.1
          hs5 (h5t.trans htxn) (by
            simp only [h5root]
            have e1 : ((t.setPage new { n with parent_page_id_ := o.parent_page_id_ }).setPage
              o.parent_page_id_
              (BPlusTreeInternalPage.InsertNodeAfter pn old key new).1).root_page_id_ =
                t.root_page_id_ := rfl
            have e2 : ((t.setPage new { n with parent_page_id_ := o.parent_page_id_ }).setPage
              o.parent_page_id_
              (BPlusTreeInternalPage.InsertNodeAfter pn old key new).1).next_page_id =
                t.next_page_id := rfl
            rw [e1, e2, if_neg hrN, if_neg hPN]
            omega)
        refine ⟨t6, txn6, g6, h6, h6t, h6i, ?_⟩
        intro Z zn hZ hzn hzl
        obtain ⟨zn1, hzn1, hzl1, hza1⟩ := hleaf2 Z zn hZ hzn hzl
        have hZP : Z ≠ o.parent_page_id_ := by
          intro hc; rw [hc, hpn] at hzn; cases hzn; rw [hpt] at hzl; cases hzl
        have hZN : Z ≠ t.next_page_id := ne_of_lt (stored_lt t hord.fresh Z zn hzn)
        have h5Z := h5x Z hZP hZN
        have : ∃ zn5, t5.pages Z = some zn5 ∧ zn5.page_type_ = IndexPageType.LEAF_PAGE ∧
            zn5.array = zn.array := by
          rw [hzn1] at h5Z
          split at h5Z
          · exact ⟨_, h5Z, hzl1, hza1⟩
          · exact ⟨_, h5Z, hzl1, hza1⟩
        obtain ⟨zn5, hzn5, hzl5, hza5⟩ := this
        obtain ⟨hl6, zn6, hzn6, hzl6, hza6⟩ := h6l Z zn5 (Or.inl hZ) hzn5 hzl5
        exact ⟨hl6, zn6, hzn6, hzl6, hza6.trans hza5⟩
      · -- no split
        simp only [hsz, if_false]
        have hap2 : Ord ((t.setPage new { n with parent_page_id_ := o.parent_page_id_ }).setPage
            o.parent_page_id_ (BPlusTreeInternalPage.InsertNodeAfter pn old key new).1) g := by
          apply OrdX_small _ _ _ _ _ hap
          intro n1 hn1 hi1 hr1
          rw [setPage_same] at hn1
          have hn1e := Option.some.inj hn1
          rw [← hn1e]
          have h1 := (hord.sizes _ pn hPl hpn hpt).2 hr1
            (live_ne_invalid t g _ _ _ hord _ hPl)
          have h2 : (BPlusTreeInternalPage.InsertNodeAfter pn old key new).1.GetSize =
              pn.GetSize + 1 := hia2
          have h3 : (BPlusTreeInternalPage.InsertNodeAfter pn old key new).1.max_size_ =
              pn.max_size_ := by rw [hia4]
          rw [hia1, h3] at hsz
          omega
        refine ⟨_, txn, g, rfl, htxn, hap2, ?_⟩
        intro Z zn hZ hzn hzl
        exact ⟨hZ, hleaf2 Z zn hZ hzn hzl⟩

theorem Sound_of_Ord (t : BPlusTree) (g : Ghost) (h : Ord t g) : Sound t := by
  refine ⟨?_, h.fresh, Or.inr ⟨g, h⟩⟩
  have h1 := h.live_pos _ h.root_live
  have h2 := live_lt t g _ _ _ h _ h.root_live
  exact Int.pos_iff_one_le.mp (lt_trans h1 h2)

theorem Crabing_P (t : BPlusTree) (op : Operate_Type) :
    ∀ c cn cur o, (∃ txn : Transaction, o = some txn ∧ txn.deleted_page_set = []) →
      t.pages c = some cn → (0 < cur → ∃ x, t.pages cur = some x) →
      ∃ o1, t.CrabingProtocalFetchPage c op cur o = .ok (t, o1, cn) ∧
        ∃ txn : Transaction, o1 = some txn ∧ txn.deleted_page_set = [] := by
  intro c cn cur o ho hc _
  obtain ⟨txn, ho1, ho2⟩ := ho
  obtain ⟨txn1, h1, h2⟩ := Crabing_some t c cur op txn cn hc ho2
  exact ⟨some txn1, by rw [ho1]; exact h2, txn1, rfl, h1⟩

/-- `Insert` returns and keeps the ordering invariant; when it returns true the pair is
in a live leaf. -/
theorem Insert_ord (t : BPlusTree) (k : KeyType) (v : ValueType) (hs : Sound t) :
    ∃ t1 b, t.Insert k v = .ok (t1, b) ∧ Sound t1 ∧
      (b = true → ∃ g Z zn, Ord t1 g ∧ g.live Z ∧ t1.pages Z = some zn ∧
        zn.page_type_ = IndexPageType.LEAF_PAGE ∧ (k, v) ∈ zn.array) := by
  obtain ⟨hpos, hfresh, hcase⟩ := hs
  by_cases he : t.root_page_id_ = INVALID_PAGE_ID
  · obtain ⟨g, zn, h1, h2, h3, h4, h5, h6, h7⟩ := Ord_StartNewTree t k v hpos hfresh
    refine ⟨_, true, ?_, Sound_of_Ord _ g h1, fun _ => ⟨g, _, zn, h1, h2, h3, h4, h5⟩⟩
    unfold BPlusTree.Insert
    simp [BPlusTree.IsEmpty, he]
  · rcases hcase with hc | ⟨g, hinv⟩
    · exact absurd hc he
    · have he2 : t.IsEmpty = false := by simp [BPlusTree.IsEmpty, he]
      obtain ⟨X, o1, xn, hfl, ⟨txn1, ho1, htxn1⟩, hXl, hX, hleaf, hka, hkb⟩ :=
        FindLeafPage_ord t g hinv k Operate_Type.OP_INSERT _ (Crabing_P t _)
          (some Transaction.new) ⟨_, rfl, rfl⟩
      rw [ho1] at hfl
      have hfX : t.FetchPage X = .ok xn := (FetchPage_ok _ _ _).2 hX
      obtain ⟨xn2, hxn2, hXok⟩ := hinv.pages X hXl
      rw [hX] at hxn2; cases hxn2
      unfold BPlusTree.Insert BPlusTree.InsertIntoLeaf
      simp only [he2, Bool.false_eq_true, if_false, bind, Except.bind, hfl, hfX]
      cases hlook : BPlusTreeLeafPage.Lookup xn k with
      | some val =>
        simp only [FreePages_some t true txn1 (-1) htxn1]
        exact ⟨t, false, rfl, Sound_of_Ord t g hinv, fun hc => by cases hc⟩
      | none =>
        simp only
        obtain ⟨hli1, hli2⟩ := Leaf_Insert_size xn k v
        have hXN : X ≠ t.next_page_id := ne_of_lt (stored_lt t hinv.fresh X xn hX)
        have hsorted := Leaf_Insert_sorted xn k v (hXok.leaf_sorted hleaf) hlook
        have hrange : ∀ x ∈ (BPlusTreeLeafPage.Insert xn k v).1.array,
            aboveLo (g.lo X) x.1 ∧ belowHi x.1 (g.hi X) := by
          intro x hx
          rcases (Leaf_Insert_mem xn k v x).1 hx with h1 | h1
          · rw [h1]; exact ⟨hka, hkb⟩
          · exact hXok.leaf_range hleaf x h1
        have hmemkv : (k, v) ∈ (BPlusTreeLeafPage.Insert xn k v).1.array :=
          (Leaf_Insert_mem xn k v _).2 (Or.inl rfl)
        have hord2 : Ord (t.setPage X (BPlusTreeLeafPage.Insert xn k v).1) g :=
          Ord_leaf_update t g _ _ _ hinv X xn _ hXl hX hleaf hsorted hrange xn.next_page_id_
        by_cases hsz : (BPlusTreeLeafPage.Insert xn k v).2 = t.leaf_max_size_
        · -- the leaf is split
          simp only [hsz, if_true]
          obtain ⟨t3, txn2, h3, h3t, h3X, h3N, h3x, h3next, h3root, _, h3m⟩ :=
            SplitLeaf_eq (t.setPage X (BPlusTreeLeafPage.Insert xn k v).1) txn1 X
              (BPlusTreeLeafPage.Insert xn k v).1 (setPage_same _ _ _) hXN
          obtain ⟨x0, rest, hd⟩ := drop_half_cons (BPlusTreeLeafPage.Insert xn k v).1.array (by
            have : (BPlusTreeLeafPage.Insert xn k v).1.array.length =
              (BPlusTreeLeafPage.Insert xn k v).1.GetSize := rfl
            omega)
          have hs3 := SplitOrd_of_leaf_split _ t3 g X (BPlusTreeLeafPage.Insert xn k v).1 hord2
            hXl (setPage_same _ _ _) hleaf x0.1 x0.2 rest hd h3X h3N h3x h3next h3root h3m
          simp only [h3]
          have hfN : t3.FetchPage (t.setPage X (BPlusTreeLeafPage.Insert xn k v).1).next_page_id =
              .ok _ := (FetchPage_ok _ _ _).2 h3N
          simp only [hfN]
          have hk0 := Leaf_KeyAt_head
            { (BPlusTreeLeafPage.Init
                (t.setPage X (BPlusTreeLeafPage.Insert xn k v).1).next_page_id
                (BPlusTreeLeafPage.Insert xn k v).1.parent_page_id_
                (BPlusTreeLeafPage.Insert xn k v).1.max_size_) with
              array := (BPlusTreeLeafPage.Insert xn k v).1.array.drop
                ((BPlusTreeLeafPage.Insert xn k v).1.GetSize / 2) } x0 rest hd
          simp only [hk0]
          have hfu := fuel_gt t3 _ hs3.ord.height
          obtain ⟨t4, txn4, g4, h4, h4t, h4i, h4l⟩ := InsertIntoParent_ord t3.fuel t3 _ txn2 X
            _ x0.1 hs3 (h3t.trans htxn1) (by omega)
          simp only [h4, FreePages_some t4 true txn4 (-1) h4t]
          refine ⟨t4, true, rfl, Sound_of_Ord t4 g4 h4i, fun _ => ?_⟩
          rcases take_drop_keys _ ((BPlusTreeLeafPage.Insert xn k v).1.GetSize / 2) _ hmemkv
            with hm | hm
          · obtain ⟨hl, zn1, hzn1, hzl1, hza1⟩ := h4l X _ hs3.live_old h3X hleaf
            exact ⟨g4, X, zn1, h4i, hl, hzn1, hzl1, by rw [hza1]; exact hm⟩
          · obtain ⟨hl, zn1, hzn1, hzl1, hza1⟩ := h4l _ _ hs3.live_new h3N rfl
            exact ⟨g4, _, zn1, h4i, hl, hzn1, hzl1, by rw [hza1]; exact hm⟩
        · -- no split
          simp only [hsz, if_false]
          rw [FreePages_some _ true txn1 (-1) htxn1]
          exact ⟨_, true, rfl, Sound_of_Ord _ g hord2,
            fun _ => ⟨g, X, _, hord2, hXl, setPage_same _ _ _, hleaf, hmemkv⟩⟩

/-! ## B+ tree: `Remove` keeps the keys in order -/

theorem PageOK_frame_lev (t t1 : BPlusTree) (g g1 : Ghost)
    (hiC hiC1 : page_id_t → Option KeyType)
    (ex ex1 p : page_id_t) (n : BPlusTreePage) (h : PageOK t g hiC ex p n)
    (hlev : g1.lev p = g.lev p) (hlo : g1.lo p = g.lo p) (hhi : g1.hi p = g.hi p)
    (hrl : g1.lev p ≤ g1.lev t1.root_page_id_)
    (hup : n.page_type_ = IndexPageType.INTERNAL_PAGE → ∀ c ∈ n.array.map Prod.snd,
      UpSame t t1 g g1 hiC hiC1 c)
    (hdown : p ≠ t.root_page_id_ → p ≠ ex → DownSame t t1 g g1 n.parent_page_id_ p)
    (hroot : p = t1.root_page_id_ ↔ p = t.root_page_id_) (hex : p ≠ ex1 → p ≠ ex) :
    PageOK t1 g1 hiC1 ex1 p n := by
  have := PageOK_move t t1 g g1 hiC hiC1 ex ex1 p n n.parent_page_id_ h hlev hlo hhi hrl hup
    (by
      intro hr hx
      have hr0 : p ≠ t.root_page_id_ := fun hc => hr (hroot.2 hc)
      obtain ⟨hpl, q, hq, hqi, hmem⟩ := h.parent_ok hr0 (hex hx)
      have hd := hdown hr0 (hex hx)
      obtain ⟨q1, hq1, hq1i, hsub⟩ := hd.kids q hq hqi hmem
      exact ⟨hd.live hpl, q1, hq1, hq1i, hsub⟩)
    (fun hr => h.root_parent (hroot.1 hr))
  exact this

/-- Pages that are not live may change or vanish. -/
theorem Ord_garbage (t t1 : BPlusTree) (g : Ghost) (h : Ord t g)
    (hp : ∀ p, g.live p → t1.pages p = t.pages p)
    (hfresh : ∀ p, t1.next_page_id ≤ p → t1.pages p = none)
    (hr : t1.root_page_id_ = t.root_page_id_) (hn : t1.next_page_id = t.next_page_id)
    (hm : t1.internal_max_size_ = t.internal_max_size_) : Ord t1 g := by
  refine ⟨by rw [hr]; exact h.root_live, hfresh, h.live_pos, by rw [hr]; exact h.root_lo,
    by rw [hr]; exact h.root_hi, by rw [hr, hn]; exact h.height, ?_, ?_⟩
  · intro p hpl
    obtain ⟨n, hn1, hok⟩ := h.pages p hpl
    refine ⟨n, by rw [hp p hpl]; exact hn1, ?_⟩
    apply PageOK_frame t t1 g g g.hi g.hi _ _ p n hok rfl rfl rfl (by rw [hr])
    · intro hi c hc
      have hcl := (hok.children hi c hc).1
      exact UpSame_of_eq t t1 g g _ _ c (hp c hcl) id rfl rfl rfl
    · intro hr1 hx
      have hql := (hok.parent_ok hr1 hx).1
      exact DownSame_of_eq t t1 g g _ p (hp _ hql) id
    · rw [hr]
    · exact id
  · intro p n hpl hn1 hi
    rw [hp p hpl] at hn1
    rw [hr, hm]
    exact h.sizes p n hpl hn1 hi

theorem FreePagesLoop_spec : ∀ (ps : List page_id_t) (t : BPlusTree) (deleted : List page_id_t),
    (BPlusTree.FreePagesLoop t deleted ps).1.root_page_id_ = t.root_page_id_ ∧
    (BPlusTree.FreePagesLoop t deleted ps).1.next_page_id = t.next_page_id ∧
    (BPlusTree.FreePagesLoop t deleted ps).1.internal_max_size_ = t.internal_max_size_ ∧
    (BPlusTree.FreePagesLoop t deleted ps).1.leaf_max_size_ = t.leaf_max_size_ ∧
    ∀ p, (BPlusTree.FreePagesLoop t deleted ps).1.pages p = t.pages p ∨
      (p ∈ deleted ∧ (BPlusTree.FreePagesLoop t deleted ps).1.pages p = none)
  | [], t, deleted => ⟨rfl, rfl, rfl, rfl, fun _ => Or.inl rfl⟩
  | cur :: rest, t, deleted => by
    unfold BPlusTree.FreePagesLoop
    by_cases hc : cur ∈ deleted
    · rw [if_pos hc]
      obtain ⟨h1, h2, h3, h4, h5⟩ := FreePagesLoop_spec rest
        { t with pages := setAt t.pages cur none } (deleted.filter (fun p => p ≠ cur))
      refine ⟨h1, h2, h3, h4, ?_⟩
      intro p
      rcases h5 p with h6 | ⟨h6, h7⟩
      · by_cases hpc : p = cur
        · right
          refine ⟨by rw [hpc]; exact hc, ?_⟩
          rw [h6]; simp [setAt, hpc]
        · left
          rw [h6]; simp [setAt, hpc]
      · right
        exact ⟨(List.mem_filter.mp h6).1, h7⟩
    · rw [if_neg hc]
      exact FreePagesLoop_spec rest t deleted

theorem FreePages_spec (t t1 : BPlusTree) (w : Bool) (txn : Transaction) (cur : page_id_t)
    (o : Option Transaction) (h : t.FreePagesInTransaction w (some txn) cur = .ok (t1, o)) :
    t1.root_page_id_ = t.root_page_id_ ∧ t1.next_page_id = t.next_page_id ∧
    t1.internal_max_size_ = t.internal_max_size_ ∧
    ∀ p, t1.pages p = t.pages p ∨ (p ∈ txn.deleted_page_set ∧ t1.pages p = none) := by
  unfold BPlusTree.FreePagesInTransaction at h
  simp only at h
  obtain ⟨h1, h2, h3, _, h5⟩ := FreePagesLoop_spec txn.page_set t txn.deleted_page_set
  split at h
  · simp only [Except.ok.injEq, Prod.mk.injEq] at h
    rw [← h.1]
    exact ⟨h1, h2, h3, h5⟩
  · cases h

/-- The tree after the pages scheduled for deletion are dropped. -/
theorem Sound_FreePages (t t1 : BPlusTree) (w : Bool) (txn : Transaction) (cur : page_id_t)
    (o : Option Transaction) (h : t.FreePagesInTransaction w (some txn) cur = .ok (t1, o))
    (hpos : 1 ≤ t.next_page_id) (hfresh : ∀ p, t.next_page_id ≤ p → t.pages p = none)
    (hg : t.root_page_id_ = INVALID_PAGE_ID ∨
      ∃ g, Ord t g ∧ ∀ d ∈ txn.deleted_page_set, ¬ g.live d) : Sound t1 := by
  obtain ⟨h1, h2, h3, h4⟩ := FreePages_spec t t1 w txn cur o h
  have hfr : ∀ p, t1.next_page_id ≤ p → t1.pages p = none := by
    intro p hp
    rw [h2] at hp
    rcases h4 p with h5 | ⟨_, h5⟩
    · rw [h5]; exact hfresh p hp
    · exact h5
  refine ⟨by rw [h2]; exact hpos, hfr, ?_⟩
  rcases hg with hg | ⟨g, hg1, hg2⟩
  · left; rw [h1]; exact hg
  · right
    refine ⟨g, Ord_garbage t t1 g hg1 ?_ hfr h1 h2 h3⟩
    intro p hpl
    rcases h4 p with h5 | ⟨h5, _⟩
    · exact h5
    · exact absurd hpl (hg2 p h5)

theorem lev_lt_root (t : BPlusTree) (g : Ghost) (h : Ord t g) (p : page_id_t) (hl : g.live p)
    (hne : p ≠ t.root_page_id_) : g.lev p < g.lev t.root_page_id_ := by
  obtain ⟨n, _, hok⟩ := h.pages p hl
  have h1 := hok.lev_le
  by_contra hc
  exact hne (lev_root t g h p hl (by omega))

/-- The state after `AdjustRoot` has made the only child of the root the new root. -/
theorem Ord_adjust_root (t t1 : BPlusTree) (g : Ghost) (h : Ord t g) (rn cn : BPlusTreePage)
    (hrn : t.pages t.root_page_id_ = some rn)
    (hi : rn.page_type_ = IndexPageType.INTERNAL_PAGE) (s : KeyType) (c : page_id_t)
    (harr : rn.array = [(s, c)]) (hcn : t.pages c = some cn)
    (h1r : t1.root_page_id_ = c)
    (h1c : t1.pages c = some { cn with parent_page_id_ := INVALID_PAGE_ID })
    (h1o : ∀ p, p ≠ t.root_page_id_ → p ≠ c → t1.pages p = t.pages p)
    (h1n : t1.next_page_id = t.next_page_id)
    (h1m : t1.internal_max_size_ = t.internal_max_size_) :
    Ord t1 ⟨fun p => g.live p ∧ p ≠ t.root_page_id_, g.lev, g.lo, g.hi⟩ := by
  obtain ⟨rn2, hrn2, hRok⟩ := h.pages _ h.root_live
  rw [hrn] at hrn2; cases hrn2
  have hcm : c ∈ rn.array.map Prod.snd := by rw [harr]; simp
  obtain ⟨hcl, hclev, cn2, hcn2, hcp⟩ := hRok.children hi c hcm
  rw [hcn] at hcn2; cases hcn2
  have hcr : c ≠ t.root_page_id_ := by intro hc; rw [hc] at hclev; omega
  obtain ⟨cn3, hcn3, hcok⟩ := h.pages c hcl
  rw [hcn] at hcn3; cases hcn3
  have ht := hRok.int_tiled hi
  rw [harr] at ht
  obtain ⟨ht1, ht2, _⟩ := ht
  simp only at ht1 ht2
  have hlevle : ∀ p, g.live p → p ≠ t.root_page_id_ → g.lev p ≤ g.lev c := by
    intro p hp hpr
    have := lev_lt_root t g h p hp hpr
    omega
  -- a page other than the root is listed by the old root only if it is `c`
  have hlist : ∀ p n, g.live p → t.pages p = some n → p ≠ t.root_page_id_ → p ≠ c →
      n.parent_page_id_ ≠ t.root_page_id_ := by
    intro p n hp hn hpr hpc hpar
    obtain ⟨n2, hn2, hok⟩ := h.pages p hp
    rw [hn] at hn2; cases hn2
    obtain ⟨_, q, hq, _, hqm⟩ := hok.parent_ok hpr (live_ne_invalid t g _ _ _ h p hp)
    rw [hpar, hrn] at hq; cases hq
    rw [harr] at hqm
    simp at hqm
    exact hpc hqm
  have hup : ∀ x, g.live x → x ≠ t.root_page_id_ → x ≠ c → UpSame t t1 g
      ⟨fun p => g.live p ∧ p ≠ t.root_page_id_, g.lev, g.lo, g.hi⟩ g.hi g.hi x := by
    intro x hx hxr hxc
    refine ⟨fun hl => ⟨hl, hxr⟩, rfl, rfl, rfl, ?_⟩
    intro xn hxn
    exact ⟨xn, by rw [h1o x hxr hxc]; exact hxn, rfl⟩
  have hupAll : ∀ p n, g.live p → t.pages p = some n → p ≠ t.root_page_id_ →
      n.page_type_ = IndexPageType.INTERNAL_PAGE → ∀ x ∈ n.array.map Prod.snd, UpSame t t1 g
      ⟨fun p => g.live p ∧ p ≠ t.root_page_id_, g.lev, g.lo, g.hi⟩ g.hi g.hi x := by
    intro p n hp hn hpr hi2 x hx
    obtain ⟨hxp, hxlev, hxl⟩ := child_ne t g _ _ _ h p x n hp hn hi2 hx
    apply hup x hxl
    · intro hc
      have := lev_lt_root t g h p hp hpr
      rw [hc] at hxlev; omega
    · intro hc
      rw [hc] at hx
      have := lister_eq t g _ _ _ h p c n cn hp hn hi2 hx hcn
      rw [hcp] at this
      exact hpr this.symm
  have hdown : ∀ q x, g.live q → q ≠ t.root_page_id_ → DownSame t t1 g
      ⟨fun p => g.live p ∧ p ≠ t.root_page_id_, g.lev, g.lo, g.hi⟩ q x := by
    intro q x hq hqr
    refine ⟨fun hl => ⟨hl, hqr⟩, ?_⟩
    intro qn hqn hqi hxm
    by_cases hqc : q = c
    · rw [hqc] at hqn ⊢; rw [hcn] at hqn; cases hqn
      exact ⟨{ cn with parent_page_id_ := INVALID_PAGE_ID }, h1c, hqi, hxm⟩
    · exact ⟨qn, by rw [h1o q hqr hqc]; exact hqn, hqi, hxm⟩
  refine ⟨by rw [h1r]; exact ⟨hcl, hcr⟩, ?_, fun p hp => h.live_pos p hp.1, ?_, ?_, ?_, ?_, ?_⟩
  · intro p hp
    rw [h1n] at hp
    have hpr : p ≠ t.root_page_id_ := by
      intro hc; rw [hc] at hp
      exact absurd (live_lt t g _ _ _ h _ h.root_live) (not_lt.mpr hp)
    have hpc : p ≠ c := by
      intro hc; rw [hc] at hp
      exact absurd (live_lt t g _ _ _ h _ hcl) (not_lt.mpr hp)
    rw [h1o p hpr hpc]; exact h.fresh p hp
  · rw [h1r]; simp only; rw [ht1]; exact h.root_lo
  · rw [h1r]; simp only; rw [ht2]; exact h.root_hi
  · rw [h1r, h1n]; simp only
    have := h.height
    have h2 : (g.lev c : Int) + 1 = g.lev t.root_page_id_ := by exact_mod_cast hclev
    linarith
  · intro p hp
    obtain ⟨hpl, hpr⟩ := hp
    by_cases hpc : p = c
    · rw [hpc]
      refine ⟨_, h1c, ?_⟩
      apply PageOK_move t t1 g
        ⟨fun p => g.live p ∧ p ≠ t.root_page_id_, g.lev, g.lo, g.hi⟩
        g.hi g.hi INVALID_PAGE_ID INVALID_PAGE_ID c cn
        INVALID_PAGE_ID hcok rfl rfl rfl
      · rw [h1r]
      · exact hupAll c cn hcl hcn hcr
      · intro hc _; rw [h1r] at hc; exact absurd rfl hc
      · intro _; rfl
    · obtain ⟨n, hn, hok⟩ := h.pages p hpl
      refine ⟨n, by rw [h1o p hpr hpc]; exact hn, ?_⟩
      apply PageOK_frame_lev t t1 g
        ⟨fun p => g.live p ∧ p ≠ t.root_page_id_, g.lev, g.lo, g.hi⟩
        g.hi g.hi INVALID_PAGE_ID INVALID_PAGE_ID p n hok
        rfl rfl rfl
      · rw [h1r]; exact hlevle p hpl hpr
      · exact hupAll p n hpl hn hpr
      · intro hr hx
        obtain ⟨hql, _⟩ := hok.parent_ok hr hx
        exact hdown _ p hql (hlist p n hpl hn hpr hpc)
      · rw [h1r]
        exact ⟨fun hc => absurd hc hpc, fun hc => absurd hc hpr⟩
      · exact id
  · intro p n hp hn hi2
    obtain ⟨hpl, hpr⟩ := hp
    rw [h1r, h1m]
    by_cases hpc : p = c
    · rw [hpc, h1c] at hn
      have hne := Option.some.inj hn
      rw [← hne] at hi2 ⊢
      exact ⟨(h.sizes c cn hcl hcn hi2).1, fun hc => absurd hpc hc⟩
    · rw [h1o p hpr hpc] at hn
      have := h.sizes p n hpl hn hi2
      exact ⟨this.1, fun _ hx => this.2 hpr hx⟩

theorem nodup_pair (l1 l2 : List (KeyType × Int)) (x y : KeyType × Int)
    (h : ((l1 ++ x :: y :: l2).map Prod.snd).Nodup) :
    x.2 ≠ y.2 ∧ (∀ c ∈ (l1 ++ l2).map Prod.snd, c ≠ x.2 ∧ c ≠ y.2) := by
  simp only [List.map_append, List.map_cons] at h
  have h1 := List.nodup_middle.mp h
  rw [List.nodup_cons] at h1
  obtain ⟨h2, h3⟩ := h1
  have h4 := List.nodup_middle.mp h3
  rw [List.nodup_cons] at h4
  obtain ⟨h5, _⟩ := h4
  simp only [List.mem_append, List.mem_cons, not_or] at h2
  refine ⟨fun hc => h2.2.1 hc, ?_⟩
  intro c hc
  simp only [List.map_append, List.mem_append] at hc
  constructor
  · intro hcx; rw [hcx] at hc
    rcases hc with hc | hc
    · exact h2.1 hc
    · exact h2.2.2 hc
  · intro hcy; rw [hcy] at hc
    exact h5 (List.mem_append.mpr hc)

/-- The state after a pair was moved between two neighbouring leaves and the key between
them in the parent was replaced. -/
theorem Ord_leaf_shift (t t1 : BPlusTree) (g : Ghost) (h : Ord t g) (P M S : page_id_t)
    (pn mn sn : BPlusTreePage) (hP : g.live P) (hpn : t.pages P = some pn)
    (hpi : pn.page_type_ = IndexPageType.INTERNAL_PAGE)
    (l1 l2 : List (KeyType × Int)) (sM k k2 : KeyType)
    (harr : pn.array = l1 ++ (sM, M) :: (k, S) :: l2)
    (hmn : t.pages M = some mn) (hsn : t.pages S = some sn)
    (hml : mn.page_type_ = IndexPageType.LEAF_PAGE)
    (hsl : sn.page_type_ = IndexPageType.LEAF_PAGE)
    (am as_ : List (KeyType × Int))
    (hsm : am.Pairwise (fun x y => x.1 < y.1)) (hss : as_.Pairwise (fun x y => x.1 < y.1))
    (hrm : ∀ x ∈ am, aboveLo (g.lo M) x.1 ∧ x.1 < k2)
    (hrs : ∀ x ∈ as_, k2 ≤ x.1 ∧ belowHi x.1 (g.hi S))
    (hk1 : aboveLo (g.lo M) k2) (hk2 : boundLe (some k2) (g.hi S))
    (h1P : t1.pages P = some { pn with array := l1 ++ (sM, M) :: (k2, S) :: l2 })
    (h1M : t1.pages M = some { mn with array := am })
    (h1S : t1.pages S = some { sn with array := as_ })
    (h1o : ∀ p, p ≠ P → p ≠ M → p ≠ S → t1.pages p = t.pages p)
    (h1r : t1.root_page_id_ = t.root_page_id_) (h1n : t1.next_page_id = t.next_page_id)
    (h1m : t1.internal_max_size_ = t.internal_max_size_) :
    Ord t1 ⟨g.live, g.lev, fun p => if p = S then some k2 else g.lo p,
      fun p => if p = M then some k2 else g.hi p⟩ := by
  obtain ⟨pn2, hpn2, hPok⟩ := h.pages P hP
  rw [hpn] at hpn2; cases hpn2
  have hnd := hPok.int_nodup hpi
  rw [harr] at hnd
  obtain ⟨hMS, hrest⟩ := nodup_pair l1 l2 (sM, M) (k, S) hnd
  simp only at hMS hrest
  have hSM : S ≠ M := fun hc => hMS hc.symm
  have hMm : M ∈ pn.array.map Prod.snd := by rw [harr]; simp
  have hSm : S ∈ pn.array.map Prod.snd := by rw [harr]; simp
  obtain ⟨hMP, hMlev, hMl⟩ := child_ne t g _ _ _ h P M pn hP hpn hpi hMm
  obtain ⟨hSP, hSlev, hSl⟩ := child_ne t g _ _ _ h P S pn hP hpn hpi hSm
  obtain ⟨mn2, hmn2, hMok⟩ := h.pages M hMl
  rw [hmn] at hmn2; cases hmn2
  obtain ⟨sn2, hsn2, hSok⟩ := h.pages S hSl
  rw [hsn] at hsn2; cases hsn2
  have hMpar := lister_eq t g _ _ _ h P M pn mn hP hpn hpi hMm hmn
  have hSpar := lister_eq t g _ _ _ h P S pn sn hP hpn hpi hSm hsn
  have hrootM : t.root_page_id_ ≠ M := by
    intro hc; have := hPok.lev_le; rw [hc] at this; omega
  have hrootS : t.root_page_id_ ≠ S := by
    intro hc; have := hPok.lev_le; rw [hc] at this; omega
  have hmapeq : (l1 ++ (sM, M) :: (k2, S) :: l2).map Prod.snd = pn.array.map Prod.snd := by
    rw [harr]; simp
  have hup : ∀ x, x ≠ M → x ≠ S → UpSame t t1 g
      ⟨g.live, g.lev, fun p => if p = S then some k2 else g.lo p,
        fun p => if p = M then some k2 else g.hi p⟩ g.hi
      (fun p => if p = M then some k2 else g.hi p) x := by
    intro x hxM hxS
    refine ⟨id, rfl, by simp [hxS], by simp [hxM], ?_⟩
    intro xn hxn
    by_cases hxP : x = P
    · rw [hxP] at hxn ⊢; rw [hpn] at hxn; cases hxn
      exact ⟨_, h1P, rfl⟩
    · exact ⟨xn, by rw [h1o x hxP hxM hxS]; exact hxn, rfl⟩
  have hupAll : ∀ p n, g.live p → t.pages p = some n → p ≠ P →
      n.page_type_ = IndexPageType.INTERNAL_PAGE → ∀ x ∈ n.array.map Prod.snd, UpSame t t1 g
      ⟨g.live, g.lev, fun p => if p = S then some k2 else g.lo p,
        fun p => if p = M then some k2 else g.hi p⟩ g.hi
      (fun p => if p = M then some k2 else g.hi p) x := by
    intro p n hp hn hpP hi2 x hx
    apply hup x
    · intro hc; rw [hc] at hx
      have := lister_eq t g _ _ _ h p M n mn hp hn hi2 hx hmn
      rw [hMpar] at this; exact hpP this.symm
    · intro hc; rw [hc] at hx
      have := lister_eq t g _ _ _ h p S n sn hp hn hi2 hx hsn
      rw [hSpar] at this; exact hpP this.symm
  have hdown : ∀ q x, DownSame t t1 g
      ⟨g.live, g.lev, fun p => if p = S then some k2 else g.lo p,
        fun p => if p = M then some k2 else g.hi p⟩ q x := by
    intro q x
    refine ⟨id, ?_⟩
    intro qn hqn hqi hxm
    by_cases hqP : q = P
    · rw [hqP] at hqn ⊢; rw [hpn] at hqn; cases hqn
      exact ⟨_, h1P, hpi, by rw [hmapeq]; exact hxm⟩
    · by_cases hqM : q = M
      · rw [hqM, hmn] at hqn; cases hqn; rw [hml] at hqi; cases hqi
      · by_cases hqS : q = S
        · rw [hqS, hsn] at hqn; cases hqn; rw [hsl] at hqi; cases hqi
        · exact ⟨qn, by rw [h1o q hqP hqM hqS]; exact hqn, hqi, hxm⟩
  have hparP : g.live P ∧ ∃ q, t1.pages P = some q ∧
      q.page_type_ = IndexPageType.INTERNAL_PAGE ∧
      M ∈ q.array.map Prod.snd ∧ S ∈ q.array.map Prod.snd :=
    ⟨hP, _, h1P, hpi, by simp, by simp⟩
  refine ⟨by rw [h1r]; exact h.root_live, ?_, h.live_pos, ?_, ?_,
    by rw [h1r, h1n]; exact h.height, ?_, ?_⟩
  · intro p hp
    rw [h1n] at hp
    have hne : ∀ q, g.live q → p ≠ q := by
      intro q hq hc; rw [hc] at hp
      exact absurd (live_lt t g _ _ _ h q hq) (not_lt.mpr hp)
    rw [h1o p (hne P hP) (hne M hMl) (hne S hSl)]; exact h.fresh p hp
  · rw [h1r]; simp only [if_neg hrootS]; exact h.root_lo
  · rw [h1r]; simp only [if_neg hrootM]; exact h.root_hi
  · intro p hp
    by_cases hpP : p = P
    · rw [hpP]
      refine ⟨_, h1P, ?_⟩
      have habs : ∀ {α : Prop}, pn.page_type_ = IndexPageType.LEAF_PAGE → α := by
        intro α hl; rw [hpi] at hl; cases hl
      refine ⟨hPok.id_eq, hPok.kind, by rw [h1r]; exact hPok.lev_le, fun hl => habs hl,
        fun hl => habs hl, fun hl => habs hl, ?_, ?_, ?_, ?_, ?_, ?_⟩
      · intro _
        have := hPok.int_size hpi
        simp only [BPlusTreePage.GetSize] at this ⊢
        rw [harr] at this
        simpa using this
      · intro _; rw [hmapeq]; exact hPok.int_nodup hpi
      · intro _
        have ht := hPok.int_tiled hpi
        rw [harr] at ht
        simp only [if_neg hSP.symm, if_neg hMP.symm]
        apply Tiled_setkey g.lo g.hi _ _ _ _ l1 l2 sM k k2 M S ht
        · intro c hc
          obtain ⟨h1, h2⟩ := hrest c hc
          simp [h1, h2]
        · simp [hMS]
        · simp
        · simp
        · simp [hSM]
        · exact hk1
        · exact hk2
      · intro _ c hc
        rw [hmapeq] at hc
        obtain ⟨hcl, hclev, cn, hcn, hcp⟩ := hPok.children hpi c hc
        refine ⟨hcl, hclev, ?_⟩
        by_cases hcM : c = M
        · rw [hcM]; exact ⟨_, h1M, hMpar⟩
        · by_cases hcS : c = S
          · rw [hcS]; exact ⟨_, h1S, hSpar⟩
          · have hcP : c ≠ P := (child_ne t g _ _ _ h P c pn hP hpn hpi hc).1
            exact ⟨cn, by rw [h1o c hcP hcM hcS]; exact hcn, hcp⟩
      · intro hr hx
        rw [h1r] at hr
        obtain ⟨hGl, G, hG, hGi, hGm⟩ := hPok.parent_ok hr hx
        obtain ⟨q1, hq1, hq1i, hm1⟩ := (hdown _ P).kids G hG hGi hGm
        exact ⟨hGl, q1, hq1, hq1i, hm1⟩
      · intro hr; rw [h1r] at hr; exact hPok.root_parent hr
    · by_cases hpM : p = M
      · rw [hpM]
        refine ⟨_, h1M, ?_⟩
        apply PageOK_leaf_mk
        · exact hMok.id_eq
        · exact hml
        · exact hMok.leaf_lev hml
        · exact hsm
        · intro x hx
          simp only [if_neg hMS, if_true]
          exact ⟨(hrm x hx).1, (belowHi_some _ _).2 (hrm x hx).2⟩
        · intro _ _
          show g.live mn.parent_page_id_ ∧ _
          rw [hMpar]
          obtain ⟨h1, q, h2, h3, h4, _⟩ := hparP
          exact ⟨h1, q, h2, h3, h4⟩
        · intro hr; rw [h1r] at hr; exact absurd hr.symm hrootM
      · by_cases hpS : p = S
        · rw [hpS]
          refine ⟨_, h1S, ?_⟩
          apply PageOK_leaf_mk
          · exact hSok.id_eq
          · exact hsl
          · exact hSok.leaf_lev hsl
          · exact hss
          · intro x hx
            simp only [if_true, if_neg hSM]
            exact ⟨(aboveLo_some _ _).2 (hrs x hx).1, (hrs x hx).2⟩
          · intro _ _
            show g.live sn.parent_page_id_ ∧ _
            rw [hSpar]
            obtain ⟨h1, q, h2, h3, _, h4⟩ := hparP
            exact ⟨h1, q, h2, h3, h4⟩
          · intro hr; rw [h1r] at hr; exact absurd hr.symm hrootS
        · obtain ⟨n, hn, hok⟩ := h.pages p hp
          refine ⟨n, by rw [h1o p hpP hpM hpS]; exact hn, ?_⟩
          apply PageOK_frame t t1 g
            ⟨g.live, g.lev, fun p => if p = S then some k2 else g.lo p,
              fun p => if p = M then some k2 else g.hi p⟩ g.hi
            (fun p => if p = M then some k2 else g.hi p) INVALID_PAGE_ID INVALID_PAGE_ID p n hok
            rfl (by simp [hpS]) (by simp [hpM]) (by rw [h1r])
          · exact hupAll p n hp hn hpP
          · intro _ _; exact hdown _ _
          · rw [h1r]
          · exact id
  · intro p n hp hn hi2
    rw [h1r, h1m]
    by_cases hpP : p = P
    · rw [hpP, h1P] at hn
      have hne := Option.some.inj hn
      rw [← hne]
      have := h.sizes P pn hP hpn hpi
      refine ⟨this.1, fun hr hx => ?_⟩
      have h3 := this.2 (by rw [← hpP]; exact hr) (by rw [← hpP]; exact hx)
      simp only [BPlusTreePage.GetSize] at h3 ⊢
      rw [harr] at h3
      simpa using h3
    · by_cases hpM : p = M
      · rw [hpM, h1M] at hn
        have hne := Option.some.inj hn
        rw [← hne] at hi2
        rw [hml] at hi2; cases hi2
      · by_cases hpS : p = S
        · rw [hpS, h1S] at hn
          have hne := Option.some.inj hn
          rw [← hne] at hi2
          rw [hsl] at hi2; cases hi2
        · rw [h1o p hpP hpM hpS] at hn
          exact h.sizes p n hp hn hi2

/-- The state after a child was moved between two neighbouring internal pages and the
key between them in the parent was replaced; `mv` is the moved child and `np` its new
parent. -/
theorem Ord_int_shift (t t1 : BPlusTree) (g : Ghost) (h : Ord t g) (P M S mv np : page_id_t)
    (pn mn sn vn : BPlusTreePage) (hP : g.live P) (hpn : t.pages P = some pn)
    (hpi : pn.page_type_ = IndexPageType.INTERNAL_PAGE)
    (l1 l2 : List (KeyType × Int)) (sM k k2 : KeyType)
    (harr : pn.array = l1 ++ (sM, M) :: (k, S) :: l2)
    (hmn : t.pages M = some mn) (hsn : t.pages S = some sn) (hvn : t.pages mv = some vn)
    (hmi : mn.page_type_ = IndexPageType.INTERNAL_PAGE)
    (hsi : sn.page_type_ = IndexPageType.INTERNAL_PAGE)
    (am as_ : List (KeyType × Int))
    (hch : ∀ c, (c ∈ am.map Prod.snd ∨ c ∈ as_.map Prod.snd) ↔
      (c ∈ mn.array.map Prod.snd ∨ c ∈ sn.array.map Prod.snd))
    (hstayM : ∀ c ∈ am.map Prod.snd, c ≠ mv → c ∈ mn.array.map Prod.snd)
    (hstayS : ∀ c ∈ as_.map Prod.snd, c ≠ mv → c ∈ sn.array.map Prod.snd)
    (hmv : (np = M ∧ mv ∈ am.map Prod.snd) ∨ (np = S ∧ mv ∈ as_.map Prod.snd))
    (hndm : (am.map Prod.snd).Nodup) (hnds : (as_.map Prod.snd).Nodup)
    (hdisj : ∀ c ∈ am.map Prod.snd, c ∉ as_.map Prod.snd)
    (htm : Tiled g.lo g.hi (g.lo M) am (some k2)) (hts : Tiled g.lo g.hi (some k2) as_ (g.hi S))
    (hzm : 1 ≤ am.length ∧ am.length < mn.max_size_)
    (hzs : 1 ≤ as_.length ∧ as_.length < sn.max_size_)
    (h1P : t1.pages P = some { pn with array := l1 ++ (sM, M) :: (k2, S) :: l2 })
    (h1M : t1.pages M = some { mn with array := am })
    (h1S : t1.pages S = some { sn with array := as_ })
    (h1v : t1.pages mv = some { vn with parent_page_id_ := np })
    (h1o : ∀ p, p ≠ P → p ≠ M → p ≠ S → p ≠ mv → t1.pages p = t.pages p)
    (h1r : t1.root_page_id_ = t.root_page_id_) (h1n : t1.next_page_id = t.next_page_id)
    (h1m : t1.internal_max_size_ = t.internal_max_size_) :
    Ord t1 ⟨g.live, g.lev, fun p => if p = S then some k2 else g.lo p,
      fun p => if p = M then some k2 else g.hi p⟩ := by
  obtain ⟨pn2, hpn2, hPok⟩ := h.pages P hP
  rw [hpn] at hpn2; cases hpn2
  have hnd := hPok.int_nodup hpi
  rw [harr] at hnd
  obtain ⟨hMS, hrest⟩ := nodup_pair l1 l2 (sM, M) (k, S) hnd
  simp only at hMS hrest
  have hSM : S ≠ M := fun hc => hMS hc.symm
  have hMm : M ∈ pn.array.map Prod.snd := by rw [harr]; simp
  have hSm : S ∈ pn.array.map Prod.snd := by rw [harr]; simp
  obtain ⟨hMP, hMlev, hMl⟩ := child_ne t g _ _ _ h P M pn hP hpn hpi hMm
  obtain ⟨hSP, hSlev, hSl⟩ := child_ne t g _ _ _ h P S pn hP hpn hpi hSm
  obtain ⟨mn2, hmn2, hMok⟩ := h.pages M hMl
  rw [hmn] at hmn2; cases hmn2
  obtain ⟨sn2, hsn2, hSok⟩ := h.pages S hSl
  rw [hsn] at hsn2; cases hsn2
  have hMpar := lister_eq t g _ _ _ h P M pn mn hP hpn hpi hMm hmn
  have hSpar := lister_eq t g _ _ _ h P S pn sn hP hpn hpi hSm hsn
  have hrootM : t.root_page_id_ ≠ M := by
    intro hc; have := hPok.lev_le; rw [hc] at this; omega
  have hrootS : t.root_page_id_ ≠ S := by
    intro hc; have := hPok.lev_le; rw [hc] at this; omega
  have hmapeq : (l1 ++ (sM, M) :: (k2, S) :: l2).map Prod.snd = pn.array.map Prod.snd := by
    rw [harr]; simp
  -- the children of `M` and `S`
  have hkid : ∀ c, (c ∈ mn.array.map Prod.snd ∨ c ∈ sn.array.map Prod.snd) →
      g.live c ∧ g.lev c + 1 = g.lev M ∧ c ≠ P ∧ c ≠ M ∧ c ≠ S ∧
      ∃ cn, t.pages c = some cn ∧ (cn.parent_page_id_ = M ∨ cn.parent_page_id_ = S) := by
    intro c hc
    rcases hc with hc | hc
    · obtain ⟨h1, h2, cn, h3, h4⟩ := hMok.children hmi c hc
      exact ⟨h1, h2, fun e => by rw [e] at h2; omega, fun e => by rw [e] at h2; omega,
        fun e => by rw [e] at h2; omega, cn, h3, Or.inl h4⟩
    · obtain ⟨h1, h2, cn, h3, h4⟩ := hSok.children hsi c hc
      exact ⟨h1, by omega, fun e => by rw [e] at h2; omega, fun e => by rw [e] at h2; omega,
        fun e => by rw [e] at h2; omega, cn, h3, Or.inr h4⟩
  have hmvkid : mv ∈ mn.array.map Prod.snd ∨ mv ∈ sn.array.map Prod.snd := by
    rcases hmv with ⟨_, hm⟩ | ⟨_, hm⟩
    · exact (hch mv).1 (Or.inl hm)
    · exact (hch mv).1 (Or.inr hm)
  obtain ⟨hvl, hvlev, hvP, hvM, hvS, _⟩ := hkid mv hmvkid
  obtain ⟨vn2, hvn2, hVok⟩ := h.pages mv hvl
  rw [hvn] at hvn2; cases hvn2
  have hup : ∀ x, x ≠ M → x ≠ S → x ≠ mv → UpSame t t1 g
      ⟨g.live, g.lev, fun p => if p = S then some k2 else g.lo p,
        fun p => if p = M then some k2 else g.hi p⟩ g.hi
      (fun p => if p = M then some k2 else g.hi p) x := by
    intro x hxM hxS hxv
    refine ⟨id, rfl, by simp [hxS], by simp [hxM], ?_⟩
    intro xn hxn
    by_cases hxP : x = P
    · rw [hxP] at hxn ⊢; rw [hpn] at hxn; cases hxn
      exact ⟨_, h1P, rfl⟩
    · exact ⟨xn, by rw [h1o x hxP hxM hxS hxv]; exact hxn, rfl⟩
  have hupAll : ∀ p n, g.live p → t.pages p = some n → p ≠ P → p ≠ M → p ≠ S →
      n.page_type_ = IndexPageType.INTERNAL_PAGE → ∀ x ∈ n.array.map Prod.snd, UpSame t t1 g
      ⟨g.live, g.lev, fun p => if p = S then some k2 else g.lo p,
        fun p => if p = M then some k2 else g.hi p⟩ g.hi
      (fun p => if p = M then some k2 else g.hi p) x := by
    intro p n hp hn hpP hpM hpS hi2 x hx
    apply hup x
    · intro hc; rw [hc] at hx
      have := lister_eq t g _ _ _ h p M n mn hp hn hi2 hx hmn
      rw [hMpar] at this; exact hpP this.symm
    · intro hc; rw [hc] at hx
      have := lister_eq t g _ _ _ h p S n sn hp hn hi2 hx hsn
      rw [hSpar] at this; exact hpP this.symm
    · intro hc; rw [hc] at hx
      have := lister_eq t g _ _ _ h p mv n vn hp hn hi2 hx hvn
      rcases hmvkid with hm | hm
      · have h2 := lister_eq t g _ _ _ h M mv mn vn hMl hmn hmi hm hvn
        rw [h2] at this; exact hpM this.symm
      · have h2 := lister_eq t g _ _ _ h S mv sn vn hSl hsn hsi hm hvn
        rw [h2] at this; exact hpS this.symm
  -- what a child of `M` or `S` looks like afterwards
  have hkid1 : ∀ c q, (q = M ∧ c ∈ am.map Prod.snd) ∨ (q = S ∧ c ∈ as_.map Prod.snd) →
      g.live c ∧ g.lev c + 1 = g.lev q ∧ c ≠ M ∧ c ≠ S ∧
      ∃ cn, t1.pages c = some cn ∧ cn.parent_page_id_ = q := by
    intro c q hcq
    have hc0 : c ∈ mn.array.map Prod.snd ∨ c ∈ sn.array.map Prod.snd := by
      rcases hcq with ⟨_, hm⟩ | ⟨_, hm⟩
      · exact (hch c).1 (Or.inl hm)
      · exact (hch c).1 (Or.inr hm)
    obtain ⟨hcl, hclev, hcP, hcM, hcS, cn, hcn, _⟩ := hkid c hc0
    have hlevq : g.lev q = g.lev M := by
      rcases hcq with ⟨hq, _⟩ | ⟨hq, _⟩
      · rw [hq]
      · rw [hq]; omega
    refine ⟨hcl, by rw [hlevq]; exact hclev, hcM, hcS, ?_⟩
    by_cases hcv : c = mv
    · rw [hcv]
      refine ⟨_, h1v, ?_⟩
      show np = q
      rcases hmv with ⟨hnp, hm⟩ | ⟨hnp, hm⟩
      · rcases hcq with ⟨hq, _⟩ | ⟨hq, hm2⟩
        · rw [hnp, hq]
        · rw [hcv] at hm2
          exact absurd hm2 (hdisj mv hm)
      · rcases hcq with ⟨hq, hm2⟩ | ⟨hq, _⟩
        · rw [hcv] at hm2
          exact absurd hm (hdisj mv hm2)
        · rw [hnp, hq]
    · refine ⟨cn, by rw [h1o c hcP hcM hcS hcv]; exact hcn, ?_⟩
      rcases hcq with ⟨hq, hm⟩ | ⟨hq, hm⟩
      · rw [hq]
        exact lister_eq t g _ _ _ h M c mn cn hMl hmn hmi (hstayM c hm hcv) hcn
      · rw [hq]
        exact lister_eq t g _ _ _ h S c sn cn hSl hsn hsi (hstayS c hm hcv) hcn
  have hdown : ∀ q x, (q = M → x ∈ am.map Prod.snd) → (q = S → x ∈ as_.map Prod.snd) →
      DownSame t t1 g
      ⟨g.live, g.lev, fun p => if p = S then some k2 else g.lo p,
        fun p => if p = M then some k2 else g.hi p⟩ q x := by
    intro q x hqM2 hqS2
    refine ⟨id, ?_⟩
    intro qn hqn hqi hxm
    by_cases hqP : q = P
    · rw [hqP] at hqn ⊢; rw [hpn] at hqn; cases hqn
      exact ⟨_, h1P, hpi, by rw [hmapeq]; exact hxm⟩
    · by_cases hqM : q = M
      · rw [hqM]; exact ⟨_, h1M, hmi, hqM2 hqM⟩
      · by_cases hqS : q = S
        · rw [hqS]; exact ⟨_, h1S, hsi, hqS2 hqS⟩
        · by_cases hqv : q = mv
          · rw [hqv] at hqn ⊢; rw [hvn] at hqn; cases hqn
            exact ⟨{ vn with parent_page_id_ := np }, h1v, hqi, hxm⟩
          · exact ⟨qn, by rw [h1o q hqP hqM hqS hqv]; exact hqn, hqi, hxm⟩
  have hlab : ∀ c, c ≠ M → c ≠ S →
      (if c = S then some k2 else g.lo c) = g.lo c ∧
      (if c = M then some k2 else g.hi c) = g.hi c := by
    intro c h1 h2; simp [h1, h2]
  refine ⟨by rw [h1r]; exact h.root_live, ?_, h.live_pos, ?_, ?_,
    by rw [h1r, h1n]; exact h.height, ?_, ?_⟩
  · intro p hp
    rw [h1n] at hp
    have hne : ∀ q, g.live q → p ≠ q := by
      intro q hq hc; rw [hc] at hp
      exact absurd (live_lt t g _ _ _ h q hq) (not_lt.mpr hp)
    rw [h1o p (hne P hP) (hne M hMl) (hne S hSl) (hne mv hvl)]; exact h.fresh p hp
  · rw [h1r]; simp only [if_neg hrootS]; exact h.root_lo
  · rw [h1r]; simp only [if_neg hrootM]; exact h.root_hi
  · intro p hp
    by_cases hpP : p = P
    · rw [hpP]
      refine ⟨_, h1P, ?_⟩
      have habs : ∀ {α : Prop}, pn.page_type_ = IndexPageType.LEAF_PAGE → α := by
        intro α hl; rw [hpi] at hl; cases hl
      refine ⟨hPok.id_eq, hPok.kind, by rw [h1r]; exact hPok.lev_le, fun hl => habs hl,
        fun hl => habs hl, fun hl => habs hl, ?_, ?_, ?_, ?_, ?_, ?_⟩
      · intro _
        have := hPok.int_size hpi
        simp only [BPlusTreePage.GetSize] at this ⊢
        rw [harr] at this
        simpa using this
      · intro _; rw [hmapeq]; exact hPok.int_nodup hpi
      · intro _
        have ht := hPok.int_tiled hpi
        rw [harr] at ht
        simp only [if_neg hSP.symm, if_neg hMP.symm]
        apply Tiled_setkey g.lo g.hi _ _ _ _ l1 l2 sM k k2 M S ht
        · intro c hc
          obtain ⟨h1, h2⟩ := hrest c hc
          simp [h1, h2]
        · simp [hMS]
        · simp
        · simp
        · simp [hSM]
        · exact (aboveLo_iff _ _).1 (Tiled_bound g.lo g.hi _ am _
            (by intro hc; rw [hc] at hzm; simp at hzm) htm)
        · exact Tiled_bound g.lo g.hi _ as_ _
            (by intro hc; rw [hc] at hzs; simp at hzs) hts
      · intro _ c hc
        rw [hmapeq] at hc
        obtain ⟨hcl, hclev, cn, hcn, hcp⟩ := hPok.children hpi c hc
        refine ⟨hcl, hclev, ?_⟩
        by_cases hcM : c = M
        · rw [hcM]; exact ⟨_, h1M, hMpar⟩
        · by_cases hcS : c = S
          · rw [hcS]; exact ⟨_, h1S, hSpar⟩
          · have hcP : c ≠ P := (child_ne t g _ _ _ h P c pn hP hpn hpi hc).1
            have hcv : c ≠ mv := by
              intro e; rw [e] at hclev; omega
            exact ⟨cn, by rw [h1o c hcP hcM hcS hcv]; exact hcn, hcp⟩
      · intro hr hx
        rw [h1r] at hr
        obtain ⟨hGl, G, hG, hGi, hGm⟩ := hPok.parent_ok hr hx
        have hGM : pn.parent_page_id_ ≠ M := by
          intro e
          have := (child_ne t g _ _ _ h _ P G hGl hG hGi hGm).2.1
          rw [e] at this; omega
        have hGS : pn.parent_page_id_ ≠ S := by
          intro e
          have := (child_ne t g _ _ _ h _ P G hGl hG hGi hGm).2.1
          rw [e] at this; omega
        obtain ⟨q1, hq1, hq1i, hm1⟩ :=
          (hdown _ P (fun e => absurd e hGM) (fun e => absurd e hGS)).kids G hG hGi hGm
        exact ⟨hGl, q1, hq1, hq1i, hm1⟩
      · intro hr; rw [h1r] at hr; exact hPok.root_parent hr
    · by_cases hpM : p = M
      · rw [hpM]
        refine ⟨_, h1M, ?_⟩
        have habs : ∀ {α : Prop}, mn.page_type_ = IndexPageType.LEAF_PAGE → α := by
          intro α hl; rw [hmi] at hl; cases hl
        refine ⟨hMok.id_eq, hMok.kind, by rw [h1r]; exact hMok.lev_le, fun hl => habs hl,
          fun hl => habs hl, fun hl => habs hl, fun _ => hzm.1, fun _ => hndm, ?_, ?_, ?_, ?_⟩
        · intro _
          simp only [if_neg hMS, if_true]
          apply Tiled_congr g.lo g.hi _ _ _ _ _ _ htm
          intro c hc
          obtain ⟨_, _, h3, h4, _⟩ := hkid1 c M (Or.inl ⟨rfl, hc⟩)
          exact hlab c h3 h4
        · intro _ c hc
          obtain ⟨h1, h2, _, _, h5⟩ := hkid1 c M (Or.inl ⟨rfl, hc⟩)
          exact ⟨h1, h2, h5⟩
        · intro _ _
          show g.live mn.parent_page_id_ ∧ _
          rw [hMpar]
          exact ⟨hP, _, h1P, hpi, by simp⟩
        · intro hr; rw [h1r] at hr; exact absurd hr.symm hrootM
      · by_cases hpS : p = S
        · rw [hpS]
          refine ⟨_, h1S, ?_⟩
          have habs : ∀ {α : Prop}, sn.page_type_ = IndexPageType.LEAF_PAGE → α := by
            intro α hl; rw [hsi] at hl; cases hl
          refine ⟨hSok.id_eq, hSok.kind, by rw [h1r]; exact hSok.lev_le, fun hl => habs hl,
            fun hl => habs hl, fun hl => habs hl, fun _ => hzs.1, fun _ => hnds, ?_, ?_, ?_, ?_⟩
          · intro _
            simp only [if_true, if_neg hSM]
            apply Tiled_congr g.lo g.hi _ _ _ _ _ _ hts
            intro c hc
            obtain ⟨_, _, h3, h4, _⟩ := hkid1 c S (Or.inr ⟨rfl, hc⟩)
            exact hlab c h3 h4
          · intro _ c hc
            obtain ⟨h1, h2, _, _, h5⟩ := hkid1 c S (Or.inr ⟨rfl, hc⟩)
            exact ⟨h1, h2, h5⟩
          · intro _ _
            show g.live sn.parent_page_id_ ∧ _
            rw [hSpar]
            exact ⟨hP, _, h1P, hpi, by simp⟩
          · intro hr; rw [h1r] at hr; exact absurd hr.symm hrootS
        · by_cases hpv : p = mv
          · rw [hpv]
            refine ⟨_, h1v, ?_⟩
            apply PageOK_move t t1 g
              ⟨g.live, g.lev, fun p => if p = S then some k2 else g.lo p,
                fun p => if p = M then some k2 else g.hi p⟩ g.hi
              (fun p => if p = M then some k2 else g.hi p) INVALID_PAGE_ID INVALID_PAGE_ID
              mv vn np hVok rfl (by simp [hvS]) (by simp [hvM])
            · rw [h1r]; exact hVok.lev_le
            · exact hupAll mv vn hvl hvn hvP hvM hvS
            · intro _ _
              rcases hmv with ⟨hnp, hm⟩ | ⟨hnp, hm⟩
              · rw [hnp]; exact ⟨hMl, _, h1M, hmi, hm⟩
              · rw [hnp]; exact ⟨hSl, _, h1S, hsi, hm⟩
            · intro hr
              rw [h1r] at hr
              have := hPok.lev_le
              rw [← hr] at this
              omega
          · obtain ⟨n, hn, hok⟩ := h.pages p hp
            refine ⟨n, by rw [h1o p hpP hpM hpS hpv]; exact hn, ?_⟩
            apply PageOK_frame t t1 g
              ⟨g.live, g.lev, fun p => if p = S then some k2 else g.lo p,
                fun p => if p = M then some k2 else g.hi p⟩ g.hi
              (fun p => if p = M then some k2 else g.hi p) INVALID_PAGE_ID INVALID_PAGE_ID p n
              hok rfl (by simp [hpS]) (by simp [hpM]) (by rw [h1r])
            · exact hupAll p n hp hn hpP hpM hpS
            · intro hr hx
              obtain ⟨hql, q, hq, hqi, hqm⟩ := hok.parent_ok hr hx
              apply hdown
              · intro e
                rw [e, hmn] at hq; cases hq
                rcases (hch p).2 (Or.inl hqm) with h5 | h5
                · exact h5
                · exfalso
                  have h6 := hstayS p h5 hpv
                  have e1 := lister_eq t g _ _ _ h S p sn n hSl hsn hsi h6 hn
                  rw [e] at e1
                  exact hMS e1
              · intro e
                rw [e, hsn] at hq; cases hq
                rcases (hch p).2 (Or.inr hqm) with h5 | h5
                · exfalso
                  have h6 := hstayM p h5 hpv
                  have e1 := lister_eq t g _ _ _ h M p mn n hMl hmn hmi h6 hn
                  rw [e] at e1
                  exact hSM e1
                · exact h5
            · rw [h1r]
            · exact id
  · intro p n hp hn hi2
    rw [h1r, h1m]
    by_cases hpP : p = P
    · rw [hpP, h1P] at hn
      have hne := Option.some.inj hn
      rw [← hne]
      have := h.sizes P pn hP hpn hpi
      refine ⟨this.1, fun hr hx => ?_⟩
      have h3 := this.2 (by rw [← hpP]; exact hr) (by rw [← hpP]; exact hx)
      simp only [BPlusTreePage.GetSize] at h3 ⊢
      rw [harr] at h3
      simpa using h3
    · by_cases hpM : p = M
      · rw [hpM, h1M] at hn
        have hne := Option.some.inj hn
        rw [← hne]
        exact ⟨(h.sizes M mn hMl hmn hmi).1, fun _ _ => hzm.2⟩
      · by_cases hpS : p = S
        · rw [hpS, h1S] at hn
          have hne := Option.some.inj hn
          rw [← hne]
          exact ⟨(h.sizes S sn hSl hsn hsi).1, fun _ _ => hzs.2⟩
        · by_cases hpv : p = mv
          · rw [hpv, h1v] at hn
            have hne := Option.some.inj hn
            rw [← hne] at hi2 ⊢
            rw [hpv]
            exact h.sizes mv vn hvl hvn hi2
          · rw [h1o p hpP hpM hpS hpv] at hn
            exact h.sizes p n hp hn hi2

theorem Tiled_pair (lo hi : page_id_t → Option KeyType) (a b : Option KeyType)
    (l1 l2 : List (KeyType × Int)) (x y : KeyType × Int)
    (h : Tiled lo hi a (l1 ++ x :: y :: l2) b) :
    hi x.2 = some y.1 ∧ lo y.2 = some y.1 ∧ boundLe (some y.1) (hi y.2) := by
  have h2 : Tiled lo hi (some y.1) (y :: l2) b ∧ hi x.2 = some y.1 := by
    by_cases hne : l1 = []
    · subst hne
      exact ⟨h.2.2.2, h.2.1⟩
    · rw [Tiled_append lo hi b x (y :: l2) l1 a hne] at h
      exact ⟨h.2.2.2.2, h.2.2.1⟩
  refine ⟨h2.2, (Tiled_head lo hi _ b y l2 h2.1).1, ?_⟩
  cases l2 with
  | nil =>
    obtain ⟨_, f2, f3⟩ := h2.1
    rw [f2]; exact f3
  | cons z l2 =>
    obtain ⟨_, f2, f3, _⟩ := h2.1
    rw [f2]; exact (aboveLo_iff _ _).2 f3

/-- The state after the internal page `S` was merged into its left neighbour `M` and its
slot in the parent was removed. -/
theorem Ord_int_merge (t t1 : BPlusTree) (g : Ghost) (h : Ord t g) (P M S : page_id_t)
    (pn mn sn : BPlusTreePage) (hP : g.live P) (hpn : t.pages P = some pn)
    (hpi : pn.page_type_ = IndexPageType.INTERNAL_PAGE)
    (l1 l2 : List (KeyType × Int)) (sM k : KeyType)
    (harr : pn.array = l1 ++ (sM, M) :: (k, S) :: l2)
    (hmn : t.pages M = some mn) (hsn : t.pages S = some sn)
    (hmi : mn.page_type_ = IndexPageType.INTERNAL_PAGE)
    (hsi : sn.page_type_ = IndexPageType.INTERNAL_PAGE)
    (s0 : KeyType) (c0 : page_id_t) (restS : List (KeyType × Int))
    (hsarr : sn.array = (s0, c0) :: restS)
    (hz : mn.array.length + sn.array.length < mn.max_size_)
    (h1P : t1.pages P = some { pn with array := l1 ++ (sM, M) :: l2 })
    (h1M : t1.pages M = some { mn with array := mn.array ++ (k, c0) :: restS })
    (h1c : ∀ c ∈ sn.array.map Prod.snd, ∀ cn, t.pages c = some cn →
      t1.pages c = some { cn with parent_page_id_ := M })
    (h1o : ∀ p, p ≠ P → p ≠ M → p ≠ S → p ∉ sn.array.map Prod.snd → t1.pages p = t.pages p)
    (h1f : ∀ p, t.next_page_id ≤ p → t1.pages p = none)
    (h1r : t1.root_page_id_ = t.root_page_id_) (h1n : t1.next_page_id = t.next_page_id)
    (h1m : t1.internal_max_size_ = t.internal_max_size_) :
    Ord t1 ⟨fun p => g.live p ∧ p ≠ S, g.lev, g.lo,
      fun p => if p = M then g.hi S else g.hi p⟩ := by
  obtain ⟨pn2, hpn2, hPok⟩ := h.pages P hP
  rw [hpn] at hpn2; cases hpn2
  have hnd := hPok.int_nodup hpi
  rw [harr] at hnd
  obtain ⟨hMS, hrest⟩ := nodup_pair l1 l2 (sM, M) (k, S) hnd
  simp only at hMS hrest
  have hSM : S ≠ M := fun hc => hMS hc.symm
  have hMm : M ∈ pn.array.map Prod.snd := by rw [harr]; simp
  have hSm : S ∈ pn.array.map Prod.snd := by rw [harr]; simp
  obtain ⟨hMP, hMlev, hMl⟩ := child_ne t g _ _ _ h P M pn hP hpn hpi hMm
  obtain ⟨hSP, hSlev, hSl⟩ := child_ne t g _ _ _ h P S pn hP hpn hpi hSm
  obtain ⟨mn2, hmn2, hMok⟩ := h.pages M hMl
  rw [hmn] at hmn2; cases hmn2
  obtain ⟨sn2, hsn2, hSok⟩ := h.pages S hSl
  rw [hsn] at hsn2; cases hsn2
  have hMpar := lister_eq t g _ _ _ h P M pn mn hP hpn hpi hMm hmn
  have hSpar := lister_eq t g _ _ _ h P S pn sn hP hpn hpi hSm hsn
  have hrootM : t.root_page_id_ ≠ M := by
    intro hc; have := hPok.lev_le; rw [hc] at this; omega
  have hrootS : t.root_page_id_ ≠ S := by
    intro hc; have := hPok.lev_le; rw [hc] at this; omega
  have htP := hPok.int_tiled hpi
  rw [harr] at htP
  obtain ⟨hhiM, hloS, _⟩ := Tiled_pair g.lo g.hi _ _ l1 l2 (sM, M) (k, S) htP
  simp only at hhiM hloS
  have hsubP : ∀ c, c ∈ (l1 ++ (sM, M) :: l2).map Prod.snd →
      c ∈ pn.array.map Prod.snd ∧ c ≠ S := by
    intro c hc
    simp only [List.map_append, List.map_cons, List.mem_append, List.mem_cons] at hc
    constructor
    · rw [harr]
      simp only [List.map_append, List.map_cons, List.mem_append, List.mem_cons]
      tauto
    · rcases hc with hc | hc | hc
      · exact (hrest c (by simp [hc])).2
      · rw [hc]; exact hMS
      · exact (hrest c (by simp [hc])).2
  have hPsub2 : ∀ c, c ∈ pn.array.map Prod.snd → c ≠ S →
      c ∈ (l1 ++ (sM, M) :: l2).map Prod.snd := by
    intro c hc hcS
    rw [harr] at hc
    simp only [List.map_append, List.map_cons, List.mem_append, List.mem_cons] at hc ⊢
    tauto
  -- the children of `M` and `S`
  have hkidM : ∀ c, c ∈ mn.array.map Prod.snd →
      g.live c ∧ g.lev c + 1 = g.lev M ∧ c ≠ P ∧ c ≠ M ∧ c ≠ S ∧
      c ∉ sn.array.map Prod.snd ∧ ∃ cn, t.pages c = some cn ∧ cn.parent_page_id_ = M := by
    intro c hc
    obtain ⟨h1, h2, cn, h3, h4⟩ := hMok.children hmi c hc
    refine ⟨h1, h2, fun e => by rw [e] at h2; omega, fun e => by rw [e] at h2; omega,
      fun e => by rw [e] at h2; omega, ?_, cn, h3, h4⟩
    intro hcs
    have := lister_eq t g _ _ _ h S c sn cn hSl hsn hsi hcs h3
    rw [h4] at this
    exact hMS this
  have hkidS : ∀ c, c ∈ sn.array.map Prod.snd →
      g.live c ∧ g.lev c + 1 = g.lev M ∧ c ≠ P ∧ c ≠ M ∧ c ≠ S ∧
      ∃ cn, t.pages c = some cn ∧ cn.parent_page_id_ = S := by
    intro c hc
    obtain ⟨h1, h2, cn, h3, h4⟩ := hSok.children hsi c hc
    exact ⟨h1, by omega, fun e => by rw [e] at h2; omega, fun e => by rw [e] at h2; omega,
      fun e => by rw [e] at h2; omega, cn, h3, h4⟩
  have hup : ∀ x, g.live x → x ≠ M → x ≠ S → x ∉ sn.array.map Prod.snd → UpSame t t1 g
      ⟨fun p => g.live p ∧ p ≠ S, g.lev, g.lo, fun p => if p = M then g.hi S else g.hi p⟩
      g.hi (fun p => if p = M then g.hi S else g.hi p) x := by
    intro x hxl hxM hxS hxs
    refine ⟨fun hl => ⟨hl, hxS⟩, rfl, rfl, by simp [hxM], ?_⟩
    intro xn hxn
    by_cases hxP : x = P
    · rw [hxP] at hxn ⊢; rw [hpn] at hxn; cases hxn
      exact ⟨_, h1P, rfl⟩
    · exact ⟨xn, by rw [h1o x hxP hxM hxS hxs]; exact hxn, rfl⟩
  have hupAll : ∀ p n, g.live p → t.pages p = some n → p ≠ P → p ≠ S →
      n.page_type_ = IndexPageType.INTERNAL_PAGE → ∀ x ∈ n.array.map Prod.snd, UpSame t t1 g
      ⟨fun p => g.live p ∧ p ≠ S, g.lev, g.lo, fun p => if p = M then g.hi S else g.hi p⟩
      g.hi (fun p => if p = M then g.hi S else g.hi p) x := by
    intro p n hp hn hpP hpS hi2 x hx
    have hxl := (child_ne t g _ _ _ h p x n hp hn hi2 hx).2.2
    obtain ⟨xn, hxn, _⟩ := h.pages x hxl
    apply hup x hxl
    · intro hc; rw [hc] at hx
      have := lister_eq t g _ _ _ h p M n mn hp hn hi2 hx hmn
      rw [hMpar] at this; exact hpP this.symm
    · intro hc; rw [hc] at hx
      have := lister_eq t g _ _ _ h p S n sn hp hn hi2 hx hsn
      rw [hSpar] at this; exact hpP this.symm
    · intro hc
      have e1 := lister_eq t g _ _ _ h p x n xn hp hn hi2 hx hxn
      have e2 := lister_eq t g _ _ _ h S x sn xn hSl hsn hsi hc hxn
      rw [e1] at e2; exact hpS e2
  have hmemM1 : ∀ c, c ∈ (mn.array ++ (k, c0) :: restS).map Prod.snd ↔
      (c ∈ mn.array.map Prod.snd ∨ c ∈ sn.array.map Prod.snd) := by
    intro c
    rw [hsarr]
    simp only [List.map_append, List.map_cons, List.mem_append, List.mem_cons]
  have hdown : ∀ q x, g.live q → q ≠ S → (q = P → x ≠ S) → DownSame t t1 g
      ⟨fun p => g.live p ∧ p ≠ S, g.lev, g.lo, fun p => if p = M then g.hi S else g.hi p⟩
      q x := by
    intro q x hql hqS hqx
    refine ⟨fun hl => ⟨hl, hqS⟩, ?_⟩
    intro qn hqn hqi hxm
    by_cases hqP : q = P
    · rw [hqP] at hqn ⊢; rw [hpn] at hqn; cases hqn
      exact ⟨_, h1P, hpi, hPsub2 x hxm (hqx hqP)⟩
    · by_cases hqM : q = M
      · rw [hqM] at hqn ⊢; rw [hmn] at hqn; cases hqn
        exact ⟨_, h1M, hmi, (hmemM1 x).2 (Or.inl hxm)⟩
      · by_cases hqs : q ∈ sn.array.map Prod.snd
        · exact ⟨{ qn with parent_page_id_ := M }, h1c q hqs qn hqn, hqi, hxm⟩
        · exact ⟨qn, by rw [h1o q hqP hqM hqS hqs]; exact hqn, hqi, hxm⟩
  refine ⟨by rw [h1r]; exact ⟨h.root_live, hrootS⟩, by rw [h1n]; exact h1f,
    fun p hp => h.live_pos p hp.1, by rw [h1r]; exact h.root_lo, ?_,
    by rw [h1r, h1n]; exact h.height, ?_, ?_⟩
  · rw [h1r]; simp only [if_neg hrootM]; exact h.root_hi
  · intro p hp
    obtain ⟨hpl, hpS⟩ := hp
    by_cases hpP : p = P
    · rw [hpP]
      refine ⟨_, h1P, ?_⟩
      have habs : ∀ {α : Prop}, pn.page_type_ = IndexPageType.LEAF_PAGE → α := by
        intro α hl; rw [hpi] at hl; cases hl
      refine ⟨hPok.id_eq, hPok.kind, by rw [h1r]; exact hPok.lev_le, fun hl => habs hl,
        fun hl => habs hl, fun hl => habs hl, ?_, ?_, ?_, ?_, ?_, ?_⟩
      · intro _; simp [BPlusTreePage.GetSize]; omega
      · intro _
        have : (l1 ++ (sM, M) :: l2).Sublist (l1 ++ (sM, M) :: (k, S) :: l2) :=
          List.Sublist.append_left (List.Sublist.cons₂ _ (List.sublist_cons_self _ _)) _
        exact List.Nodup.sublist (List.Sublist.map _ this) hnd
      · intro _
        simp only [if_neg hMP.symm]
        apply Tiled_remove g.lo g.hi _ _ _ l1 l2 sM k M S htP
        · intro c hc
          simp [(hrest c hc).1]
        · simp
      · intro _ c hc
        obtain ⟨hc1, hc2⟩ := hsubP c hc
        obtain ⟨hcl, hclev, cn, hcn, hcp⟩ := hPok.children hpi c hc1
        refine ⟨⟨hcl, hc2⟩, hclev, ?_⟩
        by_cases hcM : c = M
        · rw [hcM]; exact ⟨_, h1M, hMpar⟩
        · have hcP : c ≠ P := (child_ne t g _ _ _ h P c pn hP hpn hpi hc1).1
          have hcs : c ∉ sn.array.map Prod.snd := by
            intro hcs
            have := (hkidS c hcs).2.1
            omega
          exact ⟨cn, by rw [h1o c hcP hcM hc2 hcs]; exact hcn, hcp⟩
      · intro hr hx
        rw [h1r] at hr
        obtain ⟨hGl, G, hG, hGi, hGm⟩ := hPok.parent_ok hr hx
        have hGlev := (child_ne t g _ _ _ h _ P G hGl hG hGi hGm).2.1
        have hGS : pn.parent_page_id_ ≠ S := by intro e; rw [e] at hGlev; omega
        have hGP : pn.parent_page_id_ ≠ P := by intro e; rw [e] at hGlev; omega
        obtain ⟨q1, hq1, hq1i, hm1⟩ :=
          (hdown _ P hGl hGS (fun e => absurd e hGP)).kids G hG hGi hGm
        exact ⟨⟨hGl, hGS⟩, q1, hq1, hq1i, hm1⟩
      · intro hr; rw [h1r] at hr; exact hPok.root_parent hr
    · by_cases hpM : p = M
      · rw [hpM]
        refine ⟨_, h1M, ?_⟩
        have habs : ∀ {α : Prop}, mn.page_type_ = IndexPageType.LEAF_PAGE → α := by
          intro α hl; rw [hmi] at hl; cases hl
        have hmne : mn.array ≠ [] := by
          intro e
          have := hMok.int_size hmi
          simp [BPlusTreePage.GetSize, e] at this
        refine ⟨hMok.id_eq, hMok.kind, by rw [h1r]; exact hMok.lev_le, fun hl => habs hl,
          fun hl => habs hl, fun hl => habs hl, ?_, ?_, ?_, ?_, ?_, ?_⟩
        · intro _; simp [BPlusTreePage.GetSize]; omega
        · intro _
          rw [List.map_append, List.nodup_append]
          refine ⟨hMok.int_nodup hmi, ?_, ?_⟩
          · have := hSok.int_nodup hsi
            rw [hsarr] at this
            simpa using this
          · intro c hc1 hc2
            apply (hkidM c hc1).2.2.2.2.2.1
            rw [hsarr]; simpa using hc2
        · intro _
          simp only [if_true]
          have htM := hMok.int_tiled hmi
          have htS := hSok.int_tiled hsi
          rw [hsarr] at htS
          rw [hhiM] at htM
          rw [hloS] at htS
          have htS2 := (Tiled_head_key g.lo g.hi _ _ s0 k c0 restS).1 htS
          have := (Tiled_append g.lo g.hi (g.hi S) (k, c0) restS mn.array (g.lo M) hmne).2
            ⟨htM, htS2⟩
          apply Tiled_congr g.lo g.hi _ _ _ _ _ _ this
          intro c hc
          have hcM : c ≠ M := by
            rcases (hmemM1 c).1 hc with h5 | h5
            · exact (hkidM c h5).2.2.2.1
            · exact (hkidS c h5).2.2.2.1
          simp [hcM]
        · intro _ c hc
          rcases (hmemM1 c).1 hc with h5 | h5
          · obtain ⟨g1, g2, g3, g4, g5, g6, cn, g7, g8⟩ := hkidM c h5
            exact ⟨⟨g1, g5⟩, g2, cn, by rw [h1o c g3 g4 g5 g6]; exact g7, g8⟩
          · obtain ⟨g1, g2, g3, g4, g5, cn, g7, g8⟩ := hkidS c h5
            exact ⟨⟨g1, g5⟩, g2, { cn with parent_page_id_ := M }, h1c c h5 cn g7, rfl⟩
        · intro _ _
          show (g.live mn.parent_page_id_ ∧ mn.parent_page_id_ ≠ S) ∧ _
          rw [hMpar]
          exact ⟨⟨hP, hSP.symm⟩, _, h1P, hpi, by simp⟩
        · intro hr; rw [h1r] at hr; exact absurd hr.symm hrootM
      · obtain ⟨n, hn, hok⟩ := h.pages p hpl
        by_cases hps : p ∈ sn.array.map Prod.snd
        · refine ⟨{ n with parent_page_id_ := M }, h1c p hps n hn, ?_⟩
          apply PageOK_move t t1 g
            ⟨fun p => g.live p ∧ p ≠ S, g.lev, g.lo, fun p => if p = M then g.hi S else g.hi p⟩
            g.hi (fun p => if p = M then g.hi S else g.hi p) INVALID_PAGE_ID INVALID_PAGE_ID
            p n M hok rfl rfl (by simp [hpM])
          · rw [h1r]; exact hok.lev_le
          · exact hupAll p n hpl hn hpP hpS
          · intro _ _
            exact ⟨⟨hMl, hMS⟩, _, h1M, hmi, (hmemM1 p).2 (Or.inr hps)⟩
          · intro hr
            rw [h1r] at hr
            have := (hkidS p hps).2.1
            have h2 := hPok.lev_le
            rw [← hr] at h2
            omega
        · refine ⟨n, by rw [h1o p hpP hpM hpS hps]; exact hn, ?_⟩
          apply PageOK_frame t t1 g
            ⟨fun p => g.live p ∧ p ≠ S, g.lev, g.lo, fun p => if p = M then g.hi S else g.hi p⟩
            g.hi (fun p => if p = M then g.hi S else g.hi p) INVALID_PAGE_ID INVALID_PAGE_ID
            p n hok rfl rfl (by simp [hpM]) (by rw [h1r])
          · exact hupAll p n hpl hn hpP hpS
          · intro hr hx
            obtain ⟨hql, q, hq, hqi, hqm⟩ := hok.parent_ok hr hx
            apply hdown _ p hql
            · intro e
              rw [e, hsn] at hq; cases hq
              exact hps hqm
            · intro _; exact hpS
          · rw [h1r]
          · exact id
  · intro p n hp hn hi2
    obtain ⟨hpl, hpS⟩ := hp
    rw [h1r, h1m]
    by_cases hpP : p = P
    · rw [hpP, h1P] at hn
      have hne := Option.some.inj hn
      rw [← hne]
      have := h.sizes P pn hP hpn hpi
      refine ⟨this.1, fun hr hx => ?_⟩
      have h3 := this.2 (by rw [← hpP]; exact hr) (by rw [← hpP]; exact hx)
      simp only [BPlusTreePage.GetSize] at h3 ⊢
      rw [harr] at h3
      simp only [List.length_append, List.length_cons] at h3 ⊢
      omega
    · by_cases hpM : p = M
      · rw [hpM, h1M] at hn
        have hne := Option.some.inj hn
        rw [← hne]
        refine ⟨(h.sizes M mn hMl hmn hmi).1, fun _ _ => ?_⟩
        simp only [BPlusTreePage.GetSize]
        rw [hsarr] at hz
        simp only [List.length_append, List.length_cons] at hz ⊢
        exact hz
      · obtain ⟨n0, hn0, _⟩ := h.pages p hpl
        by_cases hps : p ∈ sn.array.map Prod.snd
        · rw [h1c p hps n0 hn0] at hn
          have hne := Option.some.inj hn
          rw [← hne] at hi2 ⊢
          exact h.sizes p n0 hpl hn0 hi2
        · rw [h1o p hpP hpM hpS hps] at hn
          exact h.sizes p n hpl hn hi2

theorem Below_live (t : BPlusTree) (g : Ghost) (h : Ord t g) (S : page_id_t) (hS : g.live S)
    (q : page_id_t) (hq : Below t S q) :
    g.live q ∧ g.lev q ≤ g.lev S ∧ (g.lev q = g.lev S → q = S) := by
  induction hq with
  | self => exact ⟨hS, le_refl _, fun _ => rfl⟩
  | child q c n _ hn hi hc ih =>
    obtain ⟨h1, h2, h3⟩ := child_ne t g _ _ _ h q c n ih.1 hn hi hc
    exact ⟨h3, by omega, fun e => by omega⟩

/-- A page below `S` other than `S` is listed by a page below `S`. -/
theorem Below_lister (t : BPlusTree) (g : Ghost) (h : Ord t g) (S : page_id_t) (hS : g.live S)
    (c : page_id_t) (hc : Below t S c) (hne : c ≠ S) (p : page_id_t) (n : BPlusTreePage)
    (hp : g.live p) (hn : t.pages p = some n)
    (hi : n.page_type_ = IndexPageType.INTERNAL_PAGE) (hm : c ∈ n.array.map Prod.snd) :
    Below t S p := by
  cases hc with
  | self => exact absurd rfl hne
  | child q _ qn hq hqn hqi hqm =>
    have hql := (Below_live t g h S hS q hq).1
    obtain ⟨cn, hcn, _⟩ := h.pages c (child_ne t g _ _ _ h q c qn hql hqn hqi hqm).2.2
    have e1 := lister_eq t g _ _ _ h q c qn cn hql hqn hqi hqm hcn
    have e2 := lister_eq t g _ _ _ h p c n cn hp hn hi hm hcn
    rw [e1] at e2
    rw [← e2]; exact hq

theorem Tiled_last (lo hi : page_id_t → Option KeyType) (b : Option KeyType) :
    ∀ (arr : List (KeyType × Int)) (a : Option KeyType) (x : KeyType × Int),
      Tiled lo hi a arr b → arr.getLast? = some x → hi x.2 = b
  | [], _, _, _, hx => by simp at hx
  | [y], _, x, h, hx => by
    simp at hx; rw [← hx]; exact h.2.1
  | _ :: z :: rest, _, x, h, hx => by
    have hx2 : (z :: rest).getLast? = some x := by
      rw [List.getLast?_cons_cons] at hx; exact hx
    exact Tiled_last lo hi b (z :: rest) _ x h.2.2.2 hx2

theorem OnSpine_live (t : BPlusTree) (g : Ghost) (h : Ord t g) (M : page_id_t) (hM : g.live M)
    (q : page_id_t) (hq : OnSpine t M q) :
    g.live q ∧ g.lev q ≤ g.lev M ∧ (g.lev q = g.lev M → q = M) ∧ g.hi q = g.hi M := by
  induction hq with
  | self => exact ⟨hM, le_refl _, fun _ => rfl, rfl⟩
  | last q n item _ hn hi hlast ih =>
    have hm : item.2 ∈ n.array.map Prod.snd :=
      List.mem_map_of_mem _ (List.mem_of_mem_getLast? hlast)
    obtain ⟨h1, h2, h3⟩ := child_ne t g _ _ _ h q item.2 n ih.1 hn hi hm
    obtain ⟨n2, hn2, hok⟩ := h.pages q ih.1
    rw [hn] at hn2; cases hn2
    have := Tiled_last g.lo g.hi _ _ _ item (hok.int_tiled hi) hlast
    exact ⟨h3, by omega, fun e => by omega, by rw [this]; exact ih.2.2.2⟩

/-- A page on the spine of `M` other than `M` is the last child of a page on the spine. -/
theorem OnSpine_lister (t : BPlusTree) (g : Ghost) (h : Ord t g) (M : page_id_t)
    (hM : g.live M) (c : page_id_t) (hc : OnSpine t M c) (hne : c ≠ M) (p : page_id_t)
    (n : BPlusTreePage) (hp : g.live p) (hn : t.pages p = some n)
    (hi : n.page_type_ = IndexPageType.INTERNAL_PAGE) (hm : c ∈ n.array.map Prod.snd) :
    OnSpine t M p ∧ ∃ item, n.array.getLast? = some item ∧ item.2 = c := by
  cases hc with
  | self => exact absurd rfl hne
  | last q qn item hq hqn hqi hlast =>
    have hql := (OnSpine_live t g h M hM q hq).1
    have hqm : item.2 ∈ qn.array.map Prod.snd :=
      List.mem_map_of_mem _ (List.mem_of_mem_getLast? hlast)
    obtain ⟨cn, hcn, _⟩ := h.pages item.2 (child_ne t g _ _ _ h q _ qn hql hqn hqi hqm).2.2
    have e1 := lister_eq t g _ _ _ h q _ qn cn hql hqn hqi hqm hcn
    have e2 := lister_eq t g _ _ _ h p _ n cn hp hn hi hm hcn
    rw [e1] at e2
    rw [← e2] at hn ⊢
    rw [hqn] at hn; cases hn
    exact ⟨hq, item, hlast, rfl⟩

theorem nodup_last (arr : List (KeyType × Int)) (x : KeyType × Int)
    (hnd : (arr.map Prod.snd).Nodup) (hl : arr.getLast? = some x) :
    x.2 ∉ arr.dropLast.map Prod.snd := by
  have := List.dropLast_append_getLast? x hl
  rw [← this] at hnd
  simp only [List.map_append, List.map_cons, List.map_nil] at hnd
  rw [List.nodup_append] at hnd
  intro hc
  exact hnd.2.2 hc (by simp)

theorem Tiled_widen_last (lo hi hi2 : page_id_t → Option KeyType) (kb : KeyType)
    (b2 : Option KeyType) (hbb : boundLe (some kb) b2) :
    ∀ (arr : List (KeyType × Int)) (a : Option KeyType),
      Tiled lo hi a arr (some kb) →
      (∀ c ∈ arr.dropLast.map Prod.snd, hi2 c = hi c) →
      (∀ x, arr.getLast? = some x → hi2 x.2 = b2) →
      Tiled lo hi2 a arr b2
  | [], _, _, _, _ => trivial
  | [y], a, h, _, hl => by
    refine ⟨h.1, hl y rfl, ?_⟩
    intro u v hu hv
    exact le_trans (h.2.2 u kb hu rfl) (hbb kb v rfl hv)
  | y :: z :: rest, a, h, hd, hl => by
    refine ⟨h.1, ?_, h.2.2.1, ?_⟩
    · rw [hd y.2 (by simp [List.dropLast])]
      exact h.2.1
    · apply Tiled_widen_last lo hi hi2 kb b2 hbb (z :: rest) _ h.2.2.2
      · intro c hc
        apply hd
        simp only [List.dropLast_cons₂, List.map_cons, List.mem_cons]
        exact Or.inr hc
      · intro x hx
        apply hl
        rw [List.getLast?_cons_cons]; exact hx

/-- The state after the slot of `S`, the child behind `M`, was removed from the parent:
the pages below `S` leave the tree, and `M` with its last descendants reaches up to where
`S` ended. -/
theorem Ord_drop_child (t t1 : BPlusTree) (g : Ghost) (h : Ord t g) (P M S : page_id_t)
    (pn : BPlusTreePage) (hP : g.live P) (hpn : t.pages P = some pn)
    (hpi : pn.page_type_ = IndexPageType.INTERNAL_PAGE)
    (l1 l2 : List (KeyType × Int)) (sM k : KeyType)
    (harr : pn.array = l1 ++ (sM, M) :: (k, S) :: l2)
    (h1P : t1.pages P = some { pn with array := l1 ++ (sM, M) :: l2 })
    (h1o : ∀ p, p ≠ P → t1.pages p = t.pages p)
    (h1r : t1.root_page_id_ = t.root_page_id_) (h1n : t1.next_page_id = t.next_page_id)
    (h1m : t1.internal_max_size_ = t.internal_max_size_) :
    ∃ g1, Ord t1 g1 ∧ (∀ p, g1.live p → g.live p) ∧ ¬ g1.live S ∧ g1.live P ∧ g1.live M ∧
      g1.lo M = g.lo M ∧ g1.hi M = g.hi S ∧ g1.lev = g.lev := by
  classical
  obtain ⟨pn2, hpn2, hPok⟩ := h.pages P hP
  rw [hpn] at hpn2; cases hpn2
  have hnd := hPok.int_nodup hpi
  rw [harr] at hnd
  obtain ⟨hMS, hrest⟩ := nodup_pair l1 l2 (sM, M) (k, S) hnd
  simp only at hMS hrest
  have hSM : S ≠ M := fun hc => hMS hc.symm
  have hMm : M ∈ pn.array.map Prod.snd := by rw [harr]; simp
  have hSm : S ∈ pn.array.map Prod.snd := by rw [harr]; simp
  obtain ⟨hMP, hMlev, hMl⟩ := child_ne t g _ _ _ h P M pn hP hpn hpi hMm
  obtain ⟨hSP, hSlev, hSl⟩ := child_ne t g _ _ _ h P S pn hP hpn hpi hSm
  obtain ⟨sn, hsn, _⟩ := h.pages S hSl
  obtain ⟨mn, hmn, hMok⟩ := h.pages M hMl
  have hMpar := lister_eq t g _ _ _ h P M pn mn hP hpn hpi hMm hmn
  have hSpar := lister_eq t g _ _ _ h P S pn sn hP hpn hpi hSm hsn
  have hrlev := hPok.lev_le
  have htP := hPok.int_tiled hpi
  rw [harr] at htP
  obtain ⟨hhiM, hloS, hbS⟩ := Tiled_pair g.lo g.hi _ _ l1 l2 (sM, M) (k, S) htP
  simp only at hhiM hloS hbS
  have B1 := Below_live t g h S hSl
  have S1 := OnSpine_live t g h M hMl
  have hPnb : ¬ Below t S P := fun hc => by have := (B1 P hc).2.1; omega
  have hrnb : ¬ Below t S t.root_page_id_ := fun hc => by have := (B1 _ hc).2.1; omega
  have hMnb : ¬ Below t S M := fun hc => hMS ((B1 M hc).2.2 (by omega))
  have hPns : ¬ OnSpine t M P := fun hc => by have := (S1 P hc).2.1; omega
  have hrns : ¬ OnSpine t M t.root_page_id_ := fun hc => by have := (S1 _ hc).2.1; omega
  have hsubP : ∀ c, c ∈ (l1 ++ (sM, M) :: l2).map Prod.snd →
      c ∈ pn.array.map Prod.snd ∧ c ≠ S := by
    intro c hc
    simp only [List.map_append, List.map_cons, List.mem_append, List.mem_cons] at hc
    constructor
    · rw [harr]
      simp only [List.map_append, List.map_cons, List.mem_append, List.mem_cons]
      tauto
    · rcases hc with hc | hc | hc
      · exact (hrest c (by simp [hc])).2
      · rw [hc]; exact hMS
      · exact (hrest c (by simp [hc])).2
  have hPsub2 : ∀ c, c ∈ pn.array.map Prod.snd → c ≠ S →
      c ∈ (l1 ++ (sM, M) :: l2).map Prod.snd := by
    intro c hc hcS
    rw [harr] at hc
    simp only [List.map_append, List.map_cons, List.mem_append, List.mem_cons] at hc ⊢
    tauto
  -- children of a page that stays are not below `S`
  have hkidnb : ∀ p n c, g.live p → ¬ Below t S p → t.pages p = some n →
      n.page_type_ = IndexPageType.INTERNAL_PAGE → c ∈ n.array.map Prod.snd → c ≠ S →
      ¬ Below t S c := by
    intro p n c hp hpb hn hi hc hcS hcb
    exact hpb (Below_lister t g h S hSl c hcb hcS p n hp hn hi hc)
  -- children of a page off the spine are off the spine
  have hkidns : ∀ p n c, g.live p → p ≠ P → ¬ OnSpine t M p → t.pages p = some n →
      n.page_type_ = IndexPageType.INTERNAL_PAGE → c ∈ n.array.map Prod.snd →
      ¬ OnSpine t M c := by
    intro p n c hp hpP hps hn hi hc hcs
    by_cases hcM : c = M
    · rw [hcM] at hc
      have := lister_eq t g _ _ _ h p M n mn hp hn hi hc hmn
      rw [hMpar] at this; exact hpP this.symm
    · exact hps (OnSpine_lister t g h M hMl c hcs hcM p n hp hn hi hc).1
  have hup : ∀ x, g.live x → ¬ Below t S x → ¬ OnSpine t M x → UpSame t t1 g
      ⟨fun p => g.live p ∧ ¬ Below t S p, g.lev, g.lo,
        fun p => if OnSpine t M p then g.hi S else g.hi p⟩
      g.hi (fun p => if OnSpine t M p then g.hi S else g.hi p) x := by
    intro x hxl hxb hxs
    refine ⟨fun hl => ⟨hl, hxb⟩, rfl, rfl, by simp [hxs], ?_⟩
    intro xn hxn
    by_cases hxP : x = P
    · rw [hxP] at hxn ⊢; rw [hpn] at hxn; cases hxn
      exact ⟨_, h1P, rfl⟩
    · exact ⟨xn, by rw [h1o x hxP]; exact hxn, rfl⟩
  have hdown : ∀ q x, g.live q → ¬ Below t S q → x ≠ S → DownSame t t1 g
      ⟨fun p => g.live p ∧ ¬ Below t S p, g.lev, g.lo,
        fun p => if OnSpine t M p then g.hi S else g.hi p⟩ q x := by
    intro q x hql hqb hxS
    refine ⟨fun hl => ⟨hl, hqb⟩, ?_⟩
    intro qn hqn hqi hxm
    by_cases hqP : q = P
    · rw [hqP] at hqn ⊢; rw [hpn] at hqn; cases hqn
      exact ⟨_, h1P, hpi, hPsub2 x hxm hxS⟩
    · exact ⟨qn, by rw [h1o q hqP]; exact hqn, hqi, hxm⟩
  -- the clause about the parent, for a page that stays and is not `P`
  have hpar : ∀ p n, g.live p → ¬ Below t S p → t.pages p = some n →
      PageOK t g g.hi INVALID_PAGE_ID p n → p ≠ t1.root_page_id_ → p ≠ INVALID_PAGE_ID →
      (g.live n.parent_page_id_ ∧ ¬ Below t S n.parent_page_id_) ∧
      ∃ q, t1.pages n.parent_page_id_ = some q ∧
        q.page_type_ = IndexPageType.INTERNAL_PAGE ∧ p ∈ q.array.map Prod.snd := by
    intro p n hp hpb hn hok hr hx
    rw [h1r] at hr
    obtain ⟨hql, q, hq, hqi, hqm⟩ := hok.parent_ok hr hx
    have hqb : ¬ Below t S n.parent_page_id_ := by
      intro hc
      exact hpb (Below.child _ p q hc hq hqi hqm)
    have hpS : p ≠ S := fun e => hpb (by rw [e]; exact Below.self)
    obtain ⟨q1, hq1, hq1i, hm1⟩ := (hdown _ p hql hqb hpS).kids q hq hqi hqm
    exact ⟨⟨hql, hqb⟩, q1, hq1, hq1i, hm1⟩
  refine ⟨⟨fun p => g.live p ∧ ¬ Below t S p, g.lev, g.lo,
      fun p => if OnSpine t M p then g.hi S else g.hi p⟩, ?_, fun p hp => hp.1,
    fun hc => hc.2 Below.self, ⟨hP, hPnb⟩, ⟨hMl, hMnb⟩, rfl, by simp [OnSpine.self], rfl⟩
  refine ⟨by rw [h1r]; exact ⟨h.root_live, hrnb⟩, ?_, fun p hp => h.live_pos p hp.1,
    by rw [h1r]; exact h.root_lo, ?_, by rw [h1r, h1n]; exact h.height, ?_, ?_⟩
  · intro p hp
    rw [h1n] at hp
    have hpP : p ≠ P := by
      intro hc; rw [hc] at hp
      exact absurd (live_lt t g _ _ _ h P hP) (not_lt.mpr hp)
    rw [h1o p hpP]; exact h.fresh p hp
  · rw [h1r]; simp only [if_neg hrns]; exact h.root_hi
  · intro p hp
    obtain ⟨hpl, hpb⟩ := hp
    by_cases hpP : p = P
    · rw [hpP]
      refine ⟨_, h1P, ?_⟩
      have habs : ∀ {α : Prop}, pn.page_type_ = IndexPageType.LEAF_PAGE → α := by
        intro α hl; rw [hpi] at hl; cases hl
      refine ⟨hPok.id_eq, hPok.kind, by rw [h1r]; exact hPok.lev_le, fun hl => habs hl,
        fun hl => habs hl, fun hl => habs hl, ?_, ?_, ?_, ?_, ?_, ?_⟩
      · intro _; simp [BPlusTreePage.GetSize]; omega
      · intro _
        have : (l1 ++ (sM, M) :: l2).Sublist (l1 ++ (sM, M) :: (k, S) :: l2) :=
          List.Sublist.append_left (List.Sublist.cons₂ _ (List.sublist_cons_self _ _)) _
        exact List.Nodup.sublist (List.Sublist.map _ this) hnd
      · intro _
        simp only [if_neg hPns]
        apply Tiled_remove g.lo g.hi _ _ _ l1 l2 sM k M S htP
        · intro c hc
          have hcM := (hrest c hc).1
          have hc1 : c ∈ pn.array.map Prod.snd := by
            rw [harr]
            simp only [List.map_append, List.map_cons, List.mem_append, List.mem_cons] at hc ⊢
            tauto
          have hclev := (child_ne t g _ _ _ h P c pn hP hpn hpi hc1).2.1
          have : ¬ OnSpine t M c := fun hs => hcM ((S1 c hs).2.2.1 (by omega))
          simp [this]
        · simp [OnSpine.self]
      · intro _ c hc
        obtain ⟨hc1, hc2⟩ := hsubP c hc
        obtain ⟨hcl, hclev, cn, hcn, hcp⟩ := hPok.children hpi c hc1
        have hcP : c ≠ P := (child_ne t g _ _ _ h P c pn hP hpn hpi hc1).1
        exact ⟨⟨hcl, hkidnb P pn c hP hPnb hpn hpi hc1 hc2⟩, hclev, cn,
          by rw [h1o c hcP]; exact hcn, hcp⟩
      · intro hr hx
        exact hpar P pn hP hPnb hpn hPok hr hx
      · intro hr; rw [h1r] at hr; exact hPok.root_parent hr
    · obtain ⟨n, hn, hok⟩ := h.pages p hpl
      refine ⟨n, by rw [h1o p hpP]; exact hn, ?_⟩
      by_cases hps : OnSpine t M p
      · -- a page on the spine
        obtain ⟨_, _, _, hhip⟩ := S1 p hps
        have hkidok : n.page_type_ = IndexPageType.INTERNAL_PAGE → ∀ c ∈ n.array.map Prod.snd,
            (g.live c ∧ ¬ Below t S c) ∧ g.lev c + 1 = g.lev p ∧
              ∃ cn, t1.pages c = some cn ∧ cn.parent_page_id_ = p := by
          intro hi c hc
          obtain ⟨hcl, hclev, cn, hcn, hcp⟩ := hok.children hi c hc
          have hcS : c ≠ S := by
            intro e; rw [e] at hc
            have := lister_eq t g _ _ _ h p S n sn hpl hn hi hc hsn
            rw [hSpar] at this; exact hpP this.symm
          have hcP : c ≠ P := by
            intro e
            have h1 := (S1 p hps).2.1
            rw [e] at hclev
            omega
          exact ⟨⟨hcl, hkidnb p n c hpl hpb hn hi hc hcS⟩, hclev, cn,
            by rw [h1o c hcP]; exact hcn, hcp⟩
        refine ⟨hok.id_eq, hok.kind, by rw [h1r]; exact hok.lev_le, hok.leaf_lev,
          hok.leaf_sorted, ?_, hok.int_size, hok.int_nodup, ?_, hkidok, ?_, ?_⟩
        · intro hl x hx
          simp only [if_pos hps]
          obtain ⟨h1, h2⟩ := hok.leaf_range hl x hx
          refine ⟨h1, ?_⟩
          rw [hhip, hhiM] at h2
          exact belowHi_widen _ _ _ h2 ⟨k, rfl⟩ hbS
        · intro hi
          simp only [if_pos hps]
          have ht := hok.int_tiled hi
          rw [hhip, hhiM] at ht
          apply Tiled_widen_last g.lo g.hi _ k _ hbS _ _ ht
          · intro c hc
            have hc1 : c ∈ n.array.map Prod.snd := by
              obtain ⟨x, hx, hx2⟩ := List.mem_map.mp hc
              exact List.mem_map.mpr ⟨x, List.mem_of_mem_dropLast hx, hx2⟩
            have : ¬ OnSpine t M c := by
              intro hs
              have hcM : c ≠ M := by
                intro e; rw [e] at hc1
                have := lister_eq t g _ _ _ h p M n mn hpl hn hi hc1 hmn
                rw [hMpar] at this; exact hpP this.symm
              obtain ⟨_, item, hl1, hl2⟩ := OnSpine_lister t g h M hMl c hs hcM p n hpl hn hi hc1
              have := nodup_last n.array item (hok.int_nodup hi) hl1
              rw [hl2] at this
              exact this hc
            simp [this]
          · intro x hx
            have : OnSpine t M x.2 := OnSpine.last p n x hps hn hi hx
            simp [this]
        · intro hr hx
          exact hpar p n hpl hpb hn hok hr hx
        · intro hr; rw [h1r] at hr; exact hok.root_parent hr
      · -- a page off the spine
        have hf := PageOK_frame t t1 g
          ⟨fun p => g.live p ∧ ¬ Below t S p, g.lev, g.lo,
            fun p => if OnSpine t M p then g.hi S else g.hi p⟩ g.hi
          (fun p => if OnSpine t M p then g.hi S else g.hi p) INVALID_PAGE_ID INVALID_PAGE_ID
          p n hok rfl rfl (by simp [hps]) (by rw [h1r])
          (by
            intro hi c hc
            have hcl := (child_ne t g _ _ _ h p c n hpl hn hi hc).2.2
            have hcS : c ≠ S := by
              intro e; rw [e] at hc
              have := lister_eq t g _ _ _ h p S n sn hpl hn hi hc hsn
              rw [hSpar] at this; exact hpP this.symm
            exact hup c hcl (hkidnb p n c hpl hpb hn hi hc hcS)
              (hkidns p n c hpl hpP hps hn hi hc))
          (by
            intro hr hx
            obtain ⟨hql, q, hq, hqi, hqm⟩ := hok.parent_ok hr hx
            have hqb : ¬ Below t S n.parent_page_id_ := by
              intro hc
              exact hpb (Below.child _ p q hc hq hqi hqm)
            have hpS : p ≠ S := fun e => hpb (by rw [e]; exact Below.self)
            exact hdown _ p hql hqb hpS)
          (by rw [h1r]) id
        exact hf
  · intro p n hp hn hi2
    obtain ⟨hpl, hpb⟩ := hp
    rw [h1r, h1m]
    by_cases hpP : p = P
    · rw [hpP, h1P] at hn
      have hne := Option.some.inj hn
      rw [← hne]
      have := h.sizes P pn hP hpn hpi
      refine ⟨this.1, fun hr hx => ?_⟩
      have h3 := this.2 (by rw [← hpP]; exact hr) (by rw [← hpP]; exact hx)
      simp only [BPlusTreePage.GetSize] at h3 ⊢
      rw [harr] at h3
      simp only [List.length_append, List.length_cons] at h3 ⊢
      omega
    · rw [h1o p hpP] at hn
      exact h.sizes p n hpl hn hi2

/-! ## B+ tree: what the steps of `Remove` compute -/

theorem Fetch_set_same (t : BPlusTree) (p : page_id_t) (n : BPlusTreePage) :
    (t.setPage p n).FetchPage p = .ok n := by
  simp [BPlusTree.FetchPage, BPlusTree.setPage, setAt]

theorem Fetch_set_other (t : BPlusTree) (p q : page_id_t) (n : BPlusTreePage) (h : q ≠ p) :
    (t.setPage p n).FetchPage q = t.FetchPage q := by
  simp [BPlusTree.FetchPage, BPlusTree.setPage, setAt, h]

theorem ValueIndex_second (n : BPlusTreePage) (l1 l2 : List (KeyType × Int)) (x y : KeyType × Int)
    (h : n.array = l1 ++ x :: y :: l2) (hnd : (n.array.map Prod.snd).Nodup) :
    BPlusTreeInternalPage.ValueIndex n y.2 = ((l1 ++ [x]).length : Int) := by
  apply ValueIndex_at n y.2 (l1 ++ [x]) l2 y.1 _ hnd
  rw [h]; simp

theorem LeafMoveFirstToEndOf_eq (t : BPlusTree) (P M S : page_id_t) (pn mn sn : BPlusTreePage)
    (hpn : t.pages P = some pn) (hmn : t.pages M = some mn) (hsn : t.pages S = some sn)
    (hMS : M ≠ S) (hPM : P ≠ M) (hPS : P ≠ S) (hpar : sn.parent_page_id_ = P)
    (hid : sn.page_id_ = S) (l1 l2 : List (KeyType × Int)) (sM k : KeyType)
    (harr : pn.array = l1 ++ (sM, M) :: (k, S) :: l2) (hnd : (pn.array.map Prod.snd).Nodup)
    (x y : KeyType × Int) (rest : List (KeyType × Int)) (hsarr : sn.array = x :: y :: rest) :
    t.LeafMoveFirstToEndOf S M = .ok
      (((t.setPage M { mn with array := mn.array ++ [x] }).setPage S
        { sn with array := y :: rest }).setPage P
        { pn with array := l1 ++ (sM, M) :: (y.1, S) :: l2 }) := by
  have hfS : t.FetchPage S = .ok sn := (FetchPage_ok _ _ _).2 hsn
  have hfM : t.FetchPage M = .ok mn := (FetchPage_ok _ _ _).2 hmn
  have hfP : t.FetchPage P = .ok pn := (FetchPage_ok _ _ _).2 hpn
  have hidx := ValueIndex_second pn l1 l2 (sM, M) (k, S) harr hnd
  have hset := Internal_SetKeyAt_at pn (l1 ++ [(sM, M)]) l2 (k, S) y.1 (by rw [harr]; simp)
  unfold BPlusTree.LeafMoveFirstToEndOf
  simp only [bind, Except.bind, hfS, hsarr]
  simp only [hfM, Fetch_set_other _ _ _ _ (Ne.symm hMS), hfS, Fetch_set_same, hpar,
    Fetch_set_other _ _ _ _ hPS, Fetch_set_other _ _ _ _ hPM, hfP, hid, hidx, hset]
  simp

theorem LeafMoveFirstToEndOf_short (t : BPlusTree) (M S : page_id_t) (sn : BPlusTreePage)
    (hsn : t.pages S = some sn) (h : sn.array.length < 2) (t1 : BPlusTree) :
    t.LeafMoveFirstToEndOf S M ≠ .ok t1 := by
  have hfS : t.FetchPage S = .ok sn := (FetchPage_ok _ _ _).2 hsn
  unfold BPlusTree.LeafMoveFirstToEndOf
  simp only [bind, Except.bind, hfS]
  cases hs : sn.array with
  | nil => simp
  | cons x rest =>
    cases rest with
    | nil =>
      simp only
      intro hc
      repeat (first | (split at hc) | cases hc)
    | cons y rest => exfalso; rw [hs] at h; simp only [List.length_cons] at h; omega

theorem LeafMoveLastToFrontOf_eq (t : BPlusTree) (P M S : page_id_t) (pn mn sn : BPlusTreePage)
    (hpn : t.pages P = some pn) (hmn : t.pages M = some mn) (hsn : t.pages S = some sn)
    (hMS : M ≠ S) (hPM : P ≠ M) (hPS : P ≠ S) (hpar : mn.parent_page_id_ = P)
    (hid : sn.page_id_ = S) (l1 l2 : List (KeyType × Int)) (sM k : KeyType)
    (harr : pn.array = l1 ++ (sM, M) :: (k, S) :: l2) (hnd : (pn.array.map Prod.snd).Nodup)
    (item : KeyType × Int) (hlast : mn.array.getLast? = some item) :
    t.LeafMoveLastToFrontOf M S = .ok
      (((t.setPage S { sn with array := item :: sn.array }).setPage M
        { mn with array := mn.array.dropLast }).setPage P
        { pn with array := l1 ++ (sM, M) :: (item.1, S) :: l2 }) := by
  have hfS : t.FetchPage S = .ok sn := (FetchPage_ok _ _ _).2 hsn
  have hfM : t.FetchPage M = .ok mn := (FetchPage_ok _ _ _).2 hmn
  have hfP : t.FetchPage P = .ok pn := (FetchPage_ok _ _ _).2 hpn
  have hidx := ValueIndex_second pn l1 l2 (sM, M) (k, S) harr hnd
  have hset := Internal_SetKeyAt_at pn (l1 ++ [(sM, M)]) l2 (k, S) item.1 (by rw [harr]; simp)
  unfold BPlusTree.LeafMoveLastToFrontOf
  simp only [bind, Except.bind, hfM, hlast]
  simp only [hfS, Fetch_set_other _ _ _ _ hMS, hfM, Fetch_set_same, hpar,
    Fetch_set_other _ _ _ _ hPS, Fetch_set_other _ _ _ _ hPM, hfP,
    Fetch_set_other _ _ _ _ (Ne.symm hMS), hid, hidx, hset]
  simp

theorem LeafMoveLastToFrontOf_short (t : BPlusTree) (M S : page_id_t) (mn : BPlusTreePage)
    (hmn : t.pages M = some mn) (h : mn.array = []) (t1 : BPlusTree) :
    t.LeafMoveLastToFrontOf M S ≠ .ok t1 := by
  have hfM : t.FetchPage M = .ok mn := (FetchPage_ok _ _ _).2 hmn
  unfold BPlusTree.LeafMoveLastToFrontOf
  simp [bind, Except.bind, hfM, h]

theorem InternalMoveFirstToEndOf_eq (t : BPlusTree) (P M S : page_id_t)
    (pn mn sn vn : BPlusTreePage)
    (hpn : t.pages P = some pn) (hmn : t.pages M = some mn) (hsn : t.pages S = some sn)
    (hMS : M ≠ S) (hPM : P ≠ M) (hPS : P ≠ S) (hpar : sn.parent_page_id_ = P)
    (hid : sn.page_id_ = S) (hidm : mn.page_id_ = M)
    (l1 l2 : List (KeyType × Int)) (sM k : KeyType)
    (harr : pn.array = l1 ++ (sM, M) :: (k, S) :: l2) (hnd : (pn.array.map Prod.snd).Nodup)
    (x y : KeyType × Int) (rest : List (KeyType × Int)) (hsarr : sn.array = x :: y :: rest)
    (hvn : t.pages x.2 = some vn) (hvP : x.2 ≠ P) (hvM : x.2 ≠ M) (hvS : x.2 ≠ S) :
    t.InternalMoveFirstToEndOf S M k = .ok
      ((((t.setPage P { pn with array := l1 ++ (sM, M) :: (y.1, S) :: l2 }).setPage x.2
        { vn with parent_page_id_ := M }).setPage M
        { mn with array := mn.array ++ [(k, x.2)] }).setPage S
        { sn with array := y :: rest }) := by
  have hfS : t.FetchPage S = .ok sn := (FetchPage_ok _ _ _).2 hsn
  have hfM : t.FetchPage M = .ok mn := (FetchPage_ok _ _ _).2 hmn
  have hfP : t.FetchPage P = .ok pn := (FetchPage_ok _ _ _).2 hpn
  have hfV : t.FetchPage x.2 = .ok vn := (FetchPage_ok _ _ _).2 hvn
  have hidx := ValueIndex_second pn l1 l2 (sM, M) (k, S) harr hnd
  have hset := Internal_SetKeyAt_at pn (l1 ++ [(sM, M)]) l2 (k, S) y.1 (by rw [harr]; simp)
  have hrem : BPlusTreeInternalPage.Remove sn 0 = .ok { sn with array := y :: rest } := by
    have := Internal_Remove_at sn [] (y :: rest) x (by rw [hsarr]; rfl)
    simpa using this
  unfold BPlusTree.InternalMoveFirstToEndOf
  simp only [bind, Except.bind, hfS, hpar, hfP, hsarr, hid, hidx, hset]
  simp only [Fetch_set_other _ _ _ _ (Ne.symm hPM), hfM, Fetch_set_other _ _ _ _ hvP, hfV,
    Fetch_set_other _ _ _ _ (Ne.symm hvM), hidm, Fetch_set_same,
    Fetch_set_other _ _ _ _ (Ne.symm hMS), Fetch_set_other _ _ _ _ (Ne.symm hvS),
    Fetch_set_other _ _ _ _ (Ne.symm hPS), hfS, hrem]
  simp [hpar, hid, hidm]

theorem InternalMoveFirstToEndOf_short (t : BPlusTree) (M S : page_id_t) (sn : BPlusTreePage)
    (k : KeyType) (hsn : t.pages S = some sn) (h : sn.array.length < 2) (t1 : BPlusTree) :
    t.InternalMoveFirstToEndOf S M k ≠ .ok t1 := by
  have hfS : t.FetchPage S = .ok sn := (FetchPage_ok _ _ _).2 hsn
  unfold BPlusTree.InternalMoveFirstToEndOf
  simp only [bind, Except.bind, hfS]
  intro hc
  cases hp : t.FetchPage sn.parent_page_id_ with
  | error e => simp [hp] at hc
  | ok pp =>
    simp only [hp] at hc
    cases hs : sn.array with
    | nil => simp [hs] at hc
    | cons x rest =>
      cases rest with
      | nil => simp [hs] at hc
      | cons y rest => rw [hs] at h; simp only [List.length_cons] at h; omega

theorem dropLast_snoc (l : List (KeyType × Int)) (x : KeyType × Int)
    (h : l.getLast? = some x) : l = l.dropLast ++ [x] := by
  have hne : l ≠ [] := by intro hc; rw [hc] at h; cases h
  have := List.dropLast_append_getLast hne
  rw [List.getLast?_eq_getLast _ hne] at h
  rw [Option.some.inj h] at this
  exact this.symm

theorem InternalMoveLastToFrontOf_eq (t : BPlusTree) (P M S : page_id_t)
    (pn mn sn vn : BPlusTreePage)
    (hpn : t.pages P = some pn) (hmn : t.pages M = some mn) (hsn : t.pages S = some sn)
    (hMS : M ≠ S) (hPM : P ≠ M) (hPS : P ≠ S) (hpar : mn.parent_page_id_ = P)
    (hid : sn.page_id_ = S)
    (l1 l2 : List (KeyType × Int)) (sM k : KeyType)
    (harr : pn.array = l1 ++ (sM, M) :: (k, S) :: l2) (hnd : (pn.array.map Prod.snd).Nodup)
    (last : KeyType × Int) (hlast : mn.array.getLast? = some last)
    (x : KeyType × Int) (rest : List (KeyType × Int)) (hsarr : sn.array = x :: rest)
    (hvn : t.pages last.2 = some vn) (hvP : last.2 ≠ P) (hvM : last.2 ≠ M) (hvS : last.2 ≠ S) :
    t.InternalMoveLastToFrontOf M S k = .ok
      ((((t.setPage P { pn with array := l1 ++ (sM, M) :: (last.1, S) :: l2 }).setPage last.2
        { vn with parent_page_id_ := S }).setPage S
        { sn with array := (x.1, last.2) :: (k, x.2) :: rest }).setPage M
        { mn with array := mn.array.dropLast }) := by
  have hfS : t.FetchPage S = .ok sn := (FetchPage_ok _ _ _).2 hsn
  have hfM : t.FetchPage M = .ok mn := (FetchPage_ok _ _ _).2 hmn
  have hfP : t.FetchPage P = .ok pn := (FetchPage_ok _ _ _).2 hpn
  have hfV : t.FetchPage last.2 = .ok vn := (FetchPage_ok _ _ _).2 hvn
  have hidx := ValueIndex_second pn l1 l2 (sM, M) (k, S) harr hnd
  have hset := Internal_SetKeyAt_at pn (l1 ++ [(sM, M)]) l2 (k, S) last.1 (by rw [harr]; simp)
  have hsn1 := dropLast_snoc mn.array last hlast
  have hrem : BPlusTreeInternalPage.Remove mn ((mn.GetSize : Int) - 1) =
      .ok { mn with array := mn.array.dropLast } := by
    have := Internal_Remove_at mn mn.array.dropLast [] last hsn1
    have hl : ((mn.GetSize : Int) - 1) = (mn.array.dropLast.length : Int) := by
      unfold BPlusTreePage.GetSize
      have : mn.array.length = mn.array.dropLast.length + 1 := by
        conv_lhs => rw [hsn1]
        simp
      omega
    rw [hl, this]
    simp
  unfold BPlusTree.InternalMoveLastToFrontOf
  simp only [bind, Except.bind, hfM, hpar, hfP, hfS, hlast, hid, hidx, hset]
  simp only [Fetch_set_other _ _ _ _ hvP, hfV, Fetch_set_other _ _ _ _ (Ne.symm hvS),
    Fetch_set_other _ _ _ _ (Ne.symm hPS), hfS, hsarr, Fetch_set_other _ _ _ _ hMS,
    Fetch_set_other _ _ _ _ (Ne.symm hvM), Fetch_set_other _ _ _ _ (Ne.symm hPM), hfM, hrem]
  simp [hpar, hid]

theorem InternalMoveLastToFrontOf_short (t : BPlusTree) (M S : page_id_t) (mn : BPlusTreePage)
    (k : KeyType) (hmn : t.pages M = some mn) (h : mn.array = []) (t1 : BPlusTree) :
    t.InternalMoveLastToFrontOf M S k ≠ .ok t1 := by
  have hfM : t.FetchPage M = .ok mn := (FetchPage_ok _ _ _).2 hmn
  unfold BPlusTree.InternalMoveLastToFrontOf
  simp only [bind, Except.bind, hfM]
  intro hc
  cases hp : t.FetchPage mn.parent_page_id_ with
  | error e => simp [hp] at hc
  | ok pp =>
    simp only [hp] at hc
    cases hs : t.FetchPage S with
    | error e => simp [hs] at hc
    | ok ss => simp [hs, h] at hc

/-- What `InternalMoveAllTo` leaves behind when it returns. -/
theorem InternalMoveAllTo_spec (t t5 : BPlusTree) (P M S : page_id_t)
    (pn mn sn : BPlusTreePage)
    (hpn : t.pages P = some pn) (hmn : t.pages M = some mn) (hsn : t.pages S = some sn)
    (hMS : M ≠ S) (hPM : P ≠ M) (hPS : P ≠ S) (hpar : sn.parent_page_id_ = P)
    (hid : sn.page_id_ = S) (hidm : mn.page_id_ = M)
    (l1 l2 : List (KeyType × Int)) (sM k : KeyType)
    (harr : pn.array = l1 ++ (sM, M) :: (k, S) :: l2) (hnd : (pn.array.map Prod.snd).Nodup)
    (x : KeyType × Int) (rest : List (KeyType × Int)) (hsarr : sn.array = x :: rest)
    (hch : ∀ c ∈ sn.array.map Prod.snd, (∃ cn, t.pages c = some cn) ∧ c ≠ P ∧ c ≠ M ∧ c ≠ S)
    (h : t.InternalMoveAllTo S M k = .ok t5) :
    t5.pages P = some { pn with array := l1 ++ (sM, M) :: l2 } ∧
    t5.pages M = some { mn with array := mn.array ++ (k, x.2) :: rest } ∧
    t5.pages S = some { sn with array := [] } ∧
    (∀ c ∈ sn.array.map Prod.snd, ∀ cn, t.pages c = some cn →
      t5.pages c = some { cn with parent_page_id_ := M }) ∧
    (∀ p, p ≠ P → p ≠ M → p ≠ S → p ∉ sn.array.map Prod.snd → t5.pages p = t.pages p) ∧
    t5.root_page_id_ = t.root_page_id_ ∧ t5.next_page_id = t.next_page_id ∧
    t5.internal_max_size_ = t.internal_max_size_ := by
  have hfS : t.FetchPage S = .ok sn := (FetchPage_ok _ _ _).2 hsn
  have hfM : t.FetchPage M = .ok mn := (FetchPage_ok _ _ _).2 hmn
  have hfP : t.FetchPage P = .ok pn := (FetchPage_ok _ _ _).2 hpn
  have hidx := ValueIndex_second pn l1 l2 (sM, M) (k, S) harr hnd
  have hrem := Internal_Remove_at pn (l1 ++ [(sM, M)]) l2 (k, S) (by rw [harr]; simp)
  have hset : BPlusTreeInternalPage.SetKeyAt sn 0 k = .ok { sn with array := (k, x.2) :: rest } := by
    have := Internal_SetKeyAt_at sn [] rest x k (by rw [hsarr]; rfl)
    simpa using this
  have hsame : (((k, x.2) :: rest).map Prod.snd) = sn.array.map Prod.snd := by
    rw [hsarr]; rfl
  obtain ⟨t3, had, h3p, h3n, h3r, h3l, h3m⟩ := adoptAll_spec M ((k, x.2) :: rest)
    ((t.setPage P { pn with array := (l1 ++ [(sM, M)]) ++ l2 }).setPage S
      { sn with array := (k, x.2) :: rest }) (by
      intro c hc
      rw [hsame] at hc
      obtain ⟨⟨cn, hcn⟩, hcP, hcM, hcS⟩ := hch c hc
      exact ⟨cn, by rw [setPage_other _ _ _ _ hcS, setPage_other _ _ _ _ hcP, hcn]⟩)
  rw [hsame] at h3p
  have hMn : M ∉ sn.array.map Prod.snd := fun hc => (hch M hc).2.2.1 rfl
  have hSn : S ∉ sn.array.map Prod.snd := fun hc => (hch S hc).2.2.2 rfl
  have hPn : P ∉ sn.array.map Prod.snd := fun hc => (hch P hc).2.1 rfl
  have h3M : t3.FetchPage M = .ok mn := by
    rw [FetchPage_ok, h3p, if_neg hMn, setPage_other _ _ _ _ hMS,
      setPage_other _ _ _ _ (Ne.symm hPM), hmn]
  have h3S : t3.FetchPage S = .ok { sn with array := (k, x.2) :: rest } := by
    rw [FetchPage_ok, h3p, if_neg hSn, setPage_same]
  unfold BPlusTree.InternalMoveAllTo at h
  simp only [bind, Except.bind, hfM, hfS, hpar, hfP, hid, hidx, hrem] at h
  simp only [Fetch_set_other _ _ _ _ (Ne.symm hPS), hfS, hset,
    Fetch_set_other _ _ _ _ hMS, Fetch_set_other _ _ _ _ (Ne.symm hPM), hfM, hidm, had,
    h3M, Fetch_set_other _ _ _ _ (Ne.symm hMS), h3S, Fetch_set_same] at h
  split at h
  · cases h
    have hP5 : ∀ q (a b : BPlusTreePage), ((t3.setPage M a).setPage S b).pages q =
        if q = S then some b else if q = M then some a else t3.pages q := by
      intro q a b
      by_cases hqS : q = S
      · subst hqS; rw [if_pos rfl, setPage_same]
      · rw [if_neg hqS, setPage_other _ _ _ _ hqS]
        by_cases hqM : q = M
        · subst hqM; rw [if_pos rfl, setPage_same]
        · rw [if_neg hqM, setPage_other _ _ _ _ hqM]
    refine ⟨?_, ?_, ?_, ?_, ?_, h3r, h3n, h3m⟩
    · rw [hP5, if_neg hPS, if_neg hPM, h3p, if_neg hPn, setPage_other _ _ _ _ hPS, setPage_same]
      simp
    · rw [hP5, if_neg hMS, if_pos rfl, hidm]
    · rw [hP5, if_pos rfl]
    · intro c hc cn hcn
      obtain ⟨_, hcP, hcM, hcS⟩ := hch c hc
      rw [hP5, if_neg hcS, if_neg hcM, h3p, if_pos hc, setPage_other _ _ _ _ hcS,
        setPage_other _ _ _ _ hcP, hcn]
      rfl
    · intro p hpP hpM hpS hpc
      rw [hP5, if_neg hpS, if_neg hpM, h3p, if_neg hpc, setPage_other _ _ _ _ hpS,
        setPage_other _ _ _ _ hpP]
  · cases h

theorem Tiled_slot (lo hi : page_id_t → Option KeyType) (b : Option KeyType) :
    ∀ (arr : List (KeyType × Int)) (a : Option KeyType), Tiled lo hi a arr b →
      ∀ x ∈ arr, boundLe (lo x.2) (hi x.2)
  | [], _, _ => by intro x hx; cases hx
  | [item], a, h => by
    intro x hx
    simp at hx; subst hx
    rw [h.1, h.2.1]; exact h.2.2
  | item :: next :: rest, a, h => by
    intro x hx
    rcases List.mem_cons.mp hx with hx | hx
    · subst hx
      rw [h.1, h.2.1]
      exact (aboveLo_iff _ _).mpr h.2.2.1
    · exact Tiled_slot lo hi b (next :: rest) _ h.2.2.2 x hx

/-- Two neighbouring children of a live internal page. -/
theorem family (t : BPlusTree) (g : Ghost) (h : Ord t g) (P M S : page_id_t)
    (pn : BPlusTreePage) (hP : g.live P) (hpn : t.pages P = some pn)
    (hpi : pn.page_type_ = IndexPageType.INTERNAL_PAGE)
    (l1 l2 : List (KeyType × Int)) (sM k : KeyType)
    (harr : pn.array = l1 ++ (sM, M) :: (k, S) :: l2) :
    (pn.array.map Prod.snd).Nodup ∧ M ≠ S ∧ M ≠ P ∧ S ≠ P ∧ g.live M ∧ g.live S ∧
    M ≠ t.root_page_id_ ∧ S ≠ t.root_page_id_ ∧ g.lev M + 1 = g.lev P ∧ g.lev S + 1 = g.lev P ∧
    (∃ mn, t.pages M = some mn ∧ PageOK t g g.hi INVALID_PAGE_ID M mn ∧
      mn.parent_page_id_ = P) ∧
    (∃ sn, t.pages S = some sn ∧ PageOK t g g.hi INVALID_PAGE_ID S sn ∧
      sn.parent_page_id_ = P) ∧
    g.hi M = some k ∧ g.lo S = some k ∧ boundLe (g.lo M) (some k) ∧
    boundLe (some k) (g.hi S) := by
  obtain ⟨pn2, hpn2, hPok⟩ := h.pages P hP
  rw [hpn] at hpn2; cases hpn2
  have hnd := hPok.int_nodup hpi
  have hnd2 := hnd
  rw [harr] at hnd2
  obtain ⟨hMS, _⟩ := nodup_pair l1 l2 (sM, M) (k, S) hnd2
  simp only at hMS
  have hMm : M ∈ pn.array.map Prod.snd := by rw [harr]; simp
  have hSm : S ∈ pn.array.map Prod.snd := by rw [harr]; simp
  obtain ⟨hMP, hMlev, hMl⟩ := child_ne t g _ _ _ h P M pn hP hpn hpi hMm
  obtain ⟨hSP, hSlev, hSl⟩ := child_ne t g _ _ _ h P S pn hP hpn hpi hSm
  obtain ⟨mn, hmn, hMok⟩ := h.pages M hMl
  obtain ⟨sn, hsn, hSok⟩ := h.pages S hSl
  have hMpar := lister_eq t g _ _ _ h P M pn mn hP hpn hpi hMm hmn
  have hSpar := lister_eq t g _ _ _ h P S pn sn hP hpn hpi hSm hsn
  have hrootM : M ≠ t.root_page_id_ := by
    intro hc; have := hPok.lev_le; rw [← hc] at this; omega
  have hrootS : S ≠ t.root_page_id_ := by
    intro hc; have := hPok.lev_le; rw [← hc] at this; omega
  have htl := hPok.int_tiled hpi
  rw [harr] at htl
  obtain ⟨t1, t2, t3⟩ := Tiled_pair g.lo g.hi _ _ l1 l2 (sM, M) (k, S) htl
  simp only at t1 t2 t3
  have hsl := Tiled_slot g.lo g.hi _ _ _ htl (sM, M) (by simp)
  simp only at hsl
  rw [t1] at hsl
  exact ⟨hnd, hMS, hMP, hSP, hMl, hSl, hrootM, hrootS, hMlev, hSlev,
    ⟨mn, hmn, hMok, hMpar⟩, ⟨sn, hsn, hSok, hSpar⟩, t1, t2, hsl, t3⟩

theorem Crabing_delete (t : BPlusTree) (p : page_id_t) (txn : Transaction) (pg : BPlusTreePage)
    (hp : t.pages p = some pg) :
    t.CrabingProtocalFetchPage p Operate_Type.OP_DELETE (-1) (some txn) =
      .ok (t, some { txn with page_set := txn.page_set ++ [p] }, pg) := by
  have hf : t.FetchPage p = .ok pg := (FetchPage_ok _ _ _).2 hp
  unfold BPlusTree.CrabingProtocalFetchPage
  simp only [bind, Except.bind, hf]
  have : ¬ ((-1 : page_id_t) > 0 ∧
      ((!decide (Operate_Type.OP_DELETE ≠ Operate_Type.OP_READ)) = true ∨
        pg.IsSafe Operate_Type.OP_DELETE = true)) := by
    intro hc; exact absurd hc.1 (by decide)
  rw [if_neg this]

theorem FindSibling_spec (t : BPlusTree) (txn : Transaction) (node : page_id_t)
    (nn pn : BPlusTreePage) (hnn : t.pages node = some nn) (hid : nn.page_id_ = node)
    (hpn : t.pages nn.parent_page_id_ = some pn) (hmem : node ∈ pn.array.map Prod.snd)
    (hnd : (pn.array.map Prod.snd).Nodup)
    (hch : ∀ c ∈ pn.array.map Prod.snd, ∃ cn, t.pages c = some cn)
    (r : BPlusTree × Transaction × page_id_t × Bool) (h : t.FindSibling txn node = .ok r) :
    ∃ l1 l2 sM k M S, pn.array = l1 ++ (sM, M) :: (k, S) :: l2 ∧
      ((M = node ∧ r = (t, { txn with page_set := txn.page_set ++ [S] }, S, true)) ∨
       (S = node ∧ r = (t, { txn with page_set := txn.page_set ++ [M] }, M, false))) := by
  have hfN : t.FetchPage node = .ok nn := (FetchPage_ok _ _ _).2 hnn
  have hfP : t.FetchPage nn.parent_page_id_ = .ok pn := (FetchPage_ok _ _ _).2 hpn
  obtain ⟨x, hx, hx2⟩ := List.mem_map.mp hmem
  obtain ⟨a, b, hab⟩ := List.append_of_mem hx
  have hidx := ValueIndex_at pn node a b x.1 (by rw [hab, ← hx2]) hnd
  unfold BPlusTree.FindSibling at h
  simp only [bind, Except.bind, hfN, hfP, hid, hidx] at h
  rcases List.eq_nil_or_concat a with ha | ⟨a1, z, ha⟩
  · subst ha
    cases b with
    | nil =>
      have hv : BPlusTreeInternalPage.ValueAt pn 1 = .error .assertFail := by
        unfold BPlusTreeInternalPage.ValueAt
        rw [hab]; simp
      simp [hv] at h
    | cons y b1 =>
      have hv : BPlusTreeInternalPage.ValueAt pn 1 = .ok y.2 := by
        have := Internal_ValueAt_at pn [x] b1 y (by rw [hab]; rfl)
        simpa using this
      obtain ⟨cn, hcn⟩ := hch y.2 (by rw [hab]; simp)
      simp only [List.length_nil, Nat.cast_zero, if_true, zero_add, hv,
        Crabing_delete t y.2 txn cn hcn] at h
      refine ⟨[], b1, x.1, y.1, node, y.2, by rw [hab, ← hx2], Or.inl ⟨rfl, ?_⟩⟩
      rw [← Except.ok.inj h]
      simp
  · rw [List.concat_eq_append] at ha
    subst ha
    have hne : ((a1 ++ [z]).length : Int) ≠ 0 := by simp; omega
    have hv : BPlusTreeInternalPage.ValueAt pn (((a1 ++ [z]).length : Int) - 1) = .ok z.2 := by
      have := Internal_ValueAt_at pn a1 (x :: b) z (by rw [hab]; simp)
      have hl : (((a1 ++ [z]).length : Int) - 1) = (a1.length : Int) := by
        rw [List.length_append]; simp only [List.length_singleton]; push_cast; ring
      rw [hl]; exact this
    obtain ⟨cn, hcn⟩ := hch z.2 (by rw [hab]; simp)
    simp only [if_neg hne, hv, Crabing_delete t z.2 txn cn hcn] at h
    refine ⟨a1, b, z.1, x.1, z.2, node, by rw [hab, ← hx2]; simp, Or.inr ⟨rfl, ?_⟩⟩
    have hd : decide (((a1 ++ [z]).length : Int) = 0) = false := decide_eq_false hne
    rw [hd] at h
    rw [← Except.ok.inj h]

/-- A leaf takes the first pair of the leaf that follows it. -/
theorem LeafShiftNext_ord (t t2 : BPlusTree) (g : Ghost) (h : Ord t g) (P M S : page_id_t)
    (pn mn sn : BPlusTreePage) (hP : g.live P) (hpn : t.pages P = some pn)
    (hpi : pn.page_type_ = IndexPageType.INTERNAL_PAGE)
    (l1 l2 : List (KeyType × Int)) (sM k : KeyType)
    (harr : pn.array = l1 ++ (sM, M) :: (k, S) :: l2)
    (hmn : t.pages M = some mn) (hsn : t.pages S = some sn)
    (hml : mn.page_type_ = IndexPageType.LEAF_PAGE)
    (hsl : sn.page_type_ = IndexPageType.LEAF_PAGE)
    (hres : t.LeafMoveFirstToEndOf S M = .ok t2) :
    ∃ g2, Ord t2 g2 ∧ ∀ p, g2.live p ↔ g.live p := by
  obtain ⟨hnd, hMS, hMP, hSP, hMl, hSl, hMr, hSr, hMlev, hSlev, ⟨mn2, hmn2, hMok, hMpar⟩,
    ⟨sn2, hsn2, hSok, hSpar⟩, hhiM, hloS, hbM, hbS⟩ :=
    family t g h P M S pn hP hpn hpi l1 l2 sM k harr
  rw [hmn] at hmn2; cases hmn2
  rw [hsn] at hsn2; cases hsn2
  have hMr2 := hMok.leaf_range hml
  have hSr2 := hSok.leaf_range hsl
  rw [hhiM] at hMr2
  rw [hloS] at hSr2
  have hMs := hMok.leaf_sorted hml
  have hSs := hSok.leaf_sorted hsl
  have hloM : aboveLo (g.lo M) k := (aboveLo_iff _ _).mp hbM
  cases hs : sn.array with
  | nil => exact absurd hres (LeafMoveFirstToEndOf_short t M S sn hsn (by rw [hs]; simp) t2)
  | cons x r1 =>
    cases r1 with
    | nil => exact absurd hres (LeafMoveFirstToEndOf_short t M S sn hsn (by rw [hs]; simp) t2)
    | cons y rest =>
      rw [LeafMoveFirstToEndOf_eq t P M S pn mn sn hpn hmn hsn hMS (Ne.symm hMP) (Ne.symm hSP)
        hSpar hSok.id_eq l1 l2 sM k harr hnd x y rest hs] at hres
      have hres := Except.ok.inj hres
      rw [hs] at hSr2 hSs
      have hxy : x.1 < y.1 := (List.pairwise_cons.mp hSs).1 y (by simp)
      have hkx : k ≤ x.1 := (aboveLo_some _ _).mp (hSr2 x (by simp)).1
      have hky : k ≤ y.1 := (aboveLo_some _ _).mp (hSr2 y (by simp)).1
      refine ⟨_, Ord_leaf_shift t t2 g h P M S pn mn sn hP hpn hpi l1 l2 sM k y.1 harr hmn hsn
        hml hsl (mn.array ++ [x]) (y :: rest) ?_ ?_ ?_ ?_ ?_ ?_ ?_ ?_ ?_ ?_ ?_ ?_ ?_,
        fun p => Iff.rfl⟩
      · rw [List.pairwise_append]
        refine ⟨hMs, by simp, ?_⟩
        intro a ha b hb
        simp at hb; subst hb
        exact lt_of_lt_of_le ((belowHi_some _ _).mp (hMr2 a ha).2) hkx
      · exact (List.pairwise_cons.mp hSs).2
      · intro e he
        rcases List.mem_append.mp he with he | he
        · exact ⟨(hMr2 e he).1, lt_of_lt_of_le ((belowHi_some _ _).mp (hMr2 e he).2) hky⟩
        · simp at he; subst he
          exact ⟨aboveLo_trans _ _ _ hloM hkx, hxy⟩
      · intro e he
        refine ⟨?_, (hSr2 e (by simp [List.mem_cons] at he ⊢; tauto)).2⟩
        rcases List.mem_cons.mp he with he | he
        · rw [he]
        · exact le_of_lt ((List.pairwise_cons.mp (List.pairwise_cons.mp hSs).2).1 e he)
      · exact aboveLo_trans _ _ _ hloM hky
      · intro a b ha hb
        cases ha
        exact le_of_lt ((hSr2 y (by simp)).2 b hb)
      · rw [← hres, setPage_same]
      · rw [← hres, setPage_other _ _ _ _ hMP, setPage_other _ _ _ _ hMS, setPage_same]
      · rw [← hres, setPage_other _ _ _ _ hSP, setPage_same]
      · intro p hpP hpM hpS
        rw [← hres, setPage_other _ _ _ _ hpP, setPage_other _ _ _ _ hpS,
          setPage_other _ _ _ _ hpM]
      · rw [← hres]; rfl
      · rw [← hres]; rfl
      · rw [← hres]; rfl

/-- A leaf takes the last pair of the leaf before it. -/
theorem LeafShiftPrev_ord (t t2 : BPlusTree) (g : Ghost) (h : Ord t g) (P M S : page_id_t)
    (pn mn sn : BPlusTreePage) (hP : g.live P) (hpn : t.pages P = some pn)
    (hpi : pn.page_type_ = IndexPageType.INTERNAL_PAGE)
    (l1 l2 : List (KeyType × Int)) (sM k : KeyType)
    (harr : pn.array = l1 ++ (sM, M) :: (k, S) :: l2)
    (hmn : t.pages M = some mn) (hsn : t.pages S = some sn)
    (hml : mn.page_type_ = IndexPageType.LEAF_PAGE)
    (hsl : sn.page_type_ = IndexPageType.LEAF_PAGE)
    (hres : t.LeafMoveLastToFrontOf M S = .ok t2) :
    ∃ g2, Ord t2 g2 ∧ ∀ p, g2.live p ↔ g.live p := by
  obtain ⟨hnd, hMS, hMP, hSP, hMl, hSl, hMr, hSr, hMlev, hSlev, ⟨mn2, hmn2, hMok, hMpar⟩,
    ⟨sn2, hsn2, hSok, hSpar⟩, hhiM, hloS, hbM, hbS⟩ :=
    family t g h P M S pn hP hpn hpi l1 l2 sM k harr
  rw [hmn] at hmn2; cases hmn2
  rw [hsn] at hsn2; cases hsn2
  have hMr2 := hMok.leaf_range hml
  have hSr2 := hSok.leaf_range hsl
  rw [hhiM] at hMr2
  rw [hloS] at hSr2
  have hMs := hMok.leaf_sorted hml
  have hSs := hSok.leaf_sorted hsl
  have hloM : aboveLo (g.lo M) k := (aboveLo_iff _ _).mp hbM
  cases hl : mn.array.getLast? with
  | none =>
    exact absurd hres (LeafMoveLastToFrontOf_short t M S mn hmn
      (List.getLast?_eq_none_iff.mp hl) t2)
  | some item =>
    rw [LeafMoveLastToFrontOf_eq t P M S pn mn sn hpn hmn hsn hMS (Ne.symm hMP) (Ne.symm hSP)
      hMpar hSok.id_eq l1 l2 sM k harr hnd item hl] at hres
    have hres := Except.ok.inj hres
    have hsplit := dropLast_snoc mn.array item hl
    rw [hsplit] at hMr2 hMs
    rw [List.pairwise_append] at hMs
    have hik : item.1 < k := (belowHi_some _ _).mp (hMr2 item (by simp)).2
    refine ⟨_, Ord_leaf_shift t t2 g h P M S pn mn sn hP hpn hpi l1 l2 sM k item.1 harr hmn hsn
      hml hsl mn.array.dropLast (item :: sn.array) ?_ ?_ ?_ ?_ ?_ ?_ ?_ ?_ ?_ ?_ ?_ ?_ ?_,
      fun p => Iff.rfl⟩
    · exact hMs.1
    · rw [List.pairwise_cons]
      refine ⟨?_, hSs⟩
      intro e he
      exact lt_of_lt_of_le hik ((aboveLo_some _ _).mp (hSr2 e he).1)
    · intro e he
      exact ⟨(hMr2 e (by simp [he])).1, hMs.2.2 e he item (by simp)⟩
    · intro e he
      rcases List.mem_cons.mp he with he | he
      · rw [he]
        refine ⟨le_refl _, ?_⟩
        intro z hz
        exact lt_of_lt_of_le hik (hbS k z rfl hz)
      · exact ⟨le_of_lt (lt_of_lt_of_le hik ((aboveLo_some _ _).mp (hSr2 e he).1)),
          (hSr2 e he).2⟩
    · exact (hMr2 item (by simp)).1
    · intro a b ha hb
      cases ha
      exact le_of_lt (lt_of_lt_of_le hik (hbS k b rfl hb))
    · rw [← hres, setPage_same]
    · rw [← hres, setPage_other _ _ _ _ hMP, setPage_same]
    · rw [← hres, setPage_other _ _ _ _ hSP, setPage_other _ _ _ _ (Ne.symm hMS), setPage_same]
    · intro p hpP hpM hpS
      rw [← hres, setPage_other _ _ _ _ hpP, setPage_other _ _ _ _ hpM,
        setPage_other _ _ _ _ hpS]
    · rw [← hres]; rfl
    · rw [← hres]; rfl
    · rw [← hres]; rfl

/-- A child of one of two neighbouring internal pages is neither of them nor their
parent, and the other page does not list it. -/
theorem grandchild (t : BPlusTree) (g : Ghost) (h : Ord t g) (P A B c : page_id_t)
    (an bn : BPlusTreePage) (hA : g.live A) (hB : g.live B) (hAB : A ≠ B)
    (han : t.pages A = some an) (hbn : t.pages B = some bn)
    (hai : an.page_type_ = IndexPageType.INTERNAL_PAGE)
    (hbi : bn.page_type_ = IndexPageType.INTERNAL_PAGE)
    (hlA : g.lev A + 1 = g.lev P) (hlB : g.lev B + 1 = g.lev P)
    (hc : c ∈ an.array.map Prod.snd) :
    c ≠ A ∧ c ≠ B ∧ c ≠ P ∧ c ∉ bn.array.map Prod.snd ∧ g.live c ∧
      ∃ cn, t.pages c = some cn ∧ cn.parent_page_id_ = A := by
  obtain ⟨hcA, hclev, hcl⟩ := child_ne t g _ _ _ h A c an hA han hai hc
  obtain ⟨cn, hcn, _⟩ := h.pages c hcl
  have hpar := lister_eq t g _ _ _ h A c an cn hA han hai hc hcn
  refine ⟨hcA, ?_, ?_, ?_, hcl, cn, hcn, hpar⟩
  · intro hcB; rw [hcB] at hclev; omega
  · intro hcP; rw [hcP] at hclev; omega
  · intro hcb
    have := lister_eq t g _ _ _ h B c bn cn hB hbn hbi hcb hcn
    rw [hpar] at this; exact hAB this

/-- An internal page takes the first child of the internal page that follows it. -/
theorem IntShiftNext_ord (t t2 : BPlusTree) (g : Ghost) (h : Ord t g) (P M S : page_id_t)
    (pn mn sn : BPlusTreePage) (hP : g.live P) (hpn : t.pages P = some pn)
    (hpi : pn.page_type_ = IndexPageType.INTERNAL_PAGE)
    (l1 l2 : List (KeyType × Int)) (sM k : KeyType)
    (harr : pn.array = l1 ++ (sM, M) :: (k, S) :: l2)
    (hmn : t.pages M = some mn) (hsn : t.pages S = some sn)
    (hmi : mn.page_type_ = IndexPageType.INTERNAL_PAGE)
    (hsi : sn.page_type_ = IndexPageType.INTERNAL_PAGE)
    (hsz : mn.GetSize + 1 < mn.max_size_)
    (hres : t.InternalMoveFirstToEndOf S M k = .ok t2) :
    ∃ g2, Ord t2 g2 ∧ ∀ p, g2.live p ↔ g.live p := by
  obtain ⟨hnd, hMS, hMP, hSP, hMl, hSl, hMr, hSr, hMlev, hSlev, ⟨mn2, hmn2, hMok, hMpar⟩,
    ⟨sn2, hsn2, hSok, hSpar⟩, hhiM, hloS, hbM, hbS⟩ :=
    family t g h P M S pn hP hpn hpi l1 l2 sM k harr
  rw [hmn] at hmn2; cases hmn2
  rw [hsn] at hsn2; cases hsn2
  have hMt := hMok.int_tiled hmi
  have hSt := hSok.int_tiled hsi
  rw [hhiM] at hMt
  rw [hloS] at hSt
  have hMnd := hMok.int_nodup hmi
  have hSnd := hSok.int_nodup hsi
  have hMz := hMok.int_size hmi
  have hSz := (h.sizes S sn hSl hsn hsi).2 hSr (live_ne_invalid t g _ _ _ h S hSl)
  unfold BPlusTreePage.GetSize at hsz hMz hSz
  cases hs : sn.array with
  | nil =>
    exact absurd hres (InternalMoveFirstToEndOf_short t M S sn k hsn (by rw [hs]; simp) t2)
  | cons x r1 =>
    cases r1 with
    | nil =>
      exact absurd hres (InternalMoveFirstToEndOf_short t M S sn k hsn (by rw [hs]; simp) t2)
    | cons y rest =>
      obtain ⟨hvS, hvM, hvP, hvn, hvl, vn, hvn2, hvpar⟩ := grandchild t g h P S M x.2 sn mn hSl hMl
        (Ne.symm hMS) hsn hmn hsi hmi hSlev hMlev (by rw [hs]; simp)
      rw [InternalMoveFirstToEndOf_eq t P M S pn mn sn vn hpn hmn hsn hMS (Ne.symm hMP)
        (Ne.symm hSP) hSpar hSok.id_eq hMok.id_eq l1 l2 sM k harr hnd x y rest hs hvn2 hvP hvM
        hvS] at hres
      have hres := Except.ok.inj hres
      rw [hs] at hSt hSnd hSz
      have hmne : mn.array ≠ [] := by
        intro hc; rw [hc] at hMz; simp at hMz
      have hSnd2 : x.2 ∉ (y :: rest).map Prod.snd ∧ ((y :: rest).map Prod.snd).Nodup := by
        simpa using hSnd
      refine ⟨_, Ord_int_shift t t2 g h P M S x.2 M pn mn sn vn hP hpn hpi l1 l2 sM k y.1 harr
        hmn hsn hvn2 hmi hsi (mn.array ++ [(k, x.2)]) (y :: rest)
        ?_ ?_ ?_ ?_ ?_ ?_ ?_ ?_ ?_ ?_ ?_ ?_ ?_ ?_ ?_ ?_ ?_ ?_ ?_, fun p => Iff.rfl⟩
      · intro c
        rw [hs]
        simp only [List.map_append, List.map_cons, List.map_nil, List.mem_append,
          List.mem_cons, List.mem_singleton, List.not_mem_nil, or_false]
        tauto
      · intro c hc hne
        simp only [List.map_append, List.map_cons, List.map_nil, List.mem_append,
          List.mem_singleton] at hc
        rcases hc with hc | hc
        · exact hc
        · exact absurd hc hne
      · intro c hc _
        rw [hs]
        exact List.mem_cons_of_mem _ hc
      · exact Or.inl ⟨rfl, by simp⟩
      · rw [List.map_append, List.nodup_append]
        refine ⟨hMnd, by simp, ?_⟩
        intro a ha hb
        simp at hb
        exact hvn (by rw [← hb]; exact ha)
      · exact hSnd2.2
      · intro c hc hc2
        simp only [List.map_append, List.map_cons, List.map_nil, List.mem_append,
          List.mem_singleton] at hc
        rcases hc with hc | hc
        · have := (grandchild t g h P S M c sn mn hSl hMl (Ne.symm hMS) hsn hmn hsi hmi
            hSlev hMlev (by rw [hs]; exact List.mem_cons_of_mem _ hc2)).2.2.2.1
          exact this hc
        · rw [hc] at hc2; exact hSnd2.1 hc2
      · rw [Tiled_append g.lo g.hi _ (k, x.2) [] mn.array _ hmne]
        exact ⟨hMt, hSt.1, hSt.2.1, (aboveLo_iff _ _).mpr hSt.2.2.1⟩
      · exact hSt.2.2.2
      · constructor
        · simp
        · simp only [List.length_append, List.length_singleton]; exact hsz
      · constructor
        · simp
        · simp only [List.length_cons] at hSz ⊢; omega
      · rw [← hres, setPage_other _ _ _ _ (Ne.symm hSP), setPage_other _ _ _ _ (Ne.symm hMP),
          setPage_other _ _ _ _ (Ne.symm hvP), setPage_same]
      · rw [← hres, setPage_other _ _ _ _ hMS, setPage_same]
      · rw [← hres, setPage_same]
      · rw [← hres, setPage_other _ _ _ _ hvS, setPage_other _ _ _ _ hvM, setPage_same]
      · intro p hpP hpM hpS hpv
        rw [← hres, setPage_other _ _ _ _ hpS, setPage_other _ _ _ _ hpM,
          setPage_other _ _ _ _ hpv, setPage_other _ _ _ _ hpP]
      · rw [← hres]; rfl
      · rw [← hres]; rfl
      · rw [← hres]; rfl

/-- An internal page takes the last child of the internal page before it. -/
theorem IntShiftPrev_ord (t t2 : BPlusTree) (g : Ghost) (h : Ord t g) (P M S : page_id_t)
    (pn mn sn : BPlusTreePage) (hP : g.live P) (hpn : t.pages P = some pn)
    (hpi : pn.page_type_ = IndexPageType.INTERNAL_PAGE)
    (l1 l2 : List (KeyType × Int)) (sM k : KeyType)
    (harr : pn.array = l1 ++ (sM, M) :: (k, S) :: l2)
    (hmn : t.pages M = some mn) (hsn : t.pages S = some sn)
    (hmi : mn.page_type_ = IndexPageType.INTERNAL_PAGE)
    (hsi : sn.page_type_ = IndexPageType.INTERNAL_PAGE)
    (hsz : sn.GetSize + 1 < sn.max_size_)
    (hbig : ¬ sn.GetSize + mn.GetSize < sn.max_size_)
    (hres : t.InternalMoveLastToFrontOf M S k = .ok t2) :
    ∃ g2, Ord t2 g2 ∧ ∀ p, g2.live p ↔ g.live p := by
  obtain ⟨hnd, hMS, hMP, hSP, hMl, hSl, hMr, hSr, hMlev, hSlev, ⟨mn2, hmn2, hMok, hMpar⟩,
    ⟨sn2, hsn2, hSok, hSpar⟩, hhiM, hloS, hbM, hbS⟩ :=
    family t g h P M S pn hP hpn hpi l1 l2 sM k harr
  rw [hmn] at hmn2; cases hmn2
  rw [hsn] at hsn2; cases hsn2
  have hMt := hMok.int_tiled hmi
  have hSt := hSok.int_tiled hsi
  rw [hhiM] at hMt
  rw [hloS] at hSt
  have hMnd := hMok.int_nodup hmi
  have hSnd := hSok.int_nodup hsi
  have hSz := hSok.int_size hsi
  have hMz := (h.sizes M mn hMl hmn hmi).2 hMr (live_ne_invalid t g _ _ _ h M hMl)
  have hmax : mn.max_size_ = sn.max_size_ := by
    rw [(h.sizes M mn hMl hmn hmi).1, (h.sizes S sn hSl hsn hsi).1]
  unfold BPlusTreePage.GetSize at hsz hMz hSz hbig
  cases hl : mn.array.getLast? with
  | none =>
    exact absurd hres (InternalMoveLastToFrontOf_short t M S mn k hmn
      (List.getLast?_eq_none_iff.mp hl) t2)
  | some last =>
    cases hs : sn.array with
    | nil => rw [hs] at hSz; simp at hSz
    | cons x rest =>
      have hsplit := dropLast_snoc mn.array last hl
      obtain ⟨hvM, hvS, hvP, hvn, hvl, vn, hvn2, hvpar⟩ := grandchild t g h P M S last.2 mn sn
        hMl hSl hMS hmn hsn hmi hsi hMlev hSlev (by rw [hsplit]; simp)
      rw [InternalMoveLastToFrontOf_eq t P M S pn mn sn vn hpn hmn hsn hMS (Ne.symm hMP)
        (Ne.symm hSP) hMpar hSok.id_eq l1 l2 sM k harr hnd last hl x rest hs hvn2 hvP hvM
        hvS] at hres
      have hres := Except.ok.inj hres
      obtain ⟨dl, hdl⟩ : ∃ dl, dl = mn.array.dropLast := ⟨_, rfl⟩
      rw [← hdl] at hres hsplit
      rw [hsplit] at hMt hMnd hMz hbig
      rw [hs] at hSt hSnd hsz hbig
      simp only [List.length_append, List.length_singleton, List.length_cons] at hMz hbig hsz
      have hdne : dl ≠ [] := by
        intro hc; rw [hc] at hbig; simp at hbig; omega
      rw [Tiled_append g.lo g.hi _ last [] dl _ hdne] at hMt
      rw [List.map_append, List.nodup_append] at hMnd
      have hmem : ∀ c, c ∈ mn.array.map Prod.snd ↔ (c ∈ dl.map Prod.snd ∨ c = last.2) := by
        intro c; rw [hsplit]; simp
      refine ⟨_, Ord_int_shift t t2 g h P M S last.2 S pn mn sn vn hP hpn hpi l1 l2 sM k last.1
        harr hmn hsn hvn2 hmi hsi dl ((x.1, last.2) :: (k, x.2) :: rest)
        ?_ ?_ ?_ ?_ ?_ ?_ ?_ ?_ ?_ ?_ ?_ ?_ ?_ ?_ ?_ ?_ ?_ ?_ ?_, fun p => Iff.rfl⟩
      · intro c
        rw [hs, hmem]
        simp only [List.map_cons, List.mem_cons]
        tauto
      · intro c hc _
        exact (hmem c).mpr (Or.inl hc)
      · intro c hc hne
        rw [hs]
        simp only [List.map_cons, List.mem_cons] at hc ⊢
        rcases hc with hc | hc | hc
        · exact absurd hc hne
        · exact Or.inl hc
        · exact Or.inr hc
      · exact Or.inr ⟨rfl, by simp⟩
      · exact hMnd.1
      · have : last.2 ∉ (x :: rest).map Prod.snd := by rw [← hs]; exact hvn
        simp only [List.map_cons] at this hSnd ⊢
        exact List.nodup_cons.mpr ⟨this, hSnd⟩
      · intro c hc hc2
        simp only [List.map_cons, List.mem_cons] at hc2
        rcases hc2 with hc2 | hc2
        · exact hMnd.2.2 hc (by rw [hc2]; simp)
        · have := (grandchild t g h P M S c mn sn hMl hSl hMS hmn hsn hmi hsi
            hMlev hSlev ((hmem c).mpr (Or.inl hc))).2.2.2.1
          apply this
          rw [hs]
          simpa using hc2
      · exact hMt.1
      · refine ⟨hMt.2.1, hMt.2.2.1, (aboveLo_iff _ _).mp hMt.2.2.2, ?_⟩
        exact (Tiled_head_key g.lo g.hi _ _ x.1 k x.2 rest).mp hSt
      · constructor
        · cases dl with
          | nil => exact absurd rfl hdne
          | cons a b => simp
        · omega
      · constructor
        · simp
        · simp only [List.length_cons]; omega
      · rw [← hres, setPage_other _ _ _ _ (Ne.symm hMP), setPage_other _ _ _ _ (Ne.symm hSP),
          setPage_other _ _ _ _ (Ne.symm hvP), setPage_same]
      · rw [← hres, setPage_same]
      · rw [← hres, setPage_other _ _ _ _ (Ne.symm hMS), setPage_same]
      · rw [← hres, setPage_other _ _ _ _ hvM, setPage_other _ _ _ _ hvS, setPage_same]
      · intro p hpP hpM hpS hpv
        rw [← hres, setPage_other _ _ _ _ hpM, setPage_other _ _ _ _ hpS,
          setPage_other _ _ _ _ hpv, setPage_other _ _ _ _ hpP]
      · rw [← hres]; rfl
      · rw [← hres]; rfl
      · rw [← hres]; rfl

theorem Settled_of_Ord (t : BPlusTree) (g : Ghost) (txn : Transaction) (h : Ord t g)
    (hd : ∀ d ∈ txn.deleted_page_set, ¬ g.live d) : Settled t txn := by
  obtain ⟨h1, h2, _⟩ := Sound_of_Ord t g h
  exact ⟨h1, h2, Or.inr ⟨g, h, hd⟩⟩

/-- The leaf `S` is merged into the leaf `M` before it and the parent drops `S`. -/
theorem LeafCoalesce_ord (Q : BPlusTree × Transaction × Bool → Prop)
    (rec : BPlusTree → Transaction → page_id_t → Except Err (BPlusTree × Transaction × Bool))
    (t : BPlusTree) (g : Ghost) (h : Ord t g) (P M S : page_id_t)
    (pn mn sn : BPlusTreePage) (hP : g.live P) (hpn : t.pages P = some pn)
    (hpi : pn.page_type_ = IndexPageType.INTERNAL_PAGE)
    (l1 l2 : List (KeyType × Int)) (sM k : KeyType)
    (harr : pn.array = l1 ++ (sM, M) :: (k, S) :: l2)
    (hmn : t.pages M = some mn) (hsn : t.pages S = some sn)
    (hml : mn.page_type_ = IndexPageType.LEAF_PAGE)
    (hsl : sn.page_type_ = IndexPageType.LEAF_PAGE)
    (txn : Transaction) (hdel : ∀ d ∈ txn.deleted_page_set, ¬ g.live d)
    (hrec : ∀ t2 g2 txn2 pn2, Ord t2 g2 → g2.lev = g.lev →
      t2.root_page_id_ = t.root_page_id_ → g2.live P → t2.pages P = some pn2 →
      pn2.page_type_ = IndexPageType.INTERNAL_PAGE →
      (P ≠ t2.root_page_id_ → pn2.GetSize + 1 < pn2.max_size_) →
      (∀ d ∈ txn2.deleted_page_set, ¬ g2.live d) →
      ∀ r, rec t2 txn2 P = .ok r → Q r)
    (hbase : ∀ t2 g2 txn2, Ord t2 g2 → (∀ d ∈ txn2.deleted_page_set, ¬ g2.live d) →
      Q (t2, txn2, false))
    (r : BPlusTree × Transaction × Bool)
    (hres : BPlusTree.Coalesce rec t txn true M S P ((l1 ++ [(sM, M)]).length : Int) = .ok r) :
    Q r := by
  obtain ⟨hnd, hMS, hMP, hSP, hMl, hSl, hMr, hSr, hMlev, hSlev, ⟨mn2, hmn2, hMok, hMpar⟩,
    ⟨sn2, hsn2, hSok, hSpar⟩, hhiM, hloS, hbM, hbS⟩ :=
    family t g h P M S pn hP hpn hpi l1 l2 sM k harr
  rw [hmn] at hmn2; cases hmn2
  rw [hsn] at hsn2; cases hsn2
  have hMr2 := hMok.leaf_range hml
  have hSr2 := hSok.leaf_range hsl
  rw [hhiM] at hMr2
  rw [hloS] at hSr2
  have hMs := hMok.leaf_sorted hml
  have hSs := hSok.leaf_sorted hsl
  have hloM : aboveLo (g.lo M) k := (aboveLo_iff _ _).mp hbM
  have hfS : t.FetchPage S = .ok sn := (FetchPage_ok _ _ _).2 hsn
  have hfM : t.FetchPage M = .ok mn := (FetchPage_ok _ _ _).2 hmn
  have hfP : t.FetchPage P = .ok pn := (FetchPage_ok _ _ _).2 hpn
  have hkey := Internal_KeyAt_at pn (l1 ++ [(sM, M)]) l2 (k, S) (by rw [harr]; simp)
  have hrem := Internal_Remove_at pn (l1 ++ [(sM, M)]) l2 (k, S) (by rw [harr]; simp)
  have happ : l1 ++ [(sM, M)] ++ l2 = l1 ++ (sM, M) :: l2 := by simp
  rw [happ] at hrem
  -- the labels after the parent has dropped `S`
  obtain ⟨g1, hord1, hsub, hnS, hP1, hM1, hlo1, hhi1, hlev1⟩ := Ord_drop_child t
    (t.setPage P { pn with array := l1 ++ (sM, M) :: l2 }) g h P M S pn hP hpn hpi l1 l2 sM k
    harr (setPage_same _ _ _) (fun p hp => setPage_other _ _ _ _ hp) rfl rfl rfl
  have hord2 := Ord_leaf_update _ g1 g1.hi INVALID_PAGE_ID INVALID_PAGE_ID hord1 M mn
    (mn.array ++ sn.array) hM1 (by rw [setPage_other _ _ _ _ hMP]; exact hmn) hml
    (by
      rw [List.pairwise_append]
      refine ⟨hMs, hSs, ?_⟩
      intro a ha b hb
      exact lt_of_lt_of_le ((belowHi_some _ _).mp (hMr2 a ha).2)
        ((aboveLo_some _ _).mp (hSr2 b hb).1))
    (by
      intro e he
      rw [hlo1, hhi1]
      rcases List.mem_append.mp he with he | he
      · exact ⟨(hMr2 e he).1, belowHi_widen _ _ _ (hMr2 e he).2 ⟨k, rfl⟩ hbS⟩
      · exact ⟨aboveLo_trans _ _ _ hloM ((aboveLo_some _ _).mp (hSr2 e he).1), (hSr2 e he).2⟩)
    sn.next_page_id_
  have hltP := live_lt t g _ _ _ h P hP
  have hltM := live_lt t g _ _ _ h M hMl
  have hltS := live_lt t g _ _ _ h S hSl
  have hfin : Ord (((t.setPage M
      { mn with next_page_id_ := sn.next_page_id_, array := mn.array ++ sn.array }).setPage S
      { sn with array := [] }).setPage P { pn with array := l1 ++ (sM, M) :: l2 }) g1 := by
    apply Ord_garbage _ _ g1 hord2
    · intro p hp
      have hpS : p ≠ S := fun hc => hnS (hc ▸ hp)
      by_cases hpP : p = P
      · rw [hpP, setPage_same, setPage_other _ _ _ _ (Ne.symm hMP), setPage_same]
      · rw [setPage_other _ _ _ _ hpP, setPage_other _ _ _ _ hpS]
        by_cases hpM : p = M
        · rw [hpM, setPage_same, setPage_same]
        · rw [setPage_other _ _ _ _ hpM, setPage_other _ _ _ _ hpM, setPage_other _ _ _ _ hpP]
    · intro p hp
      have hp2 : t.next_page_id ≤ p := hp
      rw [setPage_other _ _ _ _ (ne_of_gt (lt_of_lt_of_le hltP hp2)),
        setPage_other _ _ _ _ (ne_of_gt (lt_of_lt_of_le hltS hp2)),
        setPage_other _ _ _ _ (ne_of_gt (lt_of_lt_of_le hltM hp2))]
      exact h.fresh p hp2
    · rfl
    · rfl
    · rfl
  have hdel1 : ∀ d ∈ S :: txn.deleted_page_set, ¬ g1.live d := by
    intro d hd
    rcases List.mem_cons.mp hd with hd | hd
    · rw [hd]; exact hnS
    · exact fun hc => hdel d hd (hsub d hc)
  have hidS := hSok.id_eq
  simp only [hidS] at hfin
  unfold BPlusTree.Coalesce at hres
  simp only [bind, Except.bind, hfP, hkey, if_true, hfS, hfM, pure, Except.pure,
    BPlusTreeLeafPage.MoveAllTo, Fetch_set_same, Fetch_set_other _ _ _ _ hMP.symm,
    Fetch_set_other _ _ _ _ hSP.symm, hrem, hSok.id_eq] at hres
  split at hres
  · exact hrec _ g1 _ _ hfin hlev1 rfl hP1 (setPage_same _ _ _) hpi (by
      intro hne
      have := (h.sizes P pn hP hpn hpi).2 hne (live_ne_invalid t g _ _ _ h P hP)
      unfold BPlusTreePage.GetSize at this ⊢
      rw [harr] at this
      simp only [List.length_append, List.length_cons] at this ⊢
      omega) hdel1 r hres
  · rw [← Except.ok.inj hres]
    exact hbase _ g1 _ hfin hdel1

/-- The internal page `S` is merged into the internal page `M` before it; the parent
loses the entry of `S` and then the entry that follows it. -/
theorem IntCoalesce_ord (Q : BPlusTree × Transaction × Bool → Prop)
    (rec : BPlusTree → Transaction → page_id_t → Except Err (BPlusTree × Transaction × Bool))
    (t : BPlusTree) (g : Ghost) (h : Ord t g) (P M S : page_id_t)
    (pn mn sn : BPlusTreePage) (hP : g.live P) (hpn : t.pages P = some pn)
    (hpi : pn.page_type_ = IndexPageType.INTERNAL_PAGE)
    (l1 l2 : List (KeyType × Int)) (sM k : KeyType)
    (harr : pn.array = l1 ++ (sM, M) :: (k, S) :: l2)
    (hmn : t.pages M = some mn) (hsn : t.pages S = some sn)
    (hmi : mn.page_type_ = IndexPageType.INTERNAL_PAGE)
    (hsi : sn.page_type_ = IndexPageType.INTERNAL_PAGE)
    (hz : mn.GetSize + sn.GetSize < mn.max_size_)
    (txn : Transaction) (hdel : ∀ d ∈ txn.deleted_page_set, ¬ g.live d)
    (hrec : ∀ t2 g2 txn2 pn2, Ord t2 g2 → g2.lev = g.lev →
      t2.root_page_id_ = t.root_page_id_ → g2.live P → t2.pages P = some pn2 →
      pn2.page_type_ = IndexPageType.INTERNAL_PAGE →
      (P ≠ t2.root_page_id_ → pn2.GetSize + 1 < pn2.max_size_) →
      (∀ d ∈ txn2.deleted_page_set, ¬ g2.live d) →
      ∀ r, rec t2 txn2 P = .ok r → Q r)
    (hbase : ∀ t2 g2 txn2, Ord t2 g2 → (∀ d ∈ txn2.deleted_page_set, ¬ g2.live d) →
      Q (t2, txn2, false))
    (r : BPlusTree × Transaction × Bool)
    (hres : BPlusTree.Coalesce rec t txn false M S P ((l1 ++ [(sM, M)]).length : Int) = .ok r) :
    Q r := by
  obtain ⟨hnd, hMS, hMP, hSP, hMl, hSl, hMr, hSr, hMlev, hSlev, ⟨mn2, hmn2, hMok, hMpar⟩,
    ⟨sn2, hsn2, hSok, hSpar⟩, hhiM, hloS, hbM, hbS⟩ :=
    family t g h P M S pn hP hpn hpi l1 l2 sM k harr
  rw [hmn] at hmn2; cases hmn2
  rw [hsn] at hsn2; cases hsn2
  have hSz := hSok.int_size hsi
  have hfP : t.FetchPage P = .ok pn := (FetchPage_ok _ _ _).2 hpn
  have hkey := Internal_KeyAt_at pn (l1 ++ [(sM, M)]) l2 (k, S) (by rw [harr]; simp)
  have hltP := live_lt t g _ _ _ h P hP
  have hltM := live_lt t g _ _ _ h M hMl
  have hltS := live_lt t g _ _ _ h S hSl
  have hidS := hSok.id_eq
  unfold BPlusTreePage.GetSize at hz hSz
  unfold BPlusTree.Coalesce at hres
  simp only [bind, Except.bind, hfP, hkey, Bool.false_eq_true, if_false] at hres
  cases hm : t.InternalMoveAllTo S M k with
  | error e => simp [hm] at hres
  | ok t5 =>
    simp only [hm] at hres
    cases hs : sn.array with
    | nil => rw [hs] at hSz; simp at hSz
    | cons x rest =>
      obtain ⟨s0, c0⟩ := x
      have hgc : ∀ c ∈ sn.array.map Prod.snd, c ≠ S ∧ c ≠ M ∧ c ≠ P ∧
          c ∉ mn.array.map Prod.snd ∧ g.live c ∧
          ∃ cn, t.pages c = some cn ∧ cn.parent_page_id_ = S := fun c hc =>
        grandchild t g h P S M c sn mn hSl hMl (Ne.symm hMS) hsn hmn hsi hmi hSlev hMlev hc
      obtain ⟨h5P, h5M, h5S, h5c, h5o, h5r, h5n, h5m⟩ := InternalMoveAllTo_spec t t5 P M S pn mn
        sn hpn hmn hsn hMS (Ne.symm hMP) (Ne.symm hSP) hSpar hSok.id_eq hMok.id_eq l1 l2 sM k
        harr hnd (s0, c0) rest hs (by
          intro c hc
          obtain ⟨a1, a2, a3, _, _, cn, hcn, _⟩ := hgc c hc
          exact ⟨⟨cn, hcn⟩, a3, a2, a1⟩) hm
      have hord5 := Ord_int_merge t t5 g h P M S pn mn sn hP hpn hpi l1 l2 sM k harr hmn hsn
        hmi hsi s0 c0 rest hs hz h5P h5M h5c h5o (by
          intro p hp
          rw [h5o p (ne_of_gt (lt_of_lt_of_le hltP hp)) (ne_of_gt (lt_of_lt_of_le hltM hp))
            (ne_of_gt (lt_of_lt_of_le hltS hp)) (by
              intro hc
              have := live_lt t g _ _ _ h p (hgc p hc).2.2.2.2.1
              exact absurd this (not_lt.mpr hp))]
          exact h.fresh p hp) h5r h5n h5m
      have hf5S : t5.FetchPage S = .ok { sn with array := [] } := (FetchPage_ok _ _ _).2 h5S
      have hf5P : t5.FetchPage P = .ok { pn with array := l1 ++ (sM, M) :: l2 } :=
        (FetchPage_ok _ _ _).2 h5P
      simp only [hf5S, hf5P] at hres
      cases l2 with
      | nil =>
        exfalso
        unfold BPlusTreeInternalPage.Remove BPlusTreePage.GetSize at hres
        simp at hres
      | cons y l3 =>
        obtain ⟨k2, S2⟩ := y
        have hrem := Internal_Remove_at { pn with array := l1 ++ (sM, M) :: (k2, S2) :: l3 }
          (l1 ++ [(sM, M)]) l3 (k2, S2) (by simp)
        have happ : l1 ++ [(sM, M)] ++ l3 = l1 ++ (sM, M) :: l3 := by simp
        rw [happ] at hrem
        simp only [hrem] at hres
        obtain ⟨g2, hord2, hsub, _, hP2, _, _, _, hlev2⟩ := Ord_drop_child t5
          (t5.setPage P { pn with array := l1 ++ (sM, M) :: l3 })
          ⟨fun p => g.live p ∧ p ≠ S, g.lev, g.lo, fun p => if p = M then g.hi S else g.hi p⟩
          hord5 P M S2 { pn with array := l1 ++ (sM, M) :: (k2, S2) :: l3 }
          ⟨hP, Ne.symm hSP⟩ h5P hpi l1 l3 sM k2 rfl (setPage_same _ _ _)
          (fun p hp => setPage_other _ _ _ _ hp) rfl rfl rfl
        have hdel1 : ∀ d ∈ S :: txn.deleted_page_set, ¬ g2.live d := by
          intro d hd hc
          have hc5 := hsub d hc
          rcases List.mem_cons.mp hd with hd | hd
          · exact hc5.2 hd
          · exact hdel d hd hc5.1
        simp only [hidS] at hres
        split at hres
        · exact hrec _ g2 _ _ hord2 hlev2 h5r hP2 (setPage_same _ _ _) hpi (by
            intro hne
            have hne2 : P ≠ t.root_page_id_ := by
              intro hc; apply hne; show P = t5.root_page_id_; rw [h5r]; exact hc
            have := (h.sizes P pn hP hpn hpi).2 hne2 (live_ne_invalid t g _ _ _ h P hP)
            unfold BPlusTreePage.GetSize at this ⊢
            rw [harr] at this
            simp only [List.length_append, List.length_cons] at this ⊢
            omega) hdel1 r hres
        · rw [← Except.ok.inj hres]
          exact hbase _ g2 _ hord2 hdel1

theorem int_lev_pos (t : BPlusTree) (g : Ghost) (hiC : page_id_t → Option KeyType)
    (ex : page_id_t) (p : page_id_t) (n : BPlusTreePage) (h : PageOK t g hiC ex p n)
    (hi : n.page_type_ = IndexPageType.INTERNAL_PAGE) : 1 ≤ g.lev p := by
  have hz := h.int_size hi
  unfold BPlusTreePage.GetSize at hz
  cases hs : n.array with
  | nil => rw [hs] at hz; simp at hz
  | cons x rest =>
    have := (h.children hi x.2 (by rw [hs]; simp)).2.1
    omega

theorem same_kind (t : BPlusTree) (g : Ghost) (hiC : page_id_t → Option KeyType)
    (ex : page_id_t) (a b : page_id_t) (an bn : BPlusTreePage)
    (ha : PageOK t g hiC ex a an) (hb : PageOK t g hiC ex b bn) (hl : g.lev a = g.lev b) :
    an.page_type_ = bn.page_type_ := by
  rcases ha.kind with h1 | h1 <;> rcases hb.kind with h2 | h2
  · rw [h1, h2]
  · have := ha.leaf_lev h1
    have := int_lev_pos t g hiC ex b bn hb h2
    omega
  · have := hb.leaf_lev h2
    have := int_lev_pos t g hiC ex a an ha h1
    omega
  · rw [h1, h2]

/-- What `AdjustRoot` leaves behind. -/
theorem AdjustRoot_ord (t : BPlusTree) (g : Ghost) (h : Ord t g) (rn : BPlusTreePage)
    (hrn : t.pages t.root_page_id_ = some rn) (txn : Transaction)
    (hdel : ∀ d ∈ txn.deleted_page_set, ¬ g.live d) (t1 : BPlusTree) (b : Bool)
    (hres : t.AdjustRoot t.root_page_id_ = .ok (t1, b)) :
    (∃ n1, t1.pages t.root_page_id_ = some n1 ∧ n1.page_id_ = t.root_page_id_) ∧
    (b = true → Settled t1
      { txn with deleted_page_set := t.root_page_id_ :: txn.deleted_page_set }) ∧
    (b = false → Settled t1 txn) := by
  obtain ⟨rn2, hrn2, hRok⟩ := h.pages _ h.root_live
  rw [hrn] at hrn2; cases hrn2
  have hfR : t.FetchPage t.root_page_id_ = .ok rn := (FetchPage_ok _ _ _).2 hrn
  obtain ⟨hpos, hfresh, _⟩ := Sound_of_Ord t g h
  unfold BPlusTree.AdjustRoot at hres
  simp only [bind, Except.bind, hfR] at hres
  split at hres
  · cases hres
    exact ⟨⟨rn, hrn, hRok.id_eq⟩, fun _ => ⟨hpos, hfresh, Or.inl rfl⟩, fun hc => by cases hc⟩
  · rename_i hnl
    have hi : rn.page_type_ = IndexPageType.INTERNAL_PAGE := by
      rcases hRok.kind with hk | hk
      · exact absurd ((IsLeafPage_iff rn).mpr hk) hnl
      · exact hk
    split at hres
    · rename_i hone
      unfold BPlusTreePage.GetSize at hone
      cases hs : rn.array with
      | nil => rw [hs] at hone; simp at hone
      | cons x rest =>
        cases rest with
        | cons y r2 => rw [hs] at hone; simp at hone
        | nil =>
          obtain ⟨s, c⟩ := x
          have hcm : c ∈ rn.array.map Prod.snd := by rw [hs]; simp
          obtain ⟨hcr, _, hcl⟩ := child_ne t g _ _ _ h _ c rn h.root_live hrn hi hcm
          obtain ⟨cn, hcn, _⟩ := h.pages c hcl
          have hfc : t.FetchPage c = .ok cn := (FetchPage_ok _ _ _).2 hcn
          have hrem : BPlusTreeInternalPage.RemoveAndReturnOnlyChild rn =
              .ok ({ rn with array := [] }, c) := by
            unfold BPlusTreeInternalPage.RemoveAndReturnOnlyChild
            rw [hs]; rfl
          have hfc2 : BPlusTree.FetchPage { (t.setPage t.root_page_id_ { rn with array := [] })
              with root_page_id_ := c } c = .ok cn := by
            rw [FetchPage_ok]
            show (t.setPage t.root_page_id_ { rn with array := [] }).pages c = some cn
            rw [setPage_other _ _ _ _ hcr]; exact hcn
          simp only [hrem, hfc2] at hres
          cases hres
          have hord := Ord_adjust_root t
            (BPlusTree.setPage { (t.setPage t.root_page_id_ { rn with array := [] })
              with root_page_id_ := c } c { cn with parent_page_id_ := INVALID_PAGE_ID })
            g h rn cn hrn hi s c hs hcn rfl (setPage_same _ _ _) (by
              intro p hp1 hp2
              rw [setPage_other _ _ _ _ hp2]
              show (t.setPage t.root_page_id_ { rn with array := [] }).pages p = t.pages p
              rw [setPage_other _ _ _ _ hp1]) rfl rfl
          refine ⟨⟨{ rn with array := [] }, ?_, hRok.id_eq⟩, fun _ => ?_, fun hc => by cases hc⟩
          · rw [setPage_other _ _ _ _ (Ne.symm hcr)]
            show (t.setPage t.root_page_id_ { rn with array := [] }).pages _ = _
            rw [setPage_same]
          · apply Settled_of_Ord _ _ _ hord
            intro d hd hc
            rcases List.mem_cons.mp hd with hd | hd
            · exact hc.2 hd
            · exact hdel d hd hc.1
    · cases hres
      exact ⟨⟨rn, hrn, hRok.id_eq⟩, (fun hc => by cases hc), fun _ => Settled_of_Ord t g txn h hdel⟩

/-- `CoalesceOrRedistribute` on a live page leaves a settled tree when it returns. -/
theorem CoR_ord : ∀ (fuel : Nat) (t : BPlusTree) (g : Ghost) (txn : Transaction) (leaf : Bool)
    (node : page_id_t) (nn : BPlusTreePage), Ord t g → g.live node → t.pages node = some nn →
    (leaf = true → nn.page_type_ = IndexPageType.LEAF_PAGE) →
    (leaf = false → nn.page_type_ = IndexPageType.INTERNAL_PAGE) →
    (nn.page_type_ = IndexPageType.INTERNAL_PAGE → node ≠ t.root_page_id_ →
      nn.GetSize + 1 < nn.max_size_) →
    (∀ d ∈ txn.deleted_page_set, ¬ g.live d) →
    ∀ r, BPlusTree.CoalesceOrRedistribute fuel t txn leaf node = .ok r →
      Settled r.1 r.2.1 := by
  intro fuel
  induction fuel with
  | zero =>
    intro t g txn leaf node nn _ _ _ _ _ _ _ r hres
    unfold BPlusTree.CoalesceOrRedistribute at hres
    cases hres
  | succ fuel ih =>
    intro t g txn leaf node nn h hlive hnn hlf hli hsz hdel r hres
    obtain ⟨nn2, hnn2, hNok⟩ := h.pages node hlive
    rw [hnn] at hnn2; cases hnn2
    have hfN : t.FetchPage node = .ok nn := (FetchPage_ok _ _ _).2 hnn
    have hrec : ∀ P t2 g2 txn2 pn2, Ord t2 g2 → g2.live P → t2.pages P = some pn2 →
        pn2.page_type_ = IndexPageType.INTERNAL_PAGE →
        (P ≠ t2.root_page_id_ → pn2.GetSize + 1 < pn2.max_size_) →
        (∀ d ∈ txn2.deleted_page_set, ¬ g2.live d) →
        ∀ r, (fun t' txn' p => BPlusTree.CoalesceOrRedistribute fuel t' txn' false p)
          t2 txn2 P = .ok r → Settled r.1 r.2.1 := by
      intro P t2 g2 txn2 pn2 h2 hP2 hpn2 hpi2 hsz2 hdel2 r2 hr2
      exact ih t2 g2 txn2 false P pn2 h2 hP2 hpn2 (fun hc => by cases hc) (fun _ => hpi2)
        (fun _ => hsz2) hdel2 r2 hr2
    unfold BPlusTree.CoalesceOrRedistribute at hres
    simp only [bind, Except.bind, hfN] at hres
    by_cases hroot : nn.IsRootPage = true
    · simp only [hroot, if_true] at hres
      have hnr : node = t.root_page_id_ := by
        by_contra hne
        have := (hNok.parent_ok hne (live_ne_invalid t g _ _ _ h node hlive)).1
        rw [(IsRootPage_iff nn).mp hroot] at this
        exact live_ne_invalid t g _ _ _ h _ this rfl
      rw [hnr] at hres hnn
      cases ha : t.AdjustRoot t.root_page_id_ with
      | error e => simp [ha] at hres
      | ok p =>
        obtain ⟨t1, b⟩ := p
        obtain ⟨⟨n1, hn1, hid1⟩, hT, hF⟩ := AdjustRoot_ord t g h nn hnn txn hdel t1 b ha
        have hf1 : t1.FetchPage t.root_page_id_ = .ok n1 := (FetchPage_ok _ _ _).2 hn1
        simp only [ha, hf1, hid1] at hres
        rw [← Except.ok.inj hres]
        cases b with
        | true => exact hT rfl
        | false => exact hF rfl
    · simp only [hroot, Bool.false_eq_true, if_false] at hres
      have hnr : node ≠ t.root_page_id_ := fun hc =>
        hroot ((IsRootPage_iff nn).mpr (hNok.root_parent hc))
      obtain ⟨hP, pn, hpn, hpi, hmem⟩ :=
        hNok.parent_ok hnr (live_ne_invalid t g _ _ _ h node hlive)
      obtain ⟨pn2, hpn2, hPok⟩ := h.pages _ hP
      rw [hpn] at hpn2; cases hpn2
      have hfP : t.FetchPage nn.parent_page_id_ = .ok pn := (FetchPage_ok _ _ _).2 hpn
      cases hfs : t.FindSibling txn node with
      | error e => simp [hfs] at hres
      | ok rs =>
        obtain ⟨l1, l2, sM, k, M, S, harr, hcase⟩ := FindSibling_spec t txn node nn pn hnn
          hNok.id_eq hpn hmem (hPok.int_nodup hpi)
          (fun c hc => (hPok.children hpi c hc).2.2.imp (fun cn hcn => hcn.1)) rs hfs
        obtain ⟨hnd, hMS, hMP, hSP, hMl, hSl, hMr, hSr, hMlev, hSlev, ⟨mn, hmn, hMok, hMpar⟩,
          ⟨sn, hsn, hSok, hSpar⟩, hhiM, hloS, hbM, hbS⟩ :=
          family t g h _ M S pn hP hpn hpi l1 l2 sM k harr
        have hfM : t.FetchPage M = .ok mn := (FetchPage_ok _ _ _).2 hmn
        have hfS : t.FetchPage S = .ok sn := (FetchPage_ok _ _ _).2 hsn
        have hidx := ValueIndex_second pn l1 l2 (sM, M) (k, S) harr hnd
        simp only at hidx
        have hkey := Internal_KeyAt_at pn (l1 ++ [(sM, M)]) l2 (k, S) (by rw [harr]; simp)
        simp only at hkey
        have hkind := same_kind t g _ _ M S mn sn hMok hSok (by omega)
        have hidS := hSok.id_eq
        have hidM := hMok.id_eq
        simp only [hfs] at hres
        rcases hcase with ⟨hMn, hrs⟩ | ⟨hSn, hrs⟩
        · -- the sibling follows the page
          subst hMn
          rw [hnn] at hmn; cases hmn
          subst hrs
          simp only [hfN, hfP, hfS, if_true, hidS, hidx, hkey] at hres
          split at hres
          · rename_i hcond
            cases hco : BPlusTree.Coalesce
                (fun t' txn' p => BPlusTree.CoalesceOrRedistribute fuel t' txn' false p) t
                { txn with page_set := txn.page_set ++ [S] } leaf M S nn.parent_page_id_
                ((l1 ++ [(sM, M)]).length : Int) with
            | error e => simp only [hco] at hres; cases hres
            | ok rc =>
              simp only [hco] at hres
              rw [← Except.ok.inj hres]
              cases leaf with
              | true =>
                exact LeafCoalesce_ord (fun r => Settled r.1 r.2.1) _ t g h _ M S pn nn sn hP hpn hpi l1 l2 sM k harr hnn hsn
                  (hlf rfl) (hkind ▸ hlf rfl) { txn with page_set := txn.page_set ++ [S] } hdel (fun t2 g2 txn2 pn2 h2 _ _ => hrec _ t2 g2 txn2 pn2 h2)
                  (fun t2 g2 txn2 h2 hd => Settled_of_Ord t2 g2 txn2 h2 hd) rc hco
              | false =>
                exact IntCoalesce_ord (fun r => Settled r.1 r.2.1) _ t g h _ M S pn nn sn hP hpn hpi l1 l2 sM k harr hnn hsn
                  (hli rfl) (hkind ▸ hli rfl) hcond { txn with page_set := txn.page_set ++ [S] } hdel (fun t2 g2 txn2 pn2 h2 _ _ => hrec _ t2 g2 txn2 pn2 h2)
                  (fun t2 g2 txn2 h2 hd => Settled_of_Ord t2 g2 txn2 h2 hd) rc hco
          · rename_i hcond
            cases hre : t.Redistribute leaf S M k true with
            | error e => simp [hre] at hres
            | ok t2 =>
              simp only [hre] at hres
              rw [← Except.ok.inj hres]
              unfold BPlusTree.Redistribute at hre
              simp only [if_true] at hre
              cases leaf with
              | true =>
                simp only [if_true] at hre
                obtain ⟨g2, h2, hl2⟩ := LeafShiftNext_ord t t2 g h _ M S pn nn sn hP hpn hpi l1 l2
                  sM k harr hnn hsn (hlf rfl) (hkind ▸ hlf rfl) hre
                exact Settled_of_Ord _ g2 _ h2 (fun d hd hc => hdel d hd ((hl2 d).mp hc))
              | false =>
                simp only [Bool.false_eq_true, if_false] at hre
                obtain ⟨g2, h2, hl2⟩ := IntShiftNext_ord t t2 g h _ M S pn nn sn hP hpn hpi l1 l2
                  sM k harr hnn hsn (hli rfl) (hkind ▸ hli rfl) (hsz (hli rfl) hnr) hre
                exact Settled_of_Ord _ g2 _ h2 (fun d hd hc => hdel d hd ((hl2 d).mp hc))
        · -- the sibling is before the page
          subst hSn
          rw [hnn] at hsn; cases hsn
          subst hrs
          have hne : (false = true) = False := by simp
          simp only [hfN, hfP, hfM, hne, if_false, hidS, hidx, hkey] at hres
          split at hres
          · rename_i hcond
            cases hco : BPlusTree.Coalesce
                (fun t' txn' p => BPlusTree.CoalesceOrRedistribute fuel t' txn' false p) t
                { txn with page_set := txn.page_set ++ [M] } leaf M S nn.parent_page_id_
                ((l1 ++ [(sM, M)]).length : Int) with
            | error e => simp only [hco] at hres; cases hres
            | ok rc =>
              simp only [hco] at hres
              rw [← Except.ok.inj hres]
              cases leaf with
              | true =>
                exact LeafCoalesce_ord (fun r => Settled r.1 r.2.1) _ t g h _ M S pn mn nn hP hpn hpi l1 l2 sM k harr hmn hnn
                  (hkind ▸ hlf rfl) (hlf rfl) { txn with page_set := txn.page_set ++ [M] } hdel (fun t2 g2 txn2 pn2 h2 _ _ => hrec _ t2 g2 txn2 pn2 h2)
                  (fun t2 g2 txn2 h2 hd => Settled_of_Ord t2 g2 txn2 h2 hd) rc hco
              | false =>
                exact IntCoalesce_ord (fun r => Settled r.1 r.2.1) _ t g h _ M S pn mn nn hP hpn hpi l1 l2 sM k harr hmn hnn
                  (hkind ▸ hli rfl) (hli rfl) (by
                    rw [(h.sizes M mn hMl hmn (hkind ▸ hli rfl)).1,
                      ← (h.sizes S nn hSl hnn (hli rfl)).1]
                    omega) { txn with page_set := txn.page_set ++ [M] } hdel (fun t2 g2 txn2 pn2 h2 _ _ => hrec _ t2 g2 txn2 pn2 h2)
                  (fun t2 g2 txn2 h2 hd => Settled_of_Ord t2 g2 txn2 h2 hd) rc hco
          · rename_i hcond
            cases hre : t.Redistribute leaf M S k false with
            | error e => simp [hre] at hres
            | ok t2 =>
              simp only [hre] at hres
              rw [← Except.ok.inj hres]
              unfold BPlusTree.Redistribute at hre
              simp only [Bool.false_eq_true, if_false] at hre
              cases leaf with
              | true =>
                simp only [if_true] at hre
                obtain ⟨g2, h2, hl2⟩ := LeafShiftPrev_ord t t2 g h _ M S pn mn nn hP hpn hpi l1 l2
                  sM k harr hmn hnn (hkind ▸ hlf rfl) (hlf rfl) hre
                exact Settled_of_Ord _ g2 _ h2 (fun d hd hc => hdel d hd ((hl2 d).mp hc))
              | false =>
                simp only [Bool.false_eq_true, if_false] at hre
                obtain ⟨g2, h2, hl2⟩ := IntShiftPrev_ord t t2 g h _ M S pn mn nn hP hpn hpi l1 l2
                  sM k harr hmn hnn (hkind ▸ hli rfl) (hli rfl) (hsz (hli rfl) hnr) hcond hre
                exact Settled_of_Ord _ g2 _ h2 (fun d hd hc => hdel d hd ((hl2 d).mp hc))

/-- `Remove` keeps a tree sound when it returns. -/
theorem Remove_sound (t t1 : BPlusTree) (k : KeyType) (hs : Sound t)
    (hres : t.Remove k = .ok t1) : Sound t1 := by
  obtain ⟨hpos, hfresh, hcase⟩ := hs
  unfold BPlusTree.Remove at hres
  by_cases he : t.root_page_id_ = INVALID_PAGE_ID
  · have he2 : t.IsEmpty = true := by simp [BPlusTree.IsEmpty, he]
    simp only [he2, if_true] at hres
    cases hres
    exact ⟨hpos, hfresh, hcase⟩
  · rcases hcase with hc | ⟨g, hinv⟩
    · exact absurd hc he
    · have he2 : t.IsEmpty = false := by simp [BPlusTree.IsEmpty, he]
      obtain ⟨X, o1, xn, hfl, ⟨txn1, ho1, htxn1⟩, hXl, hX, hleaf, hka, hkb⟩ :=
        FindLeafPage_ord t g hinv k Operate_Type.OP_DELETE _ (Crabing_P t _)
          (some Transaction.new) ⟨_, rfl, rfl⟩
      rw [ho1] at hfl
      have hfX : t.FetchPage X = .ok xn := (FetchPage_ok _ _ _).2 hX
      obtain ⟨xn2, hxn2, hXok⟩ := hinv.pages X hXl
      rw [hX] at hxn2; cases hxn2
      obtain ⟨hr1, hr2, hr3⟩ := Leaf_Remove_sublist xn k
      have hord2 : Ord (t.setPage X (BPlusTreeLeafPage.RemoveAndDeleteRecord xn k).1) g := by
        rw [hr1]
        exact Ord_leaf_update t g _ _ _ hinv X xn _ hXl hX hleaf
          (List.Pairwise.sublist hr2 (hXok.leaf_sorted hleaf))
          (fun x hx => hXok.leaf_range hleaf x (hr2.subset hx)) xn.next_page_id_
      have hleaf2 : (BPlusTreeLeafPage.RemoveAndDeleteRecord xn k).1.page_type_ =
          IndexPageType.LEAF_PAGE := by rw [hr1]; exact hleaf
      simp only [he2, Bool.false_eq_true, if_false, bind, Except.bind, hfl, hfX] at hres
      split at hres
      · cases hco : BPlusTree.CoalesceOrRedistribute
            (t.setPage X (BPlusTreeLeafPage.RemoveAndDeleteRecord xn k).1).fuel
            (t.setPage X (BPlusTreeLeafPage.RemoveAndDeleteRecord xn k).1) txn1 true X with
        | error e => simp only [hco] at hres; cases hres
        | ok rc =>
          simp only [hco] at hres
          have hset := CoR_ord _ _ g txn1 true X _ hord2 hXl (setPage_same _ _ _)
            (fun _ => hleaf2) (fun hc => by cases hc)
            (fun hc => by rw [hleaf2] at hc; cases hc)
            (by rw [htxn1]; intro d hd; cases hd) rc hco
          cases hfp : rc.1.FreePagesInTransaction true (some rc.2.1) (-1) with
          | error e => simp only [hfp] at hres; cases hres
          | ok q =>
            simp only [hfp] at hres
            rw [← Except.ok.inj hres]
            exact Sound_FreePages rc.1 q.1 true rc.2.1 (-1) q.2 hfp hset.1 hset.2.1 hset.2.2
      · rw [FreePages_some _ true txn1 (-1) htxn1] at hres
        simp only at hres
        rw [← Except.ok.inj hres]
        exact Sound_of_Ord _ g hord2

theorem apply_sound (t t1 : BPlusTree) (op : TreeOp) (hs : Sound t)
    (hres : t.apply op = .ok t1) : Sound t1 := by
  cases op with
  | Insert k v =>
    obtain ⟨t2, b, h1, h2, _⟩ := Insert_ord t k v hs
    unfold BPlusTree.apply at hres
    simp only [bind, Except.bind, h1] at hres
    rw [← Except.ok.inj hres]
    exact h2
  | Remove k => exact Remove_sound t t1 k hs hres

theorem applyAll_sound (ops : List TreeOp) : ∀ (t t1 : BPlusTree), Sound t →
    t.applyAll ops = .ok t1 → Sound t1 := by
  induction ops with
  | nil =>
    intro t t1 hs hres
    unfold BPlusTree.applyAll at hres
    rw [← Except.ok.inj hres]
    exact hs
  | cons op rest ih =>
    intro t t1 hs hres
    unfold BPlusTree.applyAll at hres
    simp only [bind, Except.bind] at hres
    cases ha : t.apply op with
    | error e => simp only [ha] at hres; cases hres
    | ok t2 =>
      simp only [ha] at hres
      exact ih t2 t1 (apply_sound t t2 op hs ha) hres

theorem Sound_new (l m : Nat) : Sound (BPlusTree.new l m) :=
  ⟨le_refl _, fun _ _ => rfl, Or.inl rfl⟩

/-! ## B+ tree: the fuel of `Remove` is enough -/

theorem bind_ne_fuel {α β : Type} (x : Except Err α) (f : α → Except Err β)
    (hx : x ≠ .error .outOfFuel) (hf : ∀ a, f a ≠ .error .outOfFuel) :
    (x >>= f) ≠ .error .outOfFuel := by
  cases x with
  | error e =>
    intro hc
    apply hx
    simpa [bind, Except.bind] using hc
  | ok a => exact hf a

theorem FetchPage_fuel (t : BPlusTree) (p : page_id_t) :
    t.FetchPage p ≠ .error .outOfFuel := by
  unfold BPlusTree.FetchPage
  split <;> simp

theorem KeyAt_fuel (n : BPlusTreePage) (i : Int) :
    BPlusTreeInternalPage.KeyAt n i ≠ .error .outOfFuel := by
  unfold BPlusTreeInternalPage.KeyAt
  split
  · split <;> simp
  · simp

theorem SetKeyAt_fuel (n : BPlusTreePage) (i : Int) (k : KeyType) :
    BPlusTreeInternalPage.SetKeyAt n i k ≠ .error .outOfFuel := by
  unfold BPlusTreeInternalPage.SetKeyAt
  split
  · split <;> simp
  · simp

theorem ValueAt_fuel (n : BPlusTreePage) (i : Int) :
    BPlusTreeInternalPage.ValueAt n i ≠ .error .outOfFuel := by
  unfold BPlusTreeInternalPage.ValueAt
  split
  · split <;> simp
  · simp

theorem Internal_Remove_fuel (n : BPlusTreePage) (i : Int) :
    BPlusTreeInternalPage.Remove n i ≠ .error .outOfFuel := by
  unfold BPlusTreeInternalPage.Remove
  split <;> simp

theorem RemoveAndReturnOnlyChild_fuel (n : BPlusTreePage) :
    BPlusTreeInternalPage.RemoveAndReturnOnlyChild n ≠ .error .outOfFuel := by
  unfold BPlusTreeInternalPage.RemoveAndReturnOnlyChild
  split <;> simp

theorem adoptAll_fuel (parent_id : page_id_t) (items : List (KeyType × Int)) :
    ∀ t : BPlusTree, t.adoptAll parent_id items ≠ .error .outOfFuel := by
  induction items with
  | nil => intro t; unfold BPlusTree.adoptAll; simp
  | cons item rest ih =>
    intro t
    unfold BPlusTree.adoptAll
    exact bind_ne_fuel _ _ (FetchPage_fuel _ _) (fun a => ih _)

theorem FreePages_fuel (t : BPlusTree) (w : Bool) (o : Option Transaction) (cur : page_id_t) :
    t.FreePagesInTransaction w o cur ≠ .error .outOfFuel := by
  unfold BPlusTree.FreePagesInTransaction
  split
  · split
    · split <;> simp
    · simp
  · simp only
    split <;> simp

theorem Crabing_fuel (t : BPlusTree) (p prev : page_id_t) (op : Operate_Type)
    (o : Option Transaction) :
    t.CrabingProtocalFetchPage p op prev o ≠ .error .outOfFuel := by
  unfold BPlusTree.CrabingProtocalFetchPage
  refine bind_ne_fuel _ _ (FetchPage_fuel _ _) (fun a => ?_)
  have hjp : ∀ y : BPlusTree × Option Transaction,
      (match y with
      | (t1, txn1) =>
        (t1.FetchPage p >>= fun tree_page1 =>
          (Except.ok (t1, (match txn1 with
            | some txn => some { txn with page_set := txn.page_set ++ [p] }
            | none => none), tree_page1) :
            Except Err (BPlusTree × Option Transaction × BPlusTreePage)))) ≠
        .error .outOfFuel := by
    intro y
    obtain ⟨t1, txn1⟩ := y
    exact bind_ne_fuel _ _ (FetchPage_fuel _ _) (fun c => by simp)
  simp only
  split
  · exact bind_ne_fuel _ _ (FreePages_fuel _ _ _ _) hjp
  · exact hjp _

theorem LeafMoveFirstToEndOf_fuel (t : BPlusTree) (a b : page_id_t) :
    t.LeafMoveFirstToEndOf a b ≠ .error .outOfFuel := by
  unfold BPlusTree.LeafMoveFirstToEndOf
  refine bind_ne_fuel _ _ (FetchPage_fuel _ _) (fun x => ?_)
  split
  · simp
  · refine bind_ne_fuel _ _ (FetchPage_fuel _ _) (fun x => ?_)
    refine bind_ne_fuel _ _ (FetchPage_fuel _ _) (fun x => ?_)
    refine bind_ne_fuel _ _ (FetchPage_fuel _ _) (fun x => ?_)
    refine bind_ne_fuel _ _ (FetchPage_fuel _ _) (fun x => ?_)
    split
    · simp
    · refine bind_ne_fuel _ _ (SetKeyAt_fuel _ _ _) (fun x => ?_)
      simp

theorem LeafMoveLastToFrontOf_fuel (t : BPlusTree) (a b : page_id_t) :
    t.LeafMoveLastToFrontOf a b ≠ .error .outOfFuel := by
  unfold BPlusTree.LeafMoveLastToFrontOf
  refine bind_ne_fuel _ _ (FetchPage_fuel _ _) (fun x => ?_)
  split
  · simp
  · refine bind_ne_fuel _ _ (FetchPage_fuel _ _) (fun x => ?_)
    refine bind_ne_fuel _ _ (FetchPage_fuel _ _) (fun x => ?_)
    refine bind_ne_fuel _ _ (FetchPage_fuel _ _) (fun x => ?_)
    refine bind_ne_fuel _ _ (FetchPage_fuel _ _) (fun x => ?_)
    refine bind_ne_fuel _ _ (FetchPage_fuel _ _) (fun x => ?_)
    split
    · simp
    · refine bind_ne_fuel _ _ (SetKeyAt_fuel _ _ _) (fun x => ?_)
      simp

theorem InternalMoveAllTo_fuel (t : BPlusTree) (a b : page_id_t) (k : KeyType) :
    t.InternalMoveAllTo a b k ≠ .error .outOfFuel := by
  unfold BPlusTree.InternalMoveAllTo
  refine bind_ne_fuel _ _ (FetchPage_fuel _ _) (fun x => ?_)
  refine bind_ne_fuel _ _ (FetchPage_fuel _ _) (fun x => ?_)
  refine bind_ne_fuel _ _ (FetchPage_fuel _ _) (fun x => ?_)
  refine bind_ne_fuel _ _ (Internal_Remove_fuel _ _) (fun x => ?_)
  refine bind_ne_fuel _ _ (FetchPage_fuel _ _) (fun x => ?_)
  refine bind_ne_fuel _ _ (SetKeyAt_fuel _ _ _) (fun x => ?_)
  refine bind_ne_fuel _ _ (FetchPage_fuel _ _) (fun x => ?_)
  refine bind_ne_fuel _ _ (adoptAll_fuel _ _ _) (fun x => ?_)
  refine bind_ne_fuel _ _ (FetchPage_fuel _ _) (fun x => ?_)
  refine bind_ne_fuel _ _ (FetchPage_fuel _ _) (fun x => ?_)
  refine bind_ne_fuel _ _ (FetchPage_fuel _ _) (fun x => ?_)
  split <;> simp

theorem InternalMoveFirstToEndOf_fuel (t : BPlusTree) (a b : page_id_t) (k : KeyType) :
    t.InternalMoveFirstToEndOf a b k ≠ .error .outOfFuel := by
  unfold BPlusTree.InternalMoveFirstToEndOf
  refine bind_ne_fuel _ _ (FetchPage_fuel _ _) (fun x => ?_)
  refine bind_ne_fuel _ _ (FetchPage_fuel _ _) (fun x => ?_)
  split
  · refine bind_ne_fuel _ _ (SetKeyAt_fuel _ _ _) (fun x => ?_)
    refine bind_ne_fuel _ _ (FetchPage_fuel _ _) (fun x => ?_)
    refine bind_ne_fuel _ _ (FetchPage_fuel _ _) (fun x => ?_)
    refine bind_ne_fuel _ _ (FetchPage_fuel _ _) (fun x => ?_)
    refine bind_ne_fuel _ _ (FetchPage_fuel _ _) (fun x => ?_)
    refine bind_ne_fuel _ _ (Internal_Remove_fuel _ _) (fun x => ?_)
    simp
  · simp

theorem InternalMoveLastToFrontOf_fuel (t : BPlusTree) (a b : page_id_t) (k : KeyType) :
    t.InternalMoveLastToFrontOf a b k ≠ .error .outOfFuel := by
  unfold BPlusTree.InternalMoveLastToFrontOf
  refine bind_ne_fuel _ _ (FetchPage_fuel _ _) (fun x => ?_)
  refine bind_ne_fuel _ _ (FetchPage_fuel _ _) (fun x => ?_)
  refine bind_ne_fuel _ _ (FetchPage_fuel _ _) (fun x => ?_)
  split
  · simp
  · refine bind_ne_fuel _ _ (SetKeyAt_fuel _ _ _) (fun x => ?_)
    refine bind_ne_fuel _ _ (FetchPage_fuel _ _) (fun x => ?_)
    refine bind_ne_fuel _ _ (FetchPage_fuel _ _) (fun x => ?_)
    split
    · simp
    · refine bind_ne_fuel _ _ (FetchPage_fuel _ _) (fun x => ?_)
      refine bind_ne_fuel _ _ (Internal_Remove_fuel _ _) (fun x => ?_)
      simp

theorem AdjustRoot_fuel (t : BPlusTree) (p : page_id_t) :
    t.AdjustRoot p ≠ .error .outOfFuel := by
  unfold BPlusTree.AdjustRoot
  refine bind_ne_fuel _ _ (FetchPage_fuel _ _) (fun x => ?_)
  split
  · simp
  · split
    · refine bind_ne_fuel _ _ (RemoveAndReturnOnlyChild_fuel _) (fun x => ?_)
      refine bind_ne_fuel _ _ (FetchPage_fuel _ _) (fun x => ?_)
      simp
    · simp

theorem FindSibling_fuel (t : BPlusTree) (txn : Transaction) (p : page_id_t) :
    t.FindSibling txn p ≠ .error .outOfFuel := by
  unfold BPlusTree.FindSibling
  refine bind_ne_fuel _ _ (FetchPage_fuel _ _) (fun x => ?_)
  refine bind_ne_fuel _ _ (FetchPage_fuel _ _) (fun x => ?_)
  refine bind_ne_fuel _ _ (ValueAt_fuel _ _) (fun x => ?_)
  refine bind_ne_fuel _ _ (Crabing_fuel _ _ _ _ _) (fun x => ?_)
  split
  split <;> simp

theorem Redistribute_fuel (t : BPlusTree) (leaf : Bool) (a b : page_id_t) (k : KeyType)
    (nx : Bool) : t.Redistribute leaf a b k nx ≠ .error .outOfFuel := by
  unfold BPlusTree.Redistribute
  split
  · split
    · exact LeafMoveFirstToEndOf_fuel _ _ _
    · exact InternalMoveFirstToEndOf_fuel _ _ _ _
  · split
    · exact LeafMoveLastToFrontOf_fuel _ _ _
    · exact InternalMoveLastToFrontOf_fuel _ _ _ _

theorem bind_fuel_inv {α β : Type} (x : Except Err α) (f : α → Except Err β)
    (h : (x >>= f) = .error .outOfFuel) (hx : x ≠ .error .outOfFuel) :
    ∃ a, x = .ok a ∧ f a = .error .outOfFuel := by
  cases x with
  | error e =>
    exfalso; apply hx
    simpa [bind, Except.bind] using h
  | ok a => exact ⟨a, rfl, h⟩

/-- When `Coalesce` ends by running out of fuel, it is the call on the parent that does,
and `Coalesce` returns whatever that call returns. -/
theorem Coalesce_fuel_rec
    (rec : BPlusTree → Transaction → page_id_t → Except Err (BPlusTree × Transaction × Bool))
    (t : BPlusTree) (txn : Transaction) (leaf : Bool) (M S P : page_id_t) (idx : Int)
    (h : BPlusTree.Coalesce rec t txn leaf M S P idx = .error .outOfFuel) :
    ∃ t2 txn2, rec t2 txn2 P = .error .outOfFuel ∧
      ∀ rec2, BPlusTree.Coalesce rec2 t txn leaf M S P idx = rec2 t2 txn2 P := by
  unfold BPlusTree.Coalesce at h
  obtain ⟨parent, hp, h⟩ := bind_fuel_inv _ _ h (FetchPage_fuel _ _)
  obtain ⟨key, hk, h⟩ := bind_fuel_inv _ _ h (KeyAt_fuel _ _)
  have htail : ∀ t1 : BPlusTree,
      (t1.FetchPage S >>= fun node2 =>
        t1.FetchPage P >>= fun parent1 =>
          BPlusTreeInternalPage.Remove parent1 idx >>= fun parent2 =>
            if parent2.GetSize ≤ parent2.GetMinSize then
              rec (t1.setPage P parent2)
                { txn with deleted_page_set := node2.page_id_ :: txn.deleted_page_set } P
            else (.ok (t1.setPage P parent2,
                { txn with deleted_page_set := node2.page_id_ :: txn.deleted_page_set },
                false) : Except Err (BPlusTree × Transaction × Bool))) =
        .error .outOfFuel →
      ∃ node2 parent1 parent2, t1.FetchPage S = .ok node2 ∧ t1.FetchPage P = .ok parent1 ∧
        BPlusTreeInternalPage.Remove parent1 idx = .ok parent2 ∧
        parent2.GetSize ≤ parent2.GetMinSize ∧
        rec (t1.setPage P parent2)
          { txn with deleted_page_set := node2.page_id_ :: txn.deleted_page_set } P =
          .error .outOfFuel := by
    intro t1 h
    obtain ⟨node2, h1, h⟩ := bind_fuel_inv _ _ h (FetchPage_fuel _ _)
    obtain ⟨parent1, h2, h⟩ := bind_fuel_inv _ _ h (FetchPage_fuel _ _)
    obtain ⟨parent2, h3, h⟩ := bind_fuel_inv _ _ h (Internal_Remove_fuel _ _)
    by_cases hc : parent2.GetSize ≤ parent2.GetMinSize
    · rw [if_pos hc] at h
      exact ⟨node2, parent1, parent2, h1, h2, h3, hc, h⟩
    · rw [if_neg hc] at h
      cases h
  cases leaf with
  | true =>
    simp only [if_true] at h
    obtain ⟨node, hS, h⟩ := bind_fuel_inv _ _ h (FetchPage_fuel _ _)
    obtain ⟨neighbor, hM, h⟩ := bind_fuel_inv _ _ h (FetchPage_fuel _ _)
    obtain ⟨node2, parent1, parent2, h1, h2, h3, hc, h4⟩ := htail
      ((t.setPage M (BPlusTreeLeafPage.MoveAllTo node neighbor).2).setPage S
        (BPlusTreeLeafPage.MoveAllTo node neighbor).1) h
    refine ⟨_, _, h4, ?_⟩
    intro rec2
    unfold BPlusTree.Coalesce
    simp only [BPlusTreeLeafPage.MoveAllTo] at h1 h2 ⊢
    simp only [bind, Except.bind, hp, hk, hS, hM, pure, Except.pure, h1, h2, h3, if_pos hc,
      if_true]
  | false =>
    simp only [Bool.false_eq_true, if_false] at h
    obtain ⟨t1, ht1, h⟩ := bind_fuel_inv _ _ h (InternalMoveAllTo_fuel _ _ _ _)
    obtain ⟨node2, parent1, parent2, h1, h2, h3, hc, h4⟩ := htail t1 h
    refine ⟨_, _, h4, ?_⟩
    intro rec2
    unfold BPlusTree.Coalesce
    simp only [bind, Except.bind, hp, hk, ht1, h1, h2, h3, if_pos hc, Bool.false_eq_true,
      if_false]

/-- `CoalesceOrRedistribute` does not run out of fuel when the fuel exceeds the number of
levels above the page. -/
theorem CoR_fuel : ∀ (fuel : Nat) (t : BPlusTree) (g : Ghost) (txn : Transaction) (leaf : Bool)
    (node : page_id_t) (nn : BPlusTreePage), Ord t g → g.live node → t.pages node = some nn →
    (leaf = true → nn.page_type_ = IndexPageType.LEAF_PAGE) →
    (leaf = false → nn.page_type_ = IndexPageType.INTERNAL_PAGE) →
    (nn.page_type_ = IndexPageType.INTERNAL_PAGE → node ≠ t.root_page_id_ →
      nn.GetSize + 1 < nn.max_size_) →
    (∀ d ∈ txn.deleted_page_set, ¬ g.live d) →
    g.lev t.root_page_id_ < g.lev node + fuel →
    BPlusTree.CoalesceOrRedistribute fuel t txn leaf node ≠ .error .outOfFuel := by
  intro fuel
  induction fuel with
  | zero =>
    intro t g txn leaf node nn h hlive hnn _ _ _ _ hfuel
    obtain ⟨nn2, _, hNok⟩ := h.pages node hlive
    have := hNok.lev_le
    omega
  | succ fuel ih =>
    intro t g txn leaf node nn h hlive hnn hlf hli hsz hdel hfuel hres
    obtain ⟨nn2, hnn2, hNok⟩ := h.pages node hlive
    rw [hnn] at hnn2; cases hnn2
    have hfN : t.FetchPage node = .ok nn := (FetchPage_ok _ _ _).2 hnn
    unfold BPlusTree.CoalesceOrRedistribute at hres
    simp only [bind, Except.bind, hfN] at hres
    by_cases hroot : nn.IsRootPage = true
    · simp only [hroot, if_true] at hres
      cases ha : t.AdjustRoot node with
      | error e =>
        simp only [ha] at hres
        cases hres; exact absurd ha (AdjustRoot_fuel _ _)
      | ok p =>
        simp only [ha] at hres
        cases hf : p.1.FetchPage node with
        | error e =>
          simp only [hf] at hres
          cases hres; exact absurd hf (FetchPage_fuel _ _)
        | ok n1 => simp only [hf] at hres; cases hres
    · simp only [hroot, Bool.false_eq_true, if_false] at hres
      have hnr : node ≠ t.root_page_id_ := fun hc =>
        hroot ((IsRootPage_iff nn).mpr (hNok.root_parent hc))
      obtain ⟨hP, pn, hpn, hpi, hmem⟩ :=
        hNok.parent_ok hnr (live_ne_invalid t g _ _ _ h node hlive)
      obtain ⟨pn2, hpn2, hPok⟩ := h.pages _ hP
      rw [hpn] at hpn2; cases hpn2
      have hfP : t.FetchPage nn.parent_page_id_ = .ok pn := (FetchPage_ok _ _ _).2 hpn
      have hlevP := (child_ne t g _ _ _ h _ node pn hP hpn hpi hmem).2.1
      cases hfs : t.FindSibling txn node with
      | error e =>
        simp only [hfs] at hres
        cases hres; exact absurd hfs (FindSibling_fuel _ _ _)
      | ok rs =>
        obtain ⟨l1, l2, sM, k, M, S, harr, hcase⟩ := FindSibling_spec t txn node nn pn hnn
          hNok.id_eq hpn hmem (hPok.int_nodup hpi)
          (fun c hc => (hPok.children hpi c hc).2.2.imp (fun cn hcn => hcn.1)) rs hfs
        obtain ⟨hnd, hMS, hMP, hSP, hMl, hSl, hMr, hSr, hMlev, hSlev, ⟨mn, hmn, hMok, hMpar⟩,
          ⟨sn, hsn, hSok, hSpar⟩, hhiM, hloS, hbM, hbS⟩ :=
          family t g h _ M S pn hP hpn hpi l1 l2 sM k harr
        have hfM : t.FetchPage M = .ok mn := (FetchPage_ok _ _ _).2 hmn
        have hfS : t.FetchPage S = .ok sn := (FetchPage_ok _ _ _).2 hsn
        have hidx := ValueIndex_second pn l1 l2 (sM, M) (k, S) harr hnd
        simp only at hidx
        have hkey := Internal_KeyAt_at pn (l1 ++ [(sM, M)]) l2 (k, S) (by rw [harr]; simp)
        simp only at hkey
        have hkind := same_kind t g _ _ M S mn sn hMok hSok (by omega)
        have hidS := hSok.id_eq
        have hidM := hMok.id_eq
        -- the call on the parent, with a mark on the result when it runs out of fuel
        have hmark : ∀ (txn0 : Transaction) (mn0 sn0 : BPlusTreePage), t.pages M = some mn0 →
            t.pages S = some sn0 →
            (leaf = true → mn0.page_type_ = IndexPageType.LEAF_PAGE ∧
              sn0.page_type_ = IndexPageType.LEAF_PAGE) →
            (leaf = false → mn0.page_type_ = IndexPageType.INTERNAL_PAGE ∧
              sn0.page_type_ = IndexPageType.INTERNAL_PAGE ∧
              mn0.GetSize + sn0.GetSize < mn0.max_size_) →
            (∀ d ∈ txn0.deleted_page_set, ¬ g.live d) →
            BPlusTree.Coalesce
              (fun t2 txn2 p => BPlusTree.CoalesceOrRedistribute fuel t2 txn2 false p) t
              txn0 leaf M S nn.parent_page_id_ ((l1 ++ [(sM, M)]).length : Int) ≠
              .error .outOfFuel := by
          intro txn0 mn0 sn0 hmn0 hsn0 hl0 hi0 hdel0 hco
          obtain ⟨t2, txn2, hfu, hall⟩ := Coalesce_fuel_rec _ t txn0 leaf M S _ _ hco
          obtain ⟨mark, hmk⟩ : ∃ mark : BPlusTree → Transaction → page_id_t →
              Except Err (BPlusTree × Transaction × Bool), mark = fun t2 txn2 p =>
                match BPlusTree.CoalesceOrRedistribute fuel t2 txn2 false p with
                | Except.error Err.outOfFuel => Except.ok (t2, txn2, true)
                | _ => Except.error Err.undefined := ⟨_, rfl⟩
          have hco2 := hall mark
          have hmt : mark t2 txn2 nn.parent_page_id_ = .ok (t2, txn2, true) := by
            rw [hmk]; simp only [hfu]
          rw [hmt] at hco2
          have hrec2 : ∀ t3 g3 txn3 pn3, Ord t3 g3 → g3.lev = g.lev →
              t3.root_page_id_ = t.root_page_id_ → g3.live nn.parent_page_id_ →
              t3.pages nn.parent_page_id_ = some pn3 →
              pn3.page_type_ = IndexPageType.INTERNAL_PAGE →
              (nn.parent_page_id_ ≠ t3.root_page_id_ → pn3.GetSize + 1 < pn3.max_size_) →
              (∀ d ∈ txn3.deleted_page_set, ¬ g3.live d) →
              ∀ r, mark t3 txn3 nn.parent_page_id_ = .ok r → r.2.2 = false := by
            intro t3 g3 txn3 pn3 h3 hlev3 hroot3 hP3 hpn3 hpi3 hsz3 hdel3 r hr
            exfalso
            have hnf := ih t3 g3 txn3 false _ pn3 h3 hP3 hpn3 (fun hc => by cases hc)
              (fun _ => hpi3) (fun _ => hsz3) hdel3 (by rw [hlev3, hroot3]; omega)
            rw [hmk] at hr
            simp only at hr
            cases hr
          cases leaf with
          | true =>
            have := LeafCoalesce_ord (fun r => r.2.2 = false) _ t g h _ M S pn mn0 sn0 hP hpn
              hpi l1 l2 sM k harr hmn0 hsn0 (hl0 rfl).1 (hl0 rfl).2 txn0 hdel0 hrec2
              (fun _ _ _ _ _ => rfl) _ hco2
            cases this
          | false =>
            have := IntCoalesce_ord (fun r => r.2.2 = false) _ t g h _ M S pn mn0 sn0 hP hpn
              hpi l1 l2 sM k harr hmn0 hsn0 (hi0 rfl).1 (hi0 rfl).2.1 (hi0 rfl).2.2 txn0 hdel0
              hrec2 (fun _ _ _ _ _ => rfl) _ hco2
            cases this
        simp only [hfs] at hres
        rcases hcase with ⟨hMn, hrs⟩ | ⟨hSn, hrs⟩
        · subst hMn
          rw [hnn] at hmn; cases hmn
          subst hrs
          simp only [hfN, hfP, hfS, if_true, hidS, hidx, hkey] at hres
          split at hres
          · rename_i hcond
            cases hco : BPlusTree.Coalesce
                (fun t' txn' p => BPlusTree.CoalesceOrRedistribute fuel t' txn' false p) t
                { txn with page_set := txn.page_set ++ [S] } leaf M S nn.parent_page_id_
                ((l1 ++ [(sM, M)]).length : Int) with
            | error e =>
              simp only [hco] at hres
              cases hres
              exact hmark { txn with page_set := txn.page_set ++ [S] } nn sn hnn hsn (fun hl => ⟨hlf hl, hkind ▸ hlf hl⟩)
                (fun hl => ⟨hli hl, hkind ▸ hli hl, hcond⟩) hdel hco
            | ok rc => simp only [hco] at hres; cases hres
          · cases hre : t.Redistribute leaf S M k true with
            | error e =>
              simp only [hre] at hres
              cases hres; exact absurd hre (Redistribute_fuel _ _ _ _ _ _)
            | ok t2 => simp only [hre] at hres; cases hres
        · subst hSn
          rw [hnn] at hsn; cases hsn
          subst hrs
          have hne : (false = true) = False := by simp
          simp only [hfN, hfP, hfM, hne, if_false, hidS, hidx, hkey] at hres
          split at hres
          · rename_i hcond
            cases hco : BPlusTree.Coalesce
                (fun t' txn' p => BPlusTree.CoalesceOrRedistribute fuel t' txn' false p) t
                { txn with page_set := txn.page_set ++ [M] } leaf M S nn.parent_page_id_
                ((l1 ++ [(sM, M)]).length : Int) with
            | error e =>
              simp only [hco] at hres
              cases hres
              exact hmark { txn with page_set := txn.page_set ++ [M] } mn nn hmn hnn (fun hl => ⟨hkind ▸ hlf hl, hlf hl⟩)
                (fun hl => ⟨hkind ▸ hli hl, hli hl, by
                  rw [(h.sizes M mn hMl hmn (hkind ▸ hli hl)).1,
                    ← (h.sizes S nn hSl hnn (hli hl)).1]
                  omega⟩) hdel hco
            | ok rc => simp only [hco] at hres; cases hres
          · cases hre : t.Redistribute leaf M S k false with
            | error e =>
              simp only [hre] at hres
              cases hres; exact absurd hre (Redistribute_fuel _ _ _ _ _ _)
            | ok t2 => simp only [hre] at hres; cases hres

/-- `Remove` does not run out of fuel on a sound tree. -/
theorem Remove_fuel (t : BPlusTree) (k : KeyType) (hs : Sound t) :
    t.Remove k ≠ .error .outOfFuel := by
  intro hres
  obtain ⟨hpos, hfresh, hcase⟩ := hs
  unfold BPlusTree.Remove at hres
  by_cases he : t.root_page_id_ = INVALID_PAGE_ID
  · have he2 : t.IsEmpty = true := by simp [BPlusTree.IsEmpty, he]
    simp only [he2, if_true] at hres
    cases hres
  · rcases hcase with hc | ⟨g, hinv⟩
    · exact absurd hc he
    · have he2 : t.IsEmpty = false := by simp [BPlusTree.IsEmpty, he]
      obtain ⟨X, o1, xn, hfl, ⟨txn1, ho1, htxn1⟩, hXl, hX, hleaf, hka, hkb⟩ :=
        FindLeafPage_ord t g hinv k Operate_Type.OP_DELETE _ (Crabing_P t _)
          (some Transaction.new) ⟨_, rfl, rfl⟩
      rw [ho1] at hfl
      have hfX : t.FetchPage X = .ok xn := (FetchPage_ok _ _ _).2 hX
      obtain ⟨xn2, hxn2, hXok⟩ := hinv.pages X hXl
      rw [hX] at hxn2; cases hxn2
      obtain ⟨hr1, hr2, hr3⟩ := Leaf_Remove_sublist xn k
      have hord2 : Ord (t.setPage X (BPlusTreeLeafPage.RemoveAndDeleteRecord xn k).1) g := by
        rw [hr1]
        exact Ord_leaf_update t g _ _ _ hinv X xn _ hXl hX hleaf
          (List.Pairwise.sublist hr2 (hXok.leaf_sorted hleaf))
          (fun x hx => hXok.leaf_range hleaf x (hr2.subset hx)) xn.next_page_id_
      have hleaf2 : (BPlusTreeLeafPage.RemoveAndDeleteRecord xn k).1.page_type_ =
          IndexPageType.LEAF_PAGE := by rw [hr1]; exact hleaf
      simp only [he2, Bool.false_eq_true, if_false, bind, Except.bind, hfl, hfX] at hres
      split at hres
      · cases hco : BPlusTree.CoalesceOrRedistribute
            (t.setPage X (BPlusTreeLeafPage.RemoveAndDeleteRecord xn k).1).fuel
            (t.setPage X (BPlusTreeLeafPage.RemoveAndDeleteRecord xn k).1) txn1 true X with
        | error e =>
          simp only [hco] at hres
          cases hres
          have hfu := fuel_gt _ _ hord2.height
          exact CoR_fuel _ _ g txn1 true X _ hord2 hXl (setPage_same _ _ _)
            (fun _ => hleaf2) (fun hc => by cases hc)
            (fun hc => by rw [hleaf2] at hc; cases hc)
            (by rw [htxn1]; intro d hd; cases hd) (by omega) hco
        | ok rc =>
          simp only [hco] at hres
          cases hfp : rc.1.FreePagesInTransaction true (some rc.2.1) (-1) with
          | error e =>
            simp only [hfp] at hres
            cases hres; exact absurd hfp (FreePages_fuel _ _ _ _)
          | ok q => simp only [hfp] at hres; cases hres
      · rw [FreePages_some _ true txn1 (-1) htxn1] at hres
        simp only at hres
        cases hres

/-- No call in a sequence of calls on a sound tree runs out of fuel: the bound on the
recursion in the model never cuts a run short. -/
theorem applyAll_fuel (ops : List TreeOp) : ∀ t : BPlusTree, Sound t →
    t.applyAll ops ≠ .error .outOfFuel := by
  induction ops with
  | nil => intro t _; unfold BPlusTree.applyAll; simp
  | cons op rest ih =>
    intro t hs
    unfold BPlusTree.applyAll
    cases ha : t.apply op with
    | error e =>
      simp only [bind, Except.bind]
      intro hc
      cases hc
      cases op with
      | Insert k v =>
        obtain ⟨t2, b, h1, _, _⟩ := Insert_ord t k v hs
        unfold BPlusTree.apply at ha
        simp only [bind, Except.bind, h1] at ha
        cases ha
      | Remove k => exact Remove_fuel t k hs ha
    | ok t2 =>
      simp only [bind, Except.bind]
      exact ih t2 (apply_sound t t2 op hs ha)

/-- A sequence of calls that ends without error leaves the tree `applyAllD` computes. -/
theorem applyAll_of_none (t : BPlusTree) (ops : List TreeOp)
    (h : Err.of (t.applyAll ops) = none) : t.applyAll ops = .ok (t.applyAllD ops) := by
  unfold BPlusTree.applyAllD
  cases ha : t.applyAll ops with
  | error e => rw [ha] at h; cases h
  | ok t1 => rfl

theorem insert_only_size_bounds_witness :
    Err.of ((BPlusTree.new 3 3).applyAll
      ([(1, 10), (2, 20), (3, 30), (4, 40)].map (fun kv => TreeOp.Insert kv.1 kv.2))) = none ∧
    ((BPlusTree.new 3 3).applyAllD
      ([(1, 10), (2, 20), (3, 30), (4, 40)].map
        (fun kv => TreeOp.Insert kv.1 kv.2))).root_page_id_ = 6 ∧
    (((BPlusTree.new 3 3).applyAllD
      ([(1, 10), (2, 20), (3, 30), (4, 40)].map
        (fun kv => TreeOp.Insert kv.1 kv.2))).pages 3).map
      (fun n => (n.IsLeafPage, n.max_size_, n.GetSize)) = some (false, 3, 1) ∧
    ∀ p n, ((BPlusTree.new 3 3).applyAllD
        ([(1, 10), (2, 20), (3, 30), (4, 40)].map
          (fun kv => TreeOp.Insert kv.1 kv.2))).pages p = some n →
      p ≠ ((BPlusTree.new 3 3).applyAllD
        ([(1, 10), (2, 20), (3, 30), (4, 40)].map
          (fun kv => TreeOp.Insert kv.1 kv.2))).root_page_id_ →
      (n.IsLeafPage = true → n.max_size_ = 3 ∧
        (n.max_size_ - 1 + 1) / 2 ≤ n.GetSize ∧ n.GetSize ≤ n.max_size_ - 1) ∧
      (n.IsLeafPage = false → n.max_size_ = 3 ∧
        n.max_size_ / 2 ≤ n.GetSize ∧ n.GetSize < n.max_size_) :=
  ⟨by decide, by decide, by decide,
    insert_only_size_bounds 3 3 [(1, 10), (2, 20), (3, 30), (4, 40)] _ (by decide) (by decide)
      (applyAll_of_none _ _ (by decide))⟩

/-- An `Insert` that returns true leaves the tree `applyAllD` computes. -/
theorem Insert_of_true (t : BPlusTree) (k : KeyType) (v : ValueType)
    (h : (t.Insert k v).toOption.map Prod.snd = some true) :
    t.Insert k v = .ok (t.applyAllD [TreeOp.Insert k v], true) := by
  unfold BPlusTree.applyAllD BPlusTree.applyAll BPlusTree.apply BPlusTree.applyAll
  cases ha : t.Insert k v with
  | error e => rw [ha] at h; cases h
  | ok r =>
    rw [ha] at h
    obtain ⟨t1, b⟩ := r
    simp only [Except.toOption, Option.map, Option.some.injEq] at h
    simp only [bind, Except.bind, ha, h]

/-- C15: for every tree reached from the empty tree by calls of `Insert` and `Remove` that
return (none fails an `assert` or reads a slot that holds no entry), and every key `k` and
value `v`: if `Insert(k, v)` returns true, then `GetValue(k)` called right after it returns
true with the result `[v]`. -/
theorem insert_then_get (l m : Nat) (ops : List TreeOp) (t t1 : BPlusTree) (k : KeyType)
    (v : ValueType) (hreach : (BPlusTree.new l m).applyAll ops = .ok t)
    (hins : t.Insert k v = .ok (t1, true)) :
    t1.GetValue k none = .ok (t1, true, [v]) := by
  have hs := applyAll_sound ops _ t (Sound_new l m) hreach
  obtain ⟨t2, b, h1, _, h3⟩ := Insert_ord t k v hs
  rw [hins] at h1
  have h1b := Except.ok.inj h1
  have ht : t1 = t2 := congrArg Prod.fst h1b
  have hb : true = b := congrArg Prod.snd h1b
  obtain ⟨g, Z, zn, hord, hZ, hzn, hleaf, hmem⟩ := h3 hb.symm
  rw [ht]
  exact GetValue_ord t2 g hord k v Z zn hZ hzn hleaf hmem

theorem insert_then_get_witness :
    (BPlusTree.new 4 4).applyAll [TreeOp.Insert 1 10, TreeOp.Insert 2 20, TreeOp.Insert 3 30,
        TreeOp.Insert 4 40, TreeOp.Insert 5 50, TreeOp.Remove 2, TreeOp.Remove 1] =
      .ok ((BPlusTree.new 4 4).applyAllD [TreeOp.Insert 1 10, TreeOp.Insert 2 20,
        TreeOp.Insert 3 30, TreeOp.Insert 4 40, TreeOp.Insert 5 50, TreeOp.Remove 2,
        TreeOp.Remove 1]) ∧
    ((BPlusTree.new 4 4).applyAllD [TreeOp.Insert 1 10, TreeOp.Insert 2 20,
        TreeOp.Insert 3 30, TreeOp.Insert 4 40, TreeOp.Insert 5 50, TreeOp.Remove 2,
        TreeOp.Remove 1]).Insert 2 21 =
      .ok (((BPlusTree.new 4 4).applyAllD [TreeOp.Insert 1 10, TreeOp.Insert 2 20,
        TreeOp.Insert 3 30, TreeOp.Insert 4 40, TreeOp.Insert 5 50, TreeOp.Remove 2,
        TreeOp.Remove 1]).applyAllD
          [TreeOp.Insert 2 21], true) ∧
    (((BPlusTree.new 4 4).applyAllD [TreeOp.Insert 1 10, TreeOp.Insert 2 20,
        TreeOp.Insert 3 30, TreeOp.Insert 4 40, TreeOp.Insert 5 50, TreeOp.Remove 2,
        TreeOp.Remove 1]).applyAllD
          [TreeOp.Insert 2 21]).GetValue 2 none =
      .ok ((((BPlusTree.new 4 4).applyAllD [TreeOp.Insert 1 10, TreeOp.Insert 2 20,
        TreeOp.Insert 3 30, TreeOp.Insert 4 40, TreeOp.Insert 5 50, TreeOp.Remove 2,
        TreeOp.Remove 1]).applyAllD
          [TreeOp.Insert 2 21]), true, [21]) :=
  ⟨applyAll_of_none _ _ (by decide), Insert_of_true _ 2 21 (by decide),
    insert_then_get 4 4 _ _ _ 2 21 (applyAll_of_none _ _ (by decide))
      (Insert_of_true _ 2 21 (by decide))⟩

/-! ## B+ tree: `Lookup` in an internal page -/

/-- C25: on an internal page of size at least 1 whose keys at the indexes `1 .. size-1`
are strictly increasing, `Lookup(k)` returns the child at the largest index `i` in
`[1, size-1]` with `key[i] ≤ k`, and the child at index 0 when there is no such index. -/
theorem Internal_Lookup_largest (n : BPlusTreePage) (k : KeyType) (hsz : 1 ≤ n.GetSize)
    (hs : ∀ i j x y, 1 ≤ i → i < j → n.array.get? i = some x → n.array.get? j = some y →
      x.1 < y.1) :
    ∃ c, BPlusTreeInternalPage.Lookup n k = .ok c ∧
      ((∃ i x, 1 ≤ i ∧ n.array.get? i = some x ∧ x.1 ≤ k ∧ c = x.2 ∧
          ∀ j y, 1 ≤ j → n.array.get? j = some y → y.1 ≤ k → j ≤ i) ∨
       ((∀ j y, 1 ≤ j → n.array.get? j = some y → ¬ y.1 ≤ k) ∧
          ∃ x, n.array.get? 0 = some x ∧ c = x.2)) := by
  unfold BPlusTreePage.GetSize at hsz
  obtain ⟨h1, h2, h3, h4⟩ := LookupLoop_spec n.array k
    (fun i j x y hi hij hx hy => le_of_lt (hs i j x y hi hij hx hy))
    (n.GetSize + 1) 1 ((n.GetSize : Int) - 1) (le_refl _)
    (by unfold BPlusTreePage.GetSize; omega) (by unfold BPlusTreePage.GetSize; omega)
    (by unfold BPlusTreePage.GetSize; omega)
    (by intro i x hi1 hi2; omega)
    (by
      intro i x hi hx
      exfalso
      unfold BPlusTreePage.GetSize at hi
      have : i < n.array.length := by
        by_contra hc
        rw [List.get?_eq_none.mpr (by omega)] at hx; cases hx
      omega)
  unfold BPlusTreeInternalPage.Lookup
  simp only
  generalize BPlusTreeInternalPage.LookupLoop n.array k (n.GetSize + 1) 1
    ((n.GetSize : Int) - 1) = left at h1 h2 h3 h4
  have hlt : (left - 1).toNat < n.array.length := by omega
  have hget : n.array.get? (left - 1).toNat = some (n.array.get ⟨_, hlt⟩) :=
    List.get?_eq_get hlt
  rw [hget]
  refine ⟨_, rfl, ?_⟩
  by_cases hl : left = 1
  · right
    refine ⟨?_, _, ?_, rfl⟩
    · intro j y hj hy hle
      have := h4 j y (by omega) hy
      exact absurd hle (not_le.mpr this)
    · have h0 : (left - 1).toNat = 0 := by omega
      rw [← hget, h0]
  · left
    refine ⟨(left - 1).toNat, _, by omega, hget, ?_, rfl, ?_⟩
    · exact h3 _ _ (by omega) (by omega) hget
    · intro j y hj hy hle
      by_contra hc
      have := h4 j y (by omega) hy
      exact absurd hle (not_le.mpr this)

theorem Internal_Lookup_largest_witness :
    1 ≤ BPlusTreePage.GetSize
        { BPlusTreePage.zeroed with array := [(0, 11), (5, 12), (9, 13)] } ∧
    ∃ c, BPlusTreeInternalPage.Lookup
        { BPlusTreePage.zeroed with array := [(0, 11), (5, 12), (9, 13)] } 7 = .ok c ∧
      ((∃ i x, 1 ≤ i ∧ [((0 : KeyType), (11 : Int)), (5, 12), (9, 13)].get? i = some x ∧
          x.1 ≤ 7 ∧ c = x.2 ∧
          ∀ j y, 1 ≤ j → [((0 : KeyType), (11 : Int)), (5, 12), (9, 13)].get? j = some y →
            y.1 ≤ 7 → j ≤ i) ∨
       ((∀ j y, 1 ≤ j → [((0 : KeyType), (11 : Int)), (5, 12), (9, 13)].get? j = some y →
            ¬ y.1 ≤ 7) ∧
          ∃ x, [((0 : KeyType), (11 : Int)), (5, 12), (9, 13)].get? 0 = some x ∧ c = x.2)) :=
  ⟨by decide, Internal_Lookup_largest _ 7 (by decide) (by
    intro i j x y hi hij hx hy
    match i, j, hi, hij with
    | 1, 2, _, _ => simp at hx hy; subst hx; subst hy; decide
    | 1, j + 3, _, _ => simp at hy
    | i + 2, j + 3, _, _ => simp at hy
    | i + 2, 2, _, h => omega
    | i + 2, 1, _, h => omega
    | i + 2, 0, _, h => omega
    | 1, 1, _, h => omega
    | 1, 0, _, h => omega)⟩

/-! ## B+ tree: the tree built from the keys 5, 3, 8, 1, 4, 6, 7, 2 -/

/-- C21 (code defect). With leaf_max_size 3 and internal_max_size 4 the keys
5, 3, 8, 1, 4, 6, 7, 2 are inserted into an empty tree (values `10 * key`); every call
returns. The leaves followed from the leftmost leaf through `next_page_id` are `[1, 2]` and
`[3, 4]` only: the chain ends there and does not reach the other leaves, so it is not
`[1, 2], [3, 4], [5], [6, 7], [8]`. (The leaves under the root, which the next theorem
lists, are five; the last two hold `[6], [7, 8]`, the other split of `[6, 7, 8]` into a
leaf of one key and a leaf of two.) -/
theorem leaves_after_eight_inserts :
    Err.of ((BPlusTree.new 3 4).applyAll (insertAll [5, 3, 8, 1, 4, 6, 7, 2])) = none ∧
    ((BPlusTree.new 3 4).applyAllD (insertAll [5, 3, 8, 1, 4, 6, 7, 2])).leafChain.toOption =
      some [[1, 2], [3, 4]] ∧
    ((BPlusTree.new 3 4).applyAllD (insertAll [5, 3, 8, 1, 4, 6, 7, 2])).leafChain.toOption ≠
      some [[1, 2], [3, 4], [5], [6, 7], [8]] ∧
    (((BPlusTree.new 3 4).applyAllD (insertAll [5, 3, 8, 1, 4, 6, 7, 2])).leavesBelow 9
      ((BPlusTree.new 3 4).applyAllD
        (insertAll [5, 3, 8, 1, 4, 6, 7, 2])).root_page_id_).map Prod.snd ≠
      [[1, 2], [3, 4], [5], [6, 7], [8]] := by
  decide

/-- The tree of the eight keys through its child pointers. With leaf_max_size 3 and
internal_max_size 4 the keys 5, 3, 8, 1, 4, 6, 7, 2 are inserted into an empty tree (values
`10 * key`): every call returns, the tree has three levels (each leaf is the third page on the way down from the
root), and its leaves, from left to right through the child pointers, hold the keys
`[1, 2], [3, 4], [5], [6], [7, 8]`. -/
theorem three_levels_after_eight_inserts :
    Err.of ((BPlusTree.new 3 4).applyAll (insertAll [5, 3, 8, 1, 4, 6, 7, 2])) = none ∧
    ((BPlusTree.new 3 4).applyAllD (insertAll [5, 3, 8, 1, 4, 6, 7, 2])).leavesBelow
      ((BPlusTree.new 3 4).applyAllD (insertAll [5, 3, 8, 1, 4, 6, 7, 2])).fuel
      ((BPlusTree.new 3 4).applyAllD (insertAll [5, 3, 8, 1, 4, 6, 7, 2])).root_page_id_ =
      [(3, [1, 2]), (3, [3, 4]), (3, [5]), (3, [6]), (3, [7, 8])] := by
  decide

/-! ## B+ tree: `Begin(key)` -/

/-- C22 (code defect). With leaf_max_size 3 and internal_max_size 4 the keys 10, 20, 30 are
inserted into an empty tree (values `10 * key`), which gives the leaves `[10]` and
`[20, 30]`. `Begin(15)` returns an iterator on the first leaf at index 1, the size of that
leaf, and `isEnd()` holds for it although the entries with the keys 20 and 30 are in the
tree; `Begin(20)` is at the entry with key 20. -/
theorem Begin_stops_at_leaf_end :
    Err.of ((BPlusTree.new 3 4).applyAll (insertAll [10, 20, 30])) = none ∧
    (((BPlusTree.new 3 4).applyAllD (insertAll [10, 20, 30])).Begin 15).toOption =
      some { leaf_ := some 1, index_ := 1 } ∧
    (((BPlusTree.new 3 4).applyAllD (insertAll [10, 20, 30])).pages 1).map
      (fun n => n.array) = some [(10, 100)] ∧
    (IndexIterator.isEnd ((BPlusTree.new 3 4).applyAllD (insertAll [10, 20, 30]))
      { leaf_ := some 1, index_ := 1 }).toOption = some true ∧
    ((BPlusTree.new 3 4).applyAllD (insertAll [10, 20, 30])).find 20 = some (true, [200]) ∧
    ((BPlusTree.new 3 4).applyAllD (insertAll [10, 20, 30])).find 30 = some (true, [300]) ∧
    (((BPlusTree.new 3 4).applyAllD (insertAll [10, 20, 30])).Begin 20).toOption =
      some { leaf_ := some 2, index_ := 0 } ∧
    (IndexIterator.deref ((BPlusTree.new 3 4).applyAllD (insertAll [10, 20, 30]))
      { leaf_ := some 2, index_ := 0 }).toOption = some (20, 200) := by
  decide

/-! ## B+ tree: the root after `Remove` -/

/-- What `AdjustRoot` does to the root page id, by the kind and size of the old root. -/
theorem AdjustRoot_root (t t1 : BPlusTree) (old : page_id_t) (n : BPlusTreePage) (b : Bool)
    (hn : t.pages old = some n) (hres : t.AdjustRoot old = .ok (t1, b)) :
    (n.IsLeafPage = true → t1.root_page_id_ = INVALID_PAGE_ID ∧ b = true) ∧
    (n.IsLeafPage = false → n.GetSize = 1 →
      ∃ item, n.array = [item] ∧ t1.root_page_id_ = item.2 ∧ b = true) ∧
    (n.IsLeafPage = false → n.GetSize ≠ 1 → t1 = t ∧ b = false) := by
  have hf : t.FetchPage old = .ok n := (FetchPage_ok _ _ _).2 hn
  unfold BPlusTree.AdjustRoot at hres
  simp only [bind, Except.bind, hf] at hres
  by_cases hl : n.IsLeafPage = true
  · simp only [hl, if_true] at hres
    simp only [Except.ok.injEq, Prod.mk.injEq] at hres
    refine ⟨fun _ => ⟨by rw [← hres.1], hres.2.symm⟩, ?_, ?_⟩
    · intro hc; rw [hl] at hc; cases hc
    · intro hc; rw [hl] at hc; cases hc
  · rw [if_neg hl] at hres
    by_cases hs : n.GetSize = 1
    · rw [if_pos hs] at hres
      refine ⟨fun hc => absurd hc hl, fun _ _ => ?_, fun _ hc => absurd hs hc⟩
      cases harr : n.array with
      | nil => simp [BPlusTreePage.GetSize, harr] at hs
      | cons item rest =>
        have hrest : rest = [] := by
          simp only [BPlusTreePage.GetSize, harr, List.length_cons] at hs
          exact List.length_eq_zero.mp (by omega)
        subst hrest
        refine ⟨item, rfl, ?_⟩
        simp only [BPlusTreeInternalPage.RemoveAndReturnOnlyChild, harr, List.head?_cons] at hres
        split at hres
        · cases hres
        · simp only [Except.ok.injEq, Prod.mk.injEq] at hres
          exact ⟨by rw [← hres.1]; rfl, hres.2.symm⟩
    · rw [if_neg hs] at hres
      simp only [Except.ok.injEq, Prod.mk.injEq] at hres
      exact ⟨fun hc => absurd hc hl, fun _ hc => absurd hc hs,
        fun _ _ => ⟨hres.1.symm, hres.2.symm⟩⟩

/-- `CoalesceOrRedistribute` on a page that is not a root leaf leaves a root. -/
theorem CoR_root : ∀ (fuel : Nat) (t : BPlusTree) (g : Ghost) (txn : Transaction) (leaf : Bool)
    (node : page_id_t) (nn : BPlusTreePage), Ord t g → g.live node → t.pages node = some nn →
    (leaf = true → nn.page_type_ = IndexPageType.LEAF_PAGE) →
    (leaf = false → nn.page_type_ = IndexPageType.INTERNAL_PAGE) →
    (nn.page_type_ = IndexPageType.INTERNAL_PAGE → node ≠ t.root_page_id_ →
      nn.GetSize + 1 < nn.max_size_) →
    (∀ d ∈ txn.deleted_page_set, ¬ g.live d) →
    (leaf = true → node ≠ t.root_page_id_) →
    ∀ r, BPlusTree.CoalesceOrRedistribute fuel t txn leaf node = .ok r →
      r.1.root_page_id_ ≠ INVALID_PAGE_ID := by
  intro fuel
  induction fuel with
  | zero =>
    intro t g txn leaf node nn _ _ _ _ _ _ _ _ r hres
    unfold BPlusTree.CoalesceOrRedistribute at hres
    cases hres
  | succ fuel ih =>
    intro t g txn leaf node nn h hlive hnn hlf hli hsz hdel hnl r hres
    obtain ⟨nn2, hnn2, hNok⟩ := h.pages node hlive
    rw [hnn] at hnn2; cases hnn2
    have hfN : t.FetchPage node = .ok nn := (FetchPage_ok _ _ _).2 hnn
    have hrec : ∀ P t2 g2 txn2 pn2, Ord t2 g2 → g2.live P → t2.pages P = some pn2 →
        pn2.page_type_ = IndexPageType.INTERNAL_PAGE →
        (P ≠ t2.root_page_id_ → pn2.GetSize + 1 < pn2.max_size_) →
        (∀ d ∈ txn2.deleted_page_set, ¬ g2.live d) →
        ∀ r, (fun t' txn' p => BPlusTree.CoalesceOrRedistribute fuel t' txn' false p)
          t2 txn2 P = .ok r → r.1.root_page_id_ ≠ INVALID_PAGE_ID := by
      intro P t2 g2 txn2 pn2 h2 hP2 hpn2 hpi2 hsz2 hdel2 r2 hr2
      exact ih t2 g2 txn2 false P pn2 h2 hP2 hpn2 (fun hc => by cases hc) (fun _ => hpi2)
        (fun _ => hsz2) hdel2 (fun hc => by cases hc) r2 hr2
    unfold BPlusTree.CoalesceOrRedistribute at hres
    simp only [bind, Except.bind, hfN] at hres
    by_cases hroot : nn.IsRootPage = true
    · simp only [hroot, if_true] at hres
      have hnr : node = t.root_page_id_ := by
        by_contra hne
        have := (hNok.parent_ok hne (live_ne_invalid t g _ _ _ h node hlive)).1
        rw [(IsRootPage_iff nn).mp hroot] at this
        exact live_ne_invalid t g _ _ _ h _ this rfl
      have hlf2 : leaf = false := by
        cases leaf with
        | true => exact absurd hnr (hnl rfl)
        | false => rfl
      have hint := hli hlf2
      rw [hnr] at hres hnn
      cases ha : t.AdjustRoot t.root_page_id_ with
      | error e => simp [ha] at hres
      | ok p =>
        obtain ⟨t1, b⟩ := p
        obtain ⟨⟨n1, hn1, hid1⟩, _, _⟩ := AdjustRoot_ord t g h nn hnn txn hdel t1 b ha
        have hf1 : t1.FetchPage t.root_page_id_ = .ok n1 := (FetchPage_ok _ _ _).2 hn1
        simp only [ha, hf1, hid1] at hres
        rw [← Except.ok.inj hres]
        obtain ⟨_, h2, h3⟩ := AdjustRoot_root t t1 t.root_page_id_ nn b hnn ha
        have hnl2 : nn.IsLeafPage = false := by
          cases hl : nn.IsLeafPage with
          | false => rfl
          | true =>
            rw [(IsLeafPage_iff nn).mp hl] at hint
            cases hint
        by_cases hs1 : nn.GetSize = 1
        · obtain ⟨item, harr, hroot1, _⟩ := h2 hnl2 hs1
          show t1.root_page_id_ ≠ INVALID_PAGE_ID
          rw [hroot1]
          exact live_ne_invalid t g _ _ _ h _
            ((hNok.children hint item.2 (by rw [harr]; simp)).1)
        · obtain ⟨ht1, _⟩ := h3 hnl2 hs1
          show t1.root_page_id_ ≠ INVALID_PAGE_ID
          rw [ht1]
          exact Ord_root_ne t g _ _ _ h
    · simp only [hroot, Bool.false_eq_true, if_false] at hres
      have hnr : node ≠ t.root_page_id_ := fun hc =>
        hroot ((IsRootPage_iff nn).mpr (hNok.root_parent hc))
      obtain ⟨hP, pn, hpn, hpi, hmem⟩ :=
        hNok.parent_ok hnr (live_ne_invalid t g _ _ _ h node hlive)
      obtain ⟨pn2, hpn2, hPok⟩ := h.pages _ hP
      rw [hpn] at hpn2; cases hpn2
      have hfP : t.FetchPage nn.parent_page_id_ = .ok pn := (FetchPage_ok _ _ _).2 hpn
      cases hfs : t.FindSibling txn node with
      | error e => simp [hfs] at hres
      | ok rs =>
        obtain ⟨l1, l2, sM, k, M, S, harr, hcase⟩ := FindSibling_spec t txn node nn pn hnn
          hNok.id_eq hpn hmem (hPok.int_nodup hpi)
          (fun c hc => (hPok.children hpi c hc).2.2.imp (fun cn hcn => hcn.1)) rs hfs
        obtain ⟨hnd, hMS, hMP, hSP, hMl, hSl, hMr, hSr, hMlev, hSlev, ⟨mn, hmn, hMok, hMpar⟩,
          ⟨sn, hsn, hSok, hSpar⟩, hhiM, hloS, hbM, hbS⟩ :=
          family t g h _ M S pn hP hpn hpi l1 l2 sM k harr
        have hfM : t.FetchPage M = .ok mn := (FetchPage_ok _ _ _).2 hmn
        have hfS : t.FetchPage S = .ok sn := (FetchPage_ok _ _ _).2 hsn
        have hidx := ValueIndex_second pn l1 l2 (sM, M) (k, S) harr hnd
        simp only at hidx
        have hkey := Internal_KeyAt_at pn (l1 ++ [(sM, M)]) l2 (k, S) (by rw [harr]; simp)
        simp only at hkey
        have hkind := same_kind t g _ _ M S mn sn hMok hSok (by omega)
        have hidS := hSok.id_eq
        have hidM := hMok.id_eq
        simp only [hfs] at hres
        rcases hcase with ⟨hMn, hrs⟩ | ⟨hSn, hrs⟩
        · -- the sibling follows the page
          subst hMn
          rw [hnn] at hmn; cases hmn
          subst hrs
          simp only [hfN, hfP, hfS, if_true, hidS, hidx, hkey] at hres
          split at hres
          · rename_i hcond
            cases hco : BPlusTree.Coalesce
                (fun t' txn' p => BPlusTree.CoalesceOrRedistribute fuel t' txn' false p) t
                { txn with page_set := txn.page_set ++ [S] } leaf M S nn.parent_page_id_
                ((l1 ++ [(sM, M)]).length : Int) with
            | error e => simp only [hco] at hres; cases hres
            | ok rc =>
              simp only [hco] at hres
              rw [← Except.ok.inj hres]
              cases leaf with
              | true =>
                exact LeafCoalesce_ord (fun r => r.1.root_page_id_ ≠ INVALID_PAGE_ID) _ t g h _ M S pn nn sn hP hpn hpi l1 l2 sM k harr hnn hsn
                  (hlf rfl) (hkind ▸ hlf rfl) { txn with page_set := txn.page_set ++ [S] } hdel (fun t2 g2 txn2 pn2 h2 _ _ => hrec _ t2 g2 txn2 pn2 h2)
                  (fun t2 g2 _ h2 _ => Ord_root_ne t2 g2 _ _ _ h2) rc hco
              | false =>
                exact IntCoalesce_ord (fun r => r.1.root_page_id_ ≠ INVALID_PAGE_ID) _ t g h _ M S pn nn sn hP hpn hpi l1 l2 sM k harr hnn hsn
                  (hli rfl) (hkind ▸ hli rfl) hcond { txn with page_set := txn.page_set ++ [S] } hdel (fun t2 g2 txn2 pn2 h2 _ _ => hrec _ t2 g2 txn2 pn2 h2)
                  (fun t2 g2 _ h2 _ => Ord_root_ne t2 g2 _ _ _ h2) rc hco
          · rename_i hcond
            cases hre : t.Redistribute leaf S M k true with
            | error e => simp [hre] at hres
            | ok t2 =>
              simp only [hre] at hres
              rw [← Except.ok.inj hres]
              unfold BPlusTree.Redistribute at hre
              simp only [if_true] at hre
              cases leaf with
              | true =>
                simp only [if_true] at hre
                obtain ⟨g2, h2, hl2⟩ := LeafShiftNext_ord t t2 g h _ M S pn nn sn hP hpn hpi l1 l2
                  sM k harr hnn hsn (hlf rfl) (hkind ▸ hlf rfl) hre
                exact Ord_root_ne _ g2 _ _ _ h2
              | false =>
                simp only [Bool.false_eq_true, if_false] at hre
                obtain ⟨g2, h2, hl2⟩ := IntShiftNext_ord t t2 g h _ M S pn nn sn hP hpn hpi l1 l2
                  sM k harr hnn hsn (hli rfl) (hkind ▸ hli rfl) (hsz (hli rfl) hnr) hre
                exact Ord_root_ne _ g2 _ _ _ h2
        · -- the sibling is before the page
          subst hSn
          rw [hnn] at hsn; cases hsn
          subst hrs
          have hne : (false = true) = False := by simp
          simp only [hfN, hfP, hfM, hne, if_false, hidS, hidx, hkey] at hres
          split at hres
          · rename_i hcond
            cases hco : BPlusTree.Coalesce
                (fun t' txn' p => BPlusTree.CoalesceOrRedistribute fuel t' txn' false p) t
                { txn with page_set := txn.page_set ++ [M] } leaf M S nn.parent_page_id_
                ((l1 ++ [(sM, M)]).length : Int) with
            | error e => simp only [hco] at hres; cases hres
            | ok rc =>
              simp only [hco] at hres
              rw [← Except.ok.inj hres]
              cases leaf with
              | true =>
                exact LeafCoalesce_ord (fun r => r.1.root_page_id_ ≠ INVALID_PAGE_ID) _ t g h _ M S pn mn nn hP hpn hpi l1 l2 sM k harr hmn hnn
                  (hkind ▸ hlf rfl) (hlf rfl) { txn with page_set := txn.page_set ++ [M] } hdel (fun t2 g2 txn2 pn2 h2 _ _ => hrec _ t2 g2 txn2 pn2 h2)
                  (fun t2 g2 _ h2 _ => Ord_root_ne t2 g2 _ _ _ h2) rc hco
              | false =>
                exact IntCoalesce_ord (fun r => r.1.root_page_id_ ≠ INVALID_PAGE_ID) _ t g h _ M S pn mn nn hP hpn hpi l1 l2 sM k harr hmn hnn
                  (hkind ▸ hli rfl) (hli rfl) (by
                    rw [(h.sizes M mn hMl hmn (hkind ▸ hli rfl)).1,
                      ← (h.sizes S nn hSl hnn (hli rfl)).1]
                    omega) { txn with page_set := txn.page_set ++ [M] } hdel (fun t2 g2 txn2 pn2 h2 _ _ => hrec _ t2 g2 txn2 pn2 h2)
                  (fun t2 g2 _ h2 _ => Ord_root_ne t2 g2 _ _ _ h2) rc hco
          · rename_i hcond
            cases hre : t.Redistribute leaf M S k false with
            | error e => simp [hre] at hres
            | ok t2 =>
              simp only [hre] at hres
              rw [← Except.ok.inj hres]
              unfold BPlusTree.Redistribute at hre
              simp only [Bool.false_eq_true, if_false] at hre
              cases leaf with
              | true =>
                simp only [if_true] at hre
                obtain ⟨g2, h2, hl2⟩ := LeafShiftPrev_ord t t2 g h _ M S pn mn nn hP hpn hpi l1 l2
                  sM k harr hmn hnn (hkind ▸ hlf rfl) (hlf rfl) hre
                exact Ord_root_ne _ g2 _ _ _ h2
              | false =>
                simp only [Bool.false_eq_true, if_false] at hre
                obtain ⟨g2, h2, hl2⟩ := IntShiftPrev_ord t t2 g h _ M S pn mn nn hP hpn hpi l1 l2
                  sM k harr hmn hnn (hkind ▸ hli rfl) (hli rfl) (hsz (hli rfl) hnr) hcond hre
                exact Ord_root_ne _ g2 _ _ _ h2


/-- A `Remove` that returns leaves the tree `applyAllD` computes. -/
theorem Remove_of_none (t : BPlusTree) (k : KeyType) (h : Err.of (t.Remove k) = none) :
    t.Remove k = .ok (t.applyAllD [TreeOp.Remove k]) := by
  unfold BPlusTree.applyAllD BPlusTree.applyAll BPlusTree.apply BPlusTree.applyAll
  cases ha : t.Remove k with
  | error e => rw [ha] at h; cases h
  | ok r => simp only [bind, Except.bind, ha]

/-- C23: `t` is a non-empty tree reached from the empty tree by calls of `Insert` and `Remove` that return, and `Remove(key)` returns on it. If the root of `t` is a leaf, the root page id is `INVALID_PAGE_ID` afterwards when the leaf is empty after the removal of `key`, and otherwise the leaf stays the root and holds what `RemoveAndDeleteRecord` left in it; if the root is an internal page, the root page id is not `INVALID_PAGE_ID` afterwards. `AdjustRoot` itself, in any state, makes the only child the root when the old root is an internal page of size 1, and leaves the state as it is for an internal page of any other size. An empty tree is left as it is. -/
theorem root_after_remove (l m : Nat) (ops : List TreeOp) (t t1 : BPlusTree) (key : KeyType)
    (hreach : (BPlusTree.new l m).applyAll ops = .ok t) (hres : t.Remove key = .ok t1) :
    (t.root_page_id_ ≠ INVALID_PAGE_ID →
      ∃ n, t.pages t.root_page_id_ = some n ∧
        (n.IsLeafPage = true →
          ((BPlusTreeLeafPage.RemoveAndDeleteRecord n key).1.GetSize = 0 →
            t1.root_page_id_ = INVALID_PAGE_ID) ∧
          (1 ≤ (BPlusTreeLeafPage.RemoveAndDeleteRecord n key).1.GetSize →
            t1.root_page_id_ = t.root_page_id_ ∧
            t1.pages t.root_page_id_ =
              some (BPlusTreeLeafPage.RemoveAndDeleteRecord n key).1)) ∧
        (n.IsLeafPage = false → t1.root_page_id_ ≠ INVALID_PAGE_ID)) ∧
    (∀ (s s1 : BPlusTree) (p : page_id_t) (n : BPlusTreePage) (b : Bool),
      s.pages p = some n → s.AdjustRoot p = .ok (s1, b) →
      (n.IsLeafPage = true → s1.root_page_id_ = INVALID_PAGE_ID ∧ b = true) ∧
      (n.IsLeafPage = false → n.GetSize = 1 →
        ∃ item, n.array = [item] ∧ s1.root_page_id_ = item.2 ∧ b = true) ∧
      (n.IsLeafPage = false → n.GetSize ≠ 1 → s1 = s ∧ b = false)) ∧
    (t.root_page_id_ = INVALID_PAGE_ID → t1 = t) := by
  refine ⟨?_, fun s s1 p n b hn ha => AdjustRoot_root s s1 p n b hn ha, ?_⟩
  · intro he
    have hs : Sound t := applyAll_sound ops _ t (Sound_new l m) hreach
    obtain ⟨hpos, hfresh, hcase⟩ := hs
    rcases hcase with hc | ⟨g, hinv⟩
    · exact absurd hc he
    · obtain ⟨rn, hrn, hRok⟩ := hinv.pages _ hinv.root_live
      refine ⟨rn, hrn, ?_⟩
      have he2 : t.IsEmpty = false := by simp [BPlusTree.IsEmpty, he]
      obtain ⟨X, o1, xn, hfl, ⟨txn1, ho1, htxn1⟩, hXl, hX, hleaf, hka, hkb⟩ :=
        FindLeafPage_ord t g hinv key Operate_Type.OP_DELETE _ (Crabing_P t _)
          (some Transaction.new) ⟨_, rfl, rfl⟩
      rw [ho1] at hfl
      have hfX : t.FetchPage X = .ok xn := (FetchPage_ok _ _ _).2 hX
      obtain ⟨xn2, hxn2, hXok⟩ := hinv.pages X hXl
      rw [hX] at hxn2; cases hxn2
      obtain ⟨hr1, hr2, hr3⟩ := Leaf_Remove_sublist xn key
      have hord2 : Ord (t.setPage X (BPlusTreeLeafPage.RemoveAndDeleteRecord xn key).1) g := by
        rw [hr1]
        exact Ord_leaf_update t g _ _ _ hinv X xn _ hXl hX hleaf
          (List.Pairwise.sublist hr2 (hXok.leaf_sorted hleaf))
          (fun x hx => hXok.leaf_range hleaf x (hr2.subset hx)) xn.next_page_id_
      have hleaf2 : (BPlusTreeLeafPage.RemoveAndDeleteRecord xn key).1.page_type_ =
          IndexPageType.LEAF_PAGE := by rw [hr1]; exact hleaf
      unfold BPlusTree.Remove at hres
      simp only [he2, Bool.false_eq_true, if_false, bind, Except.bind, hfl, hfX] at hres
      constructor
      · -- the root is a leaf: it is the leaf the key belongs to
        intro hrl
        have hrl2 := (IsLeafPage_iff rn).mp hrl
        have hXr : X = t.root_page_id_ := by
          apply lev_root t g hinv X hXl
          have h1 := hXok.lev_le
          have h2 := hRok.leaf_lev hrl2
          omega
        subst hXr
        rw [hrn] at hX; cases hX
        have hmin : (BPlusTreeLeafPage.RemoveAndDeleteRecord rn key).1.GetMinSize = 1 := by
          have hp : (BPlusTreeLeafPage.RemoveAndDeleteRecord rn key).1.parent_page_id_ =
              INVALID_PAGE_ID := by rw [hr1]; exact hRok.root_parent rfl
          simp [BPlusTreePage.GetMinSize, BPlusTreePage.IsRootPage, BPlusTreePage.IsLeafPage,
            hp, hleaf2]
        rw [hmin, hr3] at hres
        constructor
        · intro hz
          rw [if_pos (by omega)] at hres
          cases hco : BPlusTree.CoalesceOrRedistribute
              (t.setPage t.root_page_id_ (BPlusTreeLeafPage.RemoveAndDeleteRecord rn key).1).fuel
              (t.setPage t.root_page_id_ (BPlusTreeLeafPage.RemoveAndDeleteRecord rn key).1)
              txn1 true t.root_page_id_ with
          | error e => simp only [hco] at hres; cases hres
          | ok rc =>
            simp only [hco] at hres
            cases hfp : rc.1.FreePagesInTransaction true (some rc.2.1) (-1) with
            | error e => simp only [hfp] at hres; cases hres
            | ok q =>
              simp only [hfp] at hres
              rw [← Except.ok.inj hres]
              obtain ⟨h1, _⟩ := FreePages_spec rc.1 q.1 true rc.2.1 (-1) q.2 hfp
              rw [h1]
              have hfN : (t.setPage t.root_page_id_
                  (BPlusTreeLeafPage.RemoveAndDeleteRecord rn key).1).FetchPage t.root_page_id_ =
                  .ok (BPlusTreeLeafPage.RemoveAndDeleteRecord rn key).1 :=
                (FetchPage_ok _ _ _).2 (setPage_same _ _ _)
              have hroot : (BPlusTreeLeafPage.RemoveAndDeleteRecord rn key).1.IsRootPage = true := by
                rw [IsRootPage_iff, hr1]; exact hRok.root_parent rfl
              unfold BPlusTree.fuel at hco
              unfold BPlusTree.CoalesceOrRedistribute at hco
              simp only [bind, Except.bind, hfN, hroot, if_true] at hco
              cases ha : (t.setPage t.root_page_id_
                  (BPlusTreeLeafPage.RemoveAndDeleteRecord rn key).1).AdjustRoot
                  t.root_page_id_ with
              | error e => simp [ha] at hco
              | ok p =>
                obtain ⟨t3, b⟩ := p
                obtain ⟨h3, _, _⟩ := AdjustRoot_root _ t3 t.root_page_id_ _ b
                  (setPage_same _ _ _) ha
                have hroot3 := (h3 ((IsLeafPage_iff _).mpr hleaf2)).1
                simp only [ha] at hco
                cases hf3 : t3.FetchPage t.root_page_id_ with
                | error e => simp [hf3] at hco
                | ok n3 =>
                  simp only [hf3] at hco
                  rw [← Except.ok.inj hco]
                  exact hroot3
        · intro hz
          rw [if_neg (by omega)] at hres
          rw [FreePages_some _ true txn1 (-1) htxn1] at hres
          simp only at hres
          rw [← Except.ok.inj hres]
          exact ⟨rfl, setPage_same _ _ _⟩
      · -- the root is an internal page
        intro hrl
        have hXr : X ≠ t.root_page_id_ := by
          intro hc
          rw [hc, hrn] at hX
          cases hX
          rw [(IsLeafPage_iff rn).mpr hleaf] at hrl
          cases hrl
        split at hres
        · cases hco : BPlusTree.CoalesceOrRedistribute
              (t.setPage X (BPlusTreeLeafPage.RemoveAndDeleteRecord xn key).1).fuel
              (t.setPage X (BPlusTreeLeafPage.RemoveAndDeleteRecord xn key).1) txn1 true X with
          | error e => simp only [hco] at hres; cases hres
          | ok rc =>
            simp only [hco] at hres
            have hne := CoR_root _ _ g txn1 true X _ hord2 hXl (setPage_same _ _ _)
              (fun _ => hleaf2) (fun hc => by cases hc)
              (fun hc => by rw [hleaf2] at hc; cases hc)
              (by rw [htxn1]; intro d hd; cases hd) (fun _ => hXr) rc hco
            cases hfp : rc.1.FreePagesInTransaction true (some rc.2.1) (-1) with
            | error e => simp only [hfp] at hres; cases hres
            | ok q =>
              simp only [hfp] at hres
              rw [← Except.ok.inj hres]
              obtain ⟨h1, _⟩ := FreePages_spec rc.1 q.1 true rc.2.1 (-1) q.2 hfp
              rw [h1]
              exact hne
        · rw [FreePages_some _ true txn1 (-1) htxn1] at hres
          simp only at hres
          rw [← Except.ok.inj hres]
          exact he
  · intro he
    unfold BPlusTree.Remove at hres
    have he2 : t.IsEmpty = true := by simp [BPlusTree.IsEmpty, he]
    simp only [he2, if_true] at hres
    exact (Except.ok.inj hres).symm

theorem root_after_remove_witness :
    (BPlusTree.new 3 4).applyAll (insertAll [1, 2]) =
      .ok ((BPlusTree.new 3 4).applyAllD (insertAll [1, 2])) ∧
    ((BPlusTree.new 3 4).applyAllD (insertAll [1, 2])).Remove 1 =
      .ok (((BPlusTree.new 3 4).applyAllD (insertAll [1, 2])).applyAllD [TreeOp.Remove 1]) ∧
    (((BPlusTree.new 3 4).applyAllD (insertAll [1, 2])).root_page_id_ ≠ INVALID_PAGE_ID →
      ∃ n, ((BPlusTree.new 3 4).applyAllD (insertAll [1, 2])).pages
          ((BPlusTree.new 3 4).applyAllD (insertAll [1, 2])).root_page_id_ = some n ∧
        (n.IsLeafPage = true →
          ((BPlusTreeLeafPage.RemoveAndDeleteRecord n 1).1.GetSize = 0 →
            (((BPlusTree.new 3 4).applyAllD (insertAll [1, 2])).applyAllD
              [TreeOp.Remove 1]).root_page_id_ = INVALID_PAGE_ID) ∧
          (1 ≤ (BPlusTreeLeafPage.RemoveAndDeleteRecord n 1).1.GetSize →
            (((BPlusTree.new 3 4).applyAllD (insertAll [1, 2])).applyAllD
              [TreeOp.Remove 1]).root_page_id_ =
              ((BPlusTree.new 3 4).applyAllD (insertAll [1, 2])).root_page_id_ ∧
            (((BPlusTree.new 3 4).applyAllD (insertAll [1, 2])).applyAllD
              [TreeOp.Remove 1]).pages
                ((BPlusTree.new 3 4).applyAllD (insertAll [1, 2])).root_page_id_ =
              some (BPlusTreeLeafPage.RemoveAndDeleteRecord n 1).1)) ∧
        (n.IsLeafPage = false →
          (((BPlusTree.new 3 4).applyAllD (insertAll [1, 2])).applyAllD
            [TreeOp.Remove 1]).root_page_id_ ≠ INVALID_PAGE_ID)) :=
  ⟨applyAll_of_none _ _ (by decide), Remove_of_none _ 1 (by decide),
    (root_after_remove 3 4 (insertAll [1, 2]) _ _ 1 (applyAll_of_none _ _ (by decide))
      (Remove_of_none _ 1 (by decide))).1⟩

/-! ## B+ tree: what a merge does to the parent -/

/-- C24 (code defect). With leaf_max_size 3 and internal_max_size 4 the keys 1 to 7 are
inserted in ascending order (values `10 * key`); the root, page 7, then has the three
children 3, 6 and 10. `Remove(1)` first merges the leaves 1 and 2: the parent, page 3,
loses the entry of the following leaf 2 and nothing else. It then merges the internal
pages 3 and 6: the preceding page 3 ends with the entries of both and page 6 is scheduled
for deletion, but the parent, page 7, loses two entries, the one of page 6 and the one of
page 10. After `Remove(1)` the keys 5, 6 and 7 are not found any more. -/
theorem internal_merge_drops_two :
    Err.of ((BPlusTree.new 3 4).applyAll (insertAll [1, 2, 3, 4, 5, 6, 7])) = none ∧
    ((BPlusTree.new 3 4).applyAllD (insertAll [1, 2, 3, 4, 5, 6, 7])).arrayOf 7 =
      some [(0, 3), (3, 6), (5, 10)] ∧
    ((BPlusTree.new 3 4).applyAllD (insertAll [1, 2, 3, 4, 5, 6, 7])).arrayOf 3 =
      some [(0, 1), (2, 2)] ∧
    -- the merge of the leaves 1 and 2
    ((((BPlusTree.new 3 4).applyAllD (insertAll [1, 2, 3, 4, 5, 6, 7])).removeRecord 1
        1).CoalesceStep Transaction.new true 1 2 3 1).toOption.map
      (fun r => (r.1.arrayOf 1, r.1.arrayOf 3, r.2.1.deleted_page_set)) =
      some (some [(2, 20)], some [(0, 1)], [2]) ∧
    -- the merge of the internal pages 3 and 6 that follows
    (((((BPlusTree.new 3 4).applyAllD (insertAll [1, 2, 3, 4, 5, 6, 7])).removeRecord 1
        1).CoalesceStep Transaction.new true 1 2 3 1).toOption.bind
      (fun r => (r.1.CoalesceStep r.2.1 false 3 6 7 1).toOption)).map
      (fun r => (r.1.arrayOf 3, r.1.arrayOf 7, r.2.1.deleted_page_set)) =
      some (some [(0, 1), (3, 4), (4, 5)], some [(0, 3)], [6, 2]) ∧
    -- the whole call
    Err.of (((BPlusTree.new 3 4).applyAllD (insertAll [1, 2, 3, 4, 5, 6, 7])).Remove 1) =
      none ∧
    ((BPlusTree.new 3 4).applyAllD (insertAll [1, 2, 3, 4, 5, 6, 7])).find 5 =
      some (true, [50]) ∧
    ((BPlusTree.new 3 4).applyAllD (insertAll [1, 2, 3, 4, 5, 6, 7] ++ [.Remove 1])).find 5 =
      some (false, []) ∧
    ((BPlusTree.new 3 4).applyAllD
      (insertAll [1, 2, 3, 4, 5, 6, 7] ++ [.Remove 1])).root_page_id_ = 3 ∧
    ((BPlusTree.new 3 4).applyAllD (insertAll [1, 2, 3, 4, 5, 6, 7] ++ [.Remove 1])).arrayOf 3 =
      some [(0, 1), (3, 4), (4, 5)] :=
  ⟨by decide, by decide, by decide, by decide, by decide, by decide, by decide, by decide,
    by decide, by decide⟩

/-! ## Lemmas on the lock manager -/

theorem LockManager.setTxn_txns (s : LockManager) (txn t : txn_id_t) (x : LockManager.Transaction) :
    (s.setTxn txn x).txns t = if t = txn then x else s.txns t := rfl

theorem LockManager.setTxn_waiting (s : LockManager) (txn : txn_id_t) (x : LockManager.Transaction) :
    (s.setTxn txn x).waiting = s.waiting := rfl

theorem LockManager.setTxn_table (s : LockManager) (txn : txn_id_t) (x : LockManager.Transaction) :
    (s.setTxn txn x).lock_table_ = s.lock_table_ := rfl

theorem LockManager.setQueue_txns (s : LockManager) (rid : RID) (q : LockManager.LockRequestQueue) :
    (s.setQueue rid q).txns = s.txns := rfl

theorem LockManager.setQueue_waiting (s : LockManager) (rid : RID) (q : LockManager.LockRequestQueue) :
    (s.setQueue rid q).waiting = s.waiting := rfl

theorem LockManager.SetState_txns (s : LockManager) (txn t : txn_id_t) (st : TransactionState) :
    (s.SetState txn st).txns t = if t = txn then { s.txns txn with state_ := st } else s.txns t := rfl

theorem LockManager.SetState_waiting (s : LockManager) (txn : txn_id_t) (st : TransactionState) :
    (s.SetState txn st).waiting = s.waiting := rfl

theorem LockManager.SetState_table (s : LockManager) (txn : txn_id_t) (st : TransactionState) :
    (s.SetState txn st).lock_table_ = s.lock_table_ := rfl

/-- The part of a call after its wait leaves the other transactions and the blocked calls
as they are. -/
theorem LockManager.afterWait_other (s : LockManager) (txn t : txn_id_t) (c : LockManager.Call)
    (h : t ≠ txn) :
    (s.afterWait txn c).1.txns t = s.txns t ∧ (s.afterWait txn c).1.waiting = s.waiting := by
  cases c <;> simp only [LockManager.afterWait, LockManager.AbortTransaction] <;>
    (try split_ifs) <;>
    simp [LockManager.setTxn_txns, LockManager.SetState_txns, LockManager.setQueue_txns,
      LockManager.setTxn_waiting, LockManager.SetState_waiting, LockManager.setQueue_waiting, h]

theorem LockManager.wait_other (s : LockManager) (txn t : txn_id_t) (c : LockManager.Call)
    (h : t ≠ txn) :
    (s.wait txn c).1.txns t = s.txns t ∧ (s.wait txn c).1.waiting t = s.waiting t := by
  unfold LockManager.wait
  split_ifs
  · have := s.afterWait_other txn t c h
    exact ⟨this.1, by rw [this.2]⟩
  · simp [setAt, h]

/-- A call of `txn` leaves every other transaction as it is, blocked or not. -/
theorem LockManager.Do_other (s : LockManager) (txn t : txn_id_t) (c : LockManager.Call)
    (h : t ≠ txn) :
    (s.Do txn c).1.txns t = s.txns t ∧ (s.Do txn c).1.waiting t = s.waiting t := by
  have hw1 : ∀ (s1 : LockManager) c1, (s1.wait txn c1).1.txns t = s1.txns t :=
    fun s1 c1 => (s1.wait_other txn t c1 h).1
  have hw2 : ∀ (s1 : LockManager) c1, (s1.wait txn c1).1.waiting t = s1.waiting t :=
    fun s1 c1 => (s1.wait_other txn t c1 h).2
  cases c <;>
    simp only [LockManager.Do, LockManager.LockShared, LockManager.LockExclusive,
      LockManager.LockUpgrade, LockManager.Unlock, LockManager.AbortTransaction] <;>
    (repeat' split) <;>
    simp [hw1, hw2, LockManager.setTxn_txns, LockManager.SetState_txns, LockManager.setQueue_txns,
      LockManager.setTxn_waiting, LockManager.SetState_waiting, LockManager.setQueue_waiting, h]

theorem LockManager.Wake_other (s : LockManager) (txn t : txn_id_t) (h : t ≠ txn) :
    (s.Wake txn).1.txns t = s.txns t ∧ (s.Wake txn).1.waiting t = s.waiting t := by
  unfold LockManager.Wake
  split
  · simp
  · split_ifs
    · rename_i c _ _
      have := LockManager.afterWait_other { s with waiting := setAt s.waiting txn none } txn t c h
      refine ⟨this.1, ?_⟩
      rw [this.2]
      simp [setAt, h]
    · simp

theorem LockManager.wait_aborted (s : LockManager) (T : txn_id_t) (c : LockManager.Call)
    (hc : c.isLock = true) (h : (s.txns T).state_ = TransactionState.ABORTED) :
    s.wait T c = (s.SetState T TransactionState.ABORTED, LockManager.Outcome.abort AbortReason.DEADLOCK) := by
  cases c <;> simp [LockManager.Call.isLock] at hc <;>
    simp [LockManager.wait, LockManager.ready, LockManager.afterWait, LockManager.AbortTransaction, h]

/-- A lock call of a `REPEATABLE_READ` transaction that is past its growing phase. -/
theorem LockManager.Do_shrunk (s : LockManager) (T : txn_id_t) (c : LockManager.Call)
    (h : s.Shrunk T) (hc : c.isLock = true) :
    ((s.Do T c).1.txns T).shared_lock_set_ = (s.txns T).shared_lock_set_ ∧
    ((s.Do T c).1.txns T).exclusive_lock_set_ = (s.txns T).exclusive_lock_set_ ∧
    ((s.Do T c).1.txns T).isolation_level_ = (s.txns T).isolation_level_ ∧
    ((s.Do T c).1.txns T).state_ = TransactionState.ABORTED ∧
    (s.Do T c).1.waiting T = none ∧
    ((s.txns T).state_ = TransactionState.SHRINKING →
      (s.Do T c).2 = LockManager.Outcome.abort AbortReason.LOCK_ON_SHRINKING) ∧
    ((∃ reason, (s.Do T c).2 = LockManager.Outcome.abort reason) ∨
      ((s.txns T).state_ = TransactionState.ABORTED ∧
        (((s.Do T c).2 = LockManager.Outcome.ret true ∧
            ((s.txns T).shared_lock_set_ c.rid = true ∨ (s.txns T).exclusive_lock_set_ c.rid = true)) ∨
          ((s.Do T c).2 = LockManager.Outcome.assertion ∧ c = LockManager.Call.LockUpgrade c.rid)))) := by
  obtain ⟨hiso, hst, hw⟩ := h
  have hwa : ∀ (s1 : LockManager) c1, c1.isLock = true →
      (s1.txns T).state_ = TransactionState.ABORTED →
      s1.wait T c1 = (s1.SetState T TransactionState.ABORTED,
        LockManager.Outcome.abort AbortReason.DEADLOCK) :=
    fun s1 c1 h1 h2 => s1.wait_aborted T c1 h1 h2
  rcases hst with hst | hst <;> cases c <;> simp [LockManager.Call.isLock] at hc <;>
    simp only [LockManager.Do, LockManager.LockShared, LockManager.LockExclusive,
      LockManager.LockUpgrade, LockManager.AbortTransaction, LockManager.Call.rid] <;>
    (repeat' split) <;>
    simp_all [LockManager.setTxn_txns, LockManager.SetState_txns, LockManager.setQueue_txns,
      LockManager.setTxn_waiting, LockManager.SetState_waiting, LockManager.setQueue_waiting,
      LockManager.Call.isLock]

theorem LockManager.afterWait_self (s : LockManager) (txn : txn_id_t) (c : LockManager.Call) :
    ((s.afterWait txn c).1.txns txn).isolation_level_ = (s.txns txn).isolation_level_ ∧
    (((s.afterWait txn c).1.txns txn).state_ = (s.txns txn).state_ ∨
      ((s.afterWait txn c).1.txns txn).state_ = TransactionState.ABORTED) := by
  cases c <;> simp only [LockManager.afterWait, LockManager.AbortTransaction] <;>
    (repeat' split) <;>
    simp [LockManager.setTxn_txns, LockManager.SetState_txns, LockManager.setQueue_txns]

theorem LockManager.wait_self (s : LockManager) (txn : txn_id_t) (c : LockManager.Call) :
    ((s.wait txn c).1.txns txn).isolation_level_ = (s.txns txn).isolation_level_ ∧
    (((s.wait txn c).1.txns txn).state_ = (s.txns txn).state_ ∨
      ((s.wait txn c).1.txns txn).state_ = TransactionState.ABORTED) := by
  unfold LockManager.wait
  split_ifs
  · exact s.afterWait_self txn c
  · simp

/-- A call keeps the isolation level of its transaction; the state stays, becomes
`ABORTED`, or goes from `GROWING` to `SHRINKING`. -/
theorem LockManager.Do_self (s : LockManager) (txn : txn_id_t) (c : LockManager.Call) :
    ((s.Do txn c).1.txns txn).isolation_level_ = (s.txns txn).isolation_level_ ∧
    (((s.Do txn c).1.txns txn).state_ = (s.txns txn).state_ ∨
      ((s.Do txn c).1.txns txn).state_ = TransactionState.ABORTED ∨
      ((s.Do txn c).1.txns txn).state_ = TransactionState.SHRINKING) := by
  have hw1 : ∀ (s1 : LockManager) c1,
      ((s1.wait txn c1).1.txns txn).isolation_level_ = (s1.txns txn).isolation_level_ :=
    fun s1 c1 => (s1.wait_self txn c1).1
  have hw2 : ∀ (s1 : LockManager) c1,
      ((s1.wait txn c1).1.txns txn).state_ = (s1.txns txn).state_ ∨
        ((s1.wait txn c1).1.txns txn).state_ = TransactionState.ABORTED :=
    fun s1 c1 => (s1.wait_self txn c1).2
  cases c <;>
    simp only [LockManager.Do, LockManager.LockShared, LockManager.LockExclusive,
      LockManager.LockUpgrade, LockManager.Unlock, LockManager.AbortTransaction] <;>
    (repeat' split) <;>
    first
    | (simp [LockManager.setTxn_txns, LockManager.SetState_txns, LockManager.setQueue_txns])
    | (refine ⟨by simpa [LockManager.setQueue_txns] using hw1 _ _, ?_⟩
       rcases hw2 _ _ with h | h
       · left; rw [h]; simp [LockManager.setQueue_txns]
       · right; left; exact h)

/-- `Unlock` takes no lock: the lock sets of the caller only lose `rid`, its isolation
level stays, no call gets blocked, and a `REPEATABLE_READ` caller that was `GROWING` is
`SHRINKING` afterwards while any other state stays. -/
theorem LockManager.Unlock_self (s : LockManager) (txn : txn_id_t) (rid : RID) :
    (∀ r, ((s.Unlock txn rid).1.txns txn).shared_lock_set_ r = true →
      (s.txns txn).shared_lock_set_ r = true) ∧
    (∀ r, ((s.Unlock txn rid).1.txns txn).exclusive_lock_set_ r = true →
      (s.txns txn).exclusive_lock_set_ r = true) ∧
    ((s.Unlock txn rid).1.txns txn).isolation_level_ = (s.txns txn).isolation_level_ ∧
    (s.Unlock txn rid).1.waiting = s.waiting ∧
    ((s.Unlock txn rid).1.txns txn).state_ =
      (if (s.txns txn).isolation_level_ = IsolationLevel.REPEATABLE_READ ∧
          (s.txns txn).state_ = TransactionState.GROWING then TransactionState.SHRINKING
        else (s.txns txn).state_) := by
  simp only [LockManager.Unlock]
  (repeat' split) <;>
    simp_all [LockManager.setTxn_txns, LockManager.SetState_txns, LockManager.setQueue_txns,
      LockManager.setTxn_waiting, LockManager.SetState_waiting, LockManager.setQueue_waiting,
      setRid]

theorem LockManager.step_started (s : LockManager) (e : LockManager.Event)
    (iso : txn_id_t → IsolationLevel) (h : s.Started iso) : (s.step e).Started iso := by
  intro t
  have ht := h t
  cases e with
  | call txn c =>
    simp only [LockManager.step]
    split
    · by_cases htx : t = txn
      · subst htx
        obtain ⟨h1, h2⟩ := s.Do_self t c
        rw [h1]
        refine ⟨ht.1, ?_⟩
        rcases h2 with h2 | h2 | h2 <;> rw [h2]
        · exact ht.2
        · decide
        · decide
      · rw [(s.Do_other txn t c htx).1]
        exact ht
    · exact ht
  | wake txn =>
    simp only [LockManager.step]
    by_cases htx : t = txn
    · subst htx
      unfold LockManager.Wake
      split
      · exact ht
      · split_ifs
        · rename_i c _ _
          obtain ⟨h1, h2⟩ :=
            LockManager.afterWait_self { s with waiting := setAt s.waiting t none } t c
          rw [h1]
          refine ⟨ht.1, ?_⟩
          rcases h2 with h2 | h2 <;> rw [h2]
          · exact ht.2
          · decide
        · exact ht
    · rw [(s.Wake_other txn t htx).1]
      exact ht
  | victim txn =>
    simp only [LockManager.step, LockManager.SetState_txns]
    split_ifs with htx
    · subst htx
      exact ⟨ht.1, by simp⟩
    · exact ht

theorem LockManager.run_started (es : List LockManager.Event) (s : LockManager)
    (iso : txn_id_t → IsolationLevel) (h : s.Started iso) : (s.run es).Started iso := by
  induction es generalizing s with
  | nil => exact h
  | cons e es ih => exact ih (s.step e) (s.step_started e iso h)

theorem LockManager.new_started (iso : txn_id_t → IsolationLevel) :
    (LockManager.new iso).Started iso := by
  intro t
  exact ⟨rfl, by simp [LockManager.new]⟩

/-- Once a `REPEATABLE_READ` transaction is past its growing phase with no call blocked,
every event keeps it so, and adds no record to its lock sets. -/
theorem LockManager.step_shrunk (s : LockManager) (e : LockManager.Event) (T : txn_id_t)
    (h : s.Shrunk T) :
    (s.step e).Shrunk T ∧
    (∀ r, ((s.step e).txns T).shared_lock_set_ r = true → (s.txns T).shared_lock_set_ r = true) ∧
    (∀ r, ((s.step e).txns T).exclusive_lock_set_ r = true →
      (s.txns T).exclusive_lock_set_ r = true) := by
  have hsame : ∀ s1 : LockManager, s1.txns T = s.txns T → s1.waiting T = s.waiting T →
      s1.Shrunk T ∧
      (∀ r, (s1.txns T).shared_lock_set_ r = true → (s.txns T).shared_lock_set_ r = true) ∧
      (∀ r, (s1.txns T).exclusive_lock_set_ r = true →
        (s.txns T).exclusive_lock_set_ r = true) := by
    intro s1 h1 h2
    refine ⟨?_, ?_, ?_⟩
    · unfold LockManager.Shrunk
      rw [h1, h2]
      exact h
    · rw [h1]; exact fun _ hr => hr
    · rw [h1]; exact fun _ hr => hr
  cases e with
  | call txn c =>
    simp only [LockManager.step]
    split
    · by_cases htx : T = txn
      · subst htx
        by_cases hc : c.isLock = true
        · obtain ⟨h1, h2, h3, h4, h5, _, _⟩ := s.Do_shrunk T c h hc
          refine ⟨⟨?_, ?_, h5⟩, ?_, ?_⟩
          · rw [h3]; exact h.1
          · right; exact h4
          · rw [h1]; exact fun _ hr => hr
          · rw [h2]; exact fun _ hr => hr
        · cases c <;> simp [LockManager.Call.isLock] at hc
          rename_i rid
          obtain ⟨h1, h2, h3, h4, h5⟩ := s.Unlock_self T rid
          obtain ⟨hiso, hst, hw⟩ := h
          refine ⟨⟨?_, ?_, ?_⟩, h1, h2⟩
          · simp only [LockManager.Do]; rw [h3]; exact hiso
          · simp only [LockManager.Do]; rw [h5]
            rcases hst with hst | hst <;> simp [hst]
          · simp only [LockManager.Do]; rw [h4]; exact hw
      · exact hsame _ (s.Do_other txn T c htx).1 (s.Do_other txn T c htx).2
    · exact hsame s rfl rfl
  | wake txn =>
    simp only [LockManager.step]
    by_cases htx : T = txn
    · subst htx
      have : s.Wake T = (s, LockManager.Outcome.blocked) := by
        unfold LockManager.Wake
        rw [h.2.2]
      rw [this]
      exact hsame s rfl rfl
    · exact hsame _ (s.Wake_other txn T htx).1 (s.Wake_other txn T htx).2
  | victim txn =>
    simp only [LockManager.step]
    obtain ⟨hiso, hst, hw⟩ := h
    refine ⟨⟨?_, ?_, ?_⟩, ?_, ?_⟩
    · simp only [LockManager.SetState_txns]; split_ifs <;> simp_all
    · simp only [LockManager.SetState_txns]
      split_ifs with htx
      · right; rfl
      · exact hst
    · exact hw
    · simp only [LockManager.SetState_txns]; intro r; split_ifs <;> simp_all
    · simp only [LockManager.SetState_txns]; intro r; split_ifs <;> simp_all

theorem LockManager.run_shrunk (es : List LockManager.Event) (s : LockManager) (T : txn_id_t)
    (h : s.Shrunk T) :
    (s.run es).Shrunk T ∧
    (∀ r, ((s.run es).txns T).shared_lock_set_ r = true → (s.txns T).shared_lock_set_ r = true) ∧
    (∀ r, ((s.run es).txns T).exclusive_lock_set_ r = true →
      (s.txns T).exclusive_lock_set_ r = true) := by
  induction es generalizing s with
  | nil => exact ⟨h, fun _ hr => hr, fun _ hr => hr⟩
  | cons e es ih =>
    obtain ⟨h1, h2, h3⟩ := s.step_shrunk e T h
    obtain ⟨k1, k2, k3⟩ := ih (s.step e) h1
    exact ⟨k1, fun r hr => h2 r (k2 r hr), fun r hr => h3 r (k3 r hr)⟩

/-- The first `Unlock` of a `REPEATABLE_READ` transaction ends its growing phase. -/
theorem LockManager.Unlock_shrunk (s : LockManager) (iso : txn_id_t → IsolationLevel)
    (T : txn_id_t) (q : RID) (h : s.Started iso) (hiso : iso T = IsolationLevel.REPEATABLE_READ)
    (hw : s.waiting T = none) : (s.Unlock T q).1.Shrunk T := by
  obtain ⟨_, _, h3, h4, h5⟩ := s.Unlock_self T q
  have ht := h T
  refine ⟨?_, ?_, ?_⟩
  · rw [h3, ht.1, hiso]
  · rw [h5]
    split_ifs with hc
    · left; rfl
    · have h2 := ht.2
      rw [ht.1, hiso] at hc
      cases hs : (s.txns T).state_ <;> simp_all
  · rw [h4]; exact hw

/-! ## Lock manager: the claims -/

/-- C27 (as stated, refuted): a `REPEATABLE_READ` transaction 1 calls `LockShared(r)`, `LockShared(q)`, `Unlock(q)` and `LockShared(r)`; the last call fails with `LOCK_ON_SHRINKING` and leaves the transaction `ABORTED` with `r` still in its shared-lock set. A further `LockShared(r)` then returns `true`: it does not fail with `TransactionAbort`. -/
theorem lock_call_returns_after_unlock :
    (((LockManager.new (fun _ => IsolationLevel.REPEATABLE_READ)).run
        [LockManager.Event.call 1 (LockManager.Call.LockShared ⟨0, 0⟩),
          LockManager.Event.call 1 (LockManager.Call.LockShared ⟨0, 1⟩)]).Do 1
        (LockManager.Call.Unlock ⟨0, 1⟩)).2 = LockManager.Outcome.ret true ∧
    (((LockManager.new (fun _ => IsolationLevel.REPEATABLE_READ)).run
        [LockManager.Event.call 1 (LockManager.Call.LockShared ⟨0, 0⟩),
          LockManager.Event.call 1 (LockManager.Call.LockShared ⟨0, 1⟩),
          LockManager.Event.call 1 (LockManager.Call.Unlock ⟨0, 1⟩)]).Do 1
        (LockManager.Call.LockShared ⟨0, 0⟩)).2 =
      LockManager.Outcome.abort AbortReason.LOCK_ON_SHRINKING ∧
    (((LockManager.new (fun _ => IsolationLevel.REPEATABLE_READ)).run
        [LockManager.Event.call 1 (LockManager.Call.LockShared ⟨0, 0⟩),
          LockManager.Event.call 1 (LockManager.Call.LockShared ⟨0, 1⟩),
          LockManager.Event.call 1 (LockManager.Call.Unlock ⟨0, 1⟩),
          LockManager.Event.call 1 (LockManager.Call.LockShared ⟨0, 0⟩)]).txns 1).state_ =
      TransactionState.ABORTED ∧
    (((LockManager.new (fun _ => IsolationLevel.REPEATABLE_READ)).run
        [LockManager.Event.call 1 (LockManager.Call.LockShared ⟨0, 0⟩),
          LockManager.Event.call 1 (LockManager.Call.LockShared ⟨0, 1⟩),
          LockManager.Event.call 1 (LockManager.Call.Unlock ⟨0, 1⟩),
          LockManager.Event.call 1 (LockManager.Call.LockShared ⟨0, 0⟩)]).txns 1).shared_lock_set_
        ⟨0, 0⟩ = true ∧
    (((LockManager.new (fun _ => IsolationLevel.REPEATABLE_READ)).run
        [LockManager.Event.call 1 (LockManager.Call.LockShared ⟨0, 0⟩),
          LockManager.Event.call 1 (LockManager.Call.LockShared ⟨0, 1⟩),
          LockManager.Event.call 1 (LockManager.Call.Unlock ⟨0, 1⟩),
          LockManager.Event.call 1 (LockManager.Call.LockShared ⟨0, 0⟩)]).Do 1
        (LockManager.Call.LockShared ⟨0, 0⟩)).2 = LockManager.Outcome.ret true :=
  ⟨by decide, by decide, by decide, by decide, by decide⟩

/-- C27 (amended): a `REPEATABLE_READ` transaction `T` whose thread is not blocked calls `Unlock` after any events on a new lock manager. Whatever events follow, no record that was not in a lock set of `T` before the `Unlock` is in it later, and every later `LockShared`, `LockExclusive` or `LockUpgrade` call of `T` leaves both lock sets of `T` as they are and `T` in state `ABORTED`. The call fails with `LOCK_ON_SHRINKING` when `T` is `SHRINKING`; when `T` is already `ABORTED` it fails with `TransactionAbort`, or returns `true` for a record `T` holds, or stops at an assertion of `LockUpgrade`. -/
theorem no_lock_after_unlock (iso : txn_id_t → IsolationLevel) (pre mid : List LockManager.Event)
    (T : txn_id_t) (q : RID) (c : LockManager.Call)
    (hiso : iso T = IsolationLevel.REPEATABLE_READ)
    (hw : ((LockManager.new iso).run pre).waiting T = none) (hc : c.isLock = true) :
    (∀ r, ((LockManager.afterUnlock iso pre T q mid).txns T).shared_lock_set_ r = true →
      (((LockManager.new iso).run pre).txns T).shared_lock_set_ r = true) ∧
    (∀ r, ((LockManager.afterUnlock iso pre T q mid).txns T).exclusive_lock_set_ r = true →
      (((LockManager.new iso).run pre).txns T).exclusive_lock_set_ r = true) ∧
    (((LockManager.afterUnlock iso pre T q mid).Do T c).1.txns T).shared_lock_set_ =
      ((LockManager.afterUnlock iso pre T q mid).txns T).shared_lock_set_ ∧
    (((LockManager.afterUnlock iso pre T q mid).Do T c).1.txns T).exclusive_lock_set_ =
      ((LockManager.afterUnlock iso pre T q mid).txns T).exclusive_lock_set_ ∧
    (((LockManager.afterUnlock iso pre T q mid).Do T c).1.txns T).state_ =
      TransactionState.ABORTED ∧
    (LockManager.afterUnlock iso pre T q mid).waiting T = none ∧
    (((LockManager.afterUnlock iso pre T q mid).txns T).state_ = TransactionState.SHRINKING →
      ((LockManager.afterUnlock iso pre T q mid).Do T c).2 =
        LockManager.Outcome.abort AbortReason.LOCK_ON_SHRINKING) ∧
    ((∃ reason, ((LockManager.afterUnlock iso pre T q mid).Do T c).2 =
        LockManager.Outcome.abort reason) ∨
      (((LockManager.afterUnlock iso pre T q mid).txns T).state_ = TransactionState.ABORTED ∧
        ((((LockManager.afterUnlock iso pre T q mid).Do T c).2 = LockManager.Outcome.ret true ∧
            (((LockManager.afterUnlock iso pre T q mid).txns T).shared_lock_set_ c.rid = true ∨
              ((LockManager.afterUnlock iso pre T q mid).txns T).exclusive_lock_set_ c.rid = true)) ∨
          (((LockManager.afterUnlock iso pre T q mid).Do T c).2 = LockManager.Outcome.assertion ∧
            c = LockManager.Call.LockUpgrade c.rid)))) := by
  have h0 := LockManager.run_started pre _ iso (LockManager.new_started iso)
  have h1 := LockManager.Unlock_shrunk _ iso T q h0 hiso hw
  obtain ⟨u1, u2, _⟩ := LockManager.Unlock_self ((LockManager.new iso).run pre) T q
  obtain ⟨h2, m1, m2⟩ := LockManager.run_shrunk mid _ T h1
  obtain ⟨d1, d2, _, d4, _, d6, d7⟩ :=
    LockManager.Do_shrunk (LockManager.afterUnlock iso pre T q mid) T c h2 hc
  exact ⟨fun r hr => u1 r (m1 r hr), fun r hr => u2 r (m2 r hr), d1, d2, d4, h2.2.2, d6, d7⟩

theorem no_lock_after_unlock_witness :
    ((LockManager.new (fun _ => IsolationLevel.REPEATABLE_READ)).run
        [LockManager.Event.call 1 (LockManager.Call.LockShared ⟨0, 0⟩),
          LockManager.Event.call 1 (LockManager.Call.LockShared ⟨0, 1⟩)]).waiting 1 = none ∧
    (((LockManager.afterUnlock (fun _ => IsolationLevel.REPEATABLE_READ)
        [LockManager.Event.call 1 (LockManager.Call.LockShared ⟨0, 0⟩),
          LockManager.Event.call 1 (LockManager.Call.LockShared ⟨0, 1⟩)] 1 ⟨0, 1⟩
        [LockManager.Event.call 2 (LockManager.Call.LockShared ⟨0, 1⟩)]).Do 1
        (LockManager.Call.LockExclusive ⟨0, 2⟩)).1.txns 1).state_ = TransactionState.ABORTED ∧
    ((LockManager.afterUnlock (fun _ => IsolationLevel.REPEATABLE_READ)
        [LockManager.Event.call 1 (LockManager.Call.LockShared ⟨0, 0⟩),
          LockManager.Event.call 1 (LockManager.Call.LockShared ⟨0, 1⟩)] 1 ⟨0, 1⟩
        [LockManager.Event.call 2 (LockManager.Call.LockShared ⟨0, 1⟩)]).Do 1
        (LockManager.Call.LockExclusive ⟨0, 2⟩)).2 =
      LockManager.Outcome.abort AbortReason.LOCK_ON_SHRINKING :=
  ⟨by decide,
    (no_lock_after_unlock (fun _ => IsolationLevel.REPEATABLE_READ)
      [LockManager.Event.call 1 (LockManager.Call.LockShared ⟨0, 0⟩),
        LockManager.Event.call 1 (LockManager.Call.LockShared ⟨0, 1⟩)]
      [LockManager.Event.call 2 (LockManager.Call.LockShared ⟨0, 1⟩)] 1 ⟨0, 1⟩
      (LockManager.Call.LockExclusive ⟨0, 2⟩) rfl (by decide) rfl).2.2.2.2.1,
    (no_lock_after_unlock (fun _ => IsolationLevel.REPEATABLE_READ)
      [LockManager.Event.call 1 (LockManager.Call.LockShared ⟨0, 0⟩),
        LockManager.Event.call 1 (LockManager.Call.LockShared ⟨0, 1⟩)]
      [LockManager.Event.call 2 (LockManager.Call.LockShared ⟨0, 1⟩)] 1 ⟨0, 1⟩
      (LockManager.Call.LockExclusive ⟨0, 2⟩) rfl (by decide) rfl).2.2.2.2.2.2.1 (by decide)⟩

/-- C28: for a transaction in state `SHRINKING`, `LockExclusive` and `LockUpgrade` at any isolation level and `LockShared` at `REPEATABLE_READ` fail with `TransactionAbort` of reason `LOCK_ON_SHRINKING` and leave the transaction `ABORTED`; the lock table, both lock sets of the transaction, every other transaction and the blocked calls are as before. -/
theorem lock_on_shrinking (s : LockManager) (txn : txn_id_t) (rid : RID) (c : LockManager.Call)
    (hst : (s.txns txn).state_ = TransactionState.SHRINKING)
    (hc : c = LockManager.Call.LockExclusive rid ∨ c = LockManager.Call.LockUpgrade rid ∨
      (c = LockManager.Call.LockShared rid ∧
        (s.txns txn).isolation_level_ = IsolationLevel.REPEATABLE_READ)) :
    (s.Do txn c).2 = LockManager.Outcome.abort AbortReason.LOCK_ON_SHRINKING ∧
    ((s.Do txn c).1.txns txn).state_ = TransactionState.ABORTED ∧
    (s.Do txn c).1.lock_table_ = s.lock_table_ ∧
    ((s.Do txn c).1.txns txn).shared_lock_set_ = (s.txns txn).shared_lock_set_ ∧
    ((s.Do txn c).1.txns txn).exclusive_lock_set_ = (s.txns txn).exclusive_lock_set_ ∧
    (∀ t, t ≠ txn → (s.Do txn c).1.txns t = s.txns t) ∧
    (s.Do txn c).1.waiting = s.waiting := by
  rcases hc with hc | hc | ⟨hc, hiso⟩ <;> subst hc <;>
    simp [LockManager.Do, LockManager.LockExclusive, LockManager.LockUpgrade,
      LockManager.LockShared, LockManager.AbortTransaction, hst, LockManager.SetState_txns,
      LockManager.SetState_table, LockManager.SetState_waiting] <;>
    simp_all [LockManager.SetState_txns, LockManager.SetState_table, LockManager.SetState_waiting]

theorem lock_on_shrinking_witness :
    (((LockManager.new (fun _ => IsolationLevel.REPEATABLE_READ)).run
        [LockManager.Event.call 1 (LockManager.Call.LockShared ⟨0, 0⟩),
          LockManager.Event.call 1 (LockManager.Call.Unlock ⟨0, 0⟩)]).txns 1).state_ =
      TransactionState.SHRINKING ∧
    (((LockManager.new (fun _ => IsolationLevel.REPEATABLE_READ)).run
        [LockManager.Event.call 1 (LockManager.Call.LockShared ⟨0, 0⟩),
          LockManager.Event.call 1 (LockManager.Call.Unlock ⟨0, 0⟩)]).Do 1
        (LockManager.Call.LockExclusive ⟨0, 0⟩)).2 =
      LockManager.Outcome.abort AbortReason.LOCK_ON_SHRINKING :=
  ⟨by decide,
    (lock_on_shrinking
      ((LockManager.new (fun _ => IsolationLevel.REPEATABLE_READ)).run
        [LockManager.Event.call 1 (LockManager.Call.LockShared ⟨0, 0⟩),
          LockManager.Event.call 1 (LockManager.Call.Unlock ⟨0, 0⟩)])
      1 ⟨0, 0⟩ (LockManager.Call.LockExclusive ⟨0, 0⟩) (by decide) (Or.inl rfl)).1⟩

/-- C29: for a `READ_UNCOMMITTED` transaction in any state and any record, `LockShared` fails with `TransactionAbort` of reason `LOCKSHARED_ON_READ_UNCOMMITTED` and leaves the transaction `ABORTED`; the lock table, both lock sets of the transaction, every other transaction and the blocked calls are as before, whatever locks the transaction holds. -/
theorem lockshared_on_read_uncommitted (s : LockManager) (txn : txn_id_t) (rid : RID)
    (hiso : (s.txns txn).isolation_level_ = IsolationLevel.READ_UNCOMMITTED) :
    (s.LockShared txn rid).2 =
      LockManager.Outcome.abort AbortReason.LOCKSHARED_ON_READ_UNCOMMITTED ∧
    ((s.LockShared txn rid).1.txns txn).state_ = TransactionState.ABORTED ∧
    (s.LockShared txn rid).1.lock_table_ = s.lock_table_ ∧
    ((s.LockShared txn rid).1.txns txn).shared_lock_set_ = (s.txns txn).shared_lock_set_ ∧
    ((s.LockShared txn rid).1.txns txn).exclusive_lock_set_ = (s.txns txn).exclusive_lock_set_ ∧
    (∀ t, t ≠ txn → (s.LockShared txn rid).1.txns t = s.txns t) ∧
    (s.LockShared txn rid).1.waiting = s.waiting := by
  simp [LockManager.LockShared, LockManager.AbortTransaction, hiso, LockManager.SetState_txns,
    LockManager.SetState_table, LockManager.SetState_waiting]
  intro t ht
  simp [ht]

theorem lockshared_on_read_uncommitted_witness :
    (((LockManager.new (fun _ => IsolationLevel.READ_UNCOMMITTED)).run
        [LockManager.Event.call 1 (LockManager.Call.LockExclusive ⟨0, 0⟩)]).txns 1).exclusive_lock_set_
        ⟨0, 0⟩ = true ∧
    (((LockManager.new (fun _ => IsolationLevel.READ_UNCOMMITTED)).run
        [LockManager.Event.call 1 (LockManager.Call.LockExclusive ⟨0, 0⟩)]).LockShared 1 ⟨0, 0⟩).2 =
      LockManager.Outcome.abort AbortReason.LOCKSHARED_ON_READ_UNCOMMITTED ∧
    (((LockManager.new (fun _ => IsolationLevel.READ_UNCOMMITTED)).run
        [LockManager.Event.call 1 (LockManager.Call.LockExclusive ⟨0, 0⟩)]).LockShared 1 ⟨0, 0⟩).1.lock_table_ =
      ((LockManager.new (fun _ => IsolationLevel.READ_UNCOMMITTED)).run
        [LockManager.Event.call 1 (LockManager.Call.LockExclusive ⟨0, 0⟩)]).lock_table_ :=
  ⟨by decide,
    (lockshared_on_read_uncommitted
      ((LockManager.new (fun _ => IsolationLevel.READ_UNCOMMITTED)).run
        [LockManager.Event.call 1 (LockManager.Call.LockExclusive ⟨0, 0⟩)]) 1 ⟨0, 0⟩ rfl).1,
    (lockshared_on_read_uncommitted
      ((LockManager.new (fun _ => IsolationLevel.READ_UNCOMMITTED)).run
        [LockManager.Event.call 1 (LockManager.Call.LockExclusive ⟨0, 0⟩)]) 1 ⟨0, 0⟩ rfl).2.2.1⟩

theorem WaitsFor.touch_mem (g : WaitsFor) (t : txn_id_t) : t ∈ (g.touch t).keys := by
  unfold WaitsFor.touch
  split_ifs with h
  · exact h
  · simp

theorem WaitsFor.touch_keys (g : WaitsFor) (t x : txn_id_t) :
    x ∈ (g.touch t).keys ↔ x ∈ g.keys ∨ x = t := by
  unfold WaitsFor.touch
  split_ifs with h
  · constructor
    · exact Or.inl
    · rintro (h1 | h1)
      · exact h1
      · rw [h1]; exact h
  · simp

theorem WaitsFor.touch_vec (g : WaitsFor) (t x : txn_id_t) (hx : x ∈ g.keys) :
    (g.touch t).vec x = g.vec x := by
  unfold WaitsFor.touch
  split_ifs with h
  · rfl
  · have : x ≠ t := fun hc => h (hc ▸ hx)
    simp [setAt, this]

theorem WaitsFor.touch_vec_new (g : WaitsFor) (t : txn_id_t) (ht : t ∉ g.keys) :
    (g.touch t).vec t = [] := by
  simp [WaitsFor.touch, ht, setAt]

/-- Evaluating `waits_for_[t]` changes no edge. -/
theorem WaitsFor.Edge_touch (g : WaitsFor) (t u w : txn_id_t) :
    (g.touch t).Edge u w ↔ g.Edge u w := by
  unfold WaitsFor.Edge
  by_cases ht : t ∈ g.keys
  · simp [WaitsFor.touch, ht]
  · constructor
    · rintro ⟨h1, h2⟩
      by_cases hu : u = t
      · subst hu
        rw [WaitsFor.touch_vec_new g u ht] at h2
        cases h2
      · rcases (g.touch_keys t u).mp h1 with h3 | h3
        · exact ⟨h3, by rw [← g.touch_vec t u h3]; exact h2⟩
        · exact absurd h3 hu
    · rintro ⟨h1, h2⟩
      exact ⟨(g.touch_keys t u).mpr (Or.inl h1), by rw [g.touch_vec t u h1]; exact h2⟩

theorem mem_GetEdgeList (g : WaitsFor) (u w : txn_id_t) :
    (u, w) ∈ LockManager.GetEdgeList g ↔ g.Edge u w := by
  simp [LockManager.GetEdgeList, WaitsFor.Edge, List.mem_flatMap]

/-- What `std::lower_bound` finds in a strictly increasing vector. -/
theorem lower_bound_spec : ∀ (v : List txn_id_t) (x : txn_id_t), v.Pairwise (fun a b => a < b) →
    lower_bound v x ≤ v.length ∧ (∀ y ∈ v.take (lower_bound v x), y < x) ∧
    (∀ y ∈ v.drop (lower_bound v x), x ≤ y)
  | [], x, _ => by simp [lower_bound]
  | a :: v, x, h => by
    obtain ⟨h1, h2⟩ := List.pairwise_cons.mp h
    obtain ⟨i1, i2, i3⟩ := lower_bound_spec v x h2
    unfold lower_bound at *
    rw [List.findIdx_cons]
    by_cases hxa : x ≤ a
    · simp only [hxa, decide_True, cond_true, List.take_zero, List.drop_zero]
      refine ⟨Nat.zero_le _, by simp, ?_⟩
      intro y hy
      rcases List.mem_cons.mp hy with h3 | h3
      · rw [h3]; exact hxa
      · exact le_trans hxa (le_of_lt (h1 y h3))
    · simp only [hxa, decide_False, cond_false, List.take_succ_cons, List.drop_succ_cons,
        List.length_cons]
      refine ⟨Nat.succ_le_succ i1, ?_, i3⟩
      intro y hy
      rcases List.mem_cons.mp hy with h3 | h3
      · rw [h3]; exact lt_of_not_le hxa
      · exact i2 y h3

theorem lower_bound_hit (v : List txn_id_t) (x : txn_id_t) (h : v.Pairwise (fun a b => a < b)) :
    v.get? (lower_bound v x) = some x ↔ x ∈ v := by
  obtain ⟨h1, h2, h3⟩ := lower_bound_spec v x h
  constructor
  · intro hg
    exact List.get?_mem hg
  · intro hx
    have hsplit : x ∈ v.take (lower_bound v x) ++ v.drop (lower_bound v x) := by
      rw [List.take_append_drop]; exact hx
    rcases List.mem_append.mp hsplit with h4 | h4
    · exact absurd (h2 x h4) (lt_irrefl x)
    · cases hd : v.drop (lower_bound v x) with
      | nil => rw [hd] at h4; cases h4
      | cons y rest =>
        have hy : v.get? (lower_bound v x) = some y := by
          have := List.get?_drop v (lower_bound v x) 0
          rw [hd] at this
          simpa using this.symm
        rw [hy]
        have hp : (v.drop (lower_bound v x)).Pairwise (fun a b => a < b) :=
          List.Pairwise.sublist (List.drop_sublist _ _) h
        rw [hd] at hp h4 h3
        rcases List.mem_cons.mp h4 with h5 | h5
        · rw [h5]
        · have h6 := (List.pairwise_cons.mp hp).1 x h5
          have h7 := h3 y (List.mem_cons_self _ _)
          exact absurd h6 (not_lt.mpr h7)

/-- The vector with `x` put at its `lower_bound` is strictly increasing again. -/
theorem lower_bound_insert (v : List txn_id_t) (x : txn_id_t)
    (h : v.Pairwise (fun a b => a < b)) (hx : x ∉ v) :
    (v.take (lower_bound v x) ++ x :: v.drop (lower_bound v x)).Pairwise (fun a b => a < b) := by
  obtain ⟨h1, h2, h3⟩ := lower_bound_spec v x h
  rw [List.pairwise_append]
  refine ⟨List.Pairwise.sublist (List.take_sublist _ _) h, ?_, ?_⟩
  · rw [List.pairwise_cons]
    refine ⟨?_, List.Pairwise.sublist (List.drop_sublist _ _) h⟩
    intro y hy
    have := h3 y hy
    have hne : y ≠ x := fun hc => hx (hc ▸ List.mem_of_mem_drop hy)
    exact lt_of_le_of_ne this (Ne.symm hne)
  · intro a ha b hb
    rcases List.mem_cons.mp hb with h4 | h4
    · rw [h4]; exact h2 a ha
    · exact lt_of_lt_of_le (h2 a ha) (h3 b h4)

theorem GraphOK_empty : GraphOK WaitsFor.empty :=
  ⟨List.nodup_nil, fun _ => List.Pairwise.nil⟩

theorem GraphOK_touch (g : WaitsFor) (t : txn_id_t) (h : GraphOK g) : GraphOK (g.touch t) := by
  unfold WaitsFor.touch
  split_ifs with ht
  · exact h
  · refine ⟨?_, ?_⟩
    · simp only
      rw [List.nodup_append]
      refine ⟨h.1, List.nodup_singleton t, ?_⟩
      intro a ha hb
      rw [List.mem_singleton] at hb
      exact ht (hb ▸ ha)
    · intro x
      simp only [setAt]
      split_ifs
      · exact List.Pairwise.nil
      · exact h.2 x

theorem AddEdge_vec (g : WaitsFor) (t1 t2 x : txn_id_t) (w : txn_id_t) :
    w ∈ (LockManager.AddEdge g t1 t2).vec x ↔
      w ∈ (g.touch t1).vec x ∨ (x = t1 ∧ w = t2) := by
  unfold LockManager.AddEdge
  simp only
  split_ifs with hg
  · constructor
    · exact Or.inl
    · rintro (h | ⟨h1, h2⟩)
      · exact h
      · rw [h1, h2]; exact List.get?_mem hg
  · simp only [setAt]
    split_ifs with hx
    · subst hx
      constructor
      · intro h
        rcases List.mem_append.mp h with h1 | h1
        · exact Or.inl (List.mem_of_mem_take h1)
        · rcases List.mem_cons.mp h1 with h2 | h2
          · exact Or.inr ⟨rfl, h2⟩
          · exact Or.inl (List.mem_of_mem_drop h2)
      · rintro (h | ⟨_, h⟩)
        · have : w ∈ ((g.touch x).vec x).take (lower_bound ((g.touch x).vec x) t2) ++
              ((g.touch x).vec x).drop (lower_bound ((g.touch x).vec x) t2) := by
            rw [List.take_append_drop]; exact h
          rcases List.mem_append.mp this with h1 | h1
          · exact List.mem_append_left _ h1
          · exact List.mem_append_right _ (List.mem_cons_of_mem _ h1)
        · rw [h]; simp
    · constructor
      · exact Or.inl
      · rintro (h | ⟨h1, _⟩)
        · exact h
        · exact absurd h1 hx

theorem AddEdge_keys (g : WaitsFor) (t1 t2 : txn_id_t) :
    (LockManager.AddEdge g t1 t2).keys = (g.touch t1).keys := by
  unfold LockManager.AddEdge
  simp only
  split_ifs <;> rfl

/-- `AddEdge` adds the edge and changes no other. -/
theorem Edge_AddEdge (g : WaitsFor) (t1 t2 u w : txn_id_t) :
    (LockManager.AddEdge g t1 t2).Edge u w ↔ g.Edge u w ∨ (u = t1 ∧ w = t2) := by
  unfold WaitsFor.Edge
  rw [AddEdge_keys, AddEdge_vec]
  have ht := g.Edge_touch t1 u w
  unfold WaitsFor.Edge at ht
  constructor
  · rintro ⟨h1, h2 | h2⟩
    · exact Or.inl (ht.mp ⟨h1, h2⟩)
    · exact Or.inr h2
  · rintro (h | ⟨h1, h2⟩)
    · have := ht.mpr h
      exact ⟨this.1, Or.inl this.2⟩
    · subst h1
      exact ⟨g.touch_mem u, Or.inr ⟨rfl, h2⟩⟩

theorem GraphOK_AddEdge (g : WaitsFor) (t1 t2 : txn_id_t) (h : GraphOK g) :
    GraphOK (LockManager.AddEdge g t1 t2) := by
  have h1 := GraphOK_touch g t1 h
  refine ⟨by rw [AddEdge_keys]; exact h1.1, ?_⟩
  intro x
  unfold LockManager.AddEdge
  simp only
  split_ifs with hg
  · exact h1.2 x
  · simp only [setAt]
    split_ifs with hx
    · exact lower_bound_insert _ t2 (h1.2 t1)
        (fun hc => hg ((lower_bound_hit _ t2 (h1.2 t1)).mpr hc))
    · exact h1.2 x

/-- `AddEdge` of an edge the graph has leaves the graph as it is. -/
theorem AddEdge_present (g : WaitsFor) (t1 t2 : txn_id_t) (h : GraphOK g)
    (he : g.Edge t1 t2) : LockManager.AddEdge g t1 t2 = g := by
  have ht : g.touch t1 = g := by simp [WaitsFor.touch, he.1]
  unfold LockManager.AddEdge
  simp only
  rw [ht, if_pos ((lower_bound_hit _ t2 (h.2 t1)).mpr he.2)]

theorem GraphOK_RemoveEdge (g : WaitsFor) (t1 t2 : txn_id_t) (h : GraphOK g) :
    GraphOK (LockManager.RemoveEdge g t1 t2) := by
  have h1 := GraphOK_touch g t1 h
  refine ⟨h1.1, ?_⟩
  intro x
  simp only [LockManager.RemoveEdge, setAt]
  split_ifs with hx
  · exact List.Pairwise.sublist (List.erase_sublist _ _) (h1.2 t1)
  · exact h1.2 x

/-- `RemoveEdge` removes the edge and changes no other. -/
theorem Edge_RemoveEdge (g : WaitsFor) (t1 t2 u w : txn_id_t) (h : GraphOK g) :
    (LockManager.RemoveEdge g t1 t2).Edge u w ↔ g.Edge u w ∧ ¬ (u = t1 ∧ w = t2) := by
  have h1 := GraphOK_touch g t1 h
  have ht := g.Edge_touch t1 u w
  unfold WaitsFor.Edge at ht ⊢
  simp only [LockManager.RemoveEdge, setAt]
  have hnd : ((g.touch t1).vec t1).Nodup :=
    (h1.2 t1).imp (fun hab => ne_of_lt hab)
  by_cases hu : u = t1
  · subst hu
    simp only [if_true]
    rw [hnd.mem_erase_iff]
    constructor
    · rintro ⟨h2, h3, h4⟩
      exact ⟨ht.mp ⟨h2, h4⟩, fun hc => h3 hc.2⟩
    · rintro ⟨h2, h3⟩
      have := ht.mpr h2
      exact ⟨this.1, fun hc => h3 ⟨trivial, hc⟩, this.2⟩
  · simp only [hu, if_false, false_and, not_false_eq_true, and_true]
    exact ht

/-- `RemoveEdge` of an edge the graph does not have leaves the edge list as it is. -/
theorem RemoveEdge_absent (g : WaitsFor) (t1 t2 : txn_id_t) (he : ¬ g.Edge t1 t2) :
    LockManager.GetEdgeList (LockManager.RemoveEdge g t1 t2) = LockManager.GetEdgeList g := by
  by_cases ht : t1 ∈ g.keys
  · have hn : t2 ∉ g.vec t1 := fun hc => he ⟨ht, hc⟩
    have : LockManager.RemoveEdge g t1 t2 = g := by
      simp only [LockManager.RemoveEdge, WaitsFor.touch, ht, if_true]
      rw [List.erase_of_not_mem hn]
      cases g
      simp only [WaitsFor.mk.injEq, true_and]
      funext x
      simp only [setAt]
      split_ifs with hx
      · rw [hx]
      · rfl
    rw [this]
  · simp only [LockManager.GetEdgeList, LockManager.RemoveEdge, WaitsFor.touch, ht, if_false,
      List.flatMap_append, List.flatMap_cons, List.flatMap_nil, List.append_nil]
    simp only [setAt, if_true, List.erase_nil, List.map_nil, List.append_nil]
    apply List.flatMap_congr
    intro x hx
    have : x ≠ t1 := fun hc => ht (hc ▸ hx)
    simp [this]

theorem GraphOK_applyAll (ops : List GraphOp) : ∀ g, GraphOK g → GraphOK (g.applyAll ops) := by
  induction ops with
  | nil => intro g h; exact h
  | cons op ops ih =>
    intro g h
    apply ih
    cases op with
    | AddEdge a b => exact GraphOK_AddEdge g a b h
    | RemoveEdge a b => exact GraphOK_RemoveEdge g a b h

theorem Edge_applyAll (t1 t2 : txn_id_t) (ops : List GraphOp) : ∀ (g : WaitsFor) (b : Bool),
    GraphOK g → (g.Edge t1 t2 ↔ b = true) →
    ((g.applyAll ops).Edge t1 t2 ↔ edgeAdded t1 t2 b ops = true) := by
  induction ops with
  | nil => intro g b _ hb; exact hb
  | cons op ops ih =>
    intro g b h hb
    cases op with
    | AddEdge a c =>
      simp only [WaitsFor.applyAll, List.foldl_cons, WaitsFor.apply, edgeAdded]
      split_ifs with hac
      · apply ih _ true (GraphOK_AddEdge g a c h)
        rw [Edge_AddEdge]
        simp [hac.1, hac.2]
      · apply ih _ b (GraphOK_AddEdge g a c h)
        rw [Edge_AddEdge, ← hb]
        constructor
        · rintro (h1 | h1)
          · exact h1
          · exact absurd ⟨h1.1.symm, h1.2.symm⟩ hac
        · exact Or.inl
    | RemoveEdge a c =>
      simp only [WaitsFor.applyAll, List.foldl_cons, WaitsFor.apply, edgeAdded]
      split_ifs with hac
      · apply ih _ false (GraphOK_RemoveEdge g a c h)
        rw [Edge_RemoveEdge g a c t1 t2 h]
        simp [hac.1, hac.2]
      · apply ih _ b (GraphOK_RemoveEdge g a c h)
        rw [Edge_RemoveEdge g a c t1 t2 h, ← hb]
        constructor
        · exact fun h1 => h1.1
        · exact fun h1 => ⟨h1, fun hc => hac ⟨hc.1.symm, hc.2.symm⟩⟩

theorem GetEdgeList_nodup (g : WaitsFor) (h : GraphOK g) : (LockManager.GetEdgeList g).Nodup := by
  unfold LockManager.GetEdgeList
  rw [List.nodup_flatMap]
  refine ⟨?_, ?_⟩
  · intro x _
    exact List.Nodup.map (fun a b hab => (Prod.mk.inj hab).2)
      ((h.2 x).imp (fun hab => ne_of_lt hab))
  · refine h.1.imp ?_
    intro a b hab
    intro l
    simp only [List.mem_map]
    rintro ⟨x, _, rfl⟩ ⟨y, _, hy⟩
    exact hab (Prod.mk.inj hy).1.symm
/-! ## Lemmas on the cycle search -/

theorem foldl_max_spec : ∀ (l : List txn_id_t) (m : txn_id_t),
    m ≤ l.foldl max m ∧ (∀ x ∈ l, x ≤ l.foldl max m) ∧ (l.foldl max m = m ∨ l.foldl max m ∈ l)
  | [], m => ⟨le_refl m, (fun _ hx => by cases hx), Or.inl rfl⟩
  | a :: l, m => by
    obtain ⟨h1, h2, h3⟩ := foldl_max_spec l (max m a)
    simp only [List.foldl_cons]
    refine ⟨le_trans (le_max_left m a) h1, ?_, ?_⟩
    · intro x hx
      rcases List.mem_cons.mp hx with h4 | h4
      · rw [h4]; exact le_trans (le_max_right m a) h1
      · exact h2 x h4
    · rcases h3 with h3 | h3
      · rcases max_choice m a with h5 | h5
        · left; rw [h3, h5]
        · right; rw [h3, h5]; exact List.mem_cons_self _ _
      · right; exact List.mem_cons_of_mem _ h3

theorem foldl_max_stack : ∀ (l : List txn_id_t) (m : txn_id_t) (s : List txn_id_t),
    l.foldl (fun (r : txn_id_t × List txn_id_t) x => (max r.1 x, x :: r.2)) (m, s) =
      (l.foldl max m, l.reverse ++ s)
  | [], m, s => rfl
  | a :: l, m, s => by
    simp only [List.foldl_cons, List.reverse_cons, List.append_assoc, List.singleton_append]
    exact foldl_max_stack l (max m a) (a :: s)

theorem moveUntil_spec (vertex : txn_id_t) : ∀ (stack : List txn_id_t) (top : txn_id_t)
    (rest : List txn_id_t), vertex ∈ top :: stack →
    ∃ seg below, top :: stack = seg ++ vertex :: below ∧
      LockManager.moveUntil vertex top rest stack = .ok (vertex :: seg.reverse ++ rest, below)
  | [], top, rest, h => by
    have ht : top = vertex := by
      rw [List.mem_singleton] at h
      exact h.symm
    refine ⟨[], [], by simp [ht], ?_⟩
    simp [LockManager.moveUntil, ht]
  | x :: stack1, top, rest, h => by
    by_cases ht : top = vertex
    · refine ⟨[], x :: stack1, by simp [ht], ?_⟩
      simp [LockManager.moveUntil, ht]
    · have hv : vertex ∈ x :: stack1 := by
        rcases List.mem_cons.mp h with h1 | h1
        · exact absurd h1.symm ht
        · exact h1
      obtain ⟨seg, below, h1, h2⟩ := moveUntil_spec vertex stack1 x (top :: rest) hv
      refine ⟨top :: seg, below, by rw [h1]; rfl, ?_⟩
      rw [LockManager.moveUntil, if_neg ht, h2]
      simp

/-- `GetYoungestTransactionInCycle` leaves the stack as it was and returns the largest of
0 and the transactions from the top of the stack down to `vertex`. -/
theorem GetYoungest_spec (stack : List txn_id_t) (vertex : txn_id_t) (h : vertex ∈ stack) :
    ∃ seg below id, stack = seg ++ vertex :: below ∧
      LockManager.GetYoungestTransactionInCycle stack vertex = .ok (stack, id) ∧
      0 ≤ id ∧ (∀ x ∈ seg ++ [vertex], x ≤ id) ∧ (id = 0 ∨ id ∈ seg ++ [vertex]) := by
  cases stack with
  | nil => cases h
  | cons top stack1 =>
    obtain ⟨seg, below, h1, h2⟩ := moveUntil_spec vertex stack1 top [] h
    obtain ⟨m1, m2, m3⟩ := foldl_max_spec (vertex :: seg.reverse) 0
    refine ⟨seg, below, (vertex :: seg.reverse).foldl max 0, h1, ?_, m1, ?_, ?_⟩
    · simp only [LockManager.GetYoungestTransactionInCycle, bind, Except.bind, h2,
        List.append_nil]
      rw [foldl_max_stack]
      simp [h1]
    · intro x hx
      apply m2
      simp only [List.mem_append, List.mem_singleton] at hx
      simp only [List.mem_cons, List.mem_reverse]
      tauto
    · rcases m3 with m3 | m3
      · exact Or.inl m3
      · right
        simp only [List.mem_cons, List.mem_reverse] at m3
        simp only [List.mem_append, List.mem_singleton]
        tauto

/-- A back edge closes a cycle: the part of the stack from `vertex` up to the top. -/
theorem cycle_of_stack (E : txn_id_t → txn_id_t → Prop) (top vertex : txn_id_t)
    (rest seg below : List txn_id_t) (hs : top :: rest = seg ++ vertex :: below)
    (hc : List.Chain' (fun a b => E b a) (top :: rest)) (he : E top vertex) :
    IsCycle E (seg ++ [vertex]).reverse := by
  have hpre : List.Chain' (fun a b => E b a) (seg ++ [vertex]) := by
    have : top :: rest = (seg ++ [vertex]) ++ below := by rw [hs]; simp
    rw [this] at hc
    exact hc.left_of_append
  refine ⟨?_, top, vertex, ?_, ?_, he⟩
  · rw [List.chain'_reverse]
    exact hpre
  · rw [List.getLast?_reverse]
    cases seg with
    | nil =>
      simp only [List.nil_append, List.head?_cons, Option.some.injEq]
      simp only [List.nil_append, List.cons.injEq] at hs
      exact hs.1.symm
    | cons a seg1 =>
      simp only [List.cons_append, List.cons.injEq] at hs
      simp [hs.1]
  · simp

theorem unseen_mono (V : Finset txn_id_t)
    (visited visited1 : txn_id_t → Option LockManager.VisitedType)
    (h : DfsMono visited visited1) : unseen V visited1 ≤ unseen V visited := by
  unfold unseen
  apply Finset.card_le_card
  intro x hx
  rw [Finset.mem_filter] at hx ⊢
  refine ⟨hx.1, ?_⟩
  by_contra hc
  exact h.seen x hc hx.2

theorem unseen_mark (V : Finset txn_id_t) (visited : txn_id_t → Option LockManager.VisitedType)
    (v : txn_id_t) (c : LockManager.VisitedType) (hv : v ∈ V) (hn : visited v = none) :
    unseen V (setAt visited v (some c)) < unseen V visited := by
  unfold unseen
  apply Finset.card_lt_card
  rw [Finset.ssubset_iff_of_subset]
  · refine ⟨v, ?_, ?_⟩
    · rw [Finset.mem_filter]; exact ⟨hv, hn⟩
    · rw [Finset.mem_filter]
      simp [setAt]
  · intro x hx
    rw [Finset.mem_filter] at hx ⊢
    refine ⟨hx.1, ?_⟩
    have := hx.2
    simp only [setAt] at this
    split_ifs at this
    exact this

theorem DfsMono_refl (visited : txn_id_t → Option LockManager.VisitedType) :
    DfsMono visited visited := ⟨fun _ h => h, fun _ h => h⟩

theorem DfsMono_trans (a b c : txn_id_t → Option LockManager.VisitedType)
    (h1 : DfsMono a b) (h2 : DfsMono b c) : DfsMono a c :=
  ⟨fun x h => h2.done x (h1.done x h), fun x h => h2.seen x (h1.seen x h)⟩

theorem DfsMono_mark (visited : txn_id_t → Option LockManager.VisitedType) (v : txn_id_t)
    (c : LockManager.VisitedType)
    (hv : visited v ≠ some LockManager.VisitedType.VISITED ∨ c = LockManager.VisitedType.VISITED) :
    DfsMono visited (setAt visited v (some c)) := by
  refine ⟨?_, ?_⟩
  · intro x hx
    simp only [setAt]
    split_ifs with h
    · subst h
      rcases hv with hv | hv
      · exact absurd hx hv
      · rw [hv]
    · exact hx
  · intro x hx
    simp only [setAt]
    split_ifs
    · simp
    · exact hx
/-- The `for` loop of `ProcessDFSTree`, given what the recursive call does. -/
theorem ProcessLoop_spec (E : txn_id_t → txn_id_t → Prop) (V : Finset txn_id_t)
    (hV : ∀ u w, E u w → w ∈ V)
    (rec : LockManager.Dfs → Except Err (LockManager.Dfs × Option txn_id_t)) (fuel : Nat)
    (hrec : ∀ (st : LockManager.Dfs) (top : txn_id_t) (rest : List txn_id_t),
      st.stack = top :: rest → DfsInv E st → unseen V st.visited < fuel →
      ∃ st1 r, rec st = .ok (st1, r) ∧ st1.stack = rest ∧
        (∀ u w, st1.waits_for_.Edge u w ↔ E u w) ∧ (∀ id, r = some id → Found E id) ∧
        (r = none → DfsInv E st1 ∧
          st1.visited top = some LockManager.VisitedType.VISITED ∧
          DfsMono st.visited st1.visited)) :
    ∀ (adj : List txn_id_t) (st : LockManager.Dfs) (top : txn_id_t) (rest : List txn_id_t),
      st.stack = top :: rest → DfsInv E st → unseen V st.visited ≤ fuel →
      (∀ v ∈ adj, E top v) →
      ∃ st1 r, LockManager.ProcessLoop rec adj st = .ok (st1, r) ∧ st1.stack = top :: rest ∧
        (∀ u w, st1.waits_for_.Edge u w ↔ E u w) ∧ (∀ id, r = some id → Found E id) ∧
        (r = none → DfsInv E st1 ∧
          (∀ v ∈ adj, st1.visited v = some LockManager.VisitedType.VISITED) ∧
          DfsMono st.visited st1.visited) := by
  intro adj
  induction adj with
  | nil =>
    intro st top rest hs hinv _ _
    exact ⟨st, none, rfl, hs, hinv.edges, (fun id hc => by cases hc),
      fun _ => ⟨hinv, (fun v hv => by cases hv), DfsMono_refl _⟩⟩
  | cons v adj ih =>
    intro st top rest hs hinv hfuel hadj
    have hEv : E top v := hadj v (List.mem_cons_self _ _)
    have hadj2 : ∀ x ∈ adj, E top x := fun x hx => hadj x (List.mem_cons_of_mem _ hx)
    rw [LockManager.ProcessLoop]
    cases hv : st.visited v with
    | none =>
      simp only [hv]
      have hvs : v ∉ st.stack := fun hc => by
        have := (hinv.instack v).mpr hc
        rw [hv] at this; cases this
      have hinv1 : DfsInv E { st with stack := v :: st.stack, visited := setAt st.visited v (some LockManager.VisitedType.IN_STACK) } := by
        refine ⟨hinv.edges, ?_, ?_, ?_, ?_⟩
        · simp only
          rw [hs]
          exact List.Chain'.cons hEv (hs ▸ hinv.chain)
        · exact List.nodup_cons.mpr ⟨hvs, hinv.nodup⟩
        · intro x
          simp only [setAt, List.mem_cons]
          split_ifs with hx
          · simp [hx]
          · rw [hinv.instack x]
            simp [hx]
        · obtain ⟨rk, hrk⟩ := hinv.rank
          refine ⟨rk, ?_⟩
          intro u w hu huw
          simp only [setAt] at hu ⊢
          by_cases h1 : u = v
          · simp only [h1, if_true] at hu
            cases hu
          · simp only [h1, if_false] at hu
            obtain ⟨h2, h3⟩ := hrk u w hu huw
            have hwv : w ≠ v := fun hc => by rw [hc, hv] at h2; cases h2
            simp only [hwv, if_false]
            exact ⟨h2, h3⟩
      have hlt : unseen V (setAt st.visited v (some LockManager.VisitedType.IN_STACK)) <
          unseen V st.visited := unseen_mark V st.visited v _ (hV top v hEv) hv
      obtain ⟨st1, r, hr, hst1, he1, hf1, hn1⟩ := hrec _ v st.stack rfl hinv1
        (lt_of_lt_of_le hlt hfuel)
      simp only [bind, Except.bind, hr]
      cases r with
      | some id =>
        exact ⟨st1, some id, rfl, by rw [hst1, hs], he1, hf1, (fun hc => by cases hc)⟩
      | none =>
        obtain ⟨hi1, hv1, hm1⟩ := hn1 rfl
        simp only at hm1
        have hm0 : DfsMono st.visited st1.visited :=
          DfsMono_trans _ _ _ (DfsMono_mark st.visited v _ (Or.inl (by rw [hv]; simp))) hm1
        obtain ⟨st2, r2, hr2, hst2, he2, hf2, hn2⟩ := ih st1 top rest (by rw [hst1, hs]) hi1
          (le_trans (unseen_mono V _ _ hm0) hfuel) hadj2
        refine ⟨st2, r2, hr2, hst2, he2, hf2, ?_⟩
        intro hr2n
        obtain ⟨hi2, ha2, hm2⟩ := hn2 hr2n
        refine ⟨hi2, ?_, DfsMono_trans _ _ _ hm0 hm2⟩
        intro x hx
        rcases List.mem_cons.mp hx with h1 | h1
        · rw [h1]; exact hm2.done v hv1
        · exact ha2 x h1
    | some c =>
      cases c with
      | IN_STACK =>
        simp only [hv]
        have hvs : v ∈ st.stack := (hinv.instack v).mp hv
        obtain ⟨seg, below, id, h1, h2, h3, h4, h5⟩ := GetYoungest_spec st.stack v hvs
        simp only [bind, Except.bind, h2]
        refine ⟨{ st with stack := st.stack }, some id, rfl, hs, hinv.edges, ?_,
          (fun hc => by cases hc)⟩
        intro id1 hid
        cases hid
        refine ⟨(seg ++ [v]).reverse, ?_, h3, ?_, ?_⟩
        · exact cycle_of_stack E top v rest seg below (by rw [← hs]; exact h1)
            (hs ▸ hinv.chain) hEv
        · intro x hx
          exact h4 x (List.mem_reverse.mp hx)
        · rcases h5 with h5 | h5
          · exact Or.inl h5
          · exact Or.inr (List.mem_reverse.mpr h5)
      | VISITED =>
        simp only [hv]
        obtain ⟨st2, r2, hr2, hst2, he2, hf2, hn2⟩ := ih st top rest hs hinv hfuel hadj2
        refine ⟨st2, r2, hr2, hst2, he2, hf2, ?_⟩
        intro hr2n
        obtain ⟨hi2, ha2, hm2⟩ := hn2 hr2n
        refine ⟨hi2, ?_, hm2⟩
        intro x hx
        rcases List.mem_cons.mp hx with h1 | h1
        · rw [h1]; exact hm2.done v hv
        · exact ha2 x h1

theorem foldr_max_le (rk : txn_id_t → Nat) : ∀ (l : List txn_id_t) (w : txn_id_t), w ∈ l →
    rk w ≤ (l.map rk).foldr max 0
  | [], _, h => by cases h
  | a :: l, w, h => by
    simp only [List.map_cons, List.foldr_cons]
    rcases List.mem_cons.mp h with h1 | h1
    · rw [h1]; exact le_max_left _ _
    · exact le_trans (foldr_max_le rk l w h1) (le_max_right _ _)

/-- `ProcessDFSTree` returns: it pops the top of the stack, and either it has found a cycle
or the top of the stack is marked `VISITED` and the invariant holds again. -/
theorem ProcessDFSTree_spec (E : txn_id_t → txn_id_t → Prop) (V : Finset txn_id_t)
    (hV : ∀ u w, E u w → w ∈ V) : ∀ (fuel : Nat) (st : LockManager.Dfs) (top : txn_id_t)
    (rest : List txn_id_t), st.stack = top :: rest → DfsInv E st →
    unseen V st.visited < fuel →
    ∃ st1 r, LockManager.ProcessDFSTree fuel st = .ok (st1, r) ∧ st1.stack = rest ∧
      (∀ u w, st1.waits_for_.Edge u w ↔ E u w) ∧ (∀ id, r = some id → Found E id) ∧
      (r = none → DfsInv E st1 ∧ st1.visited top = some LockManager.VisitedType.VISITED ∧
        DfsMono st.visited st1.visited) := by
  intro fuel
  induction fuel with
  | zero => intro st top rest _ _ h; cases h
  | succ fuel ih =>
    intro st top rest hs hinv hfuel
    obtain ⟨g0, stk, vis⟩ := st
    simp only at hs
    subst hs
    have hedge : ∀ u w, (g0.touch top).Edge u w ↔ E u w := fun u w => by
      rw [WaitsFor.Edge_touch]; exact hinv.edges u w
    have hinv0 : DfsInv E { waits_for_ := g0.touch top, stack := top :: rest, visited := vis } :=
      ⟨hedge, hinv.chain, hinv.nodup, hinv.instack, hinv.rank⟩
    have hadj : ∀ v, v ∈ (g0.touch top).vec top ↔ E top v := fun v => by
      rw [← hedge top v]
      unfold WaitsFor.Edge
      simp [WaitsFor.touch_mem]
    obtain ⟨st1, r, hr, hst1, he1, hf1, hn1⟩ := ProcessLoop_spec E V hV
      (LockManager.ProcessDFSTree fuel) fuel ih ((g0.touch top).vec top)
      { waits_for_ := g0.touch top, stack := top :: rest, visited := vis } top rest rfl hinv0
      (Nat.lt_succ_iff.mp hfuel) (fun v hv => (hadj v).mp hv)
    rw [LockManager.ProcessDFSTree]
    simp only [bind, Except.bind, hr, hst1]
    refine ⟨_, r, rfl, rfl, he1, hf1, ?_⟩
    intro hrn
    obtain ⟨hi1, ha1, hm1⟩ := hn1 hrn
    simp only at hm1
    have htop1 : st1.visited top = some LockManager.VisitedType.IN_STACK := by
      rw [hi1.instack, hst1]; exact List.mem_cons_self _ _
    have hnd := hi1.nodup
    rw [hst1] at hnd
    have htr : top ∉ rest := (List.nodup_cons.mp hnd).1
    refine ⟨⟨he1, ?_, (List.nodup_cons.mp hnd).2, ?_, ?_⟩, by simp [setAt], ?_⟩
    · have := hi1.chain
      rw [hst1] at this
      exact this.tail
    · intro x
      simp only [setAt]
      split_ifs with hx
      · rw [hx]
        simp [htr]
      · rw [hi1.instack x, hst1]
        simp [hx]
    · obtain ⟨rk, hrk⟩ := hi1.rank
      refine ⟨setAt rk top ((((g0.touch top).vec top).map rk).foldr max 0 + 1), ?_⟩
      intro u w hu huw
      simp only [setAt] at hu ⊢
      by_cases hut : u = top
      · subst hut
        have hw := ha1 w ((hadj w).mpr huw)
        have hwt : w ≠ u := fun hc => by rw [hc, htop1] at hw; cases hw
        simp only [hwt, if_false, if_true]
        exact ⟨hw, Nat.lt_succ_of_le (foldr_max_le rk _ w ((hadj w).mpr huw))⟩
      · simp only [hut, if_false] at hu ⊢
        obtain ⟨h2, h3⟩ := hrk u w hu huw
        have hwt : w ≠ top := fun hc => by rw [hc, htop1] at h2; cases h2
        simp only [hwt, if_false]
        exact ⟨h2, h3⟩
    · exact DfsMono_trans _ _ _ hm1 (DfsMono_mark _ top _ (Or.inr rfl))
/-- Every vertex of a cycle has an edge to a vertex of the cycle. -/
theorem cycle_out (E : txn_id_t → txn_id_t → Prop) (c : List txn_id_t) (h : IsCycle E c)
    (x : txn_id_t) (hx : x ∈ c) : ∃ w, w ∈ c ∧ E x w := by
  obtain ⟨hch, a, b, ha, hb, hab⟩ := h
  obtain ⟨l1, l2, hc⟩ := List.append_of_mem hx
  cases l2 with
  | nil =>
    rw [hc, List.getLast?_concat] at ha
    have ha := Option.some.inj ha
    subst ha
    exact ⟨b, List.mem_of_mem_head? hb, hab⟩
  | cons y l3 =>
    rw [hc] at hch
    have h2 := (List.chain'_split.mp hch).2
    exact ⟨y, by rw [hc]; simp, (List.chain'_cons.mp h2).1⟩

/-- Ranks fall along a path through vertices marked `VISITED`. -/
theorem rank_chain (E : txn_id_t → txn_id_t → Prop)
    (visited : txn_id_t → Option LockManager.VisitedType) (rk : txn_id_t → Nat)
    (hrk : ∀ u w, visited u = some LockManager.VisitedType.VISITED → E u w →
      visited w = some LockManager.VisitedType.VISITED ∧ rk w < rk u) :
    ∀ (l : List txn_id_t) (b : txn_id_t), List.Chain E b l →
      visited b = some LockManager.VisitedType.VISITED →
      ∀ a, (b :: l).getLast? = some a →
        visited a = some LockManager.VisitedType.VISITED ∧ rk a ≤ rk b
  | [], b, _, hb, a, ha => by
    simp only [List.getLast?_singleton, Option.some.injEq] at ha
    subst ha
    exact ⟨hb, le_refl _⟩
  | x :: l, b, hc, hb, a, ha => by
    obtain ⟨h1, h2⟩ := List.chain_cons.mp hc
    obtain ⟨h3, h4⟩ := hrk b x hb h1
    have ha2 : (x :: l).getLast? = some a := by
      rw [List.getLast?_cons_cons] at ha
      exact ha
    obtain ⟨h5, h6⟩ := rank_chain E visited rk hrk l x h2 h3 a ha2
    exact ⟨h5, le_trans h6 (le_of_lt h4)⟩

/-- The `for` loop of `HasCycle` returns; it has found a cycle, or the vertices it went
through are marked `VISITED` and no cycle runs through marked vertices. -/
theorem HasCycleLoop_spec (E : txn_id_t → txn_id_t → Prop) (V : Finset txn_id_t)
    (hV : ∀ u w, E u w → w ∈ V) (fuel : Nat) (hfuel : V.card < fuel) :
    ∀ (vs : List txn_id_t) (g : WaitsFor) (visited : txn_id_t → Option LockManager.VisitedType),
      (∀ u w, g.Edge u w ↔ E u w) →
      (∀ v, visited v ≠ some LockManager.VisitedType.IN_STACK) →
      (∃ rk : txn_id_t → Nat, ∀ u w, visited u = some LockManager.VisitedType.VISITED →
        E u w → visited w = some LockManager.VisitedType.VISITED ∧ rk w < rk u) →
      ∃ g1 r, LockManager.HasCycleLoop fuel vs g visited = .ok (g1, r) ∧
        (∀ u w, g1.Edge u w ↔ E u w) ∧ (∀ id, r = some id → Found E id) ∧
        (r = none → ∃ visited1 : txn_id_t → Option LockManager.VisitedType,
          (∀ v ∈ vs, visited1 v = some LockManager.VisitedType.VISITED) ∧
          DfsMono visited visited1 ∧
          ∃ rk : txn_id_t → Nat, ∀ u w, visited1 u = some LockManager.VisitedType.VISITED →
            E u w → visited1 w = some LockManager.VisitedType.VISITED ∧ rk w < rk u) := by
  intro vs
  induction vs with
  | nil =>
    intro g visited he _ hrk
    exact ⟨g, none, rfl, he, (fun id hc => by cases hc),
      fun _ => ⟨visited, (fun v hv => by cases hv), DfsMono_refl _, hrk⟩⟩
  | cons v vs ih =>
    intro g visited he hns hrk
    rw [LockManager.HasCycleLoop]
    by_cases hv : visited v = none
    · rw [if_pos hv]
      have hinv : DfsInv E { waits_for_ := g, stack := [v], visited := setAt visited v (some LockManager.VisitedType.IN_STACK) } := by
        refine ⟨he, List.chain'_singleton v, List.nodup_singleton v, ?_, ?_⟩
        · intro x
          simp only [setAt, List.mem_singleton]
          split_ifs with hx
          · simp [hx]
          · simp [hx, hns x]
        · obtain ⟨rk, hrk1⟩ := hrk
          refine ⟨rk, ?_⟩
          intro u w hu huw
          simp only [setAt] at hu ⊢
          by_cases h1 : u = v
          · simp only [h1, if_true] at hu
            cases hu
          · simp only [h1, if_false] at hu
            obtain ⟨h2, h3⟩ := hrk1 u w hu huw
            have hwv : w ≠ v := fun hc => by rw [hc, hv] at h2; cases h2
            simp only [hwv, if_false]
            exact ⟨h2, h3⟩
      have hlt : unseen V (setAt visited v (some LockManager.VisitedType.IN_STACK)) < fuel :=
        lt_of_le_of_lt (Finset.card_filter_le _ _) hfuel
      obtain ⟨st1, r, hr, hst1, he1, hf1, hn1⟩ := ProcessDFSTree_spec E V hV fuel _ v [] rfl
        hinv hlt
      simp only [bind, Except.bind, hr]
      cases r with
      | some id => exact ⟨st1.waits_for_, some id, rfl, he1, hf1, (fun hc => by cases hc)⟩
      | none =>
        obtain ⟨hi1, hv1, hm1⟩ := hn1 rfl
        simp only at hm1
        have hns1 : ∀ x, st1.visited x ≠ some LockManager.VisitedType.IN_STACK := by
          intro x hc
          have := (hi1.instack x).mp hc
          rw [hst1] at this
          cases this
        obtain ⟨g2, r2, hr2, he2, hf2, hn2⟩ := ih st1.waits_for_ st1.visited he1 hns1 hi1.rank
        refine ⟨g2, r2, hr2, he2, hf2, ?_⟩
        intro hr2n
        obtain ⟨visited2, ha2, hm2, hrk2⟩ := hn2 hr2n
        refine ⟨visited2, ?_, ?_, hrk2⟩
        · intro x hx
          rcases List.mem_cons.mp hx with h1 | h1
          · rw [h1]; exact hm2.done v hv1
          · exact ha2 x h1
        · exact DfsMono_trans _ _ _
            (DfsMono_trans _ _ _ (DfsMono_mark visited v _ (Or.inl (by rw [hv]; simp))) hm1) hm2
    · rw [if_neg hv]
      obtain ⟨g2, r2, hr2, he2, hf2, hn2⟩ := ih g visited he hns hrk
      refine ⟨g2, r2, hr2, he2, hf2, ?_⟩
      intro hr2n
      obtain ⟨visited2, ha2, hm2, hrk2⟩ := hn2 hr2n
      refine ⟨visited2, ?_, hm2, hrk2⟩
      intro x hx
      rcases List.mem_cons.mp hx with h1 | h1
      · rw [h1]
        apply hm2.done
        cases hvv : visited v with
        | none => exact absurd hvv hv
        | some c =>
          cases c with
          | IN_STACK => exact absurd hvv (hns v)
          | VISITED => rfl
      · exact ha2 x h1

/-- `HasCycle` returns, leaves the edges as they are, returns true exactly if the graph has
a cycle, and then puts out the largest of 0 and the vertices of a cycle. -/
theorem HasCycle_spec (g : WaitsFor) :
    ∃ g1 r, LockManager.HasCycle g = .ok (g1, r) ∧ (∀ u w, g1.Edge u w ↔ g.Edge u w) ∧
      (∀ id, r = some id → Found g.Edge id) ∧ (r = none → ¬ ∃ c, IsCycle g.Edge c) := by
  have hV : ∀ u w, g.Edge u w →
      w ∈ ((LockManager.GetEdgeList g).map Prod.snd).toFinset := by
    intro u w h
    rw [List.mem_toFinset, List.mem_map]
    exact ⟨(u, w), (mem_GetEdgeList g u w).mpr h, rfl⟩
  have hcard : (((LockManager.GetEdgeList g).map Prod.snd).toFinset).card <
      g.keys.length + (LockManager.GetEdgeList g).length + 1 := by
    have := List.toFinset_card_le ((LockManager.GetEdgeList g).map Prod.snd)
    rw [List.length_map] at this
    omega
  obtain ⟨g1, r, hr, he, hf, hn⟩ := HasCycleLoop_spec g.Edge _ hV _ hcard
    (g.keys.insertionSort (fun a b => a ≤ b)) g (fun _ => none) (fun _ _ => Iff.rfl)
    (fun v hc => by cases hc) ⟨fun _ => 0, fun u w hc => by cases hc⟩
  refine ⟨g1, r, hr, he, hf, ?_⟩
  intro hrn
  obtain ⟨visited1, ha, _, rk, hrk⟩ := hn hrn
  rintro ⟨c, hc⟩
  obtain ⟨hch, a, b, hla, hhb, hab⟩ := hc
  have hbc : b ∈ c := List.mem_of_mem_head? hhb
  obtain ⟨w, _, hbw⟩ := cycle_out g.Edge c ⟨hch, a, b, hla, hhb, hab⟩ b hbc
  have hbv : visited1 b = some LockManager.VisitedType.VISITED := by
    apply ha
    rw [(List.perm_insertionSort _ _).mem_iff]
    exact hbw.1
  cases c with
  | nil => cases hhb
  | cons b1 l =>
    simp only [List.head?_cons, Option.some.injEq] at hhb
    subst hhb
    obtain ⟨h1, h2⟩ := rank_chain g.Edge visited1 rk hrk l b1 hch hbv a hla
    have := (hrk a b1 h1 hab).2
    omega
/-! ## Wait-for graph: the claims -/

/-- C32: after any sequence of `AddEdge` and `RemoveEdge` calls on an empty graph every vector of the graph is strictly increasing; `AddEdge` of an edge the graph has leaves the graph as it is and `RemoveEdge` of an edge it does not have leaves the edge list as it is; and `GetEdgeList` returns each pair at most once and has exactly the pairs that were added and not removed by a later call. -/
theorem graph_after_calls (ops : List GraphOp) :
    (∀ t, ((WaitsFor.empty.applyAll ops).vec t).Pairwise (fun a b => a < b)) ∧
    (∀ t1 t2, (t1, t2) ∈ LockManager.GetEdgeList (WaitsFor.empty.applyAll ops) →
      LockManager.AddEdge (WaitsFor.empty.applyAll ops) t1 t2 = WaitsFor.empty.applyAll ops) ∧
    (∀ t1 t2, (t1, t2) ∉ LockManager.GetEdgeList (WaitsFor.empty.applyAll ops) →
      LockManager.GetEdgeList (LockManager.RemoveEdge (WaitsFor.empty.applyAll ops) t1 t2) =
        LockManager.GetEdgeList (WaitsFor.empty.applyAll ops)) ∧
    (LockManager.GetEdgeList (WaitsFor.empty.applyAll ops)).Nodup ∧
    (∀ t1 t2, (t1, t2) ∈ LockManager.GetEdgeList (WaitsFor.empty.applyAll ops) ↔
      edgeAdded t1 t2 false ops = true) := by
  have hok := GraphOK_applyAll ops WaitsFor.empty GraphOK_empty
  refine ⟨hok.2, ?_, ?_, GetEdgeList_nodup _ hok, ?_⟩
  · intro t1 t2 h
    exact AddEdge_present _ t1 t2 hok ((mem_GetEdgeList _ t1 t2).mp h)
  · intro t1 t2 h
    exact RemoveEdge_absent _ t1 t2 (fun hc => h ((mem_GetEdgeList _ t1 t2).mpr hc))
  · intro t1 t2
    rw [mem_GetEdgeList]
    apply Edge_applyAll t1 t2 ops WaitsFor.empty false GraphOK_empty
    simp [WaitsFor.Edge, WaitsFor.empty]

/-- C38: for every wait-for graph `HasCycle` returns, it returns true if and only if the graph has a directed cycle (a vertex with an edge to itself is one), and `GetEdgeList` has the same pairs after the call as before. -/
theorem HasCycle_iff_cycle (g : WaitsFor) :
    ∃ g1 r, LockManager.HasCycle g = .ok (g1, r) ∧
      (r.isSome = true ↔ ∃ c, IsCycle g.Edge c) ∧
      (∀ e, e ∈ LockManager.GetEdgeList g1 ↔ e ∈ LockManager.GetEdgeList g) := by
  obtain ⟨g1, r, hr, he, hf, hn⟩ := HasCycle_spec g
  refine ⟨g1, r, hr, ?_, ?_⟩
  · cases r with
    | none => simpa using hn rfl
    | some id =>
      obtain ⟨c, hc, _⟩ := hf id rfl
      simp only [Option.isSome_some, true_iff]
      exact ⟨c, hc⟩
  · rintro ⟨u, w⟩
    rw [mem_GetEdgeList, mem_GetEdgeList]
    exact he u w

/-- C31: for a wait-for graph whose transaction ids are not negative, when `HasCycle` returns true the id it puts out is a vertex of a directed cycle of the graph and no vertex of that cycle has a larger id; for the graph with the two edges from `T1` to `T2` and from `T2` to `T1` it returns true and puts out the larger of `T1` and `T2`. -/
theorem HasCycle_youngest :
    (∀ (g : WaitsFor) (id : txn_id_t), (∀ t ∈ g.keys, 0 ≤ t ∧ ∀ w ∈ g.vec t, 0 ≤ w) →
      (LockManager.HasCycle g).toOption.map Prod.snd = some (some id) →
      ∃ c, IsCycle g.Edge c ∧ id ∈ c ∧ ∀ x ∈ c, x ≤ id) ∧
    (∀ T1 T2 : txn_id_t, 0 ≤ T1 → 0 ≤ T2 →
      (LockManager.HasCycle (WaitsFor.empty.applyAll
        [GraphOp.AddEdge T1 T2, GraphOp.AddEdge T2 T1])).toOption.map Prod.snd =
        some (some (max T1 T2))) := by
  constructor
  · intro g id hpos h
    obtain ⟨g1, r, hr, _, hf, _⟩ := HasCycle_spec g
    rw [hr] at h
    simp only [Except.toOption, Option.map_some', Option.some.injEq] at h
    obtain ⟨c, hc, h0, hle, hmem⟩ := hf id h
    refine ⟨c, hc, ?_, hle⟩
    rcases hmem with hz | hm
    · obtain ⟨_, a, b, _, hb, _⟩ := And.intro hc.1 hc.2
      have hbc : b ∈ c := List.mem_of_mem_head? hb
      obtain ⟨w, _, hbw⟩ := cycle_out g.Edge c hc b hbc
      have h1 := (hpos b hbw.1).1
      have h2 := hle b hbc
      have : b = id := le_antisymm h2 (by rw [hz]; exact h1)
      rw [← this]; exact hbc
    · exact hm
  · intro T1 T2 h1 h2
    have hE : ∀ u w, (WaitsFor.empty.applyAll
        [GraphOp.AddEdge T1 T2, GraphOp.AddEdge T2 T1]).Edge u w ↔
        (u = T1 ∧ w = T2) ∨ (u = T2 ∧ w = T1) := by
      intro u w
      simp only [WaitsFor.applyAll, List.foldl_cons, List.foldl_nil, WaitsFor.apply]
      rw [Edge_AddEdge, Edge_AddEdge]
      simp [WaitsFor.Edge, WaitsFor.empty]
    obtain ⟨g1, r, hr, _, hf, hn⟩ := HasCycle_spec (WaitsFor.empty.applyAll
      [GraphOp.AddEdge T1 T2, GraphOp.AddEdge T2 T1])
    rw [hr]
    simp only [Except.toOption, Option.map_some', Option.some.injEq]
    cases r with
    | none =>
      exfalso
      apply hn rfl
      refine ⟨[T1, T2], ?_, T2, T1, rfl, rfl, (hE T2 T1).mpr (Or.inr ⟨rfl, rfl⟩)⟩
      exact List.chain'_pair.mpr ((hE T1 T2).mpr (Or.inl ⟨rfl, rfl⟩))
    | some id =>
      obtain ⟨c, hc, h0, hle, hmem⟩ := hf id rfl
      have hsub : ∀ x ∈ c, x = T1 ∨ x = T2 := by
        intro x hx
        obtain ⟨w, _, hxw⟩ := cycle_out _ c hc x hx
        rcases (hE x w).mp hxw with h3 | h3
        · exact Or.inl h3.1
        · exact Or.inr h3.1
      have hboth : T1 ∈ c ∧ T2 ∈ c := by
        obtain ⟨_, a, b, _, hb, _⟩ := And.intro hc.1 hc.2
        have hbc : b ∈ c := List.mem_of_mem_head? hb
        obtain ⟨w, hwc, hbw⟩ := cycle_out _ c hc b hbc
        rcases (hE b w).mp hbw with h3 | h3
        · exact ⟨h3.1 ▸ hbc, h3.2 ▸ hwc⟩
        · exact ⟨h3.2 ▸ hwc, h3.1 ▸ hbc⟩
      have hi1 := hle T1 hboth.1
      have hi2 := hle T2 hboth.2
      congr 1
      apply le_antisymm
      · rcases hmem with hz | hm
        · rw [hz]; exact le_trans h1 (le_max_left _ _)
        · rcases hsub id hm with h3 | h3
          · rw [h3]; exact le_max_left _ _
          · rw [h3]; exact le_max_right _ _
      · exact max_le hi1 hi2

theorem HasCycle_youngest_witness :
    (∀ t ∈ (WaitsFor.empty.applyAll [GraphOp.AddEdge 1 2, GraphOp.AddEdge 2 3,
        GraphOp.AddEdge 3 1, GraphOp.AddEdge 3 4]).keys,
      0 ≤ t ∧ ∀ w ∈ (WaitsFor.empty.applyAll [GraphOp.AddEdge 1 2, GraphOp.AddEdge 2 3,
        GraphOp.AddEdge 3 1, GraphOp.AddEdge 3 4]).vec t, 0 ≤ w) ∧
    (LockManager.HasCycle (WaitsFor.empty.applyAll [GraphOp.AddEdge 1 2, GraphOp.AddEdge 2 3,
        GraphOp.AddEdge 3 1, GraphOp.AddEdge 3 4])).toOption.map Prod.snd = some (some 3) ∧
    (∃ c, IsCycle (WaitsFor.empty.applyAll [GraphOp.AddEdge 1 2, GraphOp.AddEdge 2 3,
        GraphOp.AddEdge 3 1, GraphOp.AddEdge 3 4]).Edge c ∧ 3 ∈ c ∧ ∀ x ∈ c, x ≤ 3) ∧
    (LockManager.HasCycle (WaitsFor.empty.applyAll
        [GraphOp.AddEdge 7 4, GraphOp.AddEdge 4 7])).toOption.map Prod.snd =
      some (some (max 7 4)) :=
  ⟨by decide, by decide,
    HasCycle_youngest.1 _ 3 (by decide) (by decide),
    HasCycle_youngest.2 7 4 (by decide) (by decide)⟩
/-! ## Lemmas on the deadlock detection -/

theorem Edge_foldl_holdings (t1 : txn_id_t) : ∀ (hs : List txn_id_t) (g : WaitsFor)
    (u w : txn_id_t),
    (hs.foldl (fun g t2 => LockManager.AddEdge g t1 t2) g).Edge u w ↔
      g.Edge u w ∨ (u = t1 ∧ w ∈ hs)
  | [], g, u, w => by simp
  | a :: hs, g, u, w => by
    simp only [List.foldl_cons]
    rw [Edge_foldl_holdings t1 hs, Edge_AddEdge]
    simp only [List.mem_cons]
    tauto

theorem Edge_foldl_waitings (hs : List txn_id_t) : ∀ (ws : List txn_id_t) (g : WaitsFor)
    (u w : txn_id_t),
    (ws.foldl (fun g t1 => hs.foldl (fun g t2 => LockManager.AddEdge g t1 t2) g) g).Edge u w ↔
      g.Edge u w ∨ (u ∈ ws ∧ w ∈ hs)
  | [], g, u, w => by simp
  | a :: ws, g, u, w => by
    simp only [List.foldl_cons]
    rw [Edge_foldl_waitings hs ws, Edge_foldl_holdings]
    simp only [List.mem_cons]
    constructor
    · rintro ((h | ⟨h1, h2⟩) | h)
      · exact Or.inl h
      · exact Or.inr ⟨Or.inl h1, h2⟩
      · exact Or.inr ⟨Or.inr h.1, h.2⟩
    · rintro (h | ⟨h1 | h1, h2⟩)
      · exact Or.inl (Or.inl h)
      · exact Or.inl (Or.inr ⟨h1, h2⟩)
      · exact Or.inr ⟨h1, h2⟩

/-- The edges of the graph `BuildWaitsForGraph` builds. -/
theorem Edge_Build (s : LockManager) : ∀ (rids : List RID) (g : WaitsFor) (u w : txn_id_t),
    (LockManager.BuildWaitsForGraph s rids g).Edge u w ↔ g.Edge u w ∨ s.Waits rids u w := by
  intro rids
  induction rids with
  | nil =>
    intro g u w
    simp [LockManager.BuildWaitsForGraph, LockManager.Waits]
  | cons rid rids ih =>
    intro g u w
    unfold LockManager.BuildWaitsForGraph
    rw [List.foldl_cons]
    have := ih ((fun g rid =>
      let queue := ((s.lock_table_ rid).request_queue_).filter
        (fun r => decide ((s.txns r.txn_id_).state_ ≠ TransactionState.ABORTED))
      let holdings := (queue.filter (fun r => r.granted_)).map (fun r => r.txn_id_)
      let waitings := (queue.filter (fun r => !r.granted_)).map (fun r => r.txn_id_)
      waitings.foldl (fun g t1 => holdings.foldl (fun g t2 => LockManager.AddEdge g t1 t2) g) g)
      g rid) u w
    unfold LockManager.BuildWaitsForGraph at this
    rw [this]
    simp only
    rw [Edge_foldl_waitings]
    simp only [LockManager.Waits, List.mem_map, List.mem_filter, List.mem_cons,
      decide_eq_true_eq, Bool.not_eq_true', exists_eq_or_imp]
    constructor
    · rintro ((h | ⟨⟨r1, ⟨⟨h1, h2⟩, h3⟩, h4⟩, ⟨r2, ⟨⟨h5, h6⟩, h7⟩, h8⟩⟩) | h)
      · exact Or.inl h
      · right; left
        exact ⟨r1, h1, r2, h5, h4, h3, by rw [← h4]; exact h2, h8, h7, by rw [← h8]; exact h6⟩
      · right; right; exact h
    · rintro (h | ⟨r1, h1, r2, h5, h4, h3, h2, h8, h7, h6⟩ | h)
      · exact Or.inl (Or.inl h)
      · left; right
        exact ⟨⟨r1, ⟨⟨h1, by rw [h4]; exact h2⟩, h3⟩, h4⟩, ⟨r2, ⟨⟨h5, by rw [h8]; exact h6⟩, h7⟩, h8⟩⟩
      · exact Or.inr h

theorem Edge_Build_empty (s : LockManager) (rids : List RID) (u w : txn_id_t) :
    (LockManager.BuildWaitsForGraph s rids WaitsFor.empty).Edge u w ↔ s.Waits rids u w := by
  rw [Edge_Build]
  simp [WaitsFor.Edge, WaitsFor.empty]

theorem liveTxns_card (s : LockManager) (rids : List RID) :
    (s.liveTxns rids).card ≤ s.requestCount rids := by
  unfold LockManager.liveTxns LockManager.requestCount
  refine le_trans (Finset.card_filter_le _ _) (le_trans (List.toFinset_card_le _) ?_)
  induction rids with
  | nil => simp
  | cons rid rids ih =>
    simp only [List.flatMap_cons, List.length_append, List.length_map, List.map_cons,
      List.sum_cons]
    omega

theorem Waits_live (s : LockManager) (rids : List RID) (u w : txn_id_t)
    (h : s.Waits rids u w) : u ∈ s.liveTxns rids := by
  obtain ⟨rid, hrid, r1, hr1, _, _, h1, _, h2, _⟩ := h
  unfold LockManager.liveTxns
  rw [Finset.mem_filter, List.mem_toFinset, List.mem_flatMap]
  exact ⟨⟨rid, hrid, List.mem_map.mpr ⟨r1, hr1, h1⟩⟩, h2⟩

theorem Waits_nonneg (s : LockManager) (rids : List RID)
    (hpos : ∀ rid ∈ rids, ∀ r ∈ (s.lock_table_ rid).request_queue_, 0 ≤ r.txn_id_)
    (u w : txn_id_t) (h : s.Waits rids u w) : 0 ≤ u := by
  obtain ⟨rid, hrid, r1, hr1, _, _, h1, _⟩ := h
  rw [← h1]
  exact hpos rid hrid r1 hr1

/-- The loop of the detection pass ends: every round marks a transaction that was not
`ABORTED`, and the graph of the transactions left has no cycle. -/
theorem DetectLoop_spec : ∀ (fuel : Nat) (s : LockManager) (rids : List RID) (g : WaitsFor),
    (∀ rid ∈ rids, ∀ r ∈ (s.lock_table_ rid).request_queue_, 0 ≤ r.txn_id_) →
    (∀ u w, g.Edge u w ↔ s.Waits rids u w) → (s.liveTxns rids).card < fuel →
    ∃ s1 g1 aborted, LockManager.DetectLoop fuel s rids g = .ok (s1, g1, aborted) ∧
      aborted.Nodup ∧ (∀ t ∈ aborted, (s.txns t).state_ ≠ TransactionState.ABORTED) ∧
      s1.lock_table_ = s.lock_table_ ∧ s1.waiting = s.waiting ∧
      (∀ t, s1.txns t = if t ∈ aborted then
          { s.txns t with state_ := TransactionState.ABORTED } else s.txns t) ∧
      (∀ u w, g1.Edge u w ↔ s1.Waits rids u w) ∧
      ¬ ∃ c, IsCycle (s1.Waits rids) c := by
  intro fuel
  induction fuel with
  | zero => intro s rids g _ _ h; cases h
  | succ fuel ih =>
    intro s rids g hpos hg hfuel
    obtain ⟨g1, r, hr, he, hf, hn⟩ := HasCycle_spec g
    have hEeq : g.Edge = s.Waits rids := by
      funext u w
      exact propext (hg u w)
    rw [LockManager.DetectLoop]
    simp only [bind, Except.bind, hr]
    cases r with
    | none =>
      refine ⟨s, g1, [], rfl, List.nodup_nil, (fun t ht => by cases ht), rfl, rfl, ?_, ?_, ?_⟩
      · intro t; simp
      · intro u w; rw [he, hg]
      · rw [← hEeq]; exact hn rfl
    | some id =>
      obtain ⟨c, hc, h0, hle, hmem⟩ := hf id rfl
      rw [hEeq] at hc
      have hidc : id ∈ c := by
        rcases hmem with hz | hm
        · obtain ⟨_, a, b, _, hb, _⟩ := And.intro hc.1 hc.2
          have hbc : b ∈ c := List.mem_of_mem_head? hb
          obtain ⟨w, _, hbw⟩ := cycle_out _ c hc b hbc
          have h1 := Waits_nonneg s rids hpos b w hbw
          have h2 := hle b hbc
          have : b = id := le_antisymm h2 (by rw [hz]; exact h1)
          rw [← this]; exact hbc
        · exact hm
      obtain ⟨w, _, hidw⟩ := cycle_out _ c hc id hidc
      have hlive : id ∈ s.liveTxns rids := Waits_live s rids id w hidw
      have hstate : (s.txns id).state_ ≠ TransactionState.ABORTED := by
        unfold LockManager.liveTxns at hlive
        exact (Finset.mem_filter.mp hlive).2
      have hlt : ((s.SetState id TransactionState.ABORTED).liveTxns rids).card <
          (s.liveTxns rids).card := by
        apply Finset.card_lt_card
        rw [Finset.ssubset_iff_of_subset]
        · refine ⟨id, hlive, ?_⟩
          unfold LockManager.liveTxns
          rw [Finset.mem_filter]
          simp [LockManager.SetState_txns]
        · intro x hx
          unfold LockManager.liveTxns at hx ⊢
          rw [Finset.mem_filter] at hx ⊢
          refine ⟨hx.1, ?_⟩
          have := hx.2
          rw [LockManager.SetState_txns] at this
          split_ifs at this with hxi
          · simp at this
          · exact this
      obtain ⟨s2, g2, aborted, hd, hnd, hab, hlt2, hw2, htx, hg2, hno⟩ :=
        ih (s.SetState id TransactionState.ABORTED) rids
          (LockManager.BuildWaitsForGraph (s.SetState id TransactionState.ABORTED) rids
            WaitsFor.empty)
          hpos (fun u w => Edge_Build_empty _ rids u w) (by omega)
      simp only [hd]
      have hidab : id ∉ aborted := by
        intro hc2
        have := hab id hc2
        simp [LockManager.SetState_txns] at this
      refine ⟨s2, g2, id :: aborted, rfl, List.nodup_cons.mpr ⟨hidab, hnd⟩, ?_, hlt2, hw2,
        ?_, hg2, hno⟩
      · intro t ht
        rcases List.mem_cons.mp ht with h1 | h1
        · rw [h1]; exact hstate
        · have := hab t h1
          rw [LockManager.SetState_txns] at this
          split_ifs at this with hti
          · simp at this
          · exact this
      · intro t
        rw [htx t, LockManager.SetState_txns]
        by_cases hta : t ∈ aborted
        · have hti : t ≠ id := fun hc2 => hidab (hc2 ▸ hta)
          simp [hta, hti]
        · by_cases hti : t = id
          · simp [hta, hti]
          · simp [hta, hti]
/-! ## Deadlock detection: the claims -/

/-- Why `detection_pass` below asks for ids that are not negative, as the transaction manager hands them out: suppose the transactions -1 and -2 each hold the exclusive lock on one record and wait for the exclusive lock on the other. `HasCycle` finds the cycle and puts out 0, the value `GetYoungestTransactionInCycle` starts from, so the pass marks transaction 0, which is in no queue; the graph built afterwards is the same, `HasCycle` puts out 0 again and the pass marks a transaction that is `ABORTED` already; the rounds the model allows do not end the loop. -/
theorem detection_aborts_outsider :
    (LockManager.HasCycle (LockManager.BuildWaitsForGraph
      ((LockManager.new (fun _ => IsolationLevel.REPEATABLE_READ)).run
        [LockManager.Event.call (-1) (LockManager.Call.LockExclusive ⟨0, 0⟩),
          LockManager.Event.call (-2) (LockManager.Call.LockExclusive ⟨0, 1⟩),
          LockManager.Event.call (-1) (LockManager.Call.LockExclusive ⟨0, 1⟩),
          LockManager.Event.call (-2) (LockManager.Call.LockExclusive ⟨0, 0⟩)])
      [⟨0, 0⟩, ⟨0, 1⟩] WaitsFor.empty)).toOption.map Prod.snd = some (some 0) ∧
    LockManager.GetEdgeList (LockManager.BuildWaitsForGraph
      ((LockManager.new (fun _ => IsolationLevel.REPEATABLE_READ)).run
        [LockManager.Event.call (-1) (LockManager.Call.LockExclusive ⟨0, 0⟩),
          LockManager.Event.call (-2) (LockManager.Call.LockExclusive ⟨0, 1⟩),
          LockManager.Event.call (-1) (LockManager.Call.LockExclusive ⟨0, 1⟩),
          LockManager.Event.call (-2) (LockManager.Call.LockExclusive ⟨0, 0⟩)])
      [⟨0, 0⟩, ⟨0, 1⟩] WaitsFor.empty) = [(-2, -1), (-1, -2)] ∧
    (LockManager.HasCycle (LockManager.BuildWaitsForGraph
      (((LockManager.new (fun _ => IsolationLevel.REPEATABLE_READ)).run
        [LockManager.Event.call (-1) (LockManager.Call.LockExclusive ⟨0, 0⟩),
          LockManager.Event.call (-2) (LockManager.Call.LockExclusive ⟨0, 1⟩),
          LockManager.Event.call (-1) (LockManager.Call.LockExclusive ⟨0, 1⟩),
          LockManager.Event.call (-2) (LockManager.Call.LockExclusive ⟨0, 0⟩)]).SetState 0
        TransactionState.ABORTED)
      [⟨0, 0⟩, ⟨0, 1⟩] WaitsFor.empty)).toOption.map Prod.snd = some (some 0) ∧
    Err.of (LockManager.RunCycleDetection
      ((LockManager.new (fun _ => IsolationLevel.REPEATABLE_READ)).run
        [LockManager.Event.call (-1) (LockManager.Call.LockExclusive ⟨0, 0⟩),
          LockManager.Event.call (-2) (LockManager.Call.LockExclusive ⟨0, 1⟩),
          LockManager.Event.call (-1) (LockManager.Call.LockExclusive ⟨0, 1⟩),
          LockManager.Event.call (-2) (LockManager.Call.LockExclusive ⟨0, 0⟩)])
      [⟨0, 0⟩, ⟨0, 1⟩]) = some Err.outOfFuel :=
  ⟨by decide, by decide, by decide, by decide⟩

/-- C39: for every lock table (its transaction ids are not negative, as the transaction manager hands them out) and every assignment of transaction states, one detection pass over the records `rids` returns; the transactions it marks `ABORTED` are distinct and none of them was `ABORTED` before the pass; the lock table and the blocked calls are as before and every other transaction is as before; and the wait-for graph `BuildWaitsForGraph` builds from the state after the pass has no cycle. -/
theorem detection_pass (s : LockManager) (rids : List RID)
    (hpos : ∀ rid ∈ rids, ∀ r ∈ (s.lock_table_ rid).request_queue_, 0 ≤ r.txn_id_) :
    ∃ s1 g1 aborted, LockManager.RunCycleDetection s rids = .ok (s1, g1, aborted) ∧
      aborted.Nodup ∧ (∀ t ∈ aborted, (s.txns t).state_ ≠ TransactionState.ABORTED) ∧
      s1.lock_table_ = s.lock_table_ ∧ s1.waiting = s.waiting ∧
      (∀ t, s1.txns t = if t ∈ aborted then
          { s.txns t with state_ := TransactionState.ABORTED } else s.txns t) ∧
      ¬ ∃ c, IsCycle (LockManager.BuildWaitsForGraph s1 rids WaitsFor.empty).Edge c := by
  obtain ⟨s1, g1, aborted, h1, h2, h3, h4, h5, h6, _, h8⟩ :=
    DetectLoop_spec (s.requestCount rids + 1) s rids
      (LockManager.BuildWaitsForGraph s rids WaitsFor.empty) hpos
      (fun u w => Edge_Build_empty s rids u w)
      (Nat.lt_succ_of_le (liveTxns_card s rids))
  refine ⟨s1, g1, aborted, h1, h2, h3, h4, h5, h6, ?_⟩
  have : (LockManager.BuildWaitsForGraph s1 rids WaitsFor.empty).Edge = s1.Waits rids := by
    funext u w
    exact propext (Edge_Build_empty s1 rids u w)
  rw [this]
  exact h8

theorem detection_pass_witness :
    (∀ rid ∈ [(⟨0, 0⟩ : RID), ⟨0, 1⟩],
      ∀ r ∈ (((LockManager.new (fun _ => IsolationLevel.REPEATABLE_READ)).run
        [LockManager.Event.call 1 (LockManager.Call.LockExclusive ⟨0, 0⟩),
          LockManager.Event.call 2 (LockManager.Call.LockExclusive ⟨0, 1⟩),
          LockManager.Event.call 1 (LockManager.Call.LockExclusive ⟨0, 1⟩),
          LockManager.Event.call 2 (LockManager.Call.LockExclusive ⟨0, 0⟩)]).lock_table_
            rid).request_queue_, 0 ≤ r.txn_id_) ∧
    (LockManager.RunCycleDetection
      ((LockManager.new (fun _ => IsolationLevel.REPEATABLE_READ)).run
        [LockManager.Event.call 1 (LockManager.Call.LockExclusive ⟨0, 0⟩),
          LockManager.Event.call 2 (LockManager.Call.LockExclusive ⟨0, 1⟩),
          LockManager.Event.call 1 (LockManager.Call.LockExclusive ⟨0, 1⟩),
          LockManager.Event.call 2 (LockManager.Call.LockExclusive ⟨0, 0⟩)])
      [⟨0, 0⟩, ⟨0, 1⟩]).toOption.map (fun r => r.2.2) = some [2] ∧
    ∃ s1 g1 aborted, LockManager.RunCycleDetection
      ((LockManager.new (fun _ => IsolationLevel.REPEATABLE_READ)).run
        [LockManager.Event.call 1 (LockManager.Call.LockExclusive ⟨0, 0⟩),
          LockManager.Event.call 2 (LockManager.Call.LockExclusive ⟨0, 1⟩),
          LockManager.Event.call 1 (LockManager.Call.LockExclusive ⟨0, 1⟩),
          LockManager.Event.call 2 (LockManager.Call.LockExclusive ⟨0, 0⟩)])
      [⟨0, 0⟩, ⟨0, 1⟩] = .ok (s1, g1, aborted) ∧ aborted.Nodup ∧
      ¬ ∃ c, IsCycle (LockManager.BuildWaitsForGraph s1 [⟨0, 0⟩, ⟨0, 1⟩]
        WaitsFor.empty).Edge c :=
  ⟨by decide, by decide,
    (detection_pass
      ((LockManager.new (fun _ => IsolationLevel.REPEATABLE_READ)).run
        [LockManager.Event.call 1 (LockManager.Call.LockExclusive ⟨0, 0⟩),
          LockManager.Event.call 2 (LockManager.Call.LockExclusive ⟨0, 1⟩),
          LockManager.Event.call 1 (LockManager.Call.LockExclusive ⟨0, 1⟩),
          LockManager.Event.call 2 (LockManager.Call.LockExclusive ⟨0, 0⟩)])
      [⟨0, 0⟩, ⟨0, 1⟩] (by decide)).imp fun s1 h => h.imp fun g1 h => h.imp fun aborted h =>
        ⟨h.1, h.2.1, h.2.2.2.2.2.2⟩⟩

/-! ## Matrices of the primer -/

theorem foldl_add_sum {T : Type} [AddCommMonoid T] (f : Nat → T) : ∀ (n : Nat),
    (List.range n).foldl (fun sum k => sum + f k) 0 = ∑ k in Finset.range n, f k
  | 0 => by simp
  | n + 1 => by
    rw [List.range_succ, List.foldl_append, foldl_add_sum f n, Finset.sum_range_succ]
    rfl

theorem SetElem_cols_spec {T : Type} (f : Nat → Nat → T) (i : Nat) : ∀ (n : Nat)
    (res : RowMatrix T),
    ((List.range n).foldl (fun res j => res.SetElem i j (f i j)) res).rows = res.rows ∧
    ((List.range n).foldl (fun res j => res.SetElem i j (f i j)) res).cols = res.cols ∧
    ∀ a b, ((List.range n).foldl (fun res j => res.SetElem i j (f i j)) res).data_ a b =
      if a = i ∧ b < n then f i b else res.data_ a b
  | 0, res => by simp
  | n + 1, res => by
    obtain ⟨h1, h2, h3⟩ := SetElem_cols_spec f i n res
    rw [List.range_succ, List.foldl_append]
    simp only [List.foldl_cons, List.foldl_nil]
    generalize (List.range n).foldl (fun res j => res.SetElem i j (f i j)) res = X at h1 h2 h3 ⊢
    simp only [RowMatrix.SetElem]
    refine ⟨h1, h2, ?_⟩
    intro a b
    rw [h3]
    by_cases ha : a = i
    · by_cases hb : b = n
      · simp [ha, hb]
      · by_cases hb2 : b < n
        · simp [ha, hb, hb2, Nat.lt_succ_of_lt hb2]
        · have : ¬ b < n + 1 := by omega
          simp [ha, hb, hb2, this]
    · simp [ha]

theorem SetElem_rows_spec {T : Type} (f : Nat → Nat → T) (cols : Nat) : ∀ (n : Nat)
    (res : RowMatrix T),
    ((List.range n).foldl (fun res i =>
      (List.range cols).foldl (fun res j => res.SetElem i j (f i j)) res) res).rows = res.rows ∧
    ((List.range n).foldl (fun res i =>
      (List.range cols).foldl (fun res j => res.SetElem i j (f i j)) res) res).cols = res.cols ∧
    ∀ a b, ((List.range n).foldl (fun res i =>
      (List.range cols).foldl (fun res j => res.SetElem i j (f i j)) res) res).data_ a b =
      if a < n ∧ b < cols then f a b else res.data_ a b
  | 0, res => by simp
  | n + 1, res => by
    obtain ⟨h1, h2, h3⟩ := SetElem_rows_spec f cols n res
    rw [List.range_succ, List.foldl_append]
    simp only [List.foldl_cons, List.foldl_nil]
    obtain ⟨k1, k2, k3⟩ := SetElem_cols_spec f n cols
      ((List.range n).foldl (fun res i =>
        (List.range cols).foldl (fun res j => res.SetElem i j (f i j)) res) res)
    refine ⟨by rw [k1, h1], by rw [k2, h2], ?_⟩
    intro a b
    rw [k3, h3]
    by_cases hb : b < cols
    · by_cases ha : a = n
      · simp [ha, hb]
      · by_cases ha2 : a < n
        · simp [ha, hb, ha2, Nat.lt_succ_of_lt ha2]
        · have : ¬ a < n + 1 := by omega
          simp [ha, hb, ha2, this]
    · simp [hb]

/-- C33: `MultiplyMatrices` returns `nullptr` when an argument is `nullptr` or the number of columns of `mat1` differs from the number of rows of `mat2`; otherwise it returns a matrix with the rows of `mat1` and the columns of `mat2` whose element `(i, j)` is the sum over `k` of `mat1(i, k) * mat2(k, j)`, whatever the new matrix held before. -/
theorem MultiplyMatrices_spec {T : Type} [NonUnitalNonAssocSemiring T] (junk : Nat → Nat → T)
    (mat1 mat2 : Option (RowMatrix T)) :
    (mat1 = none ∨ mat2 = none → RowMatrixOperations.MultiplyMatrices junk mat1 mat2 = none) ∧
    (∀ m1 m2, mat1 = some m1 → mat2 = some m2 → m1.GetColumns ≠ m2.GetRows →
      RowMatrixOperations.MultiplyMatrices junk mat1 mat2 = none) ∧
    (∀ m1 m2, mat1 = some m1 → mat2 = some m2 → m1.GetColumns = m2.GetRows →
      ∃ res, RowMatrixOperations.MultiplyMatrices junk mat1 mat2 = some res ∧
        res.GetRows = m1.GetRows ∧ res.GetColumns = m2.GetColumns ∧
        ∀ i j, i < m1.GetRows → j < m2.GetColumns →
          res.GetElem i j = ∑ k in Finset.range m1.GetColumns, m1.GetElem i k * m2.GetElem k j) := by
  refine ⟨?_, ?_, ?_⟩
  · rintro (h | h)
    · subst h; rfl
    · subst h
      cases mat1 <;> rfl
  · intro m1 m2 h1 h2 hne
    subst h1; subst h2
    simp [RowMatrixOperations.MultiplyMatrices, hne]
  · intro m1 m2 h1 h2 heq
    subst h1; subst h2
    simp only [RowMatrixOperations.MultiplyMatrices, heq, ne_eq, not_true_eq_false, if_false]
    obtain ⟨k1, k2, k3⟩ := SetElem_rows_spec
      (fun i j => (List.range m1.GetColumns).foldl
        (fun sum k => sum + m1.GetElem i k * m2.GetElem k j) 0) m2.GetColumns m1.GetRows
      { rows := m1.GetRows, cols := m2.GetColumns, data_ := junk }
    rw [heq] at k1 k2 k3
    refine ⟨_, rfl, k1, k2, ?_⟩
    intro i j hi hj
    unfold RowMatrix.GetElem at k3 ⊢
    rw [k3 i j]
    simp only [hi, hj, and_self, if_true]
    rw [← heq]
    exact foldl_add_sum (fun k => m1.data_ i k * m2.data_ k j) m1.GetColumns

theorem MultiplyMatrices_spec_witness :
    (RowMatrixOperations.MultiplyMatrices (fun _ _ => (7 : Int))
        (some { rows := 2, cols := 2, data_ := fun i j => (2 * i + j + 1 : Int) })
        (some { rows := 2, cols := 1, data_ := fun i _ => (i + 5 : Int) })).map
      (fun m => (m.GetRows, m.GetColumns, m.GetElem 0 0, m.GetElem 1 0)) =
      some (2, 1, 17, 39) ∧
    ∃ res, RowMatrixOperations.MultiplyMatrices (fun _ _ => (7 : Int))
        (some { rows := 2, cols := 2, data_ := fun i j => (2 * i + j + 1 : Int) })
        (some { rows := 2, cols := 1, data_ := fun i _ => (i + 5 : Int) }) = some res ∧
      res.GetRows = 2 ∧ res.GetColumns = 1 ∧
      ∀ i j, i < 2 → j < 1 → res.GetElem i j =
        ∑ k in Finset.range 2, (2 * (i : Int) + k + 1) * ((k : Int) + 5) :=
  ⟨by decide,
    (MultiplyMatrices_spec (fun _ _ => (7 : Int))
      (some { rows := 2, cols := 2, data_ := fun i j => (2 * i + j + 1 : Int) })
      (some { rows := 2, cols := 1, data_ := fun i _ => (i + 5 : Int) })).2.2 _ _ rfl rfl rfl⟩

/-! ## Lock manager: the upgrading flag after a call of `LockUpgrade` has ended -/

/-- Every exit of `LockUpgrade` but the successful one leaves the upgrading flag set: when
the flag of `rid` is clear and the call gets past its first three tests, then unless the
call returns `true` the flag is set in the state the call leaves, whether the call waits,
stops at one of its `BUSTUB_ASSERT`s or throws with reason `DEADLOCK`. -/
theorem LockManager.LockUpgrade_leaves_flag (s : LockManager) (txn : txn_id_t) (rid : RID)
    (hup : (s.lock_table_ rid).upgrading_ = false)
    (hst : (s.txns txn).state_ ≠ TransactionState.SHRINKING)
    (hx : (s.txns txn).exclusive_lock_set_ rid = false)
    (hret : (s.LockUpgrade txn rid).2 ≠ LockManager.Outcome.ret true) :
    ((s.LockUpgrade txn rid).1.lock_table_ rid).upgrading_ = true := by
  revert hret
  simp only [LockManager.LockUpgrade, LockManager.wait, LockManager.afterWait,
    LockManager.AbortTransaction, hst, hx, hup, if_false, Bool.false_eq_true]
  (repeat' split) <;>
    simp [LockManager.setQueue, LockManager.setTxn, LockManager.SetState, setRid]

/-- C34 (code defect). With leaf_max_size 3 and internal_max_size 4 the keys 1 to 7 are inserted in ascending order (values `10 * key`). `GetValue(5)` returns true with `[50]`; `Remove(1)` returns, and afterwards `GetValue(5)`, `GetValue(6)` and `GetValue(7)` return false, while `GetValue(2)` still returns true with `[20]`. -/
theorem Remove_loses_other_keys :
    Err.of ((BPlusTree.new 3 4).applyAll (insertAll [1, 2, 3, 4, 5, 6, 7])) = none ∧
    ((BPlusTree.new 3 4).applyAllD (insertAll [1, 2, 3, 4, 5, 6, 7])).find 5 =
      some (true, [50]) ∧
    Err.of (((BPlusTree.new 3 4).applyAllD (insertAll [1, 2, 3, 4, 5, 6, 7])).Remove 1) =
      none ∧
    ((BPlusTree.new 3 4).applyAllD
      (insertAll [1, 2, 3, 4, 5, 6, 7] ++ [TreeOp.Remove 1])).find 5 = some (false, []) ∧
    ((BPlusTree.new 3 4).applyAllD
      (insertAll [1, 2, 3, 4, 5, 6, 7] ++ [TreeOp.Remove 1])).find 6 = some (false, []) ∧
    ((BPlusTree.new 3 4).applyAllD
      (insertAll [1, 2, 3, 4, 5, 6, 7] ++ [TreeOp.Remove 1])).find 7 = some (false, []) ∧
    ((BPlusTree.new 3 4).applyAllD
      (insertAll [1, 2, 3, 4, 5, 6, 7] ++ [TreeOp.Remove 1])).find 2 = some (true, [20]) :=
  ⟨by decide, by decide, by decide, by decide, by decide, by decide, by decide⟩

/-! ## B+ tree: the split of a leaf -/

/-- C35 (code defect). With leaf_max_size 3 and internal_max_size 4 the keys 3, 4, 5, 2 are inserted (values `10 * key`): the leaf 1 holds `[2, 3]` and its `next_page_id` is the leaf 2, which holds `[4, 5]`. `Insert(1)` splits the leaf 1 with the three keys `[1, 2, 3]`: it keeps `[1]`, the new leaf 4 gets `[2, 3]` and the `next_page_id` of leaf 1 is 4, but the `next_page_id` of leaf 4 is `INVALID_PAGE_ID`, not 2. -/
theorem split_drops_next_link :
    Err.of ((BPlusTree.new 3 4).applyAll (insertAll [3, 4, 5, 2, 1])) = none ∧
    (((BPlusTree.new 3 4).applyAllD (insertAll [3, 4, 5, 2])).pages 1).map
      (fun n => (n.array.map Prod.fst, n.next_page_id_)) = some ([2, 3], 2) ∧
    (((BPlusTree.new 3 4).applyAllD (insertAll [3, 4, 5, 2])).pages 2).map
      (fun n => (n.array.map Prod.fst, n.next_page_id_)) = some ([4, 5], INVALID_PAGE_ID) ∧
    ((BPlusTree.new 3 4).applyAllD (insertAll [3, 4, 5, 2])).pages 4 = none ∧
    (((BPlusTree.new 3 4).applyAllD (insertAll [3, 4, 5, 2, 1])).pages 1).map
      (fun n => (n.array.map Prod.fst, n.next_page_id_)) = some ([1], 4) ∧
    (((BPlusTree.new 3 4).applyAllD (insertAll [3, 4, 5, 2, 1])).pages 4).map
      (fun n => (n.array.map Prod.fst, n.next_page_id_)) = some ([2, 3], INVALID_PAGE_ID) ∧
    (((BPlusTree.new 3 4).applyAllD (insertAll [3, 4, 5, 2, 1])).pages 2).map
      (fun n => (n.array.map Prod.fst, n.next_page_id_)) = some ([4, 5], INVALID_PAGE_ID) :=
  ⟨by decide, by decide, by decide, by decide, by decide, by decide, by decide⟩

/-! ## B+ tree: `KeyIndex` and `Insert` of a leaf page -/

/-- C36: for a leaf page whose keys are strictly increasing and a key `k` that is not in it, `KeyIndex(k)` is the number of keys smaller than `k`, and `Insert(k, v)` returns the old size plus 1 and leaves a page whose keys are strictly increasing and whose pairs are the old pairs and `(k, v)`, each as often as before. -/
theorem Leaf_Insert_spec (n : BPlusTreePage) (k : KeyType) (v : ValueType)
    (hs : n.array.Pairwise (fun x y => x.1 < y.1)) (hk : ∀ x ∈ n.array, x.1 ≠ k) :
    BPlusTreeLeafPage.KeyIndex n k = (n.array.filter (fun x => decide (x.1 < k))).length ∧
    (BPlusTreeLeafPage.Insert n k v).2 = n.GetSize + 1 ∧
    (BPlusTreeLeafPage.Insert n k v).1.GetSize = n.GetSize + 1 ∧
    (BPlusTreeLeafPage.Insert n k v).1.array.Pairwise (fun x y => x.1 < y.1) ∧
    (BPlusTreeLeafPage.Insert n k v).1.array.Perm ((k, v) :: n.array) := by
  obtain ⟨h1, h2, h3⟩ := KeyIndex_spec n k hs
  have hlook : BPlusTreeLeafPage.Lookup n k = none := by
    unfold BPlusTreeLeafPage.Lookup
    simp only
    cases hg : n.array.get? (BPlusTreeLeafPage.KeyIndex n k) with
    | none => rfl
    | some item =>
      simp only
      rw [if_neg (hk item (List.get?_mem hg))]
  refine ⟨?_, (Leaf_Insert_size n k v).1, (Leaf_Insert_size n k v).2,
    Leaf_Insert_sorted n k v hs hlook, ?_⟩
  · have hsplit : n.array = n.array.take (BPlusTreeLeafPage.KeyIndex n k) ++
        n.array.drop (BPlusTreeLeafPage.KeyIndex n k) := (List.take_append_drop _ _).symm
    have hf1 : (n.array.take (BPlusTreeLeafPage.KeyIndex n k)).filter
        (fun x => decide (x.1 < k)) = n.array.take (BPlusTreeLeafPage.KeyIndex n k) := by
      rw [List.filter_eq_self]
      intro x hx
      simpa using h2 x hx
    have hf2 : (n.array.drop (BPlusTreeLeafPage.KeyIndex n k)).filter
        (fun x => decide (x.1 < k)) = [] := by
      rw [List.filter_eq_nil_iff]
      intro x hx
      simpa using h3 x hx
    conv_rhs => rw [hsplit]
    rw [List.filter_append, hf1, hf2, List.append_nil, List.length_take]
    omega
  · unfold BPlusTreeLeafPage.Insert
    simp only
    have := @List.perm_middle _ (k, v) (n.array.take (BPlusTreeLeafPage.KeyIndex n k))
      (n.array.drop (BPlusTreeLeafPage.KeyIndex n k))
    rw [List.take_append_drop] at this
    exact this

theorem Leaf_Insert_spec_witness :
    ({ BPlusTreePage.zeroed with array := [(10, 100), (20, 200), (40, 400)] } :
      BPlusTreePage).array.Pairwise (fun x y => x.1 < y.1) ∧
    BPlusTreeLeafPage.KeyIndex
      { BPlusTreePage.zeroed with array := [(10, 100), (20, 200), (40, 400)] } 30 = 2 ∧
    (BPlusTreeLeafPage.Insert
      { BPlusTreePage.zeroed with array := [(10, 100), (20, 200), (40, 400)] } 30 300).2 =
      ({ BPlusTreePage.zeroed with array := [(10, 100), (20, 200), (40, 400)] } :
        BPlusTreePage).GetSize + 1 :=
  ⟨by decide, by decide,
    (Leaf_Insert_spec { BPlusTreePage.zeroed with array := [(10, 100), (20, 200), (40, 400)] }
      30 300 (by decide) (by decide)).2.1⟩

/-! ## Buffer pool: a `FetchPage` that returns no page -/

/-- C37: in every state reached from a new buffer pool manager by any calls, when `FetchPage` of a page that is not resident returns no page, the state after the call is the state before it: page table, free list, frames, disk and replacer with the order of its frames. -/
theorem FetchPage_none_unchanged (pool_size : Nat) (d : DiskManager) (ops : List Op)
    (p : page_id_t)
    (hnr : ((BufferPoolManager.new pool_size d).run ops).page_table_ p = none)
    (hnone : (((BufferPoolManager.new pool_size d).run ops).FetchPageImpl p).2 = none) :
    (((BufferPoolManager.new pool_size d).run ops).FetchPageImpl p).1 =
      (BufferPoolManager.new pool_size d).run ops := by
  have hinv : Inv ((BufferPoolManager.new pool_size d).run ops) :=
    Inv_of_reachable _ _ (Reachable_of_run pool_size d ops)
  cases hff : ((BufferPoolManager.new pool_size d).run ops).FindFrame with
  | mk s1 o =>
    cases o with
    | none =>
      rw [Fetch_miss_none _ s1 p hnr hff]
      exact FindFrame_none_eq _ s1 hinv hff
    | some f =>
      rw [Fetch_miss_some _ s1 p f hnr hff] at hnone
      cases hnone

theorem FetchPage_none_unchanged_witness :
    ((BufferPoolManager.new 1 DiskManager.empty).run [Op.NewPage]).page_table_ 5 = none ∧
    (((BufferPoolManager.new 1 DiskManager.empty).run [Op.NewPage]).FetchPageImpl 5).2 = none ∧
    (((BufferPoolManager.new 1 DiskManager.empty).run [Op.NewPage]).FetchPageImpl 5).1 =
      (BufferPoolManager.new 1 DiskManager.empty).run [Op.NewPage] :=
  ⟨by decide, by decide,
    FetchPage_none_unchanged 1 DiskManager.empty [Op.NewPage] 5 (by decide) (by decide)⟩

end bustub
